import Mathlib

/-!
NJU_DBPractice storage engine: B+tree index, buffer pool, replacers, table
heap, index scan

A shallow embedding of `src/storage/index/index_bptree.cpp`,
`src/storage/buffer/buffer_pool_manager.cpp`, the two replacers,
`src/system/handle/table_handle.cpp` and `src/execution/executor_idxscan.cpp`,
and the properties proved about them.

Conventions of the embedding.

* Page, frame and file identifiers are `Int`; the invalid identifier is `-1`.
* A key is a fixed-width byte string compared by `Record::Compare`, a total
  order on a finite set; it is embedded as an `Int` with the usual order.
* The key and value arrays of a node are the list of the first `size_`
  key/value pairs; `size_` is the length of that list.  Array capacity is not
  modelled.
* The B+tree reaches its pages through page guards of a buffer pool that is
  assumed to deliver every requested page.  The index file is the map
  `nodes` from page id to the node stored in the page, together with the
  `next_free_page_id` link of every page.  A page that was never written as a
  node is `none`; reading it as a node is undefined behaviour and is `none`
  in the embedding, as is every loop that runs out of fuel.
* Two guards held at once are assumed to name different pages.
-/

namespace njudb

/-- Sentinel page id. -/
def INVALID_PAGE_ID : Int := -1


/-- Record identifier: page and slot. -/
structure RID where
  page_no : Int
  slot_no : Int
deriving DecidableEq

/-! ## B+tree nodes -/

/-- Leaf node: common header, `next_page_id_`, and the `size_` key/RID pairs. -/
structure BPTreeLeafPage where
  page_id_ : Int
  parent_page_id_ : Int
  max_size_ : Nat
  next_page_id_ : Int
  entries : List (Int × RID)

/-- Internal node: common header and the `size_` key/child pairs; the key of
entry 0 is unused. -/
structure BPTreeInternalPage where
  page_id_ : Int
  parent_page_id_ : Int
  max_size_ : Nat
  entries : List (Int × Int)

/-- A node page, discriminated by `node_type_`. -/
inductive BPTreePage where
  | leaf (l : BPTreeLeafPage)
  | internal (n : BPTreeInternalPage)

namespace BPTreePage

def IsLeaf : BPTreePage → Bool
  | leaf _ => true
  | internal _ => false

def GetParentPageId : BPTreePage → Int
  | leaf l => l.parent_page_id_
  | internal n => n.parent_page_id_

def IsRoot (p : BPTreePage) : Bool := p.GetParentPageId = INVALID_PAGE_ID

def GetSize : BPTreePage → Nat
  | leaf l => l.entries.length
  | internal n => n.entries.length

def GetMaxSize : BPTreePage → Nat
  | leaf l => l.max_size_
  | internal n => n.max_size_

def GetPageId : BPTreePage → Int
  | leaf l => l.page_id_
  | internal n => n.page_id_

def SetParentPageId : BPTreePage → Int → BPTreePage
  | leaf l, p => leaf { l with parent_page_id_ := p }
  | internal n, p => internal { n with parent_page_id_ := p }

/-- `BPTreePage::IsSafe`. -/
def IsSafe (p : BPTreePage) (is_insert : Bool) : Bool :=
  if is_insert then decide (p.GetSize < p.GetMaxSize)
  else
    let min_size := if p.IsRoot then (if p.IsLeaf then 1 else 2) else (p.GetMaxSize + 1) / 2
    decide (p.GetSize > min_size)

end BPTreePage

namespace BPTreeLeafPage

/-- `BPTreeLeafPage::Init`. -/
def Init (page_id parent_id : Int) (max_size : Nat) : BPTreeLeafPage :=
  { page_id_ := page_id, parent_page_id_ := parent_id, max_size_ := max_size,
    next_page_id_ := INVALID_PAGE_ID, entries := [] }

def GetSize (l : BPTreeLeafPage) : Nat := l.entries.length

/-- `BPTreeLeafPage::KeyIndex`: first index whose key is `≥ key`, else `size_`. -/
def KeyIndex (l : BPTreeLeafPage) (key : Int) : Nat :=
  l.entries.findIdx (fun e => decide (key ≤ e.1))

def LowerBound (l : BPTreeLeafPage) (key : Int) : Nat := l.KeyIndex key

/-- `BPTreeLeafPage::UpperBound`: first index whose key is `> key`, else `size_`. -/
def UpperBound (l : BPTreeLeafPage) (key : Int) : Nat :=
  l.entries.findIdx (fun e => decide (key < e.1))

/-- `BPTreeLeafPage::Lookup`: the values from `KeyIndex` on while the key is equal. -/
def Lookup (l : BPTreeLeafPage) (key : Int) : List RID :=
  ((l.entries.drop (l.KeyIndex key)).takeWhile (fun e => decide (e.1 = key))).map Prod.snd

/-- `BPTreeLeafPage::Insert`: shift the tail from `KeyIndex` right by one and
store the pair there. -/
def Insert (l : BPTreeLeafPage) (key : Int) (value : RID) : BPTreeLeafPage :=
  let index := l.KeyIndex key
  { l with entries := l.entries.take index ++ (key, value) :: l.entries.drop index }

/-- `BPTreeLeafPage::CopyNFrom`. -/
def CopyNFrom (l : BPTreeLeafPage) (items : List (Int × RID)) : BPTreeLeafPage :=
  { l with entries := l.entries ++ items }

/-- `BPTreeLeafPage::MoveHalfTo`: returns the source and the recipient. -/
def MoveHalfTo (l recipient : BPTreeLeafPage) : BPTreeLeafPage × BPTreeLeafPage :=
  let move_size := l.GetSize / 2
  let start_idx := l.GetSize - move_size
  ({ l with entries := l.entries.take start_idx }, recipient.CopyNFrom (l.entries.drop start_idx))

/-- `BPTreeLeafPage::RemoveRecord`: `none` stands for the return value `-1`. -/
def RemoveRecord (l : BPTreeLeafPage) (key : Int) : Option BPTreeLeafPage :=
  let index := l.KeyIndex key
  match l.entries.get? index with
  | none => none
  | some e =>
    if e.1 = key then some { l with entries := l.entries.eraseIdx index } else none

/-- `BPTreeLeafPage::MoveAllTo`: returns the source and the recipient. -/
def MoveAllTo (l recipient : BPTreeLeafPage) : BPTreeLeafPage × BPTreeLeafPage :=
  ({ l with entries := [] },
   { recipient.CopyNFrom l.entries with next_page_id_ := l.next_page_id_ })

end BPTreeLeafPage

namespace BPTreeInternalPage

/-- `BPTreeInternalPage::Init`. -/
def Init (page_id parent_id : Int) (max_size : Nat) : BPTreeInternalPage :=
  { page_id_ := page_id, parent_page_id_ := parent_id, max_size_ := max_size, entries := [] }

def GetSize (n : BPTreeInternalPage) : Nat := n.entries.length

/-- Bounds-checked `KeyAt`. -/
def KeyAt (n : BPTreeInternalPage) (i : Nat) : Option Int := (n.entries.get? i).map Prod.fst

/-- Bounds-checked `ValueAt`. -/
def ValueAt (n : BPTreeInternalPage) (i : Nat) : Option Int := (n.entries.get? i).map Prod.snd

/-- Loop of `BPTreeInternalPage::Lookup` from index `i`: `prev` is `ValueAt(i-1)`
and the list holds the entries from `i` on. -/
def lookupFrom (key : Int) : Int → List (Int × Int) → Int
  | prev, [] => prev
  | prev, e :: es => if key < e.1 then prev else lookupFrom key e.2 es

/-- `BPTreeInternalPage::Lookup`: the child before the first separator `> key`. -/
def Lookup (n : BPTreeInternalPage) (key : Int) : Option Int :=
  match n.entries with
  | [] => none
  | e :: es => some (lookupFrom key e.2 es)

/-- Loop of `BPTreeInternalPage::LookupForLowerBound`. -/
def lookupLowerFrom (key : Int) : Int → List (Int × Int) → Int
  | prev, [] => prev
  | prev, e :: es => if key ≤ e.1 then prev else lookupLowerFrom key e.2 es

/-- `BPTreeInternalPage::LookupForLowerBound`: the child before the first
separator `≥ key`. -/
def LookupForLowerBound (n : BPTreeInternalPage) (key : Int) : Option Int :=
  match n.entries with
  | [] => none
  | e :: es => some (lookupLowerFrom key e.2 es)

def LookupForUpperBound (n : BPTreeInternalPage) (key : Int) : Option Int := n.Lookup key

/-- `BPTreeInternalPage::PopulateNewRoot`; the unused key of entry 0 is `0`. -/
def PopulateNewRoot (n : BPTreeInternalPage) (old_root_id : Int) (new_key : Int)
    (new_page_id : Int) : BPTreeInternalPage :=
  { n with entries := [(0, old_root_id), (new_key, new_page_id)] }

/-- Index of the first entry whose child is `v`, if any. -/
def ValueIndex (n : BPTreeInternalPage) (v : Int) : Option Nat :=
  let i := n.entries.findIdx (fun e => decide (e.2 = v))
  if i < n.entries.length then some i else none

/-- `BPTreeInternalPage::InsertNodeAfter`: unchanged when `old_value` is not a
child (return value `-1`). -/
def InsertNodeAfter (n : BPTreeInternalPage) (old_value : Int) (new_key : Int)
    (new_value : Int) : BPTreeInternalPage :=
  match n.ValueIndex old_value with
  | none => n
  | some index =>
    { n with entries := n.entries.take (index + 1) ++ (new_key, new_value) ::
        n.entries.drop (index + 1) }

end BPTreeInternalPage

/-! ## Index file -/

/-- `BPTreeIndexHeader` (page 0). -/
structure BPTreeIndexHeader where
  root_page_id_ : Int
  first_free_page_id_ : Int
  tree_height_ : Int
  page_num_ : Int
  num_entries_ : Int
  leaf_max_size_ : Nat
  internal_max_size_ : Nat

/-- The index: header page, node pages, and the free-chain link of each page. -/
structure BPTreeIndex where
  header : BPTreeIndexHeader
  nodes : Int → Option BPTreePage
  next_free : Int → Int

namespace BPTreeIndex

/-- `BPTreeIndex::InitializeIndex` on a fresh file, in `TEST_BPTREE` mode (the
macro is defined in the source). -/
def InitializeIndex : BPTreeIndex :=
  { header := { root_page_id_ := INVALID_PAGE_ID, first_free_page_id_ := INVALID_PAGE_ID,
                tree_height_ := 0, page_num_ := 1, num_entries_ := 0,
                leaf_max_size_ := 4, internal_max_size_ := 4 },
    nodes := fun _ => none,
    next_free := fun _ => INVALID_PAGE_ID }

/-- Bound on the iterations of any loop over pairwise different pages. -/
def fuel (t : BPTreeIndex) : Nat := t.header.page_num_.toNat + 1

def setNode (t : BPTreeIndex) (pid : Int) (p : BPTreePage) : BPTreeIndex :=
  { t with nodes := Function.update t.nodes pid (some p) }

/-- Read a page through a `BPTreeLeafPage *`. -/
def getLeaf (t : BPTreeIndex) (pid : Int) : Option BPTreeLeafPage :=
  match t.nodes pid with
  | some (.leaf l) => some l
  | _ => none

/-- Read a page through a `BPTreeInternalPage *`. -/
def getInternal (t : BPTreeIndex) (pid : Int) : Option BPTreeInternalPage :=
  match t.nodes pid with
  | some (.internal n) => some n
  | _ => none

/-- `SetParentPageId` on the page `pid`. -/
def setParent (t : BPTreeIndex) (pid parent : Int) : Option BPTreeIndex :=
  match t.nodes pid with
  | none => none
  | some p => some (t.setNode pid (p.SetParentPageId parent))

/-- The child updates of `BPTreeInternalPage::CopyNFrom`. -/
def reparent (t : BPTreeIndex) : List Int → Int → Option BPTreeIndex
  | [], _ => some t
  | c :: cs, parent =>
    match t.setParent c parent with
    | none => none
    | some t1 => reparent t1 cs parent

/-- `BPTreeIndex::NewPage`. -/
def NewPage (t : BPTreeIndex) : Int × BPTreeIndex :=
  if t.header.first_free_page_id_ ≠ INVALID_PAGE_ID then
    (t.header.first_free_page_id_,
     { t with header := { t.header with
         first_free_page_id_ := t.next_free t.header.first_free_page_id_ } })
  else
    (t.header.page_num_, { t with header := { t.header with page_num_ := t.header.page_num_ + 1 } })

/-- `BPTreeIndex::DeletePage`. -/
def DeletePage (t : BPTreeIndex) (page_id : Int) : BPTreeIndex :=
  { t with
    next_free := Function.update t.next_free page_id t.header.first_free_page_id_,
    header := { t.header with first_free_page_id_ := page_id } }

/-- Loop of `FindLeafPage`. -/
def FindLeafPageLoop (t : BPTreeIndex) (key : Int) (leftMost : Bool) : Nat → Int → Option Int
  | 0, _ => none
  | fuel + 1, curr_pid =>
    match t.nodes curr_pid with
    | none => none
    | some (.leaf _) => some curr_pid
    | some (.internal n) =>
      match (if leftMost then n.ValueAt 0 else n.Lookup key) with
      | none => none
      | some c => FindLeafPageLoop t key leftMost fuel c

/-- `BPTreeIndex::FindLeafPage`. -/
def FindLeafPage (t : BPTreeIndex) (key : Int) (leftMost : Bool) : Option Int :=
  if t.header.root_page_id_ = INVALID_PAGE_ID then some INVALID_PAGE_ID
  else FindLeafPageLoop t key leftMost t.fuel t.header.root_page_id_

/-- Loop of `FindLeafPageForRange`. -/
def FindLeafPageForRangeLoop (t : BPTreeIndex) (key : Int) (isLowerBound : Bool) :
    Nat → Int → Option Int
  | 0, _ => none
  | fuel + 1, curr_pid =>
    match t.nodes curr_pid with
    | none => none
    | some (.leaf _) => some curr_pid
    | some (.internal n) =>
      match (if isLowerBound then n.LookupForLowerBound key else n.LookupForUpperBound key) with
      | none => none
      | some c => FindLeafPageForRangeLoop t key isLowerBound fuel c

/-- `BPTreeIndex::FindLeafPageForRange`. -/
def FindLeafPageForRange (t : BPTreeIndex) (key : Int) (isLowerBound : Bool) : Option Int :=
  if t.header.root_page_id_ = INVALID_PAGE_ID then some INVALID_PAGE_ID
  else FindLeafPageForRangeLoop t key isLowerBound t.fuel t.header.root_page_id_

/-! ## Insertion -/

/-- `BPTreeIndex::StartNewTree`. -/
def StartNewTree (t : BPTreeIndex) (key : Int) (value : RID) : BPTreeIndex :=
  let new_pid := t.NewPage.1
  let t1 := t.NewPage.2
  let t2 : BPTreeIndex := { t1 with header := { t1.header with
    root_page_id_ := new_pid, tree_height_ := 1, num_entries_ := 1 } }
  t2.setNode new_pid
    (.leaf ((BPTreeLeafPage.Init new_pid INVALID_PAGE_ID t2.header.leaf_max_size_).Insert key value))

/-- `BPTreeIndex::InsertIntoNewRoot`. -/
def InsertIntoNewRoot (t : BPTreeIndex) (old_root_id : Int) (key : Int) (new_page_id : Int) :
    Option BPTreeIndex :=
  let new_root_pid := t.NewPage.1
  let t1 := t.NewPage.2
  let t2 : BPTreeIndex := { t1 with header := { t1.header with
    root_page_id_ := new_root_pid, tree_height_ := t1.header.tree_height_ + 1 } }
  let root_node := (BPTreeInternalPage.Init new_root_pid INVALID_PAGE_ID
    t2.header.internal_max_size_).PopulateNewRoot old_root_id key new_page_id
  let t3 := t2.setNode new_root_pid (.internal root_node)
  match t3.setParent old_root_id new_root_pid with
  | none => none
  | some t4 => t4.setParent new_page_id new_root_pid

/-- `BPTreeIndex::InsertIntoParent`; `fuel` bounds the recursion up the tree. -/
def InsertIntoParent : Nat → BPTreeIndex → Int → Int → Int → Option BPTreeIndex
  | 0, _, _, _, _ => none
  | fuel + 1, t, old_node_id, key, new_node_id =>
    match t.nodes old_node_id with
    | none => none
    | some old_node =>
      if old_node.IsRoot then t.InsertIntoNewRoot old_node_id key new_node_id
      else
        let parent_id := old_node.GetParentPageId
        match t.getInternal parent_id with
        | none => none
        | some parent_node =>
          if parent_node.GetSize ≤ parent_node.max_size_ then
            some (t.setNode parent_id
              (.internal (parent_node.InsertNodeAfter old_node_id key new_node_id)))
          else
            let new_parent_pid := t.NewPage.1
            let t1 := t.NewPage.2
            let new_parent0 := BPTreeInternalPage.Init new_parent_pid
              parent_node.parent_page_id_ parent_node.max_size_
            let parent1 := parent_node.InsertNodeAfter old_node_id key new_node_id
            -- MoveHalfTo
            let move_size := parent1.GetSize / 2
            let start_idx := parent1.GetSize - move_size
            let moved := parent1.entries.drop start_idx
            let new_parent1 : BPTreeInternalPage :=
              { new_parent0 with entries := new_parent0.entries ++ moved }
            let parent2 : BPTreeInternalPage :=
              { parent1 with entries := parent1.entries.take start_idx }
            match t1.reparent (moved.map Prod.snd) new_parent_pid with
            | none => none
            | some t2 =>
              let t3 := (t2.setNode parent_id (.internal parent2)).setNode new_parent_pid
                (.internal new_parent1)
              match new_parent1.KeyAt 0 with
              | none => none
              | some push_key => InsertIntoParent fuel t3 parent_id push_key new_parent_pid

/-- `BPTreeIndex::InsertIntoLeaf`. -/
def InsertIntoLeaf (t : BPTreeIndex) (key : Int) (value : RID) : Option BPTreeIndex :=
  match t.FindLeafPage key false with
  | none => none
  | some leaf_pid =>
    match t.getLeaf leaf_pid with
    | none => none
    | some leaf_node =>
      if leaf_node.GetSize < leaf_node.max_size_ then
        let t1 := t.setNode leaf_pid (.leaf (leaf_node.Insert key value))
        some { t1 with header := { t1.header with num_entries_ := t1.header.num_entries_ + 1 } }
      else
        let new_pid := t.NewPage.1
        let t1 := t.NewPage.2
        let new_leaf0 := BPTreeLeafPage.Init new_pid leaf_node.parent_page_id_ leaf_node.max_size_
        let leaf1 := (leaf_node.MoveHalfTo new_leaf0).1
        let new_leaf1 := (leaf_node.MoveHalfTo new_leaf0).2
        match new_leaf1.entries.head? with
        | none => none
        | some e =>
          let middle_key := e.1
          let leaf2 := if key < middle_key then leaf1.Insert key value else leaf1
          let new_leaf2 := if key < middle_key then new_leaf1 else new_leaf1.Insert key value
          let new_leaf3 := { new_leaf2 with next_page_id_ := leaf2.next_page_id_ }
          let leaf3 := { leaf2 with next_page_id_ := new_pid }
          let t2 := (t1.setNode leaf_pid (.leaf leaf3)).setNode new_pid (.leaf new_leaf3)
          match InsertIntoParent t2.fuel t2 leaf_pid middle_key new_pid with
          | none => none
          | some t3 =>
            some { t3 with header := { t3.header with num_entries_ := t3.header.num_entries_ + 1 } }

/-- `BPTreeIndex::Insert`. -/
def Insert (t : BPTreeIndex) (key : Int) (rid : RID) : Option BPTreeIndex :=
  if t.header.root_page_id_ = INVALID_PAGE_ID then some (t.StartNewTree key rid)
  else t.InsertIntoLeaf key rid

/-! ## Deletion -/

/-- `BPTreeIndex::AdjustRoot`. -/
def AdjustRoot (t : BPTreeIndex) (old_root_node : BPTreePage) : Option (Bool × BPTreeIndex) :=
  match old_root_node with
  | .leaf l =>
    if l.entries.length = 0 then
      let t1 : BPTreeIndex := { t with header := { t.header with
        root_page_id_ := INVALID_PAGE_ID, tree_height_ := 0 } }
      some (true, t1.DeletePage l.page_id_)
    else some (false, t)
  | .internal n =>
    if n.entries.length = 1 then
      match n.ValueAt 0 with
      | none => none
      | some new_root_id =>
        let t1 : BPTreeIndex := { t with header := { t.header with
          root_page_id_ := new_root_id, tree_height_ := t.header.tree_height_ - 1 } }
        match t1.setParent new_root_id INVALID_PAGE_ID with
        | none => none
        | some t2 => some (true, t2.DeletePage n.page_id_)
    else some (false, t)

/-- `SetKeyAt(i, key)` on an internal node, inside the first `size_` entries. -/
def setKeyAt (n : BPTreeInternalPage) (i : Nat) (key : Int) : Option BPTreeInternalPage :=
  match n.entries.get? i with
  | none => none
  | some e => some { n with entries := n.entries.set i (key, e.2) }

/-- `BPTreeIndex::Redistribute`; the two node pointers are given as page ids. -/
def Redistribute (t : BPTreeIndex) (neighbor_pid node_pid : Int) (index : Nat) :
    Option BPTreeIndex :=
  match t.nodes node_pid, t.nodes neighbor_pid with
  | some (.leaf leaf_node), some (.leaf neighbor_leaf) =>
    let parent_id := leaf_node.parent_page_id_
    match t.getInternal parent_id with
    | none => none
    | some parent_node =>
      if index = 0 then
        match neighbor_leaf.entries with
        | e :: e1 :: rest =>
          match setKeyAt parent_node 1 e1.1 with
          | none => none
          | some parent1 =>
            some (((t.setNode node_pid
                (.leaf { leaf_node with entries := leaf_node.entries ++ [e] })).setNode
              neighbor_pid (.leaf { neighbor_leaf with entries := e1 :: rest })).setNode
              parent_id (.internal parent1))
        | _ => none
      else
        match neighbor_leaf.entries.getLast? with
        | none => none
        | some e =>
          match setKeyAt parent_node index e.1 with
          | none => none
          | some parent1 =>
            some (((t.setNode node_pid
                (.leaf { leaf_node with entries := e :: leaf_node.entries })).setNode
              neighbor_pid
                (.leaf { neighbor_leaf with entries := neighbor_leaf.entries.dropLast })).setNode
              parent_id (.internal parent1))
  | some (.internal internal_node), some (.internal neighbor_internal) =>
    let parent_id := internal_node.parent_page_id_
    match t.getInternal parent_id with
    | none => none
    | some parent_node =>
      if index = 0 then
        match parent_node.KeyAt 1, neighbor_internal.entries with
        | some pk, e :: e1 :: rest =>
          match t.setParent e.2 internal_node.page_id_ with
          | none => none
          | some t1 =>
            match setKeyAt parent_node 1 e1.1 with
            | none => none
            | some parent1 =>
              some (((t1.setNode node_pid (.internal { internal_node with
                  entries := internal_node.entries ++ [(pk, e.2)] })).setNode
                neighbor_pid (.internal { neighbor_internal with entries := e1 :: rest })).setNode
                parent_id (.internal parent1))
        | _, _ => none
      else
        match parent_node.KeyAt index, neighbor_internal.entries.getLast?,
            internal_node.entries with
        | some pk, some e, e0 :: rest =>
          match t.setParent e.2 internal_node.page_id_ with
          | none => none
          | some t1 =>
            match setKeyAt parent_node index e.1 with
            | none => none
            | some parent1 =>
              some (((t1.setNode node_pid (.internal { internal_node with
                  entries := (e0.1, e.2) :: (pk, e0.2) :: rest })).setNode
                neighbor_pid (.internal { neighbor_internal with
                  entries := neighbor_internal.entries.dropLast })).setNode
                parent_id (.internal parent1))
        | _, _, _ => none
  | _, _ => none

/-- Body of `BPTreeIndex::Coalesce` up to the recursive call: merge `node_id`
into `neighbor_node_id`, remove entry `index` of the parent, free the page;
returns the index and `parent_unsafe`. -/
def CoalesceStep (t : BPTreeIndex) (neighbor_node_id node_id parent_id : Int) (index : Nat) :
    Option (BPTreeIndex × Bool) :=
  match t.nodes neighbor_node_id, t.nodes node_id, t.getInternal parent_id with
  | some neighbor_node, some node, some parent_node =>
    let merged : Option BPTreeIndex :=
      match node, neighbor_node with
      | .leaf leaf_node, .leaf neighbor_leaf =>
        some ((t.setNode node_id (.leaf (leaf_node.MoveAllTo neighbor_leaf).1)).setNode
          neighbor_node_id (.leaf (leaf_node.MoveAllTo neighbor_leaf).2))
      | .internal internal_node, .internal neighbor_internal =>
        match parent_node.KeyAt index, internal_node.entries with
        | some middle_key, e0 :: rest =>
          let moved := (middle_key, e0.2) :: rest
          match t.reparent (moved.map Prod.snd) neighbor_internal.page_id_ with
          | none => none
          | some t1 =>
            some ((t1.setNode node_id (.internal { internal_node with entries := [] })).setNode
              neighbor_node_id (.internal { neighbor_internal with
                entries := neighbor_internal.entries ++ moved }))
        | _, _ => none
      | _, _ => none
    match merged with
    | none => none
    | some t2 =>
      if index < parent_node.entries.length then
        let parent1 : BPTreeInternalPage :=
          { parent_node with entries := parent_node.entries.eraseIdx index }
        let t3 := (t2.setNode parent_id (.internal parent1)).DeletePage node_id
        some (t3, !(BPTreePage.internal parent1).IsSafe false)
      else none
  | _, _, _ => none

/-- `BPTreeIndex::CoalesceOrRedistribute`, with the recursion through
`Coalesce` unrolled into one function; `fuel` bounds the recursion up the
tree. -/
def CoalesceOrRedistribute : Nat → BPTreeIndex → Int → Option (Bool × BPTreeIndex)
  | 0, _, _ => none
  | fuel + 1, t, node_id =>
    match t.nodes node_id with
    | none => none
    | some node =>
      if node.IsRoot then t.AdjustRoot node
      else
        let parent_id := node.GetParentPageId
        match t.getInternal parent_id with
        | none => none
        | some parent_node =>
          match parent_node.ValueIndex node_id with
          | none => none
          | some index =>
            let neighbor_index := if index = 0 then 1 else index - 1
            match parent_node.ValueAt neighbor_index with
            | none => none
            | some neighbor_pid =>
              match t.nodes neighbor_pid with
              | none => none
              | some neighbor_node =>
                if neighbor_node.GetSize + node.GetSize ≤ node.GetMaxSize then
                  match (if index = 0 then t.CoalesceStep node_id neighbor_pid parent_id 1
                         else t.CoalesceStep neighbor_pid node_id parent_id index) with
                  | none => none
                  | some (t1, parent_unsafe) =>
                    if parent_unsafe then CoalesceOrRedistribute fuel t1 parent_id
                    else some (true, t1)
                else
                  match t.Redistribute neighbor_pid node_id index with
                  | none => none
                  | some t1 => some (false, t1)

/-- `BPTreeIndex::Coalesce`. -/
def Coalesce (fuel : Nat) (t : BPTreeIndex) (neighbor_node_id node_id parent_id : Int)
    (index : Nat) : Option (Bool × BPTreeIndex) :=
  match t.CoalesceStep neighbor_node_id node_id parent_id index with
  | none => none
  | some (t1, parent_unsafe) =>
    if parent_unsafe then CoalesceOrRedistribute fuel t1 parent_id else some (true, t1)

/-- `BPTreeIndex::Delete`. -/
def Delete (t : BPTreeIndex) (key : Int) : Option (Bool × BPTreeIndex) :=
  match t.FindLeafPage key false with
  | none => none
  | some leaf_pid =>
    if leaf_pid = INVALID_PAGE_ID then some (false, t)
    else
      match t.getLeaf leaf_pid with
      | none => none
      | some leaf_node =>
        match leaf_node.RemoveRecord key with
        | none => some (false, t)
        | some leaf1 =>
          let t1 := t.setNode leaf_pid (.leaf leaf1)
          let t2 : BPTreeIndex :=
            { t1 with header := { t1.header with num_entries_ := t1.header.num_entries_ - 1 } }
          if !(BPTreePage.leaf leaf1).IsSafe false then
            match CoalesceOrRedistribute t2.fuel t2 leaf_pid with
            | none => none
            | some r => some (true, r.2)
          else some (true, t2)

/-! ## Lookup -/

/-- `BPTreeIndex::Search`. -/
def Search (t : BPTreeIndex) (key : Int) : Option (List RID) :=
  match t.FindLeafPage key false with
  | none => none
  | some leaf_pid =>
    if leaf_pid = INVALID_PAGE_ID then some []
    else
      match t.getLeaf leaf_pid with
      | none => none
      | some leaf_node => some (leaf_node.Lookup key)

/-- Loop of `SearchRange` over the leaf chain; `fuel` bounds the number of leaves. -/
def SearchRangeLoop (t : BPTreeIndex) (low_key high_key : Int) :
    Nat → Int → List RID → Option (List RID)
  | 0, _, _ => none
  | fuel + 1, leaf_pid, result =>
    if leaf_pid = INVALID_PAGE_ID then some result
    else
      match t.getLeaf leaf_pid with
      | none => none
      | some leaf_node =>
        let cand := leaf_node.entries.drop (leaf_node.LowerBound low_key)
        let taken := cand.takeWhile (fun e => decide (e.1 ≤ high_key))
        if taken.length < cand.length then some (result ++ taken.map Prod.snd)
        else SearchRangeLoop t low_key high_key fuel leaf_node.next_page_id_
          (result ++ taken.map Prod.snd)

/-- `BPTreeIndex::SearchRange`. -/
def SearchRange (t : BPTreeIndex) (low_key high_key : Int) : Option (List RID) :=
  match t.FindLeafPageForRange low_key true with
  | none => none
  | some leaf_pid =>
    if leaf_pid = INVALID_PAGE_ID then some []
    else SearchRangeLoop t low_key high_key t.fuel leaf_pid []

/-! ## Iteration -/

/-- `BPTreeIndex::BPTreeIterator`: leaf page id and index in the leaf. -/
structure BPTreeIterator where
  leaf_page_id_ : Int
  index_ : Nat
deriving DecidableEq

namespace BPTreeIterator

/-- `BPTreeIterator::IsValid`. -/
def IsValid (t : BPTreeIndex) (it : BPTreeIterator) : Option Bool :=
  if it.leaf_page_id_ = INVALID_PAGE_ID then some false
  else
    match t.getLeaf it.leaf_page_id_ with
    | none => none
    | some leaf_node => some (decide (it.index_ < leaf_node.GetSize))

/-- `BPTreeIterator::Next`. -/
def Next (t : BPTreeIndex) (it : BPTreeIterator) : Option BPTreeIterator :=
  match t.getLeaf it.leaf_page_id_ with
  | none => none
  | some leaf_node =>
    if it.index_ + 1 ≥ leaf_node.GetSize then
      some { leaf_page_id_ := leaf_node.next_page_id_, index_ := 0 }
    else some { it with index_ := it.index_ + 1 }

/-- `BPTreeIterator::GetKey`. -/
def GetKey (t : BPTreeIndex) (it : BPTreeIterator) : Option Int :=
  match t.getLeaf it.leaf_page_id_ with
  | none => none
  | some leaf_node => (leaf_node.entries.get? it.index_).map Prod.fst

/-- `BPTreeIterator::GetRID`. -/
def GetRID (t : BPTreeIndex) (it : BPTreeIterator) : Option RID :=
  match t.getLeaf it.leaf_page_id_ with
  | none => none
  | some leaf_node => (leaf_node.entries.get? it.index_).map Prod.snd

end BPTreeIterator

/-- `BPTreeIndex::End`. -/
def End : BPTreeIterator := { leaf_page_id_ := INVALID_PAGE_ID, index_ := 0 }

/-- `BPTreeIndex::Begin()`. -/
def Begin (t : BPTreeIndex) : Option BPTreeIterator :=
  match t.FindLeafPage 0 true with
  | none => none
  | some leaf_pid => some { leaf_page_id_ := leaf_pid, index_ := 0 }

/-- `BPTreeIndex::Begin(const Record &)`. -/
def BeginAt (t : BPTreeIndex) (key : Int) : Option BPTreeIterator :=
  match t.FindLeafPage key false with
  | none => none
  | some leaf_pid =>
    if leaf_pid = INVALID_PAGE_ID then some End
    else
      match t.getLeaf leaf_pid with
      | none => none
      | some leaf_node =>
        let index := leaf_node.LowerBound key
        if index ≥ leaf_node.GetSize then
          some { leaf_page_id_ := leaf_node.next_page_id_, index_ := 0 }
        else some { leaf_page_id_ := leaf_pid, index_ := index }

/-! ## Clear and observers -/

/-- `BPTreeIndex::ClearPage`; `fuel` bounds the depth of the recursion. -/
def ClearPage : Nat → BPTreeIndex → Int → Option BPTreeIndex
  | 0, _, _ => none
  | fuel + 1, t, page_id =>
    match t.nodes page_id with
    | none => none
    | some (.leaf _) => some (t.DeletePage page_id)
    | some (.internal n) =>
      match n.entries.foldl (fun acc e => acc.bind (fun t1 => ClearPage fuel t1 e.2)) (some t) with
      | none => none
      | some t1 => some (t1.DeletePage page_id)

/-- `BPTreeIndex::Clear`. -/
def Clear (t : BPTreeIndex) : Option BPTreeIndex :=
  let cleared : Option BPTreeIndex :=
    if t.header.root_page_id_ ≠ INVALID_PAGE_ID then ClearPage t.fuel t t.header.root_page_id_
    else some t
  match cleared with
  | none => none
  | some t1 =>
    some { t1 with header := { t1.header with
      root_page_id_ := INVALID_PAGE_ID, tree_height_ := 0, num_entries_ := 0, page_num_ := 1,
      first_free_page_id_ := INVALID_PAGE_ID } }

def IsEmpty (t : BPTreeIndex) : Bool := t.header.root_page_id_ = INVALID_PAGE_ID

def Size (t : BPTreeIndex) : Int := t.header.num_entries_

def GetHeight (t : BPTreeIndex) : Int := t.header.tree_height_

end BPTreeIndex

/-! ## Replacers -/

/-- Sentinel frame id. -/
def INVALID_FRAME_ID : Int := -1

/-- `LRUReplacer`: `lru_list_` holds `(frame_id, evictable)` from the LRU end to
the MRU end.  `lru_hash_`, the index of the list by frame id, is not kept
apart: a frame id occurs at most once in the list, and a lookup in the hash is
a lookup in the list. -/
structure LRUReplacer where
  lru_list_ : List (Int × Bool)
  cur_size_ : Int
  max_size_ : Nat
deriving DecidableEq

namespace LRUReplacer

/-- Loop of `LRUReplacer::Victim`: first evictable entry and the list without it. -/
def victimScan : List (Int × Bool) → Option (Int × List (Int × Bool))
  | [] => none
  | e :: es =>
    if e.2 then some (e.1, es)
    else
      match victimScan es with
      | none => none
      | some r => some (r.1, e :: r.2)

/-- `LRUReplacer::Victim`. -/
def Victim (r : LRUReplacer) : Option Int × LRUReplacer :=
  match victimScan r.lru_list_ with
  | none => (none, r)
  | some v => (some v.1, { r with lru_list_ := v.2, cur_size_ := r.cur_size_ - 1 })

/-- `LRUReplacer::Pin`. -/
def Pin (r : LRUReplacer) (frame_id : Int) : LRUReplacer :=
  match r.lru_list_.lookup frame_id with
  | some ev =>
    { r with
      lru_list_ := r.lru_list_.filter (fun e => decide (e.1 ≠ frame_id)) ++ [(frame_id, false)],
      cur_size_ := if ev then r.cur_size_ - 1 else r.cur_size_ }
  | none => { r with lru_list_ := r.lru_list_ ++ [(frame_id, false)] }

/-- `LRUReplacer::Unpin`. -/
def Unpin (r : LRUReplacer) (frame_id : Int) : LRUReplacer :=
  match r.lru_list_.lookup frame_id with
  | some ev =>
    { r with
      lru_list_ := r.lru_list_.map (fun e => if e.1 = frame_id then (e.1, true) else e),
      cur_size_ := if ev then r.cur_size_ else r.cur_size_ + 1 }
  | none =>
    if r.lru_list_.length ≥ r.max_size_ then r
    else { r with lru_list_ := r.lru_list_ ++ [(frame_id, true)], cur_size_ := r.cur_size_ + 1 }

def Size (r : LRUReplacer) : Int := r.cur_size_

end LRUReplacer

/-- Modelled from the spec: `LRUKNode` (declared in `lru_k_replacer.h`, which is
not among the sources): the K most recent access timestamps, oldest first, an
evictable flag and the frame id. -/
structure LRUKNode where
  history_ : List Nat
  k_ : Nat
  fid_ : Int
  is_evictable_ : Bool
deriving DecidableEq

namespace LRUKNode

/-- Modelled from the spec: a node without accesses, not evictable. -/
def mk0 (fid : Int) (k : Nat) : LRUKNode :=
  { history_ := [], k_ := k, fid_ := fid, is_evictable_ := false }

/-- Modelled from the spec: `AddHistory` keeps the K most recent timestamps. -/
def AddHistory (n : LRUKNode) (ts : Nat) : LRUKNode :=
  { n with history_ := (n.history_ ++ [ts]).drop ((n.history_ ++ [ts]).length - n.k_) }

/-- Modelled from the spec: backward-K-distance at time `cur_ts`: `t − ts_{N-K}`
if at least K accesses exist, else `+∞`, which is `none`. -/
def GetBackwardKDistance (n : LRUKNode) (cur_ts : Nat) : Option Nat :=
  if n.history_.length < n.k_ then none
  else
    match n.history_ with
    | [] => none
    | ts :: _ => some (cur_ts - ts)

def SetEvictable (n : LRUKNode) (b : Bool) : LRUKNode := { n with is_evictable_ := b }

/-- Modelled from the spec: earliest recorded timestamp (`0` without accesses). -/
def GetEarliestTimestamp (n : LRUKNode) : Nat := n.history_.headD 0

end LRUKNode

/-- `LRUKReplacer`: `node_store_` as the list of its `(frame_id, node)` pairs
in iteration order, which the hash map leaves unspecified. -/
structure LRUKReplacer where
  node_store_ : List (Int × LRUKNode)
  cur_ts_ : Nat
  cur_size_ : Int
  max_size_ : Nat
  k_ : Nat
deriving DecidableEq

namespace LRUKReplacer

/-- Loop state of `LRUKReplacer::Victim`: `max_dist` is `none` for the largest
`unsigned long long`, which stands for `+∞`. -/
structure VictimAcc where
  victim_fid : Int
  max_dist : Option Nat
  earliest_ts : Nat
deriving DecidableEq

/-- One iteration of the loop of `LRUKReplacer::Victim`. -/
def victimStep (cur_ts : Nat) (acc : VictimAcc) (pair : Int × LRUKNode) : VictimAcc :=
  if !pair.2.is_evictable_ then acc
  else
    match pair.2.GetBackwardKDistance cur_ts with
    | none =>
      match acc.max_dist with
      | some _ =>
        { victim_fid := pair.1, max_dist := none, earliest_ts := pair.2.GetEarliestTimestamp }
      | none =>
        if pair.2.GetEarliestTimestamp < acc.earliest_ts then
          { acc with victim_fid := pair.1, earliest_ts := pair.2.GetEarliestTimestamp }
        else acc
    | some dist =>
      match acc.max_dist with
      | some m => if dist > m then { acc with max_dist := some dist, victim_fid := pair.1 } else acc
      | none => acc

/-- Initial values of the locals of `LRUKReplacer::Victim`. -/
def victimInit : VictimAcc :=
  { victim_fid := INVALID_FRAME_ID, max_dist := some 0, earliest_ts := 2 ^ 64 - 1 }

/-- The loop of `LRUKReplacer::Victim` over `node_store_`. -/
def victimLoop (r : LRUKReplacer) : VictimAcc :=
  r.node_store_.foldl (victimStep r.cur_ts_) victimInit

/-- `LRUKReplacer::Victim`. -/
def Victim (r : LRUKReplacer) : Option Int × LRUKReplacer :=
  if r.cur_size_ = 0 then (none, r)
  else if (victimLoop r).victim_fid ≠ INVALID_FRAME_ID then
    (some (victimLoop r).victim_fid,
     { r with
       node_store_ := r.node_store_.filter (fun e => decide (e.1 ≠ (victimLoop r).victim_fid)),
       cur_size_ := r.cur_size_ - 1 })
  else (none, r)

/-- `LRUKReplacer::Pin`. -/
def Pin (r : LRUKReplacer) (frame_id : Int) : LRUKReplacer :=
  let store := match r.node_store_.lookup frame_id with
    | some _ => r.node_store_
    | none => r.node_store_ ++ [(frame_id, LRUKNode.mk0 frame_id r.k_)]
  let ev := match store.lookup frame_id with
    | some n => n.is_evictable_
    | none => false
  { r with
    node_store_ := store.map (fun e =>
      if e.1 = frame_id then (e.1, (e.2.AddHistory r.cur_ts_).SetEvictable false) else e),
    cur_ts_ := r.cur_ts_ + 1,
    cur_size_ := if ev then r.cur_size_ - 1 else r.cur_size_ }

/-- `LRUKReplacer::Unpin`. -/
def Unpin (r : LRUKReplacer) (frame_id : Int) : LRUKReplacer :=
  match r.node_store_.lookup frame_id with
  | none =>
    if r.node_store_.length ≥ r.max_size_ then r
    else
      { r with
        node_store_ := r.node_store_ ++ [(frame_id, (LRUKNode.mk0 frame_id r.k_).SetEvictable true)],
        cur_size_ := r.cur_size_ + 1 }
  | some n =>
    if !n.is_evictable_ then
      { r with
        node_store_ := r.node_store_.map (fun e =>
          if e.1 = frame_id then (e.1, e.2.SetEvictable true) else e),
        cur_size_ := r.cur_size_ + 1 }
    else r

def Size (r : LRUKReplacer) : Int := r.cur_size_

end LRUKReplacer

/-- The replacer of the pool: one of the two policies behind the common
interface. -/
inductive Replacer where
  | lru (r : LRUReplacer)
  | lruk (r : LRUKReplacer)
deriving DecidableEq

namespace Replacer

def Pin : Replacer → Int → Replacer
  | lru r, f => lru (r.Pin f)
  | lruk r, f => lruk (r.Pin f)

def Unpin : Replacer → Int → Replacer
  | lru r, f => lru (r.Unpin f)
  | lruk r, f => lruk (r.Unpin f)

def Victim : Replacer → Option Int × Replacer
  | lru r => ((r.Victim).1, lru (r.Victim).2)
  | lruk r => ((r.Victim).1, lruk (r.Victim).2)

def Size : Replacer → Int
  | lru r => r.Size
  | lruk r => r.Size

/-- The frame is tracked by the replacer. -/
def tracked : Replacer → Int → Bool
  | lru r, f => (r.lru_list_.lookup f).isSome
  | lruk r, f => (r.node_store_.lookup f).isSome

/-- The frame is in the evictable set of the replacer. -/
def evictable : Replacer → Int → Bool
  | lru r, f => r.lru_list_.lookup f = some true
  | lruk r, f => (r.node_store_.lookup f).map (fun n => n.is_evictable_) = some true

end Replacer

/-! ## Buffer pool manager -/

/-- Content of a page: its `PAGE_SIZE` bytes. -/
abbrev PageData := List Nat

/-- Modelled from the spec: the disk manager (an external dependency, not among
the sources): synchronous `ReadPage`/`WritePage` on `(file_id, page_id)`;
`writes` is the log of the `WritePage` calls, oldest first. -/
structure DiskManager where
  pages : Int → Int → PageData
  writes : List (Int × Int × PageData)

namespace DiskManager

def WritePage (d : DiskManager) (fid pid : Int) (data : PageData) : DiskManager :=
  { pages := fun f p => if f = fid ∧ p = pid then data else d.pages f p,
    writes := d.writes ++ [(fid, pid, data)] }

def ReadPage (d : DiskManager) (fid pid : Int) : PageData := d.pages fid pid

end DiskManager

/-- Modelled from the spec: a page (declared in `page.h`, not among the
sources): identity and bytes. -/
structure Page where
  file_id_ : Int
  page_id_ : Int
  data_ : PageData
deriving DecidableEq

/-- Modelled from the spec: a frame (declared in `frame.h`, not among the
sources): its page, the pin counter and the dirty bit. -/
structure Frame where
  page_ : Page
  pin_count_ : Int
  is_dirty_ : Bool
deriving DecidableEq

namespace Frame

/-- Modelled from the spec: the reset state of a frame. -/
def Reset (_f : Frame) : Frame :=
  { page_ := { file_id_ := -1, page_id_ := INVALID_PAGE_ID, data_ := [] },
    pin_count_ := 0, is_dirty_ := false }

def Pin (f : Frame) : Frame := { f with pin_count_ := f.pin_count_ + 1 }

def Unpin (f : Frame) : Frame := { f with pin_count_ := f.pin_count_ - 1 }

def SetDirty (f : Frame) (d : Bool) : Frame := { f with is_dirty_ := d }

end Frame

/-- `BufferPoolManager`: the frame array, the page table as the list of its
`((file_id, page_id), frame_id)` pairs in iteration order (unspecified by the
hash map), the free list, the replacer and the disk manager. -/
structure BufferPoolManager where
  frames_ : Int → Frame
  page_frame_lookup_ : List ((Int × Int) × Int)
  free_list_ : List Int
  replacer_ : Replacer
  disk_manager_ : DiskManager

namespace BufferPoolManager

/-- Constructor with `REPLACER == "LRUReplacer"` and `BUFFER_POOL_SIZE = pool_size`. -/
def newLRU (pool_size : Nat) (disk : DiskManager) : BufferPoolManager :=
  { frames_ := fun _ => Frame.Reset ⟨⟨0, 0, []⟩, 0, false⟩,
    page_frame_lookup_ := [],
    free_list_ := (List.range pool_size).map Int.ofNat,
    replacer_ := .lru { lru_list_ := [], cur_size_ := 0, max_size_ := pool_size },
    disk_manager_ := disk }

/-- Constructor with `REPLACER == "LRUKReplacer"` and `BUFFER_POOL_SIZE = pool_size`. -/
def newLRUK (pool_size : Nat) (replacer_lru_k : Nat) (disk : DiskManager) : BufferPoolManager :=
  { frames_ := fun _ => Frame.Reset ⟨⟨0, 0, []⟩, 0, false⟩,
    page_frame_lookup_ := [],
    free_list_ := (List.range pool_size).map Int.ofNat,
    replacer_ := .lruk { node_store_ := [], cur_ts_ := 0, cur_size_ := 0,
                         max_size_ := pool_size, k_ := replacer_lru_k },
    disk_manager_ := disk }

/-- `page_frame_lookup_.find`. -/
def find (s : BufferPoolManager) (fid pid : Int) : Option Int :=
  s.page_frame_lookup_.lookup (fid, pid)

/-- `page_frame_lookup_.erase(key)`. -/
def eraseKey (tbl : List ((Int × Int) × Int)) (fid pid : Int) : List ((Int × Int) × Int) :=
  tbl.filter (fun e => decide (e.1 ≠ (fid, pid)))

/-- `page_frame_lookup_[key] = frame_id`. -/
def insertKey (tbl : List ((Int × Int) × Int)) (fid pid frame_id : Int) :
    List ((Int × Int) × Int) :=
  match tbl.lookup (fid, pid) with
  | some _ => tbl.map (fun e => if e.1 = (fid, pid) then (e.1, frame_id) else e)
  | none => tbl ++ [((fid, pid), frame_id)]

def setFrame (s : BufferPoolManager) (frame_id : Int) (f : Frame) : BufferPoolManager :=
  { s with frames_ := Function.update s.frames_ frame_id f }

/-- `BufferPoolManager::GetAvailableFrame`; `none` is the exception `NO_FREE_FRAME`. -/
def GetAvailableFrame (s : BufferPoolManager) : Option Int × BufferPoolManager :=
  match s.free_list_ with
  | frame_id :: rest => (some frame_id, { s with free_list_ := rest })
  | [] =>
    match s.replacer_.Victim with
    | (some victim_id, r1) =>
      let victim_frame := s.frames_ victim_id
      let disk1 :=
        if victim_frame.is_dirty_ then
          s.disk_manager_.WritePage victim_frame.page_.file_id_ victim_frame.page_.page_id_
            victim_frame.page_.data_
        else s.disk_manager_
      (some victim_id,
       { s with
         replacer_ := r1,
         disk_manager_ := disk1,
         page_frame_lookup_ := eraseKey s.page_frame_lookup_ victim_frame.page_.file_id_
           victim_frame.page_.page_id_,
         frames_ := Function.update s.frames_ victim_id victim_frame.Reset })
    | (none, r1) => (none, { s with replacer_ := r1 })

/-- `BufferPoolManager::UpdateFrame`. -/
def UpdateFrame (s : BufferPoolManager) (frame_id fid pid : Int) : BufferPoolManager :=
  let frame := s.frames_ frame_id
  let disk1 :=
    if frame.is_dirty_ then
      s.disk_manager_.WritePage frame.page_.file_id_ frame.page_.page_id_ frame.page_.data_
    else s.disk_manager_
  let frame1 : Frame :=
    { page_ := { file_id_ := fid, page_id_ := pid, data_ := disk1.ReadPage fid pid },
      pin_count_ := 0, is_dirty_ := false }
  { s with
    disk_manager_ := disk1,
    frames_ := Function.update s.frames_ frame_id frame1.Pin,
    replacer_ := s.replacer_.Pin frame_id,
    page_frame_lookup_ := insertKey s.page_frame_lookup_ fid pid frame_id }

/-- `BufferPoolManager::FetchPage`: the returned `Page *` is the page of the
returned frame; `none` is the null pointer. -/
def FetchPage (s : BufferPoolManager) (fid pid : Int) : Option Int × BufferPoolManager :=
  match s.find fid pid with
  | some frame_id =>
    (some frame_id,
     { s with frames_ := Function.update s.frames_ frame_id (s.frames_ frame_id).Pin,
              replacer_ := s.replacer_.Pin frame_id })
  | none =>
    match s.GetAvailableFrame with
    | (some frame_id, s1) => (some frame_id, s1.UpdateFrame frame_id fid pid)
    | (none, s1) => (none, s1)

/-- `BufferPoolManager::UnpinPage`. -/
def UnpinPage (s : BufferPoolManager) (fid pid : Int) (is_dirty : Bool) :
    Bool × BufferPoolManager :=
  match s.find fid pid with
  | none => (false, s)
  | some frame_id =>
    let frame := s.frames_ frame_id
    if frame.pin_count_ ≤ 0 then (false, s)
    else
      let frame1 := if is_dirty then frame.SetDirty true else frame
      let frame2 := frame1.Unpin
      (true,
       { s with frames_ := Function.update s.frames_ frame_id frame2,
                replacer_ := if frame2.pin_count_ = 0 then s.replacer_.Unpin frame_id
                             else s.replacer_ })

/-- `BufferPoolManager::DeletePage`. -/
def DeletePage (s : BufferPoolManager) (fid pid : Int) : Bool × BufferPoolManager :=
  match s.find fid pid with
  | none => (true, s)
  | some frame_id =>
    let frame := s.frames_ frame_id
    if frame.pin_count_ > 0 then (false, s)
    else
      let disk1 :=
        if frame.is_dirty_ then s.disk_manager_.WritePage fid pid frame.page_.data_
        else s.disk_manager_
      (true,
       { s with
         disk_manager_ := disk1,
         page_frame_lookup_ := eraseKey s.page_frame_lookup_ fid pid,
         replacer_ := s.replacer_.Pin frame_id,
         frames_ := Function.update s.frames_ frame_id frame.Reset,
         free_list_ := s.free_list_ ++ [frame_id] })

/-- Loop of `BufferPoolManager::DeleteAllPages` over the entries still to visit. -/
def deleteAllLoop (fid : Int) : List ((Int × Int) × Int) → BufferPoolManager →
    Bool × BufferPoolManager
  | [], s => (true, s)
  | e :: rest, s =>
    if e.1.1 = fid then
      let frame := s.frames_ e.2
      if frame.pin_count_ > 0 then (false, s)
      else
        let disk1 :=
          if frame.is_dirty_ then s.disk_manager_.WritePage fid e.1.2 frame.page_.data_
          else s.disk_manager_
        deleteAllLoop fid rest
          { s with
            disk_manager_ := disk1,
            replacer_ := s.replacer_.Pin e.2,
            frames_ := Function.update s.frames_ e.2 frame.Reset,
            free_list_ := s.free_list_ ++ [e.2],
            page_frame_lookup_ := eraseKey s.page_frame_lookup_ e.1.1 e.1.2 }
    else deleteAllLoop fid rest s

/-- `BufferPoolManager::DeleteAllPages`. -/
def DeleteAllPages (s : BufferPoolManager) (fid : Int) : Bool × BufferPoolManager :=
  deleteAllLoop fid s.page_frame_lookup_ s

/-- `BufferPoolManager::FlushPage`. -/
def FlushPage (s : BufferPoolManager) (fid pid : Int) : Bool × BufferPoolManager :=
  match s.find fid pid with
  | none => (false, s)
  | some frame_id =>
    let frame := s.frames_ frame_id
    if frame.is_dirty_ then
      (true,
       { s with disk_manager_ := s.disk_manager_.WritePage fid pid frame.page_.data_,
                frames_ := Function.update s.frames_ frame_id (frame.SetDirty false) })
    else (true, s)

/-- Loop of `BufferPoolManager::FlushAllPages`. -/
def flushAllLoop (fid : Int) : List ((Int × Int) × Int) → BufferPoolManager → BufferPoolManager
  | [], s => s
  | e :: rest, s =>
    if e.1.1 = fid then
      let frame := s.frames_ e.2
      if frame.is_dirty_ then
        flushAllLoop fid rest
          { s with disk_manager_ := s.disk_manager_.WritePage fid e.1.2 frame.page_.data_,
                   frames_ := Function.update s.frames_ e.2 (frame.SetDirty false) }
      else flushAllLoop fid rest s
    else flushAllLoop fid rest s

/-- `BufferPoolManager::FlushAllPages`. -/
def FlushAllPages (s : BufferPoolManager) (fid : Int) : Bool × BufferPoolManager :=
  (true, flushAllLoop fid s.page_frame_lookup_ s)

/-- A client write through the `Page *` of a frame (`GetMutableData`). -/
def WriteData (s : BufferPoolManager) (frame_id : Int) (data : PageData) : BufferPoolManager :=
  let frame := s.frames_ frame_id
  let page1 : Page := { frame.page_ with data_ := data }
  let frame1 : Frame := { frame with page_ := page1 }
  { s with frames_ := Function.update s.frames_ frame_id frame1 }

/-- The public operations of the pool, and the client write. -/
inductive Op where
  | fetch (fid pid : Int)
  | unpin (fid pid : Int) (is_dirty : Bool)
  | flush (fid pid : Int)
  | flushAll (fid : Int)
  | delete (fid pid : Int)
  | deleteAll (fid : Int)
  | write (frame_id : Int) (data : PageData)

/-- State after one operation. -/
def step (s : BufferPoolManager) : Op → BufferPoolManager
  | .fetch fid pid => (s.FetchPage fid pid).2
  | .unpin fid pid d => (s.UnpinPage fid pid d).2
  | .flush fid pid => (s.FlushPage fid pid).2
  | .flushAll fid => (s.FlushAllPages fid).2
  | .delete fid pid => (s.DeletePage fid pid).2
  | .deleteAll fid => (s.DeleteAllPages fid).2
  | .write f data => s.WriteData f data

/-- State after a sequence of operations. -/
def run (s : BufferPoolManager) (ops : List Op) : BufferPoolManager := ops.foldl step s

/-- States reachable from a freshly constructed pool (either policy, `K ≥ 1`). -/
inductive Reachable : BufferPoolManager → Prop where
  | initLRU (n : Nat) (d : DiskManager) : Reachable (newLRU n d)
  | initLRUK (n k : Nat) (d : DiskManager) (hk : 1 ≤ k) : Reachable (newLRUK n k d)
  | step (s : BufferPoolManager) (op : Op) : Reachable s → Reachable (s.step op)

end BufferPoolManager

/-! ## Well-formedness of the replacers -/

namespace LRUReplacer

/-- Well-formed list: a frame id occurs at most once. -/
def WF (r : LRUReplacer) : Prop := (r.lru_list_.map Prod.fst).Nodup

end LRUReplacer

namespace LRUKReplacer

/-- Number of evictable nodes of a store. -/
def countEv (l : List (Int × LRUKNode)) : Nat :=
  (l.filter (fun e => e.2.is_evictable_)).length

/-- Well-formed LRU-K replacer: frame ids occur once and are valid, `cur_size_`
counts the evictable nodes, every recorded timestamp is in the past, `K ≥ 1`. -/
def WF (r : LRUKReplacer) : Prop :=
  (r.node_store_.map Prod.fst).Nodup ∧
  r.cur_size_ = (countEv r.node_store_ : Int) ∧
  (∀ e ∈ r.node_store_, e.1 ≠ INVALID_FRAME_ID ∧ e.2.k_ = r.k_ ∧
    ∀ ts ∈ e.2.history_, ts < r.cur_ts_) ∧
  1 ≤ r.k_

/-- Loop invariant: nothing chosen yet and `max_dist` still `0`, or a valid
frame chosen. -/
def AccOK (acc : VictimAcc) : Prop :=
  acc.max_dist = some 0 ∨ acc.victim_fid ≠ INVALID_FRAME_ID

/-- The store in which `Pin` updates the node of the frame. -/
def pinStore (r : LRUKReplacer) (f : Int) : List (Int × LRUKNode) :=
  match List.lookup f r.node_store_ with
  | some _ => r.node_store_
  | none => r.node_store_ ++ [(f, LRUKNode.mk0 f r.k_)]

end LRUKReplacer

/-! ## Invariant of the buffer pool -/

namespace Replacer

/-- Well-formedness of the replacer of either policy. -/
def WF : Replacer → Prop
  | lru r => r.WF
  | lruk r => r.WF

end Replacer

namespace BufferPoolManager

/-- Invariant of the pool: the replacer is well-formed and tracks only valid
frame ids, no pin count is negative, the free list holds valid frame ids, and
every resident frame is tracked by the replacer and, while pinned, not
evictable. -/
def Inv (s : BufferPoolManager) : Prop :=
  s.replacer_.WF ∧
  (∀ g, s.replacer_.tracked g = true → g ≠ INVALID_FRAME_ID) ∧
  (∀ f, 0 ≤ (s.frames_ f).pin_count_) ∧
  (∀ f ∈ s.free_list_, f ≠ INVALID_FRAME_ID) ∧
  (∀ e ∈ s.page_frame_lookup_, e.2 ≠ INVALID_FRAME_ID ∧ s.replacer_.tracked e.2 = true ∧
    (0 < (s.frames_ e.2).pin_count_ → s.replacer_.evictable e.2 = false))

end BufferPoolManager

/-! ## Buffer pool scenarios -/

namespace BufferPoolManager

/-- Disk with all pages empty and no write recorded. -/
def emptyDisk : DiskManager := { pages := fun _ _ => [], writes := [] }

/-- Scenario: pool of 2 frames; fetch A = (0,1), write it, unpin dirty; fetch
B = (0,2), write it, unpin dirty. -/
def scenarioAB : BufferPoolManager :=
  (newLRU 2 emptyDisk).run
    [.fetch 0 1, .write 0 [1, 1], .unpin 0 1 true, .fetch 0 2, .write 1 [2, 2], .unpin 0 2 true]

/-- Scenario: pool of 1 frame with page (0,1) fetched and still pinned. -/
def scenarioPinned : BufferPoolManager := (newLRU 1 emptyDisk).run [.fetch 0 1]

end BufferPoolManager

/-! ## B+tree scenarios and the iterator reading of a range -/

namespace BPTreeIndex

/-- Insert the pairs one after the other. -/
def InsertAll : BPTreeIndex → List (Int × RID) → Option BPTreeIndex
  | t, [] => some t
  | t, e :: es =>
    match t.Insert e.1 e.2 with
    | none => none
    | some t1 => InsertAll t1 es

/-- The RIDs an iterator yields from `it` on: collect `GetRID` while `IsValid`
and the current key is `≤ hi`, advancing with `Next`; `fuel` bounds the number
of steps. -/
def iterCollect (t : BPTreeIndex) (hi : Int) : Nat → BPTreeIterator → Option (List RID)
  | 0, _ => none
  | fuel + 1, it =>
    match BPTreeIterator.IsValid t it with
    | none => none
    | some false => some []
    | some true =>
      match BPTreeIterator.GetKey t it, BPTreeIterator.GetRID t it, BPTreeIterator.Next t it with
      | some k, some r, some it1 =>
        if k ≤ hi then
          match iterCollect t hi fuel it1 with
          | none => none
          | some rs => some (r :: rs)
        else some []
      | _, _, _ => none

/-- The range `[lo, hi]` read through the iterator: start at `Begin(lo)` and
collect until a key `> hi`. -/
def RangeByIterator (fuel : Nat) (t : BPTreeIndex) (lo hi : Int) : Option (List RID) :=
  match t.BeginAt lo with
  | none => none
  | some it => iterCollect t hi fuel it

/-- Scenario: key 5 inserted five times, with RIDs (1,0) .. (5,0). -/
def fiveFives : Option BPTreeIndex :=
  InitializeIndex.InsertAll [(5, ⟨1, 0⟩), (5, ⟨2, 0⟩), (5, ⟨3, 0⟩), (5, ⟨4, 0⟩), (5, ⟨5, 0⟩)]

/-- Scenario: keys 3, 5, 5, 7, 8, 9 inserted with RIDs (1,0) .. (6,0), then one
`Delete(5)`. -/
def staleSeparator : Option BPTreeIndex :=
  match InitializeIndex.InsertAll
      [(3, ⟨1, 0⟩), (5, ⟨2, 0⟩), (5, ⟨3, 0⟩), (7, ⟨4, 0⟩), (8, ⟨5, 0⟩), (9, ⟨6, 0⟩)] with
  | none => none
  | some t =>
    match t.Delete 5 with
    | none => none
    | some r => some r.2

end BPTreeIndex

/-! ## Structure of a well-formed B+tree -/

/-- The children of an internal node cover `[lo, hi]` piecewise: the child of
entry `i` takes the keys between separator `i` (`lo` for the first) and
separator `i+1` (`hi` for the last); `f` is the leftmost leaf below the first
child, `n` the page after the rightmost leaf below the last child, and the
leaves of neighbouring children follow each other. -/
def KidsOK (P : Int → Int → Int → Int → Int → Prop) :
    Int → List (Int × Int) → Int → Int → Int → Prop
  | _, [], _, _, _ => False
  | lo, [e], hi, f, n => P e.2 lo hi f n
  | lo, e :: e2 :: rest, hi, f, n =>
    ∃ m, P e.2 lo e2.1 f m ∧ KidsOK P e2.1 (e2 :: rest) hi m n

/-- Page `pid` is the root of a subtree of height `h` (0 for a leaf) whose
nodes carry their own page id, the parent page id `par` at the top and the
page id of their parent below, `max_size_ = 4`, keys sorted inside every leaf
and within `[lo, hi]`; `f` is the leftmost leaf and `n` the `next_page_id_` of
the rightmost leaf. -/
def WFSub (nodes : Int → Option BPTreePage) : Nat → Int → Int → Int → Int → Int → Int → Prop
  | 0, pid, par, lo, hi, f, n =>
    ∃ l, nodes pid = some (.leaf l) ∧ l.page_id_ = pid ∧ l.parent_page_id_ = par ∧
      l.max_size_ = 4 ∧ l.next_page_id_ = n ∧ f = pid ∧ lo ≤ hi ∧
      l.entries.Pairwise (fun a b => a.1 ≤ b.1) ∧ ∀ e ∈ l.entries, lo ≤ e.1 ∧ e.1 ≤ hi
  | h + 1, pid, par, lo, hi, f, n =>
    ∃ nd, nodes pid = some (.internal nd) ∧ nd.page_id_ = pid ∧ nd.parent_page_id_ = par ∧
      nd.max_size_ = 4 ∧
      KidsOK (fun c l u f1 n1 => WFSub nodes h c pid l u f1 n1) lo nd.entries hi f n

/-- Page ids of the subtree of height `h` at `pid`, the root first. -/
def pagesOf (nodes : Int → Option BPTreePage) : Nat → Int → List Int
  | 0, pid => [pid]
  | h + 1, pid =>
    pid :: (match nodes pid with
            | some (.internal nd) => nd.entries.flatMap (fun e => pagesOf nodes h e.2)
            | _ => [])

/-- Entries of the leaves of the subtree of height `h` at `pid`, left to right. -/
def entriesOf (nodes : Int → Option BPTreePage) : Nat → Int → List (Int × RID)
  | 0, pid =>
    match nodes pid with
    | some (.leaf l) => l.entries
    | _ => []
  | h + 1, pid =>
    match nodes pid with
    | some (.internal nd) => nd.entries.flatMap (fun e => entriesOf nodes h e.2)
    | _ => []

/-- Number of leaves of the subtree of height `h` at `pid`. -/
def leafCount (nodes : Int → Option BPTreePage) : Nat → Int → Nat
  | 0, _ => 1
  | h + 1, pid =>
    match nodes pid with
    | some (.internal nd) => (nd.entries.map (fun e => leafCount nodes h e.2)).sum
    | _ => 0

/-- A leaf holds at most four entries and at least one, and at least two when
it has a parent; an internal node holds at least two children. -/
def BPTreePage.Filled : BPTreePage → Prop
  | .leaf l => l.entries.length ≤ 4 ∧ 1 ≤ l.entries.length ∧
      (l.parent_page_id_ ≠ INVALID_PAGE_ID → 2 ≤ l.entries.length)
  | .internal n => 2 ≤ n.entries.length

/-- The free chain from `first` visits exactly the pages of the list. -/
def FreeChain (next_free : Int → Int) : Int → List Int → Prop
  | first, [] => first = INVALID_PAGE_ID
  | first, p :: ps => first = p ∧ p ≠ INVALID_PAGE_ID ∧ FreeChain next_free (next_free p) ps

namespace BPTreeIndex

/-- The stored entries: the entries of all leaves, left to right. -/
def Stored (t : BPTreeIndex) : List (Int × RID) :=
  if t.header.root_page_id_ = INVALID_PAGE_ID then []
  else entriesOf t.nodes (t.header.tree_height_.toNat - 1) t.header.root_page_id_

/-- The allocation state is sound: `fl` is the free chain, without repetition,
inside the file. -/
def AllocOK (t : BPTreeIndex) (fl : List Int) : Prop :=
  1 ≤ t.header.page_num_ ∧ FreeChain t.next_free t.header.first_free_page_id_ fl ∧ fl.Nodup ∧
  ∀ p ∈ fl, 1 ≤ p ∧ p < t.header.page_num_

/-- The tree below the root is well-formed with height `h + 1`; every node
other than `ex` is filled (a leaf holds one to four entries, two at least
when it has a parent, an internal node two children at least); the pages of
the tree are pairwise different, inside the file and not on the free chain
`fl`. -/
def TreeOK (t : BPTreeIndex) (ex : Option Int) (fl : List Int) (h : Nat) : Prop :=
  t.header.root_page_id_ ≠ INVALID_PAGE_ID ∧ t.header.tree_height_ = (h : Int) + 1 ∧
  (∃ lo hi f, WFSub t.nodes h t.header.root_page_id_ INVALID_PAGE_ID lo hi f INVALID_PAGE_ID) ∧
  (pagesOf t.nodes h t.header.root_page_id_).Nodup ∧
  (∀ p ∈ pagesOf t.nodes h t.header.root_page_id_,
    1 ≤ p ∧ p < t.header.page_num_ ∧ p ∉ fl ∧
    ∀ x, t.nodes p = some x → ex ≠ some p → x.Filled)

/-- Invariant of the index between public operations (`ex = none`), and
during a deletion with the node `ex` allowed to hold fewer entries. -/
def InvX (t : BPTreeIndex) (ex : Option Int) : Prop :=
  t.header.leaf_max_size_ = 4 ∧ t.header.internal_max_size_ = 4 ∧
  ∃ fl, AllocOK t fl ∧
    ((t.header.root_page_id_ = INVALID_PAGE_ID ∧ t.header.tree_height_ = 0) ∨
     ∃ h, TreeOK t ex fl h)

/-- Invariant of the index between public operations. -/
def Inv (t : BPTreeIndex) : Prop := InvX t none

/-- The pages of the tree, the root first. -/
def treePages (t : BPTreeIndex) : List Int :=
  if t.header.root_page_id_ = INVALID_PAGE_ID then []
  else pagesOf t.nodes (t.header.tree_height_.toNat - 1) t.header.root_page_id_

/-- Every page of the file other than the header page is a page of the tree of
height `h + 1` or on the free chain. -/
def Cov (t : BPTreeIndex) (h : Nat) : Prop :=
  ∀ fl, t.AllocOK fl → ∀ p, 1 ≤ p → p < t.header.page_num_ →
    p ∈ pagesOf t.nodes h t.header.root_page_id_ ∨ p ∈ fl

/-- Every page of the file other than the header page is a page of the tree or
on the free chain. -/
def Covered (t : BPTreeIndex) : Prop :=
  ∀ fl, t.AllocOK fl → ∀ p, 1 ≤ p → p < t.header.page_num_ → p ∈ t.treePages ∨ p ∈ fl

/-- States reachable from the empty index by `Insert`, `Delete` and `Clear`. -/
inductive Reachable : BPTreeIndex → Prop where
  | init : Reachable InitializeIndex
  | insert (t t1 : BPTreeIndex) (key : Int) (rid : RID) :
      Reachable t → t.Insert key rid = some t1 → Reachable t1
  | delete (t : BPTreeIndex) (key : Int) (r : Bool × BPTreeIndex) :
      Reachable t → t.Delete key = some r → Reachable r.2
  | clear (t t1 : BPTreeIndex) : Reachable t → t.Clear = some t1 → Reachable t1

end BPTreeIndex

/-! ## Positions in a tree and local replacement -/

/-- Children of an entry list with the key bounds each child is given. -/
def kidBounds : Int → List (Int × Int) → Int → List (Int × Int × Int)
  | _, [], _ => []
  | lo, [e], hi => [(e.2, lo, hi)]
  | lo, e :: e2 :: rest, hi => (e.2, lo, e2.1) :: kidBounds e2.1 (e2 :: rest) hi

/-- A position: the subtree of height `h` at page `pid`, given the keys of
`[lo, hi]`. -/
structure Pos where
  h : Nat
  pid : Int
  lo : Int
  hi : Int

/-- `b` is a child position of `a`. -/
def ChildStep (nodes : Int → Option BPTreePage) (a b : Pos) : Prop :=
  ∃ nd, a.h = b.h + 1 ∧ nodes a.pid = some (.internal nd) ∧
    (b.pid, b.lo, b.hi) ∈ kidBounds a.lo nd.entries a.hi

/-- `q` is a position inside the subtree at `top`. -/
def Site (nodes : Int → Option BPTreePage) (top q : Pos) : Prop :=
  Relation.ReflTransGen (ChildStep nodes) top q

/-- The store `nodes1` replaces the subtree at position `q` of `nodes` by a
subtree with the same interface, using pages of the old subtree and of `F`
only, and leaves every other page alone. -/
structure Repl (nodes nodes1 : Int → Option BPTreePage) (F : List Int) (q : Pos) : Prop where
  wf : ∀ par f n, WFSub nodes q.h q.pid par q.lo q.hi f n →
    WFSub nodes1 q.h q.pid par q.lo q.hi f n
  pages : ∀ p ∈ pagesOf nodes1 q.h q.pid, p ∈ pagesOf nodes q.h q.pid ∨ p ∈ F
  nodup : (pagesOf nodes1 q.h q.pid).Nodup
  frame : ∀ p, p ∉ pagesOf nodes q.h q.pid → p ∉ F → nodes1 p = nodes p

/-- Conclusion of a lift from position `q` to position `a` above it. -/
structure Lifted (nodes nodes1 : Int → Option BPTreePage) (F : List Int) (a q : Pos) : Prop where
  repl : Repl nodes nodes1 F a
  site : Site nodes1 a q
  entries : ∃ A B, entriesOf nodes a.h a.pid = A ++ entriesOf nodes q.h q.pid ++ B ∧
    entriesOf nodes1 a.h a.pid = A ++ entriesOf nodes1 q.h q.pid ++ B
  old : ∀ p ∈ pagesOf nodes1 a.h a.pid, p ∈ pagesOf nodes1 q.h q.pid ∨
    (p ∈ pagesOf nodes a.h a.pid ∧ p ∉ pagesOf nodes q.h q.pid ∧ p ∉ F)
  keep : ∀ p ∈ pagesOf nodes a.h a.pid, p ∈ pagesOf nodes q.h q.pid ∨
    p ∈ pagesOf nodes1 a.h a.pid

/-- Upper bound of the child before the entries `rest`: the first key of
`rest`, or `hi` when `rest` is empty. -/
def ub (rest : List (Int × Int)) (hi : Int) : Int :=
  match rest with
  | [] => hi
  | e :: _ => e.1

/-- A run of children, each child bounded below by the key of its own entry:
the form of `KidsOK` that splits at any entry. -/
def KidsSeg (P : Int → Int → Int → Int → Int → Prop) :
    List (Int × Int) → Int → Int → Int → Prop
  | [], _, f, n => f = n
  | e :: rest, hi, f, n => ∃ m, P e.2 e.1 (ub rest hi) f m ∧ KidsSeg P rest hi m n

/-- Children with bounds of a run of entries. -/
def segBounds : List (Int × Int) → Int → List (Int × Int × Int)
  | [], _ => []
  | e :: rest, hi => (e.2, e.1, ub rest hi) :: segBounds rest hi

/-- Replace the unused key of entry 0 by `lo`. -/
def setHeadKey (lo : Int) : List (Int × Int) → List (Int × Int)
  | [] => []
  | e :: rest => (lo, e.2) :: rest

/-- The page `b` has the kind and the entries of the page `a`. -/
def SameKids (a b : Option BPTreePage) : Prop :=
  (∀ nd, a = some (.internal nd) → ∃ nd1, b = some (.internal nd1) ∧ nd1.entries = nd.entries) ∧
  (∀ l, a = some (.leaf l) → ∃ l1, b = some (.leaf l1) ∧ l1.entries = l.entries) ∧
  (a = none → b = none)

/-- Below position `a` there is a leaf position whose bounds hold `key`
strictly below the upper one and whose leaf returns `rid` first for `key`. -/
def HasEntry (nodes : Int → Option BPTreePage) (a : Pos) (key : Int) (rid : RID) : Prop :=
  ∃ z : Pos, z.h = 0 ∧ Site nodes a z ∧ z.lo ≤ key ∧ key < z.hi ∧
    ∃ l, nodes z.pid = some (.leaf l) ∧ ∃ rest, l.Lookup key = rid :: rest

/-- The store `nodes1` replaces the subtree at position `q` of `nodes` by two
subtrees side by side, at `q.pid` and at the page `X1`, split at `key`. -/
structure Split (nodes nodes1 : Int → Option BPTreePage) (F : List Int) (q : Pos)
    (key X1 : Int) : Prop where
  wf : ∀ par f n, WFSub nodes q.h q.pid par q.lo q.hi f n →
    ∃ m, WFSub nodes1 q.h q.pid par q.lo key f m ∧ WFSub nodes1 q.h X1 par key q.hi m n
  pages : ∀ x ∈ pagesOf nodes1 q.h q.pid ++ pagesOf nodes1 q.h X1,
    x ∈ pagesOf nodes q.h q.pid ∨ x ∈ F
  nodup : (pagesOf nodes1 q.h q.pid ++ pagesOf nodes1 q.h X1).Nodup
  frame : ∀ x, x ∉ pagesOf nodes q.h q.pid → x ∉ F → nodes1 x = nodes x

/-- State of an insertion of `(k, r)` between two levels of `InsertIntoParent`:
the subtree at position `q` of the tree `t0` has been split in `t` into the
subtrees at `q.pid` and `X1`, not yet linked into the parent; `F` holds the
pages allocated so far. -/
structure SplitState (t0 t : BPTreeIndex) (fl0 fl : List Int) (h : Nat) (q : Pos)
    (F : List Int) (key X1 : Int) (k : Int) (r : RID) : Prop where
  split : Split t0.nodes t.nodes F q key X1
  root : t.header.root_page_id_ = t0.header.root_page_id_
  height : t.header.tree_height_ = t0.header.tree_height_
  lmax : t.header.leaf_max_size_ = t0.header.leaf_max_size_
  imax : t.header.internal_max_size_ = t0.header.internal_max_size_
  nent : t.header.num_entries_ = t0.header.num_entries_
  alloc : t.AllocOK fl
  flsub : ∀ p ∈ fl, p ∈ fl0
  pnum : t0.header.page_num_ ≤ t.header.page_num_
  fresh : ∀ x ∈ F, x ∉ pagesOf t0.nodes h t0.header.root_page_id_ ∧ 1 ≤ x ∧
    x < t.header.page_num_ ∧ x ∉ fl
  filled : ∀ x ∈ pagesOf t.nodes q.h q.pid ++ pagesOf t.nodes q.h X1,
    ∀ y, t.nodes x = some y → y.Filled
  big : ∀ y, t.nodes q.pid = some y ∨ t.nodes X1 = some y → 2 ≤ y.GetSize
  entries : ∃ A B, entriesOf t0.nodes q.h q.pid = A ++ B ∧
    entriesOf t.nodes q.h q.pid ++ entriesOf t.nodes q.h X1 = A ++ (k, r) :: B
  has : HasEntry t.nodes ⟨q.h, q.pid, q.lo, key⟩ k r ∨ HasEntry t.nodes ⟨q.h, X1, key, q.hi⟩ k r
  keep : ∀ x ∈ pagesOf t0.nodes q.h q.pid,
    x ∈ pagesOf t.nodes q.h q.pid ++ pagesOf t.nodes q.h X1
  used : ∀ x ∈ F, x ∈ pagesOf t.nodes q.h q.pid ++ pagesOf t.nodes q.h X1
  cover : ∀ p, p ∈ fl0 ∨ (t0.header.page_num_ ≤ p ∧ p < t.header.page_num_) → p ∈ fl ∨ p ∈ F

/-- The tree `t1` is the tree `t0` (of height `h + 1`) with the entry `(k, r)`
added: well-formed, the entry in a leaf the point descent reaches, the other
entries in their old order. -/
def InsertedAt (t0 t1 : BPTreeIndex) (h : Nat) (k : Int) (r : RID) : Prop :=
  t1.header.leaf_max_size_ = t0.header.leaf_max_size_ ∧
  t1.header.internal_max_size_ = t0.header.internal_max_size_ ∧
  t1.header.num_entries_ = t0.header.num_entries_ ∧
  ∃ fl1 h1 lo hi f, t1.AllocOK fl1 ∧ t1.TreeOK none fl1 h1 ∧
    WFSub t1.nodes h1 t1.header.root_page_id_ INVALID_PAGE_ID lo hi f INVALID_PAGE_ID ∧
    HasEntry t1.nodes ⟨h1, t1.header.root_page_id_, lo, hi⟩ k r ∧
    (t0.Cov h → t1.Cov h1) ∧
    ∃ A B, entriesOf t0.nodes h t0.header.root_page_id_ = A ++ B ∧
      entriesOf t1.nodes h1 t1.header.root_page_id_ = A ++ (k, r) :: B

/-- Effect of a successful `Insert(key, rid)` taking `t` to `t1`: the invariant
holds again, the stored entries are the old ones with `(key, rid)` added, the
entry count follows, and `Search(key)` returns `rid` first. -/
def BPTreeIndex.InsertDone (t t1 : BPTreeIndex) (key : Int) (rid : RID) : Prop :=
  t1.Inv ∧ (∃ A B, t.Stored = A ++ B ∧ t1.Stored = A ++ (key, rid) :: B) ∧
  t1.header.num_entries_ =
    (if t.header.root_page_id_ = INVALID_PAGE_ID then 1 else t.header.num_entries_ + 1) ∧
  t1.header.root_page_id_ ≠ INVALID_PAGE_ID ∧
  ∃ rest, t1.Search key = some (rid :: rest)

/-- Two neighbouring children `A` (left) and `B` (right) of the node `P` of a
well-formed tree, one of which may be the exception `ex`. -/
structure Siblings (t : BPTreeIndex) (ex : Option Int) (fl : List Int) (h : Nat)
    (lo hi f : Int) (j : Nat) (P plo phi : Int) (nd : BPTreeInternalPage)
    (pre00 : List (Int × Int)) (kA A kB B : Int) (post00 : List (Int × Int)) : Prop where
  alloc : t.AllocOK fl
  tree : t.TreeOK ex fl h
  wf : WFSub t.nodes h t.header.root_page_id_ INVALID_PAGE_ID lo hi f INVALID_PAGE_ID
  site : Site t.nodes ⟨h, t.header.root_page_id_, lo, hi⟩ ⟨j + 1, P, plo, phi⟩
  node : t.nodes P = some (.internal nd)
  entries : nd.entries = pre00 ++ (kA, A) :: (kB, B) :: post00
  exc : ex = some A ∨ ex = some B

/-- Outcome of a rebalancing step or of a whole rebalancing: the tree is
well-formed again (up to the exception `ex1`), with the same entries and the
same header fields other than the allocation state. -/
def Rebalanced (t t1 : BPTreeIndex) (ex1 : Option Int) (fl1 : List Int) (h : Nat)
    (lo hi f : Int) : Prop :=
  t1.AllocOK fl1 ∧ t1.TreeOK ex1 fl1 h ∧
  WFSub t1.nodes h t1.header.root_page_id_ INVALID_PAGE_ID lo hi f INVALID_PAGE_ID ∧
  entriesOf t1.nodes h t1.header.root_page_id_ = entriesOf t.nodes h t.header.root_page_id_ ∧
  t1.header.leaf_max_size_ = t.header.leaf_max_size_ ∧
  t1.header.internal_max_size_ = t.header.internal_max_size_ ∧
  t1.header.num_entries_ = t.header.num_entries_ ∧
  (t.Cov h → t1.Cov h)

/-- Outcome of a whole rebalancing after a deletion: the invariant holds again,
and the stored entries and the entry count are those of the tree `t` of height
`h + 1`. -/
def Settled (t t1 : BPTreeIndex) (h : Nat) : Prop :=
  t1.Inv ∧ t1.Stored = entriesOf t.nodes h t.header.root_page_id_ ∧
  t1.header.num_entries_ = t.header.num_entries_ ∧
  (t.Cov h → t1.Covered)

/-- Effect of `Delete(key)` returning `r`: the invariant holds again; on
`false` nothing changed and `Search(key)` finds nothing; on `true` one entry
with this key left the stored entries and the entry count follows. -/
def BPTreeIndex.DeleteDone (t : BPTreeIndex) (key : Int) (r : Bool × BPTreeIndex) : Prop :=
  r.2.Inv ∧
  (r.1 = false → r.2 = t ∧ t.Search key = some []) ∧
  (r.1 = true → ∃ A B rid, t.Stored = A ++ (key, rid) :: B ∧ r.2.Stored = A ++ B ∧
    r.2.header.num_entries_ = t.header.num_entries_ - 1)

namespace BPTreeIndex

/-- The state after inserting the pairs into the empty index (the empty index
itself should an insertion not return). -/
def afterInserts (kvs : List (Int × RID)) : BPTreeIndex :=
  (InitializeIndex.InsertAll kvs).getD InitializeIndex

/-- Scenario: keys 1 .. 10 inserted in order, key `k` with RID `(k, 0)`. -/
def tenKeys : BPTreeIndex :=
  afterInserts [(1, ⟨1, 0⟩), (2, ⟨2, 0⟩), (3, ⟨3, 0⟩), (4, ⟨4, 0⟩), (5, ⟨5, 0⟩),
    (6, ⟨6, 0⟩), (7, ⟨7, 0⟩), (8, ⟨8, 0⟩), (9, ⟨9, 0⟩), (10, ⟨10, 0⟩)]

/-- Scenario: keys 1 .. 5 inserted in order, key `k` with RID `(k, 0)`: the
leaves `[1,2]` and `[3,4,5]` under one root. -/
def fiveKeys : BPTreeIndex :=
  afterInserts [(1, ⟨1, 0⟩), (2, ⟨2, 0⟩), (3, ⟨3, 0⟩), (4, ⟨4, 0⟩), (5, ⟨5, 0⟩)]

end BPTreeIndex

/-- Following `next_page_id_` from page `p` visits the leaves `ls` in turn and
arrives at page `n`. -/
def LeafWalk (nodes : Int → Option BPTreePage) : Int → Int → List BPTreeLeafPage → Prop
  | p, n, [] => p = n
  | p, n, l :: rest =>
    nodes p = some (.leaf l) ∧ l.page_id_ = p ∧ LeafWalk nodes l.next_page_id_ n rest

/-- What the loop of `SearchRange` collects over the leaves `ls`: in every leaf
the entries from `LowerBound(low)` on while the key is `≤ high`, stopping at
the first leaf in which an entry is left over. -/
def rangeScan (low high : Int) : List BPTreeLeafPage → List (Int × RID)
  | [] => []
  | l :: rest =>
    if ((l.entries.drop (l.LowerBound low)).takeWhile (fun e => decide (e.1 ≤ high))).length <
        (l.entries.drop (l.LowerBound low)).length then
      (l.entries.drop (l.LowerBound low)).takeWhile (fun e => decide (e.1 ≤ high))
    else (l.entries.drop (l.LowerBound low)).takeWhile (fun e => decide (e.1 ≤ high)) ++
      rangeScan low high rest

/-! ## Replacers: counted size and reachable states -/

namespace LRUReplacer

/-- Number of evictable entries of the list. -/
def countEv (l : List (Int × Bool)) : Nat := (l.filter (fun e => e.2)).length

/-- `cur_size_` is the number of evictable entries of `lru_list_`. -/
def Sized (r : LRUReplacer) : Prop := r.cur_size_ = (countEv r.lru_list_ : Int)

end LRUReplacer

namespace Replacer

/-- A call on a replacer. -/
inductive Call where
  | pin (frame_id : Int)
  | unpin (frame_id : Int)
  | victim
deriving DecidableEq

/-- State after a call. -/
def call (r : Replacer) : Call → Replacer
  | .pin f => r.Pin f
  | .unpin f => r.Unpin f
  | .victim => (r.Victim).2

/-- Well-formed replacer whose `cur_size_` counts the evictable frames. -/
def Counted : Replacer → Prop
  | lru r => r.WF ∧ r.Sized
  | lruk r => r.WF

/-- States reachable from a freshly constructed replacer (either policy,
`K ≥ 1`) by `Pin` and `Unpin` on frame ids other than `INVALID_FRAME_ID` and by
`Victim`. -/
inductive Reachable : Replacer → Prop where
  | initLRU (n : Nat) : Reachable (.lru { lru_list_ := [], cur_size_ := 0, max_size_ := n })
  | initLRUK (n k : Nat) (hk : 1 ≤ k) :
      Reachable (.lruk { node_store_ := [], cur_ts_ := 0, cur_size_ := 0, max_size_ := n, k_ := k })
  | pin (r : Replacer) (f : Int) (hf : f ≠ INVALID_FRAME_ID) : Reachable r → Reachable (r.Pin f)
  | unpin (r : Replacer) (f : Int) (hf : f ≠ INVALID_FRAME_ID) :
      Reachable r → Reachable (r.Unpin f)
  | victim (r : Replacer) : Reachable r → Reachable (r.Victim).2

end Replacer

namespace Replacer

/-- Scenario: LRU-K replacer for 3 frames with `K = 2`, after `Pin 1`, `Pin 2`,
`Unpin 1`, `Unpin 2`. -/
def scenarioUnpinned : Replacer :=
  ((((Replacer.lruk ⟨[], 0, 0, 3, 2⟩).Pin 1).Pin 2).Unpin 1).Unpin 2

end Replacer

/-! ## LRU replacer: call histories -/

namespace LRUReplacer

/-- A `Pin` or an `Unpin` call. -/
inductive PinCall where
  | pin (frame_id : Int)
  | unpin (frame_id : Int)
deriving DecidableEq

/-- State after one call. -/
def pinCall (r : LRUReplacer) : PinCall → LRUReplacer
  | .pin f => r.Pin f
  | .unpin f => r.Unpin f

/-- The replacer for `n` frames after the calls, given newest first. -/
def afterRev (n : Nat) : List PinCall → LRUReplacer
  | [] => { lru_list_ := [], cur_size_ := 0, max_size_ := n }
  | c :: older => (afterRev n older).pinCall c

/-- The replacer for `n` frames after the calls, given oldest first. -/
def afterCalls (n : Nat) (calls : List PinCall) : LRUReplacer := afterRev n calls.reverse

/-- Time (the number of earlier calls) of the most recent `Unpin(f)`; the calls
are given newest first. -/
def lastUnpinRev : List PinCall → Int → Option Nat
  | [], _ => none
  | c :: older, f => if c = .unpin f then some older.length else lastUnpinRev older f

/-- Time of the most recent `Pin(f)`; the calls are given newest first. -/
def lastPinRev : List PinCall → Int → Option Nat
  | [], _ => none
  | c :: older, f => if c = .pin f then some older.length else lastPinRev older f

/-- Time of the first `Unpin(f)`; the calls are given newest first. -/
def firstUnpinRev : List PinCall → Int → Option Nat
  | [], _ => none
  | c :: older, f =>
    match firstUnpinRev older f with
    | some i => some i
    | none => if c = .unpin f then some older.length else none

/-- Time at which the frame took its place in the list: its most recent `Pin`,
or its first `Unpin` if it was never pinned. -/
def placedRev (calls : List PinCall) (f : Int) : Option Nat :=
  match lastPinRev calls f with
  | some i => some i
  | none => firstUnpinRev calls f

/-- The frame `v` is evictable and its most recent `Unpin` is older than the
most recent `Unpin` of every other evictable frame (calls oldest first). -/
def LeastRecentlyUnpinned (calls : List PinCall) (r : LRUReplacer) (v : Int) : Prop :=
  List.lookup v r.lru_list_ = some true ∧
  ∀ g, g ≠ v → List.lookup g r.lru_list_ = some true →
    ∃ i j, lastUnpinRev calls.reverse v = some i ∧ lastUnpinRev calls.reverse g = some j ∧ i < j

/-- The frame `v` is evictable and took its place in the list (most recent
`Pin`, or first `Unpin` if never pinned) before every other evictable frame
(calls oldest first). -/
def LeastRecentlyPlaced (calls : List PinCall) (r : LRUReplacer) (v : Int) : Prop :=
  List.lookup v r.lru_list_ = some true ∧
  ∀ g, g ≠ v → List.lookup g r.lru_list_ = some true →
    ∃ i j, placedRev calls.reverse v = some i ∧ placedRev calls.reverse g = some j ∧ i < j

/-- Invariant of a call history `calls` (newest first) and the state `r` it
leads to. -/
structure Placed (calls : List PinCall) (r : LRUReplacer) : Prop where
  wf : r.WF
  tracked : ∀ f, (List.lookup f r.lru_list_).isSome = true →
    ∃ s, placedRev calls f = some s ∧ s < calls.length
  untracked : ∀ f, List.lookup f r.lru_list_ = none → lastPinRev calls f = none
  refused : ∀ f, List.lookup f r.lru_list_ = none → firstUnpinRev calls f ≠ none →
    r.max_size_ ≤ r.lru_list_.length
  sorted : r.lru_list_.Pairwise (fun a b =>
    ∀ i j, placedRev calls a.1 = some i → placedRev calls b.1 = some j → i < j)

/-- Scenario: `Pin 1`, `Pin 2`, `Unpin 2`, `Unpin 1`. -/
def pinnedInTurn : List PinCall := [.pin 1, .pin 2, .unpin 2, .unpin 1]

end LRUReplacer

/-! ## Table heap

Embedding of `src/system/handle/table_handle.cpp`.

* The table handle reaches its pages through the buffer pool, which is
  assumed to deliver every requested page; of the pool the embedding keeps the
  pin count and the dirty flag of every page of the table file.
  `FetchPage` adds a pin; `UnpinPage` removes one, if there is one, and sets
  the dirty flag when asked.
* `size_t` counters are `Nat`.  Decrements and conversions from a signed
  value wrap modulo `2 ^ 64`; increments are written with the same modulus.
  Casts of a count to `page_id_t` or `slot_id_t` are assumed to keep the value.
* The null-map and the payload of a record are byte strings of the widths
  fixed by the table header; the embedding copies them whole.
* A slot index outside `[0, rec_per_page_)` names no slot of a page: reading
  or writing it is undefined behaviour and is `none` in the embedding.
-/

deriving instance DecidableEq for Except

/-- Modelled from the spec: page 0 of a file holds the file header. -/
def FILE_HEADER_PAGE_ID : Int := 0

/-- Modelled from the spec: the record id that names no record. -/
def INVALID_RID : RID := ⟨INVALID_PAGE_ID, -1⟩

/-- Conversion of a signed value to `size_t`. -/
def toSizeT (x : Int) : Nat := (x % 2 ^ 64).toNat

/-- Modelled from the spec: the error codes thrown by the table handle. -/
inductive NJUDBException where
  | NJUDB_RECORD_MISS
  | NJUDB_RECORD_EXISTS
  | NJUDB_PAGE_MISS
deriving DecidableEq

/-- Modelled from the spec: a record as the table handle uses it, null-map,
payload and RID. -/
structure Record where
  nullmap : List Nat
  data : List Nat
  rid : RID
deriving DecidableEq

namespace BitMap

/-- Modelled from the spec: `BitMap::FindFirst(bitmap, n, start, value)`, the
first index in `[start, n)` whose bit is `value`, and `n` if there is none. -/
def FindFirst (bitmap : Nat → Bool) (n start : Nat) (value : Bool) : Nat :=
  match (List.range' start (n - start)).find? (fun i => bitmap i == value) with
  | some i => i
  | none => n

end BitMap

/-- Modelled from the spec: the fields of the table header that the table
handle reads and writes. -/
structure TableHeader where
  page_num_ : Nat
  first_free_page_ : Int
  rec_per_page_ : Nat
deriving DecidableEq

/-- Modelled from the spec: a slotted page, the next-free link and record count
of the page header, the occupancy bitmap and the slots (null-map and payload). -/
structure TablePage where
  next_free_page_id_ : Int
  record_num_ : Nat
  bitmap : Nat → Bool
  slots : Nat → List Nat × List Nat

namespace TablePage

/-- Modelled from the spec: a page of a fresh file, all zero. -/
def zero : TablePage :=
  { next_free_page_id_ := 0, record_num_ := 0, bitmap := fun _ => false,
    slots := fun _ => ([], []) }

/-- Modelled from the spec: `BitMap::GetBit` on the bitmap of a page with `n`
slots. -/
def GetBit (p : TablePage) (n : Nat) (slot_id : Int) : Option Bool :=
  if 0 ≤ slot_id ∧ slot_id < n then some (p.bitmap slot_id.toNat) else none

/-- Modelled from the spec: `BitMap::SetBit` on the bitmap of a page with `n`
slots. -/
def SetBit (p : TablePage) (n : Nat) (slot_id : Int) (value : Bool) : Option TablePage :=
  if 0 ≤ slot_id ∧ slot_id < n then
    some { p with bitmap := Function.update p.bitmap slot_id.toNat value }
  else none

/-- Modelled from the spec: `PageHandle::WriteSlot`, copy null-map and payload
into the slot. -/
def WriteSlot (p : TablePage) (n : Nat) (slot_id : Int) (nullmap data : List Nat) :
    Option TablePage :=
  if 0 ≤ slot_id ∧ slot_id < n then
    some { p with slots := Function.update p.slots slot_id.toNat (nullmap, data) }
  else none

/-- Modelled from the spec: `PageHandle::ReadSlot`, copy null-map and payload
out of the slot. -/
def ReadSlot (p : TablePage) (n : Nat) (slot_id : Int) : Option (List Nat × List Nat) :=
  if 0 ≤ slot_id ∧ slot_id < n then some (p.slots slot_id.toNat) else none

end TablePage

/-- State of a `TableHandle`: the header `tab_hdr_`, the pages of the table
file, and the pin count and dirty flag the buffer pool keeps for each page. -/
structure TableHandle where
  tab_hdr_ : TableHeader
  pages : Int → TablePage
  pin_count : Int → Nat
  is_dirty : Int → Bool

namespace TableHandle

/-- Modelled from the spec: the table of a file that was just created, the
header page only and an empty free chain. -/
def create (rec_per_page : Nat) : TableHandle :=
  { tab_hdr_ := { page_num_ := 1, first_free_page_ := INVALID_PAGE_ID,
                  rec_per_page_ := rec_per_page },
    pages := fun _ => TablePage.zero,
    pin_count := fun _ => 0,
    is_dirty := fun _ => false }

/-- `TableHandle::FetchPageHandle`: `BufferPoolManager::FetchPage` pins the page. -/
def FetchPageHandle (s : TableHandle) (page_id : Int) : TableHandle :=
  { s with pin_count := Function.update s.pin_count page_id (s.pin_count page_id + 1) }

/-- `BufferPoolManager::UnpinPage` as the table handle sees it. -/
def UnpinPage (s : TableHandle) (page_id : Int) (is_dirty : Bool) : TableHandle :=
  if s.pin_count page_id = 0 then s
  else
    { s with
      pin_count := Function.update s.pin_count page_id (s.pin_count page_id - 1),
      is_dirty := Function.update s.is_dirty page_id
        (if is_dirty then true else s.is_dirty page_id) }

def setPage (s : TableHandle) (page_id : Int) (p : TablePage) : TableHandle :=
  { s with pages := Function.update s.pages page_id p }

def setFirstFree (s : TableHandle) (page_id : Int) : TableHandle :=
  { s with tab_hdr_ := { s.tab_hdr_ with first_free_page_ := page_id } }

/-- `TableHandle::GetRecord`. -/
def GetRecord (s : TableHandle) (rid : RID) :
    Option (Except NJUDBException Record × TableHandle) :=
  let s1 := s.FetchPageHandle rid.page_no
  let page := s1.pages rid.page_no
  match page.GetBit s1.tab_hdr_.rec_per_page_ rid.slot_no with
  | none => none
  | some false => some (.error .NJUDB_RECORD_MISS, s1.UnpinPage rid.page_no false)
  | some true =>
    match page.ReadSlot s1.tab_hdr_.rec_per_page_ rid.slot_no with
    | none => none
    | some (nullmap, data) =>
      some (.ok { nullmap := nullmap, data := data, rid := rid },
            s1.UnpinPage rid.page_no false)

/-- `TableHandle::CreateNewPageHandle`: the id of the page of the handle and
the state. -/
def CreateNewPageHandle (s : TableHandle) : Int × TableHandle :=
  let page_id : Int := s.tab_hdr_.page_num_
  let s1 := { s with tab_hdr_ := { s.tab_hdr_ with
                page_num_ := (s.tab_hdr_.page_num_ + 1) % 2 ^ 64 } }
  let s2 := s1.FetchPageHandle page_id
  let s3 := s2.setPage page_id
    { s2.pages page_id with next_free_page_id_ := s2.tab_hdr_.first_free_page_ }
  (page_id, s3.setFirstFree page_id)

/-- `TableHandle::CreatePageHandle`. -/
def CreatePageHandle (s : TableHandle) : Int × TableHandle :=
  if s.tab_hdr_.first_free_page_ = INVALID_PAGE_ID then s.CreateNewPageHandle
  else (s.tab_hdr_.first_free_page_, s.FetchPageHandle s.tab_hdr_.first_free_page_)

/-- `TableHandle::InsertRecord(const Record &)`. -/
def InsertRecord (s : TableHandle) (record : Record) : Option (RID × TableHandle) :=
  match s.CreatePageHandle with
  | (page_id, s1) =>
    let n := s1.tab_hdr_.rec_per_page_
    let slot_id : Nat := BitMap.FindFirst (s1.pages page_id).bitmap n 0 false
    match (s1.pages page_id).WriteSlot n slot_id record.nullmap record.data with
    | none => none
    | some p1 =>
      match p1.SetBit n slot_id true with
      | none => none
      | some p2 =>
        let p3 := { p2 with record_num_ := (p2.record_num_ + 1) % 2 ^ 64 }
        let s2 := s1.setPage page_id p3
        let s3 :=
          if p3.record_num_ = n then
            (s2.setFirstFree p3.next_free_page_id_).setPage page_id
              { p3 with next_free_page_id_ := INVALID_PAGE_ID }
          else s2
        some (⟨page_id, slot_id⟩, s3.UnpinPage page_id true)

/-- `TableHandle::InsertRecord(const RID &, const Record &)`. -/
def InsertRecordAt (s : TableHandle) (rid : RID) (record : Record) :
    Option (Except NJUDBException Unit × TableHandle) :=
  if rid.page_no = INVALID_PAGE_ID then some (.error .NJUDB_PAGE_MISS, s)
  else
    let s1 := s.FetchPageHandle rid.page_no
    let n := s1.tab_hdr_.rec_per_page_
    let page := s1.pages rid.page_no
    match page.GetBit n rid.slot_no with
    | none => none
    | some true => some (.error .NJUDB_RECORD_EXISTS, s1.UnpinPage rid.page_no false)
    | some false =>
      match page.WriteSlot n rid.slot_no record.nullmap record.data with
      | none => none
      | some p1 =>
        match p1.SetBit n rid.slot_no true with
        | none => none
        | some p2 =>
          let p3 := { p2 with record_num_ := (p2.record_num_ + 1) % 2 ^ 64 }
          let s2 := s1.setPage rid.page_no p3
          let s3 :=
            if p3.record_num_ = n ∧ s2.tab_hdr_.first_free_page_ = rid.page_no then
              (s2.setFirstFree p3.next_free_page_id_).setPage rid.page_no
                { p3 with next_free_page_id_ := INVALID_PAGE_ID }
            else s2
          some (.ok (), s3.UnpinPage rid.page_no true)

/-- `TableHandle::DeleteRecord`. -/
def DeleteRecord (s : TableHandle) (rid : RID) :
    Option (Except NJUDBException Unit × TableHandle) :=
  let s1 := s.FetchPageHandle rid.page_no
  let n := s1.tab_hdr_.rec_per_page_
  let page := s1.pages rid.page_no
  match page.GetBit n rid.slot_no with
  | none => none
  | some false => some (.error .NJUDB_RECORD_MISS, s1.UnpinPage rid.page_no false)
  | some true =>
    match page.SetBit n rid.slot_no false with
    | none => none
    | some p1 =>
      let p2 := { p1 with record_num_ := toSizeT ((p1.record_num_ : Int) - 1) }
      let s2 := s1.setPage rid.page_no p2
      let s3 :=
        if p2.record_num_ = toSizeT ((n : Int) - 1) then
          (s2.setPage rid.page_no
            { p2 with next_free_page_id_ := s2.tab_hdr_.first_free_page_ }).setFirstFree
            rid.page_no
        else s2
      some (.ok (), s3.UnpinPage rid.page_no true)

/-- `TableHandle::UpdateRecord`. -/
def UpdateRecord (s : TableHandle) (rid : RID) (record : Record) :
    Option (Except NJUDBException Unit × TableHandle) :=
  let s1 := s.FetchPageHandle rid.page_no
  let n := s1.tab_hdr_.rec_per_page_
  let page := s1.pages rid.page_no
  match page.GetBit n rid.slot_no with
  | none => none
  | some false => some (.error .NJUDB_RECORD_MISS, s1.UnpinPage rid.page_no false)
  | some true =>
    match page.WriteSlot n rid.slot_no record.nullmap record.data with
    | none => none
    | some p1 => some (.ok (), (s1.setPage rid.page_no p1).UnpinPage rid.page_no true)

/-- Loop of `TableHandle::GetFirstRID`; `fuel` bounds the number of pages. -/
def GetFirstRIDLoop : Nat → TableHandle → Int → Option (RID × TableHandle)
  | 0, _, _ => none
  | fuel + 1, s, page_id =>
    if page_id < (s.tab_hdr_.page_num_ : Int) then
      let s1 := s.FetchPageHandle page_id
      let id := BitMap.FindFirst (s1.pages page_id).bitmap s1.tab_hdr_.rec_per_page_ 0 true
      if id ≠ s1.tab_hdr_.rec_per_page_ then
        some (⟨page_id, id⟩, s1.UnpinPage page_id false)
      else GetFirstRIDLoop fuel (s1.UnpinPage page_id false) (page_id + 1)
    else some (INVALID_RID, s)

/-- `TableHandle::GetFirstRID`. -/
def GetFirstRID (s : TableHandle) : Option (RID × TableHandle) :=
  GetFirstRIDLoop (s.tab_hdr_.page_num_ + 1) s (FILE_HEADER_PAGE_ID + 1)

/-- Loop of `TableHandle::GetNextRID`; `fuel` bounds the number of pages. -/
def GetNextRIDLoop : Nat → TableHandle → Int → Int → Option (RID × TableHandle)
  | 0, _, _, _ => none
  | fuel + 1, s, page_id, slot_id =>
    if page_id < (s.tab_hdr_.page_num_ : Int) then
      let s1 := s.FetchPageHandle page_id
      let slot1 : Int := BitMap.FindFirst (s1.pages page_id).bitmap s1.tab_hdr_.rec_per_page_
        (toSizeT (slot_id + 1)) true
      if slot1 = (s1.tab_hdr_.rec_per_page_ : Int) then
        GetNextRIDLoop fuel (s1.UnpinPage page_id false) (page_id + 1) (-1)
      else some (⟨page_id, slot1⟩, s1.UnpinPage page_id false)
    else some (INVALID_RID, s)

/-- `TableHandle::GetNextRID`. -/
def GetNextRID (s : TableHandle) (rid : RID) : Option (RID × TableHandle) :=
  GetNextRIDLoop (((s.tab_hdr_.page_num_ : Int) - rid.page_no).toNat + 1) s
    rid.page_no rid.slot_no

end TableHandle
namespace TableHandle

/-- Bit `slot_no` of the bitmap of page `page_no` is set: the slot holds a
record. -/
def occupied (s : TableHandle) (rid : RID) : Prop :=
  (s.pages rid.page_no).GetBit s.tab_hdr_.rec_per_page_ rid.slot_no = some true

/-- Bit `slot_no` of the bitmap of page `page_no` is clear: the slot is empty. -/
def vacant (s : TableHandle) (rid : RID) : Prop :=
  (s.pages rid.page_no).GetBit s.tab_hdr_.rec_per_page_ rid.slot_no = some false

/-- Number of set bits among the first `n` bits of a bitmap. -/
def popcount (bitmap : Nat → Bool) (n : Nat) : Nat :=
  (List.range n).countP (fun i => bitmap i)

/-- Invariant 8 of the table file: on every page `record_num_` is the number
of occupied slots; and `rec_per_page_` is a `size_t` value. -/
structure Counted (s : TableHandle) : Prop where
  fits : s.tab_hdr_.rec_per_page_ < 2 ^ 64
  count : ∀ page_id,
    (s.pages page_id).record_num_ =
      popcount (s.pages page_id).bitmap s.tab_hdr_.rec_per_page_

/-- The free chain of the table file: the pages met from `first_free_page_`
along the `next_free_page_id_` links, at most `fuel` of them. -/
def freeChainFrom (s : TableHandle) : Nat → Int → List Int
  | 0, _ => []
  | fuel + 1, page_id =>
    if page_id = INVALID_PAGE_ID then []
    else page_id :: freeChainFrom s fuel (s.pages page_id).next_free_page_id_

/-- The free chain of the table file. -/
def freeChain (s : TableHandle) : List Int :=
  s.freeChainFrom s.tab_hdr_.page_num_ s.tab_hdr_.first_free_page_

/-- A call of one of the four mutators of the table handle. -/
inductive Call where
  | insert (record : Record)
  | insertAt (rid : RID) (record : Record)
  | update (rid : RID) (record : Record)
  | delete (rid : RID)
deriving DecidableEq

/-- What a call that returned normally wrote: the RID and the record. -/
def written {α : Type} (rid : RID) (record : Record) :
    Except NJUDBException α → Option (RID × Record)
  | .ok _ => some (rid, record)
  | .error _ => none

/-- The call applied to the state: the slot it wrote and the record, if it
wrote one, and the state after it; `none` when the call is undefined. -/
def call (s : TableHandle) : Call → Option (Option (RID × Record) × TableHandle)
  | .insert record => (s.InsertRecord record).map (fun x => (some (x.1, record), x.2))
  | .insertAt rid record =>
    (s.InsertRecordAt rid record).map (fun x => (written rid record x.1, x.2))
  | .update rid record =>
    (s.UpdateRecord rid record).map (fun x => (written rid record x.1, x.2))
  | .delete rid => (s.DeleteRecord rid).map (fun x => (none, x.2))

/-- The calls applied in turn. -/
def run : TableHandle → List Call → Option TableHandle
  | s, [] => some s
  | s, c :: cs =>
    match s.call c with
    | none => none
    | some (_, s1) => s1.run cs

/-- The record most recently written to the slot `rid` by the calls, applied
in turn from `s`: the argument of the last `InsertRecord` or `UpdateRecord`
that wrote the slot. -/
def lastWritten : TableHandle → List Call → RID → Option Record
  | _, [], _ => none
  | s, c :: cs, rid =>
    match s.call c with
    | none => none
    | some (w, s1) =>
      match lastWritten s1 cs rid with
      | some record => some record
      | none =>
        match w with
        | some (rid1, record) => if rid1 = rid then some record else none
        | none => none

/-- The states reachable from a fresh table through `InsertRecord` (both
forms), `UpdateRecord` and `DeleteRecord`. -/
def Reachable (s : TableHandle) : Prop :=
  ∃ rec_per_page calls, (create rec_per_page).run calls = some s

/-- Order of RIDs: by page, then by slot. -/
def ridLt (a b : RID) : Prop :=
  a.page_no < b.page_no ∨ (a.page_no = b.page_no ∧ a.slot_no < b.slot_no)

/-- An occupied slot of a data page of the file, pages `1 .. page_num_ - 1`. -/
def stored (s : TableHandle) (rid : RID) : Prop :=
  FILE_HEADER_PAGE_ID < rid.page_no ∧ rid.page_no < (s.tab_hdr_.page_num_ : Int) ∧
    s.occupied rid

/-- The occupied slots of page `page_id`, by ascending slot. -/
def occupiedOn (s : TableHandle) (page_id : Int) : List RID :=
  ((List.range s.tab_hdr_.rec_per_page_).filter
    (fun i => (s.pages page_id).bitmap i)).map (fun (i : Nat) => RID.mk page_id (i : Int))

/-- The occupied slots of pages `1 .. page_num_ - 1`, by ascending page and
slot. -/
def occupiedRIDs (s : TableHandle) : List RID :=
  (List.range (s.tab_hdr_.page_num_ - 1)).flatMap
    (fun i => s.occupiedOn ((i : Int) + 1))

/-- Apply `GetNextRID` from `rid` on until `INVALID_RID` is returned, and
collect the RIDs met. -/
def scanFrom : Nat → TableHandle → RID → Option (List RID × TableHandle)
  | 0, _, _ => none
  | fuel + 1, s, rid =>
    if rid = INVALID_RID then some ([], s)
    else
      match s.GetNextRID rid with
      | none => none
      | some (next, s1) => (scanFrom fuel s1 next).map (fun x => (rid :: x.1, x.2))

/-- A forward scan: `GetFirstRID`, then `GetNextRID` until `INVALID_RID`. -/
def scan (s : TableHandle) : Option (List RID × TableHandle) :=
  match s.GetFirstRID with
  | none => none
  | some (rid, s1) =>
    scanFrom (s.tab_hdr_.page_num_ * s.tab_hdr_.rec_per_page_ + 1) s1 rid

/-- Record with an empty null-map byte and the one payload byte `k`. -/
def recOf (k : Nat) : Record := ⟨[0], [k], INVALID_RID⟩

/-- Scenario: on a table with two slots per page, four inserts fill pages 1
and 2, two deletes put page 1 and then page 2 on the free chain, and a record
is put back into slot `(1, 0)`. -/
def refillCalls : List Call :=
  [.insert (recOf 1), .insert (recOf 2), .insert (recOf 3), .insert (recOf 4),
   .delete ⟨1, 0⟩, .delete ⟨2, 0⟩, .insertAt ⟨1, 0⟩ (recOf 5)]

/-- Scenario: `refillCalls` without the last call. -/
def refillBefore : TableHandle :=
  ((create 2).run refillCalls.dropLast).getD (create 2)

/-- Scenario: the state after `refillCalls`. -/
def refilled : TableHandle :=
  ((create 2).run refillCalls).getD (create 2)

/-- Scenario: `refillCalls` and one more `InsertRecord`, which fills page 2. -/
def fullHead : TableHandle :=
  ((create 2).run (refillCalls ++ [.insert (recOf 6)])).getD (create 2)

/-- Scenario: records with payloads `1 .. 10` in a table with one slot per
page; the record with payload `k` is in slot `(k, 0)`. -/
def tenRecords : TableHandle :=
  ((create 1).run ((List.range 10).map (fun k => Call.insert (recOf (k + 1))))).getD (create 1)

end TableHandle

/-! ## Index scan executor

Embedding of `src/execution/executor_idxscan.cpp` for an index on one integer
column, the keys of the B+tree embedding. -/

/-- Modelled from the spec: the comparison operator of a condition. -/
inductive CompOp where
  | OP_EQ
  | OP_NE
  | OP_LT
  | OP_GT
  | OP_LE
  | OP_GE
deriving DecidableEq

/-- Modelled from the spec: a condition, the name of the column on its left,
the operator, whether the right side is a value, and that value. -/
structure ConditionExpr where
  lcol : String
  op : CompOp
  rhs_is_value : Bool
  rval : Int
deriving DecidableEq

/-- Modelled from the spec: a column of the key schema, its name and the
least and greatest value of its type. -/
structure KeyField where
  field_name_ : String
  min_value : Int
  max_value : Int
deriving DecidableEq

/-- State of an `IdxScanExecutor`.  `schema` is the key schema of the index
and `key_of` builds the key record of a table record (the values of its key
columns); `low_` and `high_` hold the values of the two key records. -/
structure IdxScanExecutor where
  tbl_ : TableHandle
  idx_ : BPTreeIndex
  schema : List KeyField
  key_of : Record → List Int
  conds_ : List ConditionExpr
  is_ascending_ : Bool
  needs_first_record_check_ : Bool
  needs_last_record_check_ : Bool
  start_idx_ : Nat
  end_idx_ : Nat
  current_idx_ : Nat
  rids_ : List RID
  low_ : List Int
  high_ : List Int
  record_ : Option Record

namespace IdxScanExecutor

/-- Constructor of `IdxScanExecutor`. -/
def new (tbl : TableHandle) (idx : BPTreeIndex) (schema : List KeyField)
    (key_of : Record → List Int) (conds : List ConditionExpr) (is_ascending : Bool) :
    IdxScanExecutor :=
  { tbl_ := tbl, idx_ := idx, schema := schema, key_of := key_of, conds_ := conds,
    is_ascending_ := is_ascending, needs_first_record_check_ := false,
    needs_last_record_check_ := false, start_idx_ := 0, end_idx_ := 0, current_idx_ := 0,
    rids_ := [], low_ := [], high_ := [], record_ := none }

/-- Inner loop of `GenerateRangeKeys` over the conditions, for key column `i`:
the state, `found`, and whether `goto done` was taken. -/
def GenerateRangeKeysConds (field_name : String) (i : Nat) :
    List ConditionExpr → IdxScanExecutor → Bool → IdxScanExecutor × Bool × Bool
  | [], e, found => (e, found, false)
  | cond :: rest, e, found =>
    if cond.lcol = field_name then
      if cond.rhs_is_value then
        let val := cond.rval
        if cond.op = .OP_EQ then
          GenerateRangeKeysConds field_name i rest
            { e with low_ := e.low_.set i val, high_ := e.high_.set i val } true
        else if cond.op = .OP_GT ∨ cond.op = .OP_GE then
          ({ e with low_ := e.low_.set i val,
                    needs_first_record_check_ :=
                      if cond.op = .OP_GT then true else e.needs_first_record_check_ },
           true, true)
        else if cond.op = .OP_LT ∨ cond.op = .OP_LE then
          ({ e with high_ := e.high_.set i val,
                    needs_last_record_check_ :=
                      if cond.op = .OP_LT then true else e.needs_last_record_check_ },
           true, true)
        else GenerateRangeKeysConds field_name i rest e found
      else GenerateRangeKeysConds field_name i rest e found
    else GenerateRangeKeysConds field_name i rest e found

/-- Outer loop of `GenerateRangeKeys` over the key columns from column `i`. -/
def GenerateRangeKeysFields : List KeyField → Nat → IdxScanExecutor → IdxScanExecutor
  | [], _, e => e
  | field :: rest, i, e =>
    match GenerateRangeKeysConds field.field_name_ i e.conds_ e false with
    | (e1, found, done) =>
      if done then e1
      else if !found then e1
      else GenerateRangeKeysFields rest (i + 1) e1

/-- `IdxScanExecutor::GenerateRangeKeys`. -/
def GenerateRangeKeys (e : IdxScanExecutor) : IdxScanExecutor :=
  let e0 := { e with low_ := e.schema.map (fun f => f.min_value),
                     high_ := e.schema.map (fun f => f.max_value) }
  GenerateRangeKeysFields e0.schema 0 e0

/-- The B+tree key of a key record: its one value. -/
def keyValue : List Int → Option Int
  | [v] => some v
  | _ => none

/-- `tbl_->GetRecord(rids_[i])`; an index outside `rids_` is undefined. -/
def recordAt (e : IdxScanExecutor) (i : Nat) :
    Option (Except NJUDBException (Record × IdxScanExecutor)) :=
  match e.rids_.get? i with
  | none => none
  | some rid =>
    match e.tbl_.GetRecord rid with
    | none => none
    | some (.error x, _) => some (.error x)
    | some (.ok record, tbl1) => some (.ok (record, { e with tbl_ := tbl1 }))

/-- `IdxScanExecutor::IsEnd`. -/
def IsEnd (e : IdxScanExecutor) : Bool := decide (e.current_idx_ ≥ e.end_idx_)

/-- Tail of `Init` and of `Next`: load `record_` unless the scan is at its end. -/
def loadRecord (e : IdxScanExecutor) : Option (Except NJUDBException IdxScanExecutor) :=
  if !e.IsEnd then
    match e.recordAt e.current_idx_ with
    | none => none
    | some (.error x) => some (.error x)
    | some (.ok (record, e1)) => some (.ok { e1 with record_ := some record })
  else some (.ok e)

/-- First trimming step of `Init`. -/
def InitFirstCheck (e : IdxScanExecutor) : Option (Except NJUDBException IdxScanExecutor) :=
  if e.needs_first_record_check_ ∧ e.rids_ ≠ [] then
    match e.recordAt 0 with
    | none => none
    | some (.error x) => some (.error x)
    | some (.ok (record, e1)) =>
      if e1.key_of record = e1.low_ then some (.ok { e1 with start_idx_ := 1 })
      else some (.ok e1)
  else some (.ok e)

/-- Second trimming step of `Init`. -/
def InitLastCheck (e : IdxScanExecutor) : Option (Except NJUDBException IdxScanExecutor) :=
  if e.needs_last_record_check_ ∧ e.rids_ ≠ [] ∧ e.end_idx_ > e.start_idx_ then
    match e.recordAt (e.end_idx_ - 1) with
    | none => none
    | some (.error x) => some (.error x)
    | some (.ok (record, e1)) =>
      if e1.key_of record = e1.high_ then some (.ok { e1 with end_idx_ := e1.end_idx_ - 1 })
      else some (.ok e1)
  else some (.ok e)

/-- `IdxScanExecutor::Init`. -/
def Init (e : IdxScanExecutor) : Option (Except NJUDBException IdxScanExecutor) :=
  let e1 := e.GenerateRangeKeys
  match keyValue e1.low_, keyValue e1.high_ with
  | some low, some high =>
    match e1.idx_.SearchRange low high with
    | none => none
    | some rids =>
      let e2 := { e1 with rids_ := rids, start_idx_ := 0, end_idx_ := rids.length }
      match e2.InitFirstCheck with
      | none => none
      | some (.error x) => some (.error x)
      | some (.ok e3) =>
        match e3.InitLastCheck with
        | none => none
        | some (.error x) => some (.error x)
        | some (.ok e4) =>
          let e5 :=
            if !e4.is_ascending_ then
              { e4 with rids_ := e4.rids_.take e4.start_idx_ ++
                  ((e4.rids_.take e4.end_idx_).drop e4.start_idx_).reverse ++
                  e4.rids_.drop e4.end_idx_ }
            else e4
          loadRecord { e5 with current_idx_ := e5.start_idx_ }
  | _, _ => none

/-- `IdxScanExecutor::Next`. -/
def Next (e : IdxScanExecutor) : Option (Except NJUDBException IdxScanExecutor) :=
  loadRecord { e with current_idx_ := e.current_idx_ + 1 }

/-- The records met by `Next` until `IsEnd`, from an initialised executor. -/
def drain : Nat → IdxScanExecutor → Option (Except NJUDBException (List Record))
  | 0, _ => none
  | fuel + 1, e =>
    if e.IsEnd then some (.ok [])
    else
      match e.record_, e.Next with
      | some record, some (.ok e1) =>
        match drain fuel e1 with
        | some (.ok records) => some (.ok (record :: records))
        | other => other
      | _, some (.error x) => some (.error x)
      | _, _ => none

/-- An index scan: `Init`, then `Next` until `IsEnd`; the records it yields. -/
def yield (e : IdxScanExecutor) : Option (Except NJUDBException (List Record)) :=
  match e.Init with
  | none => none
  | some (.error x) => some (.error x)
  | some (.ok e1) => drain (e1.rids_.length + 1) e1

/-- Scenario: the index on the column `k` of `tenRecords`, key `k` at RID
`(k, 0)`, and the ascending scan for `k > 3 AND k < 7`. -/
def scan3to7 : IdxScanExecutor :=
  new TableHandle.tenRecords BPTreeIndex.tenKeys
    [{ field_name_ := "k", min_value := -2147483648, max_value := 2147483647 }]
    (fun record => record.data.map (fun b => (b : Int)))
    [{ lcol := "k", op := .OP_GT, rhs_is_value := true, rval := 3 },
     { lcol := "k", op := .OP_LT, rhs_is_value := true, rval := 7 }]
    true

end IdxScanExecutor

/-! ## Replacers: the size and the evictable entries -/

namespace LRUKReplacer

/-- No frame id is tracked twice and `cur_size_` is the number of evictable
nodes of `node_store_`. -/
def Sized (r : LRUKReplacer) : Prop :=
  (r.node_store_.map Prod.fst).Nodup ∧ r.cur_size_ = (countEv r.node_store_ : Int)

end LRUKReplacer

namespace Replacer

/-- Number of tracked entries whose evictable flag is set. -/
def evictableCount : Replacer → Nat
  | lru r => LRUReplacer.countEv r.lru_list_
  | lruk r => LRUKReplacer.countEv r.node_store_

/-- No frame id is tracked twice and `cur_size_` is the number of evictable
entries. -/
def SizeInv : Replacer → Prop
  | lru r => r.WF ∧ r.Sized
  | lruk r => r.Sized

/-- `LRUReplacer::LRUReplacer()` with `BUFFER_POOL_SIZE = n`. -/
def newLRU (n : Nat) : Replacer := .lru ⟨[], 0, n⟩

/-- `LRUKReplacer::LRUKReplacer(k)` with `BUFFER_POOL_SIZE = n`. -/
def newLRUK (n k : Nat) : Replacer := .lruk ⟨[], 0, 0, n, k⟩

/-- State after a sequence of calls. -/
def calls (r : Replacer) (cs : List Call) : Replacer := cs.foldl call r

/-- Scenario: calls on untracked frames, repeated calls, a call on the frame id
`-1` and a `Victim`. -/
def mixedCalls : List Call :=
  [.unpin 7, .pin 1, .pin 1, .unpin 1, .unpin 1, .unpin (-1), .victim, .pin 9]

end Replacer

/-! ## LRU-K replacer: the order of eviction -/

namespace LRUKNode

/-- At time `c` the node `n` is evicted no later than the node `m`: its
backward-K-distance is at least that of `m`, where the distance `+∞` of a node
with fewer than K recorded accesses is above every finite one, and of two
nodes with distance `+∞` the one with the earlier first timestamp goes first. -/
def outranks (c : Nat) (n m : LRUKNode) : Prop :=
  match n.GetBackwardKDistance c, m.GetBackwardKDistance c with
  | none, none => n.GetEarliestTimestamp ≤ m.GetEarliestTimestamp
  | none, some _ => True
  | some _, none => False
  | some d, some d1 => d1 ≤ d

end LRUKNode

namespace LRUKReplacer

/-- Loop invariant of `Victim` after the pairs of `l`: nothing is chosen while
no pair of `l` is evictable; otherwise the locals describe an evictable pair
of `l` that is evicted no later than any other evictable pair of `l`. -/
def Best (c : Nat) (acc : VictimAcc) (l : List (Int × LRUKNode)) : Prop :=
  ((∀ e ∈ l, e.2.is_evictable_ = false) ∧ acc = victimInit) ∨
  ∃ n, (acc.victim_fid, n) ∈ l ∧ n.is_evictable_ = true ∧
    acc.max_dist = n.GetBackwardKDistance c ∧
    (acc.max_dist = none → acc.earliest_ts = n.GetEarliestTimestamp) ∧
    ∀ e ∈ l, e.2.is_evictable_ = true → n.outranks c e.2

/-- Scenario of the spec: `K = 2`, accesses to the frames 1, 2, 3, 1, 2, then
all three unpinned. -/
def scenarioK2 : LRUKReplacer :=
  match (Replacer.newLRUK 3 2).calls
      [.pin 1, .pin 2, .pin 3, .pin 1, .pin 2, .unpin 1, .unpin 2, .unpin 3] with
  | .lruk r => r
  | .lru _ => ⟨[], 0, 0, 0, 0⟩

end LRUKReplacer

/-! ## B+tree: the leaves, the entry count and a full iteration -/

/-- The leaf pages of the subtree of height `h` at `pid`, left to right. -/
def leavesOf (nodes : Int → Option BPTreePage) : Nat → Int → List BPTreeLeafPage
  | 0, pid =>
    match nodes pid with
    | some (.leaf l) => [l]
    | _ => []
  | h + 1, pid =>
    match nodes pid with
    | some (.internal nd) => nd.entries.flatMap (fun e => leavesOf nodes h e.2)
    | _ => []

namespace BPTreeIndex

/-- All leaves of the tree, left to right. -/
def leaves (t : BPTreeIndex) : List BPTreeLeafPage :=
  if t.header.root_page_id_ = INVALID_PAGE_ID then []
  else leavesOf t.nodes (t.header.tree_height_.toNat - 1) t.header.root_page_id_

/-- Sum of the sizes of all leaves. -/
def leafSizeSum (t : BPTreeIndex) : Nat := (t.leaves.map (fun l => l.GetSize)).sum

/-- The header counts the stored entries. -/
def Sized (t : BPTreeIndex) : Prop := t.header.num_entries_ = (t.Stored.length : Int)

/-- A client loop over an iterator: while `IsValid`, read `GetKey` and
`GetRID`, then `Next`; `fuel` bounds the number of steps. -/
def iterateFrom (t : BPTreeIndex) : Nat → BPTreeIterator → Option (List (Int × RID))
  | 0, _ => none
  | fuel + 1, it =>
    match BPTreeIterator.IsValid t it with
    | none => none
    | some false => some []
    | some true =>
      match BPTreeIterator.GetKey t it, BPTreeIterator.GetRID t it, BPTreeIterator.Next t it with
      | some k, some r, some it1 =>
        match iterateFrom t fuel it1 with
        | none => none
        | some es => some ((k, r) :: es)
      | _, _, _ => none

/-- Iterate from `Begin()` to the end. -/
def iterate (fuel : Nat) (t : BPTreeIndex) : Option (List (Int × RID)) :=
  match t.Begin with
  | none => none
  | some it => t.iterateFrom fuel it

/-- Scenario: key 1 inserted and deleted again. -/
def emptied : BPTreeIndex :=
  match (afterInserts [(1, ⟨1, 0⟩)]).Delete 1 with
  | some r => r.2
  | none => InitializeIndex

end BPTreeIndex

/-! ## Table heap: `GetChunk` and the pins of a call -/

namespace TablePage

/-- Modelled from the spec: `PageHandle::ReadChunk`, the whole page as
vectors, for every slot of the page its occupancy bit, null-map and payload. -/
def ReadChunk (p : TablePage) (n : Nat) : List (Bool × List Nat × List Nat) :=
  (List.range n).map (fun i => (p.bitmap i, p.slots i))

end TablePage

namespace TableHandle

/-- `TableHandle::GetChunk`; the schema of the chunk selects columns, which the
embedding does not tell apart. -/
def GetChunk (s : TableHandle) (pid : Int) : List (Bool × List Nat × List Nat) × TableHandle :=
  let s1 := s.FetchPageHandle pid
  let chunk := (s1.pages pid).ReadChunk s1.tab_hdr_.rec_per_page_
  (chunk, s1.UnpinPage pid false)

/-- The state `s1` follows `s` by a call that wrote page `p` under its pin:
every pin count is what it was, the dirty flag of `p` is set and no other flag
changed, and no other page changed. -/
def WroteTo (s s1 : TableHandle) (p : Int) : Prop :=
  s1.pin_count = s.pin_count ∧ s1.is_dirty = Function.update s.is_dirty p true ∧
  ∀ q, q ≠ p → s1.pages q = s.pages q

end TableHandle

/-! ## B+tree: order of the keys inside a node -/

namespace BPTreeLeafPage

/-- The keys of the leaf are non-decreasing. -/
def KeysSorted (l : BPTreeLeafPage) : Prop := (l.entries.map Prod.fst).Pairwise (fun a b => a ≤ b)

end BPTreeLeafPage

namespace BPTreeInternalPage

/-- The separator keys, those of the entries `i ≥ 1`, are strictly increasing. -/
def SeparatorsStrict (n : BPTreeInternalPage) : Prop :=
  (n.entries.tail.map Prod.fst).Pairwise (fun a b => a < b)

/-- The separator keys, those of the entries `i ≥ 1`, are non-decreasing. -/
def SeparatorsSorted (n : BPTreeInternalPage) : Prop :=
  (n.entries.tail.map Prod.fst).Pairwise (fun a b => a ≤ b)

end BPTreeInternalPage

namespace BPTreeIndex

/-- Scenario: key 5 inserted seven times, with RIDs (1,0) .. (7,0). -/
def sevenFives : BPTreeIndex :=
  afterInserts [(5, ⟨1, 0⟩), (5, ⟨2, 0⟩), (5, ⟨3, 0⟩), (5, ⟨4, 0⟩), (5, ⟨5, 0⟩),
    (5, ⟨6, 0⟩), (5, ⟨7, 0⟩)]

end BPTreeIndex

/-! ## B+tree: order of duplicates inside a leaf -/

/-- In the list `l` the element `a` stands before the element `b`: both occur
and the first occurrence of `a` comes first. -/
def Before {α : Type} [DecidableEq α] (a b : α) (l : List α) : Prop :=
  a ∈ l ∧ b ∈ l ∧ l.indexOf a < l.indexOf b

instance {α : Type} [DecidableEq α] (a b : α) (l : List α) : Decidable (Before a b l) := by
  unfold Before
  infer_instance

namespace BPTreeIndex

/-- Scenario: `Insert(5, (1,0))` followed by `Insert(5, (2,0))` on the empty
index. -/
def twoFives : BPTreeIndex := afterInserts [(5, ⟨1, 0⟩), (5, ⟨2, 0⟩)]

end BPTreeIndex

/-! ## B+tree: the tree latch and a reader beside a writer -/

/-- How a call holds `index_latch_`: `std::unique_lock`, `std::shared_lock`,
or not at all. -/
inductive LatchMode where
  | exclusive
  | shared
  | unlatched
deriving DecidableEq

/-- The public calls on an index and on its iterators. -/
inductive PublicCall where
  | Insert
  | Delete
  | Clear
  | Search
  | SearchRange
  | Begin
  | BeginAt
  | End
  | IsEmpty
  | Size
  | GetHeight
  | IteratorIsValid
  | IteratorNext
  | IteratorGetKey
  | IteratorGetRID
deriving DecidableEq

/-- The lock on `index_latch_` that the call takes in its first statement and
holds until it returns. -/
def index_latch : PublicCall → LatchMode
  | .Insert => .exclusive
  | .Delete => .exclusive
  | .Clear => .exclusive
  | .Search => .shared
  | .SearchRange => .shared
  | .Begin => .shared
  | .BeginAt => .shared
  | .End => .unlatched
  | .IsEmpty => .shared
  | .Size => .shared
  | .GetHeight => .shared
  | .IteratorIsValid => .unlatched
  | .IteratorNext => .unlatched
  | .IteratorGetKey => .unlatched
  | .IteratorGetRID => .unlatched

namespace BPTreeIndex

/-- The statements of `InsertIntoLeaf(key, _)` on a full leaf up to and
including `leaf_node->MoveHalfTo(new_leaf_node)`: the page ids of the leaf and
of the new leaf, and the page store as it stands then, the upper half of the
leaf moved to the new page and the leaf chain not yet relinked. -/
def InsertIntoLeafToMoveHalfTo (t : BPTreeIndex) (key : Int) : Option (Int × Int × BPTreeIndex) :=
  match t.FindLeafPage key false with
  | none => none
  | some leaf_pid =>
    match t.getLeaf leaf_pid with
    | none => none
    | some leaf_node =>
      if leaf_node.GetSize < leaf_node.max_size_ then none
      else
        let new_pid := t.NewPage.1
        let t1 := t.NewPage.2
        let new_leaf0 := BPTreeLeafPage.Init new_pid leaf_node.parent_page_id_ leaf_node.max_size_
        let leaf1 := (leaf_node.MoveHalfTo new_leaf0).1
        let new_leaf1 := (leaf_node.MoveHalfTo new_leaf0).2
        some (leaf_pid, new_pid,
          (t1.setNode leaf_pid (.leaf leaf1)).setNode new_pid (.leaf new_leaf1))

/-- The statements of `InsertIntoLeaf(key, value)` after
`leaf_node->MoveHalfTo(new_leaf_node)`, on the pages as they stand. -/
def InsertIntoLeafFromMoveHalfTo (key : Int) (value : RID) :
    Int × Int × BPTreeIndex → Option BPTreeIndex
  | (leaf_pid, new_pid, t1) =>
    match t1.getLeaf leaf_pid, t1.getLeaf new_pid with
    | some leaf1, some new_leaf1 =>
      match new_leaf1.entries.head? with
      | none => none
      | some e =>
        let middle_key := e.1
        let leaf2 := if key < middle_key then leaf1.Insert key value else leaf1
        let new_leaf2 := if key < middle_key then new_leaf1 else new_leaf1.Insert key value
        let new_leaf3 := { new_leaf2 with next_page_id_ := leaf2.next_page_id_ }
        let leaf3 := { leaf2 with next_page_id_ := new_pid }
        let t2 := (t1.setNode leaf_pid (.leaf leaf3)).setNode new_pid (.leaf new_leaf3)
        match InsertIntoParent t2.fuel t2 leaf_pid middle_key new_pid with
        | none => none
        | some t3 =>
          some { t3 with header := { t3.header with num_entries_ := t3.header.num_entries_ + 1 } }
    | _, _ => none

/-- A client loop over an iterator while another thread works on the index:
round `i` of the loop (`IsValid`, `GetKey`, `GetRID`, `Next`) reads the pages
as the `i`-th state of the list has them. -/
def iterateOver : List BPTreeIndex → BPTreeIterator → Option (List (Int × RID))
  | [], _ => none
  | t :: ts, it =>
    match BPTreeIterator.IsValid t it with
    | none => none
    | some false => some []
    | some true =>
      match BPTreeIterator.GetKey t it, BPTreeIterator.GetRID t it, BPTreeIterator.Next t it with
      | some k, some r, some it1 =>
        match iterateOver ts it1 with
        | none => none
        | some es => some ((k, r) :: es)
      | _, _, _ => none

/-- Scenario: the keys 1 .. 4 in the one leaf of the tree, which is full. -/
def fourKeys : BPTreeIndex :=
  afterInserts [(1, ⟨1, 0⟩), (2, ⟨2, 0⟩), (3, ⟨3, 0⟩), (4, ⟨4, 0⟩)]

/-- Scenario: `fourKeys` while `Insert(5, _)` stands after
`leaf_node->MoveHalfTo(new_leaf_node)`. -/
def fourKeysSplitting : BPTreeIndex :=
  match fourKeys.InsertIntoLeafToMoveHalfTo 5 with
  | some x => x.2.2
  | none => fourKeys

/-- Scenario: `fourKeys` after `Insert(5, (5,0))` has returned. -/
def fourKeysAndFive : BPTreeIndex := (fourKeys.Insert 5 ⟨5, 0⟩).getD fourKeys

end BPTreeIndex

/-! ## Table heap: a deletion after the calls of `refillCalls` -/

namespace TableHandle

/-- Scenario: the state after `refillCalls` and `DeleteRecord((1, 0))`. -/
def refilledDeleted : TableHandle :=
  match refilled.DeleteRecord ⟨1, 0⟩ with
  | some x => x.2
  | none => refilled

end TableHandle

/-! ## B+tree: paths from the root to the leaves -/

/-- The pages `ps` are a path from the page `pid` down to a leaf: `pid` comes
first, every further page is a child of the page before it, and the last page
is a leaf. -/
inductive PathToLeaf (nodes : Int → Option BPTreePage) : Int → List Int → Prop where
  | leaf (pid : Int) (l : BPTreeLeafPage) :
      nodes pid = some (.leaf l) → PathToLeaf nodes pid [pid]
  | step (pid : Int) (nd : BPTreeInternalPage) (c : Int) (ps : List Int) :
      nodes pid = some (.internal nd) → c ∈ nd.entries.map Prod.snd →
      PathToLeaf nodes c ps → PathToLeaf nodes pid (pid :: ps)

namespace BPTreeIndex

/-- The pages `ps` are a path from the root of the tree to a leaf. -/
def RootPath (t : BPTreeIndex) (ps : List Int) : Prop :=
  t.header.root_page_id_ ≠ INVALID_PAGE_ID ∧ PathToLeaf t.nodes t.header.root_page_id_ ps

/-- Scenario: keys 10, 20, 30, 40, 25 inserted in this order, key `k` with RID
`(k, 0)`. -/
def splitOnce : BPTreeIndex :=
  afterInserts [(10, ⟨10, 0⟩), (20, ⟨20, 0⟩), (30, ⟨30, 0⟩), (40, ⟨40, 0⟩), (25, ⟨25, 0⟩)]

end BPTreeIndex

/-! ## B+tree: deletions down to the root -/

namespace BPTreeIndex

/-- The state `t.Delete key` leaves (`t` itself should the call not return). -/
def afterDelete (t : BPTreeIndex) (key : Int) : BPTreeIndex :=
  match t.Delete key with
  | some r => r.2
  | none => t

/-- Scenario: `splitOnce` after `Delete(40)`. -/
def splitOnceLess40 : BPTreeIndex := splitOnce.afterDelete 40

/-- Scenario: `splitOnce` after `Delete(40)` and `Delete(30)`. -/
def splitOnceLess4030 : BPTreeIndex := splitOnceLess40.afterDelete 30

/-- The root and the height of `t1` are those of `t`. -/
def SameRoot (t t1 : BPTreeIndex) : Prop :=
  t1.header.root_page_id_ = t.header.root_page_id_ ∧
  t1.header.tree_height_ = t.header.tree_height_

/-- The walk of `BPTreeIndex::CoalesceOrRedistribute` up the tree, stopped at
the statement `return AdjustRoot(node)`: the control flow is that of
`CoalesceOrRedistribute`, and the result is `(b, t1, none)` when the code
returns `b` in the state `t1` below the root, and `(true, t1, some node)` when
it reaches, in the state `t1`, a `node` with `IsRoot()` and returns
`AdjustRoot(node)`. -/
def CoalesceOrRedistributeWalk :
    Nat → BPTreeIndex → Int → Option (Bool × BPTreeIndex × Option BPTreePage)
  | 0, _, _ => none
  | fuel + 1, t, node_id =>
    match t.nodes node_id with
    | none => none
    | some node =>
      if node.IsRoot then some (true, t, some node)
      else
        let parent_id := node.GetParentPageId
        match t.getInternal parent_id with
        | none => none
        | some parent_node =>
          match parent_node.ValueIndex node_id with
          | none => none
          | some index =>
            let neighbor_index := if index = 0 then 1 else index - 1
            match parent_node.ValueAt neighbor_index with
            | none => none
            | some neighbor_pid =>
              match t.nodes neighbor_pid with
              | none => none
              | some neighbor_node =>
                if neighbor_node.GetSize + node.GetSize ≤ node.GetMaxSize then
                  match (if index = 0 then t.CoalesceStep node_id neighbor_pid parent_id 1
                         else t.CoalesceStep neighbor_pid node_id parent_id index) with
                  | none => none
                  | some (t1, parent_unsafe) =>
                    if parent_unsafe then CoalesceOrRedistributeWalk fuel t1 parent_id
                    else some (true, t1, none)
                else
                  match t.Redistribute neighbor_pid node_id index with
                  | none => none
                  | some t1 => some (false, t1, none)

/-- The call of `AdjustRoot` in `BPTreeIndex::Delete`: the control flow is that
of `Delete`, and the result is the state in which `Delete(key)` reaches the
statement `return AdjustRoot(node)` of `CoalesceOrRedistribute`, with the
`node`; `none` when `Delete(key)` does not reach this statement. -/
def AdjustRootCall (t : BPTreeIndex) (key : Int) : Option (BPTreeIndex × BPTreePage) :=
  match t.FindLeafPage key false with
  | none => none
  | some leaf_pid =>
    if leaf_pid = INVALID_PAGE_ID then none
    else
      match t.getLeaf leaf_pid with
      | none => none
      | some leaf_node =>
        match leaf_node.RemoveRecord key with
        | none => none
        | some leaf1 =>
          let t1 := t.setNode leaf_pid (.leaf leaf1)
          let t2 : BPTreeIndex :=
            { t1 with header := { t1.header with num_entries_ := t1.header.num_entries_ - 1 } }
          if !(BPTreePage.leaf leaf1).IsSafe false then
            match CoalesceOrRedistributeWalk t2.fuel t2 leaf_pid with
            | some (_, t3, some node) => some (t3, node)
            | _ => none
          else none

end BPTreeIndex

/-! ## Buffer pool: residency -/

namespace BufferPoolManager

/-- Residency in a pool of `n` frames: a page is mapped at most once; the free
list followed by the frames of the page table is a rearrangement of the frame
ids `0 .. n-1`; the frame of a table entry carries the identity of the page
and is pinned or in the evictable set of the replacer; and only frames of the
page table are in the evictable set. -/
structure Resident (n : Nat) (s : BufferPoolManager) : Prop where
  keys : (s.page_frame_lookup_.map Prod.fst).Nodup
  perm : (s.free_list_ ++ s.page_frame_lookup_.map Prod.snd).Perm
    ((List.range n).map Int.ofNat)
  ident : ∀ e ∈ s.page_frame_lookup_,
    (s.frames_ e.2).page_.file_id_ = e.1.1 ∧ (s.frames_ e.2).page_.page_id_ = e.1.2
  cand : ∀ e ∈ s.page_frame_lookup_,
    0 < (s.frames_ e.2).pin_count_ ∨ s.replacer_.evictable e.2 = true
  evres : ∀ g, s.replacer_.evictable g = true → g ∈ s.page_frame_lookup_.map Prod.snd

/-- Scenario: pool of 2 frames; pages (0,1), (0,2) fetched and unpinned, page
(0,3) fetched into the frame of the evicted (0,1), page (0,2) deleted. -/
def scenarioMixed : List Op :=
  [.fetch 0 1, .unpin 0 1 false, .fetch 0 2, .unpin 0 2 true, .fetch 0 3, .delete 0 2]

end BufferPoolManager

/-! ## B+tree: what a leaf split leaves behind -/

/-- The page `b` has the kind of the page `a`, its entries and, for a leaf, its
`next_page_id_`. -/
def SameBody (a b : Option BPTreePage) : Prop :=
  (∀ l, a = some (.leaf l) → ∃ l1, b = some (.leaf l1) ∧ l1.entries = l.entries ∧
    l1.next_page_id_ = l.next_page_id_) ∧
  (∀ nd, a = some (.internal nd) → ∃ nd1, b = some (.internal nd1) ∧ nd1.entries = nd.entries)

namespace BPTreeIndex

/-- Scenario: keys 10, 20, 30, 40 inserted in this order, key `k` with RID
`(k, 0)`: one full leaf, the root, on page 1. -/
def fourTens : BPTreeIndex :=
  afterInserts [(10, ⟨10, 0⟩), (20, ⟨20, 0⟩), (30, ⟨30, 0⟩), (40, ⟨40, 0⟩)]

/-- The leaf of `fourTens`. -/
def fourTensLeaf : BPTreeLeafPage :=
  { page_id_ := 1, parent_page_id_ := INVALID_PAGE_ID, max_size_ := 4,
    next_page_id_ := INVALID_PAGE_ID,
    entries := [(10, ⟨10, 0⟩), (20, ⟨20, 0⟩), (30, ⟨30, 0⟩), (40, ⟨40, 0⟩)] }

end BPTreeIndex

/-! ## B+tree: sizes of the nodes other than the root -/

/-- The minimum size of a non-root node in the words of the specification,
`⌈(max_size + 1) / 2⌉`. -/
def specMinSize (max_size : Nat) : Nat := (max_size + 1 + 1) / 2

namespace BPTreeIndex

/-- The size bounds in the words of the specification: every node of the tree
other than the root has `⌈(max_size + 1) / 2⌉ ≤ size ≤ max_size`. -/
def SpecSizeBounds (t : BPTreeIndex) : Prop :=
  ∀ p ∈ t.treePages, p ≠ t.header.root_page_id_ → ∀ x, t.nodes p = some x →
    specMinSize x.GetMaxSize ≤ x.GetSize ∧ x.GetSize ≤ x.GetMaxSize

/-- The size bounds the tree keeps: every page of the tree other than the root
holds a node that is not a root, of size at least `(max_size + 1) / 2` in
integer division, and of size at most `max_size` when it is a leaf. -/
def SizeBounds (t : BPTreeIndex) : Prop :=
  ∀ p ∈ t.treePages, p ≠ t.header.root_page_id_ →
    ∃ x, t.nodes p = some x ∧ x.IsRoot = false ∧ (x.GetMaxSize + 1) / 2 ≤ x.GetSize ∧
      (x.IsLeaf = true → x.GetSize ≤ x.GetMaxSize)

end BPTreeIndex

namespace BPTreeIndex

/-- Scenario: keys 1 .. 17 inserted in order, key `k` with RID `(k, 0)`. -/
def seventeenKeys : BPTreeIndex :=
  afterInserts [(1, ⟨1, 0⟩), (2, ⟨2, 0⟩), (3, ⟨3, 0⟩), (4, ⟨4, 0⟩), (5, ⟨5, 0⟩),
    (6, ⟨6, 0⟩), (7, ⟨7, 0⟩), (8, ⟨8, 0⟩), (9, ⟨9, 0⟩), (10, ⟨10, 0⟩), (11, ⟨11, 0⟩),
    (12, ⟨12, 0⟩), (13, ⟨13, 0⟩), (14, ⟨14, 0⟩), (15, ⟨15, 0⟩), (16, ⟨16, 0⟩), (17, ⟨17, 0⟩)]

end BPTreeIndex

/-! # Theorems -/

/-! ## Association lists -/

section AssocKeys
variable {α β : Type} [DecidableEq α]

theorem keys_filter_ne (l : List (α × β)) (k : α) :
    (l.filter (fun e => decide (e.1 ≠ k))).map Prod.fst =
      (l.map Prod.fst).filter (fun a => decide (a ≠ k)) := by
  induction l with
  | nil => simp
  | cons e es ih =>
    by_cases h : e.1 = k
    · rw [List.filter_cons_of_neg (by simp [h]), List.map_cons,
        List.filter_cons_of_neg (by simp [h]), ih]
    · rw [List.filter_cons_of_pos (by simp [h]), List.map_cons, List.map_cons,
        List.filter_cons_of_pos (by simp [h]), ih]

theorem keys_map_key (l : List (α × β)) (k : α) (F : β → β) :
    (l.map (fun e => if e.1 = k then (e.1, F e.2) else e)).map Prod.fst = l.map Prod.fst := by
  induction l with
  | nil => simp
  | cons e es ih =>
    rw [List.map_cons, List.map_cons, List.map_cons, ih]
    by_cases h : e.1 = k <;> simp [h]

theorem filter_ne_eq_self (l : List (α × β)) (k : α) (h : k ∉ l.map Prod.fst) :
    l.filter (fun e => decide (e.1 ≠ k)) = l := by
  apply List.filter_eq_self.2
  intro e he
  have : e.1 ≠ k := fun hk => h (List.mem_map.2 ⟨e, he, hk⟩)
  simp [this]

theorem map_key_eq_self (l : List (α × β)) (k : α) (F : β → β) (h : k ∉ l.map Prod.fst) :
    l.map (fun e => if e.1 = k then (e.1, F e.2) else e) = l := by
  induction l with
  | nil => rfl
  | cons e es ih =>
    simp only [List.map_cons, List.mem_cons, not_or] at h
    rw [List.map_cons, ih h.2]
    have : e.1 ≠ k := fun hk => h.1 hk.symm
    simp [this]

theorem keys_filter_ne_nodup (l : List (α × β)) (k : α) (hn : (l.map Prod.fst).Nodup) :
    ((l.filter (fun e => decide (e.1 ≠ k))).map Prod.fst).Nodup := by
  rw [keys_filter_ne]; exact hn.filter _

end AssocKeys

section Assoc
variable {α β : Type} [BEq α] [LawfulBEq α] [DecidableEq α]

theorem lookup_cons_ite (g a : α) (b : β) (es : List (α × β)) :
    List.lookup g ((a, b) :: es) = if g = a then some b else List.lookup g es := by
  rw [List.lookup_cons]
  by_cases h : g = a
  · simp [h]
  · have : (g == a) = false := by simpa using h
    simp [this, h]

theorem lookup_filter_ne (l : List (α × β)) (k g : α) :
    List.lookup g (l.filter (fun e => decide (e.1 ≠ k))) = if g = k then none else List.lookup g l := by
  induction l with
  | nil => simp
  | cons e es ih =>
    obtain ⟨a, b⟩ := e
    by_cases hak : a = k
    · have h1 : decide ((a, b).1 ≠ k) = false := by simp [hak]
      rw [List.filter_cons_of_neg (by simp [hak]), ih, lookup_cons_ite]
      by_cases hg : g = k
      · simp [hg]
      · have : g ≠ a := by rw [hak]; exact hg
        simp [hg, this]
    · rw [List.filter_cons_of_pos (by simp [hak]), lookup_cons_ite, lookup_cons_ite, ih]
      by_cases hg : g = a
      · have : g ≠ k := by rw [hg]; exact hak
        simp [hg, hak]
      · simp [hg]

theorem lookup_map_key (l : List (α × β)) (k g : α) (F : β → β) :
    List.lookup g (l.map (fun e => if e.1 = k then (e.1, F e.2) else e)) =
      if g = k then (List.lookup k l).map F else List.lookup g l := by
  induction l with
  | nil => simp
  | cons e es ih =>
    obtain ⟨a, b⟩ := e
    rw [List.map_cons]
    by_cases hak : a = k
    · subst hak
      simp only [if_true, lookup_cons_ite, ih]
      by_cases hg : g = a
      · subst hg; simp
      · simp [hg]
    · simp only [hak, if_false, lookup_cons_ite, ih]
      by_cases hg : g = a
      · subst hg; simp [hak]
      · have hka : k ≠ a := fun h => hak h.symm
        simp [hg, hka]

theorem lookup_append_single (l : List (α × β)) (k g : α) (v : β) :
    List.lookup g (l ++ [(k, v)]) =
      match List.lookup g l with
      | some x => some x
      | none => if g = k then some v else none := by
  induction l with
  | nil => simp [lookup_cons_ite]
  | cons e es ih =>
    obtain ⟨a, b⟩ := e
    rw [List.cons_append, lookup_cons_ite, lookup_cons_ite, ih]
    by_cases hg : g = a
    · simp [hg]
    · simp [hg]

theorem lookup_isSome_iff_mem_keys (l : List (α × β)) (g : α) :
    (List.lookup g l).isSome = true ↔ g ∈ l.map Prod.fst := by
  induction l with
  | nil => simp
  | cons e es ih =>
    obtain ⟨a, b⟩ := e
    rw [lookup_cons_ite]
    by_cases hg : g = a
    · simp [hg]
    · simp only [hg, if_false, ih, List.map_cons, List.mem_cons, false_or]

theorem lookup_eq_none_iff_not_mem_keys (l : List (α × β)) (g : α) :
    List.lookup g l = none ↔ g ∉ l.map Prod.fst := by
  rw [← lookup_isSome_iff_mem_keys]
  cases List.lookup g l <;> simp

theorem mem_of_lookup_eq_some (l : List (α × β)) (g : α) (v : β)
    (h : List.lookup g l = some v) : (g, v) ∈ l := by
  induction l with
  | nil => simp at h
  | cons e es ih =>
    obtain ⟨a, b⟩ := e
    rw [lookup_cons_ite] at h
    by_cases hg : g = a
    · simp only [hg, if_true, Option.some.injEq] at h
      simp [hg, h]
    · simp only [hg, if_false] at h
      exact List.mem_cons_of_mem _ (ih h)

theorem lookup_eq_some_of_mem_nodup (l : List (α × β)) (g : α) (v : β)
    (hn : (l.map Prod.fst).Nodup) (h : (g, v) ∈ l) : List.lookup g l = some v := by
  induction l with
  | nil => simp at h
  | cons e es ih =>
    obtain ⟨a, b⟩ := e
    simp only [List.map_cons, List.nodup_cons] at hn
    rw [lookup_cons_ite]
    rcases List.mem_cons.1 h with h1 | h1
    · cases h1; simp
    · have hga : g ≠ a := by
        intro hga; subst hga
        exact hn.1 (List.mem_map.2 ⟨(g, v), h1, rfl⟩)
      simp only [hga, if_false]
      exact ih hn.2 h1

end Assoc

section Assoc2
variable {α β : Type} [BEq α] [LawfulBEq α] [DecidableEq α]

theorem keys_append_single_nodup (l : List (α × β)) (k : α) (v : β)
    (hn : (l.map Prod.fst).Nodup) (h : List.lookup k l = none) :
    ((l ++ [(k, v)]).map Prod.fst).Nodup := by
  rw [List.map_append, List.nodup_append]
  refine ⟨hn, by simp, ?_⟩
  intro a ha hb
  simp at hb
  subst hb
  exact (lookup_eq_none_iff_not_mem_keys l _).1 h ha

end Assoc2

section Assoc3
variable {α β : Type} [BEq α] [LawfulBEq α] [DecidableEq α]

end Assoc3

/-! ## LRU replacer -/

namespace LRUReplacer

theorem lru_victimScan_none (l : List (Int × Bool)) (h : victimScan l = none) :
    ∀ e ∈ l, e.2 = false := by
  induction l with
  | nil => simp
  | cons e es ih =>
    unfold victimScan at h
    by_cases he : e.2 = true
    · simp [he] at h
    · simp only [he] at h
      cases hs : victimScan es with
      | none =>
        intro x hx
        rcases List.mem_cons.1 hx with rfl | hx
        · simpa using he
        · exact ih hs x hx
      | some r => rw [hs] at h; simp at h

theorem lru_victimScan_some (l : List (Int × Bool)) (v : Int) (rest : List (Int × Bool))
    (hn : (l.map Prod.fst).Nodup) (h : victimScan l = some (v, rest)) :
    (v, true) ∈ l ∧ rest = l.filter (fun e => decide (e.1 ≠ v)) := by
  induction l generalizing rest with
  | nil => simp [victimScan] at h
  | cons e es ih =>
    obtain ⟨a, b⟩ := e
    simp only [List.map_cons, List.nodup_cons] at hn
    unfold victimScan at h
    by_cases he : b = true
    · subst he
      simp only [if_true, Option.some.injEq, Prod.mk.injEq] at h
      obtain ⟨rfl, rfl⟩ := h
      refine ⟨List.mem_cons_self _ _, ?_⟩
      rw [List.filter_cons_of_neg (by simp), filter_ne_eq_self _ _ hn.1]
    · simp only [he] at h
      cases hs : victimScan es with
      | none => rw [hs] at h; simp at h
      | some r =>
        obtain ⟨r1, r2⟩ := r
        rw [hs] at h
        simp only [Option.some.injEq, Prod.mk.injEq] at h
        obtain ⟨h1, h2⟩ := h
        have hb : b = false := by simpa using he
        subst hb
        have := ih r2 hn.2 hs
        refine ⟨List.mem_cons_of_mem _ this.1, ?_⟩
        have hne : a ≠ v := by
          intro hav; subst hav
          exact hn.1 (List.mem_map.2 ⟨_, this.1, rfl⟩)
        rw [List.filter_cons_of_pos (by simp [hne]), ← this.2]

theorem lru_Victim_snd_of_none (r : LRUReplacer) (h : (r.Victim).1 = none) : (r.Victim).2 = r := by
  unfold Victim at h ⊢
  cases hs : victimScan r.lru_list_ with
  | none => rfl
  | some v => rw [hs] at h; simp at h

theorem lru_lookup_of_Victim_none (r : LRUReplacer) (h : (r.Victim).1 = none) (g : Int) :
    List.lookup g r.lru_list_ ≠ some true := by
  unfold Victim at h
  cases hs : victimScan r.lru_list_ with
  | none =>
    intro hl
    have := lru_victimScan_none _ hs _ (mem_of_lookup_eq_some _ _ _ hl)
    simp at this
  | some v => rw [hs] at h; simp at h

theorem lru_Victim_some (r : LRUReplacer) (hw : r.WF) (v : Int) (h : (r.Victim).1 = some v) :
    List.lookup v r.lru_list_ = some true ∧
    (r.Victim).2.lru_list_ = r.lru_list_.filter (fun e => decide (e.1 ≠ v)) := by
  unfold Victim at h ⊢
  cases hs : victimScan r.lru_list_ with
  | none => rw [hs] at h; simp at h
  | some x =>
    obtain ⟨x1, x2⟩ := x
    rw [hs] at h
    simp only [Option.some.injEq] at h
    subst h
    have := lru_victimScan_some _ _ _ hw hs
    exact ⟨lookup_eq_some_of_mem_nodup _ _ _ hw this.1, this.2⟩

theorem lru_Victim_WF (r : LRUReplacer) (hw : r.WF) : (r.Victim).2.WF := by
  cases hv : (r.Victim).1 with
  | none => rw [lru_Victim_snd_of_none r hv]; exact hw
  | some v =>
    unfold WF
    rw [(lru_Victim_some r hw v hv).2]
    exact keys_filter_ne_nodup _ _ hw

theorem lru_Pin_list (r : LRUReplacer) (f : Int) :
    (r.Pin f).lru_list_ =
      r.lru_list_.filter (fun e => decide (e.1 ≠ f)) ++ [(f, false)] := by
  unfold Pin
  cases hl : List.lookup f r.lru_list_ with
  | some ev => rfl
  | none =>
    simp only
    rw [filter_ne_eq_self _ _ ((lookup_eq_none_iff_not_mem_keys _ _).1 hl)]

theorem lru_Pin_WF (r : LRUReplacer) (hw : r.WF) (f : Int) : (r.Pin f).WF := by
  unfold WF
  rw [lru_Pin_list]
  apply keys_append_single_nodup _ _ _ (keys_filter_ne_nodup _ _ hw)
  rw [lookup_filter_ne]; simp

theorem lru_lookup_Pin (r : LRUReplacer) (f g : Int) :
    List.lookup g (r.Pin f).lru_list_ =
      if g = f then some false else List.lookup g r.lru_list_ := by
  rw [lru_Pin_list, lookup_append_single, lookup_filter_ne]
  by_cases h : g = f
  · simp [h]
  · simp only [h, if_false]
    cases List.lookup g r.lru_list_ <;> rfl

theorem lru_Unpin_WF (r : LRUReplacer) (hw : r.WF) (f : Int) : (r.Unpin f).WF := by
  unfold WF Unpin
  cases hl : List.lookup f r.lru_list_ with
  | some ev =>
    simp only
    rw [keys_map_key _ f (fun _ => true)]
    exact hw
  | none =>
    simp only
    split
    · exact hw
    · exact keys_append_single_nodup _ _ _ hw hl

theorem lru_lookup_Unpin_ne (r : LRUReplacer) (f g : Int) (h : g ≠ f) :
    List.lookup g (r.Unpin f).lru_list_ = List.lookup g r.lru_list_ := by
  unfold Unpin
  cases hl : List.lookup f r.lru_list_ with
  | some ev =>
    simp only
    rw [lookup_map_key _ f g (fun _ => true)]
    simp [h]
  | none =>
    simp only
    split
    · rfl
    · simp only
      rw [lookup_append_single]
      simp only [h, if_false]
      cases List.lookup g r.lru_list_ <;> rfl

theorem lru_lookup_Unpin_self (r : LRUReplacer) (f : Int)
    (h : (List.lookup f r.lru_list_).isSome = true) :
    List.lookup f (r.Unpin f).lru_list_ = some true := by
  unfold Unpin
  cases hl : List.lookup f r.lru_list_ with
  | some ev =>
    simp only
    rw [lookup_map_key _ f f (fun _ => true)]
    simp [hl]
  | none => rw [hl] at h; simp at h

end LRUReplacer

/-! ## LRU-K replacer -/

namespace LRUKReplacer

@[simp] theorem SetEvictable_is_evictable (n : LRUKNode) (b : Bool) :
    (n.SetEvictable b).is_evictable_ = b := rfl

@[simp] theorem SetEvictable_history (n : LRUKNode) (b : Bool) :
    (n.SetEvictable b).history_ = n.history_ := rfl

@[simp] theorem SetEvictable_k (n : LRUKNode) (b : Bool) :
    (n.SetEvictable b).k_ = n.k_ := rfl

theorem lruk_countEv_cons (e : Int × LRUKNode) (es : List (Int × LRUKNode)) :
    countEv (e :: es) = (if e.2.is_evictable_ then 1 else 0) + countEv es := by
  unfold countEv
  by_cases h : e.2.is_evictable_ = true
  · simp [List.filter_cons, h]; omega
  · simp [List.filter_cons, h]

theorem lruk_countEv_append (l1 l2 : List (Int × LRUKNode)) :
    countEv (l1 ++ l2) = countEv l1 + countEv l2 := by
  unfold countEv; rw [List.filter_append, List.length_append]

theorem lruk_countEv_map_key (l : List (Int × LRUKNode)) (f : Int) (F : LRUKNode → LRUKNode)
    (hn : (l.map Prod.fst).Nodup) :
    (countEv (l.map (fun e => if e.1 = f then (e.1, F e.2) else e)) : Int) =
      countEv l
        - (match List.lookup f l with
           | some n => if n.is_evictable_ then 1 else 0
           | none => 0)
        + (match List.lookup f l with
           | some n => if (F n).is_evictable_ then 1 else 0
           | none => 0) := by
  induction l with
  | nil => simp [countEv]
  | cons e es ih =>
    obtain ⟨a, n⟩ := e
    simp only [List.map_cons, List.nodup_cons] at hn
    rw [List.map_cons, lruk_countEv_cons, lruk_countEv_cons, lookup_cons_ite]
    by_cases haf : a = f
    · subst haf
      rw [map_key_eq_self _ _ _ hn.1]
      simp only [if_true]
      push_cast
      split <;> split <;> simp <;> omega
    · have hfa : f ≠ a := fun h => haf h.symm
      simp only [haf, hfa, if_false]
      push_cast
      rw [ih hn.2]
      omega

theorem lruk_countEv_filter_ne (l : List (Int × LRUKNode)) (v : Int) (n : LRUKNode)
    (hn : (l.map Prod.fst).Nodup) (hm : (v, n) ∈ l) (hev : n.is_evictable_ = true) :
    countEv (l.filter (fun e => decide (e.1 ≠ v))) + 1 = countEv l := by
  induction l with
  | nil => simp at hm
  | cons e es ih =>
    obtain ⟨a, m⟩ := e
    simp only [List.map_cons, List.nodup_cons] at hn
    rcases List.mem_cons.1 hm with h1 | h1
    · cases h1
      rw [List.filter_cons_of_neg (by simp), filter_ne_eq_self _ _ hn.1, lruk_countEv_cons]
      simp [hev]; omega
    · have hne : a ≠ v := by
        intro hav; subst hav
        exact hn.1 (List.mem_map.2 ⟨_, h1, rfl⟩)
      rw [List.filter_cons_of_pos (by simp [hne]), lruk_countEv_cons, lruk_countEv_cons, ← ih hn.2 h1]
      omega

theorem lruk_countEv_eq_zero (l : List (Int × LRUKNode)) (h : countEv l = 0) :
    ∀ e ∈ l, e.2.is_evictable_ = false := by
  intro e he
  by_contra hc
  have hc : e.2.is_evictable_ = true := by simpa using hc
  have : e ∈ l.filter (fun e => e.2.is_evictable_) := List.mem_filter.2 ⟨he, hc⟩
  unfold countEv at h
  rw [List.length_eq_zero] at h
  rw [h] at this
  simp at this

/-! ### Victim -/

theorem lruk_victimStep_fid (c : Nat) (acc : VictimAcc) (p : Int × LRUKNode) :
    (victimStep c acc p).victim_fid = acc.victim_fid ∨
    ((victimStep c acc p).victim_fid = p.1 ∧ p.2.is_evictable_ = true) := by
  unfold victimStep
  by_cases hev : p.2.is_evictable_ = true
  · simp only [hev, Bool.not_true, Bool.false_eq_true, if_false]
    cases p.2.GetBackwardKDistance c with
    | none =>
      cases acc.max_dist with
      | some m => right; exact ⟨rfl, trivial⟩
      | none =>
        simp only
        split
        · right; exact ⟨rfl, trivial⟩
        · left; rfl
    | some d =>
      cases acc.max_dist with
      | some m =>
        simp only
        split
        · right; exact ⟨rfl, trivial⟩
        · left; rfl
      | none => left; rfl
  · left; simp [hev]

theorem lruk_foldl_victim_mem (c : Nat) (l : List (Int × LRUKNode)) (acc : VictimAcc) :
    (l.foldl (victimStep c) acc).victim_fid = acc.victim_fid ∨
    ∃ n, ((l.foldl (victimStep c) acc).victim_fid, n) ∈ l ∧ n.is_evictable_ = true := by
  induction l generalizing acc with
  | nil => left; rfl
  | cons p ps ih =>
    rw [List.foldl_cons]
    rcases ih (victimStep c acc p) with h | ⟨n, hn, he⟩
    · rcases lruk_victimStep_fid c acc p with h2 | ⟨h2, h3⟩
      · left; rw [h, h2]
      · right; refine ⟨p.2, ?_, h3⟩
        rw [h, h2]; exact List.mem_cons_self _ _
    · right; exact ⟨n, List.mem_cons_of_mem _ hn, he⟩

theorem lruk_victimStep_ok (c : Nat) (acc : VictimAcc) (p : Int × LRUKNode)
    (hp : p.1 ≠ INVALID_FRAME_ID) (hd : ∀ d, p.2.GetBackwardKDistance c = some d → 0 < d)
    (hacc : AccOK acc) :
    AccOK (victimStep c acc p) ∧
    (acc.victim_fid ≠ INVALID_FRAME_ID → (victimStep c acc p).victim_fid ≠ INVALID_FRAME_ID) ∧
    (p.2.is_evictable_ = true → (victimStep c acc p).victim_fid ≠ INVALID_FRAME_ID) := by
  unfold victimStep AccOK at *
  by_cases hev : p.2.is_evictable_ = true
  · simp only [hev, Bool.not_true, Bool.false_eq_true, if_false]
    cases hdist : p.2.GetBackwardKDistance c with
    | none =>
      cases hm : acc.max_dist with
      | some m => simp [hp]
      | none =>
        have hv : acc.victim_fid ≠ INVALID_FRAME_ID := by
          rcases hacc with h | h
          · rw [hm] at h; simp at h
          · exact h
        simp only
        split <;> simp [hp, hv]
    | some d =>
      have hdpos := hd d hdist
      cases hm : acc.max_dist with
      | some m =>
        simp only
        by_cases hgt : d > m
        · simp [hgt, hp]
        · have hv : acc.victim_fid ≠ INVALID_FRAME_ID := by
            rcases hacc with h | h
            · rw [hm] at h; simp at h; omega
            · exact h
          simp [hgt, hv]
      | none =>
        have hv : acc.victim_fid ≠ INVALID_FRAME_ID := by
          rcases hacc with h | h
          · rw [hm] at h; simp at h
          · exact h
        simp [hv]
  · simp [hev]
    exact hacc

theorem lruk_foldl_victim_ok (c : Nat) (l : List (Int × LRUKNode)) (acc : VictimAcc)
    (hl : ∀ p ∈ l, p.1 ≠ INVALID_FRAME_ID ∧ ∀ d, p.2.GetBackwardKDistance c = some d → 0 < d)
    (hacc : AccOK acc) :
    (acc.victim_fid ≠ INVALID_FRAME_ID →
      (l.foldl (victimStep c) acc).victim_fid ≠ INVALID_FRAME_ID) ∧
    ((∃ p ∈ l, p.2.is_evictable_ = true) →
      (l.foldl (victimStep c) acc).victim_fid ≠ INVALID_FRAME_ID) := by
  induction l generalizing acc with
  | nil => simp
  | cons p ps ih =>
    rw [List.foldl_cons]
    have hp := hl p (List.mem_cons_self _ _)
    have hs := lruk_victimStep_ok c acc p hp.1 hp.2 hacc
    have ih2 := ih (victimStep c acc p) (fun q hq => hl q (List.mem_cons_of_mem _ hq)) hs.1
    refine ⟨fun h => ih2.1 (hs.2.1 h), ?_⟩
    rintro ⟨q, hq, hqe⟩
    rcases List.mem_cons.1 hq with rfl | hq
    · exact ih2.1 (hs.2.2 hqe)
    · exact ih2.2 ⟨q, hq, hqe⟩

theorem lruk_dist_pos (n : LRUKNode) (c : Nat) (h : ∀ ts ∈ n.history_, ts < c) (d : Nat)
    (hd : n.GetBackwardKDistance c = some d) : 0 < d := by
  unfold LRUKNode.GetBackwardKDistance at hd
  split at hd
  · simp at hd
  · cases hh : n.history_ with
    | nil => rw [hh] at hd; simp at hd
    | cons ts rest =>
      rw [hh] at hd
      simp only [Option.some.injEq] at hd
      have := h ts (by rw [hh]; exact List.mem_cons_self _ _)
      omega

theorem lruk_Victim_snd_of_none (r : LRUKReplacer) (h : (r.Victim).1 = none) : (r.Victim).2 = r := by
  unfold Victim at h ⊢
  by_cases h0 : r.cur_size_ = 0
  · simp [h0]
  · by_cases h1 : (victimLoop r).victim_fid ≠ INVALID_FRAME_ID
    · rw [if_neg h0, if_pos h1] at h; simp at h
    · rw [if_neg h0, if_neg h1]

theorem lruk_no_evictable_of_Victim_none (r : LRUKReplacer) (hw : r.WF) (h : (r.Victim).1 = none) :
    ∀ e ∈ r.node_store_, e.2.is_evictable_ = false := by
  obtain ⟨hn, hc, hall, hk⟩ := hw
  unfold Victim at h
  by_cases h0 : r.cur_size_ = 0
  · apply lruk_countEv_eq_zero
    rw [h0] at hc
    exact_mod_cast hc.symm
  · intro e he
    by_contra hc2
    have hc2 : e.2.is_evictable_ = true := by simpa using hc2
    have hne : (victimLoop r).victim_fid ≠ INVALID_FRAME_ID :=
      (lruk_foldl_victim_ok r.cur_ts_ r.node_store_ victimInit
        (fun p hp => ⟨(hall p hp).1, lruk_dist_pos _ _ (hall p hp).2.2⟩) (Or.inl rfl)).2 ⟨e, he, hc2⟩
    rw [if_neg h0, if_pos hne] at h
    simp at h

theorem lruk_Victim_some (r : LRUKReplacer) (v : Int) (h : (r.Victim).1 = some v) :
    (∃ n, (v, n) ∈ r.node_store_ ∧ n.is_evictable_ = true) ∧
    (r.Victim).2 = { r with node_store_ := r.node_store_.filter (fun e => decide (e.1 ≠ v)),
                            cur_size_ := r.cur_size_ - 1 } := by
  unfold Victim at h ⊢
  by_cases h0 : r.cur_size_ = 0
  · simp [h0] at h
  · by_cases h1 : (victimLoop r).victim_fid ≠ INVALID_FRAME_ID
    · rw [if_neg h0, if_pos h1] at h ⊢
      simp only [Option.some.injEq] at h
      rw [h]
      refine ⟨?_, rfl⟩
      rcases lruk_foldl_victim_mem r.cur_ts_ r.node_store_ victimInit with h2 | ⟨n, hn, he⟩
      · exact absurd h2 h1
      · unfold victimLoop at h
        rw [h] at hn; exact ⟨n, hn, he⟩
    · rw [if_neg h0, if_neg h1] at h; simp at h

theorem lruk_Victim_WF (r : LRUKReplacer) (hw : r.WF) : (r.Victim).2.WF := by
  cases hv : (r.Victim).1 with
  | none => rw [lruk_Victim_snd_of_none r hv]; exact hw
  | some v =>
    obtain ⟨⟨n, hm, hev⟩, heq⟩ := lruk_Victim_some r v hv
    obtain ⟨hn, hc, hall, hk⟩ := hw
    rw [heq]
    refine ⟨keys_filter_ne_nodup _ _ hn, ?_, ?_, hk⟩
    · have := lruk_countEv_filter_ne _ v n hn hm hev
      simp only
      rw [hc]; omega
    · intro e he
      exact hall e (List.mem_of_mem_filter he)

/-! ### Pin and Unpin -/

theorem lruk_pinStore_lookup_self (r : LRUKReplacer) (f : Int) :
    ∃ n, List.lookup f (pinStore r f) = some n ∧
      (List.lookup f r.node_store_ = some n ∨
        (List.lookup f r.node_store_ = none ∧ n = LRUKNode.mk0 f r.k_)) := by
  unfold pinStore
  cases hl : List.lookup f r.node_store_ with
  | some n => exact ⟨n, hl, Or.inl rfl⟩
  | none =>
    refine ⟨LRUKNode.mk0 f r.k_, ?_, Or.inr ⟨rfl, rfl⟩⟩
    simp only
    rw [lookup_append_single, hl]; simp

theorem lruk_pinStore_lookup_ne (r : LRUKReplacer) (f g : Int) (h : g ≠ f) :
    List.lookup g (pinStore r f) = List.lookup g r.node_store_ := by
  unfold pinStore
  cases hl : List.lookup f r.node_store_ with
  | some n => rfl
  | none =>
    simp only
    rw [lookup_append_single]
    simp only [h, if_false]
    cases List.lookup g r.node_store_ <;> rfl

theorem lruk_pinStore_nodup (r : LRUKReplacer) (f : Int) (hn : (r.node_store_.map Prod.fst).Nodup) :
    ((pinStore r f).map Prod.fst).Nodup := by
  unfold pinStore
  cases hl : List.lookup f r.node_store_ with
  | some n => exact hn
  | none => exact keys_append_single_nodup _ _ _ hn hl

theorem lruk_pinStore_countEv (r : LRUKReplacer) (f : Int) :
    countEv (pinStore r f) = countEv r.node_store_ := by
  unfold pinStore
  cases hl : List.lookup f r.node_store_ with
  | some n => rfl
  | none =>
    simp only
    rw [lruk_countEv_append]
    simp [countEv, LRUKNode.mk0]

theorem lruk_pinStore_mem (r : LRUKReplacer) (f : Int) (e : Int × LRUKNode) (he : e ∈ pinStore r f) :
    e ∈ r.node_store_ ∨ e = (f, LRUKNode.mk0 f r.k_) := by
  unfold pinStore at he
  cases hl : List.lookup f r.node_store_ with
  | some n => rw [hl] at he; exact Or.inl he
  | none =>
    rw [hl] at he
    simp only [List.mem_append, List.mem_singleton] at he
    exact he

theorem lruk_Pin_eq (r : LRUKReplacer) (f : Int) :
    r.Pin f =
      { r with
        node_store_ := (pinStore r f).map (fun e =>
          if e.1 = f then (e.1, (e.2.AddHistory r.cur_ts_).SetEvictable false) else e),
        cur_ts_ := r.cur_ts_ + 1,
        cur_size_ := if (match List.lookup f (pinStore r f) with
                         | some n => n.is_evictable_
                         | none => false) then r.cur_size_ - 1 else r.cur_size_ } := rfl

theorem lruk_lookup_Pin (r : LRUKReplacer) (f g : Int) :
    (List.lookup g (r.Pin f).node_store_).map (fun n => n.is_evictable_) =
      if g = f then some false
      else (List.lookup g r.node_store_).map (fun n => n.is_evictable_) := by
  rw [lruk_Pin_eq]
  simp only
  rw [lookup_map_key _ f g (fun n : LRUKNode => (n.AddHistory r.cur_ts_).SetEvictable false)]
  by_cases h : g = f
  · obtain ⟨n, hn, -⟩ := lruk_pinStore_lookup_self r f
    simp [h, hn]
  · simp only [h, if_false]
    rw [lruk_pinStore_lookup_ne r f g h]

theorem lruk_lookup_Pin_isSome (r : LRUKReplacer) (f g : Int) :
    (List.lookup g (r.Pin f).node_store_).isSome =
      (decide (g = f) || (List.lookup g r.node_store_).isSome) := by
  rw [lruk_Pin_eq]
  simp only
  rw [lookup_map_key _ f g (fun n : LRUKNode => (n.AddHistory r.cur_ts_).SetEvictable false)]
  by_cases h : g = f
  · obtain ⟨n, hn, -⟩ := lruk_pinStore_lookup_self r f
    simp [h, hn]
  · simp only [h, if_false]
    rw [lruk_pinStore_lookup_ne r f g h]
    simp

theorem lruk_mem_AddHistory (n : LRUKNode) (c ts : Nat) (h : ts ∈ (n.AddHistory c).history_) :
    ts ∈ n.history_ ∨ ts = c := by
  unfold LRUKNode.AddHistory at h
  simp only at h
  have := List.mem_of_mem_drop h
  simpa using this

theorem lruk_Pin_WF (r : LRUKReplacer) (hw : r.WF) (f : Int) (hf : f ≠ INVALID_FRAME_ID) :
    (r.Pin f).WF := by
  obtain ⟨hn, hc, hall, hk⟩ := hw
  rw [lruk_Pin_eq]
  refine ⟨?_, ?_, ?_, hk⟩
  · simp only
    rw [keys_map_key _ f (fun n : LRUKNode => (n.AddHistory r.cur_ts_).SetEvictable false)]
    exact lruk_pinStore_nodup r f hn
  · simp only
    rw [lruk_countEv_map_key _ f (fun n : LRUKNode => (n.AddHistory r.cur_ts_).SetEvictable false)
      (lruk_pinStore_nodup r f hn), lruk_pinStore_countEv, hc]
    cases List.lookup f (pinStore r f) with
    | none => simp
    | some n => by_cases hev : n.is_evictable_ = true <;> simp [hev]
  · intro e he
    simp only at he ⊢
    obtain ⟨e0, he0, rfl⟩ := List.mem_map.1 he
    have hbase : e0.1 ≠ INVALID_FRAME_ID ∧ e0.2.k_ = r.k_ ∧ ∀ ts ∈ e0.2.history_, ts < r.cur_ts_ := by
      rcases lruk_pinStore_mem r f e0 he0 with h | h
      · exact hall e0 h
      · subst h; exact ⟨hf, rfl, by simp [LRUKNode.mk0]⟩
    by_cases h : e0.1 = f
    · simp only [h, if_true]
      refine ⟨hf, ?_, ?_⟩
      · simpa [LRUKNode.AddHistory, LRUKNode.SetEvictable] using hbase.2.1
      · intro ts hts
        rcases lruk_mem_AddHistory e0.2 r.cur_ts_ ts hts with h1 | h1
        · have := hbase.2.2 ts h1; omega
        · omega
    · simp only [h, if_false]
      refine ⟨hbase.1, hbase.2.1, ?_⟩
      intro ts hts
      have := hbase.2.2 ts hts; omega

theorem lruk_lookup_Unpin_ne (r : LRUKReplacer) (f g : Int) (h : g ≠ f) :
    List.lookup g (r.Unpin f).node_store_ = List.lookup g r.node_store_ := by
  unfold Unpin
  cases hl : List.lookup f r.node_store_ with
  | none =>
    simp only
    split
    · rfl
    · simp only
      rw [lookup_append_single]
      simp only [h, if_false]
      cases List.lookup g r.node_store_ <;> rfl
  | some n =>
    simp only
    split
    · simp only
      rw [lookup_map_key _ f g (fun n : LRUKNode => n.SetEvictable true)]
      simp [h]
    · rfl

theorem lruk_lookup_Unpin_self (r : LRUKReplacer) (f : Int)
    (h : (List.lookup f r.node_store_).isSome = true) :
    (List.lookup f (r.Unpin f).node_store_).map (fun n => n.is_evictable_) = some true := by
  unfold Unpin
  cases hl : List.lookup f r.node_store_ with
  | none => rw [hl] at h; simp at h
  | some n =>
    simp only
    by_cases hev : n.is_evictable_ = true
    · simp [hev, hl]
    · have : (!n.is_evictable_) = true := by simpa using hev
      simp only [this, if_true]
      rw [lookup_map_key _ f f (fun n : LRUKNode => n.SetEvictable true)]
      simp [hl]

theorem lruk_Unpin_WF (r : LRUKReplacer) (hw : r.WF) (f : Int) (hf : f ≠ INVALID_FRAME_ID) :
    (r.Unpin f).WF := by
  obtain ⟨hn, hc, hall, hk⟩ := hw
  unfold Unpin
  cases hl : List.lookup f r.node_store_ with
  | none =>
    simp only
    split
    · exact ⟨hn, hc, hall, hk⟩
    · refine ⟨keys_append_single_nodup _ _ _ hn hl, ?_, ?_, hk⟩
      · simp only
        rw [lruk_countEv_append, hc]
        simp [countEv, LRUKNode.mk0]
      · intro e he
        simp only [List.mem_append, List.mem_singleton] at he
        rcases he with he | he
        · exact hall e he
        · subst he; exact ⟨hf, rfl, by simp [LRUKNode.mk0]⟩
  | some n =>
    simp only
    by_cases hev : n.is_evictable_ = true
    · simp only [hev, Bool.not_true, Bool.false_eq_true, if_false]
      exact ⟨hn, hc, hall, hk⟩
    · have : (!n.is_evictable_) = true := by simpa using hev
      simp only [this, if_true]
      refine ⟨?_, ?_, ?_, hk⟩
      · simp only
        rw [keys_map_key _ f (fun n : LRUKNode => n.SetEvictable true)]
        exact hn
      · simp only
        rw [lruk_countEv_map_key _ f (fun n : LRUKNode => n.SetEvictable true) hn, hl, hc]
        simp [hev]
      · intro e he
        simp only at he
        obtain ⟨e0, he0, rfl⟩ := List.mem_map.1 he
        have := hall e0 he0
        by_cases h : e0.1 = f
        · simp only [h, if_true]
          exact ⟨hf, this.2.1, this.2.2⟩
        · simp only [h, if_false]; exact this

end LRUKReplacer

/-! ## Replacer interface -/

namespace Replacer

theorem evictable_Pin (r : Replacer) (f g : Int) :
    (r.Pin f).evictable g = if g = f then false else r.evictable g := by
  cases r with
  | lru r =>
    simp only [Pin, evictable, LRUReplacer.lru_lookup_Pin]
    by_cases h : g = f <;> simp [h]
  | lruk r =>
    simp only [Pin, evictable, LRUKReplacer.lruk_lookup_Pin]
    by_cases h : g = f <;> simp [h]

theorem tracked_Pin (r : Replacer) (f g : Int) :
    (r.Pin f).tracked g = (decide (g = f) || r.tracked g) := by
  cases r with
  | lru r =>
    simp only [Pin, tracked, LRUReplacer.lru_lookup_Pin]
    by_cases h : g = f <;> simp [h]
  | lruk r =>
    simp only [Pin, tracked, LRUKReplacer.lruk_lookup_Pin_isSome]

theorem evictable_Unpin_ne (r : Replacer) (f g : Int) (h : g ≠ f) :
    (r.Unpin f).evictable g = r.evictable g := by
  cases r with
  | lru r => simp only [Unpin, evictable, LRUReplacer.lru_lookup_Unpin_ne r f g h]
  | lruk r => simp only [Unpin, evictable, LRUKReplacer.lruk_lookup_Unpin_ne r f g h]

theorem tracked_Unpin_ne (r : Replacer) (f g : Int) (h : g ≠ f) :
    (r.Unpin f).tracked g = r.tracked g := by
  cases r with
  | lru r => simp only [Unpin, tracked, LRUReplacer.lru_lookup_Unpin_ne r f g h]
  | lruk r => simp only [Unpin, tracked, LRUKReplacer.lruk_lookup_Unpin_ne r f g h]

theorem evictable_Unpin_self (r : Replacer) (f : Int) (h : r.tracked f = true) :
    (r.Unpin f).evictable f = true := by
  cases r with
  | lru r =>
    simp only [Unpin, evictable, LRUReplacer.lru_lookup_Unpin_self r f h]
    simp
  | lruk r =>
    simp only [Unpin, evictable, LRUKReplacer.lruk_lookup_Unpin_self r f h]
    simp

theorem tracked_of_evictable (r : Replacer) (g : Int) (h : r.evictable g = true) :
    r.tracked g = true := by
  cases r with
  | lru r =>
    simp only [evictable, tracked] at *
    cases hl : List.lookup g r.lru_list_ with
    | none => rw [hl] at h; simp at h
    | some b => rfl
  | lruk r =>
    simp only [evictable, tracked] at *
    cases hl : List.lookup g r.node_store_ with
    | none => rw [hl] at h; simp at h
    | some b => rfl

theorem tracked_Unpin_self (r : Replacer) (f : Int) (h : r.tracked f = true) :
    (r.Unpin f).tracked f = true :=
  tracked_of_evictable _ _ (evictable_Unpin_self r f h)

theorem rep_Victim_snd_of_none (r : Replacer) (h : (r.Victim).1 = none) : (r.Victim).2 = r := by
  cases r with
  | lru r => simp only [Victim] at h ⊢; rw [LRUReplacer.lru_Victim_snd_of_none r h]
  | lruk r => simp only [Victim] at h ⊢; rw [LRUKReplacer.lruk_Victim_snd_of_none r h]

theorem rep_no_evictable_of_Victim_none (r : Replacer) (hw : r.WF) (h : (r.Victim).1 = none)
    (g : Int) : r.evictable g = false := by
  cases r with
  | lru r =>
    simp only [Victim] at h
    simp only [evictable]
    have := LRUReplacer.lru_lookup_of_Victim_none r h g
    simpa using this
  | lruk r =>
    simp only [Victim] at h
    simp only [evictable]
    have hno := LRUKReplacer.lruk_no_evictable_of_Victim_none r hw h
    cases hl : List.lookup g r.node_store_ with
    | none => simp
    | some n =>
      have := hno _ (mem_of_lookup_eq_some _ _ _ hl)
      simp at this
      simp [this]

theorem rep_Victim_some (r : Replacer) (hw : r.WF) (v : Int) (h : (r.Victim).1 = some v) :
    r.evictable v = true ∧
    (∀ g, (r.Victim).2.evictable g = if g = v then false else r.evictable g) ∧
    (∀ g, (r.Victim).2.tracked g = if g = v then false else r.tracked g) := by
  cases r with
  | lru r =>
    simp only [Victim] at h ⊢
    obtain ⟨h1, h2⟩ := LRUReplacer.lru_Victim_some r hw v h
    simp only [evictable, tracked, h2, lookup_filter_ne]
    refine ⟨by simp [h1], ?_, ?_⟩
    · intro g; by_cases hg : g = v <;> simp [hg]
    · intro g; by_cases hg : g = v <;> simp [hg]
  | lruk r =>
    simp only [Victim] at h ⊢
    obtain ⟨⟨n, hm, hev⟩, h2⟩ := LRUKReplacer.lruk_Victim_some r v h
    have hl := lookup_eq_some_of_mem_nodup _ _ _ hw.1 hm
    simp only [evictable, tracked, h2, lookup_filter_ne]
    refine ⟨by simp [hl, hev], ?_, ?_⟩
    · intro g; by_cases hg : g = v <;> simp [hg]
    · intro g; by_cases hg : g = v <;> simp [hg]

theorem WF_Pin (r : Replacer) (hw : r.WF) (f : Int) (hf : f ≠ INVALID_FRAME_ID) :
    (r.Pin f).WF := by
  cases r with
  | lru r => exact LRUReplacer.lru_Pin_WF r hw f
  | lruk r => exact LRUKReplacer.lruk_Pin_WF r hw f hf

theorem WF_Unpin (r : Replacer) (hw : r.WF) (f : Int) (hf : f ≠ INVALID_FRAME_ID) :
    (r.Unpin f).WF := by
  cases r with
  | lru r => exact LRUReplacer.lru_Unpin_WF r hw f
  | lruk r => exact LRUKReplacer.lruk_Unpin_WF r hw f hf

theorem WF_Victim (r : Replacer) (hw : r.WF) : (r.Victim).2.WF := by
  cases r with
  | lru r => exact LRUReplacer.lru_Victim_WF r hw
  | lruk r => exact LRUKReplacer.lruk_Victim_WF r hw

end Replacer

/-! ## Buffer pool: the invariant holds in every reachable state -/

namespace BufferPoolManager

/-! ## Buffer pool: the invariant is preserved -/

theorem mem_eraseKey (tbl : List ((Int × Int) × Int)) (fid pid : Int) (e : (Int × Int) × Int)
    (h : e ∈ eraseKey tbl fid pid) : e ∈ tbl :=
  List.mem_of_mem_filter h

theorem mem_insertKey (tbl : List ((Int × Int) × Int)) (fid pid f : Int) (e : (Int × Int) × Int)
    (h : e ∈ insertKey tbl fid pid f) : e.2 = f ∨ e ∈ tbl := by
  unfold insertKey at h
  cases hl : List.lookup (fid, pid) tbl with
  | some x =>
    rw [hl] at h
    simp only at h
    obtain ⟨e0, he0, rfl⟩ := List.mem_map.1 h
    by_cases hk : e0.1 = (fid, pid)
    · left; simp [hk]
    · right; simpa [hk] using he0
  | none =>
    rw [hl] at h
    simp only [List.mem_append, List.mem_singleton] at h
    rcases h with h | h
    · right; exact h
    · left; rw [h]

theorem lookup_insertKey_self (tbl : List ((Int × Int) × Int)) (fid pid f : Int) :
    List.lookup (fid, pid) (insertKey tbl fid pid f) = some f := by
  unfold insertKey
  cases hl : List.lookup (fid, pid) tbl with
  | some x =>
    simp only
    rw [lookup_map_key tbl (fid, pid) (fid, pid) (fun _ => f)]
    simp [hl]
  | none =>
    simp only
    rw [lookup_append_single, hl]
    simp

theorem Inv_newLRU (n : Nat) (d : DiskManager) : Inv (newLRU n d) := by
  refine ⟨?_, ?_, ?_, ?_, ?_⟩
  · simp [newLRU, Replacer.WF, LRUReplacer.WF]
  · intro g hg; simp [newLRU, Replacer.tracked] at hg
  · intro f; simp [newLRU, Frame.Reset]
  · intro f hf
    simp only [newLRU, List.mem_map, List.mem_range] at hf
    obtain ⟨a, -, rfl⟩ := hf
    simp [INVALID_FRAME_ID]
  · intro e he; simp [newLRU] at he

theorem Inv_newLRUK (n k : Nat) (d : DiskManager) (hk : 1 ≤ k) : Inv (newLRUK n k d) := by
  refine ⟨?_, ?_, ?_, ?_, ?_⟩
  · simp [newLRUK, Replacer.WF, LRUKReplacer.WF, LRUKReplacer.countEv, hk]
  · intro g hg; simp [newLRUK, Replacer.tracked] at hg
  · intro f; simp [newLRUK, Frame.Reset]
  · intro f hf
    simp only [newLRUK, List.mem_map, List.mem_range] at hf
    obtain ⟨a, -, rfl⟩ := hf
    simp [INVALID_FRAME_ID]
  · intro e he; simp [newLRUK] at he

/-- Pinning a valid frame in a replacer that agrees with the old one on the
other frames, storing a frame with a non-negative pin count in its slot, and
changing the table to entries of the old table or entries that map to that
frame, preserves the invariant. -/
theorem Inv_pin_frame (s : BufferPoolManager) (hs : Inv s) (f : Int) (hf : f ≠ INVALID_FRAME_ID)
    (r1 : Replacer) (hr1w : r1.WF)
    (hr1 : ∀ g, g ≠ f → r1.tracked g = s.replacer_.tracked g ∧
      r1.evictable g = s.replacer_.evictable g)
    (fr : Frame) (hfr : 0 ≤ fr.pin_count_) (tbl : List ((Int × Int) × Int))
    (fl : List Int) (d : DiskManager)
    (htbl : ∀ e ∈ tbl, e.2 = f ∨ e ∈ s.page_frame_lookup_)
    (hfl : ∀ g ∈ fl, g = f ∨ g ∈ s.free_list_) :
    Inv { frames_ := Function.update s.frames_ f fr, replacer_ := r1.Pin f,
          page_frame_lookup_ := tbl, free_list_ := fl, disk_manager_ := d } := by
  obtain ⟨hw, htr, hpin, hfree, htab⟩ := hs
  refine ⟨Replacer.WF_Pin _ hr1w f hf, ?_, ?_, ?_, ?_⟩
  · intro g hg
    simp only [Replacer.tracked_Pin, Bool.or_eq_true, decide_eq_true_eq] at hg
    by_cases hgf : g = f
    · rw [hgf]; exact hf
    · rcases hg with hg | hg
      · exact absurd hg hgf
      · rw [(hr1 g hgf).1] at hg; exact htr g hg
  · intro g
    simp only [Function.update_apply]
    split
    · exact hfr
    · exact hpin g
  · intro g hg
    rcases hfl g hg with h | h
    · rw [h]; exact hf
    · exact hfree g h
  · intro e he
    simp only [Replacer.tracked_Pin, Replacer.evictable_Pin, Function.update_apply]
    by_cases hef : e.2 = f
    · simp [hef, hf]
    · rcases htbl e he with h | h
      · exact absurd h hef
      · have := htab e h
        simp only [hef, if_false, decide_False, Bool.false_or]
        rw [(hr1 e.2 hef).1, (hr1 e.2 hef).2]
        exact this

/-- Changing only the dirty bit or the bytes of frames, and the disk, preserves
the invariant. -/
theorem Inv_same_pins (s : BufferPoolManager) (hs : Inv s) (fr : Int → Frame)
    (hfr : ∀ f, (fr f).pin_count_ = (s.frames_ f).pin_count_) (d : DiskManager) :
    Inv { s with frames_ := fr, disk_manager_ := d } := by
  obtain ⟨hw, htr, hpin, hfree, htab⟩ := hs
  refine ⟨hw, htr, ?_, hfree, ?_⟩
  · intro f; simp only [hfr]; exact hpin f
  · intro e he
    simp only [hfr]
    exact htab e he

theorem Inv_FetchPage (s : BufferPoolManager) (hs : Inv s) (fid pid : Int) :
    Inv (s.FetchPage fid pid).2 := by
  have hs0 := hs
  obtain ⟨hw, htr, hpin, hfree, htab⟩ := hs
  unfold FetchPage
  cases hfind : s.find fid pid with
  | some f =>
    simp only
    have hmem := mem_of_lookup_eq_some _ _ _ hfind
    have hf := (htab _ hmem).1
    exact Inv_pin_frame s hs0 f hf s.replacer_ hw (fun g _ => ⟨rfl, rfl⟩) _
      (by have := hpin f; simp only [Frame.Pin]; omega) _ _ _
      (fun e he => Or.inr he) (fun g hg => Or.inr hg)
  | none =>
    simp only
    unfold GetAvailableFrame
    cases hfl : s.free_list_ with
    | cons f rest =>
      simp only [UpdateFrame]
      have hf : f ≠ INVALID_FRAME_ID := hfree f (by rw [hfl]; exact List.mem_cons_self _ _)
      exact Inv_pin_frame s hs0 f hf s.replacer_ hw (fun g _ => ⟨rfl, rfl⟩) _
        (by simp [Frame.Pin]) _ _ _
        (fun e he => mem_insertKey _ _ _ _ _ he)
        (fun g hg => Or.inr (by rw [hfl]; exact List.mem_cons_of_mem _ hg))
    | nil =>
      simp only
      cases hv : (s.replacer_.Victim).1 with
      | none =>
        have h2 := Replacer.rep_Victim_snd_of_none _ hv
        have : s.replacer_.Victim = (none, s.replacer_) := Prod.ext hv h2
        rw [this]
        simp only
        refine ⟨hw, htr, hpin, ?_, htab⟩
        rw [hfl] at hfree; exact hfree
      | some v =>
        obtain ⟨hev, hevs, htrs⟩ := Replacer.rep_Victim_some _ hw v hv
        have hvne : v ≠ INVALID_FRAME_ID := htr v (Replacer.tracked_of_evictable _ _ hev)
        have : s.replacer_.Victim = (some v, (s.replacer_.Victim).2) := Prod.ext hv rfl
        rw [this]
        simp only [UpdateFrame, Function.update_idem]
        exact Inv_pin_frame s hs0 v hvne (s.replacer_.Victim).2 (Replacer.WF_Victim _ hw)
          (fun g hg => by rw [htrs, hevs]; simp [hg]) _
          (by simp [Frame.Pin]) _ _ _
          (fun e he => by
            rcases mem_insertKey _ _ _ _ _ he with h | h
            · exact Or.inl h
            · exact Or.inr (mem_eraseKey _ _ _ _ h))
          (fun g hg => by simp at hg)

theorem Inv_UnpinPage (s : BufferPoolManager) (hs : Inv s) (fid pid : Int) (d : Bool) :
    Inv (s.UnpinPage fid pid d).2 := by
  have hs0 := hs
  obtain ⟨hw, htr, hpin, hfree, htab⟩ := hs
  unfold UnpinPage
  cases hfind : s.find fid pid with
  | none => exact hs0
  | some f =>
    simp only
    have hmem := mem_of_lookup_eq_some _ _ _ hfind
    obtain ⟨hf, hft, hfe⟩ := htab _ hmem
    by_cases hp : (s.frames_ f).pin_count_ ≤ 0
    · rw [if_pos hp]; exact hs0
    · rw [if_neg hp]
      simp only
      have hpc : ((if d = true then (s.frames_ f).SetDirty true else s.frames_ f).Unpin).pin_count_
          = (s.frames_ f).pin_count_ - 1 := by
        split <;> simp [Frame.Unpin, Frame.SetDirty]
      rw [hpc]
      by_cases h0 : (s.frames_ f).pin_count_ - 1 = 0
      · rw [if_pos h0]
        refine ⟨Replacer.WF_Unpin _ hw f hf, ?_, ?_, hfree, ?_⟩
        · intro g hg
          by_cases hgf : g = f
          · rw [hgf]; exact hf
          · rw [Replacer.tracked_Unpin_ne _ _ _ hgf] at hg; exact htr g hg
        · intro g
          simp only [Function.update_apply]
          split
          · rw [hpc]; omega
          · exact hpin g
        · intro e he
          obtain ⟨h1, h2, h3⟩ := htab e he
          dsimp only
          by_cases hef : e.2 = f
          · rw [hef, Function.update_same]
            refine ⟨hf, Replacer.tracked_Unpin_self _ _ hft, ?_⟩
            rw [hpc]
            intro h; omega
          · rw [Replacer.tracked_Unpin_ne _ _ _ hef, Replacer.evictable_Unpin_ne _ _ _ hef,
              Function.update_noteq hef]
            exact ⟨h1, h2, h3⟩
      · rw [if_neg h0]
        refine ⟨hw, htr, ?_, hfree, ?_⟩
        · intro g
          simp only [Function.update_apply]
          split
          · rw [hpc]; omega
          · exact hpin g
        · intro e he
          obtain ⟨h1, h2, h3⟩ := htab e he
          dsimp only
          by_cases hef : e.2 = f
          · rw [hef, Function.update_same]
            refine ⟨hf, hft, ?_⟩
            intro _
            exact hfe (by show 0 < (s.frames_ f).pin_count_; omega)
          · rw [Function.update_noteq hef]
            exact ⟨h1, h2, h3⟩

theorem Inv_FlushPage (s : BufferPoolManager) (hs : Inv s) (fid pid : Int) :
    Inv (s.FlushPage fid pid).2 := by
  unfold FlushPage
  cases hfind : s.find fid pid with
  | none => exact hs
  | some f =>
    simp only
    split
    · exact Inv_same_pins s hs _ (fun g => by
        simp only [Function.update_apply]
        split
        · rename_i h; rw [h]; rfl
        · rfl) _
    · exact hs

theorem Inv_flushAllLoop (fid : Int) (l : List ((Int × Int) × Int)) (s : BufferPoolManager)
    (hs : Inv s) : Inv (flushAllLoop fid l s) := by
  induction l generalizing s with
  | nil => exact hs
  | cons e rest ih =>
    unfold flushAllLoop
    split
    · simp only
      split
      · apply ih
        exact Inv_same_pins s hs _ (fun g => by
          simp only [Function.update_apply]
          split
          · rename_i h; rw [h]; rfl
          · rfl) _
      · exact ih s hs
    · exact ih s hs

theorem Inv_DeletePage (s : BufferPoolManager) (hs : Inv s) (fid pid : Int) :
    Inv (s.DeletePage fid pid).2 := by
  have hs0 := hs
  obtain ⟨hw, htr, hpin, hfree, htab⟩ := hs
  unfold DeletePage
  cases hfind : s.find fid pid with
  | none => exact hs0
  | some f =>
    simp only
    have hmem := mem_of_lookup_eq_some _ _ _ hfind
    have hf := (htab _ hmem).1
    split
    · exact hs0
    · exact Inv_pin_frame s hs0 f hf s.replacer_ hw (fun g _ => ⟨rfl, rfl⟩) _
        (by simp [Frame.Reset]) _ _ _
        (fun e he => Or.inr (mem_eraseKey _ _ _ _ he))
        (fun g hg => by
          simp only [List.mem_append, List.mem_singleton] at hg
          rcases hg with h | h
          · exact Or.inr h
          · exact Or.inl h)

theorem Inv_deleteAllLoop (fid : Int) (l : List ((Int × Int) × Int)) (s : BufferPoolManager)
    (hs : Inv s) (hl : ∀ e ∈ l, e.2 ≠ INVALID_FRAME_ID) : Inv (deleteAllLoop fid l s).2 := by
  induction l generalizing s with
  | nil => exact hs
  | cons e rest ih =>
    have hrest : ∀ e ∈ rest, e.2 ≠ INVALID_FRAME_ID :=
      fun x hx => hl x (List.mem_cons_of_mem _ hx)
    unfold deleteAllLoop
    split
    · simp only
      split
      · exact hs
      · apply ih _ _ hrest
        exact Inv_pin_frame s hs e.2 (hl e (List.mem_cons_self _ _)) s.replacer_ hs.1
          (fun g _ => ⟨rfl, rfl⟩) _ (by simp [Frame.Reset]) _ _ _
          (fun x hx => Or.inr (mem_eraseKey _ _ _ _ hx))
          (fun g hg => by
            simp only [List.mem_append, List.mem_singleton] at hg
            rcases hg with h | h
            · exact Or.inr h
            · exact Or.inl h)
    · exact ih s hs hrest

theorem Inv_step (s : BufferPoolManager) (hs : Inv s) (op : Op) : Inv (s.step op) := by
  cases op with
  | fetch fid pid => exact Inv_FetchPage s hs fid pid
  | unpin fid pid d => exact Inv_UnpinPage s hs fid pid d
  | flush fid pid => exact Inv_FlushPage s hs fid pid
  | flushAll fid => exact Inv_flushAllLoop fid _ s hs
  | delete fid pid => exact Inv_DeletePage s hs fid pid
  | deleteAll fid => exact Inv_deleteAllLoop fid _ s hs (fun e he => (hs.2.2.2.2 e he).1)
  | write f data =>
    exact Inv_same_pins s hs _ (fun g => by
      simp only [Function.update_apply]
      split
      · rename_i h; rw [h]
      · rfl) _

theorem Inv_of_Reachable (s : BufferPoolManager) (h : Reachable s) : Inv s := by
  induction h with
  | initLRU n d => exact Inv_newLRU n d
  | initLRUK n k d hk => exact Inv_newLRUK n k d hk
  | step s op _ ih => exact Inv_step s ih op

theorem Reachable_run (s : BufferPoolManager) (h : Reachable s) (ops : List Op) :
    Reachable (s.run ops) := by
  induction ops generalizing s with
  | nil => exact h
  | cons op rest ih => exact ih _ (Reachable.step s op h)

end BufferPoolManager

/-! ## Buffer pool: claims C7 to C10 -/

namespace BufferPoolManager

/-- C7: whenever a frame holding a dirty page is taken as eviction victim (the
page asked for is not resident, the free list is empty, the replacer names the
frame), `WritePage` is called with the identity and the current bytes of that
page as the last disk write before the frame is reset (`GetAvailableFrame`)
and reused (`FetchPage`), so the disk holds the evicted bytes. -/
theorem C7_dirty_victim_is_written_before_reuse (s : BufferPoolManager) (fid pid v : Int)
    (hmiss : s.find fid pid = none) (hfree : s.free_list_ = [])
    (hv : (s.replacer_.Victim).1 = some v) (hd : (s.frames_ v).is_dirty_ = true) :
    (s.GetAvailableFrame).1 = some v ∧
    (s.GetAvailableFrame).2.disk_manager_.writes =
      s.disk_manager_.writes ++
        [((s.frames_ v).page_.file_id_, (s.frames_ v).page_.page_id_, (s.frames_ v).page_.data_)] ∧
    (s.GetAvailableFrame).2.frames_ v = (s.frames_ v).Reset ∧
    (s.FetchPage fid pid).1 = some v ∧
    (s.FetchPage fid pid).2.disk_manager_.writes =
      s.disk_manager_.writes ++
        [((s.frames_ v).page_.file_id_, (s.frames_ v).page_.page_id_, (s.frames_ v).page_.data_)] ∧
    (s.FetchPage fid pid).2.disk_manager_.pages (s.frames_ v).page_.file_id_
      (s.frames_ v).page_.page_id_ = (s.frames_ v).page_.data_ ∧
    ((s.FetchPage fid pid).2.frames_ v).page_.file_id_ = fid ∧
    ((s.FetchPage fid pid).2.frames_ v).page_.page_id_ = pid ∧
    ((s.FetchPage fid pid).2.frames_ v).pin_count_ = 1 ∧
    ((s.FetchPage fid pid).2.frames_ v).is_dirty_ = false := by
  have hV : s.replacer_.Victim = (some v, (s.replacer_.Victim).2) := Prod.ext hv rfl
  have hG : s.GetAvailableFrame =
      (some v,
       { s with
         replacer_ := (s.replacer_.Victim).2,
         disk_manager_ := s.disk_manager_.WritePage (s.frames_ v).page_.file_id_
           (s.frames_ v).page_.page_id_ (s.frames_ v).page_.data_,
         page_frame_lookup_ := eraseKey s.page_frame_lookup_ (s.frames_ v).page_.file_id_
           (s.frames_ v).page_.page_id_,
         frames_ := Function.update s.frames_ v (s.frames_ v).Reset }) := by
    unfold GetAvailableFrame
    rw [hfree]
    simp only
    rw [hV]
    simp only [hd, if_true]
  have hF : s.FetchPage fid pid =
      (some v, ((s.GetAvailableFrame).2).UpdateFrame v fid pid) := by
    unfold FetchPage
    rw [hmiss]
    simp only
    rw [hG]
  rw [hF, hG]
  simp only [UpdateFrame, Function.update_same, Frame.Reset, DiskManager.WritePage, Frame.Pin]
  simp

/-- C7, witness: pool of 2 frames, A and B fetched, written and unpinned dirty;
fetching C evicts A, whose bytes `[1, 1]` reach the disk. -/
theorem C7_dirty_victim_is_written_before_reuse_witness :
    (scenarioAB.FetchPage 0 3).1 = some 0 ∧
    (scenarioAB.FetchPage 0 3).2.disk_manager_.writes = [(0, 1, [1, 1])] ∧
    (scenarioAB.FetchPage 0 3).2.disk_manager_.pages 0 1 = [1, 1] := by
  have h := C7_dirty_victim_is_written_before_reuse scenarioAB 0 3 0
    (by decide) (by decide) (by decide) (by decide)
  exact ⟨h.2.2.2.1, h.2.2.2.2.1, h.2.2.2.2.2.1⟩

/-- C8: in every reachable pool state a resident frame with positive pin count
is not in the evictable set of the replacer, is not the frame `Victim` would
return, and so is not returned by `GetAvailableFrame` on its victim path. -/
theorem C8_pinned_frame_never_victim (s : BufferPoolManager) (hr : Reachable s)
    (fid pid f : Int) (hres : s.find fid pid = some f)
    (hpin : 0 < (s.frames_ f).pin_count_) :
    s.replacer_.evictable f = false ∧
    (s.replacer_.Victim).1 ≠ some f ∧
    (s.free_list_ = [] → (s.GetAvailableFrame).1 ≠ some f) := by
  obtain ⟨hw, htr, hp, hfree, htab⟩ := Inv_of_Reachable s hr
  have hmem := mem_of_lookup_eq_some _ _ _ hres
  have hev : s.replacer_.evictable f = false := (htab _ hmem).2.2 hpin
  have hvic : (s.replacer_.Victim).1 ≠ some f := by
    intro h
    have := (Replacer.rep_Victim_some _ hw f h).1
    rw [hev] at this
    exact Bool.false_ne_true this
  refine ⟨hev, hvic, ?_⟩
  intro hfl
  unfold GetAvailableFrame
  rw [hfl]
  simp only
  cases hv : (s.replacer_.Victim).1 with
  | none =>
    have : s.replacer_.Victim = (none, (s.replacer_.Victim).2) := Prod.ext hv rfl
    rw [this]; simp
  | some v =>
    have : s.replacer_.Victim = (some v, (s.replacer_.Victim).2) := Prod.ext hv rfl
    rw [this]
    simp only [ne_eq, Option.some.injEq]
    intro hvf
    rw [hvf] at hv
    exact hvic hv

/-- C8, witness: one-frame pool with page (0,1) pinned in frame 0. -/
theorem C8_pinned_frame_never_victim_witness :
    scenarioPinned.replacer_.evictable 0 = false ∧
    (scenarioPinned.replacer_.Victim).1 ≠ some 0 ∧
    (scenarioPinned.free_list_ = [] → (scenarioPinned.GetAvailableFrame).1 ≠ some 0) :=
  C8_pinned_frame_never_victim scenarioPinned
    (Reachable_run _ (Reachable.initLRU 1 emptyDisk) _) 0 1 0 (by decide) (by decide)

/-- C9: in every reachable pool state, `FetchPage` returns null only when the
page is not resident, the free list is empty and no frame is evictable; the
pool state after the call (page table, free list, frames, replacer, disk and
its write log) is then the state before it. -/
theorem C9_FetchPage_null_leaves_state (s : BufferPoolManager) (hr : Reachable s)
    (fid pid : Int) (hnull : (s.FetchPage fid pid).1 = none) :
    s.find fid pid = none ∧ s.free_list_ = [] ∧
    (∀ g, s.replacer_.evictable g = false) ∧
    (s.FetchPage fid pid).2 = s ∧
    (s.FetchPage fid pid).2.disk_manager_.writes = s.disk_manager_.writes := by
  obtain ⟨hw, htr, hp, hfree, htab⟩ := Inv_of_Reachable s hr
  unfold FetchPage at hnull ⊢
  cases hfind : s.find fid pid with
  | some f => rw [hfind] at hnull; simp at hnull
  | none =>
    rw [hfind] at hnull
    simp only at hnull ⊢
    unfold GetAvailableFrame at hnull ⊢
    cases hfl : s.free_list_ with
    | cons f rest => rw [hfl] at hnull; simp at hnull
    | nil =>
      rw [hfl] at hnull
      simp only at hnull ⊢
      cases hv : (s.replacer_.Victim).1 with
      | some v =>
        have : s.replacer_.Victim = (some v, (s.replacer_.Victim).2) := Prod.ext hv rfl
        rw [this] at hnull; simp at hnull
      | none =>
        have h2 := Replacer.rep_Victim_snd_of_none _ hv
        have : s.replacer_.Victim = (none, s.replacer_) := Prod.ext hv h2
        rw [this]
        have hs : ({ s with free_list_ := [] } : BufferPoolManager) = s := by
          cases s; simp only at hfl; subst hfl; rfl
        exact ⟨trivial, trivial, Replacer.rep_no_evictable_of_Victim_none _ hw hv, hs,
          congrArg (fun x => x.disk_manager_.writes) hs⟩

/-- C9, witness: one-frame pool whose frame is pinned by page (0,1); fetching
page (0,2) returns null and changes nothing. -/
theorem C9_FetchPage_null_leaves_state_witness :
    (scenarioPinned.FetchPage 0 2).1 = none ∧
    (scenarioPinned.FetchPage 0 2).2 = scenarioPinned :=
  ⟨by decide,
   (C9_FetchPage_null_leaves_state scenarioPinned
    (Reachable_run _ (Reachable.initLRU 1 emptyDisk) _) 0 2 (by decide)).2.2.2.1⟩

/-- C10: in every reachable pool state `UnpinPage` returns false exactly when
the page is not resident or its pin count is 0, and then changes nothing;
otherwise it returns true, lowers the pin count by one, sets the dirty bit if
`is_dirty` (and keeps it otherwise), leaves page table, free list, disk and the
other frames alone, and the frame is evictable afterwards iff the pin count
reached 0.  After a `FetchPage` of a page that was not resident, two
`UnpinPage(fid, pid, false)` return true and then false. -/
theorem C10_UnpinPage_contract (s : BufferPoolManager) (hr : Reachable s)
    (fid pid : Int) (is_dirty : Bool) :
    ((s.UnpinPage fid pid is_dirty).1 = false ↔
      (s.find fid pid = none ∨ ∃ f, s.find fid pid = some f ∧ (s.frames_ f).pin_count_ = 0)) ∧
    ((s.UnpinPage fid pid is_dirty).1 = false → (s.UnpinPage fid pid is_dirty).2 = s) ∧
    (∀ f, s.find fid pid = some f → 0 < (s.frames_ f).pin_count_ →
      (s.UnpinPage fid pid is_dirty).1 = true ∧
      ((s.UnpinPage fid pid is_dirty).2.frames_ f).pin_count_ = (s.frames_ f).pin_count_ - 1 ∧
      ((s.UnpinPage fid pid is_dirty).2.frames_ f).is_dirty_ =
        (is_dirty || (s.frames_ f).is_dirty_) ∧
      ((s.UnpinPage fid pid is_dirty).2.frames_ f).page_ = (s.frames_ f).page_ ∧
      (∀ g, g ≠ f → (s.UnpinPage fid pid is_dirty).2.frames_ g = s.frames_ g) ∧
      (s.UnpinPage fid pid is_dirty).2.page_frame_lookup_ = s.page_frame_lookup_ ∧
      (s.UnpinPage fid pid is_dirty).2.free_list_ = s.free_list_ ∧
      (s.UnpinPage fid pid is_dirty).2.disk_manager_.writes = s.disk_manager_.writes ∧
      ((s.UnpinPage fid pid is_dirty).2.replacer_.evictable f = true ↔
        (s.frames_ f).pin_count_ - 1 = 0)) ∧
    (s.find fid pid = none → (s.FetchPage fid pid).1 ≠ none →
      ((s.FetchPage fid pid).2.UnpinPage fid pid false).1 = true ∧
      (((s.FetchPage fid pid).2.UnpinPage fid pid false).2.UnpinPage fid pid false).1 = false) := by
  obtain ⟨hw, htr, hp, hfree, htab⟩ := Inv_of_Reachable s hr
  refine ⟨?_, ?_, ?_, ?_⟩
  · unfold UnpinPage
    cases hfind : s.find fid pid with
    | none => simp
    | some f =>
      simp only
      have := hp f
      by_cases h0 : (s.frames_ f).pin_count_ ≤ 0
      · rw [if_pos h0]
        simp only [true_iff]
        right
        exact ⟨f, rfl, by omega⟩
      · rw [if_neg h0]
        simp only [Bool.true_eq_false, false_iff, not_or, not_exists, not_and]
        refine ⟨by simp, ?_⟩
        intro g hg
        simp only [Option.some.injEq] at hg
        rw [← hg]; omega
  · unfold UnpinPage
    cases hfind : s.find fid pid with
    | none => simp
    | some f =>
      simp only
      by_cases h0 : (s.frames_ f).pin_count_ ≤ 0
      · rw [if_pos h0]; simp
      · rw [if_neg h0]; simp
  · intro f hfind hpos
    have hmem := mem_of_lookup_eq_some _ _ _ hfind
    obtain ⟨hf, hft, hfe⟩ := htab _ hmem
    have hnot : ¬ (s.frames_ f).pin_count_ ≤ 0 := by omega
    have hU : s.UnpinPage fid pid is_dirty =
        (true,
         { s with
           frames_ := Function.update s.frames_ f
             (if is_dirty then (s.frames_ f).SetDirty true else s.frames_ f).Unpin,
           replacer_ :=
             if (if is_dirty then (s.frames_ f).SetDirty true else s.frames_ f).Unpin.pin_count_ = 0
             then s.replacer_.Unpin f else s.replacer_ }) := by
      unfold UnpinPage
      rw [hfind]
      simp only
      rw [if_neg hnot]
    have hpc : ((if is_dirty = true then (s.frames_ f).SetDirty true else s.frames_ f).Unpin).pin_count_
        = (s.frames_ f).pin_count_ - 1 := by
      split <;> simp [Frame.Unpin, Frame.SetDirty]
    rw [hU]
    dsimp only
    rw [Function.update_same, hpc]
    refine ⟨rfl, rfl, ?_, ?_, ?_, rfl, rfl, rfl, ?_⟩
    · cases is_dirty <;> simp [Frame.Unpin, Frame.SetDirty]
    · cases is_dirty <;> simp [Frame.Unpin, Frame.SetDirty]
    · intro g hg; exact Function.update_noteq hg _ _
    · by_cases h1 : (s.frames_ f).pin_count_ - 1 = 0
      · rw [if_pos h1]
        simp only [h1, iff_true]
        exact Replacer.evictable_Unpin_self _ _ hft
      · rw [if_neg h1]
        simp only [h1, iff_false]
        rw [hfe hpos]
        exact Bool.false_ne_true
  · intro hmiss hok
    have hF : ∃ f, s.FetchPage fid pid = (some f, ((s.GetAvailableFrame).2).UpdateFrame f fid pid) := by
      unfold FetchPage at hok ⊢
      rw [hmiss] at hok ⊢
      simp only at hok ⊢
      cases hg : (s.GetAvailableFrame).1 with
      | none =>
        have : s.GetAvailableFrame = (none, (s.GetAvailableFrame).2) := Prod.ext hg rfl
        rw [this] at hok; simp at hok
      | some f =>
        have : s.GetAvailableFrame = (some f, (s.GetAvailableFrame).2) := Prod.ext hg rfl
        refine ⟨f, ?_⟩
        rw [this]
    obtain ⟨f, hF⟩ := hF
    rw [hF]
    simp only
    have hfind1 : ((s.GetAvailableFrame).2.UpdateFrame f fid pid).find fid pid = some f := by
      simp only [UpdateFrame, find]
      exact lookup_insertKey_self _ _ _ _
    have hpin1 : (((s.GetAvailableFrame).2.UpdateFrame f fid pid).frames_ f).pin_count_ = 1 := by
      simp [UpdateFrame, Frame.Pin]
    have hU1 : ((s.GetAvailableFrame).2.UpdateFrame f fid pid).UnpinPage fid pid false =
        (true, { ((s.GetAvailableFrame).2.UpdateFrame f fid pid) with
           frames_ := Function.update ((s.GetAvailableFrame).2.UpdateFrame f fid pid).frames_ f
             (((s.GetAvailableFrame).2.UpdateFrame f fid pid).frames_ f).Unpin,
           replacer_ := ((s.GetAvailableFrame).2.UpdateFrame f fid pid).replacer_.Unpin f }) := by
      unfold UnpinPage
      rw [hfind1]
      simp only [Bool.false_eq_true, if_false]
      rw [if_neg (by rw [hpin1]; omega)]
      have : ((((s.GetAvailableFrame).2.UpdateFrame f fid pid).frames_ f).Unpin).pin_count_ = 0 := by
        simp only [Frame.Unpin]; rw [hpin1]; rfl
      rw [if_pos this]
    rw [hU1]
    refine ⟨rfl, ?_⟩
    unfold UnpinPage
    simp only [find] at hfind1 ⊢
    rw [hfind1]
    simp only [Function.update_same, Frame.Unpin]
    rw [hpin1]
    simp

/-- C10, witness: on a fresh two-frame pool, fetch page (0,1) once and unpin it
twice: true, then false. -/
theorem C10_UnpinPage_contract_witness :
    (((newLRU 2 emptyDisk).FetchPage 0 1).2.UnpinPage 0 1 false).1 = true ∧
    ((((newLRU 2 emptyDisk).FetchPage 0 1).2.UnpinPage 0 1 false).2.UnpinPage 0 1 false).1 = false :=
  (C10_UnpinPage_contract (newLRU 2 emptyDisk) (Reachable.initLRU 2 emptyDisk) 0 1 false).2.2.2
    (by decide) (by decide)

end BufferPoolManager

/-! ## B+tree: the point descent misses duplicates (claims C2, C4, C6) -/

namespace BPTreeIndex

/-- C2 (code at the failing input): after five `Insert(5, _)` the entries of
key 5 lie in two leaves; `Search(5)` returns the three RIDs of the right leaf
only, while `SearchRange(5, 5)` returns all five. -/
theorem C2_Search_misses_duplicates_in_left_leaf :
    (fiveFives.bind fun t => t.Search 5) = some [⟨5, 0⟩, ⟨2, 0⟩, ⟨1, 0⟩] ∧
    (fiveFives.bind fun t => t.SearchRange 5 5) =
      some [⟨4, 0⟩, ⟨3, 0⟩, ⟨5, 0⟩, ⟨2, 0⟩, ⟨1, 0⟩] := by
  decide

/-- C4 (code at the failing input): with keys 3, 5, 7, 8, 9 stored (leaves
`[3,5]` and `[7,8,9]` under separator 5), `Delete(5)` returns false and the
entry `(5, (3,0))` is still stored. -/
theorem C4_Delete_false_though_key_stored :
    (staleSeparator.bind fun t => (t.Delete 5).map Prod.fst) = some false ∧
    (staleSeparator.bind fun t => t.SearchRange 0 10) =
      some [⟨1, 0⟩, ⟨3, 0⟩, ⟨4, 0⟩, ⟨5, 0⟩, ⟨6, 0⟩] ∧
    (staleSeparator.bind fun t => t.SearchRange 5 5) = some [⟨3, 0⟩] := by
  decide

/-- C6 (code at the failing input): with key 5 stored five times,
`SearchRange(5, 5)` returns five RIDs and the iterator from `Begin(5)` yields
three; with keys 3, 5, 7, 8, 9 stored, `Begin(5)` stands on key 7 although an
entry with key 5 is stored. -/
theorem C6_range_and_iterator_disagree :
    (fiveFives.bind fun t => t.SearchRange 5 5) =
      some [⟨4, 0⟩, ⟨3, 0⟩, ⟨5, 0⟩, ⟨2, 0⟩, ⟨1, 0⟩] ∧
    (fiveFives.bind fun t => RangeByIterator 20 t 5 5) = some [⟨5, 0⟩, ⟨2, 0⟩, ⟨1, 0⟩] ∧
    (staleSeparator.bind fun t => (t.BeginAt 5).bind fun it => BPTreeIterator.GetKey t it) =
      some 7 ∧
    (staleSeparator.bind fun t => t.SearchRange 5 5) = some [⟨3, 0⟩] := by
  decide

end BPTreeIndex

/-! ## B+tree: children lists -/

theorem KidsOK_imp {P Q : Int → Int → Int → Int → Int → Prop} (es : List (Int × Int))
    (h : ∀ e ∈ es, ∀ l u f n, P e.2 l u f n → Q e.2 l u f n) (lo hi f n : Int)
    (hk : KidsOK P lo es hi f n) : KidsOK Q lo es hi f n := by
  induction es generalizing lo f with
  | nil => exact hk
  | cons e rest ih =>
    cases rest with
    | nil => exact h e (List.mem_cons_self _ _) _ _ _ _ hk
    | cons e2 rest2 =>
      obtain ⟨m, h1, h2⟩ := hk
      exact ⟨m, h e (List.mem_cons_self _ _) _ _ _ _ h1,
        ih (fun x hx => h x (List.mem_cons_of_mem _ hx)) _ _ h2⟩

theorem KidsOK_head_key {P : Int → Int → Int → Int → Int → Prop} (k k1 : Int) (c : Int)
    (rest : List (Int × Int)) (lo hi f n : Int)
    (hk : KidsOK P lo ((k, c) :: rest) hi f n) : KidsOK P lo ((k1, c) :: rest) hi f n := by
  cases rest with
  | nil => exact hk
  | cons e2 rest2 => exact hk

theorem KidsOK_append {P : Int → Int → Int → Int → Int → Prop} (xs : List (Int × Int))
    (hx : xs ≠ []) (y : Int × Int) (ys : List (Int × Int)) (lo hi f n : Int) :
    KidsOK P lo (xs ++ y :: ys) hi f n ↔
      ∃ m, KidsOK P lo xs y.1 f m ∧ KidsOK P y.1 (y :: ys) hi m n := by
  induction xs generalizing lo f with
  | nil => exact absurd rfl hx
  | cons e rest ih =>
    cases rest with
    | nil =>
      simp only [List.cons_append, List.nil_append]
      exact Iff.rfl
    | cons e2 rest2 =>
      have ih2 := ih (by simp) e2.1
      simp only [List.cons_append] at ih2 ⊢
      constructor
      · rintro ⟨m, h1, h2⟩
        obtain ⟨m2, h3, h4⟩ := (ih2 m).1 h2
        exact ⟨m2, ⟨m, h1, h3⟩, h4⟩
      · rintro ⟨m2, ⟨m, h1, h3⟩, h4⟩
        exact ⟨m, h1, (ih2 m).2 ⟨m2, h3, h4⟩⟩

theorem KidsOK_ne_nil {P : Int → Int → Int → Int → Int → Prop} (es : List (Int × Int))
    (lo hi f n : Int) (hk : KidsOK P lo es hi f n) : es ≠ [] := by
  intro h; subst h; exact hk

theorem KidsOK_le {P : Int → Int → Int → Int → Int → Prop}
    (hP : ∀ c l u f n, P c l u f n → l ≤ u) (es : List (Int × Int)) (lo hi f n : Int)
    (hk : KidsOK P lo es hi f n) : lo ≤ hi := by
  induction es generalizing lo f with
  | nil => exact absurd hk id
  | cons e rest ih =>
    cases rest with
    | nil => exact hP _ _ _ _ _ hk
    | cons e2 rest2 =>
      obtain ⟨m, h1, h2⟩ := hk
      have := hP _ _ _ _ _ h1
      have := ih _ _ h2
      omega

theorem KidsOK_weaken {P : Int → Int → Int → Int → Int → Prop}
    (hP : ∀ c l u f n l1 u1, P c l u f n → l1 ≤ l → u ≤ u1 → P c l1 u1 f n)
    (es : List (Int × Int)) (lo hi f n lo1 hi1 : Int) (h1 : lo1 ≤ lo) (h2 : hi ≤ hi1)
    (hk : KidsOK P lo es hi f n) : KidsOK P lo1 es hi1 f n := by
  induction es generalizing lo lo1 f with
  | nil => exact hk
  | cons e rest ih =>
    cases rest with
    | nil => exact hP _ _ _ _ _ _ _ hk h1 h2
    | cons e2 rest2 =>
      obtain ⟨m, h3, h4⟩ := hk
      exact ⟨m, hP _ _ _ _ _ _ _ h3 h1 (le_refl _), ih _ _ _ (le_refl _) h4⟩

/-! ## B+tree: subtrees -/

theorem WFSub_le (nodes : Int → Option BPTreePage) (h : Nat) (pid par lo hi f n : Int)
    (hw : WFSub nodes h pid par lo hi f n) : lo ≤ hi := by
  induction h generalizing pid par lo hi f n with
  | zero =>
    obtain ⟨l, -, -, -, -, -, -, hle, -⟩ := hw
    exact hle
  | succ h ih =>
    obtain ⟨nd, -, -, -, -, hk⟩ := hw
    exact KidsOK_le (fun c l u f n hc => ih c pid l u f n hc) _ _ _ _ _ hk

theorem WFSub_weaken (nodes : Int → Option BPTreePage) (h : Nat) (pid par lo hi f n : Int)
    (lo1 hi1 : Int) (h1 : lo1 ≤ lo) (h2 : hi ≤ hi1)
    (hw : WFSub nodes h pid par lo hi f n) : WFSub nodes h pid par lo1 hi1 f n := by
  induction h generalizing pid par lo hi f n lo1 hi1 with
  | zero =>
    obtain ⟨l, a1, a2, a3, a4, a5, a6, hle, a7, a8⟩ := hw
    refine ⟨l, a1, a2, a3, a4, a5, a6, by omega, a7, ?_⟩
    intro e he
    obtain ⟨x, y⟩ := a8 e he
    exact ⟨by omega, by omega⟩
  | succ h ih =>
    obtain ⟨nd, a1, a2, a3, a4, hk⟩ := hw
    refine ⟨nd, a1, a2, a3, a4, ?_⟩
    exact KidsOK_weaken (fun c l u f n l1 u1 hc hl hu => ih c pid l u f n l1 u1 hl hu hc)
      _ _ _ _ _ _ _ h1 h2 hk

theorem mem_pagesOf_self (nodes : Int → Option BPTreePage) (h : Nat) (pid : Int) :
    pid ∈ pagesOf nodes h pid := by
  cases h <;> simp [pagesOf]

theorem pagesOf_succ (nodes : Int → Option BPTreePage) (h : Nat) (pid : Int)
    (nd : BPTreeInternalPage) (hn : nodes pid = some (.internal nd)) :
    pagesOf nodes (h + 1) pid = pid :: nd.entries.flatMap (fun e => pagesOf nodes h e.2) := by
  simp [pagesOf, hn]

theorem entriesOf_succ (nodes : Int → Option BPTreePage) (h : Nat) (pid : Int)
    (nd : BPTreeInternalPage) (hn : nodes pid = some (.internal nd)) :
    entriesOf nodes (h + 1) pid = nd.entries.flatMap (fun e => entriesOf nodes h e.2) := by
  simp [entriesOf, hn]

theorem entriesOf_zero (nodes : Int → Option BPTreePage) (pid : Int)
    (l : BPTreeLeafPage) (hn : nodes pid = some (.leaf l)) :
    entriesOf nodes 0 pid = l.entries := by
  simp [entriesOf, hn]

theorem mem_pagesOf_child (nodes : Int → Option BPTreePage) (h : Nat) (pid : Int)
    (nd : BPTreeInternalPage) (hn : nodes pid = some (.internal nd)) (e : Int × Int)
    (he : e ∈ nd.entries) (p : Int) (hp : p ∈ pagesOf nodes h e.2) :
    p ∈ pagesOf nodes (h + 1) pid := by
  rw [pagesOf_succ nodes h pid nd hn]
  exact List.mem_cons_of_mem _ (List.mem_flatMap.2 ⟨e, he, hp⟩)

/-- Frame rule: a subtree depends only on its own pages. -/
theorem frame_sub (nodes nodes1 : Int → Option BPTreePage) (h : Nat) (pid : Int)
    (hag : ∀ p ∈ pagesOf nodes h pid, nodes1 p = nodes p) :
    pagesOf nodes1 h pid = pagesOf nodes h pid ∧
    entriesOf nodes1 h pid = entriesOf nodes h pid ∧
    leafCount nodes1 h pid = leafCount nodes h pid ∧
    ∀ par lo hi f n, WFSub nodes h pid par lo hi f n → WFSub nodes1 h pid par lo hi f n := by
  induction h generalizing pid with
  | zero =>
    have h0 := hag pid (mem_pagesOf_self nodes 0 pid)
    refine ⟨rfl, by simp [entriesOf, h0], rfl, ?_⟩
    intro par lo hi f n hw
    obtain ⟨l, a1, rest⟩ := hw
    exact ⟨l, by rw [h0]; exact a1, rest⟩
  | succ h ih =>
    have h0 := hag pid (mem_pagesOf_self nodes (h + 1) pid)
    cases hn : nodes pid with
    | none =>
      refine ⟨by simp [pagesOf, h0, hn], by simp [entriesOf, h0, hn],
        by simp [leafCount, h0, hn], ?_⟩
      intro par lo hi f n hw
      obtain ⟨nd, a1, -⟩ := hw
      rw [hn] at a1; exact absurd a1 (by simp)
    | some pg =>
      cases pg with
      | leaf l =>
        refine ⟨by simp [pagesOf, h0, hn], by simp [entriesOf, h0, hn],
          by simp [leafCount, h0, hn], ?_⟩
        intro par lo hi f n hw
        obtain ⟨nd, a1, -⟩ := hw
        rw [hn] at a1; exact absurd a1 (by simp)
      | internal nd =>
        have hn1 : nodes1 pid = some (.internal nd) := by rw [h0, hn]
        have hch : ∀ e ∈ nd.entries, ∀ p ∈ pagesOf nodes h e.2, nodes1 p = nodes p :=
          fun e he p hp => hag p (mem_pagesOf_child nodes h pid nd hn e he p hp)
        refine ⟨?_, ?_, ?_, ?_⟩
        · rw [pagesOf_succ nodes1 h pid nd hn1, pagesOf_succ nodes h pid nd hn]
          congr 1
          apply List.flatMap_congr
          intro e he
          exact (ih e.2 (hch e he)).1
        · rw [entriesOf_succ nodes1 h pid nd hn1, entriesOf_succ nodes h pid nd hn]
          apply List.flatMap_congr
          intro e he
          exact (ih e.2 (hch e he)).2.1
        · simp only [leafCount, hn1, hn]
          congr 1
          apply List.map_congr_left
          intro e he
          exact (ih e.2 (hch e he)).2.2.1
        · intro par lo hi f n hw
          obtain ⟨nd2, a1, a2, a3, a4, hk⟩ := hw
          rw [hn] at a1
          cases a1
          refine ⟨nd, hn1, a2, a3, a4, ?_⟩
          exact KidsOK_imp _ (fun e he l u f n hc => (ih e.2 (hch e he)).2.2.2 _ _ _ _ _ hc)
            _ _ _ _ hk

/-! ## B+tree: bounds of the children -/

theorem kidBounds_map_fst (lo hi : Int) (es : List (Int × Int)) :
    (kidBounds lo es hi).map (fun x => x.1) = es.map Prod.snd := by
  induction es generalizing lo with
  | nil => rfl
  | cons e rest ih =>
    cases rest with
    | nil => rfl
    | cons e2 rest2 =>
      simp only [kidBounds, List.map_cons]
      rw [ih e2.1]
      rfl

theorem mem_kidBounds_child (lo hi : Int) (es : List (Int × Int)) (x : Int × Int × Int)
    (hx : x ∈ kidBounds lo es hi) : ∃ e ∈ es, e.2 = x.1 := by
  have : x.1 ∈ (kidBounds lo es hi).map (fun x => x.1) := List.mem_map.2 ⟨x, hx, rfl⟩
  rw [kidBounds_map_fst] at this
  obtain ⟨e, he, h⟩ := List.mem_map.1 this
  exact ⟨e, he, h⟩

theorem kidBounds_unique (lo hi : Int) (es : List (Int × Int))
    (hn : (es.map Prod.snd).Nodup) (x y : Int × Int × Int)
    (hx : x ∈ kidBounds lo es hi) (hy : y ∈ kidBounds lo es hi) (h : x.1 = y.1) : x = y := by
  have hnd : ((kidBounds lo es hi).map (fun x => x.1)).Nodup := by
    rw [kidBounds_map_fst]; exact hn
  exact List.inj_on_of_nodup_map hnd hx hy h

theorem KidsOK_imp_bounds {P Q : Int → Int → Int → Int → Int → Prop} (es : List (Int × Int))
    (lo hi f n : Int)
    (h : ∀ x ∈ kidBounds lo es hi, ∀ f n, P x.1 x.2.1 x.2.2 f n → Q x.1 x.2.1 x.2.2 f n)
    (hk : KidsOK P lo es hi f n) : KidsOK Q lo es hi f n := by
  induction es generalizing lo f with
  | nil => exact hk
  | cons e rest ih =>
    cases rest with
    | nil => exact h (e.2, lo, hi) (by simp [kidBounds]) _ _ hk
    | cons e2 rest2 =>
      obtain ⟨m, h1, h2⟩ := hk
      refine ⟨m, h (e.2, lo, e2.1) (by simp [kidBounds]) _ _ h1, ih _ _ ?_ h2⟩
      intro x hx
      exact h x (by simp only [kidBounds, List.mem_cons]; exact Or.inr hx)

theorem KidsOK_child {P : Int → Int → Int → Int → Int → Prop} (es : List (Int × Int))
    (lo hi f n : Int) (hk : KidsOK P lo es hi f n) (x : Int × Int × Int)
    (hx : x ∈ kidBounds lo es hi) : ∃ f1 n1, P x.1 x.2.1 x.2.2 f1 n1 := by
  induction es generalizing lo f with
  | nil => simp [kidBounds] at hx
  | cons e rest ih =>
    cases rest with
    | nil =>
      simp only [kidBounds, List.mem_singleton] at hx
      subst hx
      exact ⟨f, n, hk⟩
    | cons e2 rest2 =>
      obtain ⟨m, h1, h2⟩ := hk
      simp only [kidBounds, List.mem_cons] at hx
      rcases hx with hx | hx
      · subst hx; exact ⟨f, m, h1⟩
      · exact ih _ _ h2 hx

/-! ## B+tree: pages of a subtree -/

theorem sublist_flatMap_of_mem {α β : Type} (l : List α) (f : α → List β) (a : α)
    (ha : a ∈ l) : (f a).Sublist (l.flatMap f) := by
  obtain ⟨s, t, rfl⟩ := List.append_of_mem ha
  rw [List.flatMap_append, List.flatMap_cons]
  exact (List.sublist_append_left _ _).trans (List.sublist_append_right _ _)

theorem pagesOf_child_sublist (nodes : Int → Option BPTreePage) (h : Nat) (pid : Int)
    (nd : BPTreeInternalPage) (hn : nodes pid = some (.internal nd)) (e : Int × Int)
    (he : e ∈ nd.entries) :
    (pagesOf nodes h e.2).Sublist (pagesOf nodes (h + 1) pid) := by
  rw [pagesOf_succ nodes h pid nd hn]
  exact (sublist_flatMap_of_mem nd.entries (fun e => pagesOf nodes h e.2) e he).trans
    (List.sublist_cons_self _ _)

theorem children_nodup (nodes : Int → Option BPTreePage) (h : Nat) (pid : Int)
    (nd : BPTreeInternalPage) (hn : nodes pid = some (.internal nd))
    (hnd : (pagesOf nodes (h + 1) pid).Nodup) : (nd.entries.map Prod.snd).Nodup := by
  rw [pagesOf_succ nodes h pid nd hn] at hnd
  have h2 := (List.nodup_cons.1 hnd).2
  rw [List.nodup_flatMap] at h2
  have hp := h2.2
  clear hnd h2 hn
  generalize nd.entries = es at hp
  induction es with
  | nil => simp
  | cons e rest ih =>
    rw [List.pairwise_cons] at hp
    rw [List.map_cons, List.nodup_cons]
    refine ⟨?_, ih hp.2⟩
    intro hmem
    obtain ⟨e2, he2, heq⟩ := List.mem_map.1 hmem
    have hd := hp.1 e2 he2
    have h1 : e.2 ∈ pagesOf nodes h e.2 := mem_pagesOf_self nodes h e.2
    have h2 : e.2 ∈ pagesOf nodes h e2.2 := by rw [heq]; exact h1
    exact hd h1 h2

theorem ChildStep_sublist (nodes : Int → Option BPTreePage) (a b : Pos)
    (hs : ChildStep nodes a b) : (pagesOf nodes b.h b.pid).Sublist (pagesOf nodes a.h a.pid) := by
  obtain ⟨nd, hh, hn, hm⟩ := hs
  obtain ⟨e, he, heq⟩ := mem_kidBounds_child _ _ _ _ hm
  rw [hh]
  have := pagesOf_child_sublist nodes b.h a.pid nd hn e he
  rw [heq] at this
  exact this

theorem Site_sublist (nodes : Int → Option BPTreePage) (top q : Pos) (hs : Site nodes top q) :
    (pagesOf nodes q.h q.pid).Sublist (pagesOf nodes top.h top.pid) := by
  induction hs with
  | refl => exact List.Sublist.refl _
  | tail _ hstep ih => exact (ChildStep_sublist nodes _ _ hstep).trans ih

theorem ChildStep_wf (nodes : Int → Option BPTreePage) (a b : Pos) (hs : ChildStep nodes a b)
    (par f n : Int) (hw : WFSub nodes a.h a.pid par a.lo a.hi f n) :
    ∃ f1 n1, WFSub nodes b.h b.pid a.pid b.lo b.hi f1 n1 := by
  obtain ⟨nd, hh, hn, hm⟩ := hs
  rw [hh] at hw
  obtain ⟨nd2, a1, -, -, -, hk⟩ := hw
  rw [hn] at a1
  cases a1
  exact KidsOK_child _ _ _ _ _ hk _ hm

theorem Site_wf (nodes : Int → Option BPTreePage) (top q : Pos) (hs : Site nodes top q)
    (par f n : Int) (hw : WFSub nodes top.h top.pid par top.lo top.hi f n) :
    ∃ par1 f1 n1, WFSub nodes q.h q.pid par1 q.lo q.hi f1 n1 := by
  induction hs with
  | refl => exact ⟨par, f, n, hw⟩
  | tail _ hstep ih =>
    obtain ⟨par1, f1, n1, h1⟩ := ih
    obtain ⟨f2, n2, h2⟩ := ChildStep_wf nodes _ _ hstep par1 f1 n1 h1
    exact ⟨_, f2, n2, h2⟩

/-! ## B+tree: lifting a local replacement to the whole tree -/

theorem Repl_up (nodes nodes1 : Int → Option BPTreePage) (F : List Int) (a q : Pos)
    (hs : ChildStep nodes a q) (hnd : (pagesOf nodes a.h a.pid).Nodup)
    (hF : ∀ p ∈ F, p ∉ pagesOf nodes a.h a.pid) (hr : Repl nodes nodes1 F q) :
    Lifted nodes nodes1 F a q := by
  obtain ⟨nd, hh, hn, hm⟩ := hs
  obtain ⟨e, he, heq⟩ := mem_kidBounds_child _ _ _ _ hm
  simp only at heq
  obtain ⟨pre, post, hsplit⟩ := List.append_of_mem he
  have hkn : (nd.entries.map Prod.snd).Nodup := by
    apply children_nodup nodes q.h a.pid nd hn
    rw [← hh]; exact hnd
  -- pages of the old subtree
  have hpg : pagesOf nodes a.h a.pid =
      a.pid :: (pre.flatMap (fun e => pagesOf nodes q.h e.2) ++
        (pagesOf nodes q.h q.pid ++ post.flatMap (fun e => pagesOf nodes q.h e.2))) := by
    rw [hh, pagesOf_succ nodes q.h a.pid nd hn, hsplit, List.flatMap_append, List.flatMap_cons,
      heq]
  rw [hpg] at hnd
  obtain ⟨hanot, hnd2⟩ := List.nodup_cons.1 hnd
  rw [List.nodup_append] at hnd2
  obtain ⟨hndpre, hnd3, hdis1⟩ := hnd2
  rw [List.nodup_append] at hnd3
  obtain ⟨hndq, hndpost, hdis2⟩ := hnd3
  have hF2 : ∀ p ∈ F, p ≠ a.pid ∧ p ∉ pre.flatMap (fun e => pagesOf nodes q.h e.2) ∧
      p ∉ pagesOf nodes q.h q.pid ∧ p ∉ post.flatMap (fun e => pagesOf nodes q.h e.2) := by
    intro p hp
    have := hF p hp
    rw [hpg] at this
    simp only [List.mem_cons, List.mem_append, not_or] at this
    exact ⟨this.1, this.2.1, this.2.2.1, this.2.2.2⟩
  -- the node itself is unchanged
  have ha1 : nodes1 a.pid = nodes a.pid := by
    apply hr.frame
    · intro h; exact hanot (List.mem_append_right _ (List.mem_append_left _ h))
    · intro h; exact (hF2 _ h).1 rfl
  have hn1 : nodes1 a.pid = some (.internal nd) := by rw [ha1, hn]
  -- the other children are unchanged
  have hpre : ∀ x ∈ pre, ∀ p ∈ pagesOf nodes q.h x.2, nodes1 p = nodes p := by
    intro x hx p hp
    have hp1 : p ∈ pre.flatMap (fun e => pagesOf nodes q.h e.2) := List.mem_flatMap.2 ⟨x, hx, hp⟩
    apply hr.frame
    · intro h; exact hdis1 hp1 (List.mem_append_left _ h)
    · intro h; exact (hF2 _ h).2.1 hp1
  have hpost : ∀ x ∈ post, ∀ p ∈ pagesOf nodes q.h x.2, nodes1 p = nodes p := by
    intro x hx p hp
    have hp1 : p ∈ post.flatMap (fun e => pagesOf nodes q.h e.2) :=
      List.mem_flatMap.2 ⟨x, hx, hp⟩
    apply hr.frame
    · intro h; exact hdis2 h hp1
    · intro h; exact (hF2 _ h).2.2.2 hp1
  have hpre_pg : pre.flatMap (fun e => pagesOf nodes1 q.h e.2) =
      pre.flatMap (fun e => pagesOf nodes q.h e.2) :=
    List.flatMap_congr (fun x hx => (frame_sub nodes nodes1 q.h x.2 (hpre x hx)).1)
  have hpost_pg : post.flatMap (fun e => pagesOf nodes1 q.h e.2) =
      post.flatMap (fun e => pagesOf nodes q.h e.2) :=
    List.flatMap_congr (fun x hx => (frame_sub nodes nodes1 q.h x.2 (hpost x hx)).1)
  have hpg1 : pagesOf nodes1 a.h a.pid =
      a.pid :: (pre.flatMap (fun e => pagesOf nodes q.h e.2) ++
        (pagesOf nodes1 q.h q.pid ++ post.flatMap (fun e => pagesOf nodes q.h e.2))) := by
    rw [hh, pagesOf_succ nodes1 q.h a.pid nd hn1, hsplit, List.flatMap_append,
      List.flatMap_cons, heq, hpre_pg, hpost_pg]
  have hnew : ∀ p ∈ pagesOf nodes1 q.h q.pid, p ≠ a.pid ∧
      p ∉ pre.flatMap (fun e => pagesOf nodes q.h e.2) ∧
      p ∉ post.flatMap (fun e => pagesOf nodes q.h e.2) := by
    intro p hp
    rcases hr.pages p hp with h | h
    · refine ⟨?_, ?_, ?_⟩
      · intro hpa; rw [hpa] at h
        exact hanot (List.mem_append_right _ (List.mem_append_left _ h))
      · intro h2; exact hdis1 h2 (List.mem_append_left _ h)
      · intro h2; exact hdis2 h h2
    · exact ⟨(hF2 p h).1, (hF2 p h).2.1, (hF2 p h).2.2.2⟩
  refine ⟨⟨?_, ?_, ?_, ?_⟩, ?_, ?_, ?_, ?_⟩
  · -- wf
    intro par f n hw
    rw [hh] at hw ⊢
    obtain ⟨nd2, a1, a2, a3, a4, hk⟩ := hw
    rw [hn] at a1
    cases a1
    refine ⟨nd, hn1, a2, a3, a4, ?_⟩
    apply KidsOK_imp_bounds _ _ _ _ _ _ hk
    intro x hx f1 n1 hx2
    by_cases hxq : x.1 = q.pid
    · have := kidBounds_unique _ _ _ hkn x (q.pid, q.lo, q.hi) hx hm hxq
      subst this
      exact hr.wf _ _ _ hx2
    · obtain ⟨e2, he2, heq2⟩ := mem_kidBounds_child _ _ _ _ hx
      rw [hsplit] at he2
      simp only [List.mem_append, List.mem_cons] at he2
      rcases he2 with h | h | h
      · rw [← heq2]
        rw [← heq2] at hx2
        exact (frame_sub nodes nodes1 q.h e2.2 (hpre e2 h)).2.2.2 _ _ _ _ _ hx2
      · subst h; exact absurd (heq2.symm.trans heq) hxq
      · rw [← heq2]
        rw [← heq2] at hx2
        exact (frame_sub nodes nodes1 q.h e2.2 (hpost e2 h)).2.2.2 _ _ _ _ _ hx2
  · -- pages
    intro p hp
    rw [hpg1] at hp
    rw [hpg]
    simp only [List.mem_cons, List.mem_append] at hp ⊢
    rcases hp with h | h | h | h
    · exact Or.inl (Or.inl h)
    · exact Or.inl (Or.inr (Or.inl h))
    · rcases hr.pages p h with h2 | h2
      · exact Or.inl (Or.inr (Or.inr (Or.inl h2)))
      · exact Or.inr h2
    · exact Or.inl (Or.inr (Or.inr (Or.inr h)))
  · -- nodup
    rw [hpg1, List.nodup_cons, List.nodup_append, List.nodup_append]
    refine ⟨?_, hndpre, ⟨hr.nodup, hndpost, ?_⟩, ?_⟩
    · simp only [List.mem_append, not_or]
      refine ⟨?_, ?_, ?_⟩
      · intro h; exact hanot (List.mem_append_left _ h)
      · intro h; exact (hnew _ h).1 rfl
      · intro h; exact hanot (List.mem_append_right _ (List.mem_append_right _ h))
    · intro p hp hp2; exact (hnew p hp).2.2 hp2
    · intro p hp hp2
      rcases List.mem_append.1 hp2 with h | h
      · exact (hnew p h).2.1 hp
      · exact hdis1 hp (List.mem_append_right _ h)
  · -- frame
    intro p hp hpF
    apply hr.frame _ _ hpF
    intro h
    apply hp
    rw [hpg]
    exact List.mem_cons_of_mem _ (List.mem_append_right _ (List.mem_append_left _ h))
  · -- site
    exact Relation.ReflTransGen.single ⟨nd, hh, hn1, hm⟩
  · -- entries
    refine ⟨pre.flatMap (fun e => entriesOf nodes q.h e.2),
      post.flatMap (fun e => entriesOf nodes q.h e.2), ?_, ?_⟩
    · rw [hh, entriesOf_succ nodes q.h a.pid nd hn, hsplit, List.flatMap_append,
        List.flatMap_cons, heq, List.append_assoc]
    · rw [hh, entriesOf_succ nodes1 q.h a.pid nd hn1, hsplit, List.flatMap_append,
        List.flatMap_cons, heq, List.append_assoc]
      congr 1
      · exact List.flatMap_congr (fun x hx => (frame_sub nodes nodes1 q.h x.2 (hpre x hx)).2.1)
      · congr 1
        exact List.flatMap_congr (fun x hx => (frame_sub nodes nodes1 q.h x.2 (hpost x hx)).2.1)
  · -- old pages
    intro p hp
    rw [hpg1] at hp
    rw [hpg]
    simp only [List.mem_cons, List.mem_append] at hp ⊢
    rcases hp with h | h | h | h
    · right
      refine ⟨Or.inl h, ?_, ?_⟩
      · intro h2; rw [h] at h2
        exact hanot (List.mem_append_right _ (List.mem_append_left _ h2))
      · intro h2; exact (hF2 _ h2).1 h
    · right
      refine ⟨Or.inr (Or.inl h), ?_, ?_⟩
      · intro h2; exact hdis1 h (List.mem_append_left _ h2)
      · intro h2; exact (hF2 _ h2).2.1 h
    · left; exact h
    · right
      refine ⟨Or.inr (Or.inr (Or.inr h)), ?_, ?_⟩
      · intro h2; exact hdis2 h2 h
      · intro h2; exact (hF2 _ h2).2.2.2 h
  · -- kept pages
    intro p hp
    rw [hpg] at hp
    rw [hpg1]
    simp only [List.mem_cons, List.mem_append] at hp ⊢
    rcases hp with h | h | h | h
    · exact Or.inr (Or.inl h)
    · exact Or.inr (Or.inr (Or.inl h))
    · exact Or.inl h
    · exact Or.inr (Or.inr (Or.inr (Or.inr h)))

theorem Repl_lift (nodes nodes1 : Int → Option BPTreePage) (F : List Int) (top q : Pos)
    (hs : Site nodes top q) (hnd : (pagesOf nodes top.h top.pid).Nodup)
    (hF : ∀ p ∈ F, p ∉ pagesOf nodes top.h top.pid) (hr : Repl nodes nodes1 F q) :
    Lifted nodes nodes1 F top q := by
  induction hs with
  | refl =>
    refine ⟨hr, Relation.ReflTransGen.refl, ⟨[], [], by simp, by simp⟩, ?_, ?_⟩
    · intro p hp; exact Or.inl hp
    · intro p hp; exact Or.inl hp
  | @tail b c hab hbc ih =>
    have hsub := Site_sublist nodes top b hab
    have hndb : (pagesOf nodes b.h b.pid).Nodup := hsub.nodup hnd
    have hFb : ∀ p ∈ F, p ∉ pagesOf nodes b.h b.pid :=
      fun p hp h => hF p hp (hsub.subset h)
    have h1 := Repl_up nodes nodes1 F b c hbc hndb hFb hr
    have h2 := ih h1.repl
    refine ⟨h2.repl, h2.site.trans h1.site, ?_, ?_, ?_⟩
    · obtain ⟨A, B, e1, e2⟩ := h2.entries
      obtain ⟨A1, B1, e3, e4⟩ := h1.entries
      refine ⟨A ++ A1, B1 ++ B, ?_, ?_⟩
      · rw [e1, e3]; simp only [List.append_assoc]
      · rw [e2, e4]; simp only [List.append_assoc]
    · intro p hp
      rcases h2.old p hp with h | ⟨h3, h4, h5⟩
      · rcases h1.old p h with h' | ⟨h6, h7, h8⟩
        · exact Or.inl h'
        · exact Or.inr ⟨hsub.subset h6, h7, h8⟩
      · refine Or.inr ⟨h3, ?_, h5⟩
        intro h; exact h4 ((ChildStep_sublist nodes b c hbc).subset h)
    · intro p hp
      rcases h2.keep p hp with h | h
      · rcases h1.keep p h with h' | h'
        · exact Or.inl h'
        · exact Or.inr ((Site_sublist nodes1 top b h2.site).subset h')
      · exact Or.inr h

/-! ## B+tree: descent -/

theorem lookupFrom_bounds (key : Int) (e : Int × Int) (rest : List (Int × Int)) (lo hi : Int)
    (h1 : lo ≤ key) (h2 : key ≤ hi) :
    ∃ x ∈ kidBounds lo (e :: rest) hi,
      BPTreeInternalPage.lookupFrom key e.2 rest = x.1 ∧ x.2.1 ≤ key ∧ key ≤ x.2.2 ∧
      (key < hi → key < x.2.2) := by
  induction rest generalizing e lo with
  | nil =>
    exact ⟨(e.2, lo, hi), by simp [kidBounds], rfl, h1, h2, fun h => h⟩
  | cons e2 r ih =>
    by_cases hk : key < e2.1
    · refine ⟨(e.2, lo, e2.1), by simp [kidBounds], ?_, h1, by simp only; omega, fun _ => hk⟩
      simp [BPTreeInternalPage.lookupFrom, hk]
    · obtain ⟨x, hx, h3, h4, h5, h6⟩ := ih e2 e2.1 (by omega)
      refine ⟨x, by simp only [kidBounds, List.mem_cons]; exact Or.inr hx, ?_, h4, h5, h6⟩
      simp only [BPTreeInternalPage.lookupFrom, hk, if_false]
      exact h3

theorem Lookup_bounds (nd : BPTreeInternalPage) (key lo hi : Int) (hne : nd.entries ≠ [])
    (h1 : lo ≤ key) (h2 : key ≤ hi) :
    ∃ x ∈ kidBounds lo nd.entries hi,
      nd.Lookup key = some x.1 ∧ x.2.1 ≤ key ∧ key ≤ x.2.2 ∧ (key < hi → key < x.2.2) := by
  unfold BPTreeInternalPage.Lookup
  cases hes : nd.entries with
  | nil => exact absurd hes hne
  | cons e rest =>
    obtain ⟨x, hx, h3, h4, h5, h6⟩ := lookupFrom_bounds key e rest lo hi h1 h2
    exact ⟨x, hx, by simp [h3], h4, h5, h6⟩

theorem WFSub_entries_ne_nil (nodes : Int → Option BPTreePage) (h : Nat) (pid par lo hi f n : Int)
    (nd : BPTreeInternalPage) (hn : nodes pid = some (.internal nd))
    (hw : WFSub nodes (h + 1) pid par lo hi f n) : nd.entries ≠ [] := by
  obtain ⟨nd2, a1, -, -, -, hk⟩ := hw
  rw [hn] at a1
  cases a1
  exact KidsOK_ne_nil _ _ _ _ _ hk

theorem descent_aux (t : BPTreeIndex) (key : Int) (h : Nat) :
    ∀ (pid par lo hi f n : Int) (fuel : Nat),
      WFSub t.nodes h pid par lo hi f n → lo ≤ key → key ≤ hi → h < fuel →
      ∃ q : Pos, q.h = 0 ∧ Site t.nodes ⟨h, pid, lo, hi⟩ q ∧
        t.FindLeafPageLoop key false fuel pid = some q.pid ∧ q.lo ≤ key ∧ key ≤ q.hi ∧
        (key < hi → key < q.hi) := by
  induction h with
  | zero =>
    intro pid par lo hi f n fuel hw h1 h2 hfuel
    obtain ⟨l, a1, -⟩ := hw
    refine ⟨⟨0, pid, lo, hi⟩, rfl, Relation.ReflTransGen.refl, ?_, h1, h2, fun h => h⟩
    cases fuel with
    | zero => omega
    | succ fuel => simp [BPTreeIndex.FindLeafPageLoop, a1]
  | succ h ih =>
    intro pid par lo hi f n fuel hw h1 h2 hfuel
    obtain ⟨nd, a1, a2, a3, a4, hk⟩ := hw
    obtain ⟨x, hx, h3, h4, h5, h6⟩ :=
      Lookup_bounds nd key lo hi (KidsOK_ne_nil _ _ _ _ _ hk) h1 h2
    obtain ⟨f1, n1, hc⟩ := KidsOK_child _ _ _ _ _ hk x hx
    cases fuel with
    | zero => omega
    | succ fuel =>
      obtain ⟨q, hq0, hsite, hfind, hq1, hq2, hq3⟩ :=
        ih x.1 pid x.2.1 x.2.2 f1 n1 fuel hc h4 h5 (by omega)
      refine ⟨q, hq0, ?_, ?_, hq1, hq2, fun hlt => hq3 (h6 hlt)⟩
      · exact Relation.ReflTransGen.head ⟨nd, rfl, a1, hx⟩ hsite
      · simp only [BPTreeIndex.FindLeafPageLoop, a1, Bool.false_eq_true, if_false, h3]
        exact hfind

/-- The point descent from position `a` ends in a leaf position whose bounds
contain the key. -/
theorem descent_site (t : BPTreeIndex) (key : Int) (a : Pos) (par f n : Int)
    (hw : WFSub t.nodes a.h a.pid par a.lo a.hi f n) (h1 : a.lo ≤ key) (h2 : key ≤ a.hi)
    (fuel : Nat) (hfuel : a.h < fuel) :
    ∃ q : Pos, q.h = 0 ∧ Site t.nodes a q ∧
      t.FindLeafPageLoop key false fuel a.pid = some q.pid ∧ q.lo ≤ key ∧ key ≤ q.hi ∧
      (key < a.hi → key < q.hi) :=
  descent_aux t key a.h a.pid par a.lo a.hi f n fuel hw h1 h2 hfuel

/-! ## B+tree: page store and allocation -/

theorem nodes_setNode (t : BPTreeIndex) (p : Int) (x : BPTreePage) (q : Int) :
    (t.setNode p x).nodes q = if q = p then some x else t.nodes q := by
  simp only [BPTreeIndex.setNode, Function.update_apply]

theorem header_setNode (t : BPTreeIndex) (p : Int) (x : BPTreePage) :
    (t.setNode p x).header = t.header := rfl

theorem next_free_setNode (t : BPTreeIndex) (p : Int) (x : BPTreePage) :
    (t.setNode p x).next_free = t.next_free := rfl

theorem NewPage_nodes (t : BPTreeIndex) : t.NewPage.2.nodes = t.nodes := by
  unfold BPTreeIndex.NewPage; split <;> rfl

theorem NewPage_next_free (t : BPTreeIndex) : t.NewPage.2.next_free = t.next_free := by
  unfold BPTreeIndex.NewPage; split <;> rfl

theorem NewPage_header (t : BPTreeIndex) :
    t.NewPage.2.header.root_page_id_ = t.header.root_page_id_ ∧
    t.NewPage.2.header.tree_height_ = t.header.tree_height_ ∧
    t.NewPage.2.header.num_entries_ = t.header.num_entries_ ∧
    t.NewPage.2.header.leaf_max_size_ = t.header.leaf_max_size_ ∧
    t.NewPage.2.header.internal_max_size_ = t.header.internal_max_size_ := by
  unfold BPTreeIndex.NewPage; split <;> simp

/-- `NewPage` hands out a page of the file that is neither on the new free
chain nor, when the tree pages are off the old chain and inside the file, a
page of the tree. -/
theorem NewPage_alloc (t : BPTreeIndex) (fl : List Int) (ha : t.AllocOK fl) :
    ∃ fl1, t.NewPage.2.AllocOK fl1 ∧
      1 ≤ t.NewPage.1 ∧ t.NewPage.1 < t.NewPage.2.header.page_num_ ∧ t.NewPage.1 ∉ fl1 ∧
      (t.NewPage.1 ∈ fl ∨ t.header.page_num_ ≤ t.NewPage.1) ∧
      (∀ p ∈ fl1, p ∈ fl) ∧ t.header.page_num_ ≤ t.NewPage.2.header.page_num_ := by
  obtain ⟨h1, hc, hnd, hrange⟩ := ha
  unfold BPTreeIndex.NewPage
  by_cases hf : t.header.first_free_page_id_ ≠ INVALID_PAGE_ID
  · rw [if_pos hf]
    cases fl with
    | nil => exact absurd hc hf
    | cons p ps =>
      obtain ⟨hp1, hp2, hp3⟩ := hc
      simp only
      refine ⟨ps, ⟨h1, ?_, (List.nodup_cons.1 hnd).2, fun x hx => hrange x (List.mem_cons_of_mem _ hx)⟩,
        ?_, ?_, ?_, ?_, fun x hx => List.mem_cons_of_mem _ hx, le_refl _⟩
      · rw [hp1]; exact hp3
      · rw [hp1]; exact (hrange p (List.mem_cons_self _ _)).1
      · rw [hp1]; exact (hrange p (List.mem_cons_self _ _)).2
      · rw [hp1]; exact (List.nodup_cons.1 hnd).1
      · left; rw [hp1]; exact List.mem_cons_self _ _
  · rw [if_neg hf]
    have hf2 : t.header.first_free_page_id_ = INVALID_PAGE_ID := by
      by_contra h; exact hf h
    cases fl with
    | cons p ps =>
      obtain ⟨hp1, hp2, -⟩ := hc
      rw [hf2] at hp1
      exact absurd hp1.symm hp2
    | nil =>
      simp only
      refine ⟨[], ⟨by simp only; omega, hc, List.nodup_nil, by simp⟩, h1, by omega,
        by simp, Or.inr (le_refl _), by simp, by omega⟩

theorem FreeChain_unique (next_free : Int → Int) :
    ∀ (l1 l2 : List Int) (first : Int), FreeChain next_free first l1 →
      FreeChain next_free first l2 → l1 = l2 := by
  intro l1
  induction l1 with
  | nil =>
    intro l2 first h1 h2
    cases l2 with
    | nil => rfl
    | cons p ps =>
      have h1a : first = INVALID_PAGE_ID := h1
      obtain ⟨h2a, h2b, -⟩ := h2
      rw [h1a] at h2a
      exact absurd h2a.symm h2b
  | cons p ps ih =>
    intro l2 first h1 h2
    obtain ⟨h1a, h1b, h1c⟩ := h1
    cases l2 with
    | nil =>
      have h2a : first = INVALID_PAGE_ID := h2
      rw [h2a] at h1a
      exact absurd h1a.symm h1b
    | cons p2 ps2 =>
      obtain ⟨h2a, h2b, h2c⟩ := h2
      have hp : p = p2 := h1a.symm.trans h2a
      subst hp
      rw [ih ps2 _ h1c h2c]

theorem AllocOK_unique (t : BPTreeIndex) (fl1 fl2 : List Int) (h1 : t.AllocOK fl1)
    (h2 : t.AllocOK fl2) : fl1 = fl2 :=
  FreeChain_unique t.next_free fl1 fl2 _ h1.2.1 h2.2.1

/-- Every page that was free before `NewPage`, and every page the call adds
to the file, is free afterwards or is the page handed out. -/
theorem NewPage_acct (t : BPTreeIndex) (fl fl1 : List Int) (ha : t.AllocOK fl)
    (ha1 : t.NewPage.2.AllocOK fl1) (p : Int)
    (hp : p ∈ fl ∨ (t.header.page_num_ ≤ p ∧ p < t.NewPage.2.header.page_num_)) :
    p ∈ fl1 ∨ p = t.NewPage.1 := by
  obtain ⟨h1, hc, hnd, hrange⟩ := ha
  have hc1 := ha1.2.1
  unfold BPTreeIndex.NewPage at hc1 hp ⊢
  by_cases hf : t.header.first_free_page_id_ ≠ INVALID_PAGE_ID
  · rw [if_pos hf] at hc1 hp ⊢
    simp only at hc1 hp ⊢
    cases fl with
    | nil => exact absurd hc hf
    | cons q qs =>
      obtain ⟨hq1, hq2, hq3⟩ := hc
      rw [hq1] at hc1
      have := FreeChain_unique t.next_free fl1 qs _ hc1 hq3
      subst this
      rcases hp with hp | hp
      · rcases List.mem_cons.1 hp with h0 | h0
        · right; rw [h0, hq1]
        · left; exact h0
      · omega
  · rw [if_neg hf] at hc1 hp ⊢
    simp only at hc1 hp ⊢
    have hf2 : t.header.first_free_page_id_ = INVALID_PAGE_ID := by
      by_contra h; exact hf h
    cases fl with
    | cons q qs =>
      obtain ⟨hq1, hq2, -⟩ := hc
      rw [hf2] at hq1
      exact absurd hq1.symm hq2
    | nil =>
      rcases hp with hp | hp
      · cases hp
      · right; omega

/-! ## B+tree: runs of children -/

theorem ub_append (xs ys : List (Int × Int)) (hi : Int) :
    ub (xs ++ ys) hi = ub xs (ub ys hi) := by
  cases xs <;> rfl

theorem KidsSeg_append {P : Int → Int → Int → Int → Int → Prop} (xs ys : List (Int × Int))
    (hi f n : Int) :
    KidsSeg P (xs ++ ys) hi f n ↔ ∃ m, KidsSeg P xs (ub ys hi) f m ∧ KidsSeg P ys hi m n := by
  induction xs generalizing f with
  | nil =>
    simp only [List.nil_append, KidsSeg]
    constructor
    · intro h; exact ⟨f, rfl, h⟩
    · rintro ⟨m, rfl, h⟩; exact h
  | cons e rest ih =>
    simp only [List.cons_append, KidsSeg, ← ub_append]
    constructor
    · rintro ⟨m, h1, h2⟩
      obtain ⟨m2, h3, h4⟩ := (ih m).1 h2
      exact ⟨m2, ⟨m, h1, h3⟩, h4⟩
    · rintro ⟨m2, ⟨m, h1, h3⟩, h4⟩
      exact ⟨m, h1, (ih m).2 ⟨m2, h3, h4⟩⟩

theorem KidsSeg_imp {P Q : Int → Int → Int → Int → Int → Prop} (es : List (Int × Int))
    (hi f n : Int)
    (h : ∀ e ∈ es, ∀ l u f n, P e.2 l u f n → Q e.2 l u f n)
    (hk : KidsSeg P es hi f n) : KidsSeg Q es hi f n := by
  induction es generalizing f with
  | nil => exact hk
  | cons e rest ih =>
    obtain ⟨m, h1, h2⟩ := hk
    exact ⟨m, h e (List.mem_cons_self _ _) _ _ _ _ h1,
      ih _ (fun x hx => h x (List.mem_cons_of_mem _ hx)) h2⟩

theorem KidsOK_iff_seg {P : Int → Int → Int → Int → Int → Prop} (e : Int × Int)
    (rest : List (Int × Int)) (lo hi f n : Int) :
    KidsOK P lo (e :: rest) hi f n ↔ KidsSeg P ((lo, e.2) :: rest) hi f n := by
  induction rest generalizing e lo f with
  | nil =>
    simp only [KidsOK, KidsSeg, ub]
    constructor
    · intro h; exact ⟨n, h, rfl⟩
    · rintro ⟨m, h, rfl⟩; exact h
  | cons e2 r ih =>
    simp only [KidsOK, KidsSeg, ub]
    constructor
    · rintro ⟨m, h1, h2⟩
      have := (ih e2 e2.1 m).1 h2
      exact ⟨m, h1, this⟩
    · rintro ⟨m, h1, h2⟩
      exact ⟨m, h1, (ih e2 e2.1 m).2 h2⟩

theorem KidsOK_iff_setHeadKey {P : Int → Int → Int → Int → Int → Prop}
    (es : List (Int × Int)) (lo hi f n : Int) :
    KidsOK P lo es hi f n ↔ es ≠ [] ∧ KidsSeg P (setHeadKey lo es) hi f n := by
  cases es with
  | nil => simp [KidsOK]
  | cons e rest =>
    rw [KidsOK_iff_seg]
    simp [setHeadKey]

theorem segBounds_append (xs ys : List (Int × Int)) (hi : Int) :
    segBounds (xs ++ ys) hi = segBounds xs (ub ys hi) ++ segBounds ys hi := by
  induction xs with
  | nil => rfl
  | cons e rest ih =>
    show (e.2, e.1, ub (rest ++ ys) hi) :: segBounds (rest ++ ys) hi = _
    rw [ih, ub_append]; rfl

theorem kidBounds_eq_segBounds (lo hi : Int) (es : List (Int × Int)) :
    kidBounds lo es hi = segBounds (setHeadKey lo es) hi := by
  induction es generalizing lo with
  | nil => rfl
  | cons e rest ih =>
    cases rest with
    | nil => rfl
    | cons e2 r =>
      simp only [kidBounds, setHeadKey, segBounds, ub]
      rw [ih e2.1]
      rfl

theorem setHeadKey_append (lo : Int) (xs ys : List (Int × Int)) (h : xs ≠ []) :
    setHeadKey lo (xs ++ ys) = setHeadKey lo xs ++ ys := by
  cases xs with
  | nil => exact absurd rfl h
  | cons e rest => rfl

theorem setHeadKey_map_snd (lo : Int) (es : List (Int × Int)) :
    (setHeadKey lo es).map Prod.snd = es.map Prod.snd := by
  cases es <;> rfl

theorem setHeadKey_length (lo : Int) (es : List (Int × Int)) :
    (setHeadKey lo es).length = es.length := by
  cases es <;> rfl

/-- Splitting the entries at a child: the normalised list splits at the same
place, and the child gets the key of its entry (or `lo` at the front). -/
theorem setHeadKey_split (lo : Int) (pre : List (Int × Int)) (k c : Int)
    (post : List (Int × Int)) :
    ∃ pre1 k1, setHeadKey lo (pre ++ (k, c) :: post) = pre1 ++ (k1, c) :: post ∧
      pre1.length = pre.length ∧ pre1.map Prod.snd = pre.map Prod.snd ∧
      (pre ≠ [] → k1 = k ∧ pre1 = setHeadKey lo pre) ∧ (pre = [] → k1 = lo ∧ pre1 = []) := by
  cases pre with
  | nil => exact ⟨[], lo, rfl, rfl, rfl, fun h => absurd rfl h, fun _ => ⟨rfl, rfl⟩⟩
  | cons e rest =>
    exact ⟨(lo, e.2) :: rest, k, rfl, rfl, rfl, fun _ => ⟨rfl, rfl⟩, fun h => by simp at h⟩

/-! ## B+tree: replacing a run of children -/

theorem flatMap_setHeadKey {β : Type} (g : Int → List β) (lo : Int) (es : List (Int × Int)) :
    (setHeadKey lo es).flatMap (fun e => g e.2) = es.flatMap (fun e => g e.2) := by
  cases es <;> rfl

theorem setHeadKey_eq_nil (lo : Int) (es : List (Int × Int)) :
    setHeadKey lo es = [] ↔ es = [] := by
  cases es <;> simp [setHeadKey]

theorem KidsSeg_block {P Q : Int → Int → Int → Int → Int → Prop}
    (pre blk blk1 post : List (Int × Int)) (hi f n : Int)
    (hub : ub (blk1 ++ post) hi = ub (blk ++ post) hi)
    (hpre : ∀ e ∈ pre, ∀ l u f n, P e.2 l u f n → Q e.2 l u f n)
    (hpost : ∀ e ∈ post, ∀ l u f n, P e.2 l u f n → Q e.2 l u f n)
    (hblk : ∀ f n, KidsSeg P blk (ub post hi) f n → KidsSeg Q blk1 (ub post hi) f n)
    (hk : KidsSeg P (pre ++ (blk ++ post)) hi f n) :
    KidsSeg Q (pre ++ (blk1 ++ post)) hi f n := by
  obtain ⟨m, h1, h2⟩ := (KidsSeg_append _ _ _ _ _).1 hk
  obtain ⟨m2, h3, h4⟩ := (KidsSeg_append _ _ _ _ _).1 h2
  refine (KidsSeg_append _ _ _ _ _).2 ⟨m, ?_, (KidsSeg_append _ _ _ _ _).2 ⟨m2, hblk _ _ h3, ?_⟩⟩
  · rw [hub]; exact KidsSeg_imp _ _ _ _ hpre h1
  · exact KidsSeg_imp _ _ _ _ hpost h4

/-- Replacing the run `blk` of children of the node at `pid` by the run `blk1`,
with the node rewritten accordingly, replaces the subtree at `pid`. -/
theorem Repl_of_block (nodes nodes1 : Int → Option BPTreePage) (F : List Int) (j : Nat)
    (pid lo hi : Int) (nd nd1 : BPTreeInternalPage)
    (hn : nodes pid = some (.internal nd)) (hn1 : nodes1 pid = some (.internal nd1))
    (hid : nd1.page_id_ = nd.page_id_) (hpar : nd1.parent_page_id_ = nd.parent_page_id_)
    (hmax : nd1.max_size_ = nd.max_size_)
    (pre blk blk1 post : List (Int × Int))
    (he : setHeadKey lo nd.entries = pre ++ (blk ++ post))
    (he1 : setHeadKey lo nd1.entries = pre ++ (blk1 ++ post))
    (hne1 : blk1 ≠ [])
    (hub : ub (blk1 ++ post) hi = ub (blk ++ post) hi)
    (hnd : (pagesOf nodes (j + 1) pid).Nodup)
    (hF : ∀ x ∈ F, x ∉ pagesOf nodes (j + 1) pid)
    (hwf : ∀ f n, KidsSeg (fun c l u f n => WFSub nodes j c pid l u f n) blk (ub post hi) f n →
      KidsSeg (fun c l u f n => WFSub nodes1 j c pid l u f n) blk1 (ub post hi) f n)
    (hpages : ∀ x ∈ blk1.flatMap (fun e => pagesOf nodes1 j e.2),
      x ∈ blk.flatMap (fun e => pagesOf nodes j e.2) ∨ x ∈ F)
    (hnodup : (blk1.flatMap (fun e => pagesOf nodes1 j e.2)).Nodup)
    (hframe : ∀ x, x ≠ pid → x ∉ blk.flatMap (fun e => pagesOf nodes j e.2) → x ∉ F →
      nodes1 x = nodes x) :
    Repl nodes nodes1 F ⟨j + 1, pid, lo, hi⟩ ∧
    pagesOf nodes1 (j + 1) pid = pid :: (pre.flatMap (fun e => pagesOf nodes j e.2) ++
      (blk1.flatMap (fun e => pagesOf nodes1 j e.2) ++
        post.flatMap (fun e => pagesOf nodes j e.2))) ∧
    entriesOf nodes (j + 1) pid = pre.flatMap (fun e => entriesOf nodes j e.2) ++
      (blk.flatMap (fun e => entriesOf nodes j e.2) ++
        post.flatMap (fun e => entriesOf nodes j e.2)) ∧
    entriesOf nodes1 (j + 1) pid = pre.flatMap (fun e => entriesOf nodes j e.2) ++
      (blk1.flatMap (fun e => entriesOf nodes1 j e.2) ++
        post.flatMap (fun e => entriesOf nodes j e.2)) := by
  -- pages of the old subtree
  have hpg : pagesOf nodes (j + 1) pid =
      pid :: (pre.flatMap (fun e => pagesOf nodes j e.2) ++
        (blk.flatMap (fun e => pagesOf nodes j e.2) ++
          post.flatMap (fun e => pagesOf nodes j e.2))) := by
    rw [pagesOf_succ nodes j pid nd hn, ← flatMap_setHeadKey (pagesOf nodes j) lo nd.entries, he,
      List.flatMap_append, List.flatMap_append]
  rw [hpg] at hnd
  obtain ⟨hanot, hnd2⟩ := List.nodup_cons.1 hnd
  rw [List.nodup_append] at hnd2
  obtain ⟨hndpre, hnd3, hdis1⟩ := hnd2
  rw [List.nodup_append] at hnd3
  obtain ⟨hndq, hndpost, hdis2⟩ := hnd3
  have hF2 : ∀ p ∈ F, p ≠ pid ∧ p ∉ pre.flatMap (fun e => pagesOf nodes j e.2) ∧
      p ∉ blk.flatMap (fun e => pagesOf nodes j e.2) ∧
      p ∉ post.flatMap (fun e => pagesOf nodes j e.2) := by
    intro p hp
    have := hF p hp
    rw [hpg] at this
    simp only [List.mem_cons, List.mem_append, not_or] at this
    exact ⟨this.1, this.2.1, this.2.2.1, this.2.2.2⟩
  have hpre : ∀ x ∈ pre, ∀ p ∈ pagesOf nodes j x.2, nodes1 p = nodes p := by
    intro x hx p hp
    have hp1 : p ∈ pre.flatMap (fun e => pagesOf nodes j e.2) := List.mem_flatMap.2 ⟨x, hx, hp⟩
    apply hframe
    · intro h; rw [h] at hp1; exact hanot (List.mem_append_left _ hp1)
    · intro h; exact hdis1 hp1 (List.mem_append_left _ h)
    · intro h; exact (hF2 _ h).2.1 hp1
  have hpost : ∀ x ∈ post, ∀ p ∈ pagesOf nodes j x.2, nodes1 p = nodes p := by
    intro x hx p hp
    have hp1 : p ∈ post.flatMap (fun e => pagesOf nodes j e.2) :=
      List.mem_flatMap.2 ⟨x, hx, hp⟩
    apply hframe
    · intro h; rw [h] at hp1
      exact hanot (List.mem_append_right _ (List.mem_append_right _ hp1))
    · intro h; exact hdis2 h hp1
    · intro h; exact (hF2 _ h).2.2.2 hp1
  have hpre_pg : pre.flatMap (fun e => pagesOf nodes1 j e.2) =
      pre.flatMap (fun e => pagesOf nodes j e.2) :=
    List.flatMap_congr (fun x hx => (frame_sub nodes nodes1 j x.2 (hpre x hx)).1)
  have hpost_pg : post.flatMap (fun e => pagesOf nodes1 j e.2) =
      post.flatMap (fun e => pagesOf nodes j e.2) :=
    List.flatMap_congr (fun x hx => (frame_sub nodes nodes1 j x.2 (hpost x hx)).1)
  have hpg1 : pagesOf nodes1 (j + 1) pid =
      pid :: (pre.flatMap (fun e => pagesOf nodes j e.2) ++
        (blk1.flatMap (fun e => pagesOf nodes1 j e.2) ++
          post.flatMap (fun e => pagesOf nodes j e.2))) := by
    rw [pagesOf_succ nodes1 j pid nd1 hn1, ← flatMap_setHeadKey (pagesOf nodes1 j) lo nd1.entries,
      he1, List.flatMap_append, List.flatMap_append, hpre_pg, hpost_pg]
  have hnew : ∀ p ∈ blk1.flatMap (fun e => pagesOf nodes1 j e.2), p ≠ pid ∧
      p ∉ pre.flatMap (fun e => pagesOf nodes j e.2) ∧
      p ∉ post.flatMap (fun e => pagesOf nodes j e.2) := by
    intro p hp
    rcases hpages p hp with h | h
    · refine ⟨?_, ?_, ?_⟩
      · intro hpa; rw [hpa] at h
        exact hanot (List.mem_append_right _ (List.mem_append_left _ h))
      · intro h2; exact hdis1 h2 (List.mem_append_left _ h)
      · intro h2; exact hdis2 h h2
    · exact ⟨(hF2 p h).1, (hF2 p h).2.1, (hF2 p h).2.2.2⟩
  refine ⟨⟨?_, ?_, ?_, ?_⟩, hpg1, ?_, ?_⟩
  · -- wf
    intro par f n hw
    obtain ⟨nd2, a1, a2, a3, a4, hk⟩ := hw
    rw [hn] at a1
    cases a1
    refine ⟨nd1, hn1, hid.trans a2, hpar.trans a3, hmax.trans a4, ?_⟩
    rw [KidsOK_iff_setHeadKey] at hk ⊢
    refine ⟨?_, ?_⟩
    · intro h0
      rw [h0] at he1
      have : blk1 = [] := by
        have h3 := congrArg List.length he1
        simp only [setHeadKey, List.length_nil, List.length_append] at h3
        exact List.eq_nil_of_length_eq_zero (by omega)
      exact hne1 this
    · rw [he1]
      rw [he] at hk
      refine KidsSeg_block pre blk blk1 post hi f n hub ?_ ?_ hwf hk.2
      · intro e he2 l u f n hh
        exact (frame_sub nodes nodes1 j e.2 (hpre e he2)).2.2.2 _ _ _ _ _ hh
      · intro e he2 l u f n hh
        exact (frame_sub nodes nodes1 j e.2 (hpost e he2)).2.2.2 _ _ _ _ _ hh
  · -- pages
    intro p hp
    change p ∈ pagesOf nodes1 (j + 1) pid at hp
    change p ∈ pagesOf nodes (j + 1) pid ∨ p ∈ F
    rw [hpg1] at hp
    rw [hpg]
    simp only [List.mem_cons, List.mem_append] at hp ⊢
    rcases hp with h | h | h | h
    · exact Or.inl (Or.inl h)
    · exact Or.inl (Or.inr (Or.inl h))
    · rcases hpages p h with h2 | h2
      · exact Or.inl (Or.inr (Or.inr (Or.inl h2)))
      · exact Or.inr h2
    · exact Or.inl (Or.inr (Or.inr (Or.inr h)))
  · -- nodup
    change (pagesOf nodes1 (j + 1) pid).Nodup
    rw [hpg1, List.nodup_cons, List.nodup_append, List.nodup_append]
    refine ⟨?_, hndpre, ⟨hnodup, hndpost, ?_⟩, ?_⟩
    · simp only [List.mem_append, not_or]
      refine ⟨?_, ?_, ?_⟩
      · intro h; exact hanot (List.mem_append_left _ h)
      · intro h; exact (hnew _ h).1 rfl
      · intro h; exact hanot (List.mem_append_right _ (List.mem_append_right _ h))
    · intro p hp hp2; exact (hnew p hp).2.2 hp2
    · intro p hp hp2
      rcases List.mem_append.1 hp2 with h | h
      · exact (hnew p h).2.1 hp
      · exact hdis1 hp (List.mem_append_right _ h)
  · -- frame
    intro p hp hpF
    change p ∉ pagesOf nodes (j + 1) pid at hp
    rw [hpg] at hp
    simp only [List.mem_cons, List.mem_append, not_or] at hp
    exact hframe p hp.1 hp.2.2.1 hpF
  · rw [entriesOf_succ nodes j pid nd hn, ← flatMap_setHeadKey (entriesOf nodes j) lo nd.entries,
      he, List.flatMap_append, List.flatMap_append]
  · rw [entriesOf_succ nodes1 j pid nd1 hn1,
      ← flatMap_setHeadKey (entriesOf nodes1 j) lo nd1.entries, he1, List.flatMap_append,
      List.flatMap_append]
    congr 1
    · exact List.flatMap_congr (fun x hx => (frame_sub nodes nodes1 j x.2 (hpre x hx)).2.1)
    · congr 1
      exact List.flatMap_congr (fun x hx => (frame_sub nodes nodes1 j x.2 (hpost x hx)).2.1)

/-! ## B+tree: height and number of pages -/

theorem pagesOf_length (nodes : Int → Option BPTreePage) (h : Nat) :
    ∀ (pid par lo hi f n : Int), WFSub nodes h pid par lo hi f n →
      h + 1 ≤ (pagesOf nodes h pid).length := by
  induction h with
  | zero => intro pid par lo hi f n _; simp [pagesOf]
  | succ h ih =>
    intro pid par lo hi f n hw
    obtain ⟨nd, a1, -, -, -, hk⟩ := hw
    rw [pagesOf_succ nodes h pid nd a1]
    cases hes : nd.entries with
    | nil => rw [hes] at hk; exact absurd hk (by simp [KidsOK])
    | cons e rest =>
      rw [hes] at hk
      have hx : (e.2, lo, ub rest hi) ∈ kidBounds lo (e :: rest) hi := by
        rw [kidBounds_eq_segBounds]; simp [setHeadKey, segBounds]
      obtain ⟨f1, n1, hc⟩ := KidsOK_child _ _ _ _ _ hk _ hx
      have := ih _ _ _ _ _ _ hc
      simp only at this
      simp only [List.flatMap_cons, List.length_cons, List.length_append]
      omega

theorem nodup_range_length (l : List Int) (n : Int) (hn : 1 ≤ n) (hnd : l.Nodup)
    (hr : ∀ p ∈ l, 1 ≤ p ∧ p < n) : (l.length : Int) ≤ n - 1 := by
  have h1 : l.toFinset ⊆ Finset.Ico 1 n := by
    intro x hx
    rw [List.mem_toFinset] at hx
    rw [Finset.mem_Ico]
    exact hr x hx
  have h2 := Finset.card_le_card h1
  rw [List.toFinset_card_of_nodup hnd, Int.card_Ico] at h2
  omega

theorem TreeOK_fuel (t : BPTreeIndex) (ex : Option Int) (fl : List Int) (h : Nat)
    (ha : t.AllocOK fl) (ht : t.TreeOK ex fl h) : h + 1 < t.fuel := by
  obtain ⟨-, -, ⟨lo, hi, f, hw⟩, hnd, hpg⟩ := ht
  have h1 := pagesOf_length t.nodes h _ _ _ _ _ _ hw
  have h2 := nodup_range_length _ t.header.page_num_ ha.1 hnd
    (fun p hp => ⟨(hpg p hp).1, (hpg p hp).2.1⟩)
  unfold BPTreeIndex.fuel
  omega

/-! ## B+tree: parent pointers -/

theorem SetParentPageId_idem (x : BPTreePage) (p : Int) :
    (x.SetParentPageId p).SetParentPageId p = x.SetParentPageId p := by
  cases x <;> rfl

theorem setParent_spec (t : BPTreeIndex) (pid parent : Int) (x : BPTreePage)
    (hx : t.nodes pid = some x) :
    t.setParent pid parent = some (t.setNode pid (x.SetParentPageId parent)) := by
  unfold BPTreeIndex.setParent
  rw [hx]

theorem reparent_spec (cs : List Int) (parent : Int) :
    ∀ t : BPTreeIndex, (∀ c ∈ cs, t.nodes c ≠ none) →
      ∃ t1, t.reparent cs parent = some t1 ∧ t1.header = t.header ∧
        t1.next_free = t.next_free ∧
        ∀ p, t1.nodes p =
          if p ∈ cs then (t.nodes p).map (fun x => x.SetParentPageId parent) else t.nodes p := by
  induction cs with
  | nil =>
    intro t _
    exact ⟨t, rfl, rfl, rfl, fun p => by simp⟩
  | cons c cs ih =>
    intro t hall
    have hc := hall c (List.mem_cons_self _ _)
    cases hx : t.nodes c with
    | none => exact absurd hx hc
    | some x =>
      have hall2 : ∀ c2 ∈ cs, (t.setNode c (x.SetParentPageId parent)).nodes c2 ≠ none := by
        intro c2 hc2
        rw [nodes_setNode]
        split
        · simp
        · exact hall c2 (List.mem_cons_of_mem _ hc2)
      obtain ⟨t1, h1, h2, h3, h4⟩ := ih _ hall2
      refine ⟨t1, ?_, ?_, ?_, ?_⟩
      · simp only [BPTreeIndex.reparent, setParent_spec t c parent x hx]
        exact h1
      · rw [h2]; rfl
      · rw [h3]; rfl
      · intro p
        rw [h4 p, nodes_setNode]
        by_cases hpc : p = c
        · subst hpc
          simp only [List.mem_cons, true_or, if_true, hx, Option.map_some']
          split
          · simp [SetParentPageId_idem]
          · rfl
        · simp only [List.mem_cons, hpc, false_or, if_false]

theorem WFSub_setParent (nodes nodes1 : Int → Option BPTreePage) (h : Nat)
    (c par par1 lo hi f n : Int) (hw : WFSub nodes h c par lo hi f n)
    (hnd : (pagesOf nodes h c).Nodup)
    (hc : nodes1 c = (nodes c).map (fun x => x.SetParentPageId par1))
    (hfr : ∀ p ∈ pagesOf nodes h c, p ≠ c → nodes1 p = nodes p) :
    WFSub nodes1 h c par1 lo hi f n ∧ pagesOf nodes1 h c = pagesOf nodes h c ∧
      entriesOf nodes1 h c = entriesOf nodes h c := by
  cases h with
  | zero =>
    obtain ⟨l, a1, a2, a3, a4, a5, a6, a7, a8, a9⟩ := hw
    rw [a1] at hc
    refine ⟨⟨{ l with parent_page_id_ := par1 }, hc, a2, rfl, a4, a5, a6, a7, a8, a9⟩, rfl, ?_⟩
    simp only [entriesOf, hc, a1]
    rfl
  | succ h =>
    obtain ⟨nd, a1, a2, a3, a4, hk⟩ := hw
    rw [a1] at hc
    have hc1 : nodes1 c = some (.internal { nd with parent_page_id_ := par1 }) := hc
    rw [pagesOf_succ nodes h c nd a1] at hnd hfr
    obtain ⟨hcn, -⟩ := List.nodup_cons.1 hnd
    have hkid : ∀ e ∈ nd.entries, ∀ p ∈ pagesOf nodes h e.2, nodes1 p = nodes p := by
      intro e he p hp
      have hp1 : p ∈ nd.entries.flatMap (fun e => pagesOf nodes h e.2) :=
        List.mem_flatMap.2 ⟨e, he, hp⟩
      apply hfr p (List.mem_cons_of_mem _ hp1)
      intro h0; rw [h0] at hp1; exact hcn hp1
    refine ⟨⟨_, hc1, a2, rfl, a4, ?_⟩, ?_, ?_⟩
    · apply KidsOK_imp _ _ _ _ _ _ hk
      intro e he l u f n hh
      exact (frame_sub nodes nodes1 h e.2 (hkid e he)).2.2.2 _ _ _ _ _ hh
    · rw [pagesOf_succ nodes1 h c _ hc1, pagesOf_succ nodes h c nd a1]
      congr 1
      exact List.flatMap_congr (fun x hx => (frame_sub nodes nodes1 h x.2 (hkid x hx)).1)
    · rw [entriesOf_succ nodes1 h c _ hc1, entriesOf_succ nodes h c nd a1]
      exact List.flatMap_congr (fun x hx => (frame_sub nodes nodes1 h x.2 (hkid x hx)).2.1)

/-! ## B+tree: positions -/

theorem Site_frame (nodes nodes1 : Int → Option BPTreePage) (a z : Pos) (hs : Site nodes a z)
    (hfr : ∀ x ∈ pagesOf nodes a.h a.pid, ∀ nd, nodes x = some (.internal nd) →
      ∃ nd1, nodes1 x = some (.internal nd1) ∧ nd1.entries = nd.entries) :
    Site nodes1 a z := by
  induction hs with
  | refl => exact Relation.ReflTransGen.refl
  | @tail b c hab hbc ih =>
    refine Relation.ReflTransGen.tail ih ?_
    obtain ⟨nd, hh, hn, hm⟩ := hbc
    have hb : b.pid ∈ pagesOf nodes a.h a.pid :=
      (Site_sublist nodes a b hab).subset (mem_pagesOf_self nodes b.h b.pid)
    obtain ⟨nd1, h1, h2⟩ := hfr _ hb nd hn
    exact ⟨nd1, hh, h1, by rw [h2]; exact hm⟩

theorem kidBounds_nested {P : Int → Int → Int → Int → Int → Prop}
    (hP : ∀ c l u f n, P c l u f n → l ≤ u) (es : List (Int × Int)) :
    ∀ (lo hi f n : Int), KidsOK P lo es hi f n → ∀ x ∈ kidBounds lo es hi,
      lo ≤ x.2.1 ∧ x.2.2 ≤ hi := by
  induction es with
  | nil => intro lo hi f n hk; exact absurd hk (by simp [KidsOK])
  | cons e rest ih =>
    intro lo hi f n hk x hx
    cases rest with
    | nil =>
      simp only [kidBounds, List.mem_singleton] at hx
      subst hx
      exact ⟨le_refl _, le_refl _⟩
    | cons e2 r =>
      simp only [kidBounds, List.mem_cons] at hx
      obtain ⟨m, h1, h2⟩ := hk
      have hle1 := hP _ _ _ _ _ h1
      have hle2 := KidsOK_le hP _ _ _ _ _ h2
      rcases hx with hx | hx
      · subst hx
        exact ⟨le_refl _, hle2⟩
      · have := ih _ _ _ _ h2 x (by simpa [kidBounds] using hx)
        exact ⟨le_trans hle1 this.1, this.2⟩

theorem ChildStep_nested (nodes : Int → Option BPTreePage) (a b : Pos)
    (hs : ChildStep nodes a b) (par f n : Int)
    (hw : WFSub nodes a.h a.pid par a.lo a.hi f n) : a.lo ≤ b.lo ∧ b.hi ≤ a.hi := by
  obtain ⟨nd, hh, hn, hm⟩ := hs
  rw [hh] at hw
  obtain ⟨nd2, a1, -, -, -, hk⟩ := hw
  rw [hn] at a1
  cases a1
  exact kidBounds_nested (fun c l u f n hc => WFSub_le nodes b.h c a.pid l u f n hc)
    _ _ _ _ _ hk _ hm

theorem Site_nested (nodes : Int → Option BPTreePage) (a z : Pos) (hs : Site nodes a z)
    (par f n : Int) (hw : WFSub nodes a.h a.pid par a.lo a.hi f n) :
    a.lo ≤ z.lo ∧ z.hi ≤ a.hi := by
  induction hs with
  | refl => exact ⟨le_refl _, le_refl _⟩
  | @tail b c hab hbc ih =>
    obtain ⟨par1, f1, n1, hb⟩ := Site_wf nodes a b hab par f n hw
    have := ChildStep_nested nodes b c hbc par1 f1 n1 hb
    exact ⟨le_trans ih.1 this.1, le_trans this.2 ih.2⟩

theorem lookupFrom_of_mem {P : Int → Int → Int → Int → Int → Prop}
    (hP : ∀ c l u f n, P c l u f n → l ≤ u) (key : Int) (rest : List (Int × Int)) :
    ∀ (e : Int × Int) (lo hi f n : Int), KidsOK P lo (e :: rest) hi f n →
      ∀ x ∈ kidBounds lo (e :: rest) hi, x.2.1 ≤ key → key < x.2.2 →
        BPTreeInternalPage.lookupFrom key e.2 rest = x.1 := by
  induction rest with
  | nil =>
    intro e lo hi f n _ x hx _ _
    simp only [kidBounds, List.mem_singleton] at hx
    subst hx
    rfl
  | cons e2 r ih =>
    intro e lo hi f n hk x hx h1 h2
    simp only [kidBounds, List.mem_cons] at hx
    obtain ⟨m, hk1, hk2⟩ := hk
    simp only [BPTreeInternalPage.lookupFrom]
    rcases hx with hx | hx
    · subst hx
      simp only at h2
      rw [if_pos h2]
    · have hx2 : x ∈ kidBounds e2.1 (e2 :: r) hi := by simpa [kidBounds] using hx
      have hn := kidBounds_nested hP _ _ _ _ _ hk2 x hx2
      have : ¬ key < e2.1 := by omega
      rw [if_neg this]
      exact ih e2 e2.1 hi m n hk2 x hx2 h1 h2

/-- The point descent for `key` ends at the leaf position whose bounds hold
`key` strictly below the upper one. -/
theorem descent_to_site (t : BPTreeIndex) (key : Int) (a z : Pos) (hs : Site t.nodes a z)
    (hz : z.h = 0) (h1 : z.lo ≤ key) (h2 : key < z.hi) :
    ∀ (par f n : Int), WFSub t.nodes a.h a.pid par a.lo a.hi f n →
      ∀ fuel : Nat, a.h < fuel → t.FindLeafPageLoop key false fuel a.pid = some z.pid := by
  induction hs using Relation.ReflTransGen.head_induction_on with
  | refl =>
    intro par f n hw fuel hf
    rw [hz] at hw
    obtain ⟨l, a1, -⟩ := hw
    cases fuel with
    | zero => omega
    | succ fuel => simp only [BPTreeIndex.FindLeafPageLoop, a1]
  | @head a b hab hbz ih =>
    intro par f n hw fuel hf
    obtain ⟨f1, n1, hb⟩ := ChildStep_wf t.nodes a b hab par f n hw
    have hnest := Site_nested t.nodes b z hbz _ _ _ hb
    obtain ⟨nd, hh, hn, hm⟩ := hab
    rw [hh] at hw
    obtain ⟨nd2, a1, -, -, -, hk⟩ := hw
    rw [hn] at a1
    cases a1
    cases fuel with
    | zero => omega
    | succ fuel =>
      simp only [BPTreeIndex.FindLeafPageLoop, hn, Bool.false_eq_true, if_false]
      cases hes : nd.entries with
      | nil => rw [hes] at hk; exact absurd hk (by simp [KidsOK])
      | cons e rest =>
        rw [hes] at hk hm
        have hl := lookupFrom_of_mem
          (fun c l u f n hc => WFSub_le t.nodes b.h c a.pid l u f n hc) key rest e _ _ _ _ hk
          _ hm (by simp only; omega) (by simp only; omega)
        simp only [BPTreeInternalPage.Lookup, hes, hl]
        exact ih _ _ _ hb fuel (by omega)

/-! ## B+tree: a local replacement keeps the tree well-formed -/

theorem TreeOK_replace (t t1 : BPTreeIndex) (ex ex1 : Option Int) (fl fl1 : List Int) (h : Nat)
    (lo hi f : Int) (F : List Int) (q : Pos)
    (hT : t.TreeOK ex fl h)
    (hw : WFSub t.nodes h t.header.root_page_id_ INVALID_PAGE_ID lo hi f INVALID_PAGE_ID)
    (hs : Site t.nodes ⟨h, t.header.root_page_id_, lo, hi⟩ q)
    (hr : Repl t.nodes t1.nodes F q)
    (hF : ∀ p ∈ F, p ∉ pagesOf t.nodes h t.header.root_page_id_)
    (hroot : t1.header.root_page_id_ = t.header.root_page_id_)
    (hh : t1.header.tree_height_ = t.header.tree_height_)
    (hpn : t.header.page_num_ ≤ t1.header.page_num_)
    (hnew : ∀ p ∈ pagesOf t1.nodes q.h q.pid, 1 ≤ p ∧ p < t1.header.page_num_ ∧ p ∉ fl1 ∧
      ∀ x, t1.nodes p = some x → ex1 ≠ some p → x.Filled)
    (hfl : ∀ p ∈ fl1, p ∈ fl ∨ p ∈ pagesOf t.nodes q.h q.pid)
    (hex : ∀ p, ex = some p → p ∈ pagesOf t.nodes q.h q.pid) :
    t1.TreeOK ex1 fl1 h ∧
    WFSub t1.nodes h t1.header.root_page_id_ INVALID_PAGE_ID lo hi f INVALID_PAGE_ID ∧
    Site t1.nodes ⟨h, t1.header.root_page_id_, lo, hi⟩ q ∧
    ∃ A B, entriesOf t.nodes h t.header.root_page_id_ = A ++ entriesOf t.nodes q.h q.pid ++ B ∧
      entriesOf t1.nodes h t1.header.root_page_id_ = A ++ entriesOf t1.nodes q.h q.pid ++ B := by
  obtain ⟨b1, b2, -, b4, b5⟩ := hT
  have hL := Repl_lift t.nodes t1.nodes F ⟨h, t.header.root_page_id_, lo, hi⟩ q hs b4 hF hr
  have hw1 := hL.repl.wf _ _ _ hw
  unfold BPTreeIndex.TreeOK
  rw [hroot]
  refine ⟨⟨b1, ?_, ⟨lo, hi, f, hw1⟩, hL.repl.nodup, ?_⟩, hw1, hL.site, hL.entries⟩
  · rw [hh]; exact b2
  · intro p hp
    rcases hL.old p hp with h1 | ⟨h1, h2, h3⟩
    · exact hnew p h1
    · have ho := b5 p h1
      have heq : t1.nodes p = t.nodes p := hr.frame p h2 h3
      refine ⟨ho.1, lt_of_lt_of_le ho.2.1 hpn, ?_, ?_⟩
      · intro hp1
        rcases hfl p hp1 with h4 | h4
        · exact ho.2.2.1 h4
        · exact h2 h4
      · intro nd hn _
        rw [heq] at hn
        apply ho.2.2.2 nd hn
        intro he
        exact h2 (hex p he)

/-- With `TreeOK_replace`: every page of the old tree outside the replaced
subtree is a page of the new tree, and so is every page of the new subtree. -/
theorem TreeOK_replace_keep (t t1 : BPTreeIndex) (ex : Option Int) (fl : List Int) (h : Nat)
    (lo hi : Int) (F : List Int) (q : Pos)
    (hT : t.TreeOK ex fl h)
    (hs : Site t.nodes ⟨h, t.header.root_page_id_, lo, hi⟩ q)
    (hr : Repl t.nodes t1.nodes F q)
    (hF : ∀ p ∈ F, p ∉ pagesOf t.nodes h t.header.root_page_id_)
    (hroot : t1.header.root_page_id_ = t.header.root_page_id_) :
    (∀ p ∈ pagesOf t.nodes h t.header.root_page_id_,
      p ∈ pagesOf t.nodes q.h q.pid ∨ p ∈ pagesOf t1.nodes h t1.header.root_page_id_) ∧
    (∀ p ∈ pagesOf t1.nodes q.h q.pid, p ∈ pagesOf t1.nodes h t1.header.root_page_id_) := by
  have hL := Repl_lift t.nodes t1.nodes F ⟨h, t.header.root_page_id_, lo, hi⟩ q hs
    hT.2.2.2.1 hF hr
  rw [hroot]
  exact ⟨hL.keep, fun p hp => (Site_sublist t1.nodes _ _ hL.site).subset hp⟩

/-! ## B+tree: what `Search` returns -/

theorem FindLeafPage_of_TreeOK (t : BPTreeIndex) (ex : Option Int) (fl : List Int) (h : Nat)
    (ha : t.AllocOK fl) (hT : t.TreeOK ex fl h) (key lo hi f : Int)
    (hw : WFSub t.nodes h t.header.root_page_id_ INVALID_PAGE_ID lo hi f INVALID_PAGE_ID)
    (h1 : lo ≤ key) (h2 : key < hi) :
    ∃ q : Pos, q.h = 0 ∧ Site t.nodes ⟨h, t.header.root_page_id_, lo, hi⟩ q ∧
      t.FindLeafPage key false = some q.pid ∧ q.lo ≤ key ∧ key < q.hi ∧ q.pid ≠ INVALID_PAGE_ID ∧
      ∃ l par n, t.nodes q.pid = some (.leaf l) ∧
        WFSub t.nodes 0 q.pid par q.lo q.hi q.pid n := by
  have hfu := TreeOK_fuel t ex fl h ha hT
  obtain ⟨q, q1, q2, q3, q4, q5, q6⟩ := descent_site t key ⟨h, t.header.root_page_id_, lo, hi⟩
    _ _ _ hw h1 (le_of_lt h2) t.fuel (by simp only; omega)
  have hq := Site_wf t.nodes _ q q2 _ _ _ hw
  obtain ⟨par1, f1, n1, hwq⟩ := hq
  have hmem : q.pid ∈ pagesOf t.nodes h t.header.root_page_id_ :=
    (Site_sublist t.nodes _ q q2).subset (mem_pagesOf_self _ _ _)
  have hrange := hT.2.2.2.2 _ hmem
  refine ⟨q, q1, q2, ?_, q4, q6 h2, ?_, ?_⟩
  · unfold BPTreeIndex.FindLeafPage
    rw [if_neg hT.1]
    exact q3
  · intro h0; rw [h0] at hrange; unfold INVALID_PAGE_ID at hrange; omega
  · rw [q1] at hwq
    have hwq2 := hwq
    obtain ⟨l, a1, a2, a3, a4, a5, a6, -⟩ := hwq
    subst a6
    exact ⟨l, par1, n1, a1, hwq2⟩

/-! ## B+tree: entries of a leaf -/

theorem findIdx_take_false {α : Type} (p : α → Bool) (l : List α) :
    ∀ e ∈ l.take (l.findIdx p), p e = false := by
  induction l with
  | nil => intro e he; simp at he
  | cons a l ih =>
    intro e he
    rw [List.findIdx_cons] at he
    cases hpa : p a with
    | true => rw [hpa] at he; simp at he
    | false =>
      rw [hpa] at he
      simp only [cond_false, List.take_succ_cons, List.mem_cons] at he
      rcases he with h | h
      · rw [h]; exact hpa
      · exact ih e h

theorem findIdx_drop_head {α : Type} (p : α → Bool) (l : List α) (e : α) (rest : List α)
    (h : l.drop (l.findIdx p) = e :: rest) : p e = true := by
  induction l with
  | nil => simp at h
  | cons a l ih =>
    rw [List.findIdx_cons] at h
    cases hpa : p a with
    | true =>
      rw [hpa] at h
      simp only [cond_true, List.drop_zero, List.cons.injEq] at h
      rw [← h.1]; exact hpa
    | false =>
      rw [hpa] at h
      simp only [cond_false, List.drop_succ_cons] at h
      exact ih h

theorem findIdx_append_of_false {α : Type} (p : α → Bool) (A : List α) (x : α) (rest : List α)
    (hA : ∀ a ∈ A, p a = false) (hx : p x = true) :
    (A ++ x :: rest).findIdx p = A.length := by
  induction A with
  | nil => simp [List.findIdx_cons, hx]
  | cons a A ih =>
    rw [List.cons_append, List.findIdx_cons, hA a (List.mem_cons_self _ _)]
    simp only [cond_false, List.length_cons]
    rw [ih (fun b hb => hA b (List.mem_cons_of_mem _ hb))]

theorem KeyIndex_le (l : BPTreeLeafPage) (key : Int) : l.KeyIndex key ≤ l.entries.length :=
  List.findIdx_le_length _

/-- In a sorted leaf, every entry before `KeyIndex` is below the key and every
entry from there on is at or above it. -/
theorem KeyIndex_split (l : BPTreeLeafPage) (key : Int)
    (hs : l.entries.Pairwise (fun a b => a.1 ≤ b.1)) :
    (∀ e ∈ l.entries.take (l.KeyIndex key), e.1 < key) ∧
    (∀ e ∈ l.entries.drop (l.KeyIndex key), key ≤ e.1) := by
  constructor
  · intro e he
    have := findIdx_take_false (fun e : Int × RID => decide (key ≤ e.1)) l.entries e he
    simp only [decide_eq_false_iff_not, not_le] at this
    exact this
  · intro e he
    cases hd : l.entries.drop (l.KeyIndex key) with
    | nil => rw [hd] at he; simp at he
    | cons e0 rest =>
      have h0 := findIdx_drop_head (fun e : Int × RID => decide (key ≤ e.1)) l.entries e0 rest hd
      simp only [decide_eq_true_eq] at h0
      have hs2 : (l.entries.drop (l.KeyIndex key)).Pairwise (fun a b => a.1 ≤ b.1) :=
        hs.sublist (List.drop_sublist _ _)
      rw [hd] at hs2 he
      rcases List.mem_cons.1 he with h | h
      · rw [h]; exact h0
      · exact le_trans h0 ((List.pairwise_cons.1 hs2).1 e h)

theorem Insert_entries (l : BPTreeLeafPage) (key : Int) (v : RID) :
    (l.Insert key v).entries =
      l.entries.take (l.KeyIndex key) ++ (key, v) :: l.entries.drop (l.KeyIndex key) := rfl

theorem Insert_sorted (l : BPTreeLeafPage) (key : Int) (v : RID)
    (hs : l.entries.Pairwise (fun a b => a.1 ≤ b.1)) :
    (l.Insert key v).entries.Pairwise (fun a b => a.1 ≤ b.1) := by
  obtain ⟨h1, h2⟩ := KeyIndex_split l key hs
  rw [Insert_entries, List.pairwise_append]
  refine ⟨hs.sublist (List.take_sublist _ _), ?_, ?_⟩
  · rw [List.pairwise_cons]
    exact ⟨fun e he => h2 e he, hs.sublist (List.drop_sublist _ _)⟩
  · intro a ha b hb
    have := h1 a ha
    rcases List.mem_cons.1 hb with h | h
    · rw [h]; exact le_of_lt this
    · exact le_trans (le_of_lt this) (h2 b h)

theorem Insert_mem (l : BPTreeLeafPage) (key : Int) (v : RID) (e : Int × RID)
    (he : e ∈ (l.Insert key v).entries) : e = (key, v) ∨ e ∈ l.entries := by
  rw [Insert_entries] at he
  simp only [List.mem_append, List.mem_cons] at he
  rcases he with h | h | h
  · exact Or.inr (List.mem_of_mem_take h)
  · exact Or.inl h
  · exact Or.inr (List.mem_of_mem_drop h)

theorem Insert_length (l : BPTreeLeafPage) (key : Int) (v : RID) :
    (l.Insert key v).entries.length = l.entries.length + 1 := by
  have h0 : l.KeyIndex key ≤ l.entries.length := KeyIndex_le l key
  rw [Insert_entries]
  simp only [List.length_append, List.length_cons, List.length_take, List.length_drop]
  omega

/-- The leaf returns the inserted value first for its key. -/
theorem Insert_Lookup (l : BPTreeLeafPage) (key : Int) (v : RID)
    (hs : l.entries.Pairwise (fun a b => a.1 ≤ b.1)) :
    ∃ rest, (l.Insert key v).Lookup key = v :: rest := by
  obtain ⟨h1, -⟩ := KeyIndex_split l key hs
  have h0 : l.KeyIndex key ≤ l.entries.length := KeyIndex_le l key
  have hk : (l.Insert key v).KeyIndex key = (l.entries.take (l.KeyIndex key)).length := by
    unfold BPTreeLeafPage.KeyIndex
    rw [Insert_entries]
    apply findIdx_append_of_false
    · intro a ha
      have := h1 a ha
      simp only [decide_eq_false_iff_not, not_le]
      exact this
    · simp
  unfold BPTreeLeafPage.Lookup
  rw [hk, Insert_entries, List.drop_left]
  exact ⟨_, by simp [List.takeWhile_cons]; rfl⟩

/-! ## B+tree: replacing a leaf -/

theorem Repl_leaf (nodes : Int → Option BPTreePage) (pid lo hi : Int) (l l1 : BPTreeLeafPage)
    (hn : nodes pid = some (.leaf l)) (hid : l1.page_id_ = l.page_id_)
    (hpar : l1.parent_page_id_ = l.parent_page_id_) (hmax : l1.max_size_ = l.max_size_)
    (hnext : l1.next_page_id_ = l.next_page_id_)
    (hs : l1.entries.Pairwise (fun a b => a.1 ≤ b.1))
    (hb : ∀ e ∈ l1.entries, lo ≤ e.1 ∧ e.1 ≤ hi) :
    Repl nodes (Function.update nodes pid (some (.leaf l1))) [] ⟨0, pid, lo, hi⟩ := by
  refine ⟨?_, ?_, ?_, ?_⟩
  · intro par f n hw
    obtain ⟨l2, a1, a2, a3, a4, a5, a6, a7, a8, a9⟩ := hw
    rw [hn] at a1
    cases a1
    exact ⟨l1, by simp, hid.trans a2, hpar.trans a3, hmax.trans a4, hnext.trans a5, a6, a7, hs, hb⟩
  · intro p hp; exact Or.inl hp
  · simp [pagesOf]
  · intro p hp _
    simp only [pagesOf, List.mem_singleton] at hp
    simp [Function.update, hp]

/-! ## B+tree: positions holding an entry -/

theorem SameKids_of_eq (a b : Option BPTreePage) (h : b = a) : SameKids a b := by
  subst h
  exact ⟨fun nd h => ⟨nd, h, rfl⟩, fun l h => ⟨l, h, rfl⟩, fun h => h⟩

theorem SameKids_setParent (a : Option BPTreePage) (p : Int) :
    SameKids a (a.map (fun x => x.SetParentPageId p)) := by
  refine ⟨?_, ?_, ?_⟩
  · intro nd h; subst h; exact ⟨_, rfl, rfl⟩
  · intro l h; subst h; exact ⟨_, rfl, rfl⟩
  · intro h; subst h; rfl

theorem Site_height (nodes : Int → Option BPTreePage) (a z : Pos) (hs : Site nodes a z) :
    z.h ≤ a.h := by
  induction hs with
  | refl => exact le_refl _
  | @tail b c _ hbc ih =>
    obtain ⟨nd, hh, -, -⟩ := hbc
    omega

theorem HasEntry_frame (nodes nodes1 : Int → Option BPTreePage) (a : Pos) (key : Int) (rid : RID)
    (hfr : ∀ x ∈ pagesOf nodes a.h a.pid, SameKids (nodes x) (nodes1 x))
    (he : HasEntry nodes a key rid) : HasEntry nodes1 a key rid := by
  obtain ⟨z, z1, z2, z3, z4, l, z5, rest, z6⟩ := he
  have hz : z.pid ∈ pagesOf nodes a.h a.pid :=
    (Site_sublist nodes a z z2).subset (mem_pagesOf_self nodes z.h z.pid)
  obtain ⟨l1, h1, h2⟩ := (hfr _ hz).2.1 l z5
  refine ⟨z, z1, Site_frame nodes nodes1 a z z2 (fun x hx => (hfr x hx).1), z3, z4, l1, h1,
    rest, ?_⟩
  unfold BPTreeLeafPage.Lookup BPTreeLeafPage.KeyIndex at z6 ⊢
  rw [h2]; exact z6

theorem HasEntry_of_Site (nodes : Int → Option BPTreePage) (a b : Pos) (key : Int) (rid : RID)
    (hs : Site nodes a b) (he : HasEntry nodes b key rid) : HasEntry nodes a key rid := by
  obtain ⟨z, z1, z2, z3, z4, z5⟩ := he
  exact ⟨z, z1, hs.trans z2, z3, z4, z5⟩

theorem Stored_of_TreeOK (t : BPTreeIndex) (ex : Option Int) (fl : List Int) (h : Nat)
    (hT : t.TreeOK ex fl h) : t.Stored = entriesOf t.nodes h t.header.root_page_id_ := by
  unfold BPTreeIndex.Stored
  rw [if_neg hT.1, hT.2.1]
  have : ((h : Int) + 1).toNat - 1 = h := by omega
  rw [this]

/-- In a well-formed tree, `Search` returns first the value that the leaf
whose bounds hold the key strictly below the upper one returns first. -/
theorem Search_of_HasEntry (t : BPTreeIndex) (ex : Option Int) (fl : List Int) (h : Nat)
    (ha : t.AllocOK fl) (hT : t.TreeOK ex fl h) (key lo hi f : Int) (rid : RID)
    (hw : WFSub t.nodes h t.header.root_page_id_ INVALID_PAGE_ID lo hi f INVALID_PAGE_ID)
    (he : HasEntry t.nodes ⟨h, t.header.root_page_id_, lo, hi⟩ key rid) :
    ∃ rest, t.Search key = some (rid :: rest) := by
  obtain ⟨z, z1, z2, z3, z4, l, z5, rest, z6⟩ := he
  have hfu := TreeOK_fuel t ex fl h ha hT
  have hd := descent_to_site t key _ z z2 z1 z3 z4 _ _ _ hw t.fuel (by simp only; omega)
  have hmem : z.pid ∈ pagesOf t.nodes h t.header.root_page_id_ :=
    (Site_sublist t.nodes _ z z2).subset (mem_pagesOf_self _ _ _)
  have hrange := hT.2.2.2.2 _ hmem
  have hne : z.pid ≠ INVALID_PAGE_ID := by
    intro h0; rw [h0] at hrange; unfold INVALID_PAGE_ID at hrange; omega
  refine ⟨rest, ?_⟩
  rw [← z6]
  unfold BPTreeIndex.Search BPTreeIndex.FindLeafPage
  rw [if_neg hT.1]
  simp only at hd
  rw [hd]
  simp only [if_neg hne, BPTreeIndex.getLeaf, z5]

/-! ## B+tree: the place of a child in its parent -/

theorem mem_segBounds_split (es : List (Int × Int)) (hi : Int) (x : Int × Int × Int)
    (hx : x ∈ segBounds es hi) :
    ∃ pre post, es = pre ++ (x.2.1, x.1) :: post ∧ ub post hi = x.2.2 := by
  induction es with
  | nil => simp [segBounds] at hx
  | cons e rest ih =>
    simp only [segBounds, List.mem_cons] at hx
    rcases hx with h | h
    · subst h
      exact ⟨[], rest, rfl, rfl⟩
    · obtain ⟨pre, post, h1, h2⟩ := ih h
      exact ⟨e :: pre, post, by rw [h1]; rfl, h2⟩

theorem segBounds_mem_of_split (pre post : List (Int × Int)) (l c hi : Int) :
    (c, l, ub post hi) ∈ segBounds (pre ++ (l, c) :: post) hi := by
  rw [segBounds_append]
  apply List.mem_append_right
  simp [segBounds]

/-- Where the child `c` with bounds `l`, `u` sits in the entries of its
parent. -/
theorem child_position (lo hi : Int) (es : List (Int × Int)) (c l u : Int)
    (hm : (c, l, u) ∈ kidBounds lo es hi) (hnd : (es.map Prod.snd).Nodup) :
    ∃ pre0 k0 post pre, es = pre0 ++ (k0, c) :: post ∧ c ∉ pre0.map Prod.snd ∧
      c ∉ post.map Prod.snd ∧
      ub post hi = u ∧ pre.map Prod.snd = pre0.map Prod.snd ∧
      ∀ mid, setHeadKey lo (pre0 ++ (k0, c) :: mid) = pre ++ (l, c) :: mid := by
  rw [kidBounds_eq_segBounds] at hm
  obtain ⟨pre, post, h1, h2⟩ := mem_segBounds_split _ _ _ hm
  simp only at h1 h2
  cases es with
  | nil => simp [setHeadKey] at h1
  | cons e rest =>
    simp only [setHeadKey] at h1
    cases pre with
    | nil =>
      simp only [List.nil_append, List.cons.injEq, Prod.mk.injEq] at h1
      obtain ⟨⟨h3, h4⟩, h5⟩ := h1
      subst h5
      refine ⟨[], e.1, rest, [], ?_, by simp, ?_, h2, rfl, ?_⟩
      · simp [← h4]
      · simp only [List.map_cons, List.nodup_cons] at hnd
        rw [← h4]; exact hnd.1
      · intro mid; simp [setHeadKey, h3]
    | cons p pre =>
      simp only [List.cons_append, List.cons.injEq] at h1
      obtain ⟨h3, h4⟩ := h1
      subst h4
      refine ⟨e :: pre, l, post, (lo, e.2) :: pre, rfl, ?_, ?_, h2, ?_, ?_⟩
      · simp only [List.map_cons, List.map_append, List.nodup_cons, List.mem_append,
          List.mem_cons, not_or] at hnd
        have hnd2 := hnd.2
        rw [List.nodup_append] at hnd2
        simp only [List.map_cons, List.mem_cons, not_or]
        refine ⟨fun h => hnd.1.2.1 h.symm, ?_⟩
        intro hc
        exact hnd2.2.2 hc (List.mem_cons_self _ _)
      · simp only [List.map_cons, List.map_append, List.nodup_cons, List.mem_append,
          List.mem_cons, not_or] at hnd
        have hnd2 := hnd.2
        rw [List.nodup_append] at hnd2
        simp only [List.nodup_cons] at hnd2
        exact hnd2.2.1.1
      · rfl
      · intro mid; rfl

/-! ## B+tree: linking a new sibling into the parent -/

theorem ValueIndex_of_split (nd : BPTreeInternalPage) (pre0 : List (Int × Int)) (k0 X : Int)
    (post : List (Int × Int)) (he : nd.entries = pre0 ++ (k0, X) :: post)
    (hX : X ∉ pre0.map Prod.snd) : nd.ValueIndex X = some pre0.length := by
  unfold BPTreeInternalPage.ValueIndex
  have h1 : nd.entries.findIdx (fun e => decide (e.2 = X)) = pre0.length := by
    rw [he]
    apply findIdx_append_of_false
    · intro a ha
      simp only [decide_eq_false_iff_not]
      intro h
      exact hX (List.mem_map.2 ⟨a, ha, h⟩)
    · simp
  simp only [h1]
  rw [if_pos]
  rw [he]; simp

theorem InsertNodeAfter_entries (nd : BPTreeInternalPage) (pre0 : List (Int × Int)) (k0 X : Int)
    (post : List (Int × Int)) (key X1 : Int) (he : nd.entries = pre0 ++ (k0, X) :: post)
    (hX : X ∉ pre0.map Prod.snd) :
    (nd.InsertNodeAfter X key X1).entries = pre0 ++ (k0, X) :: (key, X1) :: post := by
  unfold BPTreeInternalPage.InsertNodeAfter
  rw [ValueIndex_of_split nd pre0 k0 X post he hX]
  simp only [he]
  have h1 : List.take (pre0.length + 1) (pre0 ++ (k0, X) :: post) = pre0 ++ [(k0, X)] := by
    rw [List.take_append_eq_append_take]
    simp
  have h2 : List.drop (pre0.length + 1) (pre0 ++ (k0, X) :: post) = post := by
    rw [List.drop_append_eq_append_drop]
    simp
  rw [h1, h2]
  simp

theorem InsertNodeAfter_header (nd : BPTreeInternalPage) (X key X1 : Int) :
    (nd.InsertNodeAfter X key X1).page_id_ = nd.page_id_ ∧
    (nd.InsertNodeAfter X key X1).parent_page_id_ = nd.parent_page_id_ ∧
    (nd.InsertNodeAfter X key X1).max_size_ = nd.max_size_ := by
  unfold BPTreeInternalPage.InsertNodeAfter
  cases nd.ValueIndex X <;> exact ⟨rfl, rfl, rfl⟩

/-- The parent with the new sibling linked in replaces the old parent
subtree. -/
theorem Link_repl (nodes0 nodes1 : Int → Option BPTreePage) (F : List Int) (j : Nat)
    (P plo phi X qlo qhi key X1 : Int) (nd : BPTreeInternalPage)
    (hn0 : nodes0 P = some (.internal nd))
    (hm : (X, qlo, qhi) ∈ kidBounds plo nd.entries phi)
    (hnd : (pagesOf nodes0 (j + 1) P).Nodup)
    (hF : ∀ x ∈ F, x ∉ pagesOf nodes0 (j + 1) P)
    (hsp : Split nodes0 nodes1 F ⟨j, X, qlo, qhi⟩ key X1) :
    Repl nodes0 (Function.update nodes1 P (some (.internal (nd.InsertNodeAfter X key X1)))) F
      ⟨j + 1, P, plo, phi⟩ ∧
    (∃ A B, entriesOf nodes0 (j + 1) P = A ++ entriesOf nodes0 j X ++ B ∧
      entriesOf (Function.update nodes1 P (some (.internal (nd.InsertNodeAfter X key X1))))
        (j + 1) P = A ++ (entriesOf nodes1 j X ++ entriesOf nodes1 j X1) ++ B) ∧
    ChildStep (Function.update nodes1 P (some (.internal (nd.InsertNodeAfter X key X1))))
      ⟨j + 1, P, plo, phi⟩ ⟨j, X, qlo, key⟩ ∧
    ChildStep (Function.update nodes1 P (some (.internal (nd.InsertNodeAfter X key X1))))
      ⟨j + 1, P, plo, phi⟩ ⟨j, X1, key, qhi⟩ ∧
    (∀ x ∈ pagesOf nodes1 j X ++ pagesOf nodes1 j X1, x ≠ P) ∧
    (nd.InsertNodeAfter X key X1).entries.length = nd.entries.length + 1 ∧
    (∀ x ∈ pagesOf (Function.update nodes1 P (some (.internal (nd.InsertNodeAfter X key X1))))
        (j + 1) P, x = P ∨ x ∈ pagesOf nodes1 j X ++ pagesOf nodes1 j X1 ∨
          (x ∈ pagesOf nodes0 (j + 1) P ∧ x ≠ P ∧ x ∉ pagesOf nodes0 j X ∧ x ∉ F)) ∧
    (∀ x ∈ pagesOf nodes0 (j + 1) P, x ∈ pagesOf nodes0 j X ∨
      x ∈ pagesOf (Function.update nodes1 P (some (.internal (nd.InsertNodeAfter X key X1))))
        (j + 1) P) ∧
    (∀ x ∈ pagesOf nodes1 j X ++ pagesOf nodes1 j X1,
      x ∈ pagesOf (Function.update nodes1 P (some (.internal (nd.InsertNodeAfter X key X1))))
        (j + 1) P) := by
  have hkn : (nd.entries.map Prod.snd).Nodup := children_nodup nodes0 j P nd hn0 hnd
  obtain ⟨pre0, k0, post, pre, h1, h2, h2b, h3, h4, h5⟩ :=
    child_position plo phi nd.entries X qlo qhi hm hkn
  have he1 := InsertNodeAfter_entries nd pre0 k0 X post key X1 h1 h2
  obtain ⟨g1, g2, g3⟩ := InsertNodeAfter_header nd X key X1
  -- the pages of the old child lie strictly below the parent
  have hXsub : ∀ x ∈ pagesOf nodes0 j X, x ∈ pagesOf nodes0 (j + 1) P ∧ x ≠ P := by
    intro x hx
    have hmem : (k0, X) ∈ nd.entries := by rw [h1]; simp
    have hs := pagesOf_child_sublist nodes0 j P nd hn0 (k0, X) hmem
    refine ⟨hs.subset hx, ?_⟩
    intro h0
    rw [pagesOf_succ nodes0 j P nd hn0] at hnd
    have := (List.nodup_cons.1 hnd).1
    apply this
    rw [← h0]
    exact List.mem_flatMap.2 ⟨(k0, X), hmem, hx⟩
  have hpairP : ∀ x ∈ pagesOf nodes1 j X ++ pagesOf nodes1 j X1, x ≠ P := by
    intro x hx
    rcases hsp.pages x hx with h | h
    · exact (hXsub x h).2
    · intro h0; rw [h0] at h
      exact hF P h (mem_pagesOf_self nodes0 (j + 1) P)
  have hagX : ∀ x ∈ pagesOf nodes1 j X,
      Function.update nodes1 P (some (.internal (nd.InsertNodeAfter X key X1))) x = nodes1 x := by
    intro x hx
    rw [Function.update_noteq (hpairP x (List.mem_append_left _ hx))]
  have hagX1 : ∀ x ∈ pagesOf nodes1 j X1,
      Function.update nodes1 P (some (.internal (nd.InsertNodeAfter X key X1))) x = nodes1 x := by
    intro x hx
    rw [Function.update_noteq (hpairP x (List.mem_append_right _ hx))]
  have fX := frame_sub nodes1 (Function.update nodes1 P
    (some (.internal (nd.InsertNodeAfter X key X1)))) j X hagX
  have fX1 := frame_sub nodes1 (Function.update nodes1 P
    (some (.internal (nd.InsertNodeAfter X key X1)))) j X1 hagX1
  have hrepl := Repl_of_block nodes0
    (Function.update nodes1 P (some (.internal (nd.InsertNodeAfter X key X1)))) F j P plo phi
    nd (nd.InsertNodeAfter X key X1) hn0 (by simp) g1 g2 g3 pre [(qlo, X)]
    [(qlo, X), (key, X1)] post
    (by rw [h1]; exact h5 post) (by rw [he1]; exact h5 ((key, X1) :: post))
    (by simp) rfl hnd hF ?_ ?_ ?_ ?_
  · obtain ⟨r1, r2, r3, r4⟩ := hrepl
    have hpg0 : pagesOf nodes0 (j + 1) P = P :: (pre0.flatMap (fun e => pagesOf nodes0 j e.2) ++
        (pagesOf nodes0 j X ++ post.flatMap (fun e => pagesOf nodes0 j e.2))) := by
      rw [pagesOf_succ nodes0 j P nd hn0, h1, List.flatMap_append, List.flatMap_cons]
    have hpre_eq : pre.flatMap (fun e => pagesOf nodes0 j e.2) =
        pre0.flatMap (fun e => pagesOf nodes0 j e.2) := by
      have e1 : ∀ l : List (Int × Int), l.flatMap (fun e => pagesOf nodes0 j e.2) =
          (l.map Prod.snd).flatMap (pagesOf nodes0 j) := by
        intro l; rw [List.flatMap_map]
      rw [e1 pre, e1 pre0, h4]
    refine ⟨r1, ?_, ?_, ?_, hpairP, ?_, ?_, ?_, ?_⟩
    rotate_left 5
    · intro x hx
      rw [hpg0] at hx
      rw [r2, hpre_eq]
      simp only [List.mem_cons, List.mem_append, List.flatMap_cons, List.flatMap_nil,
        List.append_nil] at hx ⊢
      rcases hx with h | h | h | h
      · exact Or.inr (Or.inl h)
      · exact Or.inr (Or.inr (Or.inl h))
      · exact Or.inl h
      · exact Or.inr (Or.inr (Or.inr (Or.inr h)))
    · intro x hx
      rw [r2]
      simp only [List.mem_cons, List.mem_append, List.flatMap_cons, List.flatMap_nil,
        List.append_nil]
      rw [fX.1, fX1.1]
      exact Or.inr (Or.inr (Or.inl (List.mem_append.1 hx)))
    · refine ⟨pre.flatMap (fun e => entriesOf nodes0 j e.2),
        post.flatMap (fun e => entriesOf nodes0 j e.2), ?_, ?_⟩
      · rw [r3]; simp only [List.flatMap_cons, List.flatMap_nil, List.append_nil,
          List.append_assoc]
      · rw [r4]
        simp only [List.flatMap_cons, List.flatMap_nil, List.append_nil, List.append_assoc]
        rw [fX.2.1, fX1.2.1]
    · refine ⟨nd.InsertNodeAfter X key X1, rfl, by simp, ?_⟩
      rw [kidBounds_eq_segBounds, he1, h5]
      exact segBounds_mem_of_split pre ((key, X1) :: post) qlo X phi
    · refine ⟨nd.InsertNodeAfter X key X1, rfl, by simp, ?_⟩
      rw [kidBounds_eq_segBounds, he1, h5]
      have := segBounds_mem_of_split (pre ++ [(qlo, X)]) post key X1 phi
      rw [h3] at this
      simpa using this
    · rw [he1, h1]; simp only [List.length_append, List.length_cons]; omega
    · intro x hx
      rw [r2] at hx
      simp only [List.mem_cons, List.mem_append, List.flatMap_cons, List.flatMap_nil,
        List.append_nil] at hx
      have hpg0 : pagesOf nodes0 (j + 1) P = P :: (pre0.flatMap (fun e => pagesOf nodes0 j e.2) ++
          (pagesOf nodes0 j X ++ post.flatMap (fun e => pagesOf nodes0 j e.2))) := by
        rw [pagesOf_succ nodes0 j P nd hn0, h1, List.flatMap_append, List.flatMap_cons]
      have hpre_eq : pre.flatMap (fun e => pagesOf nodes0 j e.2) =
          pre0.flatMap (fun e => pagesOf nodes0 j e.2) := by
        have e1 : ∀ l : List (Int × Int), l.flatMap (fun e => pagesOf nodes0 j e.2) =
            (l.map Prod.snd).flatMap (pagesOf nodes0 j) := by
          intro l; rw [List.flatMap_map]
        rw [e1 pre, e1 pre0, h4]
      rw [hpre_eq] at hx
      have hnd0 := hnd
      rw [hpg0] at hnd0
      obtain ⟨n1, n2⟩ := List.nodup_cons.1 hnd0
      rw [List.nodup_append] at n2
      obtain ⟨-, n3, n4⟩ := n2
      rw [List.nodup_append] at n3
      obtain ⟨-, -, n5⟩ := n3
      rcases hx with h | h | h | h
      · exact Or.inl h
      · right; right
        refine ⟨?_, ?_, ?_, ?_⟩
        · rw [hpg0]; simp only [List.mem_cons, List.mem_append]; exact Or.inr (Or.inl h)
        · intro h0; rw [h0] at h; exact n1 (List.mem_append_left _ h)
        · intro h0; exact n4 h (List.mem_append_left _ h0)
        · intro h0; apply hF x h0
          rw [hpg0]; simp only [List.mem_cons, List.mem_append]; exact Or.inr (Or.inl h)
      · right; left
        rw [fX.1, fX1.1] at h
        rcases h with h | h
        · exact List.mem_append_left _ h
        · exact List.mem_append_right _ h
      · right; right
        refine ⟨?_, ?_, ?_, ?_⟩
        · rw [hpg0]; simp only [List.mem_cons, List.mem_append]; exact Or.inr (Or.inr (Or.inr h))
        · intro h0; rw [h0] at h
          exact n1 (List.mem_append_right _ (List.mem_append_right _ h))
        · intro h0; exact n5 h0 h
        · intro h0; apply hF x h0
          rw [hpg0]; simp only [List.mem_cons, List.mem_append]
          exact Or.inr (Or.inr (Or.inr h))
  · -- the run
    intro f n hk
    obtain ⟨m, hw, hmn⟩ := hk
    have hmn1 : m = n := hmn
    subst hmn1
    have hw1 : WFSub nodes0 j X P qlo qhi f m := by rw [← h3]; exact hw
    obtain ⟨m2, w1, w2⟩ := hsp.wf P f m hw1
    show ∃ m1, WFSub _ j X P qlo key f m1 ∧ ∃ m3, WFSub _ j X1 P key (ub post phi) m1 m3 ∧ m3 = m
    rw [h3]
    exact ⟨m2, fX.2.2.2 _ _ _ _ _ w1, m, fX1.2.2.2 _ _ _ _ _ w2, rfl⟩
  · intro x hx
    simp only [List.flatMap_cons, List.flatMap_nil, List.append_nil, List.mem_append] at hx ⊢
    rw [fX.1, fX1.1] at hx
    exact hsp.pages x (List.mem_append.2 hx)
  · simp only [List.flatMap_cons, List.flatMap_nil, List.append_nil]
    rw [fX.1, fX1.1]
    exact hsp.nodup
  · intro x hxP hx hxF
    simp only [List.flatMap_cons, List.flatMap_nil, List.append_nil] at hx
    rw [Function.update_noteq hxP]
    exact hsp.frame x hx hxF

/-! ## B+tree: splitting an internal node -/

theorem flatMap_snd {β : Type} (g : Int → List β) (l : List (Int × Int)) :
    l.flatMap (fun e => g e.2) = (l.map Prod.snd).flatMap g := by
  rw [List.flatMap_map]

theorem HasEntry_child (nodes : Int → Option BPTreePage) (a : Pos) (key : Int) (rid : RID)
    (ha : 0 < a.h) (he : HasEntry nodes a key rid) :
    ∃ b, ChildStep nodes a b ∧ HasEntry nodes b key rid := by
  obtain ⟨z, z1, z2, z3⟩ := he
  rcases Relation.ReflTransGen.cases_head z2 with h | ⟨b, hab, hbz⟩
  · rw [← h] at z1; omega
  · exact ⟨b, hab, z, z1, hbz, z3⟩

theorem kids_disjoint (nodes : Int → Option BPTreePage) (j : Nat) (es : List (Int × Int))
    (hnd : (es.flatMap (fun e => pagesOf nodes j e.2)).Nodup) (e e2 : Int × Int)
    (he : e ∈ es) (he2 : e2 ∈ es) (x : Int) (hx : x ∈ pagesOf nodes j e.2)
    (hx2 : x ∈ pagesOf nodes j e2.2) : e = e2 := by
  rw [List.nodup_flatMap] at hnd
  by_contra hne
  have hsym : Symmetric (fun a b : Int × Int =>
      List.Disjoint (pagesOf nodes j a.2) (pagesOf nodes j b.2)) := fun _ _ h => h.symm
  exact (hnd.2.forall hsym he he2 hne) hx hx2

theorem pagesOf_setParent (nodes nodes1 : Int → Option BPTreePage) (h : Nat) (c par1 : Int)
    (hnd : (pagesOf nodes h c).Nodup)
    (hc : nodes1 c = (nodes c).map (fun x => x.SetParentPageId par1))
    (hfr : ∀ p ∈ pagesOf nodes h c, p ≠ c → nodes1 p = nodes p) :
    pagesOf nodes1 h c = pagesOf nodes h c ∧ entriesOf nodes1 h c = entriesOf nodes h c := by
  cases h with
  | zero =>
    refine ⟨rfl, ?_⟩
    simp only [entriesOf, hc]
    cases hx : nodes c with
    | none => rfl
    | some x => cases x <;> rfl
  | succ h =>
    cases hx : nodes c with
    | none =>
      rw [hx] at hc
      simp only [pagesOf, entriesOf, hc, hx, Option.map_none']
      exact ⟨trivial, trivial⟩
    | some x =>
      cases x with
      | leaf l =>
        rw [hx] at hc
        simp only [pagesOf, entriesOf, hc, hx, Option.map_some', BPTreePage.SetParentPageId]
        exact ⟨trivial, trivial⟩
      | internal nd =>
        rw [hx] at hc
        have hc1 : nodes1 c = some (.internal { nd with parent_page_id_ := par1 }) := hc
        rw [pagesOf_succ nodes h c nd hx] at hnd hfr
        obtain ⟨hcn, -⟩ := List.nodup_cons.1 hnd
        have hkid : ∀ e ∈ nd.entries, ∀ p ∈ pagesOf nodes h e.2, nodes1 p = nodes p := by
          intro e he p hp
          have hp1 : p ∈ nd.entries.flatMap (fun e => pagesOf nodes h e.2) :=
            List.mem_flatMap.2 ⟨e, he, hp⟩
          apply hfr p (List.mem_cons_of_mem _ hp1)
          intro h0; rw [h0] at hp1; exact hcn hp1
        constructor
        · rw [pagesOf_succ nodes1 h c _ hc1, pagesOf_succ nodes h c nd hx]
          congr 1
          exact List.flatMap_congr (fun x hx => (frame_sub nodes nodes1 h x.2 (hkid x hx)).1)
        · rw [entriesOf_succ nodes1 h c _ hc1, entriesOf_succ nodes h c nd hx]
          exact List.flatMap_congr (fun x hx => (frame_sub nodes nodes1 h x.2 (hkid x hx)).2.1)

theorem Split_internal (nodesv nodes3 : Int → Option BPTreePage) (j : Nat)
    (P plo phi P1 : Int) (ndv : BPTreeInternalPage) (L R1 : List (Int × Int)) (push c0 : Int)
    (hnv : nodesv P = some (.internal ndv))
    (hE : ndv.entries = L ++ (push, c0) :: R1) (hL : L ≠ [])
    (hnd : (pagesOf nodesv (j + 1) P).Nodup)
    (hfresh : P1 ∉ pagesOf nodesv (j + 1) P)
    (h3P : nodes3 P = some (.internal { ndv with entries := L }))
    (h3P1 : nodes3 P1 = some (.internal (BPTreeInternalPage.mk P1 ndv.parent_page_id_
      ndv.max_size_ ((push, c0) :: R1))))
    (h3c : ∀ x, x ≠ P → x ≠ P1 → nodes3 x =
      if x ∈ ((push, c0) :: R1).map Prod.snd then
        (nodesv x).map (fun y => y.SetParentPageId P1) else nodesv x) :
    Split nodesv nodes3 [P1] ⟨j + 1, P, plo, phi⟩ push P1 ∧
    entriesOf nodes3 (j + 1) P ++ entriesOf nodes3 (j + 1) P1 = entriesOf nodesv (j + 1) P ∧
    (∀ key rid, HasEntry nodesv ⟨j + 1, P, plo, phi⟩ key rid →
      HasEntry nodes3 ⟨j + 1, P, plo, push⟩ key rid ∨
      HasEntry nodes3 ⟨j + 1, P1, push, phi⟩ key rid) ∧
    (∀ x ∈ pagesOf nodes3 (j + 1) P ++ pagesOf nodes3 (j + 1) P1, x = P ∨ x = P1 ∨
      (x ∈ pagesOf nodesv (j + 1) P ∧ x ≠ P ∧ SameKids (nodesv x) (nodes3 x))) ∧
    (∀ x ∈ pagesOf nodesv (j + 1) P,
      x ∈ pagesOf nodes3 (j + 1) P ++ pagesOf nodes3 (j + 1) P1) := by
  -- old pages
  have hpg : pagesOf nodesv (j + 1) P = P :: (L.flatMap (fun e => pagesOf nodesv j e.2) ++
      ((push, c0) :: R1).flatMap (fun e => pagesOf nodesv j e.2)) := by
    rw [pagesOf_succ nodesv j P ndv hnv, hE, List.flatMap_append]
  have hnd0 := hnd
  rw [hpg] at hnd hfresh
  obtain ⟨n1, n2⟩ := List.nodup_cons.1 hnd
  rw [List.nodup_append] at n2
  obtain ⟨n3, n4, n5⟩ := n2
  simp only [List.mem_cons, List.mem_append, not_or] at hfresh
  obtain ⟨f1, f2, f3⟩ := hfresh
  have hselfR : ∀ e ∈ (push, c0) :: R1,
      e.2 ∈ ((push, c0) :: R1).flatMap (fun e => pagesOf nodesv j e.2) :=
    fun e he => List.mem_flatMap.2 ⟨e, he, mem_pagesOf_self nodesv j e.2⟩
  -- the subtrees of the children that stay
  have hLag : ∀ e ∈ L, ∀ x ∈ pagesOf nodesv j e.2, nodes3 x = nodesv x := by
    intro e he x hx
    have hxL : x ∈ L.flatMap (fun e => pagesOf nodesv j e.2) := List.mem_flatMap.2 ⟨e, he, hx⟩
    rw [h3c x (fun h => n1 (by rw [← h]; exact List.mem_append_left _ hxL))
      (fun h => f2 (by rw [← h]; exact hxL))]
    rw [if_neg]
    intro hmem
    obtain ⟨e2, he2, heq⟩ := List.mem_map.1 hmem
    have := hselfR e2 he2
    rw [heq] at this
    exact n5 hxL this
  -- the subtrees of the children that move
  have hRroot : ∀ e ∈ (push, c0) :: R1,
      nodes3 e.2 = (nodesv e.2).map (fun y => y.SetParentPageId P1) := by
    intro e he
    have hs := hselfR e he
    rw [h3c e.2 (fun h => n1 (by rw [← h]; exact List.mem_append_right _ hs))
      (fun h => f3 (by rw [← h]; exact hs))]
    rw [if_pos (List.mem_map.2 ⟨e, he, rfl⟩)]
  have hRag : ∀ e ∈ (push, c0) :: R1, ∀ x ∈ pagesOf nodesv j e.2, x ≠ e.2 →
      nodes3 x = nodesv x := by
    intro e he x hx hne
    have hxR : x ∈ ((push, c0) :: R1).flatMap (fun e => pagesOf nodesv j e.2) :=
      List.mem_flatMap.2 ⟨e, he, hx⟩
    rw [h3c x (fun h => n1 (by rw [← h]; exact List.mem_append_right _ hxR))
      (fun h => f3 (by rw [← h]; exact hxR))]
    rw [if_neg]
    intro hmem
    obtain ⟨e2, he2, heq⟩ := List.mem_map.1 hmem
    have h1 : x ∈ pagesOf nodesv j e2.2 := by rw [heq]; exact mem_pagesOf_self nodesv j x
    have := kids_disjoint nodesv j _ n4 e e2 he he2 x hx h1
    rw [this] at hne
    exact hne heq.symm
  have hRnd : ∀ e ∈ (push, c0) :: R1, (pagesOf nodesv j e.2).Nodup := by
    intro e he
    rw [List.nodup_flatMap] at n4
    exact n4.1 e he
  have hLpg : L.flatMap (fun e => pagesOf nodes3 j e.2) =
      L.flatMap (fun e => pagesOf nodesv j e.2) :=
    List.flatMap_congr (fun e he => (frame_sub nodesv nodes3 j e.2 (hLag e he)).1)
  have hLen : L.flatMap (fun e => entriesOf nodes3 j e.2) =
      L.flatMap (fun e => entriesOf nodesv j e.2) :=
    List.flatMap_congr (fun e he => (frame_sub nodesv nodes3 j e.2 (hLag e he)).2.1)
  have hRset : ∀ e ∈ (push, c0) :: R1, ∀ par l u f n, WFSub nodesv j e.2 par l u f n →
      WFSub nodes3 j e.2 P1 l u f n := by
    intro e he par l u f n hw
    exact (WFSub_setParent nodesv nodes3 j e.2 par P1 l u f n hw (hRnd e he) (hRroot e he)
      (hRag e he)).1
  have hRpg : ((push, c0) :: R1).flatMap (fun e => pagesOf nodes3 j e.2) =
      ((push, c0) :: R1).flatMap (fun e => pagesOf nodesv j e.2) :=
    List.flatMap_congr (fun e he =>
      (pagesOf_setParent nodesv nodes3 j e.2 P1 (hRnd e he) (hRroot e he) (hRag e he)).1)
  have hRen : ((push, c0) :: R1).flatMap (fun e => entriesOf nodes3 j e.2) =
      ((push, c0) :: R1).flatMap (fun e => entriesOf nodesv j e.2) :=
    List.flatMap_congr (fun e he =>
      (pagesOf_setParent nodesv nodes3 j e.2 P1 (hRnd e he) (hRroot e he) (hRag e he)).2)
  have hpg3 : pagesOf nodes3 (j + 1) P = P :: L.flatMap (fun e => pagesOf nodesv j e.2) := by
    rw [pagesOf_succ nodes3 j P _ h3P, hLpg]
  have hpg31 : pagesOf nodes3 (j + 1) P1 =
      P1 :: ((push, c0) :: R1).flatMap (fun e => pagesOf nodesv j e.2) := by
    rw [pagesOf_succ nodes3 j P1 _ h3P1, hRpg]
  -- every old page below the node keeps its kind and entries
  have hsame : ∀ x ∈ pagesOf nodesv (j + 1) P, x ≠ P → SameKids (nodesv x) (nodes3 x) := by
    intro x hx hxP
    have hx1 : x ≠ P1 := by
      intro h; rw [h, hpg] at hx
      simp only [List.mem_cons, List.mem_append] at hx
      rcases hx with h | h | h
      · exact f1 h
      · exact f2 h
      · exact f3 h
    rw [h3c x hxP hx1]
    split
    · exact SameKids_setParent _ _
    · exact SameKids_of_eq _ _ rfl
  refine ⟨⟨?_, ?_, ?_, ?_⟩, ?_, ?_, ?_, ?_⟩
  rotate_left 7
  · intro x hx
    rw [hpg] at hx
    rw [hpg3, hpg31]
    simp only [List.mem_cons, List.mem_append] at hx ⊢
    rcases hx with h | h | h
    · exact Or.inl (Or.inl h)
    · exact Or.inl (Or.inr h)
    · exact Or.inr (Or.inr h)
  · -- wf
    intro par f n hw
    obtain ⟨nd2, a1, a2, a3, a4, hk⟩ := hw
    rw [hnv] at a1
    cases a1
    rw [KidsOK_iff_setHeadKey, hE, setHeadKey_append plo L _ hL] at hk
    obtain ⟨m, k1, k2⟩ := (KidsSeg_append _ _ _ _ _).1 hk.2
    refine ⟨m, ⟨_, h3P, a2, a3, a4, ?_⟩, ⟨_, h3P1, rfl, a3, a4, ?_⟩⟩
    · rw [KidsOK_iff_setHeadKey]
      refine ⟨hL, ?_⟩
      apply KidsSeg_imp _ _ _ _ _ k1
      intro e he l u f n hh
      have he1 : e ∈ L ∨ ∃ e0 ∈ L, e.2 = e0.2 := by
        cases L with
        | nil => exact absurd rfl hL
        | cons a L =>
          simp only [setHeadKey, List.mem_cons] at he
          rcases he with h | h
          · exact Or.inr ⟨a, List.mem_cons_self _ _, by rw [h]⟩
          · exact Or.inl (List.mem_cons_of_mem _ h)
      rcases he1 with h | ⟨e0, h, heq⟩
      · exact (frame_sub nodesv nodes3 j e.2 (hLag e h)).2.2.2 _ _ _ _ _ hh
      · rw [heq] at hh ⊢
        exact (frame_sub nodesv nodes3 j e0.2 (hLag e0 h)).2.2.2 _ _ _ _ _ hh
    · rw [KidsOK_iff_setHeadKey]
      refine ⟨by simp, ?_⟩
      apply KidsSeg_imp _ _ _ _ _ k2
      intro e he l u f n hh
      exact hRset e he _ _ _ _ _ hh
  · -- pages
    intro x hx
    change x ∈ pagesOf nodes3 (j + 1) P ++ pagesOf nodes3 (j + 1) P1 at hx
    change x ∈ pagesOf nodesv (j + 1) P ∨ x ∈ [P1]
    rw [hpg3, hpg31] at hx
    rw [hpg]
    simp only [List.mem_cons, List.mem_append, List.mem_singleton] at hx ⊢
    rcases hx with (h | h) | h | h
    · exact Or.inl (Or.inl h)
    · exact Or.inl (Or.inr (Or.inl h))
    · exact Or.inr (Or.inl h)
    · exact Or.inl (Or.inr (Or.inr h))
  · -- nodup
    change (pagesOf nodes3 (j + 1) P ++ pagesOf nodes3 (j + 1) P1).Nodup
    rw [hpg3, hpg31, List.nodup_append]
    refine ⟨List.nodup_cons.2 ⟨fun h => n1 (List.mem_append_left _ h), n3⟩,
      List.nodup_cons.2 ⟨f3, n4⟩, ?_⟩
    intro x hx hx2
    simp only [List.mem_cons] at hx hx2
    rcases hx with h | h
    · rcases hx2 with h2 | h2
      · exact f1 (h2.symm.trans h)
      · rw [h] at h2; exact n1 (List.mem_append_right _ h2)
    · rcases hx2 with h2 | h2
      · rw [h2] at h; exact f2 h
      · exact n5 h h2
  · -- frame
    intro x hx hx1
    change x ∉ pagesOf nodesv (j + 1) P at hx
    rw [hpg] at hx
    simp only [List.mem_cons, List.mem_append, not_or, List.mem_singleton] at hx hx1
    rw [h3c x hx.1 hx1.1, if_neg]
    intro hmem
    obtain ⟨e2, he2, heq⟩ := List.mem_map.1 hmem
    have := hselfR e2 he2
    rw [heq] at this
    exact hx.2.2 this
  · rw [entriesOf_succ nodes3 j P _ h3P, entriesOf_succ nodes3 j P1 _ h3P1,
      entriesOf_succ nodesv j P ndv hnv, hE, List.flatMap_append, hLen, hRen]
  · -- the entry stays reachable
    intro key rid he
    obtain ⟨b, hab, hb⟩ := HasEntry_child nodesv _ key rid (by simp) he
    obtain ⟨nd2, hh, hn2, hm⟩ := hab
    simp only at hh hn2 hm
    rw [hnv] at hn2
    cases hn2
    have hbj : b.h = j := by omega
    have hbsub : (pagesOf nodesv b.h b.pid).Sublist (pagesOf nodesv (j + 1) P) :=
      ChildStep_sublist nodesv ⟨j + 1, P, plo, phi⟩ b ⟨ndv, hh, hnv, hm⟩
    have hbP : ∀ x ∈ pagesOf nodesv b.h b.pid, x ≠ P := by
      intro x hx h0
      obtain ⟨e, he, heq⟩ := mem_kidBounds_child _ _ _ _ hm
      simp only at heq
      rw [hbj, ← heq] at hx
      rw [pagesOf_succ nodesv j P ndv hnv] at hnd0
      apply (List.nodup_cons.1 hnd0).1
      rw [← h0]
      exact List.mem_flatMap.2 ⟨e, he, hx⟩
    have hb3 : HasEntry nodes3 b key rid :=
      HasEntry_frame nodesv nodes3 b key rid
        (fun x hx => hsame x (hbsub.subset hx) (hbP x hx)) hb
    rw [kidBounds_eq_segBounds, hE, setHeadKey_append plo L _ hL, segBounds_append] at hm
    rcases List.mem_append.1 hm with h | h
    · left
      refine HasEntry_of_Site nodes3 _ b key rid (Relation.ReflTransGen.single ?_) hb3
      refine ⟨_, hh, h3P, ?_⟩
      rw [kidBounds_eq_segBounds]
      exact h
    · right
      refine HasEntry_of_Site nodes3 _ b key rid (Relation.ReflTransGen.single ?_) hb3
      refine ⟨_, hh, h3P1, ?_⟩
      rw [kidBounds_eq_segBounds]
      exact h
  · intro x hx
    rw [hpg3, hpg31] at hx
    simp only [List.mem_cons, List.mem_append] at hx
    have key : ∀ y, y ∈ L.flatMap (fun e => pagesOf nodesv j e.2) ∨
        y ∈ ((push, c0) :: R1).flatMap (fun e => pagesOf nodesv j e.2) →
        y ∈ pagesOf nodesv (j + 1) P ∧ y ≠ P ∧ SameKids (nodesv y) (nodes3 y) := by
      intro y hy
      have hy1 : y ∈ pagesOf nodesv (j + 1) P := by
        rw [hpg]; exact List.mem_cons_of_mem _ (List.mem_append.2 hy)
      have hy2 : y ≠ P := by
        intro h0; rw [h0] at hy; exact n1 (List.mem_append.2 hy)
      exact ⟨hy1, hy2, hsame y hy1 hy2⟩
    rcases hx with (h | h) | h | h
    · exact Or.inl h
    · exact Or.inr (Or.inr (key x (Or.inl h)))
    · exact Or.inr (Or.inl h)
    · exact Or.inr (Or.inr (key x (Or.inr h)))

/-! ## B+tree: a new root above two subtrees -/

theorem Repl_Split_trans (n0 n1 n2 : Int → Option BPTreePage) (F F1 : List Int) (q : Pos)
    (key X1 : Int) (hr : Repl n0 n1 F q) (hs : Split n1 n2 F1 q key X1) :
    Split n0 n2 (F ++ F1) q key X1 := by
  refine ⟨?_, ?_, hs.nodup, ?_⟩
  · intro par f n hw
    exact hs.wf par f n (hr.wf par f n hw)
  · intro x hx
    rcases hs.pages x hx with h | h
    · rcases hr.pages x h with h1 | h1
      · exact Or.inl h1
      · exact Or.inr (List.mem_append_left _ h1)
    · exact Or.inr (List.mem_append_right _ h)
  · intro x hx hxF
    simp only [List.mem_append, not_or] at hxF
    rw [hs.frame x ?_ hxF.2, hr.frame x hx hxF.1]
    intro h
    rcases hr.pages x h with h1 | h1
    · exact hx h1
    · exact hxF.1 h1

theorem WFSub_node (nodes : Int → Option BPTreePage) (h : Nat) (pid par lo hi f n : Int)
    (hw : WFSub nodes h pid par lo hi f n) :
    ∃ x, nodes pid = some x ∧ x.GetParentPageId = par ∧ x.GetPageId = pid ∧ x.GetMaxSize = 4 ∧
      (x.IsLeaf = true ↔ h = 0) := by
  cases h with
  | zero =>
    obtain ⟨l, a1, a2, a3, a4, -⟩ := hw
    exact ⟨_, a1, a3, a2, a4, by simp [BPTreePage.IsLeaf]⟩
  | succ h =>
    obtain ⟨nd, a1, a2, a3, a4, -⟩ := hw
    exact ⟨_, a1, a3, a2, a4, by simp [BPTreePage.IsLeaf]⟩

/-- In a well-formed subtree the parent pointer of the top page is the parent
given to the subtree, and the parent pointer of every page is a page of the
subtree otherwise. -/
theorem WFSub_parent_in (nodes : Int → Option BPTreePage) :
    ∀ (h : Nat) (pid par lo hi f n : Int), WFSub nodes h pid par lo hi f n →
      ∀ y ∈ pagesOf nodes h pid, ∀ x, nodes y = some x →
        (y = pid ∧ x.GetParentPageId = par) ∨ x.GetParentPageId ∈ pagesOf nodes h pid := by
  intro h
  induction h with
  | zero =>
    intro pid par lo hi f n hw y hy x hx
    obtain ⟨l, a1, a2, a3, -⟩ := hw
    simp only [pagesOf, List.mem_singleton] at hy
    rw [hy, a1] at hx
    cases hx
    exact Or.inl ⟨hy, a3⟩
  | succ h ih =>
    intro pid par lo hi f n hw y hy x hx
    obtain ⟨nd, a1, a2, a3, a4, hk⟩ := hw
    rw [pagesOf_succ nodes h pid nd a1] at hy ⊢
    rcases List.mem_cons.1 hy with h0 | h0
    · rw [h0, a1] at hx
      cases hx
      exact Or.inl ⟨h0, a3⟩
    · obtain ⟨e, he, hye⟩ := List.mem_flatMap.1 h0
      have hc : e.2 ∈ nd.entries.map Prod.snd := List.mem_map.2 ⟨e, he, rfl⟩
      rw [← kidBounds_map_fst lo hi nd.entries] at hc
      obtain ⟨kb, hkb, hkbe⟩ := List.mem_map.1 hc
      obtain ⟨f1, n1, hwc⟩ := KidsOK_child nd.entries lo hi f n hk kb hkb
      rw [hkbe] at hwc
      right
      rcases ih e.2 pid kb.2.1 kb.2.2 f1 n1 hwc y hye x hx with ⟨-, h1⟩ | h1
      · rw [h1]; exact List.mem_cons_self _ _
      · exact List.mem_cons_of_mem _ (List.mem_flatMap.2 ⟨e, he, h1⟩)

/-- A page of a well-formed subtree other than its top has a parent pointer
different from `INVALID_PAGE_ID` when the pages of the subtree are valid. -/
theorem WFSub_parent_ne (nodes : Int → Option BPTreePage) (h : Nat) (pid par lo hi f n : Int)
    (hw : WFSub nodes h pid par lo hi f n) (hr : ∀ y ∈ pagesOf nodes h pid, 1 ≤ y)
    (y : Int) (hy : y ∈ pagesOf nodes h pid) (hne : y ≠ pid ∨ par ≠ INVALID_PAGE_ID)
    (x : BPTreePage) (hx : nodes y = some x) : x.GetParentPageId ≠ INVALID_PAGE_ID := by
  rcases WFSub_parent_in nodes h pid par lo hi f n hw y hy x hx with ⟨h1, h2⟩ | h1
  · rcases hne with h3 | h3
    · exact absurd h1 h3
    · rw [h2]; exact h3
  · have := hr _ h1
    intro h0
    rw [h0] at this
    unfold INVALID_PAGE_ID at this
    omega

theorem Filled_of_SameKids (a b : Option BPTreePage) (hs : SameKids a b)
    (hf : ∀ x, a = some x → x.Filled)
    (hpar : ∀ l, a = some (.leaf l) → l.parent_page_id_ ≠ INVALID_PAGE_ID) :
    ∀ y, b = some y → y.Filled := by
  intro y hy
  cases ha : a with
  | none => rw [hs.2.2 ha] at hy; cases hy
  | some x =>
    have hfx := hf x ha
    cases x with
    | leaf l =>
      obtain ⟨l1, h1, h2⟩ := hs.2.1 l ha
      rw [h1] at hy
      cases hy
      show l1.entries.length ≤ 4 ∧ 1 ≤ l1.entries.length ∧
        (l1.parent_page_id_ ≠ INVALID_PAGE_ID → 2 ≤ l1.entries.length)
      rw [h2]
      exact ⟨hfx.1, hfx.2.1, fun _ => hfx.2.2 (hpar l ha)⟩
    | internal nd =>
      obtain ⟨nd1, h1, h2⟩ := hs.1 nd ha
      rw [h1] at hy
      cases hy
      show 2 ≤ nd1.entries.length
      rw [h2]; exact hfx

theorem Filled_setParent (x : BPTreePage) (hf : x.Filled) :
    (x.SetParentPageId INVALID_PAGE_ID).Filled := by
  cases x with
  | leaf l => exact ⟨hf.1, hf.2.1, fun h => absurd rfl h⟩
  | internal n => exact hf

theorem Filled_setParent_big (x : BPTreePage) (p : Int) (hf : x.Filled)
    (hb : 2 ≤ x.GetSize) : (x.SetParentPageId p).Filled := by
  cases x with
  | leaf l => exact ⟨hf.1, hf.2.1, fun _ => hb⟩
  | internal n => exact hf

theorem Filled_leaf_of_size (l : BPTreeLeafPage) (h2 : 2 ≤ l.entries.length)
    (h4 : l.entries.length ≤ 4) : (BPTreePage.leaf l).Filled :=
  ⟨h4, by omega, fun _ => h2⟩

theorem NewRoot_tree (t : BPTreeIndex) (fl : List Int) (h : Nat) (X key X1 lo hi f m : Int)
    (ha : t.AllocOK fl) (himax : t.header.internal_max_size_ = 4)
    (hheight : t.header.tree_height_ = (h : Int) + 1)
    (hwX : WFSub t.nodes h X INVALID_PAGE_ID lo key f m)
    (hwX1 : WFSub t.nodes h X1 INVALID_PAGE_ID key hi m INVALID_PAGE_ID)
    (hnd : (pagesOf t.nodes h X ++ pagesOf t.nodes h X1).Nodup)
    (hrange : ∀ x ∈ pagesOf t.nodes h X ++ pagesOf t.nodes h X1,
      1 ≤ x ∧ x < t.header.page_num_ ∧ x ∉ fl ∧ ∀ y, t.nodes x = some y → y.Filled)
    (hbig : ∀ y, t.nodes X = some y ∨ t.nodes X1 = some y → 2 ≤ y.GetSize) :
    ∃ t1 fl1, t.InsertIntoNewRoot X key X1 = some t1 ∧ t1.AllocOK fl1 ∧ (∀ p ∈ fl1, p ∈ fl) ∧
      t1.TreeOK none fl1 (h + 1) ∧
      WFSub t1.nodes (h + 1) t1.header.root_page_id_ INVALID_PAGE_ID lo hi f INVALID_PAGE_ID ∧
      entriesOf t1.nodes (h + 1) t1.header.root_page_id_ =
        entriesOf t.nodes h X ++ entriesOf t.nodes h X1 ∧
      (∀ k r, HasEntry t.nodes ⟨h, X, lo, key⟩ k r ∨ HasEntry t.nodes ⟨h, X1, key, hi⟩ k r →
        HasEntry t1.nodes ⟨h + 1, t1.header.root_page_id_, lo, hi⟩ k r) ∧
      t1.header.leaf_max_size_ = t.header.leaf_max_size_ ∧
      t1.header.internal_max_size_ = t.header.internal_max_size_ ∧
      t1.header.num_entries_ = t.header.num_entries_ ∧
      ((∀ p, 1 ≤ p → p < t.header.page_num_ →
          p ∈ pagesOf t.nodes h X ++ pagesOf t.nodes h X1 ∨ p ∈ fl) →
        ∀ p, 1 ≤ p → p < t1.header.page_num_ →
          p ∈ pagesOf t1.nodes (h + 1) t1.header.root_page_id_ ∨ p ∈ fl1) := by
  obtain ⟨fl1, b1, b2, b3, b4, b5, b6, b7⟩ := NewPage_alloc t fl ha
  have hacct := NewPage_acct t fl fl1 ha b1
  obtain ⟨c1, c2, c3, c4, c5⟩ := NewPage_header t
  have hnn := NewPage_nodes t
  have hnf := NewPage_next_free t
  rw [List.nodup_append] at hnd
  obtain ⟨d1, d2, d3⟩ := hnd
  have hXs := mem_pagesOf_self t.nodes h X
  have hX1s := mem_pagesOf_self t.nodes h X1
  have hXX1 : X ≠ X1 := fun h0 => d3 hXs (by rw [h0]; exact hX1s)
  have hR : ∀ x ∈ pagesOf t.nodes h X ++ pagesOf t.nodes h X1, x ≠ t.NewPage.1 := by
    intro x hx h0
    have := hrange x hx
    rw [h0] at this
    rcases b5 with h1 | h1
    · exact this.2.2.1 h1
    · omega
  have hRX : X ≠ t.NewPage.1 := hR X (List.mem_append_left _ hXs)
  have hRX1 : X1 ≠ t.NewPage.1 := hR X1 (List.mem_append_right _ hX1s)
  obtain ⟨x, hx1, -⟩ := WFSub_node _ _ _ _ _ _ _ _ hwX
  obtain ⟨x1, hx2, -⟩ := WFSub_node _ _ _ _ _ _ _ _ hwX1
  -- the state after the call
  let rootnode : BPTreeInternalPage :=
    (BPTreeInternalPage.Init t.NewPage.1 INVALID_PAGE_ID
      t.NewPage.2.header.internal_max_size_).PopulateNewRoot X key X1
  let t2 : BPTreeIndex := { t.NewPage.2 with header := { t.NewPage.2.header with
    root_page_id_ := t.NewPage.1, tree_height_ := t.NewPage.2.header.tree_height_ + 1 } }
  let t3 := t2.setNode t.NewPage.1 (.internal rootnode)
  have h3X : t3.nodes X = some x := by
    show Function.update t.NewPage.2.nodes t.NewPage.1 _ X = some x
    rw [Function.update_noteq hRX, hnn, hx1]
  let t4 := t3.setNode X (x.SetParentPageId t.NewPage.1)
  have h4X1 : t4.nodes X1 = some x1 := by
    show Function.update (Function.update t.NewPage.2.nodes t.NewPage.1 _) X _ X1 = some x1
    rw [Function.update_noteq hXX1.symm, Function.update_noteq hRX1, hnn, hx2]
  let t5 := t4.setNode X1 (x1.SetParentPageId t.NewPage.1)
  have hres : t.InsertIntoNewRoot X key X1 = some t5 := by
    unfold BPTreeIndex.InsertIntoNewRoot
    simp only []
    rw [setParent_spec t3 X t.NewPage.1 x h3X]
    simp only []
    rw [setParent_spec t4 X1 t.NewPage.1 x1 h4X1]
  have hn5 : ∀ p, t5.nodes p = if p = X1 then some (x1.SetParentPageId t.NewPage.1)
      else if p = X then some (x.SetParentPageId t.NewPage.1)
      else if p = t.NewPage.1 then some (.internal rootnode) else t.nodes p := by
    intro p
    show ((t3.setNode X (x.SetParentPageId t.NewPage.1)).setNode X1
      (x1.SetParentPageId t.NewPage.1)).nodes p = _
    rw [nodes_setNode, nodes_setNode]
    show (if p = X1 then _ else if p = X then _ else
      (t2.setNode t.NewPage.1 (.internal rootnode)).nodes p) = _
    rw [nodes_setNode]
    show (if p = X1 then _ else if p = X then _ else
      if p = t.NewPage.1 then _ else t.NewPage.2.nodes p) = _
    rw [hnn]
  have h5R : t5.nodes t.NewPage.1 = some (.internal rootnode) := by
    rw [hn5, if_neg hRX1.symm, if_neg hRX.symm, if_pos rfl]
  have hagX : ∀ p ∈ pagesOf t.nodes h X, p ≠ X → t5.nodes p = t.nodes p := by
    intro p hp hne
    rw [hn5, if_neg (fun h0 => d3 hp (by rw [h0]; exact hX1s)), if_neg hne,
      if_neg (hR p (List.mem_append_left _ hp))]
  have hagX1 : ∀ p ∈ pagesOf t.nodes h X1, p ≠ X1 → t5.nodes p = t.nodes p := by
    intro p hp hne
    rw [hn5, if_neg hne, if_neg (fun h0 => d3 (by rw [h0] at hp; exact hXs) (by rw [← h0]; exact hp)),
      if_neg (hR p (List.mem_append_right _ hp))]
  have h5X : t5.nodes X = (t.nodes X).map (fun y => y.SetParentPageId t.NewPage.1) := by
    rw [hn5, if_neg hXX1, if_pos rfl, hx1]; rfl
  have h5X1 : t5.nodes X1 = (t.nodes X1).map (fun y => y.SetParentPageId t.NewPage.1) := by
    rw [hn5, if_pos rfl, hx2]; rfl
  have sX := WFSub_setParent t.nodes t5.nodes h X _ t.NewPage.1 _ _ _ _ hwX d1 h5X hagX
  have sX1 := WFSub_setParent t.nodes t5.nodes h X1 _ t.NewPage.1 _ _ _ _ hwX1 d2 h5X1 hagX1
  have hsame : ∀ p ∈ pagesOf t.nodes h X ++ pagesOf t.nodes h X1,
      SameKids (t.nodes p) (t5.nodes p) := by
    intro p hp
    by_cases h1 : p = X1
    · rw [h1, h5X1]; exact SameKids_setParent _ _
    · by_cases h2 : p = X
      · rw [h2, h5X]; exact SameKids_setParent _ _
      · rw [hn5, if_neg h1, if_neg h2, if_neg (hR p hp)]
        exact SameKids_of_eq _ _ rfl
  have hpg5 : pagesOf t5.nodes (h + 1) t.NewPage.1 =
      t.NewPage.1 :: (pagesOf t.nodes h X ++ pagesOf t.nodes h X1) := by
    rw [pagesOf_succ t5.nodes h _ _ h5R]
    show _ :: ([(0, X), (key, X1)].flatMap fun e => pagesOf t5.nodes h e.2) = _
    simp only [List.flatMap_cons, List.flatMap_nil, List.append_nil, sX.2.1, sX1.2.1]
  have hw5 : WFSub t5.nodes (h + 1) t.NewPage.1 INVALID_PAGE_ID lo hi f INVALID_PAGE_ID := by
    refine ⟨rootnode, h5R, rfl, rfl, ?_, ?_⟩
    · show t.NewPage.2.header.internal_max_size_ = 4
      rw [c5, himax]
    · exact ⟨m, sX.1, sX1.1⟩
  refine ⟨t5, fl1, hres, b1, b6, ⟨?_, ?_, ⟨lo, hi, f, hw5⟩, ?_, ?_⟩, hw5, ?_, ?_, c4, c5, c3,
    ?_⟩
  rotate_left 6
  · intro hc p hp1 hp2
    change p < t.NewPage.2.header.page_num_ at hp2
    change p ∈ pagesOf t5.nodes (h + 1) t.NewPage.1 ∨ p ∈ fl1
    rw [hpg5]
    by_cases hlt : p < t.header.page_num_
    · rcases hc p hp1 hlt with h0 | h0
      · exact Or.inl (List.mem_cons_of_mem _ h0)
      · rcases hacct p (Or.inl h0) with h1 | h1
        · exact Or.inr h1
        · rw [h1]; exact Or.inl (List.mem_cons_self _ _)
    · rcases hacct p (Or.inr ⟨by omega, hp2⟩) with h1 | h1
      · exact Or.inr h1
      · rw [h1]; exact Or.inl (List.mem_cons_self _ _)
  · show t.NewPage.1 ≠ INVALID_PAGE_ID
    unfold INVALID_PAGE_ID; omega
  · show t.NewPage.2.header.tree_height_ + 1 = ((h + 1 : Nat) : Int) + 1
    rw [c2, hheight]; push_cast; rfl
  · show (pagesOf t5.nodes (h + 1) t.NewPage.1).Nodup
    rw [hpg5, List.nodup_cons, List.nodup_append]
    exact ⟨fun h0 => hR _ h0 rfl, d1, d2, d3⟩
  · intro p hp
    change p ∈ pagesOf t5.nodes (h + 1) t.NewPage.1 at hp
    rw [hpg5] at hp
    rcases List.mem_cons.1 hp with h0 | h0
    · rw [h0]
      refine ⟨b2, b3, b4, ?_⟩
      intro y hy _
      rw [h5R] at hy
      cases hy
      show 2 ≤ [(0, X), (key, X1)].length
      simp
    · have hr0 := hrange p h0
      refine ⟨hr0.1, lt_of_lt_of_le hr0.2.1 b7, fun h1 => hr0.2.2.1 (b6 p h1), ?_⟩
      intro y hy _
      by_cases h1 : p = X1
      · rw [h1, hn5, if_pos rfl] at hy
        cases hy
        exact Filled_setParent_big x1 _
          ((hrange X1 (List.mem_append_right _ hX1s)).2.2.2 x1 hx2) (hbig x1 (Or.inr hx2))
      · by_cases h2 : p = X
        · rw [h2, hn5, if_neg hXX1, if_pos rfl] at hy
          cases hy
          exact Filled_setParent_big x _
            ((hrange X (List.mem_append_left _ hXs)).2.2.2 x hx1) (hbig x (Or.inl hx1))
        · rw [hn5, if_neg h1, if_neg h2, if_neg (hR p h0)] at hy
          exact hr0.2.2.2 y hy
  · show entriesOf t5.nodes (h + 1) t.NewPage.1 = _
    rw [entriesOf_succ t5.nodes h _ _ h5R]
    show ([(0, X), (key, X1)].flatMap fun e => entriesOf t5.nodes h e.2) = _
    simp only [List.flatMap_cons, List.flatMap_nil, List.append_nil, sX.2.2, sX1.2.2]
  · intro k r hk
    show HasEntry t5.nodes ⟨h + 1, t.NewPage.1, lo, hi⟩ k r
    rcases hk with hk | hk
    · have h1 := HasEntry_frame t.nodes t5.nodes _ k r
        (fun p hp => hsame p (List.mem_append_left _ hp)) hk
      refine HasEntry_of_Site t5.nodes _ _ k r (Relation.ReflTransGen.single ?_) h1
      exact ⟨rootnode, rfl, h5R, by simp [rootnode, BPTreeInternalPage.PopulateNewRoot,
        BPTreeInternalPage.Init, kidBounds]⟩
    · have h1 := HasEntry_frame t.nodes t5.nodes _ k r
        (fun p hp => hsame p (List.mem_append_right _ hp)) hk
      refine HasEntry_of_Site t5.nodes _ _ k r (Relation.ReflTransGen.single ?_) h1
      exact ⟨rootnode, rfl, h5R, by simp [rootnode, BPTreeInternalPage.PopulateNewRoot,
        BPTreeInternalPage.Init, kidBounds]⟩

/-! ## B+tree: the state with the new sibling linked in -/

theorem TreeOK_page (t : BPTreeIndex) (fl : List Int) (h : Nat) (hT : t.TreeOK none fl h)
    (p : Int) (hp : p ∈ pagesOf t.nodes h t.header.root_page_id_) :
    1 ≤ p ∧ p < t.header.page_num_ ∧ p ∉ fl ∧ ∀ x, t.nodes p = some x → x.Filled := by
  have := hT.2.2.2.2 p hp
  exact ⟨this.1, this.2.1, this.2.2.1, fun x hx => this.2.2.2 x hx (by simp)⟩

theorem Link_state (t0 t : BPTreeIndex) (fl0 fl : List Int) (h : Nat) (lo hi f : Int)
    (k : Int) (r : RID) (hT0 : t0.TreeOK none fl0 h)
    (hw0 : WFSub t0.nodes h t0.header.root_page_id_ INVALID_PAGE_ID lo hi f INVALID_PAGE_ID)
    (j : Nat) (P plo phi X qlo qhi : Int) (F : List Int) (key X1 : Int)
    (hsp : Site t0.nodes ⟨h, t0.header.root_page_id_, lo, hi⟩ ⟨j + 1, P, plo, phi⟩)
    (hpq : ChildStep t0.nodes ⟨j + 1, P, plo, phi⟩ ⟨j, X, qlo, qhi⟩)
    (hst : SplitState t0 t fl0 fl h ⟨j, X, qlo, qhi⟩ F key X1 k r) :
    ∃ nd, t0.nodes P = some (.internal nd) ∧ t.nodes P = some (.internal nd) ∧
      (∃ x, t.nodes X = some x ∧ x.GetParentPageId = P) ∧ P ≠ INVALID_PAGE_ID ∧
      nd.max_size_ = 4 ∧ 1 ≤ nd.entries.length ∧
      (nd.InsertNodeAfter X key X1).entries.length = nd.entries.length + 1 ∧
      Repl t0.nodes (t.setNode P (.internal (nd.InsertNodeAfter X key X1))).nodes F
        ⟨j + 1, P, plo, phi⟩ ∧
      (∃ A B, entriesOf t0.nodes (j + 1) P = A ++ B ∧
        entriesOf (t.setNode P (.internal (nd.InsertNodeAfter X key X1))).nodes (j + 1) P =
          A ++ (k, r) :: B) ∧
      HasEntry (t.setNode P (.internal (nd.InsertNodeAfter X key X1))).nodes
        ⟨j + 1, P, plo, phi⟩ k r ∧
      (∀ x ∈ pagesOf (t.setNode P (.internal (nd.InsertNodeAfter X key X1))).nodes (j + 1) P,
        1 ≤ x ∧ x < t.header.page_num_ ∧ x ∉ fl ∧
        ∀ y, (t.setNode P (.internal (nd.InsertNodeAfter X key X1))).nodes x = some y →
          y.Filled) ∧
      (∀ x ∈ F, x ∉ pagesOf t0.nodes (j + 1) P) ∧
      (pagesOf t0.nodes (j + 1) P).Sublist (pagesOf t0.nodes h t0.header.root_page_id_) ∧
      (∀ x ∈ pagesOf t0.nodes (j + 1) P,
        x ∈ pagesOf (t.setNode P (.internal (nd.InsertNodeAfter X key X1))).nodes (j + 1) P) ∧
      (∀ x ∈ F,
        x ∈ pagesOf (t.setNode P (.internal (nd.InsertNodeAfter X key X1))).nodes (j + 1) P) := by
  obtain ⟨par1, f1, n1, hwP⟩ := Site_wf t0.nodes _ _ hsp _ _ _ hw0
  have hsub := Site_sublist t0.nodes _ _ hsp
  simp only at hsub hwP
  have hndP : (pagesOf t0.nodes (j + 1) P).Nodup := hsub.nodup hT0.2.2.2.1
  have hF : ∀ x ∈ F, x ∉ pagesOf t0.nodes (j + 1) P :=
    fun x hx h0 => (hst.fresh x hx).1 (hsub.subset h0)
  obtain ⟨f2, n2, hwX⟩ := ChildStep_wf t0.nodes _ _ hpq _ _ _ hwP
  simp only at hwX
  obtain ⟨nd, hh, hn, hm⟩ := hpq
  simp only at hn hm
  obtain ⟨nd2, a1, a2, a3, a4, hk⟩ := hwP
  rw [hn] at a1
  cases a1
  have hne := KidsOK_ne_nil _ _ _ _ _ hk
  have hlen : 1 ≤ nd.entries.length := by
    cases hes : nd.entries with
    | nil => exact absurd hes hne
    | cons a b => simp
  obtain ⟨l1, l2, l3, l4, l5, l6, l7, l8, l9⟩ :=
    Link_repl t0.nodes t.nodes F j P plo phi X qlo qhi key X1 nd hn hm hndP hF hst.split
  have hPmem : P ∈ pagesOf t0.nodes h t0.header.root_page_id_ :=
    hsub.subset (mem_pagesOf_self _ _ _)
  have hPr := TreeOK_page t0 fl0 h hT0 P hPmem
  -- the old child lies strictly below the parent
  have hXP : P ∉ pagesOf t0.nodes j X := by
    intro h0
    obtain ⟨e, he, heq⟩ := mem_kidBounds_child _ _ _ _ hm
    simp only at heq
    rw [pagesOf_succ t0.nodes j P nd hn] at hndP
    apply (List.nodup_cons.1 hndP).1
    exact List.mem_flatMap.2 ⟨e, he, by rw [heq]; exact h0⟩
  have hPF : P ∉ F := fun h0 => hF P h0 (mem_pagesOf_self _ _ _)
  have htP : t.nodes P = some (.internal nd) := by
    rw [hst.split.frame P hXP hPF, hn]
  obtain ⟨m, wX, wX1⟩ := hst.split.wf P f2 n2 hwX
  simp only at wX wX1
  obtain ⟨x, hx1, hx2, -⟩ := WFSub_node _ _ _ _ _ _ _ _ wX
  have hpair : ∀ y ∈ pagesOf t.nodes j X ++ pagesOf t.nodes j X1,
      (t.setNode P (.internal (nd.InsertNodeAfter X key X1))).nodes y = t.nodes y := by
    intro y hy
    rw [nodes_setNode, if_neg (l5 y hy)]
  have hpairR : ∀ y ∈ pagesOf t.nodes j X ++ pagesOf t.nodes j X1,
      1 ≤ y ∧ y < t.header.page_num_ ∧ y ∉ fl := by
    intro y hy
    rcases hst.split.pages y hy with h1 | h1
    · simp only at h1
      have hy0 : y ∈ pagesOf t0.nodes (j + 1) P := by
        obtain ⟨e, he, heq⟩ := mem_kidBounds_child _ _ _ _ hm
        simp only at heq
        have := pagesOf_child_sublist t0.nodes j P nd hn e he
        rw [heq] at this
        exact this.subset h1
      have := TreeOK_page t0 fl0 h hT0 y (hsub.subset hy0)
      exact ⟨this.1, lt_of_lt_of_le this.2.1 hst.pnum, fun h2 => this.2.2.1 (hst.flsub y h2)⟩
    · have := hst.fresh y h1
      exact ⟨this.2.1, this.2.2.1, this.2.2.2⟩
  refine ⟨nd, hn, htP, ⟨x, hx1, hx2⟩, ?_, a4, hlen, l6, l1, ?_, ?_, ?_, hF, hsub, ?_, ?_⟩
  rotate_left 4
  · intro y hy
    rcases l8 y hy with h1 | h1
    · exact l9 y (hst.keep y h1)
    · exact h1
  · intro y hy
    exact l9 y (hst.used y hy)
  · intro h0; rw [h0] at hPr; unfold INVALID_PAGE_ID at hPr; omega
  · obtain ⟨A, B, e1, e2⟩ := l2
    obtain ⟨A2, B2, e3, e4⟩ := hst.entries
    simp only at e3 e4
    refine ⟨A ++ A2, B2 ++ B, ?_, ?_⟩
    · rw [e1, e3]; simp only [List.append_assoc]
    · show entriesOf (Function.update t.nodes P _) (j + 1) P = _
      rw [e2, e4]; simp only [List.append_assoc, List.cons_append]
  · rcases hst.has with hh1 | hh1
    · have h2 := HasEntry_frame t.nodes
        (t.setNode P (.internal (nd.InsertNodeAfter X key X1))).nodes _ k r
        (fun y hy => SameKids_of_eq _ _ (hpair y (List.mem_append_left _ hy))) hh1
      exact HasEntry_of_Site _ _ _ k r (Relation.ReflTransGen.single l3) h2
    · have h2 := HasEntry_frame t.nodes
        (t.setNode P (.internal (nd.InsertNodeAfter X key X1))).nodes _ k r
        (fun y hy => SameKids_of_eq _ _ (hpair y (List.mem_append_right _ hy))) hh1
      exact HasEntry_of_Site _ _ _ k r (Relation.ReflTransGen.single l4) h2
  · intro y hy
    rcases l7 y hy with h1 | h1 | ⟨h1, h2, h3, h4⟩
    · rw [h1]
      refine ⟨hPr.1, lt_of_lt_of_le hPr.2.1 hst.pnum, fun h2 => hPr.2.2.1 (hst.flsub P h2), ?_⟩
      intro z hz
      rw [nodes_setNode, if_pos rfl] at hz
      cases hz
      show 2 ≤ (nd.InsertNodeAfter X key X1).entries.length
      omega
    · have := hpairR y h1
      refine ⟨this.1, this.2.1, this.2.2, ?_⟩
      intro z hz
      rw [hpair y h1] at hz
      exact hst.filled y h1 z hz
    · have hy0 := TreeOK_page t0 fl0 h hT0 y (hsub.subset h1)
      refine ⟨hy0.1, lt_of_lt_of_le hy0.2.1 hst.pnum, fun h5 => hy0.2.2.1 (hst.flsub y h5), ?_⟩
      intro z hz
      rw [nodes_setNode, if_neg h2, hst.split.frame y h3 h4] at hz
      exact hy0.2.2.2 z hz

/-! ## B+tree: `InsertIntoParent` -/

theorem AllocOK_congr (t t1 : BPTreeIndex) (fl : List Int) (hh : t1.header = t.header)
    (hn : t1.next_free = t.next_free) (ha : t.AllocOK fl) : t1.AllocOK fl := by
  unfold BPTreeIndex.AllocOK at ha ⊢
  rw [hh, hn]; exact ha

theorem kid_exists {P : Int → Int → Int → Int → Int → Prop} (es : List (Int × Int))
    (lo hi f n : Int) (hk : KidsOK P lo es hi f n) (c : Int) (hc : c ∈ es.map Prod.snd) :
    ∃ l u f1 n1, P c l u f1 n1 := by
  rw [← kidBounds_map_fst lo hi es] at hc
  obtain ⟨x, hx, heq⟩ := List.mem_map.1 hc
  obtain ⟨f1, n1, h1⟩ := KidsOK_child es lo hi f n hk x hx
  rw [heq] at h1
  exact ⟨_, _, f1, n1, h1⟩

theorem InsertIntoParent_split_eq (fuel : Nat) (t t2 : BPTreeIndex) (X key X1 P : Int)
    (x : BPTreePage) (nd : BPTreeInternalPage) (push c0 : Int) (R1 : List (Int × Int))
    (hx1 : t.nodes X = some x) (hroot : x.IsRoot = false) (hx2 : x.GetParentPageId = P)
    (hgi : t.getInternal P = some nd) (hbig : ¬ nd.entries.length ≤ nd.max_size_)
    (hmv : (nd.InsertNodeAfter X key X1).entries.drop
      ((nd.InsertNodeAfter X key X1).entries.length -
        (nd.InsertNodeAfter X key X1).entries.length / 2) = (push, c0) :: R1)
    (h2a : t.NewPage.2.reparent (((push, c0) :: R1).map Prod.snd) t.NewPage.1 = some t2) :
    BPTreeIndex.InsertIntoParent (fuel + 1) t X key X1 =
      BPTreeIndex.InsertIntoParent fuel
        ((t2.setNode P (.internal { nd.InsertNodeAfter X key X1 with
            entries := (nd.InsertNodeAfter X key X1).entries.take
              ((nd.InsertNodeAfter X key X1).entries.length -
                (nd.InsertNodeAfter X key X1).entries.length / 2) })).setNode t.NewPage.1
          (.internal (BPTreeInternalPage.mk t.NewPage.1 nd.parent_page_id_ nd.max_size_
            ((push, c0) :: R1)))) P push t.NewPage.1 := by
  simp only [BPTreeIndex.InsertIntoParent, hx1, hroot, hx2, hgi, BPTreeInternalPage.GetSize,
    hbig, if_false, Bool.false_eq_true, hmv, h2a, BPTreeInternalPage.Init,
    BPTreeInternalPage.KeyAt, List.nil_append, List.get?_cons_zero, Option.map_some']

theorem InsertIntoParent_ok (t0 : BPTreeIndex) (fl0 : List Int) (h : Nat) (lo hi f : Int)
    (k : Int) (r : RID) (hT0 : t0.TreeOK none fl0 h) (hi4 : t0.header.internal_max_size_ = 4)
    (hA0 : t0.AllocOK fl0)
    (hw0 : WFSub t0.nodes h t0.header.root_page_id_ INVALID_PAGE_ID lo hi f INVALID_PAGE_ID)
    (q : Pos) (hs : Site t0.nodes ⟨h, t0.header.root_page_id_, lo, hi⟩ q) :
    ∀ (t : BPTreeIndex) (fl F : List Int) (key X1 : Int) (fuel : Nat),
      SplitState t0 t fl0 fl h q F key X1 k r → h + 1 ≤ fuel + q.h →
      ∃ t1, BPTreeIndex.InsertIntoParent fuel t q.pid key X1 = some t1 ∧
        InsertedAt t0 t1 h k r := by
  induction hs with
  | refl =>
    intro t fl F key X1 fuel hst hfu
    simp only at hfu
    cases fuel with
    | zero => omega
    | succ fuel =>
      obtain ⟨m, wX, wX1⟩ := hst.split.wf _ _ _ hw0
      simp only at wX wX1
      obtain ⟨x, hx1, hx2, -⟩ := WFSub_node _ _ _ _ _ _ _ _ wX
      have hrange : ∀ y ∈ pagesOf t.nodes h t0.header.root_page_id_ ++ pagesOf t.nodes h X1,
          1 ≤ y ∧ y < t.header.page_num_ ∧ y ∉ fl ∧ ∀ z, t.nodes y = some z → z.Filled := by
        intro y hy
        refine ⟨?_, ?_, ?_, hst.filled y hy⟩
        all_goals
          rcases hst.split.pages y hy with h1 | h1
          · have := TreeOK_page t0 fl0 h hT0 y h1
            first
              | exact this.1
              | exact lt_of_lt_of_le this.2.1 hst.pnum
              | exact fun h2 => this.2.2.1 (hst.flsub y h2)
          · have := hst.fresh y h1
            first
              | exact this.2.1
              | exact this.2.2.1
              | exact this.2.2.2
      obtain ⟨t1, fl1, g1, g2, g3, g4, g5, g6, g7, g8, g9, g10, g11⟩ :=
        NewRoot_tree t fl h t0.header.root_page_id_ key X1 lo hi f m hst.alloc
          (hst.imax.trans hi4) (hst.height.trans hT0.2.1) wX wX1 hst.split.nodup hrange
          hst.big
      refine ⟨t1, ?_, g8.trans hst.lmax, g9.trans hst.imax, g10.trans hst.nent, fl1, h + 1,
        lo, hi, f, g2, g4, g5, g7 k r hst.has, ?_, ?_⟩
      · simp only [BPTreeIndex.InsertIntoParent, hx1, BPTreePage.IsRoot, hx2, decide_True,
          if_true]
        exact g1
      · intro hc fl9 hA9
        have hfl9 := AllocOK_unique t1 fl9 fl1 hA9 g2
        subst hfl9
        apply g11
        intro p hp1 hp2
        by_cases hlt : p < t0.header.page_num_
        · rcases hc fl0 hA0 p hp1 hlt with h0 | h0
          · exact Or.inl (hst.keep p h0)
          · rcases hst.cover p (Or.inl h0) with h1 | h1
            · exact Or.inr h1
            · exact Or.inl (hst.used p h1)
        · rcases hst.cover p (Or.inr ⟨by omega, hp2⟩) with h1 | h1
          · exact Or.inr h1
          · exact Or.inl (hst.used p h1)
      · obtain ⟨A, B, e1, e2⟩ := hst.entries
        exact ⟨A, B, e1, by rw [g6]; exact e2⟩
  | @tail p q hsp hpq ih =>
    intro t fl F key X1 fuel hst hfu
    obtain ⟨ph, P, plo, phi⟩ := p
    obtain ⟨j, X, qlo, qhi⟩ := q
    have hh : ph = j + 1 := by
      obtain ⟨_, hh, _⟩ := hpq
      exact hh
    subst hh
    have hhp := Site_height _ _ _ hsp
    simp only at hfu hhp
    cases fuel with
    | zero => omega
    | succ fuel =>
      obtain ⟨nd, l1, l2, ⟨x, hx1, hx2⟩, l4, l5, l6, l7, l8, l9, l10, l11, l12, l13, l14,
          l15⟩ :=
        Link_state t0 t fl0 fl h lo hi f k r hT0 hw0 j P plo phi X qlo qhi F key X1 hsp hpq hst
      have hnotroot : x.IsRoot = false := by
        simp only [BPTreePage.IsRoot, hx2, decide_eq_false_iff_not]
        exact l4
      have hgi : t.getInternal P = some nd := by
        simp only [BPTreeIndex.getInternal, l2]
      by_cases hroom : nd.entries.length ≤ nd.max_size_
      · -- the parent has room
        have hres : BPTreeIndex.InsertIntoParent (fuel + 1) t X key X1 =
            some (t.setNode P (.internal (nd.InsertNodeAfter X key X1))) := by
          simp only [BPTreeIndex.InsertIntoParent, hx1, hnotroot, hx2, hgi,
            BPTreeInternalPage.GetSize, hroom, if_true, Bool.false_eq_true, if_false]
        obtain ⟨r1, r2, r3, A, B, e1, e2⟩ := TreeOK_replace t0
          (t.setNode P (.internal (nd.InsertNodeAfter X key X1))) none none fl0 fl h lo hi f F
          ⟨j + 1, P, plo, phi⟩ hT0 hw0 hsp l8 (fun y hy => (hst.fresh y hy).1) hst.root
          hst.height hst.pnum
          (fun y hy => ⟨(l11 y hy).1, (l11 y hy).2.1, (l11 y hy).2.2.1,
            fun z hz _ => (l11 y hy).2.2.2 z hz⟩)
          (fun y hy => Or.inl (hst.flsub y hy)) (fun y hy => by cases hy)
        obtain ⟨k1, k2⟩ := TreeOK_replace_keep t0
          (t.setNode P (.internal (nd.InsertNodeAfter X key X1))) none fl0 h lo hi F
          ⟨j + 1, P, plo, phi⟩ hT0 hsp l8 (fun y hy => (hst.fresh y hy).1) hst.root
        refine ⟨_, hres, hst.lmax, hst.imax, hst.nent, fl, h, lo, hi, f, hst.alloc, r1, r2,
          HasEntry_of_Site _ _ _ k r r3 l10, ?_, ?_⟩
        · intro hc fl9 hA9
          have hfl9 := AllocOK_unique _ fl9 fl hA9 hst.alloc
          subst hfl9
          intro p hp1 hp2
          change p < t.header.page_num_ at hp2
          by_cases hlt : p < t0.header.page_num_
          · rcases hc fl0 hA0 p hp1 hlt with h0 | h0
            · rcases k1 p h0 with h1 | h1
              · exact Or.inl (k2 p (l14 p h1))
              · exact Or.inl h1
            · rcases hst.cover p (Or.inl h0) with h1 | h1
              · exact Or.inr h1
              · exact Or.inl (k2 p (l15 p h1))
          · rcases hst.cover p (Or.inr ⟨by omega, hp2⟩) with h1 | h1
            · exact Or.inr h1
            · exact Or.inl (k2 p (l15 p h1))
        obtain ⟨A1, B1, e3, e4⟩ := l9
        simp only at e1 e2
        refine ⟨A ++ A1, B1 ++ B, ?_, ?_⟩
        · rw [e1, e3]; simp only [List.append_assoc]
        · rw [e2, e4]; simp only [List.append_assoc, List.cons_append]
      · -- the parent is split
        have hbig : 4 < nd.entries.length := by rw [l5] at hroom; omega
        obtain ⟨g1, g2, g3⟩ := InsertNodeAfter_header nd X key X1
        have hlen1 := l7
        have hs1 : 3 ≤ (nd.InsertNodeAfter X key X1).entries.length -
            (nd.InsertNodeAfter X key X1).entries.length / 2 := by omega
        have hs2 : (nd.InsertNodeAfter X key X1).entries.length -
            (nd.InsertNodeAfter X key X1).entries.length / 2 + 3 ≤
            (nd.InsertNodeAfter X key X1).entries.length := by omega
        have hE := (List.take_append_drop ((nd.InsertNodeAfter X key X1).entries.length -
            (nd.InsertNodeAfter X key X1).entries.length / 2)
            (nd.InsertNodeAfter X key X1).entries).symm
        have hLlen := List.length_take ((nd.InsertNodeAfter X key X1).entries.length -
            (nd.InsertNodeAfter X key X1).entries.length / 2)
            (nd.InsertNodeAfter X key X1).entries
        have hRlen := List.length_drop ((nd.InsertNodeAfter X key X1).entries.length -
            (nd.InsertNodeAfter X key X1).entries.length / 2)
            (nd.InsertNodeAfter X key X1).entries
        cases hmv : (nd.InsertNodeAfter X key X1).entries.drop
            ((nd.InsertNodeAfter X key X1).entries.length -
              (nd.InsertNodeAfter X key X1).entries.length / 2) with
        | nil => rw [hmv] at hRlen; simp only [List.length_nil] at hRlen; omega
        | cons e R1 =>
          obtain ⟨push, c0⟩ := e
          rw [hmv] at hE hRlen
          have hL : (nd.InsertNodeAfter X key X1).entries.take
              ((nd.InsertNodeAfter X key X1).entries.length -
                (nd.InsertNodeAfter X key X1).entries.length / 2) ≠ [] := by
            intro h0
            rw [h0] at hLlen
            simp only [List.length_nil] at hLlen
            omega
          obtain ⟨fl3, b1, b2, b3, b4, b5, b6, b7⟩ := NewPage_alloc t fl hst.alloc
          have hacct := NewPage_acct t fl fl3 hst.alloc b1
          obtain ⟨c1, c2, c3, c4, c5⟩ := NewPage_header t
          have hnn := NewPage_nodes t
          -- the linked state
          have hvP : (t.setNode P (.internal (nd.InsertNodeAfter X key X1))).nodes P =
              some (.internal (nd.InsertNodeAfter X key X1)) := by
            rw [nodes_setNode, if_pos rfl]
          obtain ⟨par1, f1, n1, hwP⟩ := Site_wf t0.nodes _ _ hsp _ _ _ hw0
          have hwv := l8.wf _ _ _ hwP
          simp only at hwv
          have hwv0 := hwv
          obtain ⟨ndv, v1, v2, v3, v4, vk⟩ := hwv
          rw [hvP] at v1
          cases v1
          have hndv := l8.nodup
          simp only at hndv
          have hkidP : ∀ c ∈ (nd.InsertNodeAfter X key X1).entries.map Prod.snd, c ≠ P := by
            intro c hc h0
            rw [pagesOf_succ _ j P _ hvP] at hndv
            apply (List.nodup_cons.1 hndv).1
            obtain ⟨e, he, heq⟩ := List.mem_map.1 hc
            rw [← h0, ← heq]
            exact List.mem_flatMap.2 ⟨e, he, mem_pagesOf_self _ _ _⟩
          have hall : ∀ c ∈ ((push, c0) :: R1).map Prod.snd, t.NewPage.2.nodes c ≠ none := by
            intro c hc
            have hc2 : c ∈ (nd.InsertNodeAfter X key X1).entries.map Prod.snd := by
              rw [hE, List.map_append]
              exact List.mem_append_right _ hc
            obtain ⟨l, u, f2, n2, hwc⟩ := kid_exists _ _ _ _ _ vk c hc2
            obtain ⟨y, hy, -⟩ := WFSub_node _ _ _ _ _ _ _ _ hwc
            rw [nodes_setNode, if_neg (hkidP c hc2)] at hy
            rw [hnn, hy]
            simp
          obtain ⟨t2, h2a, h2b, h2c, h2d⟩ := reparent_spec _ t.NewPage.1 t.NewPage.2 hall
          have hres := InsertIntoParent_split_eq fuel t t2 X key X1 P x nd push c0 R1 hx1
            hnotroot hx2 hgi hroom hmv h2a
          have hfresh : t.NewPage.1 ∉
              pagesOf (t.setNode P (.internal (nd.InsertNodeAfter X key X1))).nodes (j + 1) P := by
            intro h0
            have := l11 _ h0
            rcases b5 with h1 | h1
            · exact this.2.2.1 h1
            · omega
          have hPP1 : P ≠ t.NewPage.1 := by
            intro h0
            apply hfresh
            rw [← h0]
            exact mem_pagesOf_self _ _ _
          obtain ⟨sp, en, has, pgs, kp⟩ := Split_internal
            (t.setNode P (.internal (nd.InsertNodeAfter X key X1))).nodes
            ((t2.setNode P (.internal { nd.InsertNodeAfter X key X1 with
              entries := (nd.InsertNodeAfter X key X1).entries.take
                ((nd.InsertNodeAfter X key X1).entries.length -
                  (nd.InsertNodeAfter X key X1).entries.length / 2) })).setNode t.NewPage.1
              (.internal (BPTreeInternalPage.mk t.NewPage.1 nd.parent_page_id_ nd.max_size_
                ((push, c0) :: R1)))).nodes
            j P plo phi t.NewPage.1 (nd.InsertNodeAfter X key X1) _ R1 push c0 hvP hE hL hndv
            hfresh
            (by rw [nodes_setNode, if_neg hPP1, nodes_setNode, if_pos rfl])
            (by rw [nodes_setNode, if_pos rfl, g2, g3])
            (by
              intro y hy1 hy2
              rw [nodes_setNode, if_neg hy2, nodes_setNode, if_neg hy1, h2d, hnn,
                nodes_setNode, if_neg hy1])
          refine Exists.imp (fun t1 ht1 => ⟨hres.trans ht1.1, ht1.2⟩)
            (ih _ fl3 (F ++ [t.NewPage.1]) push t.NewPage.1 fuel ?_ (by simp only; omega))
          refine ⟨Repl_Split_trans _ _ _ F [t.NewPage.1] _ push _ l8 sp, ?_, ?_, ?_, ?_, ?_,
            ?_, ?_, ?_, ?_, ?_, ?_, ?_, ?_, ?_, ?_, ?_⟩
          rotate_left 13
          · intro y hy
            exact kp y (l14 y hy)
          · intro y hy
            rcases List.mem_append.1 hy with h1 | h1
            · exact kp y (l15 y h1)
            · simp only [List.mem_singleton] at h1
              rw [h1]
              exact List.mem_append_right _ (mem_pagesOf_self _ _ _)
          · intro p hp
            have hp' : p ∈ fl0 ∨ (t0.header.page_num_ ≤ p ∧ p < t.NewPage.2.header.page_num_) := by
              rcases hp with hp | hp
              · exact Or.inl hp
              · refine Or.inr ⟨hp.1, ?_⟩
                have := hp.2
                change p < t2.header.page_num_ at this
                rw [h2b] at this
                exact this
            have hfin : ∀ p, p ∈ fl ∨ p ∈ F → p ∈ fl3 ∨ p ∈ F ++ [t.NewPage.1] := by
              intro p hp
              rcases hp with hp | hp
              · rcases hacct p (Or.inl hp) with h1 | h1
                · exact Or.inl h1
                · exact Or.inr (List.mem_append_right _ (by rw [h1]; simp))
              · exact Or.inr (List.mem_append_left _ hp)
            rcases hp' with hp' | hp'
            · exact hfin p (hst.cover p (Or.inl hp'))
            · by_cases hlt : p < t.header.page_num_
              · exact hfin p (hst.cover p (Or.inr ⟨hp'.1, hlt⟩))
              · rcases hacct p (Or.inr ⟨by omega, hp'.2⟩) with h1 | h1
                · exact Or.inl h1
                · exact Or.inr (List.mem_append_right _ (by rw [h1]; simp))
          · show t2.header.root_page_id_ = _
            rw [h2b, c1]; exact hst.root
          · show t2.header.tree_height_ = _
            rw [h2b, c2]; exact hst.height
          · show t2.header.leaf_max_size_ = _
            rw [h2b, c4]; exact hst.lmax
          · show t2.header.internal_max_size_ = _
            rw [h2b, c5]; exact hst.imax
          · show t2.header.num_entries_ = _
            rw [h2b, c3]; exact hst.nent
          · exact AllocOK_congr t.NewPage.2 _ fl3 h2b h2c b1
          · exact fun y hy => hst.flsub y (b6 y hy)
          · show _ ≤ t2.header.page_num_
            rw [h2b]; exact le_trans hst.pnum b7
          · intro y hy
            show _ ∧ _ ∧ y < t2.header.page_num_ ∧ _
            rw [h2b]
            rcases List.mem_append.1 hy with h1 | h1
            · have := hst.fresh y h1
              exact ⟨this.1, this.2.1, lt_of_lt_of_le this.2.2.1 b7,
                fun h2 => this.2.2.2 (b6 y h2)⟩
            · simp only [List.mem_singleton] at h1
              rw [h1]
              refine ⟨?_, b2, b3, b4⟩
              intro h0
              have := TreeOK_page t0 fl0 h hT0 _ h0
              rcases b5 with h2 | h2
              · exact this.2.2.1 (hst.flsub _ h2)
              · have := hst.pnum; omega
          · intro y hy z hz
            rcases pgs y hy with h1 | h1 | ⟨h1, h2, h3⟩
            · rw [h1, nodes_setNode, if_neg hPP1, nodes_setNode, if_pos rfl] at hz
              cases hz
              show 2 ≤ (List.take _ _).length
              omega
            · rw [h1, nodes_setNode, if_pos rfl] at hz
              cases hz
              show 2 ≤ ((push, c0) :: R1).length
              omega
            · exact Filled_of_SameKids _ _ h3 (l11 y h1).2.2.2
                (fun l0 hl0 => WFSub_parent_ne _ _ _ _ _ _ _ _ hwv0 (fun y0 hy0 => (l11 y0 hy0).1)
                  y h1 (Or.inl h2) _ hl0) z hz
          · intro y hy
            rcases hy with hy | hy
            · rw [nodes_setNode, if_neg hPP1, nodes_setNode, if_pos rfl] at hy
              cases hy
              show 2 ≤ (List.take _ _).length
              omega
            · rw [nodes_setNode, if_pos rfl] at hy
              cases hy
              show 2 ≤ ((push, c0) :: R1).length
              omega
          · obtain ⟨A, B, e1, e2⟩ := l9
            exact ⟨A, B, e1, by rw [en]; exact e2⟩
          · exact has k r l10

/-! ## B+tree: splitting a leaf -/

theorem Lookup_congr (l1 l2 : BPTreeLeafPage) (key : Int) (h : l1.entries = l2.entries) :
    l1.Lookup key = l2.Lookup key := by
  unfold BPTreeLeafPage.Lookup BPTreeLeafPage.KeyIndex
  rw [h]

theorem Split_leaf (nodes nodes2 : Int → Option BPTreePage) (X N qlo qhi key : Int) (v : RID)
    (l leaf3 new3 : BPTreeLeafPage) (e : Int × RID) (rest : List (Int × RID)) (s : Nat)
    (hn : nodes X = some (.leaf l)) (hXN : X ≠ N)
    (hs : l.entries.Pairwise (fun a b => a.1 ≤ b.1))
    (hb : ∀ a ∈ l.entries, qlo ≤ a.1 ∧ a.1 ≤ qhi) (hk1 : qlo ≤ key) (hk2 : key < qhi)
    (hdrop : l.entries.drop s = e :: rest) (htake : l.entries.take s ≠ [])
    (a1 : leaf3.page_id_ = l.page_id_) (a2 : leaf3.parent_page_id_ = l.parent_page_id_)
    (a3 : leaf3.max_size_ = l.max_size_) (a4 : leaf3.next_page_id_ = N)
    (b1 : new3.page_id_ = N) (b2 : new3.parent_page_id_ = l.parent_page_id_)
    (b3 : new3.max_size_ = l.max_size_) (b4 : new3.next_page_id_ = l.next_page_id_)
    (hcase : (key < e.1 ∧ ∃ la : BPTreeLeafPage, la.entries = l.entries.take s ∧
        leaf3.entries = (la.Insert key v).entries ∧ new3.entries = e :: rest) ∨
      (¬ key < e.1 ∧ ∃ lb : BPTreeLeafPage, lb.entries = e :: rest ∧
        leaf3.entries = l.entries.take s ∧ new3.entries = (lb.Insert key v).entries))
    (h2X : nodes2 X = some (.leaf leaf3)) (h2N : nodes2 N = some (.leaf new3))
    (h2o : ∀ y, y ≠ X → y ≠ N → nodes2 y = nodes y) :
    Split nodes nodes2 [N] ⟨0, X, qlo, qhi⟩ e.1 N ∧
    (∃ A B, entriesOf nodes 0 X = A ++ B ∧
      entriesOf nodes2 0 X ++ entriesOf nodes2 0 N = A ++ (key, v) :: B) ∧
    (HasEntry nodes2 ⟨0, X, qlo, e.1⟩ key v ∨ HasEntry nodes2 ⟨0, N, e.1, qhi⟩ key v) ∧
    1 ≤ leaf3.entries.length ∧ 1 ≤ new3.entries.length := by
  have hE : l.entries = l.entries.take s ++ e :: rest := by
    rw [← hdrop]; exact (List.take_append_drop s _).symm
  have hs2 := hs
  rw [hE, List.pairwise_append] at hs2
  obtain ⟨s1, s2, s3⟩ := hs2
  have hem : e ∈ l.entries := by rw [hE]; simp
  have hmid := hb e hem
  have hbt : ∀ a ∈ l.entries.take s, qlo ≤ a.1 ∧ a.1 ≤ e.1 :=
    fun a ha => ⟨(hb a (List.mem_of_mem_take ha)).1, s3 a ha e (List.mem_cons_self _ _)⟩
  have hbd : ∀ a ∈ e :: rest, e.1 ≤ a.1 ∧ a.1 ≤ qhi := by
    intro a ha
    refine ⟨?_, (hb a (by rw [hE]; exact List.mem_append_right _ ha)).2⟩
    rcases List.mem_cons.1 ha with h | h
    · rw [h]
    · exact (List.pairwise_cons.1 s2).1 a h
  -- the two leaves
  have hleaf3 : leaf3.entries.Pairwise (fun a b => a.1 ≤ b.1) ∧
      (∀ a ∈ leaf3.entries, qlo ≤ a.1 ∧ a.1 ≤ e.1) ∧
      new3.entries.Pairwise (fun a b => a.1 ≤ b.1) ∧
      (∀ a ∈ new3.entries, e.1 ≤ a.1 ∧ a.1 ≤ qhi) := by
    rcases hcase with ⟨hlt, la, h1, h2, h3⟩ | ⟨hge, lb, h1, h2, h3⟩
    · have hsla : la.entries.Pairwise (fun a b => a.1 ≤ b.1) := by rw [h1]; exact s1
      refine ⟨by rw [h2]; exact Insert_sorted la key v hsla, ?_, by rw [h3]; exact s2,
        by rw [h3]; exact hbd⟩
      intro a ha
      rw [h2] at ha
      rcases Insert_mem la key v a ha with h | h
      · rw [h]; exact ⟨hk1, le_of_lt hlt⟩
      · rw [h1] at h; exact hbt a h
    · have hslb : lb.entries.Pairwise (fun a b => a.1 ≤ b.1) := by rw [h1]; exact s2
      refine ⟨by rw [h2]; exact s1, by rw [h2]; exact hbt,
        by rw [h3]; exact Insert_sorted lb key v hslb, ?_⟩
      intro a ha
      rw [h3] at ha
      rcases Insert_mem lb key v a ha with h | h
      · rw [h]; exact ⟨not_lt.1 hge, le_of_lt hk2⟩
      · rw [h1] at h; exact hbd a h
  obtain ⟨w1, w2, w3, w4⟩ := hleaf3
  refine ⟨⟨?_, ?_, ?_, ?_⟩, ?_, ?_, ?_, ?_⟩
  · intro par f n hw
    obtain ⟨l2, c1, c2, c3, c4, c5, c6, c7, c8, c9⟩ := hw
    simp only at c1
    rw [hn] at c1
    cases c1
    exact ⟨N, ⟨leaf3, h2X, a1.trans c2, a2.trans c3, a3.trans c4, a4, c6, hmid.1, w1, w2⟩,
      ⟨new3, h2N, b1, b2.trans c3, b3.trans c4, b4.trans c5, rfl, hmid.2, w3, w4⟩⟩
  · intro x hx
    simp only [pagesOf, List.mem_append, List.mem_singleton] at hx ⊢
    exact hx
  · simp only [pagesOf]
    simp [hXN]
  · intro x hx hxN
    simp only [pagesOf, List.mem_singleton] at hx hxN
    exact h2o x hx hxN
  · rw [entriesOf_zero nodes X l hn, entriesOf_zero nodes2 X leaf3 h2X,
      entriesOf_zero nodes2 N new3 h2N]
    rcases hcase with ⟨hlt, la, h1, h2, h3⟩ | ⟨hge, lb, h1, h2, h3⟩
    · refine ⟨la.entries.take (la.KeyIndex key), la.entries.drop (la.KeyIndex key) ++ e :: rest,
        ?_, ?_⟩
      · rw [← List.append_assoc, List.take_append_drop, h1]; exact hE
      · rw [h2, h3, Insert_entries]; simp only [List.append_assoc, List.cons_append]
    · refine ⟨l.entries.take s ++ lb.entries.take (lb.KeyIndex key),
        lb.entries.drop (lb.KeyIndex key), ?_, ?_⟩
      · rw [List.append_assoc, List.take_append_drop, h1]; exact hE
      · rw [h2, h3, Insert_entries]; simp only [List.append_assoc]
  · rcases hcase with ⟨hlt, la, h1, h2, h3⟩ | ⟨hge, lb, h1, h2, h3⟩
    · left
      have hsla : la.entries.Pairwise (fun a b => a.1 ≤ b.1) := by rw [h1]; exact s1
      refine ⟨⟨0, X, qlo, e.1⟩, rfl, Relation.ReflTransGen.refl, hk1, hlt, leaf3, h2X, ?_⟩
      rw [Lookup_congr leaf3 (la.Insert key v) key h2]
      exact Insert_Lookup la key v hsla
    · right
      have hslb : lb.entries.Pairwise (fun a b => a.1 ≤ b.1) := by rw [h1]; exact s2
      refine ⟨⟨0, N, e.1, qhi⟩, rfl, Relation.ReflTransGen.refl, not_lt.1 hge, hk2, new3, h2N,
        ?_⟩
      rw [Lookup_congr new3 (lb.Insert key v) key h3]
      exact Insert_Lookup lb key v hslb
  · rcases hcase with ⟨hlt, la, h1, h2, h3⟩ | ⟨hge, lb, h1, h2, h3⟩
    · rw [h2, Insert_length]; omega
    · rw [h2]
      cases ht : l.entries.take s with
      | nil => exact absurd ht htake
      | cons a b => simp
  · rcases hcase with ⟨hlt, la, h1, h2, h3⟩ | ⟨hge, lb, h1, h2, h3⟩
    · rw [h3]; simp
    · rw [h3, Insert_length]; omega

/-! ## B+tree: `Insert` -/

theorem InsertIntoLeaf_split_eq (t : BPTreeIndex) (key : Int) (v : RID) (X : Int)
    (l : BPTreeLeafPage) (e : Int × RID) (rest : List (Int × RID))
    (hf : t.FindLeafPage key false = some X) (hl : t.getLeaf X = some l)
    (hfull : ¬ l.entries.length < l.max_size_)
    (hdrop : l.entries.drop (l.entries.length - l.entries.length / 2) = e :: rest) :
    ∃ leaf3 new3 : BPTreeLeafPage,
      t.InsertIntoLeaf key v =
        (match BPTreeIndex.InsertIntoParent
            ((t.NewPage.2.setNode X (.leaf leaf3)).setNode t.NewPage.1 (.leaf new3)).fuel
            ((t.NewPage.2.setNode X (.leaf leaf3)).setNode t.NewPage.1 (.leaf new3))
            X e.1 t.NewPage.1 with
          | none => none
          | some t3 => some { t3 with header := { t3.header with
              num_entries_ := t3.header.num_entries_ + 1 } }) ∧
      leaf3.page_id_ = l.page_id_ ∧ leaf3.parent_page_id_ = l.parent_page_id_ ∧
      leaf3.max_size_ = l.max_size_ ∧ leaf3.next_page_id_ = t.NewPage.1 ∧
      new3.page_id_ = t.NewPage.1 ∧ new3.parent_page_id_ = l.parent_page_id_ ∧
      new3.max_size_ = l.max_size_ ∧ new3.next_page_id_ = l.next_page_id_ ∧
      ((key < e.1 ∧ ∃ la : BPTreeLeafPage,
          la.entries = l.entries.take (l.entries.length - l.entries.length / 2) ∧
          leaf3.entries = (la.Insert key v).entries ∧ new3.entries = e :: rest) ∨
        (¬ key < e.1 ∧ ∃ lb : BPTreeLeafPage, lb.entries = e :: rest ∧
          leaf3.entries = l.entries.take (l.entries.length - l.entries.length / 2) ∧
          new3.entries = (lb.Insert key v).entries)) := by
  by_cases hlt : key < e.1
  · refine ⟨{ ({ l with entries := l.entries.take (l.entries.length - l.entries.length / 2) } :
        BPTreeLeafPage).Insert key v with next_page_id_ := t.NewPage.1 },
      BPTreeLeafPage.mk t.NewPage.1 l.parent_page_id_ l.max_size_ l.next_page_id_ (e :: rest),
      ?_, rfl, rfl, rfl, rfl, rfl, rfl, rfl, rfl, Or.inl ⟨hlt, _, rfl, rfl, rfl⟩⟩
    simp only [BPTreeIndex.InsertIntoLeaf, hf, hl, BPTreeLeafPage.GetSize, hfull, if_false,
      BPTreeLeafPage.MoveHalfTo, BPTreeLeafPage.CopyNFrom, BPTreeLeafPage.Init, hdrop,
      List.nil_append, List.head?_cons, hlt, if_true]
    rfl
  · refine ⟨BPTreeLeafPage.mk l.page_id_ l.parent_page_id_ l.max_size_ t.NewPage.1
        (l.entries.take (l.entries.length - l.entries.length / 2)),
      { (BPTreeLeafPage.mk t.NewPage.1 l.parent_page_id_ l.max_size_ INVALID_PAGE_ID
          (e :: rest)).Insert key v with next_page_id_ := l.next_page_id_ },
      ?_, rfl, rfl, rfl, rfl, rfl, rfl, rfl, rfl, Or.inr ⟨hlt, _, rfl, rfl, rfl⟩⟩
    simp only [BPTreeIndex.InsertIntoLeaf, hf, hl, BPTreeLeafPage.GetSize, hfull, if_false,
      BPTreeLeafPage.MoveHalfTo, BPTreeLeafPage.CopyNFrom, BPTreeLeafPage.Init, hdrop,
      List.nil_append, List.head?_cons, hlt]

theorem Insert_entries_nil (l : BPTreeLeafPage) (key : Int) (v : RID) (h : l.entries = []) :
    (l.Insert key v).entries = [(key, v)] := by
  rw [Insert_entries, h]; simp

theorem Insert_empty_ok (t : BPTreeIndex) (key : Int) (rid : RID) (hinv : t.Inv)
    (hroot : t.header.root_page_id_ = INVALID_PAGE_ID) :
    t.InsertDone (t.StartNewTree key rid) key rid ∧
    (t.Covered → (t.StartNewTree key rid).Covered) := by
  obtain ⟨hl4, hi4, fl, hA, -⟩ := hinv
  obtain ⟨fl1, b1, b2, b3, b4, b5, b6, b7⟩ := NewPage_alloc t fl hA
  have hacct := NewPage_acct t fl fl1 hA b1
  obtain ⟨c1, c2, c3, c4, c5⟩ := NewPage_header t
  have hN : (t.StartNewTree key rid).nodes t.NewPage.1 =
      some (.leaf ((BPTreeLeafPage.Init t.NewPage.1 INVALID_PAGE_ID
        t.NewPage.2.header.leaf_max_size_).Insert key rid)) := by
    unfold BPTreeIndex.StartNewTree
    simp only [nodes_setNode, if_true]
  have hent : ((BPTreeLeafPage.Init t.NewPage.1 INVALID_PAGE_ID
      t.NewPage.2.header.leaf_max_size_).Insert key rid).entries = [(key, rid)] :=
    Insert_entries_nil _ key rid rfl
  have hw : WFSub (t.StartNewTree key rid).nodes 0 t.NewPage.1 INVALID_PAGE_ID key (key + 1)
      t.NewPage.1 INVALID_PAGE_ID := by
    refine ⟨_, hN, rfl, rfl, ?_, rfl, rfl, by omega, ?_, ?_⟩
    · show t.NewPage.2.header.leaf_max_size_ = 4
      rw [c4, hl4]
    · rw [hent]; simp
    · rw [hent]; intro e he
      simp only [List.mem_singleton] at he
      rw [he]; simp
  have hA1 : (t.StartNewTree key rid).AllocOK fl1 := b1
  have hT : (t.StartNewTree key rid).TreeOK none fl1 0 := by
    refine ⟨?_, rfl, ⟨_, _, _, hw⟩, by simp [pagesOf], ?_⟩
    · show t.NewPage.1 ≠ INVALID_PAGE_ID
      unfold INVALID_PAGE_ID; omega
    · intro p hp
      change p ∈ pagesOf _ 0 t.NewPage.1 at hp
      simp only [pagesOf, List.mem_singleton] at hp
      rw [hp]
      refine ⟨b2, b3, b4, ?_⟩
      intro x hx _
      rw [hN] at hx
      cases hx
      refine ⟨?_, ?_, fun h0 => absurd rfl h0⟩
      · rw [hent]; simp
      · rw [hent]; simp
  refine ⟨⟨⟨?_, ?_, fl1, hA1, Or.inr ⟨0, hT⟩⟩, ⟨[], [], ?_, ?_⟩, ?_, hT.1, ?_⟩, ?_⟩
  rotate_left 6
  · intro hc fl9 hA9 p hp1 hp2
    have hfl9 := AllocOK_unique _ fl9 fl1 hA9 hA1
    subst hfl9
    have htp : (t.StartNewTree key rid).treePages = [t.NewPage.1] := by
      unfold BPTreeIndex.treePages
      rw [if_neg hT.1, hT.2.1]
      rfl
    rw [htp]
    change p < t.NewPage.2.header.page_num_ at hp2
    have hold : ∀ p, 1 ≤ p → p < t.header.page_num_ → p ∈ fl := by
      intro p hp1 hp2
      rcases hc fl hA p hp1 hp2 with h0 | h0
      · unfold BPTreeIndex.treePages at h0
        rw [if_pos hroot] at h0
        cases h0
      · exact h0
    by_cases hlt : p < t.header.page_num_
    · rcases hacct p (Or.inl (hold p hp1 hlt)) with h1 | h1
      · exact Or.inr h1
      · rw [h1]; exact Or.inl (List.mem_singleton.2 rfl)
    · rcases hacct p (Or.inr ⟨by omega, hp2⟩) with h1 | h1
      · exact Or.inr h1
      · rw [h1]; exact Or.inl (List.mem_singleton.2 rfl)
  · show t.NewPage.2.header.leaf_max_size_ = 4
    rw [c4, hl4]
  · show t.NewPage.2.header.internal_max_size_ = 4
    rw [c5, hi4]
  · unfold BPTreeIndex.Stored; rw [if_pos hroot]; rfl
  · rw [Stored_of_TreeOK _ none fl1 0 hT]
    show entriesOf _ 0 t.NewPage.1 = _
    rw [entriesOf_zero _ _ _ hN, hent]; rfl
  · rw [if_pos hroot]; rfl
  · apply Search_of_HasEntry _ none fl1 0 hA1 hT key key (key + 1) t.NewPage.1 rid hw
    refine ⟨⟨0, t.NewPage.1, key, key + 1⟩, rfl, Relation.ReflTransGen.refl, le_refl _,
      by simp, _, hN, ?_⟩
    exact Insert_Lookup _ key rid (by simp [BPTreeLeafPage.Init])

theorem InsertDone_of_InsertedAt (t t3 : BPTreeIndex) (h : Nat) (fl : List Int) (key : Int)
    (rid : RID) (hl4 : t.header.leaf_max_size_ = 4) (hi4 : t.header.internal_max_size_ = 4)
    (hT : t.TreeOK none fl h) (hins : InsertedAt t t3 h key rid) :
    t.InsertDone { t3 with header := { t3.header with
      num_entries_ := t3.header.num_entries_ + 1 } } key rid := by
  obtain ⟨d1, d2, d3, fl1, h1, lo, hi, f, e1, e2, e3, e4, -, A, B, e5, e6⟩ := hins
  have hA1 : BPTreeIndex.AllocOK { t3 with header := { t3.header with
      num_entries_ := t3.header.num_entries_ + 1 } } fl1 := e1
  have hT1 : BPTreeIndex.TreeOK { t3 with header := { t3.header with
      num_entries_ := t3.header.num_entries_ + 1 } } none fl1 h1 := e2
  refine ⟨⟨d1.trans hl4, d2.trans hi4, fl1, hA1, Or.inr ⟨h1, hT1⟩⟩, ⟨A, B, ?_, ?_⟩, ?_, hT1.1,
    ?_⟩
  · rw [Stored_of_TreeOK t none fl h hT]; exact e5
  · rw [Stored_of_TreeOK _ none fl1 h1 hT1]; exact e6
  · rw [if_neg hT.1]
    show t3.header.num_entries_ + 1 = _
    rw [d3]
  · exact Search_of_HasEntry _ none fl1 h1 hA1 hT1 key lo hi f rid e3 e4

theorem treePages_of_TreeOK (t : BPTreeIndex) (ex : Option Int) (fl : List Int) (h : Nat)
    (hT : t.TreeOK ex fl h) : t.treePages = pagesOf t.nodes h t.header.root_page_id_ := by
  unfold BPTreeIndex.treePages
  rw [if_neg hT.1, hT.2.1]
  have : ((h : Int) + 1).toNat - 1 = h := by omega
  rw [this]

theorem Covered_iff_Cov (t : BPTreeIndex) (ex : Option Int) (fl : List Int) (h : Nat)
    (hT : t.TreeOK ex fl h) : t.Covered ↔ t.Cov h := by
  unfold BPTreeIndex.Covered BPTreeIndex.Cov
  rw [treePages_of_TreeOK t ex fl h hT]

theorem Covered_of_InsertedAt (t t3 : BPTreeIndex) (h : Nat) (fl : List Int) (key : Int)
    (rid : RID) (hT : t.TreeOK none fl h) (hins : InsertedAt t t3 h key rid) :
    t.Covered → BPTreeIndex.Covered { t3 with header := { t3.header with
      num_entries_ := t3.header.num_entries_ + 1 } } := by
  obtain ⟨d1, d2, d3, fl1, h1, lo, hi, f, e1, e2, e3, e4, e7, A, B, e5, e6⟩ := hins
  have hT1 : BPTreeIndex.TreeOK { t3 with header := { t3.header with
      num_entries_ := t3.header.num_entries_ + 1 } } none fl1 h1 := e2
  intro hc
  rw [Covered_iff_Cov _ none fl1 h1 hT1]
  exact e7 ((Covered_iff_Cov t none fl h hT).1 hc)

/-- `Insert` returns, with the effect `InsertDone`, and keeps the page coverage. -/
theorem Insert_spec (t : BPTreeIndex) (key : Int) (rid : RID) (hinv : t.Inv) :
    ∃ t1, t.Insert key rid = some t1 ∧ t.InsertDone t1 key rid ∧
      (t.Covered → t1.Covered) := by
  by_cases hroot : t.header.root_page_id_ = INVALID_PAGE_ID
  · refine ⟨t.StartNewTree key rid, ?_, Insert_empty_ok t key rid hinv hroot⟩
    unfold BPTreeIndex.Insert
    rw [if_pos hroot]
  · obtain ⟨hl4, hi4, fl, hA, hcase⟩ := hinv
    rcases hcase with ⟨h0, -⟩ | ⟨h, hT⟩
    · exact absurd h0 hroot
    obtain ⟨lo0, hi0, f, hw0⟩ := hT.2.2.1
    have hw := WFSub_weaken t.nodes h _ _ _ _ _ _ (min lo0 key) (max hi0 (key + 1))
      (min_le_left _ _) (le_max_left _ _) hw0
    obtain ⟨q, q1, q2, q3, q4, q5, q6, l, par, n, hl, hwq⟩ :=
      FindLeafPage_of_TreeOK t none fl h hA hT key _ _ f hw (min_le_right _ _)
        (lt_of_lt_of_le (by omega) (le_max_right _ _))
    obtain ⟨qh, X, qlo, qhi⟩ := q
    simp only at q1 q3 q4 q5 q6 hl hwq q2
    subst q1
    obtain ⟨l2, w1, w2, w3, w4, w5, w6, w7, w8, w9⟩ := hwq
    rw [hl] at w1
    cases w1
    have hgl : t.getLeaf X = some l := by simp only [BPTreeIndex.getLeaf, hl]
    have hXmem : X ∈ pagesOf t.nodes h t.header.root_page_id_ :=
      (Site_sublist t.nodes _ _ q2).subset (mem_pagesOf_self _ _ _)
    have hXr := TreeOK_page t fl h hT X hXmem
    have hfu := TreeOK_fuel t none fl h hA hT
    unfold BPTreeIndex.Insert
    rw [if_neg hroot]
    by_cases hroom : l.entries.length < l.max_size_
    · -- the leaf has room
      have hres : t.InsertIntoLeaf key rid = some
          { t.setNode X (.leaf (l.Insert key rid)) with header :=
            { (t.setNode X (.leaf (l.Insert key rid))).header with
              num_entries_ := (t.setNode X (.leaf (l.Insert key rid))).header.num_entries_ + 1 } } := by
        simp only [BPTreeIndex.InsertIntoLeaf, q3, hgl, BPTreeLeafPage.GetSize, hroom, if_true]
      refine ⟨_, hres, ?_⟩
      have hr := Repl_leaf t.nodes X qlo qhi l (l.Insert key rid) hl rfl rfl rfl rfl
        (Insert_sorted l key rid w8) (by
          intro e he
          rcases Insert_mem l key rid e he with h1 | h1
          · rw [h1]; exact ⟨q4, le_of_lt q5⟩
          · exact w9 e h1)
      have hXn : (t.setNode X (.leaf (l.Insert key rid))).nodes X =
          some (.leaf (l.Insert key rid)) := by rw [nodes_setNode, if_pos rfl]
      obtain ⟨r1, r2, r3, A, B, e1, e2⟩ := TreeOK_replace t
        (t.setNode X (.leaf (l.Insert key rid))) none none fl fl h _ _ f [] ⟨0, X, qlo, qhi⟩
        hT hw q2 hr (fun y hy => by cases hy) rfl rfl (le_refl _)
        (by
          intro y hy
          simp only [pagesOf, List.mem_singleton] at hy
          rw [hy]
          refine ⟨hXr.1, hXr.2.1, hXr.2.2.1, ?_⟩
          intro z hz _
          rw [hXn] at hz
          cases hz
          have hfl := hXr.2.2.2 _ hl
          have hfl1 : l.entries.length ≤ 4 := hfl.1
          have hfl2 : l.parent_page_id_ ≠ INVALID_PAGE_ID → 2 ≤ l.entries.length := hfl.2.2
          rw [w4] at hroom
          refine ⟨?_, ?_, ?_⟩
          · rw [Insert_length]; omega
          · rw [Insert_length]; omega
          · intro hp
            rw [Insert_length]
            have := hfl2 hp
            omega)
        (fun y hy => Or.inl hy) (fun y hy => by cases hy)
      obtain ⟨k1, k2⟩ := TreeOK_replace_keep t
        (t.setNode X (.leaf (l.Insert key rid))) none fl h _ _ [] ⟨0, X, qlo, qhi⟩
        hT q2 hr (fun y hy => by cases hy) rfl
      have hins : InsertedAt t (t.setNode X (.leaf (l.Insert key rid))) h key rid := by
        refine ⟨rfl, rfl, rfl, fl, h, _, _, f, hA, r1, r2, ?_, ?_, ?_⟩
        rotate_left 2
        · simp only at e1 e2
          rw [entriesOf_zero _ _ _ hl] at e1
          rw [entriesOf_zero _ _ _ hXn, Insert_entries] at e2
          refine ⟨A ++ l.entries.take (l.KeyIndex key), l.entries.drop (l.KeyIndex key) ++ B,
            ?_, ?_⟩
          · rw [e1]
            simp only [List.append_assoc]
            rw [← List.append_assoc (l.entries.take _), List.take_append_drop]
          · rw [e2]; simp only [List.append_assoc, List.cons_append]
        · exact ⟨⟨0, X, qlo, qhi⟩, rfl, r3, q4, q5, _, hXn, Insert_Lookup l key rid w8⟩
        · intro hc fl9 hA9
          have hfl9 := AllocOK_unique _ fl9 fl hA9 hA
          subst hfl9
          intro p hp1 hp2
          rcases hc fl9 hA p hp1 hp2 with h0 | h0
          · rcases k1 p h0 with h1 | h1
            · simp only [pagesOf, List.mem_singleton] at h1
              rw [h1]
              exact Or.inl (k2 X (mem_pagesOf_self _ _ _))
            · exact Or.inl h1
          · exact Or.inr h0
      exact ⟨InsertDone_of_InsertedAt t _ h fl key rid hl4 hi4 hT hins,
        Covered_of_InsertedAt t _ h fl key rid hT hins⟩
    · -- the leaf is split
      have hlen : 4 ≤ l.entries.length := by rw [w4] at hroom; omega
      have hRlen := List.length_drop (l.entries.length - l.entries.length / 2) l.entries
      have hLlen := List.length_take (l.entries.length - l.entries.length / 2) l.entries
      cases hdrop : l.entries.drop (l.entries.length - l.entries.length / 2) with
      | nil => rw [hdrop] at hRlen; simp only [List.length_nil] at hRlen; omega
      | cons e rest =>
        have htake : l.entries.take (l.entries.length - l.entries.length / 2) ≠ [] := by
          intro h0
          rw [h0] at hLlen
          simp only [List.length_nil] at hLlen
          omega
        obtain ⟨leaf3, new3, heq, a1, a2, a3, a4, b1, b2, b3, b4, hcase⟩ :=
          InsertIntoLeaf_split_eq t key rid X l e rest q3 hgl hroom hdrop
        obtain ⟨fl2, n1, n2, n3, n4, n5, n6, n7⟩ := NewPage_alloc t fl hA
        have hacct := NewPage_acct t fl fl2 hA n1
        obtain ⟨c1, c2, c3, c4, c5⟩ := NewPage_header t
        have hnn := NewPage_nodes t
        have hXN : X ≠ t.NewPage.1 := by
          intro h0
          rcases n5 with h1 | h1
          · rw [← h0] at h1; exact hXr.2.2.1 h1
          · rw [← h0] at h1; omega
        have hNfresh : t.NewPage.1 ∉ pagesOf t.nodes h t.header.root_page_id_ := by
          intro h0
          have := TreeOK_page t fl h hT _ h0
          rcases n5 with h1 | h1
          · exact this.2.2.1 h1
          · omega
        have h2X : ((t.NewPage.2.setNode X (.leaf leaf3)).setNode t.NewPage.1
            (.leaf new3)).nodes X = some (.leaf leaf3) := by
          rw [nodes_setNode, if_neg hXN, nodes_setNode, if_pos rfl]
        have h2N : ((t.NewPage.2.setNode X (.leaf leaf3)).setNode t.NewPage.1
            (.leaf new3)).nodes t.NewPage.1 = some (.leaf new3) := by
          rw [nodes_setNode, if_pos rfl]
        obtain ⟨sp, en, has, len3, lenN⟩ := Split_leaf t.nodes
          ((t.NewPage.2.setNode X (.leaf leaf3)).setNode t.NewPage.1 (.leaf new3)).nodes
          X t.NewPage.1 qlo qhi key rid l leaf3 new3 e rest _ hl hXN w8 w9 q4 q5 hdrop htake
          a1 a2 a3 a4 b1 b2 b3 b4 hcase h2X h2N
          (by
            intro y hy1 hy2
            rw [nodes_setNode, if_neg hy2, nodes_setNode, if_neg hy1, hnn])
        have hsz : 2 ≤ leaf3.entries.length ∧ leaf3.entries.length ≤ 4 ∧
            2 ≤ new3.entries.length ∧ new3.entries.length ≤ 4 := by
          have hl4a : l.entries.length ≤ 4 := (hXr.2.2.2 _ hl).1
          rw [hdrop] at hRlen
          simp only [List.length_cons] at hRlen
          rcases hcase with ⟨-, la, h1, h2, h3⟩ | ⟨-, lb, h1, h2, h3⟩
          · rw [h2, h3, Insert_length, h1, hLlen]
            simp only [List.length_cons]
            omega
          · rw [h2, h3, Insert_length, h1, hLlen]
            simp only [List.length_cons]
            omega
        have hst : SplitState t
            ((t.NewPage.2.setNode X (.leaf leaf3)).setNode t.NewPage.1 (.leaf new3))
            fl fl2 h ⟨0, X, qlo, qhi⟩ [t.NewPage.1] e.1 t.NewPage.1 key rid := by
          refine ⟨sp, c1, c2, c4, c5, c3, n1, n6, n7, ?_, ?_, ?_, en, has, ?_, ?_, ?_⟩
          rotate_left 3
          · intro y hy
            simp only [pagesOf, List.mem_singleton] at hy
            rw [hy]
            exact List.mem_append_left _ (mem_pagesOf_self _ _ _)
          · intro y hy
            simp only [List.mem_singleton] at hy
            rw [hy]
            exact List.mem_append_right _ (mem_pagesOf_self _ _ _)
          · intro p hp
            have hp' : p ∈ fl ∨ (t.header.page_num_ ≤ p ∧ p < t.NewPage.2.header.page_num_) := hp
            rcases hacct p hp' with h1 | h1
            · exact Or.inl h1
            · exact Or.inr (List.mem_singleton.2 h1)
          · intro y hy
            simp only [List.mem_singleton] at hy
            rw [hy]
            exact ⟨hNfresh, n2, n3, n4⟩
          · intro y hy z hz
            simp only [pagesOf, List.mem_append, List.mem_singleton] at hy
            rcases hy with h1 | h1
            · rw [h1, h2X] at hz
              cases hz
              exact Filled_leaf_of_size leaf3 hsz.1 hsz.2.1
            · rw [h1, h2N] at hz
              cases hz
              exact Filled_leaf_of_size new3 hsz.2.2.1 hsz.2.2.2
          · intro y hy
            rcases hy with hy | hy
            · rw [h2X] at hy
              cases hy
              exact hsz.1
            · rw [h2N] at hy
              cases hy
              exact hsz.2.2.1
        obtain ⟨t3, g1, g2⟩ := InsertIntoParent_ok t fl h _ _ f key rid hT hi4 hA hw _ q2
          _ fl2 [t.NewPage.1] e.1 t.NewPage.1
          ((t.NewPage.2.setNode X (.leaf leaf3)).setNode t.NewPage.1 (.leaf new3)).fuel hst
          (by
            show h + 1 ≤ (t.NewPage.2.header.page_num_.toNat + 1) + 0
            unfold BPTreeIndex.fuel at hfu
            omega)
        simp only at g1
        refine ⟨_, ?_, InsertDone_of_InsertedAt t t3 h fl key rid hl4 hi4 hT g2,
          Covered_of_InsertedAt t t3 h fl key rid hT g2⟩
        rw [heq, g1]

theorem Insert_ok (t : BPTreeIndex) (key : Int) (rid : RID) (hinv : t.Inv) :
    ∃ t1, t.Insert key rid = some t1 ∧ t.InsertDone t1 key rid := by
  obtain ⟨t1, h1, h2, -⟩ := Insert_spec t key rid hinv
  exact ⟨t1, h1, h2⟩

/-! ## B+tree: removing an entry from a leaf -/

theorem RemoveRecord_some (l l1 : BPTreeLeafPage) (key : Int) (h : l.RemoveRecord key = some l1) :
    ∃ rid, l.entries = l.entries.take (l.KeyIndex key) ++
        (key, rid) :: l.entries.drop (l.KeyIndex key + 1) ∧
      l1.entries = l.entries.take (l.KeyIndex key) ++ l.entries.drop (l.KeyIndex key + 1) ∧
      l1.page_id_ = l.page_id_ ∧ l1.parent_page_id_ = l.parent_page_id_ ∧
      l1.max_size_ = l.max_size_ ∧ l1.next_page_id_ = l.next_page_id_ := by
  unfold BPTreeLeafPage.RemoveRecord at h
  simp only at h
  cases hg : l.entries.get? (l.KeyIndex key) with
  | none => rw [hg] at h; cases h
  | some e =>
    rw [hg] at h
    simp only at h
    by_cases hk : e.1 = key
    · rw [if_pos hk] at h
      cases h
      have hlt : l.KeyIndex key < l.entries.length := by
        rw [List.get?_eq_some] at hg
        exact hg.1
      refine ⟨e.2, ?_, ?_, rfl, rfl, rfl, rfl⟩
      · have h1 : l.entries.drop (l.KeyIndex key) = e :: l.entries.drop (l.KeyIndex key + 1) := by
          rw [List.drop_eq_getElem_cons hlt]
          congr 1
          rw [List.get?_eq_getElem? , List.getElem?_eq_getElem hlt] at hg
          exact Option.some.inj hg
        have h2 : (key, e.2) = e := by rw [← hk]
        rw [h2, ← h1, List.take_append_drop]
      · show l.entries.eraseIdx (l.KeyIndex key) = _
        rw [List.eraseIdx_eq_take_drop_succ]
    · rw [if_neg hk] at h; cases h

theorem RemoveRecord_none (l : BPTreeLeafPage) (key : Int) (h : l.RemoveRecord key = none) :
    l.Lookup key = [] := by
  unfold BPTreeLeafPage.RemoveRecord at h
  simp only at h
  unfold BPTreeLeafPage.Lookup
  cases hg : l.entries.get? (l.KeyIndex key) with
  | none =>
    rw [List.get?_eq_none] at hg
    rw [List.drop_eq_nil_of_le hg]
    rfl
  | some e =>
    rw [hg] at h
    simp only at h
    by_cases hk : e.1 = key
    · rw [if_pos hk] at h; cases h
    · have hlt : l.KeyIndex key < l.entries.length := by
        rw [List.get?_eq_some] at hg
        exact hg.1
      rw [List.drop_eq_getElem_cons hlt]
      rw [List.get?_eq_getElem? , List.getElem?_eq_getElem hlt] at hg
      have := Option.some.inj hg
      rw [this, List.takeWhile_cons]
      simp [hk]

/-! ## B+tree: freeing a page -/

theorem FreeChain_update (nf : Int → Int) (p v : Int) (fl : List Int) (hp : p ∉ fl) :
    ∀ first, FreeChain nf first fl → FreeChain (Function.update nf p v) first fl := by
  induction fl with
  | nil => intro first h; exact h
  | cons a fl ih =>
    intro first h
    obtain ⟨h1, h2, h3⟩ := h
    simp only [List.mem_cons, not_or] at hp
    refine ⟨h1, h2, ?_⟩
    rw [Function.update_noteq (fun h0 => hp.1 h0.symm)]
    exact ih hp.2 _ h3

theorem DeletePage_alloc (t : BPTreeIndex) (fl : List Int) (p : Int) (ha : t.AllocOK fl)
    (hp : p ∉ fl) (h1 : 1 ≤ p) (h2 : p < t.header.page_num_) :
    (t.DeletePage p).AllocOK (p :: fl) := by
  obtain ⟨a1, a2, a3, a4⟩ := ha
  refine ⟨a1, ⟨rfl, ?_, ?_⟩, List.nodup_cons.2 ⟨hp, a3⟩, ?_⟩
  · unfold INVALID_PAGE_ID; omega
  · show FreeChain (Function.update t.next_free p t.header.first_free_page_id_)
      (Function.update t.next_free p t.header.first_free_page_id_ p) fl
    rw [Function.update_same]
    exact FreeChain_update _ _ _ _ hp _ a2
  · intro x hx
    rcases List.mem_cons.1 hx with h | h
    · rw [h]; exact ⟨h1, h2⟩
    · exact a4 x h

/-! ## B+tree: the exception of a tree -/

theorem TreeOK_drop_exception (t : BPTreeIndex) (x : Int) (fl : List Int) (h : Nat)
    (hT : t.TreeOK (some x) fl h) (hx : ∀ y, t.nodes x = some y → y.Filled) :
    t.TreeOK none fl h := by
  obtain ⟨a1, a2, a3, a4, a5⟩ := hT
  refine ⟨a1, a2, a3, a4, ?_⟩
  intro p hp
  refine ⟨(a5 p hp).1, (a5 p hp).2.1, (a5 p hp).2.2.1, ?_⟩
  intro y hy _
  by_cases hpx : p = x
  · rw [hpx] at hy; exact hx y hy
  · exact (a5 p hp).2.2.2 y hy (fun h0 => hpx (Option.some.inj h0).symm)

theorem TreeOK_add_exception (t : BPTreeIndex) (x : Option Int) (fl : List Int) (h : Nat)
    (hT : t.TreeOK none fl h) : t.TreeOK x fl h := by
  obtain ⟨a1, a2, a3, a4, a5⟩ := hT
  refine ⟨a1, a2, a3, a4, ?_⟩
  intro p hp
  exact ⟨(a5 p hp).1, (a5 p hp).2.1, (a5 p hp).2.2.1,
    fun y hy _ => (a5 p hp).2.2.2 y hy (by simp)⟩

theorem Site_eq_of_height (nodes : Int → Option BPTreePage) (a z : Pos) (hs : Site nodes a z)
    (hh : z.h = a.h) : z = a := by
  rcases Relation.ReflTransGen.cases_tail hs with h | ⟨p, hap, hpz⟩
  · exact h
  · have h1 := Site_height nodes a p hap
    obtain ⟨_, h2, _⟩ := hpz
    omega

theorem Site_parent (nodes : Int → Option BPTreePage) (a z : Pos) (hs : Site nodes a z)
    (hh : z.h < a.h) : ∃ p, Site nodes a p ∧ ChildStep nodes p z := by
  rcases Relation.ReflTransGen.cases_tail hs with h | ⟨p, hap, hpz⟩
  · rw [h] at hh; omega
  · exact ⟨p, hap, hpz⟩

/-! ## B+tree: rebalancing below one parent -/

theorem Block_tree (t t1 : BPTreeIndex) (ex ex1 : Option Int) (fl fl1 : List Int) (h : Nat)
    (lo hi f : Int) (j : Nat) (P plo phi : Int) (nd nd1 : BPTreeInternalPage)
    (pre blk blk1 post : List (Int × Int))
    (hT : t.TreeOK ex fl h)
    (hw : WFSub t.nodes h t.header.root_page_id_ INVALID_PAGE_ID lo hi f INVALID_PAGE_ID)
    (hs : Site t.nodes ⟨h, t.header.root_page_id_, lo, hi⟩ ⟨j + 1, P, plo, phi⟩)
    (hn : t.nodes P = some (.internal nd)) (hn1 : t1.nodes P = some (.internal nd1))
    (hid : nd1.page_id_ = nd.page_id_) (hpar : nd1.parent_page_id_ = nd.parent_page_id_)
    (hmax : nd1.max_size_ = nd.max_size_)
    (he : setHeadKey plo nd.entries = pre ++ (blk ++ post))
    (he1 : setHeadKey plo nd1.entries = pre ++ (blk1 ++ post))
    (hne1 : blk1 ≠ [])
    (hub : ub (blk1 ++ post) phi = ub (blk ++ post) phi)
    (hwf : ∀ f n, KidsSeg (fun c l u f n => WFSub t.nodes j c P l u f n) blk (ub post phi) f n →
      KidsSeg (fun c l u f n => WFSub t1.nodes j c P l u f n) blk1 (ub post phi) f n)
    (hpages : ∀ x ∈ blk1.flatMap (fun e => pagesOf t1.nodes j e.2),
      x ∈ blk.flatMap (fun e => pagesOf t.nodes j e.2))
    (hnodup : (blk1.flatMap (fun e => pagesOf t1.nodes j e.2)).Nodup)
    (hframe : ∀ x, x ≠ P → x ∉ blk.flatMap (fun e => pagesOf t.nodes j e.2) →
      t1.nodes x = t.nodes x)
    (hent : blk1.flatMap (fun e => entriesOf t1.nodes j e.2) =
      blk.flatMap (fun e => entriesOf t.nodes j e.2))
    (hroot : t1.header.root_page_id_ = t.header.root_page_id_)
    (hh : t1.header.tree_height_ = t.header.tree_height_)
    (hpn : t.header.page_num_ ≤ t1.header.page_num_)
    (hnew : ∀ p, p = P ∨ p ∈ blk1.flatMap (fun e => pagesOf t1.nodes j e.2) →
      p ∉ fl1 ∧ ∀ x, t1.nodes p = some x → ex1 ≠ some p → x.Filled)
    (hfl : ∀ p ∈ fl1, p ∈ fl ∨ p ∈ blk.flatMap (fun e => pagesOf t.nodes j e.2))
    (hex : ∀ p, ex = some p → p = P ∨ p ∈ blk.flatMap (fun e => pagesOf t.nodes j e.2)) :
    t1.TreeOK ex1 fl1 h ∧
    WFSub t1.nodes h t1.header.root_page_id_ INVALID_PAGE_ID lo hi f INVALID_PAGE_ID ∧
    Site t1.nodes ⟨h, t1.header.root_page_id_, lo, hi⟩ ⟨j + 1, P, plo, phi⟩ ∧
    entriesOf t1.nodes h t1.header.root_page_id_ = entriesOf t.nodes h t.header.root_page_id_ ∧
    (∀ p ∈ pagesOf t.nodes h t.header.root_page_id_,
      p ∈ blk.flatMap (fun e => pagesOf t.nodes j e.2) ∨
      p ∈ pagesOf t1.nodes h t1.header.root_page_id_) ∧
    (∀ p ∈ blk1.flatMap (fun e => pagesOf t1.nodes j e.2),
      p ∈ pagesOf t1.nodes h t1.header.root_page_id_) := by
  have hsub := Site_sublist t.nodes _ _ hs
  simp only at hsub
  have hndP : (pagesOf t.nodes (j + 1) P).Nodup := hsub.nodup hT.2.2.2.1
  obtain ⟨r1, r2, r3, r4⟩ := Repl_of_block t.nodes t1.nodes [] j P plo phi nd nd1 hn hn1 hid hpar
    hmax pre blk blk1 post he he1 hne1 hub hndP (fun x hx => by cases hx) hwf
    (fun x hx => Or.inl (hpages x hx)) hnodup (fun x h1 h2 _ => hframe x h1 h2)
  have hpg : pagesOf t.nodes (j + 1) P =
      P :: (pre.flatMap (fun e => pagesOf t.nodes j e.2) ++
        (blk.flatMap (fun e => pagesOf t.nodes j e.2) ++
          post.flatMap (fun e => pagesOf t.nodes j e.2))) := by
    rw [pagesOf_succ t.nodes j P nd hn, ← flatMap_setHeadKey (pagesOf t.nodes j) plo nd.entries, he,
      List.flatMap_append, List.flatMap_append]
  have hndP2 := hndP
  rw [hpg] at hndP2
  obtain ⟨n1, n2⟩ := List.nodup_cons.1 hndP2
  rw [List.nodup_append] at n2
  obtain ⟨-, n3, n4⟩ := n2
  rw [List.nodup_append] at n3
  obtain ⟨-, -, n5⟩ := n3
  have hblkP : ∀ p ∈ blk.flatMap (fun e => pagesOf t.nodes j e.2),
      p ∈ pagesOf t.nodes (j + 1) P := by
    intro p hp
    rw [hpg]
    exact List.mem_cons_of_mem _ (List.mem_append_right _ (List.mem_append_left _ hp))
  have hold : ∀ p ∈ pagesOf t.nodes (j + 1) P, 1 ≤ p ∧ p < t1.header.page_num_ := by
    intro p hp
    have := hT.2.2.2.2 p (hsub.subset hp)
    exact ⟨this.1, lt_of_lt_of_le this.2.1 hpn⟩
  have hother : ∀ p, p ∈ pre.flatMap (fun e => pagesOf t.nodes j e.2) ∨
      p ∈ post.flatMap (fun e => pagesOf t.nodes j e.2) →
      p ∈ pagesOf t.nodes (j + 1) P ∧ p ≠ P ∧ p ∉ blk.flatMap (fun e => pagesOf t.nodes j e.2) := by
    intro p hp
    rcases hp with hp | hp
    · refine ⟨?_, ?_, ?_⟩
      · rw [hpg]; exact List.mem_cons_of_mem _ (List.mem_append_left _ hp)
      · intro h0; rw [h0] at hp; exact n1 (List.mem_append_left _ hp)
      · intro h0; exact n4 hp (List.mem_append_left _ h0)
    · refine ⟨?_, ?_, ?_⟩
      · rw [hpg]
        exact List.mem_cons_of_mem _ (List.mem_append_right _ (List.mem_append_right _ hp))
      · intro h0; rw [h0] at hp
        exact n1 (List.mem_append_right _ (List.mem_append_right _ hp))
      · intro h0; exact n5 h0 hp
  obtain ⟨q1, q2, q3, A, B, e1, e2⟩ := TreeOK_replace t t1 ex ex1 fl fl1 h lo hi f []
    ⟨j + 1, P, plo, phi⟩ hT hw hs r1 (fun x hx => by cases hx) hroot hh hpn
    (by
      intro p hp
      have hp0 : p ∈ pagesOf t.nodes (j + 1) P := by
        rcases r1.pages p hp with h1 | h1
        · exact h1
        · cases h1
      refine ⟨(hold p hp0).1, (hold p hp0).2, ?_, ?_⟩
      · simp only at hp
        rw [r2] at hp
        simp only [List.mem_cons, List.mem_append] at hp
        rcases hp with h1 | h1 | h1 | h1
        · exact (hnew p (Or.inl h1)).1
        · intro h2
          rcases hfl p h2 with h3 | h3
          · exact (hT.2.2.2.2 p (hsub.subset hp0)).2.2.1 h3
          · exact (hother p (Or.inl h1)).2.2 h3
        · exact (hnew p (Or.inr h1)).1
        · intro h2
          rcases hfl p h2 with h3 | h3
          · exact (hT.2.2.2.2 p (hsub.subset hp0)).2.2.1 h3
          · exact (hother p (Or.inr h1)).2.2 h3
      · simp only at hp
        rw [r2] at hp
        simp only [List.mem_cons, List.mem_append] at hp
        have hcase : p = P ∨ p ∈ blk1.flatMap (fun e => pagesOf t1.nodes j e.2) ∨
            (p ∈ pre.flatMap (fun e => pagesOf t.nodes j e.2) ∨
              p ∈ post.flatMap (fun e => pagesOf t.nodes j e.2)) := by
          rcases hp with h1 | h1 | h1 | h1
          · exact Or.inl h1
          · exact Or.inr (Or.inr (Or.inl h1))
          · exact Or.inr (Or.inl h1)
          · exact Or.inr (Or.inr (Or.inr h1))
        rcases hcase with h1 | h1 | h1
        · exact (hnew p (Or.inl h1)).2
        · exact (hnew p (Or.inr h1)).2
        · intro x hx _
          obtain ⟨o1, o2, o3⟩ := hother p h1
          rw [hframe p o2 o3] at hx
          apply (hT.2.2.2.2 p (hsub.subset hp0)).2.2.2 x hx
          intro h0
          rcases hex p h0 with h2 | h2
          · exact o2 h2
          · exact o3 h2)
    (by
      intro p hp
      rcases hfl p hp with h1 | h1
      · exact Or.inl h1
      · exact Or.inr (hblkP p h1))
    (by
      intro p hp
      rcases hex p hp with h1 | h1
      · rw [h1]; exact mem_pagesOf_self _ _ _
      · exact hblkP p h1)
  obtain ⟨k1, k2⟩ := TreeOK_replace_keep t t1 ex fl h lo hi [] ⟨j + 1, P, plo, phi⟩ hT hs r1
    (fun x hx => by cases hx) hroot
  simp only at k1 k2
  refine ⟨q1, q2, q3, ?_, ?_, ?_⟩
  · simp only at e1 e2
    rw [e1, e2, r3, r4, hent]
  · intro p hp
    rcases k1 p hp with h1 | h1
    · rw [hpg] at h1
      simp only [List.mem_cons, List.mem_append] at h1
      rcases h1 with h2 | h2 | h2 | h2
      · right
        rw [h2]
        exact k2 P (mem_pagesOf_self _ _ _)
      · right
        apply k2
        rw [r2]
        exact List.mem_cons_of_mem _ (List.mem_append_left _ h2)
      · exact Or.inl h2
      · right
        apply k2
        rw [r2]
        exact List.mem_cons_of_mem _ (List.mem_append_right _ (List.mem_append_right _ h2))
    · exact Or.inr h1
  · intro p hp
    apply k2
    rw [r2]
    exact List.mem_cons_of_mem _ (List.mem_append_right _ (List.mem_append_left _ hp))

/-! ## B+tree: children that stay and children that move -/

theorem kids_frame (nodes nodes1 : Int → Option BPTreePage) (j : Nat) (es : List (Int × Int))
    (hag : ∀ c ∈ es.map Prod.snd, ∀ x ∈ pagesOf nodes j c, nodes1 x = nodes x) :
    (∀ par hi f n, KidsSeg (fun c l u f n => WFSub nodes j c par l u f n) es hi f n →
      KidsSeg (fun c l u f n => WFSub nodes1 j c par l u f n) es hi f n) ∧
    es.flatMap (fun e => pagesOf nodes1 j e.2) = es.flatMap (fun e => pagesOf nodes j e.2) ∧
    es.flatMap (fun e => entriesOf nodes1 j e.2) = es.flatMap (fun e => entriesOf nodes j e.2) := by
  have hag2 : ∀ e ∈ es, ∀ x ∈ pagesOf nodes j e.2, nodes1 x = nodes x :=
    fun e he => hag e.2 (List.mem_map.2 ⟨e, he, rfl⟩)
  refine ⟨?_, ?_, ?_⟩
  · intro par hi f n hk
    apply KidsSeg_imp _ _ _ _ _ hk
    intro e he l u f n hw
    exact (frame_sub nodes nodes1 j e.2 (hag2 e he)).2.2.2 _ _ _ _ _ hw
  · exact List.flatMap_congr (fun e he => (frame_sub nodes nodes1 j e.2 (hag2 e he)).1)
  · exact List.flatMap_congr (fun e he => (frame_sub nodes nodes1 j e.2 (hag2 e he)).2.1)

theorem kids_reparent (nodes nodes1 : Int → Option BPTreePage) (j : Nat) (es : List (Int × Int))
    (par1 : Int)
    (hnd : ∀ c ∈ es.map Prod.snd, (pagesOf nodes j c).Nodup)
    (hroot : ∀ c ∈ es.map Prod.snd, nodes1 c = (nodes c).map (fun y => y.SetParentPageId par1))
    (hag : ∀ c ∈ es.map Prod.snd, ∀ x ∈ pagesOf nodes j c, x ≠ c → nodes1 x = nodes x) :
    (∀ par hi f n, KidsSeg (fun c l u f n => WFSub nodes j c par l u f n) es hi f n →
      KidsSeg (fun c l u f n => WFSub nodes1 j c par1 l u f n) es hi f n) ∧
    es.flatMap (fun e => pagesOf nodes1 j e.2) = es.flatMap (fun e => pagesOf nodes j e.2) ∧
    es.flatMap (fun e => entriesOf nodes1 j e.2) = es.flatMap (fun e => entriesOf nodes j e.2) := by
  have hm : ∀ e ∈ es, e.2 ∈ es.map Prod.snd := fun e he => List.mem_map.2 ⟨e, he, rfl⟩
  refine ⟨?_, ?_, ?_⟩
  · intro par hi f n hk
    apply KidsSeg_imp _ _ _ _ _ hk
    intro e he l u f n hw
    exact (WFSub_setParent nodes nodes1 j e.2 par par1 l u f n hw (hnd _ (hm e he))
      (hroot _ (hm e he)) (hag _ (hm e he))).1
  · exact List.flatMap_congr (fun e he => (pagesOf_setParent nodes nodes1 j e.2 par1
      (hnd _ (hm e he)) (hroot _ (hm e he)) (hag _ (hm e he))).1)
  · exact List.flatMap_congr (fun e he => (pagesOf_setParent nodes nodes1 j e.2 par1
      (hnd _ (hm e he)) (hroot _ (hm e he)) (hag _ (hm e he))).2)

theorem KidsSeg_congr_snd {P : Int → Int → Int → Int → Int → Prop} (es : List (Int × Int))
    (hi f n : Int) (hk : KidsSeg P es hi f n) : ∀ e ∈ es, ∃ l u f1 n1, P e.2 l u f1 n1 := by
  induction es generalizing f with
  | nil => intro e he; cases he
  | cons a es ih =>
    obtain ⟨m, h1, h2⟩ := hk
    intro e he
    rcases List.mem_cons.1 he with h | h
    · rw [h]; exact ⟨_, _, _, _, h1⟩
    · exact ih m h2 e h

/-! ## B+tree: two neighbouring leaves -/

theorem Coalesce_leaf_pair (nodes nodes1 : Int → Option BPTreePage) (P A B kA kB U : Int)
    (la lb : BPTreeLeafPage) (hA : nodes A = some (.leaf la)) (hB : nodes B = some (.leaf lb))
    (h1A : nodes1 A = some (.leaf (lb.MoveAllTo la).2)) :
    ∀ f n, KidsSeg (fun c l u f n => WFSub nodes 0 c P l u f n) [(kA, A), (kB, B)] U f n →
      KidsSeg (fun c l u f n => WFSub nodes1 0 c P l u f n) [(kA, A)] U f n := by
  intro f n hk
  obtain ⟨m, hwA, m2, hwB, hmn⟩ := hk
  have hmn1 : m2 = n := hmn
  subst hmn1
  obtain ⟨l1, a1, a2, a3, a4, a5, a6, a7, a8, a9⟩ := hwA
  obtain ⟨l2, b1, b2, b3, b4, b5, b6, b7, b8, b9⟩ := hwB
  simp only at a1 b1
  rw [hA] at a1
  rw [hB] at b1
  cases a1
  cases b1
  simp only [ub] at a7 a9 b7 b9
  refine ⟨m2, ⟨_, h1A, a2, a3, a4, b5, a6, le_trans a7 b7, ?_, ?_⟩, rfl⟩
  · show (la.entries ++ lb.entries).Pairwise _
    rw [List.pairwise_append]
    exact ⟨a8, b8, fun x hx y hy => le_trans (a9 x hx).2 (b9 y hy).1⟩
  · intro e he
    change e ∈ la.entries ++ lb.entries at he
    rcases List.mem_append.1 he with h | h
    · exact ⟨(a9 e h).1, le_trans (a9 e h).2 b7⟩
    · exact ⟨le_trans a7 (b9 e h).1, (b9 e h).2⟩

theorem Redistribute_leaf_left_pair (nodes nodes1 : Int → Option BPTreePage)
    (P A B kA kB U : Int) (la lb : BPTreeLeafPage) (e e1 : Int × RID) (rest : List (Int × RID))
    (hA : nodes A = some (.leaf la)) (hB : nodes B = some (.leaf lb))
    (hlb : lb.entries = e :: e1 :: rest)
    (h1A : nodes1 A = some (.leaf { la with entries := la.entries ++ [e] }))
    (h1B : nodes1 B = some (.leaf { lb with entries := e1 :: rest })) :
    ∀ f n, KidsSeg (fun c l u f n => WFSub nodes 0 c P l u f n) [(kA, A), (kB, B)] U f n →
      KidsSeg (fun c l u f n => WFSub nodes1 0 c P l u f n) [(kA, A), (e1.1, B)] U f n := by
  intro f n hk
  obtain ⟨m, hwA, m2, hwB, hmn⟩ := hk
  have hmn1 : m2 = n := hmn
  subst hmn1
  obtain ⟨l1, a1, a2, a3, a4, a5, a6, a7, a8, a9⟩ := hwA
  obtain ⟨l2, b1, b2, b3, b4, b5, b6, b7, b8, b9⟩ := hwB
  simp only at a1 b1
  rw [hA] at a1
  rw [hB] at b1
  cases a1
  cases b1
  simp only [ub] at a7 a9 b7 b9
  rw [hlb] at b8 b9
  have he := b9 e (List.mem_cons_self _ _)
  have he1 := b9 e1 (List.mem_cons_of_mem _ (List.mem_cons_self _ _))
  have hee1 : e.1 ≤ e1.1 := (List.pairwise_cons.1 b8).1 e1 (List.mem_cons_self _ _)
  refine ⟨m, ⟨_, h1A, a2, a3, a4, a5, a6, le_trans a7 (le_trans he.1 hee1), ?_, ?_⟩,
    m2, ⟨_, h1B, b2, b3, b4, b5, b6, he1.2, (List.pairwise_cons.1 b8).2, ?_⟩, rfl⟩
  · show (la.entries ++ [e]).Pairwise _
    rw [List.pairwise_append]
    refine ⟨a8, by simp, ?_⟩
    intro x hx y hy
    simp only [List.mem_singleton] at hy
    rw [hy]
    exact le_trans (a9 x hx).2 he.1
  · intro x hx
    change x ∈ la.entries ++ [e] at hx
    rcases List.mem_append.1 hx with h | h
    · exact ⟨(a9 x h).1, le_trans (a9 x h).2 (le_trans he.1 hee1)⟩
    · simp only [List.mem_singleton] at h
      rw [h]; exact ⟨le_trans a7 he.1, hee1⟩
  · intro x hx
    change x ∈ e1 :: rest at hx
    refine ⟨?_, (b9 x (List.mem_cons_of_mem _ hx)).2⟩
    rcases List.mem_cons.1 hx with h | h
    · rw [h]
    · exact (List.pairwise_cons.1 (List.pairwise_cons.1 b8).2).1 x h

theorem Redistribute_leaf_right_pair (nodes nodes1 : Int → Option BPTreePage)
    (P A B kA kB U : Int) (la lb : BPTreeLeafPage) (e : Int × RID)
    (hA : nodes A = some (.leaf la)) (hB : nodes B = some (.leaf lb))
    (hla : la.entries.getLast? = some e)
    (h1A : nodes1 A = some (.leaf { la with entries := la.entries.dropLast }))
    (h1B : nodes1 B = some (.leaf { lb with entries := e :: lb.entries })) :
    ∀ f n, KidsSeg (fun c l u f n => WFSub nodes 0 c P l u f n) [(kA, A), (kB, B)] U f n →
      KidsSeg (fun c l u f n => WFSub nodes1 0 c P l u f n) [(kA, A), (e.1, B)] U f n := by
  intro f n hk
  obtain ⟨m, hwA, m2, hwB, hmn⟩ := hk
  have hmn1 : m2 = n := hmn
  subst hmn1
  obtain ⟨l1, a1, a2, a3, a4, a5, a6, a7, a8, a9⟩ := hwA
  obtain ⟨l2, b1, b2, b3, b4, b5, b6, b7, b8, b9⟩ := hwB
  simp only at a1 b1
  rw [hA] at a1
  rw [hB] at b1
  cases a1
  cases b1
  simp only [ub] at a7 a9 b7 b9
  have hsplit : la.entries = la.entries.dropLast ++ [e] := by
    have hne : la.entries ≠ [] := by
      intro h0; rw [h0] at hla; simp at hla
    rw [List.getLast?_eq_getLast _ hne] at hla
    have := List.dropLast_append_getLast hne
    rw [Option.some.inj hla] at this
    exact this.symm
  have a8' := a8
  rw [hsplit, List.pairwise_append] at a8'
  have hem : e ∈ la.entries := by rw [hsplit]; simp
  have he := a9 e hem
  refine ⟨m, ⟨_, h1A, a2, a3, a4, a5, a6, he.1, a8'.1, ?_⟩,
    m2, ⟨_, h1B, b2, b3, b4, b5, b6, le_trans he.2 b7, ?_, ?_⟩, rfl⟩
  · intro x hx
    change x ∈ la.entries.dropLast at hx
    exact ⟨(a9 x (List.mem_of_mem_dropLast hx)).1, a8'.2.2 x hx e (by simp)⟩
  · show (e :: lb.entries).Pairwise _
    rw [List.pairwise_cons]
    exact ⟨fun y hy => le_trans he.2 (b9 y hy).1, b8⟩
  · intro x hx
    change x ∈ e :: lb.entries at hx
    rcases List.mem_cons.1 hx with h | h
    · rw [h]; exact ⟨le_refl _, le_trans he.2 b7⟩
    · exact ⟨le_trans he.2 (b9 x h).1, (b9 x h).2⟩

/-! ## B+tree: two neighbouring internal nodes -/

/-- Facts about the pages below two neighbouring internal nodes whose pages
are pairwise different. -/
theorem pair_pages (nodes : Int → Option BPTreePage) (j : Nat) (A B : Int)
    (na nb : BPTreeInternalPage) (hA : nodes A = some (.internal na))
    (hB : nodes B = some (.internal nb))
    (hnd : (pagesOf nodes (j + 1) A ++ pagesOf nodes (j + 1) B).Nodup) :
    A ≠ B ∧
    (∀ c ∈ na.entries.map Prod.snd, ∀ x ∈ pagesOf nodes j c,
      x ≠ A ∧ x ≠ B ∧ x ∉ nb.entries.map Prod.snd ∧
      x ∈ pagesOf nodes (j + 1) A ++ pagesOf nodes (j + 1) B) ∧
    (∀ c ∈ nb.entries.map Prod.snd, ∀ x ∈ pagesOf nodes j c,
      x ≠ A ∧ x ≠ B ∧ x ∉ na.entries.map Prod.snd ∧
      (x ≠ c → x ∉ nb.entries.map Prod.snd) ∧
      x ∈ pagesOf nodes (j + 1) A ++ pagesOf nodes (j + 1) B) ∧
    (∀ c ∈ na.entries.map Prod.snd, ∀ x ∈ pagesOf nodes j c, x ≠ c →
      x ∉ na.entries.map Prod.snd) ∧
    (∀ c ∈ na.entries.map Prod.snd, (pagesOf nodes j c).Nodup) ∧
    (∀ c ∈ nb.entries.map Prod.snd, (pagesOf nodes j c).Nodup) := by
  rw [pagesOf_succ nodes j A na hA, pagesOf_succ nodes j B nb hB] at hnd ⊢
  rw [List.nodup_append] at hnd
  obtain ⟨n1, n2, n3⟩ := hnd
  obtain ⟨n4, n5⟩ := List.nodup_cons.1 n1
  obtain ⟨n6, n7⟩ := List.nodup_cons.1 n2
  have hselfA : ∀ c ∈ na.entries.map Prod.snd,
      c ∈ na.entries.flatMap (fun e => pagesOf nodes j e.2) := by
    intro c hc
    obtain ⟨e, he, heq⟩ := List.mem_map.1 hc
    rw [← heq]
    exact List.mem_flatMap.2 ⟨e, he, mem_pagesOf_self _ _ _⟩
  have hselfB : ∀ c ∈ nb.entries.map Prod.snd,
      c ∈ nb.entries.flatMap (fun e => pagesOf nodes j e.2) := by
    intro c hc
    obtain ⟨e, he, heq⟩ := List.mem_map.1 hc
    rw [← heq]
    exact List.mem_flatMap.2 ⟨e, he, mem_pagesOf_self _ _ _⟩
  have hinA : ∀ c ∈ na.entries.map Prod.snd, ∀ x ∈ pagesOf nodes j c,
      x ∈ na.entries.flatMap (fun e => pagesOf nodes j e.2) := by
    intro c hc x hx
    obtain ⟨e, he, heq⟩ := List.mem_map.1 hc
    rw [← heq] at hx
    exact List.mem_flatMap.2 ⟨e, he, hx⟩
  have hinB : ∀ c ∈ nb.entries.map Prod.snd, ∀ x ∈ pagesOf nodes j c,
      x ∈ nb.entries.flatMap (fun e => pagesOf nodes j e.2) := by
    intro c hc x hx
    obtain ⟨e, he, heq⟩ := List.mem_map.1 hc
    rw [← heq] at hx
    exact List.mem_flatMap.2 ⟨e, he, hx⟩
  refine ⟨?_, ?_, ?_, ?_, ?_, ?_⟩
  · intro h0
    exact n3 (List.mem_cons_self _ _) (by rw [h0]; exact List.mem_cons_self _ _)
  · intro c hc x hx
    have h1 := hinA c hc x hx
    refine ⟨?_, ?_, ?_, ?_⟩
    · intro h0; rw [h0] at h1; exact n4 h1
    · intro h0; rw [h0] at h1
      exact n3 (List.mem_cons_of_mem _ h1) (List.mem_cons_self _ _)
    · intro h0
      exact n3 (List.mem_cons_of_mem _ h1) (List.mem_cons_of_mem _ (hselfB x h0))
    · exact List.mem_append_left _ (List.mem_cons_of_mem _ h1)
  · intro c hc x hx
    have h1 := hinB c hc x hx
    refine ⟨?_, ?_, ?_, ?_, ?_⟩
    · intro h0; rw [h0] at h1
      exact n3 (List.mem_cons_self _ _) (List.mem_cons_of_mem _ h1)
    · intro h0; rw [h0] at h1; exact n6 h1
    · intro h0
      exact n3 (List.mem_cons_of_mem _ (hselfA x h0)) (List.mem_cons_of_mem _ h1)
    · intro hne h0
      obtain ⟨e, he, heq⟩ := List.mem_map.1 hc
      obtain ⟨e2, he2, heq2⟩ := List.mem_map.1 h0
      have h2 : x ∈ pagesOf nodes j e2.2 := by rw [heq2]; exact mem_pagesOf_self _ _ _
      have := kids_disjoint nodes j _ n7 e e2 he he2 x (by rw [heq]; exact hx) h2
      rw [← this, heq] at heq2
      exact hne heq2.symm
    · exact List.mem_append_right _ (List.mem_cons_of_mem _ h1)
  · intro c hc x hx hne h0
    obtain ⟨e, he, heq⟩ := List.mem_map.1 hc
    obtain ⟨e2, he2, heq2⟩ := List.mem_map.1 h0
    have h2 : x ∈ pagesOf nodes j e2.2 := by rw [heq2]; exact mem_pagesOf_self _ _ _
    have := kids_disjoint nodes j _ n5 e e2 he he2 x (by rw [heq]; exact hx) h2
    rw [← this, heq] at heq2
    exact hne heq2.symm
  · intro c hc
    obtain ⟨e, he, heq⟩ := List.mem_map.1 hc
    rw [List.nodup_flatMap] at n5
    rw [← heq]; exact n5.1 e he
  · intro c hc
    obtain ⟨e, he, heq⟩ := List.mem_map.1 hc
    rw [List.nodup_flatMap] at n7
    rw [← heq]; exact n7.1 e he

theorem Coalesce_internal_pair (nodes nodes1 : Int → Option BPTreePage) (j : Nat)
    (P A B kA kB U : Int) (na nb : BPTreeInternalPage) (e0 : Int × Int)
    (rest : List (Int × Int))
    (hA : nodes A = some (.internal na)) (hB : nodes B = some (.internal nb))
    (hnb : nb.entries = e0 :: rest)
    (hnd : (pagesOf nodes (j + 1) A ++ pagesOf nodes (j + 1) B).Nodup)
    (h1A : nodes1 A = some (.internal (BPTreeInternalPage.mk na.page_id_ na.parent_page_id_
      na.max_size_ (na.entries ++ (kB, e0.2) :: rest))))
    (h1m : ∀ c ∈ nb.entries.map Prod.snd,
      nodes1 c = (nodes c).map (fun y => y.SetParentPageId A))
    (h1o : ∀ x ∈ pagesOf nodes (j + 1) A ++ pagesOf nodes (j + 1) B, x ≠ A → x ≠ B →
      x ∉ nb.entries.map Prod.snd → nodes1 x = nodes x) :
    (∀ f n, KidsSeg (fun c l u f n => WFSub nodes (j + 1) c P l u f n) [(kA, A), (kB, B)] U f n →
      KidsSeg (fun c l u f n => WFSub nodes1 (j + 1) c P l u f n) [(kA, A)] U f n) ∧
    pagesOf nodes1 (j + 1) A = A :: (na.entries.flatMap (fun e => pagesOf nodes j e.2) ++
      nb.entries.flatMap (fun e => pagesOf nodes j e.2)) ∧
    entriesOf nodes1 (j + 1) A = entriesOf nodes (j + 1) A ++ entriesOf nodes (j + 1) B ∧
    (∀ x ∈ pagesOf nodes1 (j + 1) A, x ≠ A →
      x ∈ pagesOf nodes (j + 1) A ++ pagesOf nodes (j + 1) B ∧ x ≠ B ∧
      SameKids (nodes x) (nodes1 x)) := by
  obtain ⟨hAB, pA, pB, pA2, ndA, ndB⟩ := pair_pages nodes j A B na nb hA hB hnd
  -- children of the surviving node
  obtain ⟨fA1, fA2, fA3⟩ := kids_frame nodes nodes1 j na.entries (by
    intro c hc x hx
    obtain ⟨x1, x2, x3, x4⟩ := pA c hc x hx
    exact h1o x x4 x1 x2 x3)
  -- children of the removed node
  have hrm : (((kB, e0.2) :: rest).map Prod.snd) = nb.entries.map Prod.snd := by rw [hnb]; rfl
  obtain ⟨fB1, fB2, fB3⟩ := kids_reparent nodes nodes1 j ((kB, e0.2) :: rest) A
    (by rw [hrm]; exact ndB) (by rw [hrm]; exact h1m) (by
      rw [hrm]
      intro c hc x hx hne
      obtain ⟨x1, x2, x3, x4, x5⟩ := pB c hc x hx
      exact h1o x x5 x1 x2 (x4 hne))
  have hBpg : ((kB, e0.2) :: rest).flatMap (fun e => pagesOf nodes j e.2) =
      nb.entries.flatMap (fun e => pagesOf nodes j e.2) := by rw [hnb]; rfl
  have hBen : ((kB, e0.2) :: rest).flatMap (fun e => entriesOf nodes j e.2) =
      nb.entries.flatMap (fun e => entriesOf nodes j e.2) := by rw [hnb]; rfl
  have hpg1 : pagesOf nodes1 (j + 1) A = A :: (na.entries.flatMap (fun e => pagesOf nodes j e.2) ++
      nb.entries.flatMap (fun e => pagesOf nodes j e.2)) := by
    rw [pagesOf_succ nodes1 j A _ h1A]
    show A :: (na.entries ++ (kB, e0.2) :: rest).flatMap _ = _
    rw [List.flatMap_append, fA2, fB2, hBpg]
  refine ⟨?_, hpg1, ?_, ?_⟩
  · intro f n hk
    obtain ⟨m, hwA, m2, hwB, hmn⟩ := hk
    have hmn1 : m2 = n := hmn
    subst hmn1
    obtain ⟨n1, a1, a2, a3, a4, ka⟩ := hwA
    obtain ⟨n2, b1, b2, b3, b4, kb⟩ := hwB
    simp only at a1 b1
    rw [hA] at a1
    rw [hB] at b1
    cases a1
    cases b1
    simp only [ub] at ka kb
    rw [KidsOK_iff_setHeadKey] at ka kb
    rw [hnb] at kb
    refine ⟨m2, ⟨_, h1A, a2, a3, a4, ?_⟩, rfl⟩
    rw [KidsOK_iff_setHeadKey]
    refine ⟨by simp, ?_⟩
    show KidsSeg _ (setHeadKey kA (na.entries ++ (kB, e0.2) :: rest)) U f m2
    rw [setHeadKey_append kA _ _ ka.1]
    refine (KidsSeg_append _ _ _ _ _).2 ⟨m, ?_, ?_⟩
    · have h2 : ∀ c ∈ (setHeadKey kA na.entries).map Prod.snd,
          ∀ x ∈ pagesOf nodes j c, nodes1 x = nodes x := by
        rw [setHeadKey_map_snd]
        intro c hc x hx
        obtain ⟨x1, x2, x3, x4⟩ := pA c hc x hx
        exact h1o x x4 x1 x2 x3
      exact (kids_frame nodes nodes1 j _ h2).1 _ _ _ _ ka.2
    · exact fB1 _ _ _ _ kb.2
  · rw [entriesOf_succ nodes1 j A _ h1A, entriesOf_succ nodes j A na hA,
      entriesOf_succ nodes j B nb hB]
    show (na.entries ++ (kB, e0.2) :: rest).flatMap _ = _
    rw [List.flatMap_append, fA3, fB3, hBen]
  · intro x hx hxA
    rw [hpg1] at hx
    rcases List.mem_cons.1 hx with h0 | h0
    · exact absurd h0 hxA
    rcases List.mem_append.1 h0 with h1 | h1
    · obtain ⟨e, he, hxe⟩ := List.mem_flatMap.1 h1
      obtain ⟨x1, x2, x3, x4⟩ := pA e.2 (List.mem_map.2 ⟨e, he, rfl⟩) x hxe
      exact ⟨x4, x2, SameKids_of_eq _ _ (h1o x x4 x1 x2 x3)⟩
    · obtain ⟨e, he, hxe⟩ := List.mem_flatMap.1 h1
      have hc : e.2 ∈ nb.entries.map Prod.snd := List.mem_map.2 ⟨e, he, rfl⟩
      obtain ⟨x1, x2, x3, x4, x5⟩ := pB e.2 hc x hxe
      refine ⟨x5, x2, ?_⟩
      by_cases hxc : x = e.2
      · rw [hxc, h1m e.2 hc]; exact SameKids_setParent _ _
      · exact SameKids_of_eq _ _ (h1o x x5 x1 x2 (x4 hxc))

theorem Redistribute_internal_left_pair (nodes nodes1 : Int → Option BPTreePage) (j : Nat)
    (P A B kA kB U : Int) (na nb : BPTreeInternalPage) (e e1 : Int × Int)
    (rest : List (Int × Int))
    (hA : nodes A = some (.internal na)) (hB : nodes B = some (.internal nb))
    (hnb : nb.entries = e :: e1 :: rest)
    (hnd : (pagesOf nodes (j + 1) A ++ pagesOf nodes (j + 1) B).Nodup)
    (h1A : nodes1 A = some (.internal (BPTreeInternalPage.mk na.page_id_ na.parent_page_id_
      na.max_size_ (na.entries ++ [(kB, e.2)]))))
    (h1B : nodes1 B = some (.internal (BPTreeInternalPage.mk nb.page_id_ nb.parent_page_id_
      nb.max_size_ (e1 :: rest))))
    (h1m : nodes1 e.2 = (nodes e.2).map (fun y => y.SetParentPageId A))
    (h1o : ∀ x ∈ pagesOf nodes (j + 1) A ++ pagesOf nodes (j + 1) B, x ≠ A → x ≠ B →
      x ≠ e.2 → nodes1 x = nodes x) :
    (∀ f n, KidsSeg (fun c l u f n => WFSub nodes (j + 1) c P l u f n) [(kA, A), (kB, B)] U f n →
      KidsSeg (fun c l u f n => WFSub nodes1 (j + 1) c P l u f n) [(kA, A), (e1.1, B)] U f n) ∧
    (pagesOf nodes1 (j + 1) A ++ pagesOf nodes1 (j + 1) B).Perm
      (pagesOf nodes (j + 1) A ++ pagesOf nodes (j + 1) B) ∧
    entriesOf nodes1 (j + 1) A ++ entriesOf nodes1 (j + 1) B =
      entriesOf nodes (j + 1) A ++ entriesOf nodes (j + 1) B ∧
    (∀ x ∈ pagesOf nodes1 (j + 1) A ++ pagesOf nodes1 (j + 1) B, x ≠ A → x ≠ B →
      SameKids (nodes x) (nodes1 x)) := by
  obtain ⟨hAB, pA, pB, pA2, ndA, ndB⟩ := pair_pages nodes j A B na nb hA hB hnd
  have hemem : e.2 ∈ nb.entries.map Prod.snd := by rw [hnb]; simp
  have hrestmem : ∀ c ∈ (e1 :: rest).map Prod.snd, c ∈ nb.entries.map Prod.snd := by
    intro c hc; rw [hnb, List.map_cons]; exact List.mem_cons_of_mem _ hc
  have hkn : (nb.entries.map Prod.snd).Nodup := by
    apply children_nodup nodes j B nb hB
    rw [List.nodup_append] at hnd
    exact hnd.2.1
  have herest : e.2 ∉ (e1 :: rest).map Prod.snd := by
    rw [hnb, List.map_cons, List.nodup_cons] at hkn
    exact hkn.1
  -- children that stay below the left node
  have hagA : ∀ c ∈ na.entries.map Prod.snd, ∀ x ∈ pagesOf nodes j c, nodes1 x = nodes x := by
    intro c hc x hx
    obtain ⟨x1, x2, x3, x4⟩ := pA c hc x hx
    exact h1o x x4 x1 x2 (fun h0 => x3 (by rw [h0]; exact hemem))
  obtain ⟨fA1, fA2, fA3⟩ := kids_frame nodes nodes1 j na.entries hagA
  -- children that stay below the right node
  have hagR : ∀ c ∈ (e1 :: rest).map Prod.snd, ∀ x ∈ pagesOf nodes j c, nodes1 x = nodes x := by
    intro c hc x hx
    obtain ⟨x1, x2, x3, x4, x5⟩ := pB c (hrestmem c hc) x hx
    refine h1o x x5 x1 x2 ?_
    intro h0
    by_cases hxc : x = c
    · rw [hxc] at h0; rw [h0] at hc; exact herest hc
    · exact x4 hxc (by rw [h0]; exact hemem)
  obtain ⟨fR1, fR2, fR3⟩ := kids_frame nodes nodes1 j (e1 :: rest) hagR
  -- the child that moves
  obtain ⟨fM1, fM2, fM3⟩ := kids_reparent nodes nodes1 j [(kB, e.2)] A
    (by intro c hc; simp only [List.map_cons, List.map_nil, List.mem_singleton] at hc
        rw [hc]; exact ndB _ hemem)
    (by intro c hc; simp only [List.map_cons, List.map_nil, List.mem_singleton] at hc
        rw [hc]; exact h1m)
    (by intro c hc x hx hne
        simp only [List.map_cons, List.map_nil, List.mem_singleton] at hc
        rw [hc] at hx hne
        obtain ⟨x1, x2, x3, x4, x5⟩ := pB _ hemem x hx
        exact h1o x x5 x1 x2 hne)
  simp only [List.flatMap_cons, List.flatMap_nil, List.append_nil] at fM2 fM3
  have hpg1A : pagesOf nodes1 (j + 1) A =
      A :: (na.entries.flatMap (fun e => pagesOf nodes j e.2) ++ pagesOf nodes j e.2) := by
    rw [pagesOf_succ nodes1 j A _ h1A]
    show A :: (na.entries ++ [(kB, e.2)]).flatMap _ = _
    rw [List.flatMap_append, fA2]
    simp only [List.flatMap_cons, List.flatMap_nil, List.append_nil, fM2]
  have hpg1B : pagesOf nodes1 (j + 1) B =
      B :: (e1 :: rest).flatMap (fun e => pagesOf nodes j e.2) := by
    rw [pagesOf_succ nodes1 j B _ h1B]
    show B :: (e1 :: rest).flatMap _ = _
    rw [fR2]
  have hpg0A := pagesOf_succ nodes j A na hA
  have hpg0B : pagesOf nodes (j + 1) B =
      B :: (pagesOf nodes j e.2 ++ (e1 :: rest).flatMap (fun e => pagesOf nodes j e.2)) := by
    rw [pagesOf_succ nodes j B nb hB, hnb, List.flatMap_cons]
  have hperm : (pagesOf nodes1 (j + 1) A ++ pagesOf nodes1 (j + 1) B).Perm
      (pagesOf nodes (j + 1) A ++ pagesOf nodes (j + 1) B) := by
    rw [hpg1A, hpg1B, hpg0A, hpg0B]
    simp only [List.cons_append, List.append_assoc]
    refine List.Perm.cons _ (List.Perm.append_left _ ?_)
    exact List.perm_middle
  refine ⟨?_, hperm, ?_, ?_⟩
  · intro f n hk
    obtain ⟨m, hwA, m2, hwB, hmn⟩ := hk
    have hmn1 : m2 = n := hmn
    subst hmn1
    obtain ⟨n1, a1, a2, a3, a4, ka⟩ := hwA
    obtain ⟨n2, b1, b2, b3, b4, kb⟩ := hwB
    simp only at a1 b1
    rw [hA] at a1
    rw [hB] at b1
    cases a1
    cases b1
    simp only [ub] at ka kb
    rw [KidsOK_iff_setHeadKey] at ka kb
    rw [hnb] at kb
    obtain ⟨m', k1, k2⟩ := kb.2
    simp only [ub] at k1
    refine ⟨m', ⟨_, h1A, a2, a3, a4, ?_⟩, m2, ⟨_, h1B, b2, b3, b4, ?_⟩, rfl⟩
    · rw [KidsOK_iff_setHeadKey]
      refine ⟨by simp, ?_⟩
      show KidsSeg _ (setHeadKey kA (na.entries ++ [(kB, e.2)])) e1.1 f m'
      rw [setHeadKey_append kA _ _ ka.1]
      refine (KidsSeg_append _ _ _ _ _).2 ⟨m, ?_, ?_⟩
      · have h2 : ∀ c ∈ (setHeadKey kA na.entries).map Prod.snd,
            ∀ x ∈ pagesOf nodes j c, nodes1 x = nodes x := by
          rw [setHeadKey_map_snd]; exact hagA
        exact (kids_frame nodes nodes1 j _ h2).1 _ _ _ _ ka.2
      · exact fM1 B e1.1 m m' ⟨m', k1, rfl⟩
    · rw [KidsOK_iff_setHeadKey]
      refine ⟨by simp, ?_⟩
      exact fR1 _ _ _ _ k2
  · rw [entriesOf_succ nodes1 j A _ h1A, entriesOf_succ nodes1 j B _ h1B,
      entriesOf_succ nodes j A na hA, entriesOf_succ nodes j B nb hB, hnb]
    show (na.entries ++ [(kB, e.2)]).flatMap _ ++ (e1 :: rest).flatMap _ = _
    rw [List.flatMap_append, fA3, fR3]
    simp only [List.flatMap_cons, List.flatMap_nil, List.append_nil, List.append_assoc, fM3]
  · intro x hx hxA hxB
    have hx0 : x ∈ pagesOf nodes (j + 1) A ++ pagesOf nodes (j + 1) B := hperm.subset hx
    by_cases hxe : x = e.2
    · rw [hxe, h1m]; exact SameKids_setParent _ _
    · exact SameKids_of_eq _ _ (h1o x hx0 hxA hxB hxe)

theorem Redistribute_internal_right_pair (nodes nodes1 : Int → Option BPTreePage) (j : Nat)
    (P A B kA kB U : Int) (na nb : BPTreeInternalPage) (e e0 : Int × Int)
    (init rest : List (Int × Int))
    (hA : nodes A = some (.internal na)) (hB : nodes B = some (.internal nb))
    (hna : na.entries = init ++ [e]) (hinit : init ≠ []) (hnb : nb.entries = e0 :: rest)
    (hnd : (pagesOf nodes (j + 1) A ++ pagesOf nodes (j + 1) B).Nodup)
    (h1A : nodes1 A = some (.internal (BPTreeInternalPage.mk na.page_id_ na.parent_page_id_
      na.max_size_ init)))
    (h1B : nodes1 B = some (.internal (BPTreeInternalPage.mk nb.page_id_ nb.parent_page_id_
      nb.max_size_ ((e0.1, e.2) :: (kB, e0.2) :: rest))))
    (h1m : nodes1 e.2 = (nodes e.2).map (fun y => y.SetParentPageId B))
    (h1o : ∀ x ∈ pagesOf nodes (j + 1) A ++ pagesOf nodes (j + 1) B, x ≠ A → x ≠ B →
      x ≠ e.2 → nodes1 x = nodes x) :
    (∀ f n, KidsSeg (fun c l u f n => WFSub nodes (j + 1) c P l u f n) [(kA, A), (kB, B)] U f n →
      KidsSeg (fun c l u f n => WFSub nodes1 (j + 1) c P l u f n) [(kA, A), (e.1, B)] U f n) ∧
    (pagesOf nodes1 (j + 1) A ++ pagesOf nodes1 (j + 1) B).Perm
      (pagesOf nodes (j + 1) A ++ pagesOf nodes (j + 1) B) ∧
    entriesOf nodes1 (j + 1) A ++ entriesOf nodes1 (j + 1) B =
      entriesOf nodes (j + 1) A ++ entriesOf nodes (j + 1) B ∧
    (∀ x ∈ pagesOf nodes1 (j + 1) A ++ pagesOf nodes1 (j + 1) B, x ≠ A → x ≠ B →
      SameKids (nodes x) (nodes1 x)) := by
  obtain ⟨hAB, pA, pB, pA2, ndA, ndB⟩ := pair_pages nodes j A B na nb hA hB hnd
  have hemem : e.2 ∈ na.entries.map Prod.snd := by rw [hna]; simp
  have hinitmem : ∀ c ∈ init.map Prod.snd, c ∈ na.entries.map Prod.snd := by
    intro c hc; rw [hna, List.map_append]; exact List.mem_append_left _ hc
  have hkn : (na.entries.map Prod.snd).Nodup := by
    apply children_nodup nodes j A na hA
    rw [List.nodup_append] at hnd
    exact hnd.1
  have heinit : e.2 ∉ init.map Prod.snd := by
    rw [hna, List.map_append, List.nodup_append] at hkn
    intro h0
    exact hkn.2.2 h0 (by simp)
  -- children that stay below the left node
  have hagI : ∀ c ∈ init.map Prod.snd, ∀ x ∈ pagesOf nodes j c, nodes1 x = nodes x := by
    intro c hc x hx
    obtain ⟨x1, x2, x3, x4⟩ := pA c (hinitmem c hc) x hx
    refine h1o x x4 x1 x2 ?_
    intro h0
    by_cases hxc : x = c
    · rw [hxc] at h0; rw [h0] at hc; exact heinit hc
    · exact pA2 c (hinitmem c hc) x hx hxc (by rw [h0]; exact hemem)
  obtain ⟨fI1, fI2, fI3⟩ := kids_frame nodes nodes1 j init hagI
  -- children that stay below the right node
  have hagB : ∀ c ∈ nb.entries.map Prod.snd, ∀ x ∈ pagesOf nodes j c, nodes1 x = nodes x := by
    intro c hc x hx
    obtain ⟨x1, x2, x3, x4, x5⟩ := pB c hc x hx
    exact h1o x x5 x1 x2 (fun h0 => x3 (by rw [h0]; exact hemem))
  obtain ⟨fB1, fB2, fB3⟩ := kids_frame nodes nodes1 j nb.entries hagB
  -- the child that moves
  obtain ⟨fM1, fM2, fM3⟩ := kids_reparent nodes nodes1 j [(e.1, e.2)] B
    (by intro c hc; simp only [List.map_cons, List.map_nil, List.mem_singleton] at hc
        rw [hc]; exact ndA _ hemem)
    (by intro c hc; simp only [List.map_cons, List.map_nil, List.mem_singleton] at hc
        rw [hc]; exact h1m)
    (by intro c hc x hx hne
        simp only [List.map_cons, List.map_nil, List.mem_singleton] at hc
        rw [hc] at hx hne
        obtain ⟨x1, x2, x3, x4⟩ := pA _ hemem x hx
        exact h1o x x4 x1 x2 hne)
  simp only [List.flatMap_cons, List.flatMap_nil, List.append_nil] at fM2 fM3
  have hBkids_pg : ((kB, e0.2) :: rest).flatMap (fun e => pagesOf nodes1 j e.2) =
      nb.entries.flatMap (fun e => pagesOf nodes j e.2) := by
    rw [← fB2, hnb]; rfl
  have hBkids_en : ((kB, e0.2) :: rest).flatMap (fun e => entriesOf nodes1 j e.2) =
      nb.entries.flatMap (fun e => entriesOf nodes j e.2) := by
    rw [← fB3, hnb]; rfl
  have hpg1A : pagesOf nodes1 (j + 1) A = A :: init.flatMap (fun e => pagesOf nodes j e.2) := by
    rw [pagesOf_succ nodes1 j A _ h1A]
    show A :: init.flatMap _ = _
    rw [fI2]
  have hpg1B : pagesOf nodes1 (j + 1) B =
      B :: (pagesOf nodes j e.2 ++ nb.entries.flatMap (fun e => pagesOf nodes j e.2)) := by
    rw [pagesOf_succ nodes1 j B _ h1B]
    show B :: ((e0.1, e.2) :: (kB, e0.2) :: rest).flatMap _ = _
    rw [List.flatMap_cons, hBkids_pg, fM2]
  have hpg0A : pagesOf nodes (j + 1) A =
      A :: (init.flatMap (fun e => pagesOf nodes j e.2) ++ pagesOf nodes j e.2) := by
    rw [pagesOf_succ nodes j A na hA, hna, List.flatMap_append]
    simp only [List.flatMap_cons, List.flatMap_nil, List.append_nil]
  have hpg0B := pagesOf_succ nodes j B nb hB
  have hperm : (pagesOf nodes1 (j + 1) A ++ pagesOf nodes1 (j + 1) B).Perm
      (pagesOf nodes (j + 1) A ++ pagesOf nodes (j + 1) B) := by
    rw [hpg1A, hpg1B, hpg0A, hpg0B]
    simp only [List.cons_append, List.append_assoc]
    refine List.Perm.cons _ (List.Perm.append_left _ ?_)
    exact List.perm_middle.symm
  refine ⟨?_, hperm, ?_, ?_⟩
  · intro f n hk
    obtain ⟨m, hwA, m2, hwB, hmn⟩ := hk
    have hmn1 : m2 = n := hmn
    subst hmn1
    obtain ⟨n1, a1, a2, a3, a4, ka⟩ := hwA
    obtain ⟨n2, b1, b2, b3, b4, kb⟩ := hwB
    simp only at a1 b1
    rw [hA] at a1
    rw [hB] at b1
    cases a1
    cases b1
    simp only [ub] at ka kb
    rw [KidsOK_iff_setHeadKey] at ka kb
    rw [hna, setHeadKey_append kA _ _ hinit] at ka
    obtain ⟨m0, k1, k2⟩ := (KidsSeg_append _ _ _ _ _).1 ka.2
    obtain ⟨m', k3, k4⟩ := k2
    have hm' : m' = m := k4
    subst hm'
    simp only [ub] at k1 k3
    rw [hnb] at kb
    refine ⟨m0, ⟨_, h1A, a2, a3, a4, ?_⟩, m2, ⟨_, h1B, b2, b3, b4, ?_⟩, rfl⟩
    · rw [KidsOK_iff_setHeadKey]
      refine ⟨hinit, ?_⟩
      have h2 : ∀ c ∈ (setHeadKey kA init).map Prod.snd,
          ∀ x ∈ pagesOf nodes j c, nodes1 x = nodes x := by
        rw [setHeadKey_map_snd]; exact hagI
      exact (kids_frame nodes nodes1 j _ h2).1 _ _ _ _ k1
    · rw [KidsOK_iff_setHeadKey]
      refine ⟨by simp, ?_⟩
      show KidsSeg _ ((e.1, e.2) :: (kB, e0.2) :: rest) U m0 m2
      refine ⟨m', ?_, ?_⟩
      · have := fM1 A kB m0 m' ⟨m', k3, rfl⟩
        obtain ⟨m3, g1, g2⟩ := this
        have g3 : m3 = m' := g2
        subst g3
        exact g1
      · have h2 : ∀ c ∈ ((kB, e0.2) :: rest).map Prod.snd,
            ∀ x ∈ pagesOf nodes j c, nodes1 x = nodes x := by
          intro c hc
          apply hagB c
          rw [hnb]; exact hc
        exact (kids_frame nodes nodes1 j _ h2).1 _ _ _ _ kb.2
  · rw [entriesOf_succ nodes1 j A _ h1A, entriesOf_succ nodes1 j B _ h1B,
      entriesOf_succ nodes j A na hA, entriesOf_succ nodes j B nb hB, hna]
    show init.flatMap _ ++ ((e0.1, e.2) :: (kB, e0.2) :: rest).flatMap _ = _
    rw [List.flatMap_cons, hBkids_en, fI3, fM3, List.flatMap_append]
    simp only [List.flatMap_cons, List.flatMap_nil, List.append_nil, List.append_assoc]
  · intro x hx hxA hxB
    have hx0 : x ∈ pagesOf nodes (j + 1) A ++ pagesOf nodes (j + 1) B := hperm.subset hx
    by_cases hxe : x = e.2
    · rw [hxe, h1m]; exact SameKids_setParent _ _
    · exact SameKids_of_eq _ _ (h1o x hx0 hxA hxB hxe)

/-! ## B+tree: two neighbouring children of one parent -/

theorem setHeadKey_split_all (lo : Int) (pre : List (Int × Int)) (k c : Int) :
    ∃ pre1 k1, (∀ mid, setHeadKey lo (pre ++ (k, c) :: mid) = pre1 ++ (k1, c) :: mid) ∧
      pre1.map Prod.snd = pre.map Prod.snd ∧ pre1.length = pre.length := by
  cases pre with
  | nil => exact ⟨[], lo, fun _ => rfl, rfl, rfl⟩
  | cons e rest => exact ⟨(lo, e.2) :: rest, k, fun _ => rfl, rfl, rfl⟩

theorem Siblings_facts (t : BPTreeIndex) (ex : Option Int) (fl : List Int) (h : Nat)
    (lo hi f : Int) (j : Nat) (P plo phi : Int) (nd : BPTreeInternalPage)
    (pre00 : List (Int × Int)) (kA A kB B : Int) (post00 : List (Int × Int))
    (S : Siblings t ex fl h lo hi f j P plo phi nd pre00 kA A kB B post00) :
    ∃ pre lA, (∀ mid, setHeadKey plo (pre00 ++ (kA, A) :: mid) = pre ++ (lA, A) :: mid) ∧
      (∃ fA m n, WFSub t.nodes j A P lA kB fA m ∧ WFSub t.nodes j B P kB (ub post00 phi) m n) ∧
      (pagesOf t.nodes j A ++ pagesOf t.nodes j B).Nodup ∧
      (∀ x ∈ pagesOf t.nodes j A ++ pagesOf t.nodes j B, x ≠ P ∧
        x ∈ pagesOf t.nodes h t.header.root_page_id_) ∧
      nd.max_size_ = 4 ∧ nd.page_id_ = P ∧
      P ∈ pagesOf t.nodes h t.header.root_page_id_ ∧ ex ≠ some P := by
  obtain ⟨pre, lA, hnorm, -, -⟩ := setHeadKey_split_all plo pre00 kA A
  obtain ⟨par1, f1, n1, hwP⟩ := Site_wf t.nodes _ _ S.site _ _ _ S.wf
  have hsub := Site_sublist t.nodes _ _ S.site
  simp only at hsub hwP
  have hndP : (pagesOf t.nodes (j + 1) P).Nodup := hsub.nodup S.tree.2.2.2.1
  obtain ⟨nd2, a1, a2, a3, a4, hk⟩ := hwP
  rw [S.node] at a1
  cases a1
  rw [KidsOK_iff_setHeadKey, S.entries, hnorm] at hk
  obtain ⟨m0, k1, k2⟩ := (KidsSeg_append _ _ _ _ _).1 hk.2
  obtain ⟨m, wA, m2, wB, k3⟩ := k2
  simp only [ub] at wA
  have hpg : pagesOf t.nodes (j + 1) P = P :: (pre00.flatMap (fun e => pagesOf t.nodes j e.2) ++
      (pagesOf t.nodes j A ++ (pagesOf t.nodes j B ++
        post00.flatMap (fun e => pagesOf t.nodes j e.2)))) := by
    rw [pagesOf_succ t.nodes j P nd S.node, S.entries, List.flatMap_append, List.flatMap_cons,
      List.flatMap_cons]
  rw [hpg] at hndP
  obtain ⟨n1', n2⟩ := List.nodup_cons.1 hndP
  rw [List.nodup_append] at n2
  obtain ⟨-, n3, -⟩ := n2
  rw [← List.append_assoc, List.nodup_append] at n3
  have hin : ∀ x ∈ pagesOf t.nodes j A ++ pagesOf t.nodes j B,
      x ∈ pre00.flatMap (fun e => pagesOf t.nodes j e.2) ++
        (pagesOf t.nodes j A ++ (pagesOf t.nodes j B ++
          post00.flatMap (fun e => pagesOf t.nodes j e.2))) := by
    intro x hx
    apply List.mem_append_right
    rw [← List.append_assoc]
    exact List.mem_append_left _ hx
  have hPmem : P ∈ pagesOf t.nodes h t.header.root_page_id_ :=
    hsub.subset (mem_pagesOf_self _ _ _)
  refine ⟨pre, lA, hnorm, ⟨_, m, m2, wA, wB⟩, n3.1, ?_, a4, a2, hPmem, ?_⟩
  · intro x hx
    refine ⟨?_, ?_⟩
    · intro h0; rw [h0] at hx; exact n1' (hin P hx)
    · apply hsub.subset
      rw [hpg]
      exact List.mem_cons_of_mem _ (hin x hx)
  · intro h0
    rcases S.exc with h1 | h1
    · rw [h1] at h0
      have : A = P := Option.some.inj h0
      exact n1' (hin P (by rw [← this]; exact List.mem_append_left _ (mem_pagesOf_self _ _ _)))
    · rw [h1] at h0
      have : B = P := Option.some.inj h0
      exact n1' (hin P (by rw [← this]; exact List.mem_append_right _ (mem_pagesOf_self _ _ _)))

theorem Pair_tree (t t1 : BPTreeIndex) (ex ex1 : Option Int) (fl fl1 : List Int) (h : Nat)
    (lo hi f : Int) (j : Nat) (P plo phi : Int) (nd nd1 : BPTreeInternalPage)
    (pre00 : List (Int × Int)) (kA A kB B : Int) (post00 tail1 : List (Int × Int))
    (S : Siblings t ex fl h lo hi f j P plo phi nd pre00 kA A kB B post00)
    (hn1 : t1.nodes P = some (.internal nd1))
    (hid : nd1.page_id_ = nd.page_id_) (hpar : nd1.parent_page_id_ = nd.parent_page_id_)
    (hmax : nd1.max_size_ = nd.max_size_)
    (he1 : nd1.entries = pre00 ++ (kA, A) :: (tail1 ++ post00))
    (hwf : ∀ lA f n,
      KidsSeg (fun c l u f n => WFSub t.nodes j c P l u f n) [(lA, A), (kB, B)] (ub post00 phi) f n →
      KidsSeg (fun c l u f n => WFSub t1.nodes j c P l u f n) ((lA, A) :: tail1)
        (ub post00 phi) f n)
    (hpages : ∀ x ∈ pagesOf t1.nodes j A ++ tail1.flatMap (fun e => pagesOf t1.nodes j e.2),
      x ∈ pagesOf t.nodes j A ++ pagesOf t.nodes j B)
    (hnodup : (pagesOf t1.nodes j A ++ tail1.flatMap (fun e => pagesOf t1.nodes j e.2)).Nodup)
    (hframe : ∀ x, x ≠ P → x ∉ pagesOf t.nodes j A ++ pagesOf t.nodes j B →
      t1.nodes x = t.nodes x)
    (hent : entriesOf t1.nodes j A ++ tail1.flatMap (fun e => entriesOf t1.nodes j e.2) =
      entriesOf t.nodes j A ++ entriesOf t.nodes j B)
    (hroot : t1.header.root_page_id_ = t.header.root_page_id_)
    (hh : t1.header.tree_height_ = t.header.tree_height_)
    (hpn : t.header.page_num_ ≤ t1.header.page_num_)
    (hlmax : t1.header.leaf_max_size_ = t.header.leaf_max_size_)
    (himax : t1.header.internal_max_size_ = t.header.internal_max_size_)
    (hnent : t1.header.num_entries_ = t.header.num_entries_)
    (halloc : t1.AllocOK fl1)
    (hkinds : ∀ p ∈ pagesOf t1.nodes j A ++ tail1.flatMap (fun e => pagesOf t1.nodes j e.2),
      p ≠ A → p ≠ B → SameKids (t.nodes p) (t1.nodes p))
    (hfillA : ∀ x, t1.nodes A = some x → x.Filled)
    (hfillB : B ∈ pagesOf t1.nodes j A ++ tail1.flatMap (fun e => pagesOf t1.nodes j e.2) →
      ∀ x, t1.nodes B = some x → x.Filled)
    (hfillP : ∀ x, t1.nodes P = some x → ex1 ≠ some P → x.Filled)
    (hfl1 : fl1 = fl ∨ (fl1 = B :: fl ∧
      B ∉ pagesOf t1.nodes j A ++ tail1.flatMap (fun e => pagesOf t1.nodes j e.2)))
    (hpn2 : t1.header.page_num_ ≤ t.header.page_num_)
    (hkeep : ∀ x ∈ pagesOf t.nodes j A ++ pagesOf t.nodes j B,
      x ∈ pagesOf t1.nodes j A ++ tail1.flatMap (fun e => pagesOf t1.nodes j e.2) ∨ x ∈ fl1) :
    Rebalanced t t1 ex1 fl1 h lo hi f ∧
    Site t1.nodes ⟨h, t1.header.root_page_id_, lo, hi⟩ ⟨j + 1, P, plo, phi⟩ := by
  obtain ⟨pre, lA, hnorm, ⟨fA, m, n, wA, wB⟩, hndAB, hABP, hmax4, hidP, hPmem, hexP⟩ :=
    Siblings_facts t ex fl h lo hi f j P plo phi nd pre00 kA A kB B post00 S
  have hblk : ([(lA, A), (kB, B)] : List (Int × Int)).flatMap (fun e => pagesOf t.nodes j e.2) =
      pagesOf t.nodes j A ++ pagesOf t.nodes j B := by
    simp only [List.flatMap_cons, List.flatMap_nil, List.append_nil]
  have hblk1 : ((lA, A) :: tail1).flatMap (fun e => pagesOf t1.nodes j e.2) =
      pagesOf t1.nodes j A ++ tail1.flatMap (fun e => pagesOf t1.nodes j e.2) := by
    simp only [List.flatMap_cons]
  have hold : ∀ p ∈ pagesOf t.nodes j A ++ pagesOf t.nodes j B,
      p ∉ fl ∧ (p ≠ A → p ≠ B → ∀ x, t.nodes p = some x → x.Filled) := by
    intro p hp
    have := S.tree.2.2.2.2 p (hABP p hp).2
    refine ⟨this.2.2.1, ?_⟩
    intro h1 h2 x hx
    apply this.2.2.2 x hx
    rcases S.exc with h3 | h3
    · rw [h3]; exact fun h0 => h1 (Option.some.inj h0).symm
    · rw [h3]; exact fun h0 => h2 (Option.some.inj h0).symm
  obtain ⟨r1, r2, r3, r4, r5, r6⟩ := Block_tree t t1 ex ex1 fl fl1 h lo hi f j P plo phi nd
    nd1 pre
    [(lA, A), (kB, B)] ((lA, A) :: tail1) post00 S.tree S.wf S.site S.node hn1 hid hpar hmax
    (by rw [S.entries]; exact hnorm _)
    (by rw [he1, hnorm]; simp only [List.cons_append])
    (by simp) rfl (hwf lA)
    (by rw [hblk, hblk1]; exact hpages)
    (by rw [hblk1]; exact hnodup)
    (by rw [hblk]; exact hframe)
    (by
      simp only [List.flatMap_cons, List.flatMap_nil, List.append_nil]
      exact hent)
    hroot hh hpn
    (by
      rw [hblk1]
      intro p hp
      rcases hp with hp | hp
      · rw [hp]
        have hPold := S.tree.2.2.2.2 P hPmem
        refine ⟨?_, hfillP⟩
        rcases hfl1 with h1 | ⟨h1, h2⟩
        · rw [h1]; exact hPold.2.2.1
        · rw [h1]
          simp only [List.mem_cons, not_or]
          refine ⟨?_, hPold.2.2.1⟩
          intro h0
          exact (hABP B (List.mem_append_right _ (mem_pagesOf_self _ _ _))).1 h0.symm
      · have hp0 := hpages p hp
        refine ⟨?_, ?_⟩
        · rcases hfl1 with h1 | ⟨h1, h2⟩
          · rw [h1]; exact (hold p hp0).1
          · rw [h1]
            simp only [List.mem_cons, not_or]
            exact ⟨fun h0 => h2 (by rw [← h0]; exact hp), (hold p hp0).1⟩
        · intro x hx _
          by_cases hpA : p = A
          · rw [hpA] at hx; exact hfillA x hx
          by_cases hpB : p = B
          · rw [hpB] at hx hp
            exact hfillB hp x hx
          · refine Filled_of_SameKids _ _ (hkinds p hp hpA hpB) ((hold p hp0).2 hpA hpB)
              (fun l0 hl0 => ?_) x hx
            rcases List.mem_append.1 hp0 with h1 | h1
            · exact WFSub_parent_ne _ _ _ _ _ _ _ _ wA
                (fun y hy => (S.tree.2.2.2.2 y (hABP y (List.mem_append_left _ hy)).2).1)
                p h1 (Or.inl hpA) _ hl0
            · exact WFSub_parent_ne _ _ _ _ _ _ _ _ wB
                (fun y hy => (S.tree.2.2.2.2 y (hABP y (List.mem_append_right _ hy)).2).1)
                p h1 (Or.inl hpB) _ hl0)
    (by
      intro p hp
      rw [hblk]
      rcases hfl1 with h1 | ⟨h1, -⟩
      · rw [h1] at hp; exact Or.inl hp
      · rw [h1] at hp
        rcases List.mem_cons.1 hp with h2 | h2
        · rw [h2]; exact Or.inr (List.mem_append_right _ (mem_pagesOf_self _ _ _))
        · exact Or.inl h2)
    (by
      intro p hp
      rw [hblk]
      right
      rcases S.exc with h1 | h1
      · rw [h1] at hp
        rw [← Option.some.inj hp]
        exact List.mem_append_left _ (mem_pagesOf_self _ _ _)
      · rw [h1] at hp
        rw [← Option.some.inj hp]
        exact List.mem_append_right _ (mem_pagesOf_self _ _ _))
  refine ⟨⟨halloc, r1, r2, r4, hlmax, himax, hnent, ?_⟩, r3⟩
  intro hc fl9 hA9 p hp1 hp2
  rw [AllocOK_unique t1 fl9 fl1 hA9 halloc]
  have hflsub : ∀ x ∈ fl, x ∈ fl1 := by
    intro x hx
    rcases hfl1 with h1 | ⟨h1, -⟩
    · rw [h1]; exact hx
    · rw [h1]; exact List.mem_cons_of_mem _ hx
  rcases hc fl S.alloc p hp1 (lt_of_lt_of_le hp2 hpn2) with h0 | h0
  · rcases r5 p h0 with h1 | h1
    · rw [hblk] at h1
      rcases hkeep p h1 with h2 | h2
      · left
        apply r6
        rw [hblk1]
        exact h2
      · exact Or.inr h2
    · exact Or.inl h1
  · exact Or.inr (hflsub p h0)

/-! ## B+tree: coalescing and redistributing leaves -/

theorem eraseIdx_pair {α : Type} (pre : List α) (a b : α) (post : List α) :
    (pre ++ a :: b :: post).eraseIdx (pre.length + 1) = pre ++ a :: post := by
  induction pre with
  | nil => rfl
  | cons x pre ih => simp only [List.cons_append, List.length_cons, List.eraseIdx_cons_succ, ih]

theorem get?_pair {α : Type} (pre : List α) (a b : α) (post : List α) :
    (pre ++ a :: b :: post).get? (pre.length + 1) = some b := by
  induction pre with
  | nil => rfl
  | cons x pre ih => simp only [List.cons_append, List.length_cons, List.get?_cons_succ, ih]

theorem get?_pair_left {α : Type} (pre : List α) (a : α) (post : List α) :
    (pre ++ a :: post).get? pre.length = some a := by
  induction pre with
  | nil => rfl
  | cons x pre ih => simp only [List.cons_append, List.length_cons, List.get?_cons_succ, ih]

theorem set_pair {α : Type} (pre : List α) (a b c : α) (post : List α) :
    (pre ++ a :: b :: post).set (pre.length + 1) c = pre ++ a :: c :: post := by
  induction pre with
  | nil => rfl
  | cons x pre ih => simp only [List.cons_append, List.length_cons, List.set_cons_succ, ih]

theorem Siblings_filled (t : BPTreeIndex) (ex : Option Int) (fl : List Int) (h : Nat)
    (lo hi f : Int) (j : Nat) (P plo phi : Int) (nd : BPTreeInternalPage)
    (pre00 : List (Int × Int)) (kA A kB B : Int) (post00 : List (Int × Int))
    (S : Siblings t ex fl h lo hi f j P plo phi nd pre00 kA A kB B post00) :
    2 ≤ nd.entries.length ∧ A ≠ B ∧ A ≠ P ∧ B ≠ P ∧
    1 ≤ B ∧ B < t.header.page_num_ ∧ B ∉ fl ∧
    ((∀ x, t.nodes A = some x → x.Filled) ∨ (∀ x, t.nodes B = some x → x.Filled)) := by
  obtain ⟨pre, lA, hnorm, ⟨fA, m, n, wA, wB⟩, hndAB, hABP, hmax4, hidP, hPmem, hexP⟩ :=
    Siblings_facts t ex fl h lo hi f j P plo phi nd pre00 kA A kB B post00 S
  have hAs := mem_pagesOf_self t.nodes j A
  have hBs := mem_pagesOf_self t.nodes j B
  have hAB : A ≠ B := by
    intro h0
    rw [List.nodup_append] at hndAB
    exact hndAB.2.2 hAs (by rw [h0]; exact hBs)
  have hA0 := hABP A (List.mem_append_left _ hAs)
  have hB0 := hABP B (List.mem_append_right _ hBs)
  have hBr := S.tree.2.2.2.2 B hB0.2
  have hAr := S.tree.2.2.2.2 A hA0.2
  refine ⟨?_, hAB, hA0.1, hB0.1, hBr.1, hBr.2.1, hBr.2.2.1, ?_⟩
  · rw [S.entries]; simp only [List.length_append, List.length_cons]; omega
  · rcases S.exc with h1 | h1
    · right
      intro x hx
      apply hBr.2.2.2 x hx
      rw [h1]; exact fun h0 => hAB (Option.some.inj h0)
    · left
      intro x hx
      apply hAr.2.2.2 x hx
      rw [h1]; exact fun h0 => hAB (Option.some.inj h0).symm

theorem Coalesce_leaf_ok (t : BPTreeIndex) (ex : Option Int) (fl : List Int) (h : Nat)
    (lo hi f : Int) (P plo phi : Int) (nd : BPTreeInternalPage)
    (pre00 : List (Int × Int)) (kA A kB B : Int) (post00 : List (Int × Int))
    (S : Siblings t ex fl h lo hi f 0 P plo phi nd pre00 kA A kB B post00)
    (la lb : BPTreeLeafPage) (hA : t.nodes A = some (.leaf la))
    (hB : t.nodes B = some (.leaf lb))
    (hsum : la.entries.length + lb.entries.length ≤ 4) :
    ∃ t1, t.CoalesceStep A B P (pre00.length + 1) = some (t1,
        !(BPTreePage.internal { nd with entries := pre00 ++ (kA, A) :: post00 }).IsSafe false) ∧
      Rebalanced t t1 (some P) (B :: fl) h lo hi f ∧
      Site t1.nodes ⟨h, t1.header.root_page_id_, lo, hi⟩ ⟨1, P, plo, phi⟩ ∧
      t1.nodes P = some (.internal { nd with entries := pre00 ++ (kA, A) :: post00 }) := by
  obtain ⟨hlen, hAB, hAP, hBP, hB1, hB2, hB3, hfill⟩ :=
    Siblings_filled t ex fl h lo hi f 0 P plo phi nd pre00 kA A kB B post00 S
  obtain ⟨pre9, lA9, -, ⟨fA9, m9, n9, wA9, wB9⟩, -⟩ :=
    Siblings_facts t ex fl h lo hi f 0 P plo phi nd pre00 kA A kB B post00 S
  have hparA : la.parent_page_id_ = P := by
    obtain ⟨l1, a1, a2, a3, -⟩ := wA9
    rw [hA] at a1
    cases a1
    exact a3
  have hparB : lb.parent_page_id_ = P := by
    obtain ⟨l1, a1, a2, a3, -⟩ := wB9
    rw [hB] at a1
    cases a1
    exact a3
  have hgi : t.getInternal P = some nd := by simp only [BPTreeIndex.getInternal, S.node]
  have hidx : pre00.length + 1 < nd.entries.length := by
    rw [S.entries]; simp only [List.length_append, List.length_cons]; omega
  have herase : nd.entries.eraseIdx (pre00.length + 1) = pre00 ++ (kA, A) :: post00 := by
    rw [S.entries, eraseIdx_pair]
  refine ⟨((((t.setNode B (.leaf (lb.MoveAllTo la).1)).setNode A
      (.leaf (lb.MoveAllTo la).2)).setNode P
      (.internal { nd with entries := pre00 ++ (kA, A) :: post00 })).DeletePage B), ?_, ?_⟩
  · simp only [BPTreeIndex.CoalesceStep, hA, hB, hgi, hidx, if_true, herase]
  have hn1 : ∀ x, ((((t.setNode B (.leaf (lb.MoveAllTo la).1)).setNode A
      (.leaf (lb.MoveAllTo la).2)).setNode P
      (.internal { nd with entries := pre00 ++ (kA, A) :: post00 })).DeletePage B).nodes x =
      if x = P then some (.internal { nd with entries := pre00 ++ (kA, A) :: post00 })
      else if x = A then some (.leaf (lb.MoveAllTo la).2)
      else if x = B then some (.leaf (lb.MoveAllTo la).1) else t.nodes x := by
    intro x
    show (((t.setNode B (.leaf (lb.MoveAllTo la).1)).setNode A
      (.leaf (lb.MoveAllTo la).2)).setNode P _).nodes x = _
    rw [nodes_setNode, nodes_setNode, nodes_setNode]
  have h1P := hn1 P
  rw [if_pos rfl] at h1P
  have h1A := hn1 A
  rw [if_neg hAP, if_pos rfl] at h1A
  have hpgA : pagesOf ((((t.setNode B (.leaf (lb.MoveAllTo la).1)).setNode A
      (.leaf (lb.MoveAllTo la).2)).setNode P
      (.internal { nd with entries := pre00 ++ (kA, A) :: post00 })).DeletePage B).nodes 0 A =
      [A] := rfl
  have key := Pair_tree t _ ex (some P) fl (B :: fl) h lo hi f 0 P plo phi nd
    { nd with entries := pre00 ++ (kA, A) :: post00 } pre00 kA A kB B post00 [] S h1P rfl rfl rfl
    rfl
    (fun lA f n hk => Coalesce_leaf_pair t.nodes _ P A B lA kB _ la lb hA hB h1A f n hk)
    (by
      intro x hx
      rw [hpgA] at hx
      simp only [List.flatMap_nil, List.append_nil, List.mem_singleton] at hx
      rw [hx]; exact List.mem_append_left _ (mem_pagesOf_self _ _ _))
    (by rw [hpgA]; simp)
    (by
      intro x hxP hx
      simp only [pagesOf, List.mem_append, List.mem_singleton, not_or] at hx
      rw [hn1, if_neg hxP, if_neg hx.1, if_neg hx.2])
    (by
      rw [entriesOf_zero _ A _ h1A, entriesOf_zero _ A _ hA, entriesOf_zero _ B _ hB]
      simp only [List.flatMap_nil, List.append_nil]
      rfl)
    rfl rfl (le_refl _) rfl rfl rfl
    (DeletePage_alloc _ fl B (AllocOK_congr t _ fl rfl rfl S.alloc) hB3 hB1 hB2)
    (by
      intro p hp hpA
      rw [hpgA] at hp
      simp only [List.flatMap_nil, List.append_nil, List.mem_singleton] at hp
      exact absurd hp hpA)
    (by
      intro x hx
      rw [h1A] at hx
      cases hx
      show (la.entries ++ lb.entries).length ≤ 4 ∧ 1 ≤ (la.entries ++ lb.entries).length ∧
        (la.parent_page_id_ ≠ INVALID_PAGE_ID → 2 ≤ (la.entries ++ lb.entries).length)
      rw [List.length_append]
      rcases hfill with h1 | h1
      · have h2 : la.entries.length ≤ 4 ∧ 1 ≤ la.entries.length ∧
            (la.parent_page_id_ ≠ INVALID_PAGE_ID → 2 ≤ la.entries.length) := h1 _ hA
        refine ⟨hsum, by omega, fun hp => ?_⟩
        have := h2.2.2 hp
        omega
      · have h2 : lb.entries.length ≤ 4 ∧ 1 ≤ lb.entries.length ∧
            (lb.parent_page_id_ ≠ INVALID_PAGE_ID → 2 ≤ lb.entries.length) := h1 _ hB
        refine ⟨hsum, by omega, fun hp => ?_⟩
        have := h2.2.2 (by rw [hparB, ← hparA]; exact hp)
        omega)
    (by
      intro hp
      rw [hpgA] at hp
      simp only [List.flatMap_nil, List.append_nil, List.mem_singleton] at hp
      exact absurd hp.symm hAB)
    (by intro x _ h0; exact absurd rfl h0)
    (Or.inr ⟨rfl, by
      rw [hpgA]
      simp only [List.flatMap_nil, List.append_nil, List.mem_singleton]
      exact fun h0 => hAB h0.symm⟩)
    (le_refl _)
    (by
      intro x hx
      rw [hpgA]
      simp only [pagesOf, List.mem_append, List.mem_singleton] at hx
      rcases hx with h0 | h0
      · exact Or.inl (by rw [h0]; simp)
      · exact Or.inr (by rw [h0]; exact List.mem_cons_self _ _))
  exact ⟨key.1, key.2, h1P⟩

theorem Redistribute_leaf_left_ok (t : BPTreeIndex) (ex : Option Int) (fl : List Int) (h : Nat)
    (lo hi f : Int) (P plo phi : Int) (nd : BPTreeInternalPage)
    (kA A kB B : Int) (post00 : List (Int × Int))
    (S : Siblings t ex fl h lo hi f 0 P plo phi nd [] kA A kB B post00)
    (la lb : BPTreeLeafPage) (hA : t.nodes A = some (.leaf la))
    (hB : t.nodes B = some (.leaf lb)) (e e1 : Int × RID) (rest : List (Int × RID))
    (hlb : lb.entries = e :: e1 :: rest)
    (hla1 : 1 ≤ la.entries.length) (hla3 : la.entries.length ≤ 3)
    (hlb3 : 3 ≤ lb.entries.length) (hlb4 : lb.entries.length ≤ 4) :
    ∃ t1, t.Redistribute B A 0 = some t1 ∧ Rebalanced t t1 none fl h lo hi f := by
  obtain ⟨hlen, hAB, hAP, hBP, hB1, hB2, hB3, hfill⟩ :=
    Siblings_filled t ex fl h lo hi f 0 P plo phi nd [] kA A kB B post00 S
  obtain ⟨pre, lA, hnorm, ⟨fA, m, n, wA, wB⟩, hndAB, hABP, hmax4, hidP, hPmem, hexP⟩ :=
    Siblings_facts t ex fl h lo hi f 0 P plo phi nd [] kA A kB B post00 S
  have hparA : la.parent_page_id_ = P := by
    obtain ⟨l1, a1, a2, a3, -⟩ := wA
    rw [hA] at a1
    cases a1
    exact a3
  have hgi : t.getInternal P = some nd := by
    simp only [BPTreeIndex.getInternal, S.node]
  have hent : nd.entries = (kA, A) :: (kB, B) :: post00 := S.entries
  have hsk : BPTreeIndex.setKeyAt nd 1 e1.1 = some { nd with entries := (kA, A) :: (e1.1, B) :: post00 } := by
    unfold BPTreeIndex.setKeyAt
    rw [hent]
    rfl
  refine ⟨((t.setNode A (.leaf { la with entries := la.entries ++ [e] })).setNode B
      (.leaf { lb with entries := e1 :: rest })).setNode P
      (.internal { nd with entries := (kA, A) :: (e1.1, B) :: post00 }), ?_, ?_⟩
  · simp only [BPTreeIndex.Redistribute, hA, hB, hparA, hgi, if_true, hlb, hsk]
  have hn1 : ∀ x, (((t.setNode A (.leaf { la with entries := la.entries ++ [e] })).setNode B
      (.leaf { lb with entries := e1 :: rest })).setNode P
      (.internal { nd with entries := (kA, A) :: (e1.1, B) :: post00 })).nodes x =
      if x = P then some (.internal { nd with entries := (kA, A) :: (e1.1, B) :: post00 })
      else if x = B then some (.leaf { lb with entries := e1 :: rest })
      else if x = A then some (.leaf { la with entries := la.entries ++ [e] })
      else t.nodes x := by
    intro x
    rw [nodes_setNode, nodes_setNode, nodes_setNode]
  have h1P := hn1 P
  rw [if_pos rfl] at h1P
  have h1A := hn1 A
  rw [if_neg hAP, if_neg hAB, if_pos rfl] at h1A
  have h1B := hn1 B
  rw [if_neg hBP, if_pos rfl] at h1B
  have hPfilled : 2 ≤ nd.entries.length := hlen
  have key := Pair_tree t _ ex none fl fl h lo hi f 0 P plo phi nd
    { nd with entries := (kA, A) :: (e1.1, B) :: post00 } [] kA A kB B post00 [(e1.1, B)] S h1P
    rfl rfl rfl rfl
    (fun lA f n hk => Redistribute_leaf_left_pair t.nodes _ P A B lA kB _ la lb e e1 rest hA hB
      hlb h1A h1B f n hk)
    (by
      intro x hx
      simp only [pagesOf, List.flatMap_cons, List.flatMap_nil, List.append_nil] at hx ⊢
      exact hx)
    (by
      simp only [pagesOf, List.flatMap_cons, List.flatMap_nil, List.append_nil]
      simp [hAB])
    (by
      intro x hxP hx
      simp only [pagesOf, List.mem_append, List.mem_singleton, not_or] at hx
      rw [hn1, if_neg hxP, if_neg hx.2, if_neg hx.1])
    (by
      simp only [List.flatMap_cons, List.flatMap_nil, List.append_nil]
      rw [entriesOf_zero _ A _ h1A, entriesOf_zero _ B _ h1B, entriesOf_zero _ A _ hA,
        entriesOf_zero _ B _ hB, hlb]
      simp)
    rfl rfl (le_refl _) rfl rfl rfl (AllocOK_congr t _ fl rfl rfl S.alloc)
    (by
      intro p hp hpA hpB
      simp only [pagesOf, List.flatMap_cons, List.flatMap_nil, List.append_nil, List.mem_append,
        List.mem_singleton] at hp
      rcases hp with h0 | h0
      · exact absurd h0 hpA
      · exact absurd h0 hpB)
    (by
      intro x hx
      rw [h1A] at hx
      cases hx
      apply Filled_leaf_of_size
      · show 2 ≤ (la.entries ++ [e]).length
        rw [List.length_append, List.length_singleton]
        omega
      · show (la.entries ++ [e]).length ≤ 4
        rw [List.length_append, List.length_singleton]
        omega)
    (by
      intro _ x hx
      rw [h1B] at hx
      cases hx
      rw [hlb] at hlb3 hlb4
      simp only [List.length_cons] at hlb3 hlb4
      apply Filled_leaf_of_size
      · show 2 ≤ (e1 :: rest).length
        rw [List.length_cons]
        omega
      · show (e1 :: rest).length ≤ 4
        rw [List.length_cons]
        omega)
    (by
      intro x hx _
      rw [h1P] at hx
      cases hx
      show 2 ≤ ((kA, A) :: (e1.1, B) :: post00).length
      simp)
    (Or.inl rfl)
    (le_refl _)
    (by
      intro x hx
      simp only [pagesOf, List.flatMap_cons, List.flatMap_nil, List.append_nil] at hx ⊢
      exact Or.inl hx)
  exact key.1

theorem getLast_split {α : Type} (l : List α) (e : α) (h : l.getLast? = some e) :
    l = l.dropLast ++ [e] := by
  have hne : l ≠ [] := by
    intro h0; rw [h0] at h; simp at h
  rw [List.getLast?_eq_getLast _ hne] at h
  have := List.dropLast_append_getLast hne
  rw [Option.some.inj h] at this
  exact this.symm

theorem Redistribute_leaf_right_ok (t : BPTreeIndex) (ex : Option Int) (fl : List Int) (h : Nat)
    (lo hi f : Int) (P plo phi : Int) (nd : BPTreeInternalPage)
    (pre00 : List (Int × Int)) (kA A kB B : Int) (post00 : List (Int × Int))
    (S : Siblings t ex fl h lo hi f 0 P plo phi nd pre00 kA A kB B post00)
    (la lb : BPTreeLeafPage) (hA : t.nodes A = some (.leaf la))
    (hB : t.nodes B = some (.leaf lb)) (hla : 2 ≤ la.entries.length)
    (hla3 : 3 ≤ la.entries.length) (hla4 : la.entries.length ≤ 4)
    (hlb1 : 1 ≤ lb.entries.length) (hlb3 : lb.entries.length ≤ 3) :
    ∃ t1, t.Redistribute A B (pre00.length + 1) = some t1 ∧
      Rebalanced t t1 none fl h lo hi f := by
  obtain ⟨hlen, hAB, hAP, hBP, hB1, hB2, hB3, hfill⟩ :=
    Siblings_filled t ex fl h lo hi f 0 P plo phi nd pre00 kA A kB B post00 S
  obtain ⟨pre, lA, hnorm, ⟨fA, m, n, wA, wB⟩, hndAB, hABP, hmax4, hidP, hPmem, hexP⟩ :=
    Siblings_facts t ex fl h lo hi f 0 P plo phi nd pre00 kA A kB B post00 S
  have hparB : lb.parent_page_id_ = P := by
    obtain ⟨l1, a1, a2, a3, -⟩ := wB
    rw [hB] at a1
    cases a1
    exact a3
  have hgi : t.getInternal P = some nd := by
    simp only [BPTreeIndex.getInternal, S.node]
  cases hgl : la.entries.getLast? with
  | none =>
    rw [List.getLast?_eq_none_iff] at hgl
    rw [hgl] at hla
    simp at hla
  | some e =>
    have hsplit := getLast_split la.entries e hgl
    have hsk : BPTreeIndex.setKeyAt nd (pre00.length + 1) e.1 =
        some { nd with entries := pre00 ++ (kA, A) :: (e.1, B) :: post00 } := by
      simp only [BPTreeIndex.setKeyAt, S.entries, get?_pair, set_pair]
    have hidx : ¬ pre00.length + 1 = 0 := by omega
    refine ⟨((t.setNode B (.leaf { lb with entries := e :: lb.entries })).setNode A
        (.leaf { la with entries := la.entries.dropLast })).setNode P
        (.internal { nd with entries := pre00 ++ (kA, A) :: (e.1, B) :: post00 }), ?_, ?_⟩
    · simp only [BPTreeIndex.Redistribute, hA, hB, hparB, hgi, hidx, if_false, hgl, hsk]
    have hn1 : ∀ x, (((t.setNode B (.leaf { lb with entries := e :: lb.entries })).setNode A
        (.leaf { la with entries := la.entries.dropLast })).setNode P
        (.internal { nd with entries := pre00 ++ (kA, A) :: (e.1, B) :: post00 })).nodes x =
        if x = P then some (.internal { nd with entries := pre00 ++ (kA, A) :: (e.1, B) :: post00 })
        else if x = A then some (.leaf { la with entries := la.entries.dropLast })
        else if x = B then some (.leaf { lb with entries := e :: lb.entries })
        else t.nodes x := by
      intro x
      rw [nodes_setNode, nodes_setNode, nodes_setNode]
    have h1P := hn1 P
    rw [if_pos rfl] at h1P
    have h1A := hn1 A
    rw [if_neg hAP, if_pos rfl] at h1A
    have h1B := hn1 B
    rw [if_neg hBP, if_neg hAB.symm, if_pos rfl] at h1B
    have key := Pair_tree t _ ex none fl fl h lo hi f 0 P plo phi nd
      { nd with entries := pre00 ++ (kA, A) :: (e.1, B) :: post00 } pre00 kA A kB B post00
      [(e.1, B)] S h1P rfl rfl rfl rfl
      (fun lA f n hk => Redistribute_leaf_right_pair t.nodes _ P A B lA kB _ la lb e hA hB
        hgl h1A h1B f n hk)
      (by
        intro x hx
        simp only [pagesOf, List.flatMap_cons, List.flatMap_nil, List.append_nil] at hx ⊢
        exact hx)
      (by
        simp only [pagesOf, List.flatMap_cons, List.flatMap_nil, List.append_nil]
        simp [hAB])
      (by
        intro x hxP hx
        simp only [pagesOf, List.mem_append, List.mem_singleton, not_or] at hx
        rw [hn1, if_neg hxP, if_neg hx.1, if_neg hx.2])
      (by
        simp only [List.flatMap_cons, List.flatMap_nil, List.append_nil]
        rw [entriesOf_zero _ A _ h1A, entriesOf_zero _ B _ h1B, entriesOf_zero _ A _ hA,
          entriesOf_zero _ B _ hB]
        show la.entries.dropLast ++ e :: lb.entries = _
        conv_rhs => rw [hsplit]
        simp)
      rfl rfl (le_refl _) rfl rfl rfl (AllocOK_congr t _ fl rfl rfl S.alloc)
      (by
        intro p hp hpA hpB
        simp only [pagesOf, List.flatMap_cons, List.flatMap_nil, List.append_nil, List.mem_append,
          List.mem_singleton] at hp
        rcases hp with h0 | h0
        · exact absurd h0 hpA
        · exact absurd h0 hpB)
      (by
        intro x hx
        rw [h1A] at hx
        cases hx
        apply Filled_leaf_of_size
        · show 2 ≤ la.entries.dropLast.length
          rw [List.length_dropLast]; omega
        · show la.entries.dropLast.length ≤ 4
          rw [List.length_dropLast]; omega)
      (by
        intro _ x hx
        rw [h1B] at hx
        cases hx
        apply Filled_leaf_of_size
        · show 2 ≤ (e :: lb.entries).length
          rw [List.length_cons]
          omega
        · show (e :: lb.entries).length ≤ 4
          rw [List.length_cons]
          omega)
      (by
        intro x hx _
        rw [h1P] at hx
        cases hx
        show 2 ≤ (pre00 ++ (kA, A) :: (e.1, B) :: post00).length
        simp only [List.length_append, List.length_cons]; omega)
      (Or.inl rfl)
      (le_refl _)
      (by
        intro x hx
        simp only [pagesOf, List.flatMap_cons, List.flatMap_nil, List.append_nil] at hx ⊢
        exact Or.inl hx)
    exact key.1

/-! ## B+tree: coalescing and redistributing internal nodes -/

theorem Coalesce_internal_ok (t : BPTreeIndex) (ex : Option Int) (fl : List Int) (h : Nat)
    (lo hi f : Int) (j : Nat) (P plo phi : Int) (nd : BPTreeInternalPage)
    (pre00 : List (Int × Int)) (kA A kB B : Int) (post00 : List (Int × Int))
    (S : Siblings t ex fl h lo hi f (j + 1) P plo phi nd pre00 kA A kB B post00)
    (na nb : BPTreeInternalPage) (hA : t.nodes A = some (.internal na))
    (hB : t.nodes B = some (.internal nb)) :
    ∃ t1, t.CoalesceStep A B P (pre00.length + 1) = some (t1,
        !(BPTreePage.internal { nd with entries := pre00 ++ (kA, A) :: post00 }).IsSafe false) ∧
      Rebalanced t t1 (some P) (B :: fl) h lo hi f ∧
      Site t1.nodes ⟨h, t1.header.root_page_id_, lo, hi⟩ ⟨j + 2, P, plo, phi⟩ ∧
      t1.nodes P = some (.internal { nd with entries := pre00 ++ (kA, A) :: post00 }) := by
  obtain ⟨hlen, hAB, hAP, hBP, hB1, hB2, hB3, hfill⟩ :=
    Siblings_filled t ex fl h lo hi f (j + 1) P plo phi nd pre00 kA A kB B post00 S
  obtain ⟨pre, lA, hnorm, ⟨fA, m, n, wA, wB⟩, hndAB, hABP, hmax4, hidP, hPmem, hexP⟩ :=
    Siblings_facts t ex fl h lo hi f (j + 1) P plo phi nd pre00 kA A kB B post00 S
  have hidA : na.page_id_ = A := by
    obtain ⟨n1, a1, a2, -⟩ := wA
    rw [hA] at a1
    cases a1
    exact a2
  have hnaNe := WFSub_entries_ne_nil t.nodes j A P _ _ _ _ na hA wA
  have hnbNe := WFSub_entries_ne_nil t.nodes j B P _ _ _ _ nb hB wB
  obtain ⟨e0, rest, hnb⟩ := List.exists_cons_of_ne_nil hnbNe
  obtain ⟨-, pA, pB, pA2, ndA, ndB⟩ := pair_pages t.nodes j A B na nb hA hB hndAB
  have hcs : ((kB, e0.2) :: rest).map Prod.snd = nb.entries.map Prod.snd := by rw [hnb]; rfl
  have hall : ∀ c ∈ ((kB, e0.2) :: rest).map Prod.snd, t.nodes c ≠ none := by
    rw [hcs]
    intro c hc
    obtain ⟨nb2, b1, -, -, -, hk⟩ := wB
    rw [hB] at b1
    cases b1
    obtain ⟨l, u, f2, n2, hwc⟩ := kid_exists _ _ _ _ _ hk c hc
    obtain ⟨y, hy, -⟩ := WFSub_node _ _ _ _ _ _ _ _ hwc
    rw [hy]
    simp
  obtain ⟨t2, h2a, h2b, h2c, h2d⟩ := reparent_spec _ A t hall
  rw [hcs] at h2d
  have hgi : t.getInternal P = some nd := by simp only [BPTreeIndex.getInternal, S.node]
  have hidx : pre00.length + 1 < nd.entries.length := by
    rw [S.entries]; simp only [List.length_append, List.length_cons]; omega
  have herase : nd.entries.eraseIdx (pre00.length + 1) = pre00 ++ (kA, A) :: post00 := by
    rw [S.entries, eraseIdx_pair]
  have hkey : nd.KeyAt (pre00.length + 1) = some kB := by
    unfold BPTreeInternalPage.KeyAt
    rw [S.entries, get?_pair]
    rfl
  refine ⟨((((t2.setNode B (.internal { nb with entries := [] })).setNode A
      (.internal { na with entries := na.entries ++ (kB, e0.2) :: rest })).setNode P
      (.internal { nd with entries := pre00 ++ (kA, A) :: post00 })).DeletePage B), ?_, ?_⟩
  · simp only [BPTreeIndex.CoalesceStep, hA, hB, hgi, hkey, hnb, hidA, h2a, hidx, if_true, herase]
  have hn1 : ∀ x, ((((t2.setNode B (.internal { nb with entries := [] })).setNode A
      (.internal { na with entries := na.entries ++ (kB, e0.2) :: rest })).setNode P
      (.internal { nd with entries := pre00 ++ (kA, A) :: post00 })).DeletePage B).nodes x =
      if x = P then some (.internal { nd with entries := pre00 ++ (kA, A) :: post00 })
      else if x = A then some (.internal { na with entries := na.entries ++ (kB, e0.2) :: rest })
      else if x = B then some (.internal { nb with entries := [] })
      else if x ∈ nb.entries.map Prod.snd then
        (t.nodes x).map (fun y => y.SetParentPageId A) else t.nodes x := by
    intro x
    show (((t2.setNode B (.internal { nb with entries := [] })).setNode A
      (.internal { na with entries := na.entries ++ (kB, e0.2) :: rest })).setNode P _).nodes x = _
    rw [nodes_setNode, nodes_setNode, nodes_setNode, h2d]
  have h1P := hn1 P
  rw [if_pos rfl] at h1P
  have h1A := hn1 A
  rw [if_neg hAP, if_pos rfl] at h1A
  have hAs := mem_pagesOf_self t.nodes (j + 1) A
  have hBs := mem_pagesOf_self t.nodes (j + 1) B
  have hkidB : ∀ c ∈ nb.entries.map Prod.snd, c ≠ P ∧ c ≠ A ∧ c ≠ B := by
    intro c hc
    obtain ⟨x1, x2, x3, x4, x5⟩ := pB c hc c (mem_pagesOf_self _ _ _)
    exact ⟨(hABP c x5).1, x1, x2⟩
  obtain ⟨c1, c2, c3, c4⟩ := Coalesce_internal_pair t.nodes _ j P A B kA kB (ub post00 phi)
    na nb e0 rest hA hB hnb hndAB h1A
    (by
      intro c hc
      obtain ⟨x1, x2, x3⟩ := hkidB c hc
      rw [hn1, if_neg x1, if_neg x2, if_neg x3, if_pos hc])
    (by
      intro x hx hxA hxB hxc
      rw [hn1, if_neg (hABP x hx).1, if_neg hxA, if_neg hxB, if_neg hxc])
  have hsubl : (A :: (na.entries.flatMap (fun e => pagesOf t.nodes j e.2) ++
      nb.entries.flatMap (fun e => pagesOf t.nodes j e.2))).Sublist
      (pagesOf t.nodes (j + 1) A ++ pagesOf t.nodes (j + 1) B) := by
    rw [pagesOf_succ t.nodes j A na hA, pagesOf_succ t.nodes j B nb hB]
    rw [← List.cons_append]
    exact List.Sublist.append (List.Sublist.refl _) (List.sublist_cons_self _ _)
  have hBnot : B ∉ pagesOf ((((t2.setNode B (.internal { nb with entries := [] })).setNode A
      (.internal { na with entries := na.entries ++ (kB, e0.2) :: rest })).setNode P
      (.internal { nd with entries := pre00 ++ (kA, A) :: post00 })).DeletePage B).nodes (j + 1) A ++
      ([] : List (Int × Int)).flatMap (fun e => pagesOf ((((t2.setNode B
        (.internal { nb with entries := [] })).setNode A
      (.internal { na with entries := na.entries ++ (kB, e0.2) :: rest })).setNode P
      (.internal { nd with entries := pre00 ++ (kA, A) :: post00 })).DeletePage B).nodes
        (j + 1) e.2) := by
    intro hp
    simp only [List.flatMap_nil, List.append_nil] at hp
    exact (c4 B hp (fun h0 => hAB h0.symm)).2.1 rfl
  have key := Pair_tree t _ ex (some P) fl (B :: fl) h lo hi f (j + 1) P plo phi nd
    { nd with entries := pre00 ++ (kA, A) :: post00 } pre00 kA A kB B post00 [] S h1P rfl rfl rfl
    rfl
    (fun lA f n hk => by
      have := Coalesce_internal_pair t.nodes _ j P A B lA kB (ub post00 phi)
        na nb e0 rest hA hB hnb hndAB h1A
        (by
          intro c hc
          obtain ⟨x1, x2, x3⟩ := hkidB c hc
          rw [hn1, if_neg x1, if_neg x2, if_neg x3, if_pos hc])
        (by
          intro x hx hxA hxB hxc
          rw [hn1, if_neg (hABP x hx).1, if_neg hxA, if_neg hxB, if_neg hxc])
      exact this.1 f n hk)
    (by
      intro x hx
      simp only [List.flatMap_nil, List.append_nil] at hx
      rw [c2] at hx
      exact hsubl.subset hx)
    (by
      simp only [List.flatMap_nil, List.append_nil]
      rw [c2]
      exact hsubl.nodup hndAB)
    (by
      intro x hxP hx
      have hxA : x ≠ A := fun h0 => hx (by rw [h0]; exact List.mem_append_left _ hAs)
      have hxB : x ≠ B := fun h0 => hx (by rw [h0]; exact List.mem_append_right _ hBs)
      have hxc : x ∉ nb.entries.map Prod.snd := by
        intro hc
        exact hx (pB x hc x (mem_pagesOf_self _ _ _)).2.2.2.2
      rw [hn1, if_neg hxP, if_neg hxA, if_neg hxB, if_neg hxc])
    (by
      simp only [List.flatMap_nil, List.append_nil]
      exact c3)
    (by show t2.header.root_page_id_ = _; rw [h2b])
    (by show t2.header.tree_height_ = _; rw [h2b])
    (by show _ ≤ t2.header.page_num_; rw [h2b])
    (by show t2.header.leaf_max_size_ = _; rw [h2b])
    (by show t2.header.internal_max_size_ = _; rw [h2b])
    (by show t2.header.num_entries_ = _; rw [h2b])
    (DeletePage_alloc _ fl B (AllocOK_congr t _ fl h2b h2c S.alloc) hB3 hB1
      (by show B < t2.header.page_num_; rw [h2b]; exact hB2))
    (by
      intro p hp hpA hpB
      simp only [List.flatMap_nil, List.append_nil] at hp
      exact (c4 p hp hpA).2.2)
    (by
      intro x hx
      rw [h1A] at hx
      cases hx
      show 2 ≤ (na.entries ++ (kB, e0.2) :: rest).length
      have : 1 ≤ na.entries.length := by
        cases hna : na.entries with
        | nil => exact absurd hna hnaNe
        | cons a l => simp
      simp only [List.length_append, List.length_cons]
      omega)
    (fun hp => absurd hp hBnot)
    (by intro x _ h0; exact absurd rfl h0)
    (Or.inr ⟨rfl, hBnot⟩)
    (by show t2.header.page_num_ ≤ _; rw [h2b])
    (by
      intro x hx
      rw [pagesOf_succ t.nodes j A na hA, pagesOf_succ t.nodes j B nb hB] at hx
      simp only [List.flatMap_nil, List.append_nil]
      rw [c2]
      simp only [List.mem_cons, List.mem_append] at hx ⊢
      rcases hx with (h0 | h0) | (h0 | h0)
      · exact Or.inl (Or.inl h0)
      · exact Or.inl (Or.inr (Or.inl h0))
      · exact Or.inr (Or.inl h0)
      · exact Or.inl (Or.inr (Or.inr h0)))
  exact ⟨key.1, key.2, h1P⟩

theorem Redistribute_internal_left_ok (t : BPTreeIndex) (ex : Option Int) (fl : List Int)
    (h : Nat) (lo hi f : Int) (j : Nat) (P plo phi : Int) (nd : BPTreeInternalPage)
    (kA A kB B : Int) (post00 : List (Int × Int))
    (S : Siblings t ex fl h lo hi f (j + 1) P plo phi nd [] kA A kB B post00)
    (na nb : BPTreeInternalPage) (hA : t.nodes A = some (.internal na))
    (hB : t.nodes B = some (.internal nb)) (hnb3 : 3 ≤ nb.entries.length) :
    ∃ t1, t.Redistribute B A 0 = some t1 ∧ Rebalanced t t1 none fl h lo hi f := by
  obtain ⟨hlen, hAB, hAP, hBP, hB1, hB2, hB3, hfill⟩ :=
    Siblings_filled t ex fl h lo hi f (j + 1) P plo phi nd [] kA A kB B post00 S
  obtain ⟨pre, lA, hnorm, ⟨fA, m, n, wA, wB⟩, hndAB, hABP, hmax4, hidP, hPmem, hexP⟩ :=
    Siblings_facts t ex fl h lo hi f (j + 1) P plo phi nd [] kA A kB B post00 S
  obtain ⟨hidA, hparA⟩ : na.page_id_ = A ∧ na.parent_page_id_ = P := by
    obtain ⟨n1, a1, a2, a3, -⟩ := wA
    rw [hA] at a1
    cases a1
    exact ⟨a2, a3⟩
  have hnaNe := WFSub_entries_ne_nil t.nodes j A P _ _ _ _ na hA wA
  obtain ⟨e, e1, rest, hnb, hrest⟩ : ∃ e e1 rest, nb.entries = e :: e1 :: rest ∧
      1 ≤ rest.length := by
    cases hq : nb.entries with
    | nil => rw [hq] at hnb3; simp at hnb3
    | cons e l1 =>
      cases l1 with
      | nil => rw [hq] at hnb3; simp at hnb3
      | cons e1 rest =>
        rw [hq] at hnb3
        simp only [List.length_cons] at hnb3
        exact ⟨e, e1, rest, rfl, by omega⟩
  obtain ⟨-, pA, pB, pA2, ndA, ndB⟩ := pair_pages t.nodes j A B na nb hA hB hndAB
  have hemem : e.2 ∈ nb.entries.map Prod.snd := by rw [hnb]; simp
  obtain ⟨y, hy⟩ : ∃ y, t.nodes e.2 = some y := by
    obtain ⟨nb2, b1, -, -, -, hk⟩ := wB
    rw [hB] at b1
    cases b1
    obtain ⟨l, u, f2, n2, hwc⟩ := kid_exists _ _ _ _ _ hk e.2 hemem
    obtain ⟨y, hy, -⟩ := WFSub_node _ _ _ _ _ _ _ _ hwc
    exact ⟨y, hy⟩
  have hsp := setParent_spec t e.2 A y hy
  have he2 : e.2 ≠ P ∧ e.2 ≠ A ∧ e.2 ≠ B := by
    obtain ⟨x1, x2, x3, x4, x5⟩ := pB e.2 hemem e.2 (mem_pagesOf_self _ _ _)
    exact ⟨(hABP _ x5).1, x1, x2⟩
  have hgi : t.getInternal P = some nd := by
    simp only [BPTreeIndex.getInternal, S.node]
  have hent : nd.entries = (kA, A) :: (kB, B) :: post00 := S.entries
  have hsk : BPTreeIndex.setKeyAt nd 1 e1.1 =
      some { nd with entries := (kA, A) :: (e1.1, B) :: post00 } := by
    unfold BPTreeIndex.setKeyAt
    rw [hent]
    rfl
  have hkey : nd.KeyAt 1 = some kB := by
    unfold BPTreeInternalPage.KeyAt
    rw [hent]
    rfl
  refine ⟨(((t.setNode e.2 (y.SetParentPageId A)).setNode A
      (.internal { na with entries := na.entries ++ [(kB, e.2)] })).setNode B
      (.internal { nb with entries := e1 :: rest })).setNode P
      (.internal { nd with entries := (kA, A) :: (e1.1, B) :: post00 }), ?_, ?_⟩
  · simp only [BPTreeIndex.Redistribute, hA, hB, hparA, hidA, hgi, if_true, hkey, hnb, hsp, hsk]
  have hn1 : ∀ x, ((((t.setNode e.2 (y.SetParentPageId A)).setNode A
      (.internal { na with entries := na.entries ++ [(kB, e.2)] })).setNode B
      (.internal { nb with entries := e1 :: rest })).setNode P
      (.internal { nd with entries := (kA, A) :: (e1.1, B) :: post00 })).nodes x =
      if x = P then some (.internal { nd with entries := (kA, A) :: (e1.1, B) :: post00 })
      else if x = B then some (.internal { nb with entries := e1 :: rest })
      else if x = A then some (.internal { na with entries := na.entries ++ [(kB, e.2)] })
      else if x = e.2 then some (y.SetParentPageId A)
      else t.nodes x := by
    intro x
    rw [nodes_setNode, nodes_setNode, nodes_setNode, nodes_setNode]
  have h1P := hn1 P
  rw [if_pos rfl] at h1P
  have h1A := hn1 A
  rw [if_neg hAP, if_neg hAB, if_pos rfl] at h1A
  have h1B := hn1 B
  rw [if_neg hBP, if_pos rfl] at h1B
  have h1e := hn1 e.2
  rw [if_neg he2.1, if_neg he2.2.2, if_neg he2.2.1, if_pos rfl] at h1e
  have hpair := fun lA => Redistribute_internal_left_pair t.nodes _ j P A B lA kB (ub post00 phi)
    na nb e e1 rest hA hB hnb hndAB h1A h1B (by rw [h1e, hy]; rfl)
    (by
      intro x hx hxA hxB hxe
      rw [hn1, if_neg (hABP x hx).1, if_neg hxB, if_neg hxA, if_neg hxe])
  obtain ⟨-, c2, c3, c4⟩ := hpair kA
  have hAs := mem_pagesOf_self t.nodes (j + 1) A
  have hBs := mem_pagesOf_self t.nodes (j + 1) B
  have key := Pair_tree t _ ex none fl fl h lo hi f (j + 1) P plo phi nd
    { nd with entries := (kA, A) :: (e1.1, B) :: post00 } [] kA A kB B post00 [(e1.1, B)] S h1P
    rfl rfl rfl rfl
    (fun lA f n hk => (hpair lA).1 f n hk)
    (by
      intro x hx
      simp only [List.flatMap_cons, List.flatMap_nil, List.append_nil] at hx
      exact c2.subset hx)
    (by
      simp only [List.flatMap_cons, List.flatMap_nil, List.append_nil]
      exact c2.nodup_iff.2 hndAB)
    (by
      intro x hxP hx
      have hxA : x ≠ A := fun h0 => hx (by rw [h0]; exact List.mem_append_left _ hAs)
      have hxB : x ≠ B := fun h0 => hx (by rw [h0]; exact List.mem_append_right _ hBs)
      have hxe : x ≠ e.2 := by
        intro h0
        exact hx (by rw [h0]; exact (pB e.2 hemem e.2 (mem_pagesOf_self _ _ _)).2.2.2.2)
      rw [hn1, if_neg hxP, if_neg hxB, if_neg hxA, if_neg hxe])
    (by
      simp only [List.flatMap_cons, List.flatMap_nil, List.append_nil]
      exact c3)
    rfl rfl (le_refl _) rfl rfl rfl (AllocOK_congr t _ fl rfl rfl S.alloc)
    (by
      intro p hp hpA hpB
      simp only [List.flatMap_cons, List.flatMap_nil, List.append_nil] at hp
      exact c4 p hp hpA hpB)
    (by
      intro x hx
      rw [h1A] at hx
      cases hx
      show 2 ≤ (na.entries ++ [(kB, e.2)]).length
      have : 1 ≤ na.entries.length := by
        cases hna : na.entries with
        | nil => exact absurd hna hnaNe
        | cons a l => simp
      simp only [List.length_append, List.length_cons, List.length_nil]
      omega)
    (by
      intro _ x hx
      rw [h1B] at hx
      cases hx
      show 2 ≤ (e1 :: rest).length
      simp only [List.length_cons]
      omega)
    (by
      intro x hx _
      rw [h1P] at hx
      cases hx
      show 2 ≤ ((kA, A) :: (e1.1, B) :: post00).length
      simp)
    (Or.inl rfl)
    (le_refl _)
    (by
      intro x hx
      simp only [List.flatMap_cons, List.flatMap_nil, List.append_nil]
      exact Or.inl (c2.symm.subset hx))
  exact key.1

theorem Redistribute_internal_right_ok (t : BPTreeIndex) (ex : Option Int) (fl : List Int)
    (h : Nat) (lo hi f : Int) (j : Nat) (P plo phi : Int) (nd : BPTreeInternalPage)
    (pre00 : List (Int × Int)) (kA A kB B : Int) (post00 : List (Int × Int))
    (S : Siblings t ex fl h lo hi f (j + 1) P plo phi nd pre00 kA A kB B post00)
    (na nb : BPTreeInternalPage) (hA : t.nodes A = some (.internal na))
    (hB : t.nodes B = some (.internal nb)) (hna3 : 3 ≤ na.entries.length) :
    ∃ t1, t.Redistribute A B (pre00.length + 1) = some t1 ∧
      Rebalanced t t1 none fl h lo hi f := by
  obtain ⟨hlen, hAB, hAP, hBP, hB1, hB2, hB3, hfill⟩ :=
    Siblings_filled t ex fl h lo hi f (j + 1) P plo phi nd pre00 kA A kB B post00 S
  obtain ⟨pre, lA, hnorm, ⟨fA, m, n, wA, wB⟩, hndAB, hABP, hmax4, hidP, hPmem, hexP⟩ :=
    Siblings_facts t ex fl h lo hi f (j + 1) P plo phi nd pre00 kA A kB B post00 S
  obtain ⟨hidB, hparB⟩ : nb.page_id_ = B ∧ nb.parent_page_id_ = P := by
    obtain ⟨n1, a1, a2, a3, -⟩ := wB
    rw [hB] at a1
    cases a1
    exact ⟨a2, a3⟩
  have hnbNe := WFSub_entries_ne_nil t.nodes j B P _ _ _ _ nb hB wB
  obtain ⟨e0, rest, hnb⟩ := List.exists_cons_of_ne_nil hnbNe
  cases hgl : na.entries.getLast? with
  | none =>
    rw [List.getLast?_eq_none_iff] at hgl
    rw [hgl] at hna3
    simp at hna3
  | some e =>
    have hsplit := getLast_split na.entries e hgl
    have hdl : 2 ≤ na.entries.dropLast.length := by
      rw [List.length_dropLast]; omega
    have hinit : na.entries.dropLast ≠ [] := by
      intro h0; rw [h0] at hdl; simp at hdl
    obtain ⟨-, pA, pB, pA2, ndA, ndB⟩ := pair_pages t.nodes j A B na nb hA hB hndAB
    have hemem : e.2 ∈ na.entries.map Prod.snd := by rw [hsplit]; simp
    obtain ⟨y, hy⟩ : ∃ y, t.nodes e.2 = some y := by
      obtain ⟨na2, b1, -, -, -, hk⟩ := wA
      rw [hA] at b1
      cases b1
      obtain ⟨l, u, f2, n2, hwc⟩ := kid_exists _ _ _ _ _ hk e.2 hemem
      obtain ⟨y, hy, -⟩ := WFSub_node _ _ _ _ _ _ _ _ hwc
      exact ⟨y, hy⟩
    have hsp := setParent_spec t e.2 B y hy
    have he2 : e.2 ≠ P ∧ e.2 ≠ A ∧ e.2 ≠ B := by
      obtain ⟨x1, x2, x3, x4⟩ := pA e.2 hemem e.2 (mem_pagesOf_self _ _ _)
      exact ⟨(hABP _ x4).1, x1, x2⟩
    have hgi : t.getInternal P = some nd := by
      simp only [BPTreeIndex.getInternal, S.node]
    have hsk : BPTreeIndex.setKeyAt nd (pre00.length + 1) e.1 =
        some { nd with entries := pre00 ++ (kA, A) :: (e.1, B) :: post00 } := by
      simp only [BPTreeIndex.setKeyAt, S.entries, get?_pair, set_pair]
    have hkey : nd.KeyAt (pre00.length + 1) = some kB := by
      unfold BPTreeInternalPage.KeyAt
      rw [S.entries, get?_pair]
      rfl
    have hidx : ¬ pre00.length + 1 = 0 := by omega
    refine ⟨(((t.setNode e.2 (y.SetParentPageId B)).setNode B
        (.internal { nb with entries := (e0.1, e.2) :: (kB, e0.2) :: rest })).setNode A
        (.internal { na with entries := na.entries.dropLast })).setNode P
        (.internal { nd with entries := pre00 ++ (kA, A) :: (e.1, B) :: post00 }), ?_, ?_⟩
    · simp only [BPTreeIndex.Redistribute, hA, hB, hparB, hidB, hgi, hidx, if_false, hkey, hgl,
        hnb, hsp, hsk]
    have hn1 : ∀ x, ((((t.setNode e.2 (y.SetParentPageId B)).setNode B
        (.internal { nb with entries := (e0.1, e.2) :: (kB, e0.2) :: rest })).setNode A
        (.internal { na with entries := na.entries.dropLast })).setNode P
        (.internal { nd with entries := pre00 ++ (kA, A) :: (e.1, B) :: post00 })).nodes x =
        if x = P then some (.internal { nd with entries := pre00 ++ (kA, A) :: (e.1, B) :: post00 })
        else if x = A then some (.internal { na with entries := na.entries.dropLast })
        else if x = B then
          some (.internal { nb with entries := (e0.1, e.2) :: (kB, e0.2) :: rest })
        else if x = e.2 then some (y.SetParentPageId B)
        else t.nodes x := by
      intro x
      rw [nodes_setNode, nodes_setNode, nodes_setNode, nodes_setNode]
    have h1P := hn1 P
    rw [if_pos rfl] at h1P
    have h1A := hn1 A
    rw [if_neg hAP, if_pos rfl] at h1A
    have h1B := hn1 B
    rw [if_neg hBP, if_neg hAB.symm, if_pos rfl] at h1B
    have h1e := hn1 e.2
    rw [if_neg he2.1, if_neg he2.2.1, if_neg he2.2.2, if_pos rfl] at h1e
    have hpair := fun lA => Redistribute_internal_right_pair t.nodes _ j P A B lA kB
      (ub post00 phi) na nb e e0 na.entries.dropLast rest hA hB hsplit hinit hnb hndAB h1A h1B
      (by rw [h1e, hy]; rfl)
      (by
        intro x hx hxA hxB hxe
        rw [hn1, if_neg (hABP x hx).1, if_neg hxA, if_neg hxB, if_neg hxe])
    obtain ⟨-, c2, c3, c4⟩ := hpair kA
    have hAs := mem_pagesOf_self t.nodes (j + 1) A
    have hBs := mem_pagesOf_self t.nodes (j + 1) B
    have key := Pair_tree t _ ex none fl fl h lo hi f (j + 1) P plo phi nd
      { nd with entries := pre00 ++ (kA, A) :: (e.1, B) :: post00 } pre00 kA A kB B post00
      [(e.1, B)] S h1P rfl rfl rfl rfl
      (fun lA f n hk => (hpair lA).1 f n hk)
      (by
        intro x hx
        simp only [List.flatMap_cons, List.flatMap_nil, List.append_nil] at hx
        exact c2.subset hx)
      (by
        simp only [List.flatMap_cons, List.flatMap_nil, List.append_nil]
        exact c2.nodup_iff.2 hndAB)
      (by
        intro x hxP hx
        have hxA : x ≠ A := fun h0 => hx (by rw [h0]; exact List.mem_append_left _ hAs)
        have hxB : x ≠ B := fun h0 => hx (by rw [h0]; exact List.mem_append_right _ hBs)
        have hxe : x ≠ e.2 := by
          intro h0
          exact hx (by rw [h0]; exact (pA e.2 hemem e.2 (mem_pagesOf_self _ _ _)).2.2.2)
        rw [hn1, if_neg hxP, if_neg hxA, if_neg hxB, if_neg hxe])
      (by
        simp only [List.flatMap_cons, List.flatMap_nil, List.append_nil]
        exact c3)
      rfl rfl (le_refl _) rfl rfl rfl (AllocOK_congr t _ fl rfl rfl S.alloc)
      (by
        intro p hp hpA hpB
        simp only [List.flatMap_cons, List.flatMap_nil, List.append_nil] at hp
        exact c4 p hp hpA hpB)
      (by
        intro x hx
        rw [h1A] at hx
        cases hx
        exact hdl)
      (by
        intro _ x hx
        rw [h1B] at hx
        cases hx
        show 2 ≤ ((e0.1, e.2) :: (kB, e0.2) :: rest).length
        simp)
      (by
        intro x hx _
        rw [h1P] at hx
        cases hx
        show 2 ≤ (pre00 ++ (kA, A) :: (e.1, B) :: post00).length
        simp only [List.length_append, List.length_cons]; omega)
      (Or.inl rfl)
      (le_refl _)
      (by
        intro x hx
        simp only [List.flatMap_cons, List.flatMap_nil, List.append_nil]
        exact Or.inl (c2.symm.subset hx))
    exact key.1

/-! ## B+tree: adjusting the root -/

theorem AdjustRoot_ok (t : BPTreeIndex) (fl : List Int) (h : Nat) (lo hi f : Int)
    (x : BPTreePage) (hl : t.header.leaf_max_size_ = 4) (hi4 : t.header.internal_max_size_ = 4)
    (ha : t.AllocOK fl) (hT : t.TreeOK (some t.header.root_page_id_) fl h)
    (hw : WFSub t.nodes h t.header.root_page_id_ INVALID_PAGE_ID lo hi f INVALID_PAGE_ID)
    (hx : t.nodes t.header.root_page_id_ = some x) (hx4 : x.GetSize ≤ 4) :
    ∃ r, t.AdjustRoot x = some r ∧ Settled t r.2 h := by
  have hroot := hT.2.2.2.2 _ (mem_pagesOf_self t.nodes h t.header.root_page_id_)
  cases h with
  | zero =>
    obtain ⟨l, a1, a2, a3, a4, a5, a6, a7, a8, a9⟩ := hw
    rw [hx] at a1
    cases a1
    by_cases hlen : l.entries.length = 0
    · have hAl0 : BPTreeIndex.AllocOK (({ t with header := { t.header with
          root_page_id_ := INVALID_PAGE_ID, tree_height_ := 0 } } : BPTreeIndex).DeletePage
            l.page_id_) (t.header.root_page_id_ :: fl) := by
        rw [a2]
        exact DeletePage_alloc _ fl _ ha hroot.2.2.1 hroot.1 hroot.2.1
      refine ⟨(true, ({ t with header := { t.header with
        root_page_id_ := INVALID_PAGE_ID, tree_height_ := 0 } } : BPTreeIndex).DeletePage
          l.page_id_), ?_, ?_, ?_, rfl, ?_⟩
      rotate_left 3
      · intro hc fl9 hA9 p hp1 hp2
        rw [AllocOK_unique _ fl9 _ hA9 hAl0]
        right
        rcases hc fl ha p hp1 hp2 with h0 | h0
        · simp only [pagesOf, List.mem_singleton] at h0
          rw [h0]
          exact List.mem_cons_self _ _
        · exact List.mem_cons_of_mem _ h0
      · simp only [BPTreeIndex.AdjustRoot, hlen, if_true]
      · exact ⟨hl, hi4, t.header.root_page_id_ :: fl, hAl0, Or.inl ⟨rfl, rfl⟩⟩
      · rw [entriesOf_zero _ _ _ hx, List.length_eq_zero.1 hlen]
        unfold BPTreeIndex.Stored
        exact if_pos rfl
    · refine ⟨(false, t), ?_, ?_, ?_, rfl, (Covered_iff_Cov t _ fl 0 hT).2⟩
      · simp only [BPTreeIndex.AdjustRoot, hlen, if_false]
      · refine ⟨hl, hi4, fl, ha, Or.inr ⟨0, TreeOK_drop_exception t _ fl 0 hT ?_⟩⟩
        intro y hy
        rw [hx] at hy
        cases hy
        exact ⟨hx4, by omega, fun hp => absurd a3 hp⟩
      · exact Stored_of_TreeOK t _ fl 0 hT
  | succ j =>
    have hw0 := hw
    obtain ⟨nd, a1, a2, a3, a4, hk⟩ := hw
    rw [hx] at a1
    cases a1
    have hne : nd.entries ≠ [] := KidsOK_ne_nil _ _ _ _ _ hk
    by_cases hlen : nd.entries.length = 1
    · obtain ⟨e, he⟩ := List.length_eq_one.1 hlen
      rw [he] at hk
      have hwc : WFSub t.nodes j e.2 t.header.root_page_id_ lo hi f INVALID_PAGE_ID := hk
      obtain ⟨y, hy, -⟩ := WFSub_node _ _ _ _ _ _ _ _ hwc
      have hpg : pagesOf t.nodes (j + 1) t.header.root_page_id_ =
          t.header.root_page_id_ :: pagesOf t.nodes j e.2 := by
        rw [pagesOf_succ _ _ _ _ hx, he]
        simp only [List.flatMap_cons, List.flatMap_nil, List.append_nil]
      have hen : entriesOf t.nodes (j + 1) t.header.root_page_id_ = entriesOf t.nodes j e.2 := by
        rw [entriesOf_succ _ _ _ _ hx, he]
        simp only [List.flatMap_cons, List.flatMap_nil, List.append_nil]
      have hnd := hT.2.2.2.1
      rw [hpg] at hnd
      obtain ⟨n1, n2⟩ := List.nodup_cons.1 hnd
      have hva : nd.ValueAt 0 = some e.2 := by
        unfold BPTreeInternalPage.ValueAt
        rw [he]
        rfl
      have hsp := setParent_spec ({ t with header := { t.header with
        root_page_id_ := e.2, tree_height_ := t.header.tree_height_ - 1 } } : BPTreeIndex)
        e.2 INVALID_PAGE_ID y hy
      obtain ⟨t1, ht1⟩ : ∃ t1 : BPTreeIndex, t1 = (({ t with header := { t.header with
          root_page_id_ := e.2, tree_height_ := t.header.tree_height_ - 1 } } :
          BPTreeIndex).setNode e.2 (y.SetParentPageId INVALID_PAGE_ID)).DeletePage
            nd.page_id_ := ⟨_, rfl⟩
      have hn1 : ∀ p, t1.nodes p =
          if p = e.2 then some (y.SetParentPageId INVALID_PAGE_ID) else t.nodes p := by
        intro p
        rw [ht1]
        show (({ t with header := { t.header with
          root_page_id_ := e.2, tree_height_ := t.header.tree_height_ - 1 } } :
          BPTreeIndex).setNode e.2 (y.SetParentPageId INVALID_PAGE_ID)).nodes p = _
        rw [nodes_setNode]
      have hr1 : t1.header.root_page_id_ = e.2 := by rw [ht1]; rfl
      have hh1 : t1.header.tree_height_ = t.header.tree_height_ - 1 := by rw [ht1]; rfl
      have hp1 : t1.header.page_num_ = t.header.page_num_ := by rw [ht1]; rfl
      have hl1 : t1.header.leaf_max_size_ = t.header.leaf_max_size_ := by rw [ht1]; rfl
      have hi1 : t1.header.internal_max_size_ = t.header.internal_max_size_ := by rw [ht1]; rfl
      have hne1 : t1.header.num_entries_ = t.header.num_entries_ := by rw [ht1]; rfl
      have hmem : ∀ p ∈ pagesOf t.nodes j e.2,
          p ∈ pagesOf t.nodes (j + 1) t.header.root_page_id_ := by
        intro p hp; rw [hpg]; exact List.mem_cons_of_mem _ hp
      have he2 : e.2 ≠ INVALID_PAGE_ID := by
        have := (hT.2.2.2.2 e.2 (hmem _ (mem_pagesOf_self _ _ _))).1
        unfold INVALID_PAGE_ID
        omega
      obtain ⟨w1, w2, w3⟩ := WFSub_setParent t.nodes t1.nodes j e.2 _ INVALID_PAGE_ID lo hi f
        INVALID_PAGE_ID hwc n2 (by rw [hn1, if_pos rfl, hy]; rfl)
        (by intro p _ hp; rw [hn1, if_neg hp])
      have hTree : t1.TreeOK none (t.header.root_page_id_ :: fl) j := by
        unfold BPTreeIndex.TreeOK
        rw [hr1, hh1, hp1]
        refine ⟨he2, ?_, ⟨lo, hi, f, w1⟩, ?_, ?_⟩
        · rw [hT.2.1]
          push_cast
          omega
        · rw [w2]; exact n2
        · intro p hp
          rw [w2] at hp
          have hold := hT.2.2.2.2 p (hmem p hp)
          have hpr : p ≠ t.header.root_page_id_ := fun h0 => n1 (by rw [← h0]; exact hp)
          refine ⟨hold.1, hold.2.1, ?_, ?_⟩
          · simp only [List.mem_cons, not_or]
            exact ⟨hpr, hold.2.2.1⟩
          · intro z hz _
            rw [hn1] at hz
            have hex : some t.header.root_page_id_ ≠ some p :=
              fun h0 => hpr (Option.some.inj h0).symm
            by_cases hpe : p = e.2
            · rw [if_pos hpe] at hz
              cases hz
              apply Filled_setParent
              exact hold.2.2.2 y (by rw [hpe]; exact hy) hex
            · rw [if_neg hpe] at hz
              exact hold.2.2.2 z hz hex
      have hAl : t1.AllocOK (t.header.root_page_id_ :: fl) := by
        rw [ht1, a2]
        exact DeletePage_alloc _ fl _ ha hroot.2.2.1 hroot.1 hroot.2.1
      refine ⟨(true, t1), ?_, ?_, ?_, hne1, ?_⟩
      rotate_left 3
      · intro hc
        rw [Covered_iff_Cov t1 none _ j hTree]
        intro fl9 hA9 p hq1 hq2
        rw [AllocOK_unique t1 fl9 _ hA9 hAl, hr1, w2]
        rw [hp1] at hq2
        rcases hc fl ha p hq1 hq2 with h0 | h0
        · rw [hpg] at h0
          rcases List.mem_cons.1 h0 with h1 | h1
          · rw [h1]
            exact Or.inr (List.mem_cons_self _ _)
          · exact Or.inl h1
        · exact Or.inr (List.mem_cons_of_mem _ h0)
      · rw [ht1]
        simp only [BPTreeIndex.AdjustRoot, hlen, if_true, hva, hsp]
      · exact ⟨by rw [hl1]; exact hl, by rw [hi1]; exact hi4, _, hAl, Or.inr ⟨j, hTree⟩⟩
      · rw [Stored_of_TreeOK t1 _ _ j hTree, hr1, w3, hen]
    · refine ⟨(false, t), ?_, ?_, ?_, rfl, (Covered_iff_Cov t _ fl (j + 1) hT).2⟩
      · simp only [BPTreeIndex.AdjustRoot, hlen, if_false]
      · refine ⟨hl, hi4, fl, ha, Or.inr ⟨j + 1, TreeOK_drop_exception t _ fl _ hT ?_⟩⟩
        intro y hy
        rw [hx] at hy
        cases hy
        show 2 ≤ nd.entries.length
        have : nd.entries.length ≠ 0 := fun h0 => hne (List.length_eq_zero.1 h0)
        omega
      · exact Stored_of_TreeOK t _ fl _ hT

/-! ## B+tree: rebalancing after a deletion -/

theorem IsSafe_false_small (x : BPTreePage) (hmax : x.GetMaxSize = 4) (hnr : x.IsRoot = false)
    (h : x.IsSafe false = false) : x.GetSize ≤ 2 := by
  unfold BPTreePage.IsSafe at h
  simp only [Bool.false_eq_true, if_false, hnr, hmax, decide_eq_false_iff_not, not_lt] at h
  exact h

theorem IsSafe_false_small_root (x : BPTreePage) (hr : x.IsRoot = true)
    (h : x.IsSafe false = false) : x.GetSize ≤ 2 := by
  unfold BPTreePage.IsSafe at h
  simp only [Bool.false_eq_true, if_false, hr, if_true, decide_eq_false_iff_not, not_lt] at h
  split at h <;> omega

theorem IsSafe_true_filled (n : BPTreeInternalPage) (hmax : n.max_size_ = 4)
    (h : (BPTreePage.internal n).IsSafe false = true) : (BPTreePage.internal n).Filled := by
  unfold BPTreePage.IsSafe at h
  simp only [Bool.false_eq_true, if_false, BPTreePage.GetMaxSize, hmax, BPTreePage.IsLeaf,
    BPTreePage.GetSize, decide_eq_true_eq] at h
  show 2 ≤ n.entries.length
  split at h <;> omega

theorem CoalesceStep_ok (t : BPTreeIndex) (ex : Option Int) (fl : List Int) (h : Nat)
    (lo hi f : Int) (j : Nat) (P plo phi : Int) (nd : BPTreeInternalPage)
    (pre00 : List (Int × Int)) (kA A kB B : Int) (post00 : List (Int × Int))
    (S : Siblings t ex fl h lo hi f j P plo phi nd pre00 kA A kB B post00)
    (hsum : ∀ a b, t.nodes A = some a → t.nodes B = some b → a.GetSize + b.GetSize ≤ 4) :
    ∃ t1, t.CoalesceStep A B P (pre00.length + 1) = some (t1,
        !(BPTreePage.internal { nd with entries := pre00 ++ (kA, A) :: post00 }).IsSafe false) ∧
      Rebalanced t t1 (some P) (B :: fl) h lo hi f ∧
      Site t1.nodes ⟨h, t1.header.root_page_id_, lo, hi⟩ ⟨j + 1, P, plo, phi⟩ ∧
      t1.nodes P = some (.internal { nd with entries := pre00 ++ (kA, A) :: post00 }) := by
  obtain ⟨pre, lA, hnorm, ⟨fA, m, n, wA, wB⟩, -⟩ :=
    Siblings_facts t ex fl h lo hi f j P plo phi nd pre00 kA A kB B post00 S
  cases j with
  | zero =>
    obtain ⟨la, hA, -⟩ := wA
    obtain ⟨lb, hB, -⟩ := wB
    exact Coalesce_leaf_ok t ex fl h lo hi f P plo phi nd pre00 kA A kB B post00 S la lb hA hB
      (hsum _ _ hA hB)
  | succ j =>
    obtain ⟨na, hA, -⟩ := wA
    obtain ⟨nb, hB, -⟩ := wB
    exact Coalesce_internal_ok t ex fl h lo hi f j P plo phi nd pre00 kA A kB B post00 S na nb
      hA hB

theorem Redistribute_left_ok (t : BPTreeIndex) (ex : Option Int) (fl : List Int)
    (h : Nat) (lo hi f : Int) (j : Nat) (P plo phi : Int) (nd : BPTreeInternalPage)
    (kA A kB B : Int) (post00 : List (Int × Int))
    (S : Siblings t ex fl h lo hi f j P plo phi nd [] kA A kB B post00)
    (hsz : ∀ y, t.nodes B = some y → 3 ≤ y.GetSize)
    (hnode : ∀ y, t.nodes A = some y → y.GetSize ≤ 2)
    (hsum : ∀ a b, t.nodes A = some a → t.nodes B = some b → 4 < a.GetSize + b.GetSize)
    (hnbf : ∀ y, t.nodes B = some y → y.Filled) :
    ∃ t1, t.Redistribute B A 0 = some t1 ∧ Rebalanced t t1 none fl h lo hi f := by
  obtain ⟨pre, lA, hnorm, ⟨fA, m, n, wA, wB⟩, -⟩ :=
    Siblings_facts t ex fl h lo hi f j P plo phi nd [] kA A kB B post00 S
  cases j with
  | zero =>
    obtain ⟨la, hA, -⟩ := wA
    obtain ⟨lb, hB, -⟩ := wB
    have h3 : 3 ≤ lb.entries.length := hsz _ hB
    have h2 : la.entries.length ≤ 2 := hnode _ hA
    have h4 : lb.entries.length ≤ 4 := (hnbf _ hB).1
    have h5 : 4 < la.entries.length + lb.entries.length := hsum _ _ hA hB
    cases hq : lb.entries with
    | nil => rw [hq] at h3; simp at h3
    | cons e l1 =>
      cases l1 with
      | nil => rw [hq] at h3; simp at h3
      | cons e1 rest =>
        exact Redistribute_leaf_left_ok t ex fl h lo hi f P plo phi nd kA A kB B post00 S la lb
          hA hB e e1 rest hq (by omega) (by omega) h3 h4
  | succ j =>
    obtain ⟨na, hA, -⟩ := wA
    obtain ⟨nb, hB, -⟩ := wB
    exact Redistribute_internal_left_ok t ex fl h lo hi f j P plo phi nd kA A kB B post00 S na nb
      hA hB (hsz _ hB)

theorem Redistribute_right_ok (t : BPTreeIndex) (ex : Option Int) (fl : List Int)
    (h : Nat) (lo hi f : Int) (j : Nat) (P plo phi : Int) (nd : BPTreeInternalPage)
    (pre00 : List (Int × Int)) (kA A kB B : Int) (post00 : List (Int × Int))
    (S : Siblings t ex fl h lo hi f j P plo phi nd pre00 kA A kB B post00)
    (hsz : ∀ y, t.nodes A = some y → 3 ≤ y.GetSize)
    (hnode : ∀ y, t.nodes B = some y → y.GetSize ≤ 2)
    (hsum : ∀ a b, t.nodes A = some a → t.nodes B = some b → 4 < a.GetSize + b.GetSize)
    (hnbf : ∀ y, t.nodes A = some y → y.Filled) :
    ∃ t1, t.Redistribute A B (pre00.length + 1) = some t1 ∧
      Rebalanced t t1 none fl h lo hi f := by
  obtain ⟨pre, lA, hnorm, ⟨fA, m, n, wA, wB⟩, -⟩ :=
    Siblings_facts t ex fl h lo hi f j P plo phi nd pre00 kA A kB B post00 S
  cases j with
  | zero =>
    obtain ⟨la, hA, -⟩ := wA
    obtain ⟨lb, hB, -⟩ := wB
    have h3 : 3 ≤ la.entries.length := hsz _ hA
    have h2 : lb.entries.length ≤ 2 := hnode _ hB
    have h4 : la.entries.length ≤ 4 := (hnbf _ hA).1
    have h5 : 4 < la.entries.length + lb.entries.length := hsum _ _ hA hB
    exact Redistribute_leaf_right_ok t ex fl h lo hi f P plo phi nd pre00 kA A kB B post00 S
      la lb hA hB (by omega) h3 h4 (by omega) (by omega)
  | succ j =>
    obtain ⟨na, hA, -⟩ := wA
    obtain ⟨nb, hB, -⟩ := wB
    exact Redistribute_internal_right_ok t ex fl h lo hi f j P plo phi nd pre00 kA A kB B post00
      S na nb hA hB (hsz _ hA)

theorem CoalesceOrRedistribute_eq (fuel : Nat) (t : BPTreeIndex) (X P : Int) (x nb : BPTreePage)
    (nd : BPTreeInternalPage) (index : Nat) (nbp : Int)
    (hx : t.nodes X = some x) (hnr : x.IsRoot = false) (hpar : x.GetParentPageId = P)
    (hgi : t.getInternal P = some nd) (hvi : nd.ValueIndex X = some index)
    (hva : nd.ValueAt (if index = 0 then 1 else index - 1) = some nbp)
    (hnb : t.nodes nbp = some nb) :
    BPTreeIndex.CoalesceOrRedistribute (fuel + 1) t X =
      if nb.GetSize + x.GetSize ≤ x.GetMaxSize then
        match (if index = 0 then t.CoalesceStep X nbp P 1
               else t.CoalesceStep nbp X P index) with
        | none => none
        | some (t1, parent_unsafe) =>
          if parent_unsafe then BPTreeIndex.CoalesceOrRedistribute fuel t1 P
          else some (true, t1)
      else
        match t.Redistribute nbp X index with
        | none => none
        | some t1 => some (false, t1) := by
  simp only [BPTreeIndex.CoalesceOrRedistribute, hx, hnr, hpar, hgi, hvi, hva, hnb,
    Bool.false_eq_true, if_false]

theorem Settled_of_Rebalanced (t t1 : BPTreeIndex) (fl1 : List Int) (h : Nat) (lo hi f : Int)
    (hl : t.header.leaf_max_size_ = 4) (hi4 : t.header.internal_max_size_ = 4)
    (hR : Rebalanced t t1 none fl1 h lo hi f) : Settled t t1 h := by
  obtain ⟨r1, r2, r3, r4, r5, r6, r7, r8⟩ := hR
  refine ⟨⟨by rw [r5]; exact hl, by rw [r6]; exact hi4, fl1, r1, Or.inr ⟨h, r2⟩⟩, ?_, r7,
    fun hc => (Covered_iff_Cov t1 none fl1 h r2).2 (r8 hc)⟩
  rw [Stored_of_TreeOK t1 _ _ h r2, r4]

theorem CoalesceOrRedistribute_ok : ∀ (n fuel : Nat) (t : BPTreeIndex) (fl : List Int) (h : Nat)
    (lo hi f : Int) (a : Pos), n < fuel → a.h + n = h →
    t.header.leaf_max_size_ = 4 → t.header.internal_max_size_ = 4 →
    t.AllocOK fl → t.TreeOK (some a.pid) fl h →
    WFSub t.nodes h t.header.root_page_id_ INVALID_PAGE_ID lo hi f INVALID_PAGE_ID →
    Site t.nodes ⟨h, t.header.root_page_id_, lo, hi⟩ a →
    (∀ x, t.nodes a.pid = some x → x.IsSafe false = false) →
    ∃ r, BPTreeIndex.CoalesceOrRedistribute fuel t a.pid = some r ∧ Settled t r.2 h := by
  intro n
  induction n with
  | zero =>
    intro fuel t fl h lo hi f a hfuel hah hl hi4 ha hT hw hs hus
    obtain ⟨fuel, rfl⟩ : ∃ k, fuel = k + 1 := ⟨fuel - 1, by omega⟩
    have hatop := Site_eq_of_height t.nodes _ a hs (by simp only; omega)
    subst hatop
    obtain ⟨x, hx, hxp, -⟩ := WFSub_node _ _ _ _ _ _ _ _ hw
    have hroot : x.IsRoot = true := by
      unfold BPTreePage.IsRoot
      rw [hxp]
      simp
    obtain ⟨r, hr1, hr2⟩ := AdjustRoot_ok t fl h lo hi f x hl hi4 ha hT hw hx
      (by have := IsSafe_false_small_root x hroot (hus x hx); omega)
    refine ⟨r, ?_, hr2⟩
    simp only [BPTreeIndex.CoalesceOrRedistribute, hx, hroot, if_true]
    exact hr1
  | succ n ih =>
    intro fuel t fl h lo hi f a hfuel hah hl hi4 ha hT hw hs hus
    obtain ⟨fuel, rfl⟩ : ∃ k, fuel = k + 1 := ⟨fuel - 1, by omega⟩
    obtain ⟨p, hsp, hstep⟩ := Site_parent t.nodes _ a hs (by simp only; omega)
    obtain ⟨ah, X, alo, ahi⟩ := a
    obtain ⟨ph, P, plo, phi⟩ := p
    have hstep0 := hstep
    obtain ⟨nd, hph, hnP, hmem⟩ := hstep
    simp only at hph hnP hmem hah hT hus
    subst hph
    obtain ⟨par1, f1, n1, hwP⟩ := Site_wf t.nodes _ _ hsp _ _ _ hw
    simp only at hwP
    obtain ⟨f2, n2, hwX⟩ := ChildStep_wf t.nodes _ _ hstep0 _ _ _ hwP
    simp only at hwX
    obtain ⟨x, hx, hxp, -, hxm, -⟩ := WFSub_node _ _ _ _ _ _ _ _ hwX
    have hsub := Site_sublist t.nodes _ _ hsp
    simp only at hsub
    have hndP : (pagesOf t.nodes (ah + 1) P).Nodup := hsub.nodup hT.2.2.2.1
    have hPmem : P ∈ pagesOf t.nodes h t.header.root_page_id_ :=
      hsub.subset (mem_pagesOf_self _ _ _)
    have hPold := hT.2.2.2.2 P hPmem
    have hnr : x.IsRoot = false := by
      unfold BPTreePage.IsRoot
      rw [hxp]
      have := hPold.1
      unfold INVALID_PAGE_ID
      simp only [decide_eq_false_iff_not]
      omega
    have hkn := children_nodup t.nodes ah P nd hnP hndP
    obtain ⟨pre0, k0, post, pre, hE, hXpre, hXpost, hubp, hpre, hnorm⟩ :=
      child_position plo phi nd.entries X alo ahi hmem hkn
    have hXP : X ≠ P := by
      intro h0
      rw [pagesOf_succ _ _ _ _ hnP] at hndP
      apply (List.nodup_cons.1 hndP).1
      rw [← h0]
      exact List.mem_flatMap.2 ⟨(k0, X), by rw [hE]; simp, mem_pagesOf_self _ _ _⟩
    have hPfill : 2 ≤ nd.entries.length :=
      hPold.2.2.2 _ hnP (fun h0 => hXP (Option.some.inj h0))
    have hgi : t.getInternal P = some nd := by simp only [BPTreeIndex.getInternal, hnP]
    have hvi := ValueIndex_of_split nd pre0 k0 X post hE hXpre
    have hsmall := IsSafe_false_small x hxm hnr (hus x hx)
    -- what happens after a merge below `P`
    have finish : ∀ (t1 : BPTreeIndex) (B : Int) (nd1 : BPTreeInternalPage),
        Rebalanced t t1 (some P) (B :: fl) h lo hi f →
        Site t1.nodes ⟨h, t1.header.root_page_id_, lo, hi⟩ ⟨ah + 1, P, plo, phi⟩ →
        t1.nodes P = some (.internal nd1) → nd1.max_size_ = 4 →
        ∃ r, (if (!(BPTreePage.internal nd1).IsSafe false) = true then
            BPTreeIndex.CoalesceOrRedistribute fuel t1 P else some (true, t1)) = some r ∧
          Settled t r.2 h := by
      intro t1 B nd1 hR hS1 hP1 hmax1
      obtain ⟨r1, r2, r3, r4, r5, r6, r7, r8⟩ := hR
      by_cases hsafe : (BPTreePage.internal nd1).IsSafe false = true
      · refine ⟨(true, t1), ?_, ?_⟩
        · simp only [hsafe, Bool.not_true, Bool.false_eq_true, if_false]
        · apply Settled_of_Rebalanced t t1 (B :: fl) h lo hi f hl hi4
          refine ⟨r1, TreeOK_drop_exception t1 P _ h r2 ?_, r3, r4, r5, r6, r7, r8⟩
          intro y hy
          rw [hP1] at hy
          cases hy
          exact IsSafe_true_filled nd1 hmax1 hsafe
      · have hlow : (BPTreePage.internal nd1).IsSafe false = false := by
          cases hq : (BPTreePage.internal nd1).IsSafe false with
          | true => exact absurd hq hsafe
          | false => rfl
        obtain ⟨r, hr1, hr2, hr3, hr4, hr5⟩ := ih fuel t1 (B :: fl) h lo hi f
          ⟨ah + 1, P, plo, phi⟩
          (by omega) (by simp only; omega) (by rw [r5]; exact hl) (by rw [r6]; exact hi4)
          r1 r2 r3 hS1 (by
            intro y hy
            simp only at hy
            rw [hP1] at hy
            cases hy
            exact hlow)
        refine ⟨r, ?_, hr2, ?_, ?_, fun hc => hr5 (r8 hc)⟩
        · simp only [hlow, Bool.not_false, if_true]
          exact hr1
        · rw [hr3, r4]
        · rw [hr4, r7]
    rcases List.eq_nil_or_concat pre0 with hp0 | ⟨pre00, eA, hp0⟩
    · -- the node is the first child; its neighbour is the second
      subst hp0
      obtain ⟨eB, post00, hpost⟩ : ∃ eB post00, post = eB :: post00 := by
        cases post with
        | nil => rw [hE] at hPfill; simp at hPfill
        | cons eB post00 => exact ⟨eB, post00, rfl⟩
      subst hpost
      have S : Siblings t (some X) fl h lo hi f ah P plo phi nd [] k0 X eB.1 eB.2 post00 :=
        ⟨ha, hT, hw, hsp, hnP, hE, Or.inl rfl⟩
      obtain ⟨pre1, lA, -, ⟨fA, m, n3, wA, wB⟩, -, hABP, hmax4, -⟩ :=
        Siblings_facts t (some X) fl h lo hi f ah P plo phi nd [] k0 X eB.1 eB.2 post00 S
      obtain ⟨nb, hnb, -⟩ := WFSub_node _ _ _ _ _ _ _ _ wB
      have hnbf : nb.Filled :=
        (hT.2.2.2.2 eB.2 (hABP _ (List.mem_append_right _ (mem_pagesOf_self _ _ _))).2).2.2.2
          nb hnb (fun h0 => (Siblings_filled t (some X) fl h lo hi f ah P plo phi nd [] k0 X
            eB.1 eB.2 post00 S).2.1 (Option.some.inj h0))
      have hva : nd.ValueAt (if ([] : List (Int × Int)).length = 0 then 1
          else ([] : List (Int × Int)).length - 1) = some eB.2 := by
        unfold BPTreeInternalPage.ValueAt
        rw [hE]
        rfl
      rw [CoalesceOrRedistribute_eq fuel t X P x nb nd _ eB.2 hx hnr hxp hgi hvi hva hnb]
      by_cases hsz : nb.GetSize + x.GetSize ≤ x.GetMaxSize
      · rw [if_pos hsz]
        obtain ⟨t1, c1, c2, c3, c4⟩ :=
          CoalesceStep_ok t (some X) fl h lo hi f ah P plo phi nd [] k0 X eB.1 eB.2 post00 S
            (by
              intro a b ha0 hb0
              rw [hx] at ha0
              rw [hnb] at hb0
              cases ha0
              cases hb0
              rw [hxm] at hsz
              omega)
        obtain ⟨r, hr1, hr2⟩ := finish t1 eB.2 _ c2 c3 c4 hmax4
        refine ⟨r, ?_, hr2⟩
        simp only [List.length_nil, if_true, Nat.zero_add] at c1 ⊢
        rw [c1]
        exact hr1
      · rw [if_neg hsz]
        obtain ⟨t1, c1, c2⟩ :=
          Redistribute_left_ok t (some X) fl h lo hi f ah P plo phi nd k0 X eB.1 eB.2 post00 S
            (by
              intro y hy
              rw [hnb] at hy
              cases hy
              rw [hxm] at hsz
              omega)
            (by
              intro y hy
              rw [hx] at hy
              cases hy
              exact hsmall)
            (by
              intro a b ha0 hb0
              rw [hx] at ha0
              rw [hnb] at hb0
              cases ha0
              cases hb0
              rw [hxm] at hsz
              omega)
            (by
              intro y hy
              rw [hnb] at hy
              cases hy
              exact hnbf)
        refine ⟨(false, t1), ?_, Settled_of_Rebalanced t t1 fl h lo hi f hl hi4 c2⟩
        simp only [List.length_nil]
        rw [c1]
    · -- the neighbour is the child before the node
      subst hp0
      have hE2 : nd.entries = pre00 ++ (eA.1, eA.2) :: (k0, X) :: post := by
        rw [hE]
        simp
      have S : Siblings t (some X) fl h lo hi f ah P plo phi nd pre00 eA.1 eA.2 k0 X post :=
        ⟨ha, hT, hw, hsp, hnP, hE2, Or.inr rfl⟩
      obtain ⟨pre1, lA, -, ⟨fA, m, n3, wA, wB⟩, -, hABP, hmax4, -⟩ :=
        Siblings_facts t (some X) fl h lo hi f ah P plo phi nd pre00 eA.1 eA.2 k0 X post S
      obtain ⟨nb, hnb, -⟩ := WFSub_node _ _ _ _ _ _ _ _ wA
      have hnbf : nb.Filled :=
        (hT.2.2.2.2 eA.2 (hABP _ (List.mem_append_left _ (mem_pagesOf_self _ _ _))).2).2.2.2
          nb hnb (fun h0 => (Siblings_filled t (some X) fl h lo hi f ah P plo phi nd pre00
            eA.1 eA.2 k0 X post S).2.1 (Option.some.inj h0).symm)
      have hlen : (pre00.concat eA).length = pre00.length + 1 := by simp
      rw [hlen] at hvi
      have hva : nd.ValueAt (if pre00.length + 1 = 0 then 1 else pre00.length + 1 - 1) =
          some eA.2 := by
        rw [if_neg (by omega), Nat.add_sub_cancel]
        unfold BPTreeInternalPage.ValueAt
        rw [hE2, get?_pair_left]
        rfl
      rw [CoalesceOrRedistribute_eq fuel t X P x nb nd _ eA.2 hx hnr hxp hgi hvi hva hnb]
      have hidx : ¬ pre00.length + 1 = 0 := by omega
      by_cases hsz : nb.GetSize + x.GetSize ≤ x.GetMaxSize
      · rw [if_pos hsz, if_neg hidx]
        obtain ⟨t1, c1, c2, c3, c4⟩ :=
          CoalesceStep_ok t (some X) fl h lo hi f ah P plo phi nd pre00 eA.1 eA.2 k0 X post S
            (by
              intro a b ha0 hb0
              rw [hnb] at ha0
              rw [hx] at hb0
              cases ha0
              cases hb0
              rw [hxm] at hsz
              omega)
        obtain ⟨r, hr1, hr2⟩ := finish t1 X _ c2 c3 c4 hmax4
        refine ⟨r, ?_, hr2⟩
        rw [c1]
        exact hr1
      · rw [if_neg hsz]
        obtain ⟨t1, c1, c2⟩ :=
          Redistribute_right_ok t (some X) fl h lo hi f ah P plo phi nd pre00 eA.1 eA.2 k0 X post
            S (by
              intro y hy
              rw [hnb] at hy
              cases hy
              rw [hxm] at hsz
              omega)
            (by
              intro y hy
              rw [hx] at hy
              cases hy
              exact hsmall)
            (by
              intro a b ha0 hb0
              rw [hnb] at ha0
              rw [hx] at hb0
              cases ha0
              cases hb0
              rw [hxm] at hsz
              omega)
            (by
              intro y hy
              rw [hnb] at hy
              cases hy
              exact hnbf)
        refine ⟨(false, t1), ?_, Settled_of_Rebalanced t t1 fl h lo hi f hl hi4 c2⟩
        rw [c1]

/-! ## B+tree: `Delete` -/

theorem IsSafe_true_leaf_filled (l : BPTreeLeafPage) (hmax : l.max_size_ = 4)
    (h4 : l.entries.length ≤ 4)
    (h : (BPTreePage.leaf l).IsSafe false = true) : (BPTreePage.leaf l).Filled := by
  unfold BPTreePage.IsSafe at h
  simp only [Bool.false_eq_true, if_false, BPTreePage.GetMaxSize, hmax, BPTreePage.IsLeaf,
    BPTreePage.GetSize, decide_eq_true_eq, if_true] at h
  apply Filled_leaf_of_size _ _ h4
  split at h <;> omega

/-- `Delete` returns, with the effect `DeleteDone`, and keeps the page coverage. -/
theorem Delete_spec (t : BPTreeIndex) (key : Int) (hinv : t.Inv) :
    ∃ r, t.Delete key = some r ∧ t.DeleteDone key r ∧ (t.Covered → r.2.Covered) := by
  by_cases hroot : t.header.root_page_id_ = INVALID_PAGE_ID
  · have hf : t.FindLeafPage key false = some INVALID_PAGE_ID := by
      unfold BPTreeIndex.FindLeafPage
      rw [if_pos hroot]
    refine ⟨(false, t), ?_, ⟨hinv, ?_, ?_⟩, id⟩
    · simp only [BPTreeIndex.Delete, hf, if_true]
    · intro _
      refine ⟨rfl, ?_⟩
      simp only [BPTreeIndex.Search, hf, if_true]
    · intro h0; cases h0
  · obtain ⟨hl4, hi4, fl, hA, hcase⟩ := hinv
    rcases hcase with ⟨h0, -⟩ | ⟨h, hT⟩
    · exact absurd h0 hroot
    obtain ⟨lo0, hi0, f, hw0⟩ := hT.2.2.1
    have hw := WFSub_weaken t.nodes h _ _ _ _ _ _ (min lo0 key) (max hi0 (key + 1))
      (min_le_left _ _) (le_max_left _ _) hw0
    obtain ⟨q, q1, q2, q3, q4, q5, q6, l, par, n, hl, hwq⟩ :=
      FindLeafPage_of_TreeOK t none fl h hA hT key _ _ f hw (min_le_right _ _)
        (lt_of_lt_of_le (by omega) (le_max_right _ _))
    obtain ⟨qh, X, qlo, qhi⟩ := q
    simp only at q1 q3 q4 q5 q6 hl hwq q2
    subst q1
    obtain ⟨l2, w1, w2, w3, w4, w5, w6, w7, w8, w9⟩ := hwq
    rw [hl] at w1
    cases w1
    have hgl : t.getLeaf X = some l := by simp only [BPTreeIndex.getLeaf, hl]
    have hXmem : X ∈ pagesOf t.nodes h t.header.root_page_id_ :=
      (Site_sublist t.nodes _ _ q2).subset (mem_pagesOf_self _ _ _)
    have hXr := TreeOK_page t fl h hT X hXmem
    have hinv0 : t.Inv := ⟨hl4, hi4, fl, hA, Or.inr ⟨h, hT⟩⟩
    cases hrm : l.RemoveRecord key with
    | none =>
      refine ⟨(false, t), ?_, ⟨hinv0, ?_, ?_⟩, id⟩
      · simp only [BPTreeIndex.Delete, q3, q6, if_false, hgl, hrm]
      · intro _
        refine ⟨rfl, ?_⟩
        simp only [BPTreeIndex.Search, q3, q6, if_false, hgl, RemoveRecord_none l key hrm]
      · intro h0; cases h0
    | some l1 =>
      obtain ⟨rid, e1, e2, e3, e4, e5, e6⟩ := RemoveRecord_some l l1 key hrm
      have hsubl : l1.entries.Sublist l.entries := by
        rw [e2]
        conv_rhs => rw [e1]
        exact (List.Sublist.refl _).append (List.sublist_cons_self _ _)
      obtain ⟨t2, ht2⟩ : ∃ t2 : BPTreeIndex, t2 =
          { t.setNode X (.leaf l1) with header := { (t.setNode X (.leaf l1)).header with
            num_entries_ := (t.setNode X (.leaf l1)).header.num_entries_ - 1 } } := ⟨_, rfl⟩
      have hnodes : t2.nodes = Function.update t.nodes X (some (.leaf l1)) := by rw [ht2]; rfl
      have hhd : t2.header.root_page_id_ = t.header.root_page_id_ ∧
          t2.header.tree_height_ = t.header.tree_height_ ∧
          t2.header.page_num_ = t.header.page_num_ ∧
          t2.header.leaf_max_size_ = t.header.leaf_max_size_ ∧
          t2.header.internal_max_size_ = t.header.internal_max_size_ ∧
          t2.header.num_entries_ = t.header.num_entries_ - 1 := by
        rw [ht2]; exact ⟨rfl, rfl, rfl, rfl, rfl, rfl⟩
      obtain ⟨d1, d2, d3, d4, d5, d6⟩ := hhd
      have hA2 : t2.AllocOK fl := by rw [ht2]; exact hA
      have hr : Repl t.nodes t2.nodes [] ⟨0, X, qlo, qhi⟩ := by
        rw [hnodes]
        exact Repl_leaf t.nodes X qlo qhi l l1 hl e3 e4 e5 e6 (w8.sublist hsubl)
          (fun e he => w9 e (hsubl.subset he))
      have hXn : t2.nodes X = some (.leaf l1) := by
        rw [hnodes]; simp
      obtain ⟨r1, r2, r3, A, B, g1, g2⟩ := TreeOK_replace t t2 none (some X) fl fl h _ _ f []
        ⟨0, X, qlo, qhi⟩ hT hw q2 hr (fun y hy => by cases hy) d1 d2 (by rw [d3])
        (by
          intro y hy
          simp only [pagesOf, List.mem_singleton] at hy
          rw [hy, d3]
          refine ⟨hXr.1, hXr.2.1, hXr.2.2.1, ?_⟩
          intro z _ h0
          exact absurd rfl h0)
        (fun y hy => Or.inl hy) (fun y hy => by cases hy)
      simp only at g1 g2
      rw [entriesOf_zero _ _ _ hl] at g1
      rw [entriesOf_zero _ _ _ hXn] at g2
      have hstored : ∃ A1 B1 rid1, entriesOf t.nodes h t.header.root_page_id_ =
          A1 ++ (key, rid1) :: B1 ∧
          entriesOf t2.nodes h t2.header.root_page_id_ = A1 ++ B1 := by
        refine ⟨A ++ l.entries.take (l.KeyIndex key), l.entries.drop (l.KeyIndex key + 1) ++ B,
          rid, ?_, ?_⟩
        · rw [g1]
          conv_lhs => rw [e1]
          simp only [List.append_assoc, List.cons_append]
        · rw [g2, e2]
          simp only [List.append_assoc]
      obtain ⟨A1, B1, rid1, s1, s2⟩ := hstored
      have hSt : t.Stored = entriesOf t.nodes h t.header.root_page_id_ :=
        Stored_of_TreeOK t none fl h hT
      obtain ⟨k1, k2⟩ := TreeOK_replace_keep t t2 none fl h _ _ [] ⟨0, X, qlo, qhi⟩ hT q2 hr
        (fun y hy => by cases hy) d1
      have hcov2 : t.Covered → t2.Cov h := by
        intro hc fl9 hA9 p hp1 hp2
        rw [AllocOK_unique t2 fl9 fl hA9 hA2]
        rw [d3] at hp2
        rcases (Covered_iff_Cov t none fl h hT).1 hc fl hA p hp1 hp2 with h0 | h0
        · rcases k1 p h0 with h1 | h1
          · simp only [pagesOf, List.mem_singleton] at h1
            rw [h1]
            exact Or.inl (k2 X (mem_pagesOf_self _ _ _))
          · exact Or.inl h1
        · exact Or.inr h0
      by_cases hsafe : (BPTreePage.leaf l1).IsSafe false = true
      · refine ⟨(true, t2), ?_, ⟨?_, ?_, ?_⟩,
          fun hc => (Covered_iff_Cov t2 (some X) fl h r1).2 (hcov2 hc)⟩
        · rw [ht2]
          simp only [BPTreeIndex.Delete, q3, q6, if_false, hgl, hrm, hsafe, Bool.not_true,
            Bool.false_eq_true]
        · have hT2 : t2.TreeOK none fl h := by
            apply TreeOK_drop_exception t2 X fl h r1
            intro y hy
            rw [hXn] at hy
            cases hy
            exact IsSafe_true_leaf_filled l1 (by rw [e5]; exact w4)
              (le_trans hsubl.length_le (hXr.2.2.2 _ hl).1) hsafe
          exact ⟨by rw [d4]; exact hl4, by rw [d5]; exact hi4, fl, hA2, Or.inr ⟨h, hT2⟩⟩
        · intro h0; cases h0
        · intro _
          refine ⟨A1, B1, rid1, by rw [hSt, s1], ?_, d6⟩
          rw [Stored_of_TreeOK t2 _ fl h r1, s2]
      · have hlow : (BPTreePage.leaf l1).IsSafe false = false := by
          cases hq : (BPTreePage.leaf l1).IsSafe false with
          | true => exact absurd hq hsafe
          | false => rfl
        have hfu := TreeOK_fuel t2 _ fl h hA2 r1
        obtain ⟨r, c1, c2, c3, c4, c5⟩ := CoalesceOrRedistribute_ok h t2.fuel t2 fl h _ _ f
          ⟨0, X, qlo, qhi⟩ (by omega) (by simp) (by rw [d4]; exact hl4) (by rw [d5]; exact hi4)
          hA2 r1 r2 r3 (by
            intro y hy
            simp only at hy
            rw [hXn] at hy
            cases hy
            exact hlow)
        simp only at c1
        refine ⟨(true, r.2), ?_, ⟨c2, ?_, ?_⟩, fun hc => c5 (hcov2 hc)⟩
        · have hc : BPTreeIndex.CoalesceOrRedistribute
              ({ t.setNode X (.leaf l1) with header := { (t.setNode X (.leaf l1)).header with
                num_entries_ := (t.setNode X (.leaf l1)).header.num_entries_ - 1 } } :
                BPTreeIndex).fuel
              { t.setNode X (.leaf l1) with header := { (t.setNode X (.leaf l1)).header with
                num_entries_ := (t.setNode X (.leaf l1)).header.num_entries_ - 1 } } X =
              some r := by
            rw [← ht2]; exact c1
          simp only [BPTreeIndex.Delete, q3, q6, if_false, hgl, hrm, hlow, Bool.not_false,
            if_true, hc]
        · intro h0; cases h0
        · intro _
          refine ⟨A1, B1, rid1, by rw [hSt, s1], ?_, ?_⟩
          · rw [c3, s2]
          · rw [c4, d6]

theorem Delete_ok (t : BPTreeIndex) (key : Int) (hinv : t.Inv) :
    ∃ r, t.Delete key = some r ∧ t.DeleteDone key r := by
  obtain ⟨r, h1, h2, -⟩ := Delete_spec t key hinv
  exact ⟨r, h1, h2⟩

/-! ## B+tree: reachable states satisfy the invariant -/

theorem ClearPage_max : ∀ (fuel : Nat) (t : BPTreeIndex) (p : Int) (t1 : BPTreeIndex),
    BPTreeIndex.ClearPage fuel t p = some t1 →
    t1.header.leaf_max_size_ = t.header.leaf_max_size_ ∧
    t1.header.internal_max_size_ = t.header.internal_max_size_ := by
  intro fuel
  induction fuel with
  | zero => intro t p t1 h; cases h
  | succ fuel ih =>
    intro t p t1 h
    unfold BPTreeIndex.ClearPage at h
    cases hx : t.nodes p with
    | none => rw [hx] at h; cases h
    | some x =>
      rw [hx] at h
      cases x with
      | leaf l =>
        simp only at h
        cases h
        exact ⟨rfl, rfl⟩
      | internal n =>
        simp only at h
        have hfold : ∀ (es : List (Int × Int)) (acc : Option BPTreeIndex) (t2 : BPTreeIndex),
            (∀ t0, acc = some t0 → t0.header.leaf_max_size_ = t.header.leaf_max_size_ ∧
              t0.header.internal_max_size_ = t.header.internal_max_size_) →
            es.foldl (fun acc e => acc.bind (fun t1 => BPTreeIndex.ClearPage fuel t1 e.2)) acc =
              some t2 →
            t2.header.leaf_max_size_ = t.header.leaf_max_size_ ∧
              t2.header.internal_max_size_ = t.header.internal_max_size_ := by
          intro es
          induction es with
          | nil =>
            intro acc t2 hacc hf
            exact hacc t2 hf
          | cons e es ihes =>
            intro acc t2 hacc hf
            rw [List.foldl_cons] at hf
            apply ihes _ t2 _ hf
            intro t0 ht0
            cases acc with
            | none => cases ht0
            | some a =>
              have ht0 : BPTreeIndex.ClearPage fuel a e.2 = some t0 := ht0
              have h1 := ih a e.2 t0 ht0
              have h2 := hacc a rfl
              exact ⟨h1.1.trans h2.1, h1.2.trans h2.2⟩
        cases hf : n.entries.foldl
            (fun acc e => acc.bind (fun t1 => BPTreeIndex.ClearPage fuel t1 e.2)) (some t) with
        | none => rw [hf] at h; cases h
        | some t2 =>
          rw [hf] at h
          simp only at h
          cases h
          have := hfold n.entries (some t) t2 (by intro t0 h0; cases h0; exact ⟨rfl, rfl⟩) hf
          exact this

theorem Clear_Inv (t t1 : BPTreeIndex) (hinv : t.Inv) (h : t.Clear = some t1) : t1.Inv := by
  unfold BPTreeIndex.Clear at h
  simp only at h
  have key : ∀ t0 : BPTreeIndex, t0.header.leaf_max_size_ = 4 → t0.header.internal_max_size_ = 4 →
      BPTreeIndex.Inv { t0 with header := { t0.header with
        root_page_id_ := INVALID_PAGE_ID, tree_height_ := 0, num_entries_ := 0, page_num_ := 1,
        first_free_page_id_ := INVALID_PAGE_ID } } := by
    intro t0 h1 h2
    refine ⟨h1, h2, [], ⟨le_refl _, rfl, List.nodup_nil, ?_⟩, Or.inl ⟨rfl, rfl⟩⟩
    intro p hp
    cases hp
  by_cases hroot : t.header.root_page_id_ ≠ INVALID_PAGE_ID
  · rw [if_pos hroot] at h
    cases hc : BPTreeIndex.ClearPage t.fuel t t.header.root_page_id_ with
    | none => rw [hc] at h; cases h
    | some t0 =>
      rw [hc] at h
      simp only at h
      cases h
      have := ClearPage_max _ _ _ _ hc
      exact key t0 (this.1.trans hinv.1) (this.2.trans hinv.2.1)
  · rw [if_neg hroot] at h
    simp only at h
    cases h
    exact key t hinv.1 hinv.2.1

theorem InitializeIndex_Inv : BPTreeIndex.InitializeIndex.Inv := by
  refine ⟨rfl, rfl, [], ⟨le_refl _, rfl, List.nodup_nil, ?_⟩, Or.inl ⟨rfl, rfl⟩⟩
  intro p hp
  cases hp

theorem Reachable_Inv (t : BPTreeIndex) (hr : t.Reachable) : t.Inv := by
  induction hr with
  | init => exact InitializeIndex_Inv
  | insert t t1 key rid _ h ih =>
    obtain ⟨t2, h2, h3⟩ := Insert_ok t key rid ih
    rw [h] at h2
    cases h2
    exact h3.1
  | delete t key r _ h ih =>
    obtain ⟨r2, h2, h3⟩ := Delete_ok t key ih
    rw [h] at h2
    cases h2
    exact h3.1
  | clear t t1 _ h ih => exact Clear_Inv t t1 ih h

theorem Clear_Covered (t t1 : BPTreeIndex) (h : t.Clear = some t1) : t1.Covered := by
  unfold BPTreeIndex.Clear at h
  simp only at h
  cases hc : (if t.header.root_page_id_ ≠ INVALID_PAGE_ID
      then BPTreeIndex.ClearPage t.fuel t t.header.root_page_id_ else some t) with
  | none => rw [hc] at h; cases h
  | some t0 =>
    rw [hc] at h
    simp only at h
    cases h
    intro fl _ p hp1 hp2
    have hp3 : p < 1 := hp2
    omega

theorem Reachable_Covered (t : BPTreeIndex) (hr : t.Reachable) : t.Covered := by
  induction hr with
  | init =>
    intro fl _ p hp1 hp2
    have hp3 : p < 1 := hp2
    omega
  | insert t t1 key rid h0 h ih =>
    obtain ⟨t2, h2, -, h3⟩ := Insert_spec t key rid (Reachable_Inv t h0)
    rw [h] at h2
    cases h2
    exact h3 ih
  | delete t key r h0 h ih =>
    obtain ⟨r2, h2, -, h3⟩ := Delete_spec t key (Reachable_Inv t h0)
    rw [h] at h2
    cases h2
    exact h3 ih
  | clear t t1 _ h _ => exact Clear_Covered t t1 h

/-! ## B+tree: `Search` returns stored entries only -/

theorem Lookup_mem (l : BPTreeLeafPage) (key : Int) (r : RID) (h : r ∈ l.Lookup key) :
    (key, r) ∈ l.entries := by
  unfold BPTreeLeafPage.Lookup at h
  obtain ⟨e, he, heq⟩ := List.mem_map.1 h
  have h1 := List.mem_takeWhile_imp he
  simp only [decide_eq_true_eq] at h1
  have h2 := List.mem_of_mem_drop ((List.takeWhile_sublist _).subset he)
  have : e = (key, r) := by
    rw [← h1, ← heq]
  rw [← this]
  exact h2

theorem ChildStep_entries (nodes : Int → Option BPTreePage) (a b : Pos)
    (hs : ChildStep nodes a b) :
    ∀ x ∈ entriesOf nodes b.h b.pid, x ∈ entriesOf nodes a.h a.pid := by
  obtain ⟨nd, hh, hn, hm⟩ := hs
  obtain ⟨e, he, heq⟩ := mem_kidBounds_child _ _ _ _ hm
  intro x hx
  rw [hh, entriesOf_succ nodes b.h a.pid nd hn]
  exact List.mem_flatMap.2 ⟨e, he, by rw [heq]; exact hx⟩

theorem Site_entries (nodes : Int → Option BPTreePage) (top q : Pos) (hs : Site nodes top q) :
    ∀ x ∈ entriesOf nodes q.h q.pid, x ∈ entriesOf nodes top.h top.pid := by
  induction hs with
  | refl => exact fun x hx => hx
  | tail _ hstep ih => exact fun x hx => ih x (ChildStep_entries nodes _ _ hstep x hx)

theorem Search_sound (t : BPTreeIndex) (key : Int) (hinv : t.Inv) :
    ∃ rs, t.Search key = some rs ∧ ∀ r ∈ rs, (key, r) ∈ t.Stored := by
  by_cases hroot : t.header.root_page_id_ = INVALID_PAGE_ID
  · have hf : t.FindLeafPage key false = some INVALID_PAGE_ID := by
      unfold BPTreeIndex.FindLeafPage
      rw [if_pos hroot]
    refine ⟨[], ?_, fun r hr => by cases hr⟩
    simp only [BPTreeIndex.Search, hf, if_true]
  · obtain ⟨hl4, hi4, fl, hA, hcase⟩ := hinv
    rcases hcase with ⟨h0, -⟩ | ⟨h, hT⟩
    · exact absurd h0 hroot
    obtain ⟨lo0, hi0, f, hw0⟩ := hT.2.2.1
    have hw := WFSub_weaken t.nodes h _ _ _ _ _ _ (min lo0 key) (max hi0 (key + 1))
      (min_le_left _ _) (le_max_left _ _) hw0
    obtain ⟨q, q1, q2, q3, q4, q5, q6, l, par, n, hl, hwq⟩ :=
      FindLeafPage_of_TreeOK t none fl h hA hT key _ _ f hw (min_le_right _ _)
        (lt_of_lt_of_le (by omega) (le_max_right _ _))
    have hgl : t.getLeaf q.pid = some l := by simp only [BPTreeIndex.getLeaf, hl]
    refine ⟨l.Lookup key, ?_, ?_⟩
    · simp only [BPTreeIndex.Search, q3, q6, if_false, hgl]
    · intro r hr
      rw [Stored_of_TreeOK t none fl h hT]
      apply Site_entries t.nodes _ q q2
      rw [q1, entriesOf_zero _ _ _ hl]
      exact Lookup_mem l key r hr

/-! ## B+tree: the round trips of `Insert`, `Search` and `Delete` (claims C1, C5) -/

namespace BPTreeIndex

theorem Reachable_InsertAll (kvs : List (Int × RID)) :
    ∀ t : BPTreeIndex, t.Reachable → ((t.InsertAll kvs).getD InitializeIndex).Reachable := by
  induction kvs with
  | nil => intro t ht; exact ht
  | cons e es ih =>
    intro t ht
    unfold InsertAll
    cases hi : t.Insert e.1 e.2 with
    | none => exact Reachable.init
    | some t1 => exact ih t1 (Reachable.insert t t1 e.1 e.2 ht hi)

theorem Reachable_afterInserts (kvs : List (Int × RID)) : (afterInserts kvs).Reachable :=
  Reachable_InsertAll kvs InitializeIndex Reachable.init

/-- C1: in every state reachable from the empty index by `Insert`, `Delete`
and `Clear`, `Insert(k, r)` returns, and `Search(k)` on the state it leaves
returns a list that contains `r`. -/
theorem C1_Search_after_Insert_contains_rid (t : BPTreeIndex) (k : Int) (r : RID)
    (hr : t.Reachable) :
    ∃ t1, t.Insert k r = some t1 ∧ ∃ rs, t1.Search k = some rs ∧ r ∈ rs := by
  obtain ⟨t1, h1, h2⟩ := Insert_ok t k r (Reachable_Inv t hr)
  obtain ⟨rest, h3⟩ := h2.2.2.2.2
  exact ⟨t1, h1, r :: rest, h3, List.mem_cons_self _ _⟩

/-- C1, witness: with keys 1 .. 10 stored (four leaves), inserting a second
entry with key 5 and RID `(99, 0)` returns and `Search(5)` then contains
`(99, 0)`. -/
theorem C1_Search_after_Insert_contains_rid_witness :
    tenKeys.Reachable ∧
    ∃ t1, tenKeys.Insert 5 ⟨99, 0⟩ = some t1 ∧ ∃ rs, t1.Search 5 = some rs ∧ ⟨99, 0⟩ ∈ rs :=
  ⟨Reachable_afterInserts _,
    C1_Search_after_Insert_contains_rid tenKeys 5 ⟨99, 0⟩ (Reachable_afterInserts _)⟩

/-- C5: in every reachable state in which exactly one stored entry has key
`k`, `Delete(k)` returns, and `Search(k)` on the state it leaves returns the
empty list; the statement covers the deletions that redistribute, coalesce or
change the root. -/
theorem C5_Search_empty_after_Delete_of_unique_key (t : BPTreeIndex) (k : Int)
    (hr : t.Reachable) (huniq : (t.Stored.map Prod.fst).count k = 1) :
    ∃ r, t.Delete k = some r ∧ r.2.Search k = some [] := by
  obtain ⟨r, h1, h2, h3, h4⟩ := Delete_ok t k (Reachable_Inv t hr)
  refine ⟨r, h1, ?_⟩
  cases hb : r.1 with
  | false =>
    obtain ⟨h5, h6⟩ := h3 hb
    rw [h5]
    exact h6
  | true =>
    obtain ⟨A, B, rid, s1, s2, -⟩ := h4 hb
    obtain ⟨rs, g1, g2⟩ := Search_sound r.2 k h2
    rw [g1]
    congr 1
    rw [List.eq_nil_iff_forall_not_mem]
    intro x hx
    have hmem := g2 x hx
    rw [s2] at hmem
    rw [s1] at huniq
    simp only [List.map_append, List.map_cons, List.count_append, List.count_cons_self] at huniq
    have hA : (A.map Prod.fst).count k = 0 := by omega
    have hB : (B.map Prod.fst).count k = 0 := by omega
    rw [List.count_eq_zero] at hA hB
    rcases List.mem_append.1 hmem with h0 | h0
    · exact hA (List.mem_map.2 ⟨_, h0, rfl⟩)
    · exact hB (List.mem_map.2 ⟨_, h0, rfl⟩)

set_option maxRecDepth 100000 in
/-- C5, witness: with keys 1 .. 5 stored in the leaves `[1,2]` and `[3,4,5]`,
key 1 is stored once; `Delete(1)` leaves a leaf below the minimum, the two
leaves are merged and the root is replaced, and `Search(1)` is empty. -/
theorem C5_Search_empty_after_Delete_of_unique_key_witness :
    fiveKeys.Reachable ∧ (fiveKeys.Stored.map Prod.fst).count 1 = 1 ∧
    ∃ r, fiveKeys.Delete 1 = some r ∧ r.2.Search 1 = some [] :=
  ⟨Reachable_afterInserts _, by decide,
    C5_Search_empty_after_Delete_of_unique_key fiveKeys 1 (Reachable_afterInserts _) (by decide)⟩

end BPTreeIndex

/-! ## B+tree: the stored entries are sorted -/

theorem KidsSeg_sorted {P : Int → Int → Int → Int → Int → Prop} (g : Int → List (Int × RID))
    (hP : ∀ c l u f n, P c l u f n → l ≤ u ∧ (g c).Pairwise (fun a b => a.1 ≤ b.1) ∧
      ∀ x ∈ g c, l ≤ x.1 ∧ x.1 ≤ u) (hi : Int) :
    ∀ (es : List (Int × Int)) (f n : Int), KidsSeg P es hi f n →
      (es.flatMap (fun e => g e.2)).Pairwise (fun a b => a.1 ≤ b.1) ∧
      (∀ x ∈ es.flatMap (fun e => g e.2), ub es hi ≤ x.1 ∧ x.1 ≤ hi) ∧ ub es hi ≤ hi := by
  intro es
  induction es with
  | nil =>
    intro f n _
    refine ⟨List.Pairwise.nil, fun x hx => (by cases hx), le_refl _⟩
  | cons e rest ih =>
    intro f n hk
    obtain ⟨m, h1, h2⟩ := hk
    obtain ⟨p1, p2, p3⟩ := hP _ _ _ _ _ h1
    obtain ⟨q1, q2, q3⟩ := ih m n h2
    have hub : ub (e :: rest) hi = e.1 := rfl
    rw [hub]
    refine ⟨?_, ?_, le_trans p1 q3⟩
    · rw [List.flatMap_cons, List.pairwise_append]
      exact ⟨p2, q1, fun x hx y hy => le_trans (p3 x hx).2 (q2 y hy).1⟩
    · intro x hx
      rw [List.flatMap_cons] at hx
      rcases List.mem_append.1 hx with h0 | h0
      · exact ⟨(p3 x h0).1, le_trans (p3 x h0).2 q3⟩
      · exact ⟨le_trans p1 (q2 x h0).1, (q2 x h0).2⟩

theorem entries_sorted (nodes : Int → Option BPTreePage) (h : Nat) :
    ∀ (pid par lo hi f n : Int), WFSub nodes h pid par lo hi f n →
      lo ≤ hi ∧ (entriesOf nodes h pid).Pairwise (fun a b => a.1 ≤ b.1) ∧
      ∀ x ∈ entriesOf nodes h pid, lo ≤ x.1 ∧ x.1 ≤ hi := by
  induction h with
  | zero =>
    intro pid par lo hi f n hw
    obtain ⟨l, a1, a2, a3, a4, a5, a6, a7, a8, a9⟩ := hw
    rw [entriesOf_zero _ _ _ a1]
    exact ⟨a7, a8, a9⟩
  | succ j ih =>
    intro pid par lo hi f n hw
    have hle := WFSub_le _ _ _ _ _ _ _ _ hw
    obtain ⟨nd, a1, a2, a3, a4, hk⟩ := hw
    rw [KidsOK_iff_setHeadKey] at hk
    obtain ⟨hne, hk⟩ := hk
    have := KidsSeg_sorted (fun c => entriesOf nodes j c) (fun c l u f n hc => ih c pid l u f n hc)
      hi _ f n hk
    rw [flatMap_setHeadKey] at this
    rw [entriesOf_succ _ _ _ _ a1]
    refine ⟨hle, this.1, ?_⟩
    intro x hx
    have h2 := this.2.1 x hx
    refine ⟨?_, h2.2⟩
    cases hes : nd.entries with
    | nil => exact absurd hes hne
    | cons e rest =>
      rw [hes] at h2
      exact h2.1

/-! ## B+tree: the leaf chain -/

theorem LeafWalk_append (nodes : Int → Option BPTreePage) (ls1 ls2 : List BPTreeLeafPage)
    (m n : Int) : ∀ p, LeafWalk nodes p m ls1 → LeafWalk nodes m n ls2 →
      LeafWalk nodes p n (ls1 ++ ls2) := by
  induction ls1 with
  | nil =>
    intro p h1 h2
    have : p = m := h1
    rw [this]
    exact h2
  | cons l rest ih =>
    intro p h1 h2
    obtain ⟨a1, a2, a3⟩ := h1
    exact ⟨a1, a2, ih _ a3 h2⟩

theorem KidsSeg_walk (nodes : Int → Option BPTreePage) (j : Nat) (par : Int)
    (ih : ∀ c l u f n, WFSub nodes j c par l u f n → ∃ ls, LeafWalk nodes f n ls ∧
      ls.flatMap (fun l => l.entries) = entriesOf nodes j c ∧
      (ls.map (fun l => l.page_id_)).Sublist (pagesOf nodes j c)) (hi : Int) :
    ∀ (es : List (Int × Int)) (f n : Int),
      KidsSeg (fun c l u f n => WFSub nodes j c par l u f n) es hi f n →
      ∃ ls, LeafWalk nodes f n ls ∧
        ls.flatMap (fun l => l.entries) = es.flatMap (fun e => entriesOf nodes j e.2) ∧
        (ls.map (fun l => l.page_id_)).Sublist (es.flatMap (fun e => pagesOf nodes j e.2)) := by
  intro es
  induction es with
  | nil =>
    intro f n hk
    exact ⟨[], hk, rfl, List.Sublist.refl _⟩
  | cons e rest ihes =>
    intro f n hk
    obtain ⟨m, h1, h2⟩ := hk
    obtain ⟨ls1, b1, b2, b3⟩ := ih _ _ _ _ _ h1
    obtain ⟨ls2, c1, c2, c3⟩ := ihes m n h2
    refine ⟨ls1 ++ ls2, LeafWalk_append nodes ls1 ls2 m n f b1 c1, ?_, ?_⟩
    · rw [List.flatMap_append, List.flatMap_cons, b2, c2]
    · rw [List.map_append, List.flatMap_cons]
      exact List.Sublist.append b3 c3

theorem walk_of_WFSub (nodes : Int → Option BPTreePage) (h : Nat) :
    ∀ (pid par lo hi f n : Int), WFSub nodes h pid par lo hi f n →
      ∃ ls, LeafWalk nodes f n ls ∧
        ls.flatMap (fun l => l.entries) = entriesOf nodes h pid ∧
        (ls.map (fun l => l.page_id_)).Sublist (pagesOf nodes h pid) := by
  induction h with
  | zero =>
    intro pid par lo hi f n hw
    obtain ⟨l, a1, a2, a3, a4, a5, a6, a7, a8, a9⟩ := hw
    refine ⟨[l], ⟨by rw [a6]; exact a1, by rw [a6]; exact a2, a5⟩, ?_, ?_⟩
    · rw [entriesOf_zero _ _ _ a1]
      simp
    · simp only [List.map_cons, List.map_nil, pagesOf, a2]
      exact List.Sublist.refl _
  | succ j ih =>
    intro pid par lo hi f n hw
    obtain ⟨nd, a1, a2, a3, a4, hk⟩ := hw
    rw [KidsOK_iff_setHeadKey] at hk
    obtain ⟨ls, b1, b2, b3⟩ := KidsSeg_walk nodes j pid (fun c l u f n hc => ih c pid l u f n hc)
      hi _ f n hk.2
    rw [flatMap_setHeadKey] at b2 b3
    refine ⟨ls, b1, ?_, ?_⟩
    · rw [entriesOf_succ _ _ _ _ a1, b2]
    · rw [pagesOf_succ _ _ _ _ a1]
      exact b3.trans (List.sublist_cons_self _ _)

/-! ## B+tree: the lower-bound descent -/

theorem range_descent (t : BPTreeIndex) (low : Int) (h : Nat) :
    ∀ (pid par lo hi f n : Int) (fuel : Nat), WFSub t.nodes h pid par lo hi f n → h < fuel →
      ∃ z A l0 ls, t.FindLeafPageForRangeLoop low true fuel pid = some z ∧
        LeafWalk t.nodes z n (l0 :: ls) ∧
        entriesOf t.nodes h pid = A ++ (l0 :: ls).flatMap (fun l => l.entries) ∧
        (∀ x ∈ A, x.1 < low) ∧
        ((l0 :: ls).map (fun l => l.page_id_)).Sublist (pagesOf t.nodes h pid) := by
  induction h with
  | zero =>
    intro pid par lo hi f n fuel hw hfuel
    obtain ⟨l, a1, a2, a3, a4, a5, a6, a7, a8, a9⟩ := hw
    obtain ⟨fuel, rfl⟩ : ∃ k, fuel = k + 1 := ⟨fuel - 1, by omega⟩
    refine ⟨pid, [], l, [], ?_, ⟨a1, a2, a5⟩, ?_, fun x hx => (by cases hx), ?_⟩
    · simp only [BPTreeIndex.FindLeafPageForRangeLoop, a1]
    · rw [entriesOf_zero _ _ _ a1]
      simp
    · simp only [List.map_cons, List.map_nil, pagesOf, a2]
      exact List.Sublist.refl _
  | succ j ih =>
    intro pid par lo hi f n fuel hw hfuel
    obtain ⟨nd, a1, a2, a3, a4, hk⟩ := hw
    obtain ⟨fuel, rfl⟩ : ∃ k, fuel = k + 1 := ⟨fuel - 1, by omega⟩
    rw [KidsOK_iff_setHeadKey] at hk
    obtain ⟨hne, hk⟩ := hk
    have inner : ∀ (rest : List (Int × Int)) (e : Int × Int) (f : Int),
        KidsSeg (fun c l u f n => WFSub t.nodes j c pid l u f n) (e :: rest) hi f n →
        ∃ z A l0 ls, t.FindLeafPageForRangeLoop low true fuel
            (BPTreeInternalPage.lookupLowerFrom low e.2 rest) = some z ∧
          LeafWalk t.nodes z n (l0 :: ls) ∧
          (e :: rest).flatMap (fun e => entriesOf t.nodes j e.2) =
            A ++ (l0 :: ls).flatMap (fun l => l.entries) ∧
          (∀ x ∈ A, x.1 < low) ∧
          ((l0 :: ls).map (fun l => l.page_id_)).Sublist
            ((e :: rest).flatMap (fun e => pagesOf t.nodes j e.2)) := by
      intro rest
      induction rest with
      | nil =>
        intro e f hk
        obtain ⟨m, h1, h2⟩ := hk
        have hmn : m = n := h2
        subst hmn
        obtain ⟨z, A, l0, ls, b1, b2, b3, b4, b5⟩ := ih e.2 pid _ _ f m fuel h1 (by omega)
        refine ⟨z, A, l0, ls, b1, b2, ?_, b4, ?_⟩
        · simp only [List.flatMap_cons, List.flatMap_nil, List.append_nil] at b3 ⊢
          exact b3
        · simp only [List.flatMap_cons, List.flatMap_nil, List.append_nil]
          exact b5
      | cons e2 r ihr =>
        intro e f hk
        obtain ⟨m, h1, h2⟩ := hk
        by_cases hlow : low ≤ e2.1
        · obtain ⟨z, A, l0, ls1, b1, b2, b3, b4, b5⟩ := ih e.2 pid _ _ f m fuel h1 (by omega)
          obtain ⟨ls2, c1, c2, c3⟩ := KidsSeg_walk t.nodes j pid
            (fun c l u f n hc => walk_of_WFSub t.nodes j c pid l u f n hc) hi _ m n h2
          refine ⟨z, A, l0, ls1 ++ ls2, ?_, ?_, ?_, b4, ?_⟩
          · simp only [BPTreeInternalPage.lookupLowerFrom, hlow, if_true]
            exact b1
          · exact LeafWalk_append t.nodes (l0 :: ls1) ls2 m n z b2 c1
          · rw [List.flatMap_cons, b3, ← List.cons_append, List.flatMap_append, c2,
              List.append_assoc]
          · rw [← List.cons_append, List.map_append, List.flatMap_cons]
            exact List.Sublist.append b5 c3
        · obtain ⟨z, A, l0, ls, b1, b2, b3, b4, b5⟩ := ihr e2 m h2
          have hbd := (entries_sorted t.nodes j e.2 pid _ _ f m h1).2.2
          refine ⟨z, entriesOf t.nodes j e.2 ++ A, l0, ls, ?_, b2, ?_, ?_, ?_⟩
          · simp only [BPTreeInternalPage.lookupLowerFrom, hlow, if_false]
            exact b1
          · rw [List.flatMap_cons, b3, List.append_assoc]
          · intro x hx
            rcases List.mem_append.1 hx with h0 | h0
            · have := (hbd x h0).2
              have hu : ub (e2 :: r) hi = e2.1 := rfl
              rw [hu] at this
              omega
            · exact b4 x h0
          · rw [List.flatMap_cons]
            exact b5.trans (List.sublist_append_right _ _)
    cases hes : nd.entries with
    | nil => exact absurd hes hne
    | cons e rest =>
      rw [hes] at hk
      obtain ⟨z, A, l0, ls, b1, b2, b3, b4, b5⟩ := inner rest (lo, e.2) f hk
      refine ⟨z, A, l0, ls, ?_, b2, ?_, b4, ?_⟩
      · simp only [BPTreeIndex.FindLeafPageForRangeLoop, a1, if_true,
          BPTreeInternalPage.LookupForLowerBound, hes]
        exact b1
      · rw [entriesOf_succ _ _ _ _ a1, hes]
        exact b3
      · rw [pagesOf_succ _ _ _ _ a1, hes]
        exact b5.trans (List.sublist_cons_self _ _)

/-! ## B+tree: `SearchRange` -/

theorem SearchRangeLoop_walk (t : BPTreeIndex) (low high : Int) :
    ∀ (ls : List BPTreeLeafPage) (p : Int) (fuel : Nat) (result : List RID),
      LeafWalk t.nodes p INVALID_PAGE_ID ls → (∀ l ∈ ls, l.page_id_ ≠ INVALID_PAGE_ID) →
      ls.length < fuel →
      t.SearchRangeLoop low high fuel p result =
        some (result ++ (rangeScan low high ls).map Prod.snd) := by
  intro ls
  induction ls with
  | nil =>
    intro p fuel result hw _ hfuel
    obtain ⟨fuel, rfl⟩ : ∃ k, fuel = k + 1 := ⟨fuel - 1, by omega⟩
    have hp : p = INVALID_PAGE_ID := hw
    simp only [BPTreeIndex.SearchRangeLoop, hp, if_true, rangeScan, List.map_nil,
      List.append_nil]
  | cons l rest ih =>
    intro p fuel result hw hne hfuel
    obtain ⟨fuel, rfl⟩ : ∃ k, fuel = k + 1 := ⟨fuel - 1, by omega⟩
    obtain ⟨a1, a2, a3⟩ := hw
    have hp : p ≠ INVALID_PAGE_ID := by
      rw [← a2]; exact hne l (List.mem_cons_self _ _)
    have hgl : t.getLeaf p = some l := by simp only [BPTreeIndex.getLeaf, a1]
    simp only [BPTreeIndex.SearchRangeLoop, hp, if_false, hgl, rangeScan]
    by_cases hstop : ((l.entries.drop (l.LowerBound low)).takeWhile
        (fun e => decide (e.1 ≤ high))).length < (l.entries.drop (l.LowerBound low)).length
    · rw [if_pos hstop, if_pos hstop]
    · rw [if_neg hstop, if_neg hstop]
      rw [ih _ fuel _ a3 (fun l1 h1 => hne l1 (List.mem_cons_of_mem _ h1))
        (by simp only [List.length_cons] at hfuel; omega)]
      simp only [List.map_append, List.append_assoc]

theorem sorted_drop_findIdx (low : Int) (E : List (Int × RID))
    (hs : E.Pairwise (fun a b => a.1 ≤ b.1)) :
    E.drop (E.findIdx (fun e => decide (low ≤ e.1))) = E.filter (fun e => decide (low ≤ e.1)) := by
  induction E with
  | nil => rfl
  | cons x E ih =>
    rw [List.pairwise_cons] at hs
    rw [List.findIdx_cons]
    by_cases hx : low ≤ x.1
    · have h1 : decide (low ≤ x.1) = true := by simp [hx]
      rw [h1]
      simp only [cond_true, List.drop_zero]
      have h2 : (x :: E).filter (fun e => decide (low ≤ e.1)) = x :: E := by
        rw [List.filter_eq_self]
        intro y hy
        simp only [decide_eq_true_eq]
        rcases List.mem_cons.1 hy with h0 | h0
        · rw [h0]; exact hx
        · have := hs.1 y h0
          omega
      rw [h2]
    · have h1 : decide (low ≤ x.1) = false := by simp [hx]
      rw [h1]
      simp only [cond_false, List.drop_succ_cons]
      rw [ih hs.2]
      simp only [List.filter_cons, h1, Bool.false_eq_true, if_false]

theorem sorted_takeWhile (high : Int) (E : List (Int × RID))
    (hs : E.Pairwise (fun a b => a.1 ≤ b.1)) :
    E.takeWhile (fun e => decide (e.1 ≤ high)) = E.filter (fun e => decide (e.1 ≤ high)) := by
  induction E with
  | nil => rfl
  | cons x E ih =>
    rw [List.pairwise_cons] at hs
    by_cases hx : x.1 ≤ high
    · have h1 : decide (x.1 ≤ high) = true := by simp [hx]
      simp only [List.takeWhile_cons, List.filter_cons, h1, if_true]
      rw [ih hs.2]
    · have h1 : decide (x.1 ≤ high) = false := by simp [hx]
      simp only [List.takeWhile_cons, List.filter_cons, h1, Bool.false_eq_true, if_false]
      symm
      rw [List.filter_eq_nil_iff]
      intro y hy
      have := hs.1 y hy
      simp only [decide_eq_true_eq]
      omega

theorem rangeScan_eq_filter (low high : Int) :
    ∀ ls : List BPTreeLeafPage,
      (ls.flatMap (fun l => l.entries)).Pairwise (fun a b => a.1 ≤ b.1) →
      rangeScan low high ls =
        (ls.flatMap (fun l => l.entries)).filter (fun e => decide (low ≤ e.1 ∧ e.1 ≤ high)) := by
  intro ls
  induction ls with
  | nil => intro _; rfl
  | cons l rest ih =>
    intro hs
    rw [List.flatMap_cons, List.pairwise_append] at hs
    obtain ⟨s1, s2, s3⟩ := hs
    have hcand : l.entries.drop (l.LowerBound low) =
        l.entries.filter (fun e => decide (low ≤ e.1)) := sorted_drop_findIdx low l.entries s1
    have hcs : (l.entries.filter (fun e => decide (low ≤ e.1))).Pairwise
        (fun a b => a.1 ≤ b.1) := s1.sublist (List.filter_sublist _)
    have htaken : (l.entries.drop (l.LowerBound low)).takeWhile (fun e => decide (e.1 ≤ high)) =
        l.entries.filter (fun e => decide (low ≤ e.1 ∧ e.1 ≤ high)) := by
      rw [hcand, sorted_takeWhile high _ hcs, List.filter_filter]
      congr 1
      funext e
      simp only [Bool.decide_and, Bool.and_comm]
    unfold rangeScan
    rw [htaken, hcand, List.flatMap_cons, List.filter_append]
    by_cases hstop : (l.entries.filter (fun e => decide (low ≤ e.1 ∧ e.1 ≤ high))).length <
        (l.entries.filter (fun e => decide (low ≤ e.1))).length
    · rw [if_pos hstop]
      have hex : ∃ x ∈ l.entries, low ≤ x.1 ∧ high < x.1 := by
        by_contra hno
        have heq : l.entries.filter (fun e => decide (low ≤ e.1 ∧ e.1 ≤ high)) =
            l.entries.filter (fun e => decide (low ≤ e.1)) := by
          apply List.filter_congr
          intro x hx
          have : ¬ (low ≤ x.1 ∧ high < x.1) := fun h0 => hno ⟨x, hx, h0⟩
          by_cases h1 : low ≤ x.1
          · have h2 : x.1 ≤ high := by omega
            simp [h1, h2]
          · simp [h1]
        rw [heq] at hstop
        omega
      obtain ⟨x, hx, hx1, hx2⟩ := hex
      have hnil : (rest.flatMap (fun l => l.entries)).filter
          (fun e => decide (low ≤ e.1 ∧ e.1 ≤ high)) = [] := by
        rw [List.filter_eq_nil_iff]
        intro y hy
        have := s3 x hx y hy
        simp only [decide_eq_true_eq, not_and, not_le]
        intro _
        omega
      rw [hnil, List.append_nil]
    · rw [if_neg hstop, ih s2]

theorem SearchRange_ok (t : BPTreeIndex) (low high : Int) (hinv : t.Inv) :
    t.SearchRange low high =
      some ((t.Stored.filter (fun e => decide (low ≤ e.1 ∧ e.1 ≤ high))).map Prod.snd) ∧
    t.Stored.Pairwise (fun a b => a.1 ≤ b.1) := by
  by_cases hroot : t.header.root_page_id_ = INVALID_PAGE_ID
  · have hf : t.FindLeafPageForRange low true = some INVALID_PAGE_ID := by
      unfold BPTreeIndex.FindLeafPageForRange
      rw [if_pos hroot]
    have hst : t.Stored = [] := by
      unfold BPTreeIndex.Stored
      rw [if_pos hroot]
    rw [hst]
    refine ⟨?_, List.Pairwise.nil⟩
    simp only [BPTreeIndex.SearchRange, hf, if_true, List.filter_nil, List.map_nil]
  · obtain ⟨hl4, hi4, fl, hA, hcase⟩ := hinv
    rcases hcase with ⟨h0, -⟩ | ⟨h, hT⟩
    · exact absurd h0 hroot
    obtain ⟨lo, hi, f, hw⟩ := hT.2.2.1
    have hfu := TreeOK_fuel t none fl h hA hT
    obtain ⟨z, A, l0, ls, b1, b2, b3, b4, b5⟩ :=
      range_descent t low h _ _ _ _ _ _ t.fuel hw (by omega)
    obtain ⟨s0, s1, s2⟩ := entries_sorted t.nodes h _ _ _ _ _ _ hw
    have hSt := Stored_of_TreeOK t none fl h hT
    have hpg : ∀ l ∈ l0 :: ls, 1 ≤ l.page_id_ ∧ l.page_id_ < t.header.page_num_ := by
      intro l hl
      have := hT.2.2.2.2 l.page_id_ (b5.subset (List.mem_map.2 ⟨l, hl, rfl⟩))
      exact ⟨this.1, this.2.1⟩
    have hz : z = l0.page_id_ := b2.2.1.symm
    have hzne : z ≠ INVALID_PAGE_ID := by
      have := (hpg l0 (List.mem_cons_self _ _)).1
      rw [hz]
      unfold INVALID_PAGE_ID
      omega
    have hlen : (l0 :: ls).length < t.fuel := by
      have h1 := b5.length_le
      rw [List.length_map] at h1
      have h2 := nodup_range_length _ t.header.page_num_ hA.1 hT.2.2.2.1
        (fun p hp => ⟨(hT.2.2.2.2 p hp).1, (hT.2.2.2.2 p hp).2.1⟩)
      unfold BPTreeIndex.fuel
      omega
    have hloop := SearchRangeLoop_walk t low high (l0 :: ls) z t.fuel [] b2
      (by
        intro l hl
        have := (hpg l hl).1
        unfold INVALID_PAGE_ID
        omega) hlen
    rw [hSt]
    refine ⟨?_, s1⟩
    have hf : t.FindLeafPageForRange low true = some z := by
      unfold BPTreeIndex.FindLeafPageForRange
      rw [if_neg hroot]
      exact b1
    have hs3 := s1
    rw [b3, List.pairwise_append] at hs3
    have hA0 : A.filter (fun e => decide (low ≤ e.1 ∧ e.1 ≤ high)) = [] := by
      rw [List.filter_eq_nil_iff]
      intro x hx
      have := b4 x hx
      simp only [decide_eq_true_eq, not_and, not_le]
      intro _
      omega
    simp only [BPTreeIndex.SearchRange, hf, hzne, if_false, hloop, List.nil_append]
    rw [rangeScan_eq_filter low high _ hs3.2.1, b3, List.filter_append, hA0, List.nil_append]

/-! ## B+tree: what `SearchRange` returns (claim C3) -/

namespace BPTreeIndex

/-- C3: in every reachable state and for all keys `low`, `high` (so also for
`low ≤ high`), `SearchRange(low, high)` returns the RIDs of exactly the stored
entries whose key `k` has `low ≤ k ≤ high`, in the order of the stored
entries, which is ascending in the key. -/
theorem C3_SearchRange_returns_range_in_key_order (t : BPTreeIndex) (low high : Int)
    (hr : t.Reachable) :
    t.SearchRange low high =
      some ((t.Stored.filter (fun e => decide (low ≤ e.1 ∧ e.1 ≤ high))).map Prod.snd) ∧
    t.Stored.Pairwise (fun a b => a.1 ≤ b.1) :=
  SearchRange_ok t low high (Reachable_Inv t hr)

set_option maxRecDepth 100000 in
/-- C3, witness: after inserting the keys 1 .. 10, key `k` with RID `(k, 0)`,
`SearchRange(3, 7)` returns the RIDs of 3, 4, 5, 6, 7 in that order. -/
theorem C3_SearchRange_returns_range_in_key_order_witness :
    tenKeys.Reachable ∧
    (tenKeys.Stored.filter (fun e => decide (3 ≤ e.1 ∧ e.1 ≤ 7))).map Prod.snd =
      [⟨3, 0⟩, ⟨4, 0⟩, ⟨5, 0⟩, ⟨6, 0⟩, ⟨7, 0⟩] ∧
    tenKeys.SearchRange 3 7 =
      some ((tenKeys.Stored.filter (fun e => decide (3 ≤ e.1 ∧ e.1 ≤ 7))).map Prod.snd) ∧
    tenKeys.Stored.Pairwise (fun a b => a.1 ≤ b.1) :=
  ⟨Reachable_afterInserts _, by decide,
    C3_SearchRange_returns_range_in_key_order tenKeys 3 7 (Reachable_afterInserts _)⟩

end BPTreeIndex

namespace BufferPoolManager

/-! ## Buffer pool: `DeletePage` (claim C11) -/

theorem find_eraseKey_self (tbl : List ((Int × Int) × Int)) (fid pid : Int) :
    List.lookup (fid, pid) (eraseKey tbl fid pid) = none := by
  unfold eraseKey
  rw [lookup_filter_ne]
  simp

theorem find_eraseKey_ne (tbl : List ((Int × Int) × Int)) (fid pid : Int) (k : Int × Int)
    (h : k ≠ (fid, pid)) : List.lookup k (eraseKey tbl fid pid) = List.lookup k tbl := by
  unfold eraseKey
  rw [lookup_filter_ne]
  simp [h]

/-- C11: `DeletePage(fid, pid)` on a resident page.  With pin count `> 0` it
returns false and the whole state (frames, page table, free list, replacer,
disk) is the state before.  With pin count `0` it returns true; the disk is
the old one after a `WritePage` of the page's bytes if the frame was dirty and
the old one otherwise; the page is no longer in the page table (the other
entries are as before); the frame is appended to the free list, is in the
reset state, and is not evictable in the replacer; the other frames are as
before. -/
theorem C11_DeletePage_contract (s : BufferPoolManager) (fid pid f : Int)
    (hres : s.find fid pid = some f) :
    (0 < (s.frames_ f).pin_count_ → s.DeletePage fid pid = (false, s)) ∧
    ((s.frames_ f).pin_count_ = 0 →
      (s.DeletePage fid pid).1 = true ∧
      (s.DeletePage fid pid).2.disk_manager_ =
        (if (s.frames_ f).is_dirty_ then
          s.disk_manager_.WritePage fid pid (s.frames_ f).page_.data_
        else s.disk_manager_) ∧
      (s.DeletePage fid pid).2.find fid pid = none ∧
      (∀ k, k ≠ (fid, pid) →
        List.lookup k (s.DeletePage fid pid).2.page_frame_lookup_ =
          List.lookup k s.page_frame_lookup_) ∧
      (s.DeletePage fid pid).2.free_list_ = s.free_list_ ++ [f] ∧
      (s.DeletePage fid pid).2.frames_ f = (s.frames_ f).Reset ∧
      ((s.DeletePage fid pid).2.frames_ f).pin_count_ = 0 ∧
      ((s.DeletePage fid pid).2.frames_ f).is_dirty_ = false ∧
      (∀ g, g ≠ f → (s.DeletePage fid pid).2.frames_ g = s.frames_ g) ∧
      (s.DeletePage fid pid).2.replacer_ = s.replacer_.Pin f ∧
      (s.DeletePage fid pid).2.replacer_.evictable f = false) := by
  constructor
  · intro hpin
    unfold DeletePage
    rw [hres]
    simp only [hpin, gt_iff_lt, if_true]
  · intro hpin
    have hnot : ¬ (s.frames_ f).pin_count_ > 0 := by omega
    have heq : s.DeletePage fid pid = (true,
        { s with
          disk_manager_ :=
            if (s.frames_ f).is_dirty_ then
              s.disk_manager_.WritePage fid pid (s.frames_ f).page_.data_
            else s.disk_manager_,
          page_frame_lookup_ := eraseKey s.page_frame_lookup_ fid pid,
          replacer_ := s.replacer_.Pin f,
          frames_ := Function.update s.frames_ f (s.frames_ f).Reset,
          free_list_ := s.free_list_ ++ [f] }) := by
      unfold DeletePage
      rw [hres]
      simp only [hnot, if_false]
    rw [heq]
    refine ⟨rfl, rfl, ?_, ?_, rfl, ?_, ?_, ?_, ?_, rfl, ?_⟩
    · exact find_eraseKey_self _ _ _
    · intro k hk
      exact find_eraseKey_ne _ _ _ k hk
    · simp only [Function.update_same]
    · simp only [Function.update_same]; rfl
    · simp only [Function.update_same]; rfl
    · intro g hg
      simp only [Function.update_noteq hg]
    · simp only [Replacer.evictable_Pin, if_true]

/-- C11, witness: in the two-frame pool with pages (0,1) and (0,2) resident,
unpinned and dirty, `DeletePage(0, 1)` returns true, writes the bytes `[1, 1]`
of the page to disk, and frame 0 joins the free list; in the one-frame pool
with page (0,1) pinned, `DeletePage(0, 1)` returns false and changes nothing. -/
theorem C11_DeletePage_contract_witness :
    (scenarioAB.DeletePage 0 1).1 = true ∧
    (scenarioAB.DeletePage 0 1).2.disk_manager_ =
      scenarioAB.disk_manager_.WritePage 0 1 [1, 1] ∧
    (scenarioAB.DeletePage 0 1).2.find 0 1 = none ∧
    (scenarioAB.DeletePage 0 1).2.free_list_ = [0] ∧
    scenarioPinned.DeletePage 0 1 = (false, scenarioPinned) := by
  have h1 := (C11_DeletePage_contract scenarioAB 0 1 0 (by decide)).2 (by decide)
  have h2 := (C11_DeletePage_contract scenarioPinned 0 1 0 (by decide)).1 (by decide)
  refine ⟨h1.1, ?_, h1.2.2.1, ?_, h2⟩
  · rw [h1.2.1]
    have hd : (scenarioAB.frames_ 0).is_dirty_ = true := by decide
    have hb : (scenarioAB.frames_ 0).page_.data_ = [1, 1] := by decide
    rw [hd, hb]
    rfl
  · rw [h1.2.2.2.2.1]
    decide

end BufferPoolManager

/-! ## Replacers: `Victim` and `Size` (claim C19) -/

namespace LRUReplacer

theorem lru_countEv_cons (e : Int × Bool) (es : List (Int × Bool)) :
    countEv (e :: es) = (if e.2 then 1 else 0) + countEv es := by
  unfold countEv
  by_cases h : e.2 = true
  · simp [List.filter_cons, h]; omega
  · simp [List.filter_cons, h]

theorem lru_countEv_append (l1 l2 : List (Int × Bool)) :
    countEv (l1 ++ l2) = countEv l1 + countEv l2 := by
  unfold countEv; rw [List.filter_append, List.length_append]

theorem lru_countEv_filter_ne (l : List (Int × Bool)) (v : Int)
    (hn : (l.map Prod.fst).Nodup) :
    countEv (l.filter (fun e => decide (e.1 ≠ v))) +
      (if List.lookup v l = some true then 1 else 0) = countEv l := by
  induction l with
  | nil => simp [countEv]
  | cons e es ih =>
    obtain ⟨a, b⟩ := e
    simp only [List.map_cons, List.nodup_cons] at hn
    rw [lookup_cons_ite, lru_countEv_cons]
    by_cases hav : a = v
    · subst hav
      rw [List.filter_cons_of_neg (by simp), filter_ne_eq_self _ _ hn.1]
      simp only [if_true, Option.some.injEq]
      cases b
      · simp
      · simp; omega
    · have hva : v ≠ a := fun h => hav h.symm
      rw [List.filter_cons_of_pos (by simp [hav]), lru_countEv_cons]
      simp only [hva, if_false]
      have := ih hn.2
      omega

theorem lru_countEv_map_true (l : List (Int × Bool)) (f : Int)
    (hn : (l.map Prod.fst).Nodup) :
    countEv (l.map (fun e => if e.1 = f then (e.1, true) else e)) =
      countEv l + (if List.lookup f l = some false then 1 else 0) := by
  induction l with
  | nil => simp [countEv]
  | cons e es ih =>
    obtain ⟨a, b⟩ := e
    simp only [List.map_cons, List.nodup_cons] at hn
    rw [List.map_cons, lru_countEv_cons, lru_countEv_cons, lookup_cons_ite]
    by_cases haf : a = f
    · subst haf
      rw [map_key_eq_self _ _ (fun _ => true) hn.1]
      simp only [if_true, Option.some.injEq]
      cases b
      · simp; omega
      · simp
    · have hfa : f ≠ a := fun h => haf h.symm
      simp only [haf, hfa, if_false]
      rw [ih hn.2]
      omega

theorem lru_countEv_eq_zero (l : List (Int × Bool)) (h : ∀ e ∈ l, e.2 = false) :
    countEv l = 0 := by
  unfold countEv
  rw [List.length_eq_zero, List.filter_eq_nil_iff]
  intro e he
  simp [h e he]

theorem lru_countEv_pos (l : List (Int × Bool)) (v : Int) (h : (v, true) ∈ l) :
    0 < countEv l := by
  unfold countEv
  apply List.length_pos_of_mem (a := (v, true))
  exact List.mem_filter.2 ⟨h, rfl⟩

theorem lru_Sized_Pin (r : LRUReplacer) (hw : r.WF) (hs : r.Sized) (f : Int) :
    (r.Pin f).Sized := by
  unfold Sized at hs ⊢
  rw [lru_Pin_list, lru_countEv_append]
  have h1 := lru_countEv_filter_ne r.lru_list_ f hw
  have h2 : countEv [(f, false)] = 0 := rfl
  rw [h2]
  unfold Pin
  cases hl : List.lookup f r.lru_list_ with
  | none =>
    rw [hl] at h1
    simp only at h1 ⊢
    rw [hs]
    simp only [if_false, reduceCtorEq] at h1
    omega
  | some ev =>
    rw [hl] at h1
    cases ev with
    | true =>
      simp only [if_true] at h1 ⊢
      rw [hs]
      omega
    | false =>
      simp only [Option.some.injEq, Bool.false_eq_true, if_false] at h1 ⊢
      rw [hs]
      omega

theorem lru_Sized_Unpin (r : LRUReplacer) (hw : r.WF) (hs : r.Sized) (f : Int) :
    (r.Unpin f).Sized := by
  unfold Sized at hs ⊢
  unfold Unpin
  cases hl : List.lookup f r.lru_list_ with
  | none =>
    simp only
    split
    · exact hs
    · simp only
      rw [lru_countEv_append]
      have h2 : countEv [(f, true)] = 1 := rfl
      rw [h2, hs]
      push_cast
      rfl
  | some ev =>
    simp only
    rw [lru_countEv_map_true _ _ hw, hl]
    cases ev with
    | true =>
      simp only [if_true, Option.some.injEq, Bool.true_eq_false, if_false]
      rw [hs]
      simp
    | false =>
      simp only [Bool.false_eq_true, if_false, if_true]
      rw [hs]
      push_cast
      rfl

theorem lru_Sized_Victim (r : LRUReplacer) (hw : r.WF) (hs : r.Sized) : (r.Victim).2.Sized := by
  cases hv : (r.Victim).1 with
  | none => rw [lru_Victim_snd_of_none r hv]; exact hs
  | some v =>
    obtain ⟨h1, h2⟩ := lru_Victim_some r hw v hv
    unfold Sized at hs ⊢
    rw [h2]
    have h3 := lru_countEv_filter_ne r.lru_list_ v hw
    rw [h1] at h3
    simp only [if_true] at h3
    have h4 : (r.Victim).2.cur_size_ = r.cur_size_ - 1 := by
      unfold Victim at hv ⊢
      cases hsc : victimScan r.lru_list_ with
      | none => rw [hsc] at hv; simp at hv
      | some x => rfl
    rw [h4, hs]
    omega

theorem lru_Victim_iff (r : LRUReplacer) :
    (∃ v, (r.Victim).1 = some v) ↔ 0 < countEv r.lru_list_ := by
  unfold Victim
  cases hsc : victimScan r.lru_list_ with
  | none =>
    simp only [reduceCtorEq, exists_false, false_iff, not_lt, Nat.le_zero_eq]
    exact lru_countEv_eq_zero _ (lru_victimScan_none _ hsc)
  | some x =>
    simp only [Option.some.injEq, exists_eq', true_iff]
    obtain ⟨v, rest⟩ := x
    have hmem : ∀ (l : List (Int × Bool)) (v : Int) (rest : List (Int × Bool)),
        victimScan l = some (v, rest) → (v, true) ∈ l := by
      intro l
      induction l with
      | nil => intro v rest h; simp [victimScan] at h
      | cons e es ih =>
        intro v rest h
        unfold victimScan at h
        by_cases he : e.2 = true
        · simp only [he, if_true, Option.some.injEq, Prod.mk.injEq] at h
          have : e = (v, true) := by
            rw [← h.1, ← he]
          rw [this]
          exact List.mem_cons_self _ _
        · simp only [he] at h
          cases hs2 : victimScan es with
          | none => rw [hs2] at h; simp at h
          | some r2 =>
            obtain ⟨r21, r22⟩ := r2
            rw [hs2] at h
            simp only [Bool.false_eq_true, if_false, Option.some.injEq, Prod.mk.injEq] at h
            obtain ⟨h1, -⟩ := h
            subst h1
            exact List.mem_cons_of_mem _ (ih _ _ hs2)
    exact lru_countEv_pos _ v (hmem _ _ _ hsc)

end LRUReplacer

namespace Replacer

theorem Counted_WF (r : Replacer) (h : r.Counted) : r.WF := by
  cases r with
  | lru r => exact h.1
  | lruk r => exact h

theorem Counted_of_Reachable (r : Replacer) (h : r.Reachable) : r.Counted := by
  induction h with
  | initLRU n =>
    exact ⟨List.nodup_nil, rfl⟩
  | initLRUK n k hk =>
    refine ⟨List.nodup_nil, rfl, ?_, hk⟩
    intro e he
    cases he
  | pin r f hf _ ih =>
    cases r with
    | lru r => exact ⟨LRUReplacer.lru_Pin_WF r ih.1 f, LRUReplacer.lru_Sized_Pin r ih.1 ih.2 f⟩
    | lruk r => exact LRUKReplacer.lruk_Pin_WF r ih f hf
  | unpin r f hf _ ih =>
    cases r with
    | lru r =>
      exact ⟨LRUReplacer.lru_Unpin_WF r ih.1 f, LRUReplacer.lru_Sized_Unpin r ih.1 ih.2 f⟩
    | lruk r => exact LRUKReplacer.lruk_Unpin_WF r ih f hf
  | victim r _ ih =>
    cases r with
    | lru r => exact ⟨LRUReplacer.lru_Victim_WF r ih.1, LRUReplacer.lru_Sized_Victim r ih.1 ih.2⟩
    | lruk r => exact LRUKReplacer.lruk_Victim_WF r ih

theorem Victim_iff_Size (r : Replacer) (h : r.Counted) :
    (∃ v, (r.Victim).1 = some v) ↔ 0 < r.Size := by
  cases r with
  | lru r =>
    simp only [Victim, Size, LRUReplacer.Size]
    rw [LRUReplacer.lru_Victim_iff, h.2]
    exact Nat.cast_pos.symm
  | lruk r =>
    simp only [Victim, Size, LRUKReplacer.Size]
    obtain ⟨hn, hc, hall, hk⟩ := h
    constructor
    · rintro ⟨v, hv⟩
      obtain ⟨⟨n, hm, hev⟩, -⟩ := LRUKReplacer.lruk_Victim_some r v hv
      rw [hc]
      have : 0 < LRUKReplacer.countEv r.node_store_ := by
        unfold LRUKReplacer.countEv
        apply List.length_pos_of_mem (a := (v, n))
        exact List.mem_filter.2 ⟨hm, hev⟩
      exact_mod_cast this
    · intro hpos
      cases hv : (r.Victim).1 with
      | some v => exact ⟨v, rfl⟩
      | none =>
        exfalso
        have hno := LRUKReplacer.lruk_no_evictable_of_Victim_none r ⟨hn, hc, hall, hk⟩ hv
        have : LRUKReplacer.countEv r.node_store_ = 0 := by
          unfold LRUKReplacer.countEv
          rw [List.length_eq_zero, List.filter_eq_nil_iff]
          intro e he
          simp [hno e he]
        rw [hc, this] at hpos
        simp at hpos

theorem Victim_Size (r : Replacer) (v : Int) (h : (r.Victim).1 = some v) :
    (r.Victim).2.Size = r.Size - 1 := by
  cases r with
  | lru r =>
    simp only [Victim, Size, LRUReplacer.Size] at h ⊢
    unfold LRUReplacer.Victim at h ⊢
    cases hsc : LRUReplacer.victimScan r.lru_list_ with
    | none => rw [hsc] at h; simp at h
    | some x => rfl
  | lruk r =>
    simp only [Victim, Size, LRUKReplacer.Size] at h ⊢
    rw [(LRUKReplacer.lruk_Victim_some r v h).2]

/-- C19: for both replacer policies and every state reachable from a fresh
replacer by `Pin`, `Unpin` (on frame ids other than the sentinel
`INVALID_FRAME_ID`) and `Victim`: `Victim` returns a frame iff `Size() > 0`;
the frame it returns was evictable, is not tracked afterwards, and `Size()` is
smaller by exactly one; when `Victim` reports none the state is unchanged. -/
theorem C19_Victim_contract (r : Replacer) (hr : r.Reachable) :
    ((∃ v, (r.Victim).1 = some v) ↔ 0 < r.Size) ∧
    (∀ v, (r.Victim).1 = some v →
      r.evictable v = true ∧ (r.Victim).2.tracked v = false ∧
      (r.Victim).2.Size = r.Size - 1) ∧
    ((r.Victim).1 = none → (r.Victim).2 = r) := by
  have hc := Counted_of_Reachable r hr
  have hw := Counted_WF r hc
  refine ⟨Victim_iff_Size r hc, ?_, rep_Victim_snd_of_none r⟩
  intro v hv
  obtain ⟨h1, -, h3⟩ := rep_Victim_some r hw v hv
  refine ⟨h1, ?_, Victim_Size r v hv⟩
  rw [h3 v]
  simp

/-- C19, witness: LRU-K replacer with `K = 2` after `Pin 1, Pin 2, Unpin 1,
Unpin 2`: `Size()` is 2, `Victim` returns frame 1, which is then not tracked,
and `Size()` is 1. -/
theorem C19_Victim_contract_witness :
    scenarioUnpinned.Size = 2 ∧ (scenarioUnpinned.Victim).1 = some 1 ∧
    (scenarioUnpinned.Victim).2.tracked 1 = false ∧
    (scenarioUnpinned.Victim).2.Size = 1 := by
  have hr : scenarioUnpinned.Reachable :=
    Reachable.unpin _ 2 (by decide) (Reachable.unpin _ 1 (by decide)
      (Reachable.pin _ 2 (by decide) (Reachable.pin _ 1 (by decide)
        (Reachable.initLRUK 3 2 (by decide)))))
  have h := C19_Victim_contract scenarioUnpinned hr
  have hv : (scenarioUnpinned.Victim).1 = some 1 := by decide
  have h2 := h.2.1 1 hv
  refine ⟨by decide, hv, h2.2.1, ?_⟩
  rw [h2.2.2]
  decide

end Replacer

namespace LRUReplacer

/-! ## LRU replacer: which frame `Victim` returns (claim C20) -/

theorem lru_victimScan_first (l : List (Int × Bool)) (v : Int) (rest : List (Int × Bool))
    (h : victimScan l = some (v, rest)) :
    ∃ pre post, l = pre ++ (v, true) :: post ∧ ∀ e ∈ pre, e.2 = false := by
  induction l generalizing rest with
  | nil => simp [victimScan] at h
  | cons e es ih =>
    unfold victimScan at h
    by_cases he : e.2 = true
    · simp only [he, if_true, Option.some.injEq, Prod.mk.injEq] at h
      refine ⟨[], es, ?_, fun x hx => (by cases hx)⟩
      have : e = (v, true) := by rw [← h.1, ← he]
      rw [this]
      rfl
    · simp only [he] at h
      cases hs2 : victimScan es with
      | none => rw [hs2] at h; simp at h
      | some r2 =>
        obtain ⟨r21, r22⟩ := r2
        rw [hs2] at h
        simp only [Bool.false_eq_true, if_false, Option.some.injEq, Prod.mk.injEq] at h
        obtain ⟨h1, -⟩ := h
        subst h1
        obtain ⟨pre, post, hl, hpre⟩ := ih _ hs2
        refine ⟨e :: pre, post, by rw [hl]; rfl, ?_⟩
        intro x hx
        rcases List.mem_cons.1 hx with h0 | h0
        · rw [h0]; simpa using he
        · exact hpre x h0

theorem length_filter_ne (l : List (Int × Bool)) (f : Int) (hn : (l.map Prod.fst).Nodup) :
    (l.filter (fun e => decide (e.1 ≠ f))).length +
      (if (List.lookup f l).isSome then 1 else 0) = l.length := by
  induction l with
  | nil => rfl
  | cons e es ih =>
    obtain ⟨a, b⟩ := e
    simp only [List.map_cons, List.nodup_cons] at hn
    rw [lookup_cons_ite]
    by_cases haf : a = f
    · subst haf
      rw [List.filter_cons_of_neg (by simp), filter_ne_eq_self _ _ hn.1]
      simp
    · have hfa : f ≠ a := fun h => haf h.symm
      rw [List.filter_cons_of_pos (by simp [haf])]
      simp only [hfa, if_false, List.length_cons]
      have := ih hn.2
      omega

theorem placedRev_pin_self (calls : List PinCall) (f : Int) :
    placedRev (.pin f :: calls) f = some calls.length := by
  simp [placedRev, lastPinRev]

theorem placedRev_pin_ne (calls : List PinCall) (f g : Int) (h : g ≠ f) :
    placedRev (.pin f :: calls) g = placedRev calls g := by
  have h1 : lastPinRev (.pin f :: calls) g = lastPinRev calls g := by
    simp only [lastPinRev, PinCall.pin.injEq]
    rw [if_neg (fun h0 => h h0.symm)]
  have h2 : firstUnpinRev (.pin f :: calls) g = firstUnpinRev calls g := by
    simp only [firstUnpinRev, reduceCtorEq, if_false]
    cases firstUnpinRev calls g <;> rfl
  simp only [placedRev, h1, h2]

theorem lastPinRev_unpin (calls : List PinCall) (f g : Int) :
    lastPinRev (.unpin f :: calls) g = lastPinRev calls g := by
  simp only [lastPinRev, reduceCtorEq, if_false]

theorem firstUnpinRev_unpin_ne (calls : List PinCall) (f g : Int) (h : g ≠ f) :
    firstUnpinRev (.unpin f :: calls) g = firstUnpinRev calls g := by
  simp only [firstUnpinRev, PinCall.unpin.injEq]
  rw [if_neg (fun h0 => h h0.symm)]
  cases firstUnpinRev calls g <;> rfl

theorem placedRev_unpin_ne (calls : List PinCall) (f g : Int) (h : g ≠ f) :
    placedRev (.unpin f :: calls) g = placedRev calls g := by
  simp only [placedRev, lastPinRev_unpin, firstUnpinRev_unpin_ne calls f g h]

theorem placedRev_unpin_of_some (calls : List PinCall) (f : Int) (s : Nat)
    (h : placedRev calls f = some s) : placedRev (.unpin f :: calls) f = some s := by
  unfold placedRev at h ⊢
  rw [lastPinRev_unpin]
  cases hp : lastPinRev calls f with
  | some i => rw [hp] at h; exact h
  | none =>
    rw [hp] at h
    simp only at h ⊢
    simp only [firstUnpinRev, h]

theorem placedRev_unpin_new (calls : List PinCall) (f : Int)
    (h1 : lastPinRev calls f = none) (h2 : firstUnpinRev calls f = none) :
    placedRev (.unpin f :: calls) f = some calls.length := by
  unfold placedRev
  rw [lastPinRev_unpin, h1]
  simp only [firstUnpinRev, h2, if_true]

theorem Placed_nil (n : Nat) : Placed [] (afterRev n []) := by
  refine ⟨List.nodup_nil, ?_, fun _ _ => rfl, ?_, List.Pairwise.nil⟩
  · intro f hf
    simp [afterRev] at hf
  · intro f _ h
    exact absurd rfl h

theorem Placed_pin (calls : List PinCall) (r : LRUReplacer) (h : Placed calls r) (f : Int) :
    Placed (.pin f :: calls) (r.Pin f) := by
  obtain ⟨hw, ht, hu, hr, hs⟩ := h
  have hlen := length_filter_ne r.lru_list_ f hw
  refine ⟨lru_Pin_WF r hw f, ?_, ?_, ?_, ?_⟩
  · intro g hg
    rw [lru_lookup_Pin] at hg
    by_cases hgf : g = f
    · rw [hgf, placedRev_pin_self]
      exact ⟨_, rfl, by simp⟩
    · rw [if_neg hgf] at hg
      obtain ⟨s, h1, h2⟩ := ht g hg
      rw [placedRev_pin_ne _ _ _ hgf]
      exact ⟨s, h1, by simp only [List.length_cons]; omega⟩
  · intro g hg
    rw [lru_lookup_Pin] at hg
    by_cases hgf : g = f
    · rw [if_pos hgf] at hg; cases hg
    · rw [if_neg hgf] at hg
      simp only [lastPinRev, PinCall.pin.injEq]
      rw [if_neg (fun h0 => hgf h0.symm)]
      exact hu g hg
  · intro g hg hfu
    rw [lru_lookup_Pin] at hg
    by_cases hgf : g = f
    · rw [if_pos hgf] at hg; cases hg
    · rw [if_neg hgf] at hg
      have hfu2 : firstUnpinRev calls g ≠ none := by
        intro h0
        apply hfu
        simp only [firstUnpinRev, h0, reduceCtorEq, if_false]
      have := hr g hg hfu2
      have hm : (r.Pin f).max_size_ = r.max_size_ := by
        unfold Pin
        cases List.lookup f r.lru_list_ <;> rfl
      rw [hm, lru_Pin_list]
      simp only [List.length_append, List.length_cons, List.length_nil]
      split at hlen <;> omega
  · rw [lru_Pin_list, List.pairwise_append]
    refine ⟨?_, List.pairwise_singleton _ _, ?_⟩
    · apply List.Pairwise.imp_of_mem _ (hs.sublist (List.filter_sublist _))
      intro a b ha hb hab i j hi hj
      have ha1 : a.1 ≠ f := by simpa using (List.mem_filter.1 ha).2
      have hb1 : b.1 ≠ f := by simpa using (List.mem_filter.1 hb).2
      rw [placedRev_pin_ne _ _ _ ha1] at hi
      rw [placedRev_pin_ne _ _ _ hb1] at hj
      exact hab i j hi hj
    · intro a ha b hb i j hi hj
      simp only [List.mem_singleton] at hb
      rw [hb] at hj
      simp only at hj
      rw [placedRev_pin_self] at hj
      have ha1 : a.1 ≠ f := by simpa using (List.mem_filter.1 ha).2
      rw [placedRev_pin_ne _ _ _ ha1] at hi
      have hmem : a ∈ r.lru_list_ := List.mem_of_mem_filter ha
      have htr : (List.lookup a.1 r.lru_list_).isSome = true := by
        rw [lookup_isSome_iff_mem_keys]
        exact List.mem_map.2 ⟨a, hmem, rfl⟩
      obtain ⟨s, h1, h2⟩ := ht a.1 htr
      rw [h1] at hi
      cases hi
      cases hj
      exact h2

theorem Placed_unpin (calls : List PinCall) (r : LRUReplacer) (h : Placed calls r) (f : Int) :
    Placed (.unpin f :: calls) (r.Unpin f) := by
  obtain ⟨hw, ht, hu, hr, hs⟩ := h
  cases hl : List.lookup f r.lru_list_ with
  | some ev =>
    have htf : (List.lookup f r.lru_list_).isSome = true := by rw [hl]; rfl
    obtain ⟨sf, hsf, hsf2⟩ := ht f htf
    have hpl : ∀ g, (List.lookup g r.lru_list_).isSome = true →
        placedRev (.unpin f :: calls) g = placedRev calls g := by
      intro g hg
      by_cases hgf : g = f
      · rw [hgf, placedRev_unpin_of_some _ _ _ hsf, hsf]
      · exact placedRev_unpin_ne _ _ _ hgf
    have hlist : (r.Unpin f).lru_list_ =
        r.lru_list_.map (fun e => if e.1 = f then (e.1, true) else e) := by
      unfold Unpin
      rw [hl]
    have hmax : (r.Unpin f).max_size_ = r.max_size_ := by
      unfold Unpin
      rw [hl]
    have hlk : ∀ g, (List.lookup g (r.Unpin f).lru_list_).isSome =
        (List.lookup g r.lru_list_).isSome := by
      intro g
      rw [hlist, lookup_map_key _ f g (fun _ => true)]
      split
      · rename_i hgf
        rw [hgf]
        cases List.lookup f r.lru_list_ <;> rfl
      · rfl
    refine ⟨lru_Unpin_WF r hw f, ?_, ?_, ?_, ?_⟩
    · intro g hg
      rw [hlk] at hg
      obtain ⟨s, h1, h2⟩ := ht g hg
      rw [hpl g hg]
      exact ⟨s, h1, by simp only [List.length_cons]; omega⟩
    · intro g hg
      rw [lastPinRev_unpin]
      apply hu
      have := hlk g
      rw [hg] at this
      cases hq : List.lookup g r.lru_list_ with
      | none => rfl
      | some x => rw [hq] at this; cases this
    · intro g hg hfu
      have hg0 : List.lookup g r.lru_list_ = none := by
        have := hlk g
        rw [hg] at this
        cases hq : List.lookup g r.lru_list_ with
        | none => rfl
        | some x => rw [hq] at this; cases this
      have hgf : g ≠ f := by
        intro h0; rw [h0, hl] at hg0; cases hg0
      rw [firstUnpinRev_unpin_ne _ _ _ hgf] at hfu
      rw [hmax, hlist, List.length_map]
      exact hr g hg0 hfu
    · rw [hlist, List.pairwise_map]
      apply List.Pairwise.imp_of_mem _ hs
      intro a b ha hb hab i j hi hj
      have e1 : (if a.1 = f then (a.1, true) else a).1 = a.1 := by split <;> rfl
      have e2 : (if b.1 = f then (b.1, true) else b).1 = b.1 := by split <;> rfl
      rw [e1] at hi
      rw [e2] at hj
      have hta : (List.lookup a.1 r.lru_list_).isSome = true := by
        rw [lookup_isSome_iff_mem_keys]
        exact List.mem_map.2 ⟨a, ha, rfl⟩
      have htb : (List.lookup b.1 r.lru_list_).isSome = true := by
        rw [lookup_isSome_iff_mem_keys]
        exact List.mem_map.2 ⟨b, hb, rfl⟩
      rw [hpl _ hta] at hi
      rw [hpl _ htb] at hj
      exact hab i j hi hj
  | none =>
    by_cases hcap : r.lru_list_.length ≥ r.max_size_
    · have heq : r.Unpin f = r := by
        unfold Unpin
        rw [hl]
        simp only [hcap, if_true]
      rw [heq]
      have hpl : ∀ g, (List.lookup g r.lru_list_).isSome = true →
          placedRev (.unpin f :: calls) g = placedRev calls g := by
        intro g hg
        apply placedRev_unpin_ne
        intro h0
        rw [h0, hl] at hg
        cases hg
      refine ⟨hw, ?_, ?_, ?_, ?_⟩
      · intro g hg
        obtain ⟨s, h1, h2⟩ := ht g hg
        rw [hpl g hg]
        exact ⟨s, h1, by simp only [List.length_cons]; omega⟩
      · intro g hg
        rw [lastPinRev_unpin]
        exact hu g hg
      · intro g hg hfu
        by_cases hgf : g = f
        · exact hcap
        · rw [firstUnpinRev_unpin_ne _ _ _ hgf] at hfu
          exact hr g hg hfu
      · apply List.Pairwise.imp_of_mem _ hs
        intro a b ha hb hab i j hi hj
        have hta : (List.lookup a.1 r.lru_list_).isSome = true := by
          rw [lookup_isSome_iff_mem_keys]
          exact List.mem_map.2 ⟨a, ha, rfl⟩
        have htb : (List.lookup b.1 r.lru_list_).isSome = true := by
          rw [lookup_isSome_iff_mem_keys]
          exact List.mem_map.2 ⟨b, hb, rfl⟩
        rw [hpl _ hta] at hi
        rw [hpl _ htb] at hj
        exact hab i j hi hj
    · have hlist : (r.Unpin f).lru_list_ = r.lru_list_ ++ [(f, true)] := by
        unfold Unpin
        rw [hl]
        simp only [hcap, if_false]
      have hmax : (r.Unpin f).max_size_ = r.max_size_ := by
        unfold Unpin
        rw [hl]
        simp only [hcap, if_false]
      have hfu0 : firstUnpinRev calls f = none := by
        by_contra h0
        exact hcap (hr f hl h0)
      have hnew := placedRev_unpin_new calls f (hu f hl) hfu0
      have hlk : ∀ g, g ≠ f → List.lookup g (r.Unpin f).lru_list_ = List.lookup g r.lru_list_ :=
        fun g hg => lru_lookup_Unpin_ne r f g hg
      refine ⟨lru_Unpin_WF r hw f, ?_, ?_, ?_, ?_⟩
      · intro g hg
        by_cases hgf : g = f
        · rw [hgf, hnew]
          exact ⟨_, rfl, by simp⟩
        · rw [hlk g hgf] at hg
          obtain ⟨s, h1, h2⟩ := ht g hg
          rw [placedRev_unpin_ne _ _ _ hgf]
          exact ⟨s, h1, by simp only [List.length_cons]; omega⟩
      · intro g hg
        rw [lastPinRev_unpin]
        by_cases hgf : g = f
        · rw [hgf]; exact hu f hl
        · rw [hlk g hgf] at hg
          exact hu g hg
      · intro g hg hfu
        by_cases hgf : g = f
        · rw [hgf, hlist, lookup_append_single, hl] at hg
          simp at hg
        · rw [hlk g hgf] at hg
          rw [firstUnpinRev_unpin_ne _ _ _ hgf] at hfu
          rw [hmax, hlist]
          have := hr g hg hfu
          simp only [List.length_append, List.length_cons, List.length_nil]
          omega
      · rw [hlist, List.pairwise_append]
        have hne : ∀ a ∈ r.lru_list_, a.1 ≠ f := by
          intro a ha h0
          have : f ∈ r.lru_list_.map Prod.fst := List.mem_map.2 ⟨a, ha, h0⟩
          exact (lookup_eq_none_iff_not_mem_keys _ _).1 hl this
        refine ⟨?_, List.pairwise_singleton _ _, ?_⟩
        · apply List.Pairwise.imp_of_mem _ hs
          intro a b ha hb hab i j hi hj
          rw [placedRev_unpin_ne _ _ _ (hne a ha)] at hi
          rw [placedRev_unpin_ne _ _ _ (hne b hb)] at hj
          exact hab i j hi hj
        · intro a ha b hb i j hi hj
          simp only [List.mem_singleton] at hb
          rw [hb] at hj
          simp only at hj
          rw [hnew] at hj
          rw [placedRev_unpin_ne _ _ _ (hne a ha)] at hi
          have htr : (List.lookup a.1 r.lru_list_).isSome = true := by
            rw [lookup_isSome_iff_mem_keys]
            exact List.mem_map.2 ⟨a, ha, rfl⟩
          obtain ⟨s, h1, h2⟩ := ht a.1 htr
          rw [h1] at hi
          cases hi
          cases hj
          exact h2

theorem Placed_afterRev (n : Nat) (calls : List PinCall) : Placed calls (afterRev n calls) := by
  induction calls with
  | nil => exact Placed_nil n
  | cons c older ih =>
    cases c with
    | pin f => exact Placed_pin older _ ih f
    | unpin f => exact Placed_unpin older _ ih f

/-- C20 as stated fails: after `Pin 1`, `Pin 2`, `Unpin 2`, `Unpin 1` on a
replacer for two frames both frames are evictable and frame 2 is the least
recently unpinned one, but `Victim` returns frame 1. -/
theorem C20_Victim_is_not_least_recently_unpinned :
    List.lookup 2 (afterCalls 2 pinnedInTurn).lru_list_ = some true ∧
    ((afterCalls 2 pinnedInTurn).Victim).1 = some 1 ∧
    ¬ LeastRecentlyUnpinned pinnedInTurn (afterCalls 2 pinnedInTurn) 1 ∧
    LeastRecentlyUnpinned pinnedInTurn (afterCalls 2 pinnedInTurn) 2 := by
  refine ⟨by decide, by decide, ?_, ?_⟩
  · intro h
    obtain ⟨i, j, h1, h2, h3⟩ := h.2 2 (by decide) (by decide)
    have e1 : lastUnpinRev pinnedInTurn.reverse 1 = some 3 := by decide
    have e2 : lastUnpinRev pinnedInTurn.reverse 2 = some 2 := by decide
    rw [e1] at h1
    rw [e2] at h2
    cases h1
    cases h2
    omega
  · refine ⟨by decide, ?_⟩
    intro g hg hev
    have hg1 : g = 1 := by
      have hl : (afterCalls 2 pinnedInTurn).lru_list_ = [(1, true), (2, true)] := by decide
      rw [hl] at hev
      have := mem_of_lookup_eq_some _ _ _ hev
      simp only [List.mem_cons, Prod.mk.injEq, and_true, List.mem_singleton, List.mem_nil_iff,
        or_false] at this
      rcases this with h0 | h0
      · exact h0
      · exact absurd h0 hg
    rw [hg1]
    exact ⟨2, 3, by decide, by decide, by decide⟩

/-- C20, amended: after every sequence of `Pin` and `Unpin` calls on a fresh
`LRUReplacer` that leaves a frame evictable, `Victim` returns the evictable
frame that took its place in the list first: the one whose most recent `Pin`
(its first `Unpin`, if it was never pinned) is older than that of every other
evictable frame. -/
theorem C20_Victim_is_least_recently_pinned (n : Nat) (calls : List PinCall)
    (hev : ∃ g, List.lookup g (afterCalls n calls).lru_list_ = some true) :
    ∃ v, ((afterCalls n calls).Victim).1 = some v ∧
      LeastRecentlyPlaced calls (afterCalls n calls) v := by
  have hP : Placed calls.reverse (afterCalls n calls) := Placed_afterRev n calls.reverse
  obtain ⟨hw, ht, hu, hr, hs⟩ := hP
  obtain ⟨g0, hg0⟩ := hev
  cases hv : ((afterCalls n calls).Victim).1 with
  | none => exact absurd hg0 (lru_lookup_of_Victim_none _ hv g0)
  | some v =>
    refine ⟨v, rfl, (lru_Victim_some _ hw v hv).1, ?_⟩
    intro g hgv hg
    have hsc : ∃ rest, victimScan (afterCalls n calls).lru_list_ = some (v, rest) := by
      unfold Victim at hv
      cases hq : victimScan (afterCalls n calls).lru_list_ with
      | none => rw [hq] at hv; simp at hv
      | some x =>
        rw [hq] at hv
        simp only [Option.some.injEq] at hv
        exact ⟨x.2, by rw [← hv]⟩
    obtain ⟨rest, hsc⟩ := hsc
    obtain ⟨pre, post, hl, hpre⟩ := lru_victimScan_first _ _ _ hsc
    have hgm : (g, true) ∈ (afterCalls n calls).lru_list_ := mem_of_lookup_eq_some _ _ _ hg
    have hs2 : (afterCalls n calls).lru_list_.Pairwise (fun a b =>
        ∀ i j, placedRev calls.reverse a.1 = some i → placedRev calls.reverse b.1 = some j →
          i < j) := hs
    rw [hl] at hgm hs2
    have hpost : (g, true) ∈ post := by
      rcases List.mem_append.1 hgm with h0 | h0
      · have := hpre _ h0
        simp at this
      · rcases List.mem_cons.1 h0 with h1 | h1
        · simp only [Prod.mk.injEq, and_true] at h1
          exact absurd h1 hgv
        · exact h1
    have hvt : (List.lookup v (afterCalls n calls).lru_list_).isSome = true := by
      rw [(lru_Victim_some _ hw v hv).1]; rfl
    have hgt : (List.lookup g (afterCalls n calls).lru_list_).isSome = true := by
      rw [hg]; rfl
    obtain ⟨sv, hsv, -⟩ := ht v hvt
    obtain ⟨sg, hsg, -⟩ := ht g hgt
    refine ⟨sv, sg, hsv, hsg, ?_⟩
    rw [List.pairwise_append] at hs2
    exact (List.pairwise_cons.1 hs2.2.1).1 _ hpost sv sg hsv hsg

/-- C20 amended, witness: after `Pin 1`, `Pin 2`, `Unpin 2`, `Unpin 1` the
victim is frame 1, pinned at time 0, before frame 2, pinned at time 1. -/
theorem C20_Victim_is_least_recently_pinned_witness :
    ((afterCalls 2 pinnedInTurn).Victim).1 = some 1 ∧
    LeastRecentlyPlaced pinnedInTurn (afterCalls 2 pinnedInTurn) 1 := by
  obtain ⟨v, h1, h2⟩ := C20_Victim_is_least_recently_pinned 2 pinnedInTurn ⟨1, by decide⟩
  have hv : ((afterCalls 2 pinnedInTurn).Victim).1 = some 1 := by decide
  rw [hv] at h1
  cases h1
  exact ⟨hv, h2⟩

end LRUReplacer

namespace TableHandle

/-! ## Table heap: fetch and unpin -/

@[simp] theorem FetchPageHandle_pages (s : TableHandle) (p : Int) :
    (s.FetchPageHandle p).pages = s.pages := rfl

@[simp] theorem FetchPageHandle_hdr (s : TableHandle) (p : Int) :
    (s.FetchPageHandle p).tab_hdr_ = s.tab_hdr_ := rfl

theorem UnpinPage_pages (s : TableHandle) (p : Int) (d : Bool) :
    (s.UnpinPage p d).pages = s.pages := by
  unfold UnpinPage
  split <;> rfl

theorem UnpinPage_hdr (s : TableHandle) (p : Int) (d : Bool) :
    (s.UnpinPage p d).tab_hdr_ = s.tab_hdr_ := by
  unfold UnpinPage
  split <;> rfl

theorem UnpinPage_FetchPageHandle (s : TableHandle) (p : Int) :
    (s.FetchPageHandle p).UnpinPage p false = s := by
  unfold UnpinPage FetchPageHandle
  simp only [Function.update_same, Nat.add_one_ne_zero, if_false, Nat.add_sub_cancel,
    Function.update_idem, Function.update_eq_self, Bool.false_eq_true]

/-- A fetch, changes of pages and header, and an unpin with the dirty flag
leave the pin counts as they were. -/
theorem UnpinPage_pin_count (s t : TableHandle) (p : Int) (d : Bool)
    (h : t.pin_count = (s.FetchPageHandle p).pin_count) :
    (t.UnpinPage p d).pin_count = s.pin_count := by
  unfold UnpinPage
  rw [h]
  unfold FetchPageHandle
  simp only [Function.update_same, Nat.add_one_ne_zero, if_false, Nat.add_sub_cancel,
    Function.update_idem, Function.update_eq_self]

theorem GetBit_eq_some (p : TablePage) (n : Nat) (slot : Int) (b : Bool)
    (h : p.GetBit n slot = some b) :
    0 ≤ slot ∧ slot < n ∧ p.bitmap slot.toNat = b := by
  unfold TablePage.GetBit at h
  split at h
  · rename_i hr
    simp only [Option.some.injEq] at h
    exact ⟨hr.1, hr.2, h⟩
  · cases h

theorem GetBit_of_range (p : TablePage) (n : Nat) (slot : Int) (h0 : 0 ≤ slot) (h1 : slot < n) :
    p.GetBit n slot = some (p.bitmap slot.toNat) := by
  unfold TablePage.GetBit
  rw [if_pos ⟨h0, h1⟩]

theorem ReadSlot_of_range (p : TablePage) (n : Nat) (slot : Int) (h0 : 0 ≤ slot)
    (h1 : slot < n) : p.ReadSlot n slot = some (p.slots slot.toNat) := by
  unfold TablePage.ReadSlot
  rw [if_pos ⟨h0, h1⟩]

theorem WriteSlot_of_range (p : TablePage) (n : Nat) (slot : Int) (a b : List Nat)
    (h0 : 0 ≤ slot) (h1 : slot < n) :
    p.WriteSlot n slot a b =
      some { p with slots := Function.update p.slots slot.toNat (a, b) } := by
  unfold TablePage.WriteSlot
  rw [if_pos ⟨h0, h1⟩]

theorem SetBit_of_range (p : TablePage) (n : Nat) (slot : Int) (v : Bool)
    (h0 : 0 ≤ slot) (h1 : slot < n) :
    p.SetBit n slot v = some { p with bitmap := Function.update p.bitmap slot.toNat v } := by
  unfold TablePage.SetBit
  rw [if_pos ⟨h0, h1⟩]

/-! ## Table heap: calls on an empty slot -/

theorem GetRecord_vacant (s : TableHandle) (rid : RID) (h : s.vacant rid) :
    s.GetRecord rid = some (.error .NJUDB_RECORD_MISS, s) := by
  unfold vacant at h
  unfold GetRecord
  simp only [FetchPageHandle_pages, FetchPageHandle_hdr, h, UnpinPage_FetchPageHandle]

theorem UpdateRecord_vacant (s : TableHandle) (rid : RID) (record : Record)
    (h : s.vacant rid) :
    s.UpdateRecord rid record = some (.error .NJUDB_RECORD_MISS, s) := by
  unfold vacant at h
  unfold UpdateRecord
  simp only [FetchPageHandle_pages, FetchPageHandle_hdr, h, UnpinPage_FetchPageHandle]

theorem DeleteRecord_vacant (s : TableHandle) (rid : RID) (h : s.vacant rid) :
    s.DeleteRecord rid = some (.error .NJUDB_RECORD_MISS, s) := by
  unfold vacant at h
  unfold DeleteRecord
  simp only [FetchPageHandle_pages, FetchPageHandle_hdr, h, UnpinPage_FetchPageHandle]

theorem GetRecord_miss (s s1 : TableHandle) (rid : RID)
    (h : s.GetRecord rid = some (.error .NJUDB_RECORD_MISS, s1)) : s.vacant rid := by
  unfold GetRecord at h
  simp only [FetchPageHandle_pages, FetchPageHandle_hdr] at h
  unfold vacant
  cases hb : (s.pages rid.page_no).GetBit s.tab_hdr_.rec_per_page_ rid.slot_no with
  | none => rw [hb] at h; cases h
  | some b =>
    cases b with
    | false => rfl
    | true =>
      rw [hb] at h
      simp only at h
      cases hr : (s.pages rid.page_no).ReadSlot s.tab_hdr_.rec_per_page_ rid.slot_no with
      | none => rw [hr] at h; cases h
      | some x =>
        rw [hr] at h
        simp at h

theorem UpdateRecord_miss (s s1 : TableHandle) (rid : RID) (record : Record)
    (h : s.UpdateRecord rid record = some (.error .NJUDB_RECORD_MISS, s1)) : s.vacant rid := by
  unfold UpdateRecord at h
  simp only [FetchPageHandle_pages, FetchPageHandle_hdr] at h
  unfold vacant
  cases hb : (s.pages rid.page_no).GetBit s.tab_hdr_.rec_per_page_ rid.slot_no with
  | none => rw [hb] at h; cases h
  | some b =>
    cases b with
    | false => rfl
    | true =>
      rw [hb] at h
      simp only at h
      cases hr : (s.pages rid.page_no).WriteSlot s.tab_hdr_.rec_per_page_ rid.slot_no
          record.nullmap record.data with
      | none => rw [hr] at h; cases h
      | some x =>
        rw [hr] at h
        simp at h

theorem DeleteRecord_miss (s s1 : TableHandle) (rid : RID)
    (h : s.DeleteRecord rid = some (.error .NJUDB_RECORD_MISS, s1)) : s.vacant rid := by
  unfold DeleteRecord at h
  simp only [FetchPageHandle_pages, FetchPageHandle_hdr] at h
  unfold vacant
  cases hb : (s.pages rid.page_no).GetBit s.tab_hdr_.rec_per_page_ rid.slot_no with
  | none => rw [hb] at h; cases h
  | some b =>
    cases b with
    | false => rfl
    | true =>
      rw [hb] at h
      simp only at h
      cases hr : (s.pages rid.page_no).SetBit s.tab_hdr_.rec_per_page_ rid.slot_no false with
      | none => rw [hr] at h; cases h
      | some x =>
        rw [hr] at h
        simp at h

/-- C14: `GetRecord`, `UpdateRecord` and `DeleteRecord` fail with
`NJUDB_RECORD_MISS` exactly when the bitmap bit of the slot of `rid` is 0, and
the state after the failure is the state before the call: bitmaps, record
counts, slots, table header, pin counts and dirty flags. -/
theorem C14_RECORD_MISS_iff_bit_clear (s : TableHandle) (rid : RID) (record : Record) :
    ((∃ s1, s.GetRecord rid = some (.error .NJUDB_RECORD_MISS, s1)) ↔ s.vacant rid) ∧
    ((∃ s1, s.UpdateRecord rid record = some (.error .NJUDB_RECORD_MISS, s1)) ↔
      s.vacant rid) ∧
    ((∃ s1, s.DeleteRecord rid = some (.error .NJUDB_RECORD_MISS, s1)) ↔ s.vacant rid) ∧
    (∀ s1, s.GetRecord rid = some (.error .NJUDB_RECORD_MISS, s1) → s1 = s) ∧
    (∀ s1, s.UpdateRecord rid record = some (.error .NJUDB_RECORD_MISS, s1) → s1 = s) ∧
    (∀ s1, s.DeleteRecord rid = some (.error .NJUDB_RECORD_MISS, s1) → s1 = s) := by
  refine ⟨⟨fun ⟨s1, h⟩ => GetRecord_miss s s1 rid h, fun h => ⟨s, GetRecord_vacant s rid h⟩⟩,
    ⟨fun ⟨s1, h⟩ => UpdateRecord_miss s s1 rid record h,
      fun h => ⟨s, UpdateRecord_vacant s rid record h⟩⟩,
    ⟨fun ⟨s1, h⟩ => DeleteRecord_miss s s1 rid h, fun h => ⟨s, DeleteRecord_vacant s rid h⟩⟩,
    ?_, ?_, ?_⟩
  · intro s1 h
    have h2 := GetRecord_vacant s rid (GetRecord_miss s s1 rid h)
    rw [h] at h2
    simp only [Option.some.injEq, Prod.mk.injEq, true_and] at h2
    exact h2
  · intro s1 h
    have h2 := UpdateRecord_vacant s rid record (UpdateRecord_miss s s1 rid record h)
    rw [h] at h2
    simp only [Option.some.injEq, Prod.mk.injEq, true_and] at h2
    exact h2
  · intro s1 h
    have h2 := DeleteRecord_vacant s rid (DeleteRecord_miss s s1 rid h)
    rw [h] at h2
    simp only [Option.some.injEq, Prod.mk.injEq, true_and] at h2
    exact h2

end TableHandle
namespace TableHandle

/-- C14, on a fresh table and on a table with records: a call on the empty
slot `(1, 0)` fails with `NJUDB_RECORD_MISS`, and `GetRecord` on the occupied
slot `(1, 0)` of `fullHead` does not. -/
theorem C14_RECORD_MISS_iff_bit_clear_witness :
    (∃ s1, (create 2).DeleteRecord ⟨1, 0⟩ = some (.error .NJUDB_RECORD_MISS, s1)) ∧
    ¬ (∃ s1, fullHead.GetRecord ⟨1, 0⟩ = some (.error .NJUDB_RECORD_MISS, s1)) :=
  ⟨(C14_RECORD_MISS_iff_bit_clear (create 2) ⟨1, 0⟩ (recOf 1)).2.2.1.2
      (by unfold vacant; decide),
   fun h => absurd ((C14_RECORD_MISS_iff_bit_clear fullHead ⟨1, 0⟩ (recOf 1)).1.1 h)
      (by unfold vacant; decide)⟩

/-! ## Table heap: record counts -/

theorem toSizeT_of_range (x : Int) (h0 : 0 ≤ x) (h1 : x < 2 ^ 64) : toSizeT x = x.toNat := by
  unfold toSizeT
  rw [Int.emod_eq_of_lt h0 h1]

theorem toSizeT_pred (n : Nat) (h0 : 0 < n) (h1 : n < 2 ^ 64) :
    toSizeT ((n : Int) - 1) = n - 1 := by
  rw [toSizeT_of_range _ (by omega) (by omega)]
  omega

theorem popcount_le (b : Nat → Bool) (n : Nat) : popcount b n ≤ n := by
  unfold popcount
  have := List.countP_le_length (fun i => b i) (l := List.range n)
  simpa using this

theorem popcount_pos (b : Nat → Bool) (n i : Nat) (hi : i < n) (hb : b i = true) :
    0 < popcount b n := by
  unfold popcount
  rw [List.countP_pos_iff]
  exact ⟨i, List.mem_range.2 hi, hb⟩

theorem popcount_lt (b : Nat → Bool) (n i : Nat) (hi : i < n) (hb : b i = false) :
    popcount b n < n := by
  unfold popcount
  have h1 := List.countP_le_length (fun i => b i) (l := List.range n)
  rw [List.length_range] at h1
  rcases Nat.lt_or_eq_of_le h1 with h | h
  · exact h
  · exfalso
    have h2 : List.countP (fun i => b i) (List.range n) = (List.range n).length := by
      rw [List.length_range]; exact h
    rw [List.countP_eq_length] at h2
    have := h2 i (List.mem_range.2 hi)
    rw [hb] at this
    cases this

theorem popcount_update (b : Nat → Bool) (n i : Nat) (hi : i < n) (v : Bool) :
    popcount (Function.update b i v) n + (if b i then 1 else 0) =
      popcount b n + (if v then 1 else 0) := by
  unfold popcount
  induction n with
  | zero => omega
  | succ m ih =>
    rw [List.range_succ, List.countP_append, List.countP_append]
    simp only [List.countP_cons, List.countP_nil, Nat.zero_add]
    by_cases him : i = m
    · subst him
      have hsame : List.countP (fun j => Function.update b i v j) (List.range i) =
          List.countP (fun j => b j) (List.range i) := by
        apply List.countP_congr
        intro x hx
        have : x ≠ i := by
          have := List.mem_range.1 hx
          omega
        simp [Function.update_noteq this]
      rw [hsame]
      simp only [Function.update_same]
      omega
    · have hlt : i < m := by omega
      have := ih hlt
      have hm : Function.update b i v m = b m := Function.update_noteq (Ne.symm him) _ _
      rw [hm]
      omega

/-! ## Table heap: `DeleteRecord` -/

theorem occupied_range (s : TableHandle) (rid : RID) (h : s.occupied rid) :
    0 ≤ rid.slot_no ∧ rid.slot_no < s.tab_hdr_.rec_per_page_ ∧
      (s.pages rid.page_no).bitmap rid.slot_no.toNat = true :=
  GetBit_eq_some _ _ _ _ h

theorem vacant_range (s : TableHandle) (rid : RID) (h : s.vacant rid) :
    0 ≤ rid.slot_no ∧ rid.slot_no < s.tab_hdr_.rec_per_page_ ∧
      (s.pages rid.page_no).bitmap rid.slot_no.toNat = false :=
  GetBit_eq_some _ _ _ _ h

theorem Counted_occupied (s : TableHandle) (hc : s.Counted) (rid : RID) (h : s.occupied rid) :
    0 < (s.pages rid.page_no).record_num_ ∧
      (s.pages rid.page_no).record_num_ ≤ s.tab_hdr_.rec_per_page_ := by
  obtain ⟨h0, h1, hb⟩ := occupied_range s rid h
  rw [hc.count]
  exact ⟨popcount_pos _ _ rid.slot_no.toNat (by omega) hb, popcount_le _ _⟩

theorem Counted_vacant (s : TableHandle) (hc : s.Counted) (rid : RID) (h : s.vacant rid) :
    (s.pages rid.page_no).record_num_ < s.tab_hdr_.rec_per_page_ := by
  obtain ⟨h0, h1, hb⟩ := vacant_range s rid h
  rw [hc.count]
  exact popcount_lt _ _ rid.slot_no.toNat (by omega) hb

theorem setPage_pages_same (s : TableHandle) (p : Int) (pg : TablePage) :
    (s.setPage p pg).pages p = pg := by
  unfold setPage
  simp only [Function.update_same]

theorem setPage_pages_ne (s : TableHandle) (p q : Int) (pg : TablePage) (h : q ≠ p) :
    (s.setPage p pg).pages q = s.pages q := by
  unfold setPage
  simp only [Function.update_noteq h]

@[simp] theorem setPage_hdr (s : TableHandle) (p : Int) (pg : TablePage) :
    (s.setPage p pg).tab_hdr_ = s.tab_hdr_ := rfl

@[simp] theorem setPage_pin_count (s : TableHandle) (p : Int) (pg : TablePage) :
    (s.setPage p pg).pin_count = s.pin_count := rfl

@[simp] theorem setFirstFree_pages (s : TableHandle) (p : Int) :
    (s.setFirstFree p).pages = s.pages := rfl

@[simp] theorem setFirstFree_pin_count (s : TableHandle) (p : Int) :
    (s.setFirstFree p).pin_count = s.pin_count := rfl

/-- What `DeleteRecord` does on an occupied slot. -/
theorem DeleteRecord_occupied (s : TableHandle) (rid : RID) (hc : s.Counted)
    (ho : s.occupied rid) :
    ∃ s1, s.DeleteRecord rid = some (.ok (), s1) ∧
      (s1.pages rid.page_no).bitmap =
        Function.update (s.pages rid.page_no).bitmap rid.slot_no.toNat false ∧
      (s1.pages rid.page_no).slots = (s.pages rid.page_no).slots ∧
      (∀ p, p ≠ rid.page_no → s1.pages p = s.pages p) ∧
      (s1.pages rid.page_no).record_num_ + 1 = (s.pages rid.page_no).record_num_ ∧
      s1.GetRecord rid = some (.error .NJUDB_RECORD_MISS, s1) ∧
      s1.tab_hdr_.page_num_ = s.tab_hdr_.page_num_ ∧
      s1.tab_hdr_.rec_per_page_ = s.tab_hdr_.rec_per_page_ ∧
      s1.pin_count = s.pin_count ∧
      ((s.pages rid.page_no).record_num_ = s.tab_hdr_.rec_per_page_ →
        s1.tab_hdr_.first_free_page_ = rid.page_no ∧
        (s1.pages rid.page_no).next_free_page_id_ = s.tab_hdr_.first_free_page_) ∧
      ((s.pages rid.page_no).record_num_ ≠ s.tab_hdr_.rec_per_page_ →
        s1.tab_hdr_.first_free_page_ = s.tab_hdr_.first_free_page_ ∧
        ∀ p, (s1.pages p).next_free_page_id_ = (s.pages p).next_free_page_id_) := by
  obtain ⟨h0, h1, hb⟩ := occupied_range s rid ho
  obtain ⟨hpos, hle⟩ := Counted_occupied s hc rid ho
  have hfit := hc.fits
  have hn : 0 < s.tab_hdr_.rec_per_page_ := by omega
  have e1 : toSizeT (((s.pages rid.page_no).record_num_ : Int) - 1) =
      (s.pages rid.page_no).record_num_ - 1 := toSizeT_pred _ hpos (by omega)
  have e2 : toSizeT ((s.tab_hdr_.rec_per_page_ : Int) - 1) = s.tab_hdr_.rec_per_page_ - 1 :=
    toSizeT_pred _ hn hfit
  unfold occupied at ho
  unfold DeleteRecord
  simp only [FetchPageHandle_pages, FetchPageHandle_hdr, ho, SetBit_of_range _ _ _ _ h0 h1,
    e1, e2, setPage_hdr]
  refine ⟨_, rfl, ?_⟩
  have hvac : ∀ t : TableHandle, t.tab_hdr_.rec_per_page_ = s.tab_hdr_.rec_per_page_ →
      (t.pages rid.page_no).bitmap =
        Function.update (s.pages rid.page_no).bitmap rid.slot_no.toNat false →
      t.GetRecord rid = some (.error .NJUDB_RECORD_MISS, t) := by
    intro t ht1 ht2
    apply GetRecord_vacant
    unfold vacant
    rw [ht1, GetBit_of_range _ _ _ h0 h1, ht2, Function.update_same]
  by_cases hfull : (s.pages rid.page_no).record_num_ = s.tab_hdr_.rec_per_page_
  · have hcond : (s.pages rid.page_no).record_num_ - 1 = s.tab_hdr_.rec_per_page_ - 1 := by
      rw [hfull]
    rw [if_pos hcond]
    refine ⟨?_, ?_, ?_, ?_, ?_, ?_, ?_, ?_, ?_, ?_⟩
    · simp only [UnpinPage_pages, setFirstFree_pages, setPage_pages_same]
    · simp only [UnpinPage_pages, setFirstFree_pages, setPage_pages_same]
    · intro p hp
      rw [UnpinPage_pages, setFirstFree_pages, setPage_pages_ne _ _ _ _ hp,
        setPage_pages_ne _ _ _ _ hp, FetchPageHandle_pages]
    · simp only [UnpinPage_pages, setFirstFree_pages, setPage_pages_same]
      show (s.pages rid.page_no).record_num_ - 1 + 1 = _
      omega
    · apply hvac
      · rw [UnpinPage_hdr]; rfl
      · simp only [UnpinPage_pages, setFirstFree_pages, setPage_pages_same]
    · rw [UnpinPage_hdr]; rfl
    · rw [UnpinPage_hdr]; rfl
    · exact UnpinPage_pin_count s _ _ _ rfl
    · intro _
      rw [UnpinPage_hdr, UnpinPage_pages, setFirstFree_pages, setPage_pages_same]
      exact ⟨rfl, rfl⟩
    · intro h
      exact absurd hfull h
  · have hcond : ¬ ((s.pages rid.page_no).record_num_ - 1 = s.tab_hdr_.rec_per_page_ - 1) := by
      omega
    rw [if_neg hcond]
    refine ⟨?_, ?_, ?_, ?_, ?_, ?_, ?_, ?_, ?_, ?_⟩
    · rw [UnpinPage_pages, setPage_pages_same]
    · rw [UnpinPage_pages, setPage_pages_same]
    · intro p hp
      rw [UnpinPage_pages, setPage_pages_ne _ _ _ _ hp, FetchPageHandle_pages]
    · rw [UnpinPage_pages, setPage_pages_same]
      show (s.pages rid.page_no).record_num_ - 1 + 1 = _
      omega
    · apply hvac
      · rw [UnpinPage_hdr]; rfl
      · rw [UnpinPage_pages, setPage_pages_same]
    · rw [UnpinPage_hdr]; rfl
    · rw [UnpinPage_hdr]; rfl
    · exact UnpinPage_pin_count s _ _ _ rfl
    · intro h
      exact absurd h hfull
    · intro _
      rw [UnpinPage_hdr]
      refine ⟨rfl, ?_⟩
      intro p
      rw [UnpinPage_pages]
      by_cases hp : p = rid.page_no
      · rw [hp, setPage_pages_same]
      · rw [setPage_pages_ne _ _ _ _ hp, FetchPageHandle_pages]

end TableHandle

/-! ## Bitmap search -/

theorem find_range_spec (p : Nat → Bool) (k : Nat) : ∀ st : Nat,
    (∀ i, (List.range' st k).find? p = some i →
      st ≤ i ∧ i < st + k ∧ p i = true ∧ ∀ j, st ≤ j → j < i → p j = false) ∧
    ((List.range' st k).find? p = none → ∀ j, st ≤ j → j < st + k → p j = false) := by
  induction k with
  | zero =>
    intro st
    refine ⟨fun i h => ?_, fun _ j h1 h2 => ?_⟩
    · simp at h
    · omega
  | succ k ih =>
    intro st
    obtain ⟨ih1, ih2⟩ := ih (st + 1)
    have hr : List.range' st (k + 1) = st :: List.range' (st + 1) k := rfl
    rw [hr, List.find?_cons]
    cases hp : p st with
    | true =>
      refine ⟨fun i h => ?_, fun h => ?_⟩
      · simp only [Option.some.injEq] at h
        subst h
        exact ⟨le_refl _, by omega, hp, fun j h1 h2 => by omega⟩
      · cases h
    | false =>
      refine ⟨fun i h => ?_, fun h j h1 h2 => ?_⟩
      · obtain ⟨a, b, c, d⟩ := ih1 i h
        refine ⟨by omega, by omega, c, fun j h1 h2 => ?_⟩
        by_cases hj : j = st
        · rw [hj]; exact hp
        · exact d j (by omega) h2
      · by_cases hj : j = st
        · rw [hj]; exact hp
        · exact ih2 h j (by omega) (by omega)

namespace BitMap

theorem FindFirst_some (b : Nat → Bool) (n st : Nat) (v : Bool) (i : Nat)
    (hf : (List.range' st (n - st)).find? (fun i => b i == v) = some i) :
    FindFirst b n st v = i := by
  unfold FindFirst
  rw [hf]

theorem FindFirst_none (b : Nat → Bool) (n st : Nat) (v : Bool)
    (hf : (List.range' st (n - st)).find? (fun i => b i == v) = none) :
    FindFirst b n st v = n := by
  unfold FindFirst
  rw [hf]

theorem FindFirst_le (b : Nat → Bool) (n st : Nat) (v : Bool) (h : st ≤ n) :
    FindFirst b n st v ≤ n := by
  cases hf : (List.range' st (n - st)).find? (fun i => b i == v) with
  | none => rw [FindFirst_none b n st v hf]
  | some i =>
    have := ((find_range_spec (fun i => b i == v) (n - st) st).1 i hf).2.1
    rw [FindFirst_some b n st v i hf]
    omega

theorem FindFirst_lt (b : Nat → Bool) (n st : Nat) (v : Bool)
    (h : FindFirst b n st v < n) :
    st ≤ FindFirst b n st v ∧ b (FindFirst b n st v) = v ∧
      ∀ j, st ≤ j → j < FindFirst b n st v → b j ≠ v := by
  cases hf : (List.range' st (n - st)).find? (fun i => b i == v) with
  | none => rw [FindFirst_none b n st v hf] at h; omega
  | some i =>
    obtain ⟨h1, h2, h3, h4⟩ := (find_range_spec (fun i => b i == v) (n - st) st).1 i hf
    rw [FindFirst_some b n st v i hf]
    refine ⟨h1, by simpa using h3, fun j hj1 hj2 => ?_⟩
    have := h4 j hj1 hj2
    simpa using this

theorem FindFirst_eq (b : Nat → Bool) (n st : Nat) (v : Bool)
    (h : ¬ FindFirst b n st v < n) :
    FindFirst b n st v = n ∧ ∀ j, st ≤ j → j < n → b j ≠ v := by
  cases hf : (List.range' st (n - st)).find? (fun i => b i == v) with
  | none =>
    refine ⟨FindFirst_none b n st v hf, fun j h1 h2 => ?_⟩
    have := (find_range_spec (fun i => b i == v) (n - st) st).2 hf j h1 (by omega)
    simpa using this
  | some i =>
    rw [FindFirst_some b n st v i hf] at h
    obtain ⟨h1, h2, -, -⟩ := (find_range_spec (fun i => b i == v) (n - st) st).1 i hf
    omega

theorem FindFirst_of_exists (b : Nat → Bool) (n st : Nat) (v : Bool) (i : Nat)
    (h1 : st ≤ i) (h2 : i < n) (h3 : b i = v) : FindFirst b n st v < n := by
  by_contra h
  exact (FindFirst_eq b n st v h).2 i h1 h2 h3

end BitMap

namespace TableHandle

/-! ## Table heap: `InsertRecord` -/

/-- The page `InsertRecord` takes and the state it is handed in. -/
theorem CreatePageHandle_spec (s : TableHandle) :
    (s.CreatePageHandle).2.tab_hdr_.rec_per_page_ = s.tab_hdr_.rec_per_page_ ∧
    (s.CreatePageHandle).2.tab_hdr_.first_free_page_ = (s.CreatePageHandle).1 ∧
    ((s.CreatePageHandle).2.pages (s.CreatePageHandle).1).bitmap =
      (s.pages (s.CreatePageHandle).1).bitmap ∧
    ((s.CreatePageHandle).2.pages (s.CreatePageHandle).1).slots =
      (s.pages (s.CreatePageHandle).1).slots ∧
    ((s.CreatePageHandle).2.pages (s.CreatePageHandle).1).record_num_ =
      (s.pages (s.CreatePageHandle).1).record_num_ ∧
    (∀ p, p ≠ (s.CreatePageHandle).1 → (s.CreatePageHandle).2.pages p = s.pages p) ∧
    (s.CreatePageHandle).2.pin_count = (s.FetchPageHandle (s.CreatePageHandle).1).pin_count ∧
    (s.tab_hdr_.first_free_page_ = INVALID_PAGE_ID →
      (s.CreatePageHandle).1 = (s.tab_hdr_.page_num_ : Int) ∧
      (s.CreatePageHandle).2.tab_hdr_.page_num_ = (s.tab_hdr_.page_num_ + 1) % 2 ^ 64 ∧
      ((s.CreatePageHandle).2.pages (s.CreatePageHandle).1).next_free_page_id_ =
        INVALID_PAGE_ID) ∧
    (s.tab_hdr_.first_free_page_ ≠ INVALID_PAGE_ID →
      (s.CreatePageHandle).1 = s.tab_hdr_.first_free_page_ ∧
      (s.CreatePageHandle).2.tab_hdr_ = s.tab_hdr_ ∧
      (s.CreatePageHandle).2.pages = s.pages) := by
  unfold CreatePageHandle
  by_cases h : s.tab_hdr_.first_free_page_ = INVALID_PAGE_ID
  · rw [if_pos h]
    unfold CreateNewPageHandle
    refine ⟨rfl, rfl, ?_, ?_, ?_, ?_, rfl, ?_, ?_⟩
    · rw [setFirstFree_pages, setPage_pages_same]; rfl
    · rw [setFirstFree_pages, setPage_pages_same]; rfl
    · rw [setFirstFree_pages, setPage_pages_same]; rfl
    · intro p hp
      rw [setFirstFree_pages, setPage_pages_ne _ _ _ _ hp]
      rfl
    · intro _
      refine ⟨rfl, rfl, ?_⟩
      rw [setFirstFree_pages, setPage_pages_same]
      exact h
    · intro h2
      exact absurd h h2
  · rw [if_neg h]
    refine ⟨rfl, rfl, rfl, rfl, rfl, fun _ _ => rfl, rfl, fun h2 => absurd h2 h,
      fun _ => ⟨rfl, rfl, rfl⟩⟩

/-- What a call of `InsertRecord` that returns has done. -/
theorem InsertRecord_some (s : TableHandle) (record : Record) (rid : RID) (s2 : TableHandle)
    (h : s.InsertRecord record = some (rid, s2)) :
    rid.page_no = (s.CreatePageHandle).1 ∧
    rid.slot_no = ((BitMap.FindFirst (s.pages rid.page_no).bitmap
      s.tab_hdr_.rec_per_page_ 0 false : Nat) : Int) ∧
    BitMap.FindFirst (s.pages rid.page_no).bitmap s.tab_hdr_.rec_per_page_ 0 false <
      s.tab_hdr_.rec_per_page_ ∧
    (s2.pages rid.page_no).bitmap =
      Function.update (s.pages rid.page_no).bitmap rid.slot_no.toNat true ∧
    (s2.pages rid.page_no).slots =
      Function.update (s.pages rid.page_no).slots rid.slot_no.toNat
        (record.nullmap, record.data) ∧
    (s2.pages rid.page_no).record_num_ = ((s.pages rid.page_no).record_num_ + 1) % 2 ^ 64 ∧
    (∀ p, p ≠ rid.page_no → s2.pages p = s.pages p) ∧
    s2.tab_hdr_.rec_per_page_ = s.tab_hdr_.rec_per_page_ ∧
    s2.pin_count = s.pin_count := by
  obtain ⟨c1, c2, c3, c4, c5, c6, c7, c8, c9⟩ := CreatePageHandle_spec s
  unfold InsertRecord at h
  cases hcp : s.CreatePageHandle with
  | mk pid s1 =>
    rw [hcp] at h c1 c2 c3 c4 c5 c6 c7
    simp only at h c1 c2 c3 c4 c5 c6 c7
    rw [c1, c3] at h
    by_cases hlt : BitMap.FindFirst (s.pages pid).bitmap s.tab_hdr_.rec_per_page_ 0 false <
        s.tab_hdr_.rec_per_page_
    · have h0 : (0 : Int) ≤ ((BitMap.FindFirst (s.pages pid).bitmap
          s.tab_hdr_.rec_per_page_ 0 false : Nat) : Int) := Int.natCast_nonneg _
      have h1 : ((BitMap.FindFirst (s.pages pid).bitmap
          s.tab_hdr_.rec_per_page_ 0 false : Nat) : Int) < s.tab_hdr_.rec_per_page_ := by
        exact_mod_cast hlt
      rw [WriteSlot_of_range _ _ _ _ _ h0 h1] at h
      simp only [SetBit_of_range _ _ _ _ h0 h1, Int.toNat_ofNat, Option.some.injEq,
        Prod.mk.injEq] at h
      obtain ⟨hrid, hs2⟩ := h
      subst hrid
      refine ⟨rfl, rfl, hlt, ?_, ?_, ?_, ?_, ?_, ?_⟩
      · rw [← hs2, UnpinPage_pages]
        show _ = Function.update (s.pages pid).bitmap
          (BitMap.FindFirst (s.pages pid).bitmap s.tab_hdr_.rec_per_page_ 0 false) true
        split
        · rw [setPage_pages_same, c3]
        · rw [setPage_pages_same, c3]
      · rw [← hs2, UnpinPage_pages]
        show _ = Function.update (s.pages pid).slots
          (BitMap.FindFirst (s.pages pid).bitmap s.tab_hdr_.rec_per_page_ 0 false) _
        split
        · rw [setPage_pages_same, c4]
        · rw [setPage_pages_same, c4]
      · rw [← hs2, UnpinPage_pages]
        split
        · rw [setPage_pages_same, c5]
        · rw [setPage_pages_same, c5]
      · intro p hp
        rw [← hs2, UnpinPage_pages]
        split
        · rw [setPage_pages_ne _ _ _ _ hp, setFirstFree_pages, setPage_pages_ne _ _ _ _ hp]
          exact c6 p hp
        · rw [setPage_pages_ne _ _ _ _ hp]
          exact c6 p hp
      · rw [← hs2, UnpinPage_hdr]
        split
        · exact c1
        · exact c1
      · rw [← hs2]
        apply UnpinPage_pin_count
        split
        · exact c7
        · exact c7
    · exfalso
      have hr : ¬ ((0 : Int) ≤ ((BitMap.FindFirst (s.pages pid).bitmap
          s.tab_hdr_.rec_per_page_ 0 false : Nat) : Int) ∧
          ((BitMap.FindFirst (s.pages pid).bitmap
          s.tab_hdr_.rec_per_page_ 0 false : Nat) : Int) < s.tab_hdr_.rec_per_page_) := by
        intro hh
        exact hlt (by exact_mod_cast hh.2)
      unfold TablePage.WriteSlot at h
      rw [if_neg hr] at h
      cases h

end TableHandle
namespace TableHandle

theorem InsertRecord_defined (s : TableHandle) (record : Record)
    (hlt : BitMap.FindFirst (s.pages (s.CreatePageHandle).1).bitmap
      s.tab_hdr_.rec_per_page_ 0 false < s.tab_hdr_.rec_per_page_) :
    ∃ rid s2, s.InsertRecord record = some (rid, s2) := by
  obtain ⟨c1, -, c3, -⟩ := CreatePageHandle_spec s
  unfold InsertRecord
  cases hcp : s.CreatePageHandle with
  | mk pid s1 =>
    rw [hcp] at hlt c1 c3
    simp only at hlt c1 c3 ⊢
    rw [c1, c3]
    have h0 : (0 : Int) ≤ ((BitMap.FindFirst (s.pages pid).bitmap
        s.tab_hdr_.rec_per_page_ 0 false : Nat) : Int) := Int.natCast_nonneg _
    have h1 : ((BitMap.FindFirst (s.pages pid).bitmap
        s.tab_hdr_.rec_per_page_ 0 false : Nat) : Int) < s.tab_hdr_.rec_per_page_ := by
      exact_mod_cast hlt
    rw [WriteSlot_of_range _ _ _ _ _ h0 h1]
    simp only [SetBit_of_range _ _ _ _ h0 h1]
    exact ⟨_, _, rfl⟩

theorem GetRecord_occupied (s : TableHandle) (rid : RID) (h : s.occupied rid) :
    s.GetRecord rid =
      some (.ok { nullmap := ((s.pages rid.page_no).slots rid.slot_no.toNat).1,
                  data := ((s.pages rid.page_no).slots rid.slot_no.toNat).2,
                  rid := rid }, s) := by
  obtain ⟨h0, h1, -⟩ := occupied_range s rid h
  unfold occupied at h
  unfold GetRecord
  simp only [FetchPageHandle_pages, FetchPageHandle_hdr, h, ReadSlot_of_range _ _ _ h0 h1,
    UnpinPage_FetchPageHandle]

/-! ## Table heap: the second form of `InsertRecord` -/

theorem InsertRecordAt_invalid (s : TableHandle) (rid : RID) (record : Record)
    (h : rid.page_no = INVALID_PAGE_ID) :
    s.InsertRecordAt rid record = some (.error .NJUDB_PAGE_MISS, s) := by
  unfold InsertRecordAt
  rw [if_pos h]

theorem InsertRecordAt_occupied (s : TableHandle) (rid : RID) (record : Record)
    (h : rid.page_no ≠ INVALID_PAGE_ID) (ho : s.occupied rid) :
    s.InsertRecordAt rid record = some (.error .NJUDB_RECORD_EXISTS, s) := by
  unfold occupied at ho
  unfold InsertRecordAt
  rw [if_neg h]
  simp only [FetchPageHandle_pages, FetchPageHandle_hdr, ho, UnpinPage_FetchPageHandle]

/-- What the second form of `InsertRecord` does on an empty slot. -/
theorem InsertRecordAt_vacant (s : TableHandle) (rid : RID) (record : Record)
    (h : rid.page_no ≠ INVALID_PAGE_ID) (hv : s.vacant rid) :
    ∃ s1, s.InsertRecordAt rid record = some (.ok (), s1) ∧
      (s1.pages rid.page_no).bitmap =
        Function.update (s.pages rid.page_no).bitmap rid.slot_no.toNat true ∧
      (s1.pages rid.page_no).slots =
        Function.update (s.pages rid.page_no).slots rid.slot_no.toNat
          (record.nullmap, record.data) ∧
      (s1.pages rid.page_no).record_num_ =
        ((s.pages rid.page_no).record_num_ + 1) % 2 ^ 64 ∧
      (∀ p, p ≠ rid.page_no → s1.pages p = s.pages p) ∧
      s1.tab_hdr_.page_num_ = s.tab_hdr_.page_num_ ∧
      s1.tab_hdr_.rec_per_page_ = s.tab_hdr_.rec_per_page_ ∧
      s1.pin_count = s.pin_count ∧
      ((s1.pages rid.page_no).record_num_ = s.tab_hdr_.rec_per_page_ ∧
          s.tab_hdr_.first_free_page_ = rid.page_no →
        s1.tab_hdr_.first_free_page_ = (s.pages rid.page_no).next_free_page_id_ ∧
        (s1.pages rid.page_no).next_free_page_id_ = INVALID_PAGE_ID) ∧
      (¬ ((s1.pages rid.page_no).record_num_ = s.tab_hdr_.rec_per_page_ ∧
          s.tab_hdr_.first_free_page_ = rid.page_no) →
        s1.tab_hdr_.first_free_page_ = s.tab_hdr_.first_free_page_ ∧
        ∀ p, (s1.pages p).next_free_page_id_ = (s.pages p).next_free_page_id_) := by
  obtain ⟨h0, h1, hb⟩ := vacant_range s rid hv
  unfold vacant at hv
  unfold InsertRecordAt
  rw [if_neg h]
  simp only [FetchPageHandle_pages, FetchPageHandle_hdr, hv,
    WriteSlot_of_range _ _ _ _ _ h0 h1, SetBit_of_range _ _ _ _ h0 h1, setPage_hdr]
  refine ⟨_, rfl, ?_⟩
  by_cases hfull : ((s.pages rid.page_no).record_num_ + 1) % 2 ^ 64 = s.tab_hdr_.rec_per_page_ ∧
      s.tab_hdr_.first_free_page_ = rid.page_no
  · rw [if_pos hfull]
    have hp : ∀ t : TableHandle, (((t.setFirstFree (s.pages rid.page_no).next_free_page_id_).setPage
        rid.page_no
        { next_free_page_id_ := INVALID_PAGE_ID,
          record_num_ := ((s.pages rid.page_no).record_num_ + 1) % 2 ^ 64,
          bitmap := Function.update (s.pages rid.page_no).bitmap rid.slot_no.toNat true,
          slots := Function.update (s.pages rid.page_no).slots rid.slot_no.toNat
            (record.nullmap, record.data) }).UnpinPage rid.page_no true).pages rid.page_no =
        { next_free_page_id_ := INVALID_PAGE_ID,
          record_num_ := ((s.pages rid.page_no).record_num_ + 1) % 2 ^ 64,
          bitmap := Function.update (s.pages rid.page_no).bitmap rid.slot_no.toNat true,
          slots := Function.update (s.pages rid.page_no).slots rid.slot_no.toNat
            (record.nullmap, record.data) } := by
      intro t
      rw [UnpinPage_pages, setPage_pages_same]
    refine ⟨?_, ?_, ?_, ?_, ?_, ?_, ?_, ?_, ?_⟩
    · rw [hp]
    · rw [hp]
    · rw [hp]
    · intro p hpne
      rw [UnpinPage_pages, setPage_pages_ne _ _ _ _ hpne, setFirstFree_pages,
        setPage_pages_ne _ _ _ _ hpne, FetchPageHandle_pages]
    · rw [UnpinPage_hdr]; rfl
    · rw [UnpinPage_hdr]; rfl
    · exact UnpinPage_pin_count s _ _ _ rfl
    · intro _
      rw [hp, UnpinPage_hdr]
      exact ⟨rfl, rfl⟩
    · intro hn
      rw [hp] at hn
      exact absurd hfull hn
  · rw [if_neg hfull]
    have hp : ∀ t : TableHandle, ((t.setPage rid.page_no
        { next_free_page_id_ := (s.pages rid.page_no).next_free_page_id_,
          record_num_ := ((s.pages rid.page_no).record_num_ + 1) % 2 ^ 64,
          bitmap := Function.update (s.pages rid.page_no).bitmap rid.slot_no.toNat true,
          slots := Function.update (s.pages rid.page_no).slots rid.slot_no.toNat
            (record.nullmap, record.data) }).UnpinPage rid.page_no true).pages rid.page_no =
        { next_free_page_id_ := (s.pages rid.page_no).next_free_page_id_,
          record_num_ := ((s.pages rid.page_no).record_num_ + 1) % 2 ^ 64,
          bitmap := Function.update (s.pages rid.page_no).bitmap rid.slot_no.toNat true,
          slots := Function.update (s.pages rid.page_no).slots rid.slot_no.toNat
            (record.nullmap, record.data) } := by
      intro t
      rw [UnpinPage_pages, setPage_pages_same]
    refine ⟨?_, ?_, ?_, ?_, ?_, ?_, ?_, ?_, ?_⟩
    · rw [hp]
    · rw [hp]
    · rw [hp]
    · intro p hpne
      rw [UnpinPage_pages, setPage_pages_ne _ _ _ _ hpne, FetchPageHandle_pages]
    · rw [UnpinPage_hdr]; rfl
    · rw [UnpinPage_hdr]; rfl
    · exact UnpinPage_pin_count s _ _ _ rfl
    · intro hn
      rw [hp] at hn
      exact absurd hn hfull
    · intro _
      rw [UnpinPage_hdr]
      refine ⟨rfl, fun p => ?_⟩
      by_cases hpne : p = rid.page_no
      · rw [hpne, hp]
      · rw [UnpinPage_pages, setPage_pages_ne _ _ _ _ hpne, FetchPageHandle_pages]

end TableHandle
namespace TableHandle

/-! ## Table heap: `UpdateRecord` -/

theorem UpdateRecord_occupied (s : TableHandle) (rid : RID) (record : Record)
    (ho : s.occupied rid) :
    ∃ s1, s.UpdateRecord rid record = some (.ok (), s1) ∧
      (s1.pages rid.page_no).bitmap = (s.pages rid.page_no).bitmap ∧
      (s1.pages rid.page_no).slots =
        Function.update (s.pages rid.page_no).slots rid.slot_no.toNat
          (record.nullmap, record.data) ∧
      (s1.pages rid.page_no).record_num_ = (s.pages rid.page_no).record_num_ ∧
      (∀ p, p ≠ rid.page_no → s1.pages p = s.pages p) ∧
      s1.tab_hdr_ = s.tab_hdr_ ∧
      s1.pin_count = s.pin_count := by
  obtain ⟨h0, h1, hb⟩ := occupied_range s rid ho
  unfold occupied at ho
  unfold UpdateRecord
  simp only [FetchPageHandle_pages, FetchPageHandle_hdr, ho,
    WriteSlot_of_range _ _ _ _ _ h0 h1]
  refine ⟨_, rfl, ?_, ?_, ?_, ?_, ?_, ?_⟩
  · rw [UnpinPage_pages, setPage_pages_same]
  · rw [UnpinPage_pages, setPage_pages_same]
  · rw [UnpinPage_pages, setPage_pages_same]
  · intro p hp
    rw [UnpinPage_pages, setPage_pages_ne _ _ _ _ hp, FetchPageHandle_pages]
  · rw [UnpinPage_hdr]; rfl
  · exact UnpinPage_pin_count s _ _ _ rfl

/-! ## Table heap: the bit of a slot decides the course of a call -/

theorem bit_cases (s : TableHandle) (rid : RID) :
    (s.pages rid.page_no).GetBit s.tab_hdr_.rec_per_page_ rid.slot_no = none ∨
      s.vacant rid ∨ s.occupied rid := by
  unfold vacant occupied
  cases (s.pages rid.page_no).GetBit s.tab_hdr_.rec_per_page_ rid.slot_no with
  | none => exact Or.inl rfl
  | some b =>
    cases b with
    | false => exact Or.inr (Or.inl rfl)
    | true => exact Or.inr (Or.inr rfl)

theorem InsertRecordAt_undefined (s : TableHandle) (rid : RID) (record : Record)
    (h : rid.page_no ≠ INVALID_PAGE_ID)
    (hb : (s.pages rid.page_no).GetBit s.tab_hdr_.rec_per_page_ rid.slot_no = none) :
    s.InsertRecordAt rid record = none := by
  unfold InsertRecordAt
  rw [if_neg h]
  simp only [FetchPageHandle_pages, FetchPageHandle_hdr, hb]

theorem UpdateRecord_undefined (s : TableHandle) (rid : RID) (record : Record)
    (hb : (s.pages rid.page_no).GetBit s.tab_hdr_.rec_per_page_ rid.slot_no = none) :
    s.UpdateRecord rid record = none := by
  unfold UpdateRecord
  simp only [FetchPageHandle_pages, FetchPageHandle_hdr, hb]

theorem DeleteRecord_undefined (s : TableHandle) (rid : RID)
    (hb : (s.pages rid.page_no).GetBit s.tab_hdr_.rec_per_page_ rid.slot_no = none) :
    s.DeleteRecord rid = none := by
  unfold DeleteRecord
  simp only [FetchPageHandle_pages, FetchPageHandle_hdr, hb]

/-! ## Table heap: the record counts stay right -/

theorem Counted_create (n : Nat) (h : n < 2 ^ 64) : (create n).Counted := by
  refine ⟨h, fun p => ?_⟩
  show 0 = popcount (fun _ => false) n
  unfold popcount
  symm
  rw [List.countP_eq_zero]
  intro a _
  simp

theorem Counted_of_pages (s s1 : TableHandle) (hc : s.Counted) (pid : Int) (i : Nat) (v : Bool)
    (hi : i < s.tab_hdr_.rec_per_page_)
    (hn : s1.tab_hdr_.rec_per_page_ = s.tab_hdr_.rec_per_page_)
    (hb : (s1.pages pid).bitmap = Function.update (s.pages pid).bitmap i v)
    (hr : (s1.pages pid).record_num_ + (if (s.pages pid).bitmap i then 1 else 0) =
      (s.pages pid).record_num_ + (if v then 1 else 0))
    (ho : ∀ p, p ≠ pid → s1.pages p = s.pages p) : s1.Counted := by
  refine ⟨by rw [hn]; exact hc.fits, fun p => ?_⟩
  rw [hn]
  by_cases hp : p = pid
  · subst hp
    have h1 := popcount_update (s.pages p).bitmap _ i hi v
    have h2 := hc.count p
    rw [hb]
    omega
  · rw [ho p hp]
    exact hc.count p

theorem Counted_InsertRecord (s : TableHandle) (hc : s.Counted) (record : Record) (rid : RID)
    (s1 : TableHandle) (h : s.InsertRecord record = some (rid, s1)) : s1.Counted := by
  obtain ⟨-, h2, h3, h4, -, h6, h7, h8, -⟩ := InsertRecord_some s record rid s1 h
  obtain ⟨-, hb, -⟩ := BitMap.FindFirst_lt _ _ _ _ h3
  have hslot : rid.slot_no.toNat = BitMap.FindFirst (s.pages rid.page_no).bitmap
      s.tab_hdr_.rec_per_page_ 0 false := by
    rw [h2]; rfl
  rw [hslot] at h4
  apply Counted_of_pages s s1 hc rid.page_no _ true h3 h8 h4 _ h7
  rw [h6, hb]
  have := hc.count rid.page_no
  have := popcount_lt _ _ _ h3 hb
  have := hc.fits
  rw [Nat.mod_eq_of_lt (by omega)]
  simp

theorem Counted_InsertRecordAt (s : TableHandle) (hc : s.Counted) (rid : RID)
    (record : Record) (res : Except NJUDBException Unit) (s1 : TableHandle)
    (h : s.InsertRecordAt rid record = some (res, s1)) : s1.Counted := by
  by_cases hp : rid.page_no = INVALID_PAGE_ID
  · rw [InsertRecordAt_invalid s rid record hp] at h
    simp only [Option.some.injEq, Prod.mk.injEq] at h
    rw [← h.2]; exact hc
  · rcases bit_cases s rid with hb | hv | ho
    · rw [InsertRecordAt_undefined s rid record hp hb] at h; cases h
    · obtain ⟨s2, e, h1, -, h3, h4, -, h6, -⟩ := InsertRecordAt_vacant s rid record hp hv
      rw [e] at h
      simp only [Option.some.injEq, Prod.mk.injEq] at h
      rw [← h.2]
      obtain ⟨r0, r1, rb⟩ := vacant_range s rid hv
      have hlt : rid.slot_no.toNat < s.tab_hdr_.rec_per_page_ := by omega
      apply Counted_of_pages s s2 hc rid.page_no _ true hlt h6 h1 _ h4
      rw [h3, rb]
      have := hc.count rid.page_no
      have := popcount_lt _ _ _ hlt rb
      have := hc.fits
      rw [Nat.mod_eq_of_lt (by omega)]
      simp
    · rw [InsertRecordAt_occupied s rid record hp ho] at h
      simp only [Option.some.injEq, Prod.mk.injEq] at h
      rw [← h.2]; exact hc

theorem Counted_UpdateRecord (s : TableHandle) (hc : s.Counted) (rid : RID)
    (record : Record) (res : Except NJUDBException Unit) (s1 : TableHandle)
    (h : s.UpdateRecord rid record = some (res, s1)) : s1.Counted := by
  rcases bit_cases s rid with hb | hv | ho
  · rw [UpdateRecord_undefined s rid record hb] at h; cases h
  · rw [UpdateRecord_vacant s rid record hv] at h
    simp only [Option.some.injEq, Prod.mk.injEq] at h
    rw [← h.2]; exact hc
  · obtain ⟨s2, e, h1, -, h3, h4, h5, -⟩ := UpdateRecord_occupied s rid record ho
    rw [e] at h
    simp only [Option.some.injEq, Prod.mk.injEq] at h
    rw [← h.2]
    refine ⟨by rw [h5]; exact hc.fits, fun p => ?_⟩
    rw [h5]
    by_cases hp : p = rid.page_no
    · rw [hp, h1, h3]; exact hc.count _
    · rw [h4 p hp]; exact hc.count p

theorem Counted_DeleteRecord (s : TableHandle) (hc : s.Counted) (rid : RID)
    (res : Except NJUDBException Unit) (s1 : TableHandle)
    (h : s.DeleteRecord rid = some (res, s1)) : s1.Counted := by
  rcases bit_cases s rid with hb | hv | ho
  · rw [DeleteRecord_undefined s rid hb] at h; cases h
  · rw [DeleteRecord_vacant s rid hv] at h
    simp only [Option.some.injEq, Prod.mk.injEq] at h
    rw [← h.2]; exact hc
  · obtain ⟨s2, e, h1, -, h3, h4, -, -, h7, -⟩ := DeleteRecord_occupied s rid hc ho
    rw [e] at h
    simp only [Option.some.injEq, Prod.mk.injEq] at h
    rw [← h.2]
    obtain ⟨r0, r1, rb⟩ := occupied_range s rid ho
    have hlt : rid.slot_no.toNat < s.tab_hdr_.rec_per_page_ := by omega
    apply Counted_of_pages s s2 hc rid.page_no _ false hlt h7 h1 _ h3
    rw [rb]
    simp only [if_true, Bool.false_eq_true, if_false]
    omega


/-! ## Table heap: sequences of calls -/

theorem Counted_call (s : TableHandle) (hc : s.Counted) (c : Call)
    (w : Option (RID × Record)) (s1 : TableHandle) (h : s.call c = some (w, s1)) :
    s1.Counted := by
  cases c with
  | insert record =>
    simp only [call] at h
    cases hi : s.InsertRecord record with
    | none => rw [hi] at h; cases h
    | some x =>
      rw [hi] at h
      simp only [Option.map_some', Option.some.injEq, Prod.mk.injEq] at h
      rw [← h.2]
      exact Counted_InsertRecord s hc record x.1 x.2 hi
  | insertAt rid record =>
    simp only [call] at h
    cases hi : s.InsertRecordAt rid record with
    | none => rw [hi] at h; cases h
    | some x =>
      rw [hi] at h
      simp only [Option.map_some', Option.some.injEq, Prod.mk.injEq] at h
      rw [← h.2]
      exact Counted_InsertRecordAt s hc rid record x.1 x.2 hi
  | update rid record =>
    simp only [call] at h
    cases hi : s.UpdateRecord rid record with
    | none => rw [hi] at h; cases h
    | some x =>
      rw [hi] at h
      simp only [Option.map_some', Option.some.injEq, Prod.mk.injEq] at h
      rw [← h.2]
      exact Counted_UpdateRecord s hc rid record x.1 x.2 hi
  | delete rid =>
    simp only [call] at h
    cases hi : s.DeleteRecord rid with
    | none => rw [hi] at h; cases h
    | some x =>
      rw [hi] at h
      simp only [Option.map_some', Option.some.injEq, Prod.mk.injEq] at h
      rw [← h.2]
      exact Counted_DeleteRecord s hc rid x.1 x.2 hi

theorem Counted_run (calls : List Call) : ∀ (s : TableHandle), s.Counted →
    ∀ s1, s.run calls = some s1 → s1.Counted := by
  induction calls with
  | nil =>
    intro s hc s1 h
    simp only [run, Option.some.injEq] at h
    rw [← h]; exact hc
  | cons c cs ih =>
    intro s hc s1 h
    unfold run at h
    cases hcall : s.call c with
    | none => rw [hcall] at h; cases h
    | some x =>
      rw [hcall] at h
      exact ih x.2 (Counted_call s hc c x.1 x.2 hcall) s1 h

theorem run_getD (s d : TableHandle) (calls : List Call)
    (h : (s.run calls).isSome = true) : s.run calls = some ((s.run calls).getD d) := by
  cases hr : s.run calls with
  | none => rw [hr] at h; cases h
  | some x => rfl

theorem DeleteRecord_slots (s : TableHandle) (rid : RID) (res : Except NJUDBException Unit)
    (s1 : TableHandle) (h : s.DeleteRecord rid = some (res, s1)) :
    ∀ p, (s1.pages p).slots = (s.pages p).slots := by
  intro p
  rcases bit_cases s rid with hb | hv | ho
  · rw [DeleteRecord_undefined s rid hb] at h; cases h
  · rw [DeleteRecord_vacant s rid hv] at h
    simp only [Option.some.injEq, Prod.mk.injEq] at h
    rw [← h.2]
  · obtain ⟨h0, h1, -⟩ := occupied_range s rid ho
    unfold occupied at ho
    unfold DeleteRecord at h
    simp only [FetchPageHandle_pages, FetchPageHandle_hdr, ho,
      SetBit_of_range _ _ _ _ h0 h1, setPage_hdr, Option.some.injEq, Prod.mk.injEq] at h
    rw [← h.2, UnpinPage_pages]
    by_cases hp : p = rid.page_no
    · subst hp
      split
      · rw [setFirstFree_pages, setPage_pages_same]
      · rw [setPage_pages_same]
    · split
      · rw [setFirstFree_pages, setPage_pages_ne _ _ _ _ hp, setPage_pages_ne _ _ _ _ hp,
          FetchPageHandle_pages]
      · rw [setPage_pages_ne _ _ _ _ hp, FetchPageHandle_pages]

/-- The slots after a call: the slot the call wrote holds the record, every
other slot is as it was. -/
theorem call_slots (s : TableHandle) (c : Call) (w : Option (RID × Record))
    (s1 : TableHandle) (h : s.call c = some (w, s1)) (rid : RID) (hr : 0 ≤ rid.slot_no) :
    (∀ record, w = some (rid, record) →
      (s1.pages rid.page_no).slots rid.slot_no.toNat = (record.nullmap, record.data)) ∧
    ((∀ record, w ≠ some (rid, record)) →
      (s1.pages rid.page_no).slots rid.slot_no.toNat =
        (s.pages rid.page_no).slots rid.slot_no.toNat) := by
  have key : ∀ (rid1 : RID) (record1 : Record) (t : TableHandle), 0 ≤ rid1.slot_no →
      (t.pages rid1.page_no).slots =
        Function.update (s.pages rid1.page_no).slots rid1.slot_no.toNat
          (record1.nullmap, record1.data) →
      (∀ p, p ≠ rid1.page_no → t.pages p = s.pages p) →
      (∀ record, some (rid1, record1) = some (rid, record) →
        (t.pages rid.page_no).slots rid.slot_no.toNat = (record.nullmap, record.data)) ∧
      ((∀ record, some (rid1, record1) ≠ some (rid, record)) →
        (t.pages rid.page_no).slots rid.slot_no.toNat =
          (s.pages rid.page_no).slots rid.slot_no.toNat) := by
    intro rid1 record1 t h0 hs ho
    refine ⟨fun record e => ?_, fun hne => ?_⟩
    · simp only [Option.some.injEq, Prod.mk.injEq] at e
      obtain ⟨e1, e2⟩ := e
      subst e1
      subst e2
      rw [hs, Function.update_same]
    · have hne1 : rid1 ≠ rid := fun e => hne record1 (by rw [e])
      by_cases hp : rid.page_no = rid1.page_no
      · rw [hp, hs, Function.update_noteq]
        intro e
        apply hne1
        have : rid.slot_no = rid1.slot_no := by
          have := congrArg (fun (x : Nat) => (x : Int)) e
          simp only [Int.toNat_of_nonneg hr, Int.toNat_of_nonneg h0] at this
          exact this
        cases rid
        cases rid1
        simp only at hp this
        rw [hp, this]
      · rw [ho _ hp]
  have same : ∀ t : TableHandle, t = s →
      (∀ record, (none : Option (RID × Record)) = some (rid, record) →
        (t.pages rid.page_no).slots rid.slot_no.toNat = (record.nullmap, record.data)) ∧
      ((∀ record, (none : Option (RID × Record)) ≠ some (rid, record)) →
        (t.pages rid.page_no).slots rid.slot_no.toNat =
          (s.pages rid.page_no).slots rid.slot_no.toNat) := by
    intro t e
    refine ⟨fun record e2 => (by cases e2), fun _ => (by rw [e])⟩
  cases c with
  | insert record =>
    simp only [call] at h
    cases hi : s.InsertRecord record with
    | none => rw [hi] at h; cases h
    | some x =>
      rw [hi] at h
      simp only [Option.map_some', Option.some.injEq, Prod.mk.injEq] at h
      obtain ⟨hw, hs1⟩ := h
      obtain ⟨-, h2, -, -, h5, -, h7, -⟩ := InsertRecord_some s record x.1 x.2 hi
      rw [← hw, ← hs1]
      exact key x.1 record x.2 (by rw [h2]; exact Int.natCast_nonneg _) h5 h7
  | insertAt rid1 record =>
    simp only [call] at h
    cases hi : s.InsertRecordAt rid1 record with
    | none => rw [hi] at h; cases h
    | some x =>
      rw [hi] at h
      simp only [Option.map_some', Option.some.injEq, Prod.mk.injEq] at h
      obtain ⟨hw, hs1⟩ := h
      rw [← hw, ← hs1]
      by_cases hp : rid1.page_no = INVALID_PAGE_ID
      · rw [InsertRecordAt_invalid s rid1 record hp] at hi
        simp only [Option.some.injEq] at hi
        rw [← hi]
        exact same s rfl
      · rcases bit_cases s rid1 with hb | hv | ho
        · rw [InsertRecordAt_undefined s rid1 record hp hb] at hi; cases hi
        · obtain ⟨s2, e, -, h2, -, h4, -⟩ := InsertRecordAt_vacant s rid1 record hp hv
          rw [e] at hi
          simp only [Option.some.injEq] at hi
          rw [← hi]
          exact key rid1 record s2 (vacant_range s rid1 hv).1 h2 h4
        · rw [InsertRecordAt_occupied s rid1 record hp ho] at hi
          simp only [Option.some.injEq] at hi
          rw [← hi]
          exact same s rfl
  | update rid1 record =>
    simp only [call] at h
    cases hi : s.UpdateRecord rid1 record with
    | none => rw [hi] at h; cases h
    | some x =>
      rw [hi] at h
      simp only [Option.map_some', Option.some.injEq, Prod.mk.injEq] at h
      obtain ⟨hw, hs1⟩ := h
      rw [← hw, ← hs1]
      rcases bit_cases s rid1 with hb | hv | ho
      · rw [UpdateRecord_undefined s rid1 record hb] at hi; cases hi
      · rw [UpdateRecord_vacant s rid1 record hv] at hi
        simp only [Option.some.injEq] at hi
        rw [← hi]
        exact same s rfl
      · obtain ⟨s2, e, -, h2, -, h4, -⟩ := UpdateRecord_occupied s rid1 record ho
        rw [e] at hi
        simp only [Option.some.injEq] at hi
        rw [← hi]
        exact key rid1 record s2 (occupied_range s rid1 ho).1 h2 h4
  | delete rid1 =>
    simp only [call] at h
    cases hi : s.DeleteRecord rid1 with
    | none => rw [hi] at h; cases h
    | some x =>
      rw [hi] at h
      simp only [Option.map_some', Option.some.injEq, Prod.mk.injEq] at h
      obtain ⟨hw, hs1⟩ := h
      rw [← hw, ← hs1]
      refine ⟨fun record e2 => (by cases e2), fun _ => ?_⟩
      rw [DeleteRecord_slots s rid1 x.1 x.2 hi]

theorem run_frame (rid : RID) (hr : 0 ≤ rid.slot_no) (calls : List Call) :
    ∀ (s s1 : TableHandle), s.run calls = some s1 → s.lastWritten calls rid = none →
      (s1.pages rid.page_no).slots rid.slot_no.toNat =
        (s.pages rid.page_no).slots rid.slot_no.toNat := by
  induction calls with
  | nil =>
    intro s s1 h _
    simp only [run, Option.some.injEq] at h
    rw [← h]
  | cons c cs ih =>
    intro s s1 h hl
    unfold run at h
    unfold lastWritten at hl
    cases hcall : s.call c with
    | none => rw [hcall] at h; cases h
    | some x =>
      obtain ⟨w, s2⟩ := x
      rw [hcall] at h hl
      simp only at h hl
      cases hl2 : s2.lastWritten cs rid with
      | some r => rw [hl2] at hl; cases hl
      | none =>
        rw [hl2] at hl
        simp only at hl
        rw [ih s2 s1 h hl2]
        apply (call_slots s c w s2 hcall rid hr).2
        intro record e
        rw [e] at hl
        simp at hl

theorem run_written (rid : RID) (hr : 0 ≤ rid.slot_no) (calls : List Call) :
    ∀ (s s1 : TableHandle) (record : Record), s.run calls = some s1 →
      s.lastWritten calls rid = some record →
      (s1.pages rid.page_no).slots rid.slot_no.toNat = (record.nullmap, record.data) := by
  induction calls with
  | nil =>
    intro s s1 record _ hl
    simp [lastWritten] at hl
  | cons c cs ih =>
    intro s s1 record h hl
    unfold run at h
    unfold lastWritten at hl
    cases hcall : s.call c with
    | none => rw [hcall] at h; cases h
    | some x =>
      obtain ⟨w, s2⟩ := x
      rw [hcall] at h hl
      simp only at h hl
      cases hl2 : s2.lastWritten cs rid with
      | some r =>
        rw [hl2] at hl
        simp only [Option.some.injEq] at hl
        rw [← hl]
        exact ih s2 s1 r h hl2
      | none =>
        rw [hl2] at hl
        simp only at hl
        rw [run_frame rid hr cs s2 s1 h hl2]
        apply (call_slots s c w s2 hcall rid hr).1
        cases w with
        | none => simp at hl
        | some y =>
          obtain ⟨rid1, r1⟩ := y
          simp only at hl
          by_cases e : rid1 = rid
          · rw [if_pos e] at hl
            simp only [Option.some.injEq] at hl
            rw [e, hl]
          · rw [if_neg e] at hl
            cases hl


/-! ## Table heap: scenarios -/

set_option maxRecDepth 100000 in
theorem run_refillBefore : (create 2).run refillCalls.dropLast = some refillBefore :=
  run_getD _ _ _ (by decide)

set_option maxRecDepth 100000 in
theorem run_refilled : (create 2).run refillCalls = some refilled :=
  run_getD _ _ _ (by decide)

set_option maxRecDepth 100000 in
theorem run_fullHead :
    (create 2).run (refillCalls ++ [.insert (recOf 6)]) = some fullHead :=
  run_getD _ _ _ (by decide)

theorem Counted_refillBefore : refillBefore.Counted :=
  Counted_run _ _ (Counted_create 2 (by decide)) _ run_refillBefore

theorem Counted_fullHead : fullHead.Counted :=
  Counted_run _ _ (Counted_create 2 (by decide)) _ run_fullHead

/-! ## Table heap: contracts of the calls -/

/-- In every table state in which the page `InsertRecord` takes has an
empty slot, `InsertRecord(r)` returns an RID and `GetRecord` of that RID
returns the null-map and payload of `r`; and after every sequence of calls of
`InsertRecord` (both forms), `UpdateRecord` and `DeleteRecord` that return,
`GetRecord(rid)` on an occupied slot returns the null-map and payload of the
record most recently written to that slot by `InsertRecord` or
`UpdateRecord`. -/
theorem GetRecord_returns_last_written (s : TableHandle) :
    (∀ record : Record,
      (∃ i, i < s.tab_hdr_.rec_per_page_ ∧
        (s.pages (s.CreatePageHandle).1).bitmap i = false) →
      ∃ rid s1, s.InsertRecord record = some (rid, s1) ∧
        s1.GetRecord rid =
          some (.ok { nullmap := record.nullmap, data := record.data, rid := rid }, s1)) ∧
    (∀ (calls : List Call) (s1 : TableHandle) (rid : RID) (record : Record),
      s.run calls = some s1 → s1.occupied rid → s.lastWritten calls rid = some record →
      s1.GetRecord rid =
        some (.ok { nullmap := record.nullmap, data := record.data, rid := rid }, s1)) := by
  constructor
  · intro record ⟨i, hi, hb⟩
    obtain ⟨rid, s1, h⟩ := InsertRecord_defined s record
      (BitMap.FindFirst_of_exists _ _ 0 false i (Nat.zero_le _) hi hb)
    obtain ⟨-, h2, h3, h4, h5, -, -, h8, -⟩ := InsertRecord_some s record rid s1 h
    have h0 : 0 ≤ rid.slot_no := by rw [h2]; exact Int.natCast_nonneg _
    have h1 : rid.slot_no < s.tab_hdr_.rec_per_page_ := by rw [h2]; exact_mod_cast h3
    have ho : s1.occupied rid := by
      unfold occupied
      rw [h8, GetBit_of_range _ _ _ h0 h1, h4, Function.update_same]
    refine ⟨rid, s1, h, ?_⟩
    rw [GetRecord_occupied s1 rid ho, h5, Function.update_same]
  · intro calls s1 rid record hrun ho hl
    have h0 := (occupied_range s1 rid ho).1
    rw [GetRecord_occupied s1 rid ho, run_written rid h0 calls s s1 record hrun hl]

set_option maxRecDepth 100000 in
/-- C13 fails on the code.  The calls of `refillCalls` followed by one
`InsertRecord` all return and lead to the state `fullHead`, in which page 1 is
the head of the free chain and is full; there `InsertRecord` takes page 1,
`FindFirst` finds no empty slot and returns `rec_per_page_`, and the call
writes outside the slots of the page: it is undefined. -/
theorem C13_InsertRecord_takes_full_page :
    fullHead.Reachable ∧
    fullHead.tab_hdr_.first_free_page_ = 1 ∧
    (fullHead.CreatePageHandle).1 = 1 ∧
    fullHead.tab_hdr_.rec_per_page_ = 2 ∧
    (fullHead.pages 1).record_num_ = 2 ∧
    BitMap.FindFirst (fullHead.pages 1).bitmap fullHead.tab_hdr_.rec_per_page_ 0 false = 2 ∧
    (fullHead.InsertRecord (recOf 7)).isNone = true :=
  ⟨⟨2, _, run_fullHead⟩, by decide, by decide, by decide, by decide, by decide, by decide⟩

set_option maxRecDepth 100000 in
/-- C15 (code at the failing input).  In the state `refillBefore` the free
chain is page 2, then page 1; `InsertRecord((1, 0), r)` returns normally and
fills page 1, and page 1 is still on the free chain.  The first form unlinks
the page it fills: on a fresh table the second `InsertRecord(r)` fills page 1
and leaves the chain empty. -/
theorem C15_full_page_stays_on_free_chain :
    refillBefore.Reachable ∧ refillBefore.freeChain = [2, 1] ∧
    (refillBefore.InsertRecordAt ⟨1, 0⟩ (recOf 5)).map
      (fun x => (x.1, (x.2.pages 1).record_num_, x.2.tab_hdr_.rec_per_page_,
        x.2.freeChain)) = some (.ok (), 2, 2, [2, 1]) ∧
    ((create 2).run [.insert (recOf 1)]).map
      (fun s => ((s.pages 1).record_num_, s.freeChain)) = some (1, [1]) ∧
    ((create 2).run [.insert (recOf 1), .insert (recOf 2)]).map
      (fun s => ((s.pages 1).record_num_, s.freeChain)) = some (2, []) :=
  ⟨⟨2, _, run_refillBefore⟩, by decide, by decide, by decide, by decide⟩

/-- On a table whose record counts are right, `InsertRecord(rid, r)` fails
with `NJUDB_PAGE_MISS` when the page id of `rid` is `INVALID_PAGE_ID` and with
`NJUDB_RECORD_EXISTS` when the slot of `rid` is occupied, and leaves the state
as it was; on an empty slot it returns normally, the slot holds `r`, its bit is
set, no other bit, slot or page changes, and `record_num_` grows by one.  The
code unlinks a page that is now full when it is the head of the free chain: the
head moves to the page's next-free link and the link is reset.  In every other
case the code leaves the head and all next-free links as they were. -/
theorem InsertRecordAt_effect (s : TableHandle) (rid : RID)
    (record : Record) (hc : s.Counted) :
    (rid.page_no = INVALID_PAGE_ID →
      s.InsertRecordAt rid record = some (.error .NJUDB_PAGE_MISS, s)) ∧
    (rid.page_no ≠ INVALID_PAGE_ID → s.occupied rid →
      s.InsertRecordAt rid record = some (.error .NJUDB_RECORD_EXISTS, s)) ∧
    (rid.page_no ≠ INVALID_PAGE_ID → s.vacant rid →
      ∃ s1, s.InsertRecordAt rid record = some (.ok (), s1) ∧
        s1.GetRecord rid =
          some (.ok { nullmap := record.nullmap, data := record.data, rid := rid }, s1) ∧
        (s1.pages rid.page_no).bitmap =
          Function.update (s.pages rid.page_no).bitmap rid.slot_no.toNat true ∧
        (s1.pages rid.page_no).slots =
          Function.update (s.pages rid.page_no).slots rid.slot_no.toNat
            (record.nullmap, record.data) ∧
        (s1.pages rid.page_no).record_num_ = (s.pages rid.page_no).record_num_ + 1 ∧
        (∀ p, p ≠ rid.page_no → s1.pages p = s.pages p) ∧
        s1.tab_hdr_.page_num_ = s.tab_hdr_.page_num_ ∧
        s1.tab_hdr_.rec_per_page_ = s.tab_hdr_.rec_per_page_ ∧
        s1.pin_count = s.pin_count ∧
        ((s1.pages rid.page_no).record_num_ = s.tab_hdr_.rec_per_page_ ∧
            s.tab_hdr_.first_free_page_ = rid.page_no →
          s1.tab_hdr_.first_free_page_ = (s.pages rid.page_no).next_free_page_id_ ∧
          (s1.pages rid.page_no).next_free_page_id_ = INVALID_PAGE_ID) ∧
        (¬ ((s1.pages rid.page_no).record_num_ = s.tab_hdr_.rec_per_page_ ∧
            s.tab_hdr_.first_free_page_ = rid.page_no) →
          s1.tab_hdr_.first_free_page_ = s.tab_hdr_.first_free_page_ ∧
          ∀ p, (s1.pages p).next_free_page_id_ = (s.pages p).next_free_page_id_)) := by
  refine ⟨InsertRecordAt_invalid s rid record, InsertRecordAt_occupied s rid record, ?_⟩
  intro hp hv
  obtain ⟨s1, e, h1, h2, h3, h4, h5, h6, h7, h8, h9⟩ := InsertRecordAt_vacant s rid record hp hv
  obtain ⟨r0, r1, -⟩ := vacant_range s rid hv
  have hlt := Counted_vacant s hc rid hv
  have hfit := hc.fits
  have ho : s1.occupied rid := by
    unfold occupied
    rw [h6, GetBit_of_range _ _ _ r0 r1, h1, Function.update_same]
  refine ⟨s1, e, ?_, h1, h2, ?_, h4, h5, h6, h7, h8, h9⟩
  · rw [GetRecord_occupied s1 rid ho, h2, Function.update_same]
  · rw [h3, Nat.mod_eq_of_lt (by omega)]

/-- C16: `DeleteRecord(rid)` on an occupied slot of a table whose record
counts are right returns normally; it clears the bit of that slot and no other
bit, leaves every slot's contents and every other page as they were, and
lowers `record_num_` of the page by one; `GetRecord(rid)` then fails with
`NJUDB_RECORD_MISS`.  If the page was full it becomes the head of the free
chain, with the previous head as its next-free link; otherwise the header and
all next-free links stay as they were. -/
theorem C16_DeleteRecord_contract (s : TableHandle) (rid : RID) (hc : s.Counted)
    (ho : s.occupied rid) :
    ∃ s1, s.DeleteRecord rid = some (.ok (), s1) ∧
      (s1.pages rid.page_no).bitmap =
        Function.update (s.pages rid.page_no).bitmap rid.slot_no.toNat false ∧
      (s1.pages rid.page_no).slots = (s.pages rid.page_no).slots ∧
      (∀ p, p ≠ rid.page_no → s1.pages p = s.pages p) ∧
      (s1.pages rid.page_no).record_num_ + 1 = (s.pages rid.page_no).record_num_ ∧
      s1.GetRecord rid = some (.error .NJUDB_RECORD_MISS, s1) ∧
      s1.tab_hdr_.page_num_ = s.tab_hdr_.page_num_ ∧
      s1.tab_hdr_.rec_per_page_ = s.tab_hdr_.rec_per_page_ ∧
      s1.pin_count = s.pin_count ∧
      ((s.pages rid.page_no).record_num_ = s.tab_hdr_.rec_per_page_ →
        s1.tab_hdr_.first_free_page_ = rid.page_no ∧
        (s1.pages rid.page_no).next_free_page_id_ = s.tab_hdr_.first_free_page_) ∧
      ((s.pages rid.page_no).record_num_ ≠ s.tab_hdr_.rec_per_page_ →
        s1.tab_hdr_.first_free_page_ = s.tab_hdr_.first_free_page_ ∧
        ∀ p, (s1.pages p).next_free_page_id_ = (s.pages p).next_free_page_id_) :=
  DeleteRecord_occupied s rid hc ho

set_option maxRecDepth 100000 in
/-- C16 in the state `fullHead`, where page 2 is full and page 1 heads the free
chain: after `DeleteRecord((2, 1))` page 2 is the head and links to page 1. -/
theorem C16_DeleteRecord_contract_witness :
    ∃ s1, fullHead.DeleteRecord ⟨2, 1⟩ = some (.ok (), s1) ∧
      s1.GetRecord ⟨2, 1⟩ = some (.error .NJUDB_RECORD_MISS, s1) ∧
      s1.tab_hdr_.first_free_page_ = 2 ∧ (s1.pages 2).next_free_page_id_ = 1 := by
  obtain ⟨s1, h1, -, -, -, -, h6, -, -, -, h10, -⟩ :=
    C16_DeleteRecord_contract fullHead ⟨2, 1⟩ Counted_fullHead (by unfold occupied; decide)
  have h := h10 (by decide)
  exact ⟨s1, h1, h6, h.1, by rw [h.2]; decide⟩

end TableHandle

namespace IdxScanExecutor

/-! ## Index scan executor: two bounds on one column -/

set_option maxRecDepth 1000000 in
/-- C18 fails on the code.  For the keys 1 .. 10 and the conditions `k > 3`,
`k < 7`, `GenerateRangeKeys` leaves its loops at the first condition: the low
key is 3 with the exclusive flag set, the high key stays the greatest value of
the type, and the ascending scan yields the records with keys 4 .. 10. -/
theorem C18_scan_ignores_second_bound :
    scan3to7.GenerateRangeKeys.low_ = [3] ∧
    scan3to7.GenerateRangeKeys.high_ = [2147483647] ∧
    scan3to7.GenerateRangeKeys.needs_first_record_check_ = true ∧
    scan3to7.GenerateRangeKeys.needs_last_record_check_ = false ∧
    scan3to7.yield =
      some (.ok [⟨[0], [4], ⟨4, 0⟩⟩, ⟨[0], [5], ⟨5, 0⟩⟩, ⟨[0], [6], ⟨6, 0⟩⟩, ⟨[0], [7], ⟨7, 0⟩⟩,
        ⟨[0], [8], ⟨8, 0⟩⟩, ⟨[0], [9], ⟨9, 0⟩⟩, ⟨[0], [10], ⟨10, 0⟩⟩]) := by
  refine ⟨by decide, by decide, by decide, by decide, by decide⟩

end IdxScanExecutor

namespace BitMap

theorem FindFirst_le_n (b : Nat → Bool) (n st : Nat) (v : Bool) : FindFirst b n st v ≤ n := by
  cases hf : (List.range' st (n - st)).find? (fun i => b i == v) with
  | none => rw [FindFirst_none b n st v hf]
  | some i =>
    obtain ⟨h1, h2, -, -⟩ := (find_range_spec (fun i => b i == v) (n - st) st).1 i hf
    rw [FindFirst_some b n st v i hf]
    omega

end BitMap

namespace TableHandle

/-! ## Table heap: forward scan -/

theorem ridLt_irrefl (a : RID) : ¬ ridLt a a := by
  unfold ridLt
  omega

theorem ridLt_asymm (a b : RID) (h : ridLt a b) : ¬ ridLt b a := by
  unfold ridLt at h ⊢
  omega

theorem ridLt_trans (a b c : RID) (h1 : ridLt a b) (h2 : ridLt b c) : ridLt a c := by
  unfold ridLt at h1 h2 ⊢
  omega

theorem ridLt_total (a b : RID) (h : a ≠ b) : ridLt a b ∨ ridLt b a := by
  unfold ridLt
  have : a.page_no ≠ b.page_no ∨ a.slot_no ≠ b.slot_no := by
    by_contra hc
    apply h
    cases a
    cases b
    simp only [not_or, not_not] at hc
    simp only [RID.mk.injEq]
    exact hc
  omega

/-- The loop of `GetNextRID` returns the least occupied slot after
`(page_id, slot_id)` on the pages from `page_id` on, and `INVALID_RID` if there
is none; the state is as before. -/
theorem GetNextRIDLoop_spec (s : TableHandle) :
    ∀ (fuel : Nat) (page_id slot_id : Int),
      ((s.tab_hdr_.page_num_ : Int) - page_id).toNat < fuel → -1 ≤ slot_id →
      slot_id + 1 < 2 ^ 64 →
      ∃ next, GetNextRIDLoop fuel s page_id slot_id = some (next, s) ∧
        ((next = INVALID_RID ∧
            ∀ r : RID, page_id ≤ r.page_no → r.page_no < (s.tab_hdr_.page_num_ : Int) →
              s.occupied r → (page_id < r.page_no ∨ slot_id < r.slot_no) → False) ∨
          (page_id ≤ next.page_no ∧ next.page_no < (s.tab_hdr_.page_num_ : Int) ∧
            s.occupied next ∧ (page_id < next.page_no ∨ slot_id < next.slot_no) ∧
            ∀ r : RID, page_id ≤ r.page_no → r.page_no < (s.tab_hdr_.page_num_ : Int) →
              s.occupied r → (page_id < r.page_no ∨ slot_id < r.slot_no) →
              ¬ ridLt r next)) := by
  intro fuel
  induction fuel with
  | zero =>
    intro page_id slot_id h
    omega
  | succ fuel ih =>
    intro page_id slot_id hfuel hs0 hs1
    simp only [GetNextRIDLoop]
    by_cases hlt : page_id < (s.tab_hdr_.page_num_ : Int)
    · rw [if_pos hlt]
      simp only [FetchPageHandle_pages, FetchPageHandle_hdr, UnpinPage_FetchPageHandle]
      have est : toSizeT (slot_id + 1) = (slot_id + 1).toNat :=
        toSizeT_of_range _ (by omega) (by omega)
      rw [est]
      -- no occupied slot after `slot_id` on this page, when the search fails
      by_cases hr : BitMap.FindFirst (s.pages page_id).bitmap s.tab_hdr_.rec_per_page_
          (slot_id + 1).toNat true < s.tab_hdr_.rec_per_page_
      · obtain ⟨f1, f2, f3⟩ := BitMap.FindFirst_lt _ _ _ _ hr
        have hne : ¬ (((BitMap.FindFirst (s.pages page_id).bitmap s.tab_hdr_.rec_per_page_
            (slot_id + 1).toNat true : Nat) : Int) = (s.tab_hdr_.rec_per_page_ : Int)) := by
          intro e
          have : BitMap.FindFirst (s.pages page_id).bitmap s.tab_hdr_.rec_per_page_
            (slot_id + 1).toNat true = s.tab_hdr_.rec_per_page_ := by exact_mod_cast e
          omega
        rw [if_neg hne]
        refine ⟨_, rfl, Or.inr ⟨le_refl _, hlt, ?_, Or.inr ?_, ?_⟩⟩
        · unfold occupied
          show (s.pages page_id).GetBit _ ((BitMap.FindFirst (s.pages page_id).bitmap
            s.tab_hdr_.rec_per_page_ (slot_id + 1).toNat true : Nat) : Int) = some true
          rw [GetBit_of_range _ _ _ (Int.natCast_nonneg _) (by exact_mod_cast hr),
            Int.toNat_ofNat, f2]
        · show slot_id < ((BitMap.FindFirst (s.pages page_id).bitmap
            s.tab_hdr_.rec_per_page_ (slot_id + 1).toNat true : Nat) : Int)
          omega
        · intro r hr1 hr2 hro hrc hrl
          obtain ⟨o1, o2, o3⟩ := occupied_range s r hro
          unfold ridLt at hrl
          have hl2 : r.page_no = page_id ∧ r.slot_no < ((BitMap.FindFirst
              (s.pages page_id).bitmap s.tab_hdr_.rec_per_page_ (slot_id + 1).toNat true :
              Nat) : Int) := by
            rcases hrl with h | h
            · exfalso
              have : r.page_no < page_id := h
              omega
            · exact h
          have hsl : slot_id < r.slot_no := by
            rcases hrc with h | h
            · omega
            · exact h
          rw [hl2.1] at o3
          exact f3 r.slot_no.toNat (by omega) (by omega) o3
      · obtain ⟨f1, f2⟩ := BitMap.FindFirst_eq _ _ _ _ hr
        rw [f1, if_pos rfl]
        have hnone : ∀ r : RID, r.page_no = page_id → s.occupied r → slot_id < r.slot_no →
            False := by
          intro r e hro hsl
          obtain ⟨o1, o2, o3⟩ := occupied_range s r hro
          rw [e] at o3
          exact f2 r.slot_no.toNat (by omega) (by omega) o3
        obtain ⟨next, e, hspec⟩ := ih (page_id + 1) (-1) (by omega) (le_refl _) (by omega)
        refine ⟨next, e, ?_⟩
        rcases hspec with ⟨h1, h2⟩ | ⟨h1, h2, h3, h4, h5⟩
        · refine Or.inl ⟨h1, ?_⟩
          intro r hr1 hr2 hro hrc
          by_cases hp : r.page_no = page_id
          · rcases hrc with h | h
            · omega
            · exact hnone r hp hro h
          · exact h2 r (by omega) hr2 hro (Or.inr (by
              have := (occupied_range s r hro).1
              omega))
        · refine Or.inr ⟨by omega, h2, h3, Or.inl (by omega), ?_⟩
          intro r hr1 hr2 hro hrc
          by_cases hp : r.page_no = page_id
          · rcases hrc with h | h
            · omega
            · exact absurd (hnone r hp hro h) id
          · exact h5 r (by omega) hr2 hro (Or.inr (by
              have := (occupied_range s r hro).1
              omega))
    · rw [if_neg hlt]
      refine ⟨_, rfl, Or.inl ⟨rfl, ?_⟩⟩
      intro r hr1 hr2 _ _
      omega

theorem GetFirstRIDLoop_eq (fuel : Nat) : ∀ (s : TableHandle) (page_id : Int),
    GetFirstRIDLoop fuel s page_id = GetNextRIDLoop fuel s page_id (-1) := by
  induction fuel with
  | zero => intro s page_id; rfl
  | succ fuel ih =>
    intro s page_id
    simp only [GetFirstRIDLoop, GetNextRIDLoop]
    by_cases hlt : page_id < (s.tab_hdr_.page_num_ : Int)
    · rw [if_pos hlt, if_pos hlt]
      have e0 : toSizeT (-1 + 1) = 0 := by decide
      rw [e0]
      simp only [FetchPageHandle_pages, FetchPageHandle_hdr]
      by_cases he : BitMap.FindFirst (s.pages page_id).bitmap s.tab_hdr_.rec_per_page_ 0 true =
          s.tab_hdr_.rec_per_page_
      · rw [if_neg (by simpa using he), if_pos (by exact_mod_cast he)]
        exact ih _ _
      · rw [if_pos he, if_neg (by exact_mod_cast he)]
    · rw [if_neg hlt, if_neg hlt]

/-- `GetNextRID(rid)`, for a RID of a data page, returns the least occupied
slot of the data pages after `rid`, and `INVALID_RID` if there is none. -/
theorem GetNextRID_spec (s : TableHandle)
    (rid : RID) (h0 : FILE_HEADER_PAGE_ID < rid.page_no) (h1 : -1 ≤ rid.slot_no)
    (h2 : rid.slot_no + 1 < 2 ^ 64) :
    ∃ next, s.GetNextRID rid = some (next, s) ∧
      ((next = INVALID_RID ∧ ∀ r, s.stored r → ¬ ridLt rid r) ∨
        (s.stored next ∧ ridLt rid next ∧
          ∀ r, s.stored r → ridLt rid r → ¬ ridLt r next)) := by
  obtain ⟨next, e, hspec⟩ := GetNextRIDLoop_spec s
    (((s.tab_hdr_.page_num_ : Int) - rid.page_no).toNat + 1) rid.page_no rid.slot_no
    (Nat.lt_succ_self _) h1 h2
  refine ⟨next, e, ?_⟩
  unfold FILE_HEADER_PAGE_ID at h0
  rcases hspec with ⟨a1, a2⟩ | ⟨a1, a2, a3, a4, a5⟩
  · refine Or.inl ⟨a1, ?_⟩
    intro r hs hl
    obtain ⟨s1, s2, s3⟩ := hs
    unfold ridLt at hl
    exact a2 r (by omega) s2 s3 (by omega)
  · refine Or.inr ⟨⟨by unfold FILE_HEADER_PAGE_ID; omega, a2, a3⟩, ?_, ?_⟩
    · unfold ridLt
      omega
    · intro r hs hl
      obtain ⟨s1, s2, s3⟩ := hs
      unfold ridLt at hl
      exact a5 r (by omega) s2 s3 (by omega)

/-- `GetFirstRID` returns the least occupied slot of the data pages, and
`INVALID_RID` if there is none. -/
theorem GetFirstRID_spec (s : TableHandle) :
    ∃ first, s.GetFirstRID = some (first, s) ∧
      ((first = INVALID_RID ∧ ∀ r, ¬ s.stored r) ∨
        (s.stored first ∧ ∀ r, s.stored r → ¬ ridLt r first)) := by
  unfold GetFirstRID
  rw [GetFirstRIDLoop_eq]
  obtain ⟨next, e, hspec⟩ := GetNextRIDLoop_spec s (s.tab_hdr_.page_num_ + 1)
    (FILE_HEADER_PAGE_ID + 1) (-1) (by unfold FILE_HEADER_PAGE_ID; omega) (le_refl _)
    (by omega)
  refine ⟨next, e, ?_⟩
  unfold FILE_HEADER_PAGE_ID at hspec
  rcases hspec with ⟨a1, a2⟩ | ⟨a1, a2, a3, a4, a5⟩
  · refine Or.inl ⟨a1, ?_⟩
    intro r hs
    obtain ⟨s1, s2, s3⟩ := hs
    unfold FILE_HEADER_PAGE_ID at s1
    have := (occupied_range s r s3).1
    exact a2 r (by omega) s2 s3 (Or.inr (by omega))
  · refine Or.inr ⟨⟨by unfold FILE_HEADER_PAGE_ID; omega, a2, a3⟩, ?_⟩
    intro r hs
    obtain ⟨s1, s2, s3⟩ := hs
    unfold FILE_HEADER_PAGE_ID at s1
    have := (occupied_range s r s3).1
    exact a5 r (by omega) s2 s3 (Or.inr (by omega))


theorem mem_occupiedOn (s : TableHandle) (p : Int) (r : RID) :
    r ∈ s.occupiedOn p ↔ r.page_no = p ∧ s.occupied r := by
  unfold occupiedOn occupied
  simp only [List.mem_map, List.mem_filter, List.mem_range]
  constructor
  · rintro ⟨i, ⟨hi, hb⟩, e⟩
    rw [← e]
    refine ⟨rfl, ?_⟩
    show (s.pages p).GetBit _ (i : Int) = some true
    rw [GetBit_of_range _ _ _ (Int.natCast_nonneg _) (by exact_mod_cast hi), Int.toNat_ofNat, hb]
  · rintro ⟨e, ho⟩
    obtain ⟨o1, o2, o3⟩ := GetBit_eq_some _ _ _ _ ho
    refine ⟨r.slot_no.toNat, ⟨by omega, by rw [← e]; exact o3⟩, ?_⟩
    cases r
    simp only at e o1 ⊢
    rw [e, Int.toNat_of_nonneg o1]

theorem mem_occupiedRIDs (s : TableHandle) (r : RID) :
    r ∈ s.occupiedRIDs ↔ s.stored r := by
  unfold occupiedRIDs stored FILE_HEADER_PAGE_ID
  simp only [List.mem_flatMap, List.mem_range, mem_occupiedOn]
  constructor
  · rintro ⟨i, hi, e, ho⟩
    exact ⟨by omega, by omega, ho⟩
  · rintro ⟨h1, h2, ho⟩
    exact ⟨(r.page_no - 1).toNat, by omega, by omega, ho⟩

theorem sorted_occupiedOn (s : TableHandle) (p : Int) : (s.occupiedOn p).Pairwise ridLt := by
  unfold occupiedOn
  rw [List.pairwise_map]
  apply List.Pairwise.imp _ ((List.pairwise_lt_range _).sublist (List.filter_sublist _))
  intro a b hab
  unfold ridLt
  right
  refine ⟨rfl, ?_⟩
  show (a : Int) < (b : Int)
  exact_mod_cast hab

theorem sorted_occupiedRIDs (s : TableHandle) : s.occupiedRIDs.Pairwise ridLt := by
  unfold occupiedRIDs
  rw [List.pairwise_flatMap]
  refine ⟨fun a _ => sorted_occupiedOn s _, ?_⟩
  apply List.Pairwise.imp _ (List.pairwise_lt_range _)
  intro a b hab x hx y hy
  rw [mem_occupiedOn] at hx hy
  unfold ridLt
  left
  omega

theorem length_flatMap_le {α β : Type} (f : α → List β) (n : Nat)
    (h : ∀ a, (f a).length ≤ n) : ∀ l : List α, (l.flatMap f).length ≤ l.length * n := by
  intro l
  induction l with
  | nil => simp
  | cons a l ih =>
    rw [List.flatMap_cons, List.length_append, List.length_cons, Nat.succ_mul]
    have := h a
    omega

theorem length_occupiedRIDs (s : TableHandle) :
    s.occupiedRIDs.length ≤ (s.tab_hdr_.page_num_ - 1) * s.tab_hdr_.rec_per_page_ := by
  unfold occupiedRIDs
  have := length_flatMap_le (fun i : Nat => s.occupiedOn ((i : Int) + 1))
    s.tab_hdr_.rec_per_page_ (fun a => by
      unfold occupiedOn
      rw [List.length_map]
      have := List.length_filter_le (fun i => (s.pages ((a : Int) + 1)).bitmap i)
        (List.range s.tab_hdr_.rec_per_page_)
      rw [List.length_range] at this
      exact this) (List.range (s.tab_hdr_.page_num_ - 1))
  rw [List.length_range] at this
  exact this

/-- In a list sorted by `ridLt` that holds the stored RIDs, `GetNextRID` of an
element returns the element after it. -/
theorem GetNextRID_cons (s : TableHandle) (hn : s.tab_hdr_.rec_per_page_ < 2 ^ 64)
    (pre : List RID) (a b : RID) (post : List RID)
    (hL : s.occupiedRIDs = pre ++ a :: b :: post) : s.GetNextRID a = some (b, s) := by
  have hs := sorted_occupiedRIDs s
  rw [hL] at hs
  have hmem : ∀ r, s.stored r ↔ r ∈ pre ++ a :: b :: post := by
    intro r; rw [← hL, mem_occupiedRIDs]
  have ha : s.stored a := (hmem a).2 (by simp)
  have hb : s.stored b := (hmem b).2 (by simp)
  obtain ⟨a0, a1, a2⟩ := occupied_range s a ha.2.2
  obtain ⟨next, e, hspec⟩ := GetNextRID_spec s a ha.1 (by omega) (by omega)
  rw [List.pairwise_append] at hs
  obtain ⟨-, hs2, hs3⟩ := hs
  rw [List.pairwise_cons] at hs2
  obtain ⟨hab, hs4⟩ := hs2
  rw [List.pairwise_cons] at hs4
  have hlab : ridLt a b := hab b (by simp)
  rcases hspec with ⟨-, h2⟩ | ⟨h1, h2, h3⟩
  · exact absurd hlab (h2 b hb)
  · have hnext : next = b := by
      by_contra hne
      have hm := (hmem next).1 h1
      rcases List.mem_append.1 hm with h | h
      · exact ridLt_asymm _ _ h2 (hs3 next h a (by simp))
      · rcases List.mem_cons.1 h with h | h
        · rw [h] at h2; exact ridLt_irrefl _ h2
        · rcases List.mem_cons.1 h with h | h
          · exact hne h
          · exact h3 b hb hlab (hs4.1 next h)
    rw [e, hnext]

theorem GetNextRID_last (s : TableHandle) (hn : s.tab_hdr_.rec_per_page_ < 2 ^ 64)
    (pre : List RID) (a : RID) (hL : s.occupiedRIDs = pre ++ [a]) :
    s.GetNextRID a = some (INVALID_RID, s) := by
  have hs := sorted_occupiedRIDs s
  rw [hL] at hs
  have hmem : ∀ r, s.stored r ↔ r ∈ pre ++ [a] := by
    intro r; rw [← hL, mem_occupiedRIDs]
  have ha : s.stored a := (hmem a).2 (by simp)
  obtain ⟨a0, a1, a2⟩ := occupied_range s a ha.2.2
  obtain ⟨next, e, hspec⟩ := GetNextRID_spec s a ha.1 (by omega) (by omega)
  rw [List.pairwise_append] at hs
  obtain ⟨-, -, hs3⟩ := hs
  rcases hspec with ⟨h1, -⟩ | ⟨h1, h2, -⟩
  · rw [e, h1]
  · exfalso
    have hm := (hmem next).1 h1
    rcases List.mem_append.1 hm with h | h
    · exact ridLt_asymm _ _ h2 (hs3 next h a (by simp))
    · rw [List.mem_singleton] at h
      rw [h] at h2; exact ridLt_irrefl _ h2

theorem stored_ne_INVALID (s : TableHandle) (r : RID) (h : s.stored r) : r ≠ INVALID_RID := by
  intro e
  have := h.1
  rw [e] at this
  revert this
  decide

theorem scanFrom_suffix (s : TableHandle) (hn : s.tab_hdr_.rec_per_page_ < 2 ^ 64) :
    ∀ (suffix : List RID) (a : RID) (pre : List RID) (fuel : Nat),
      s.occupiedRIDs = pre ++ a :: suffix → suffix.length + 1 < fuel →
      scanFrom fuel s a = some (a :: suffix, s) := by
  intro suffix
  induction suffix with
  | nil =>
    intro a pre fuel hL hf
    obtain ⟨f1, rfl⟩ : ∃ f1, fuel = f1 + 2 := ⟨fuel - 2, by simp at hf; omega⟩
    have ha : s.stored a := (mem_occupiedRIDs s a).1 (by rw [hL]; simp)
    simp only [scanFrom]
    rw [if_neg (stored_ne_INVALID s a ha), GetNextRID_last s hn pre a hL]
    simp
  | cons b rest ih =>
    intro a pre fuel hL hf
    obtain ⟨f1, rfl⟩ : ∃ f1, fuel = f1 + 1 := ⟨fuel - 1, by simp at hf; omega⟩
    have ha : s.stored a := (mem_occupiedRIDs s a).1 (by rw [hL]; simp)
    rw [scanFrom, if_neg (stored_ne_INVALID s a ha), GetNextRID_cons s hn pre a b rest hL]
    simp only
    rw [ih b (pre ++ [a]) f1 (by rw [hL]; simp) (by simp at hf ⊢; omega)]
    rfl

/-- The forward scan returns the occupied slots of the data pages in order,
and leaves the state as it was. -/
theorem scan_eq (s : TableHandle) (hn : s.tab_hdr_.rec_per_page_ < 2 ^ 64) :
    s.scan = some (s.occupiedRIDs, s) := by
  unfold scan
  obtain ⟨first, e, hspec⟩ := GetFirstRID_spec s
  rw [e]
  simp only
  cases hL : s.occupiedRIDs with
  | nil =>
    have hfirst : first = INVALID_RID := by
      rcases hspec with ⟨h1, -⟩ | ⟨h1, -⟩
      · exact h1
      · have := (mem_occupiedRIDs s first).2 h1
        rw [hL] at this
        cases this
    rw [hfirst]
    simp [scanFrom]
  | cons a rest =>
    have hs := sorted_occupiedRIDs s
    rw [hL] at hs
    have ha : s.stored a := (mem_occupiedRIDs s a).1 (by rw [hL]; simp)
    have hfirst : first = a := by
      rcases hspec with ⟨-, h2⟩ | ⟨h1, h2⟩
      · exact absurd ha (h2 a)
      · by_contra hne
        have hm := (mem_occupiedRIDs s first).2 h1
        rw [hL] at hm
        rcases List.mem_cons.1 hm with h | h
        · exact hne h
        · exact h2 a ha ((List.pairwise_cons.1 hs).1 first h)
    rw [hfirst]
    apply scanFrom_suffix s hn rest a [] _ (by rw [hL]; rfl)
    have hlen := length_occupiedRIDs s
    rw [hL, List.length_cons] at hlen
    have hmul : (s.tab_hdr_.page_num_ - 1) * s.tab_hdr_.rec_per_page_ ≤
        s.tab_hdr_.page_num_ * s.tab_hdr_.rec_per_page_ :=
      Nat.mul_le_mul_right _ (Nat.sub_le _ _)
    omega

/-- C17: in every table state (with `rec_per_page_` a `size_t` value) the
forward scan, `GetFirstRID` and then `GetNextRID` until `INVALID_RID`, returns
and leaves the state as it was; the RIDs it meets are exactly the occupied
slots of pages `1 .. page_num_ - 1`, each once, in strictly ascending
`(page, slot)` order; and for a RID of a data page `GetNextRID(rid)` is the
least occupied RID greater than `rid`, or `INVALID_RID` if there is none. -/
theorem C17_scan_enumerates_occupied_slots (s : TableHandle)
    (hn : s.tab_hdr_.rec_per_page_ < 2 ^ 64) :
    s.scan = some (s.occupiedRIDs, s) ∧
    (∀ r, r ∈ s.occupiedRIDs ↔ s.stored r) ∧
    s.occupiedRIDs.Pairwise ridLt ∧
    s.occupiedRIDs.Nodup ∧
    (∀ rid : RID, FILE_HEADER_PAGE_ID < rid.page_no → -1 ≤ rid.slot_no →
      rid.slot_no + 1 < 2 ^ 64 →
      ∃ next, s.GetNextRID rid = some (next, s) ∧
        ((next = INVALID_RID ∧ ∀ r, s.stored r → ¬ ridLt rid r) ∨
          (s.stored next ∧ ridLt rid next ∧
            ∀ r, s.stored r → ridLt rid r → ¬ ridLt r next))) := by
  refine ⟨scan_eq s hn, mem_occupiedRIDs s, sorted_occupiedRIDs s, ?_,
    fun rid h0 h1 h2 => GetNextRID_spec s rid h0 h1 h2⟩
  apply (sorted_occupiedRIDs s).imp_of_mem
  intro a b _ _ hab e
  rw [e] at hab
  exact ridLt_irrefl _ hab

set_option maxRecDepth 100000 in
/-- C17 in the state `fullHead`: the scan meets the four slots of pages 1 and
2 in order. -/
theorem C17_scan_enumerates_occupied_slots_witness :
    fullHead.scan = some ([⟨1, 0⟩, ⟨1, 1⟩, ⟨2, 0⟩, ⟨2, 1⟩], fullHead) := by
  have h := (C17_scan_enumerates_occupied_slots fullHead (by decide)).1
  have e : fullHead.occupiedRIDs = [⟨1, 0⟩, ⟨1, 1⟩, ⟨2, 0⟩, ⟨2, 1⟩] := by decide
  rw [e] at h
  exact h

end TableHandle

namespace BufferPoolManager

/-! ## Buffer pool: `FlushPage` twice (claim C27) -/

theorem FlushPage_resident (s : BufferPoolManager) (fid pid f : Int)
    (hres : s.find fid pid = some f) :
    (s.FlushPage fid pid).1 = true ∧
    (s.FlushPage fid pid).2.find fid pid = some f ∧
    ((s.FlushPage fid pid).2.frames_ f).is_dirty_ = false ∧
    ((s.FlushPage fid pid).2.frames_ f).pin_count_ = (s.frames_ f).pin_count_ ∧
    ((s.FlushPage fid pid).2.frames_ f).page_ = (s.frames_ f).page_ ∧
    (s.FlushPage fid pid).2.page_frame_lookup_ = s.page_frame_lookup_ ∧
    (∀ g, g ≠ f → (s.FlushPage fid pid).2.frames_ g = s.frames_ g) ∧
    (s.FlushPage fid pid).2.disk_manager_ =
      (if (s.frames_ f).is_dirty_ then
        s.disk_manager_.WritePage fid pid (s.frames_ f).page_.data_
       else s.disk_manager_) := by
  by_cases hd : (s.frames_ f).is_dirty_ = true
  · have e : s.FlushPage fid pid =
        (true, { s with
          disk_manager_ := s.disk_manager_.WritePage fid pid (s.frames_ f).page_.data_,
          frames_ := Function.update s.frames_ f ((s.frames_ f).SetDirty false) }) := by
      unfold FlushPage
      rw [hres]
      simp only [hd, if_true]
    rw [e, if_pos hd]
    refine ⟨rfl, hres, ?_, ?_, ?_, rfl, ?_, rfl⟩
    · show (Function.update s.frames_ f ((s.frames_ f).SetDirty false) f).is_dirty_ = false
      rw [Function.update_same]; rfl
    · show (Function.update s.frames_ f ((s.frames_ f).SetDirty false) f).pin_count_ = _
      rw [Function.update_same]; rfl
    · show (Function.update s.frames_ f ((s.frames_ f).SetDirty false) f).page_ = _
      rw [Function.update_same]; rfl
    · intro g hg
      show Function.update s.frames_ f ((s.frames_ f).SetDirty false) g = _
      rw [Function.update_noteq hg]
  · have hd2 : (s.frames_ f).is_dirty_ = false := by simpa using hd
    have e : s.FlushPage fid pid = (true, s) := by
      unfold FlushPage
      rw [hres]
      simp only [hd2, Bool.false_eq_true, if_false]
    rw [e, if_neg hd]
    exact ⟨rfl, hres, hd2, rfl, rfl, rfl, fun _ _ => rfl, rfl⟩

theorem FlushPage_clean (s : BufferPoolManager) (fid pid : Int)
    (h : ∀ f, s.find fid pid = some f → (s.frames_ f).is_dirty_ = false) :
    s.FlushPage fid pid = ((s.find fid pid).isSome, s) := by
  unfold FlushPage
  cases hf : s.find fid pid with
  | none => rfl
  | some f =>
    simp only [h f hf, Bool.false_eq_true, if_false, Option.isSome_some]

theorem FlushPage_fst (s : BufferPoolManager) (fid pid : Int) :
    (s.FlushPage fid pid).1 = (s.find fid pid).isSome := by
  unfold FlushPage
  cases hf : s.find fid pid with
  | none => rfl
  | some f =>
    simp only
    split <;> rfl

theorem FlushPage_twice (s : BufferPoolManager) (fid pid : Int) :
    (s.FlushPage fid pid).2.FlushPage fid pid = s.FlushPage fid pid := by
  cases hf : s.find fid pid with
  | none =>
    have e : s.FlushPage fid pid = (false, s) := by
      unfold FlushPage
      rw [hf]
    rw [e]
    exact e
  | some f =>
    obtain ⟨h1, h2, h3, -⟩ := FlushPage_resident s fid pid f hf
    rw [FlushPage_clean (s.FlushPage fid pid).2 fid pid (fun g hg => by
      rw [h2] at hg
      simp only [Option.some.injEq] at hg
      rw [← hg]; exact h3)]
    rw [h2]
    apply Prod.ext
    · simp only [Option.isSome_some]
      exact h1.symm
    · rfl

/-- C27: for every pool state and page, a second `FlushPage(fid, pid)` right
after the first returns what the first returned and leaves the state of the
first, the disk with its log of writes included: it writes nothing.  After a
flush of a resident page the page is still resident in the same frame, the
frame is clean, its pin count and bytes are as before, and the disk received
the bytes of the page exactly if the frame was dirty. -/
theorem C27_FlushPage_idempotent (s : BufferPoolManager) (fid pid : Int) :
    (s.FlushPage fid pid).2.FlushPage fid pid = s.FlushPage fid pid ∧
    ((s.FlushPage fid pid).2.FlushPage fid pid).2.disk_manager_.writes =
      (s.FlushPage fid pid).2.disk_manager_.writes ∧
    (∀ f, s.find fid pid = some f →
      (s.FlushPage fid pid).1 = true ∧
      (s.FlushPage fid pid).2.find fid pid = some f ∧
      ((s.FlushPage fid pid).2.frames_ f).is_dirty_ = false ∧
      ((s.FlushPage fid pid).2.frames_ f).pin_count_ = (s.frames_ f).pin_count_ ∧
      ((s.FlushPage fid pid).2.frames_ f).page_ = (s.frames_ f).page_ ∧
      (s.FlushPage fid pid).2.page_frame_lookup_ = s.page_frame_lookup_ ∧
      (∀ g, g ≠ f → (s.FlushPage fid pid).2.frames_ g = s.frames_ g) ∧
      (s.FlushPage fid pid).2.disk_manager_ =
        (if (s.frames_ f).is_dirty_ then
          s.disk_manager_.WritePage fid pid (s.frames_ f).page_.data_
         else s.disk_manager_)) :=
  ⟨FlushPage_twice s fid pid, by rw [FlushPage_twice],
    fun f hf => FlushPage_resident s fid pid f hf⟩


/-- C27 in the scenario with the dirty pages A and B resident: the first flush
of A writes its bytes, the second writes nothing more, and A stays resident in
frame 0 with a clear dirty bit. -/
theorem C27_FlushPage_idempotent_witness :
    ((scenarioAB.FlushPage 0 1).2.FlushPage 0 1).2.disk_manager_.writes = [(0, 1, [1, 1])] ∧
    (scenarioAB.FlushPage 0 1).2.find 0 1 = some 0 ∧
    ((scenarioAB.FlushPage 0 1).2.frames_ 0).is_dirty_ = false := by
  have h := C27_FlushPage_idempotent scenarioAB 0 1
  refine ⟨?_, (h.2.2 0 (by decide)).2.1, (h.2.2 0 (by decide)).2.2.1⟩
  rw [h.2.1]
  decide

end BufferPoolManager

/-! ## Replacers: the size counts the evictable entries (claim C22) -/

namespace LRUKReplacer

theorem lruk_Sized_Pin (r : LRUKReplacer) (hs : r.Sized) (f : Int) : (r.Pin f).Sized := by
  obtain ⟨hn, hc⟩ := hs
  rw [lruk_Pin_eq]
  refine ⟨?_, ?_⟩
  · simp only
    rw [keys_map_key _ f (fun n : LRUKNode => (n.AddHistory r.cur_ts_).SetEvictable false)]
    exact lruk_pinStore_nodup r f hn
  · simp only
    rw [lruk_countEv_map_key _ f (fun n : LRUKNode => (n.AddHistory r.cur_ts_).SetEvictable false)
      (lruk_pinStore_nodup r f hn), lruk_pinStore_countEv, hc]
    cases List.lookup f (pinStore r f) with
    | none => simp
    | some n => by_cases hev : n.is_evictable_ = true <;> simp [hev]

theorem lruk_Sized_Unpin (r : LRUKReplacer) (hs : r.Sized) (f : Int) : (r.Unpin f).Sized := by
  obtain ⟨hn, hc⟩ := hs
  unfold Unpin
  cases hl : List.lookup f r.node_store_ with
  | none =>
    simp only
    split
    · exact ⟨hn, hc⟩
    · refine ⟨keys_append_single_nodup _ _ _ hn hl, ?_⟩
      simp only
      rw [lruk_countEv_append, hc]
      simp [countEv, LRUKNode.mk0]
  | some n =>
    simp only
    by_cases hev : n.is_evictable_ = true
    · simp only [hev, Bool.not_true, Bool.false_eq_true, if_false]
      exact ⟨hn, hc⟩
    · have : (!n.is_evictable_) = true := by simpa using hev
      simp only [this, if_true]
      refine ⟨?_, ?_⟩
      · simp only
        rw [keys_map_key _ f (fun n : LRUKNode => n.SetEvictable true)]
        exact hn
      · simp only
        rw [lruk_countEv_map_key _ f (fun n : LRUKNode => n.SetEvictable true) hn, hl, hc]
        simp [hev]

theorem lruk_Sized_Victim (r : LRUKReplacer) (hs : r.Sized) : (r.Victim).2.Sized := by
  cases hv : (r.Victim).1 with
  | none => rw [lruk_Victim_snd_of_none r hv]; exact hs
  | some v =>
    obtain ⟨⟨n, hm, hev⟩, heq⟩ := lruk_Victim_some r v hv
    obtain ⟨hn, hc⟩ := hs
    rw [heq]
    refine ⟨keys_filter_ne_nodup _ _ hn, ?_⟩
    have := lruk_countEv_filter_ne _ v n hn hm hev
    simp only
    rw [hc]; omega

end LRUKReplacer

namespace Replacer

theorem SizeInv_call (r : Replacer) (h : r.SizeInv) (c : Call) : (r.call c).SizeInv := by
  cases c with
  | pin f =>
    cases r with
    | lru r => exact ⟨LRUReplacer.lru_Pin_WF r h.1 f, LRUReplacer.lru_Sized_Pin r h.1 h.2 f⟩
    | lruk r => exact LRUKReplacer.lruk_Sized_Pin r h f
  | unpin f =>
    cases r with
    | lru r => exact ⟨LRUReplacer.lru_Unpin_WF r h.1 f, LRUReplacer.lru_Sized_Unpin r h.1 h.2 f⟩
    | lruk r => exact LRUKReplacer.lruk_Sized_Unpin r h f
  | victim =>
    cases r with
    | lru r => exact ⟨LRUReplacer.lru_Victim_WF r h.1, LRUReplacer.lru_Sized_Victim r h.1 h.2⟩
    | lruk r => exact LRUKReplacer.lruk_Sized_Victim r h

theorem SizeInv_calls (cs : List Call) : ∀ r : Replacer, r.SizeInv → (r.calls cs).SizeInv := by
  induction cs with
  | nil => intro r h; exact h
  | cons c cs ih => intro r h; exact ih _ (SizeInv_call r h c)

theorem Size_of_SizeInv (r : Replacer) (h : r.SizeInv) : r.Size = (r.evictableCount : Int) := by
  cases r with
  | lru r => exact h.2
  | lruk r => exact h.2

/-- C22: after every sequence of `Pin`, `Unpin` and `Victim` calls, with any
frame ids, on a freshly constructed `LRUReplacer` or `LRUKReplacer` (any
capacity, any `K`), `Size()` is the number of tracked entries whose evictable
flag is set. -/
theorem C22_Size_counts_evictable (cs : List Call) (n k : Nat) :
    ((newLRU n).calls cs).Size = (((newLRU n).calls cs).evictableCount : Int) ∧
    ((newLRUK n k).calls cs).Size = (((newLRUK n k).calls cs).evictableCount : Int) :=
  ⟨Size_of_SizeInv _ (SizeInv_calls cs _ ⟨List.nodup_nil, rfl⟩),
   Size_of_SizeInv _ (SizeInv_calls cs _ ⟨List.nodup_nil, rfl⟩)⟩

/-- C22 on `mixedCalls`: both replacers hold two evictable entries and report
the size 2. -/
theorem C22_Size_counts_evictable_witness :
    ((newLRU 3).calls mixedCalls).evictableCount = 2 ∧
    ((newLRU 3).calls mixedCalls).Size = 2 ∧
    ((newLRUK 3 2).calls mixedCalls).evictableCount = 2 ∧
    ((newLRUK 3 2).calls mixedCalls).Size = 2 := by
  have h := C22_Size_counts_evictable mixedCalls 3 2
  refine ⟨by decide, ?_, by decide, ?_⟩
  · rw [h.1]; decide
  · rw [h.2]; decide

end Replacer

namespace LRUKReplacer

/-! ## LRU-K replacer: `Victim` takes the entry that ranks first (claim C21) -/

theorem outranks_refl (c : Nat) (n : LRUKNode) : n.outranks c n := by
  unfold LRUKNode.outranks
  cases n.GetBackwardKDistance c with
  | none => exact le_refl _
  | some d => exact le_refl _

theorem Best_step (c : Nat) (acc : VictimAcc) (l : List (Int × LRUKNode))
    (p : Int × LRUKNode) (hd : ∀ d, p.2.GetBackwardKDistance c = some d → 0 < d)
    (h : Best c acc l) : Best c (victimStep c acc p) (l ++ [p]) := by
  unfold victimStep
  by_cases hev : p.2.is_evictable_ = true
  · simp only [hev, Bool.not_true, Bool.false_eq_true, if_false]
    cases hdist : p.2.GetBackwardKDistance c with
    | none =>
      simp only
      rcases h with ⟨hA, hinit⟩ | ⟨n, hm, hne, hmax, hearly, hbest⟩
      · -- nothing chosen so far
        rw [hinit]
        simp only [victimInit]
        refine Or.inr ⟨p.2, by simp, hev, hdist.symm, fun _ => rfl, ?_⟩
        intro e he hee
        rcases List.mem_append.1 he with h1 | h1
        · rw [hA e h1] at hee; cases hee
        · rw [List.mem_singleton] at h1
          rw [h1]; exact outranks_refl c p.2
      · cases hmd : acc.max_dist with
        | some m =>
          simp only
          refine Or.inr ⟨p.2, by simp, hev, hdist.symm, fun _ => rfl, ?_⟩
          intro e he hee
          rcases List.mem_append.1 he with h1 | h1
          · have := hbest e h1 hee
            unfold LRUKNode.outranks at this ⊢
            rw [← hmax, hmd] at this
            rw [hdist]
            cases hde : e.2.GetBackwardKDistance c with
            | none => rw [hde] at this; exact absurd this id
            | some d => trivial
          · rw [List.mem_singleton] at h1
            rw [h1]; exact outranks_refl c p.2
        | none =>
          simp only
          have hn : n.GetBackwardKDistance c = none := by rw [← hmax, hmd]
          have hea := hearly hmd
          by_cases hlt : p.2.GetEarliestTimestamp < acc.earliest_ts
          · rw [if_pos hlt]
            refine Or.inr ⟨p.2, by simp, hev, ?_, fun _ => rfl, ?_⟩
            · simp only [hmd, hdist]
            · intro e he hee
              rcases List.mem_append.1 he with h1 | h1
              · have := hbest e h1 hee
                unfold LRUKNode.outranks at this ⊢
                rw [hn] at this
                rw [hdist]
                cases hde : e.2.GetBackwardKDistance c with
                | none =>
                  rw [hde] at this
                  simp only at this ⊢
                  omega
                | some d => trivial
              · rw [List.mem_singleton] at h1
                rw [h1]; exact outranks_refl c p.2
          · rw [if_neg hlt]
            refine Or.inr ⟨n, List.mem_append_left _ hm, hne, hmax, hearly, ?_⟩
            intro e he hee
            rcases List.mem_append.1 he with h1 | h1
            · exact hbest e h1 hee
            · rw [List.mem_singleton] at h1
              rw [h1]
              unfold LRUKNode.outranks
              rw [hn, hdist]
              simp only
              omega
    | some d =>
      simp only
      have hdpos := hd d hdist
      rcases h with ⟨hA, hinit⟩ | ⟨n, hm, hne, hmax, hearly, hbest⟩
      · rw [hinit]
        simp only [victimInit, gt_iff_lt, hdpos, if_true]
        refine Or.inr ⟨p.2, by simp, hev, hdist.symm, fun h0 => (by simp at h0), ?_⟩
        intro e he hee
        rcases List.mem_append.1 he with h1 | h1
        · rw [hA e h1] at hee; cases hee
        · rw [List.mem_singleton] at h1
          rw [h1]; exact outranks_refl c p.2
      · cases hmd : acc.max_dist with
        | some m =>
          simp only
          have hn : n.GetBackwardKDistance c = some m := by rw [← hmax, hmd]
          by_cases hgt : d > m
          · rw [if_pos hgt]
            refine Or.inr ⟨p.2, by simp, hev, hdist.symm, fun h0 => (by simp at h0), ?_⟩
            intro e he hee
            rcases List.mem_append.1 he with h1 | h1
            · have := hbest e h1 hee
              unfold LRUKNode.outranks at this ⊢
              rw [hn] at this
              rw [hdist]
              cases hde : e.2.GetBackwardKDistance c with
              | none => rw [hde] at this; exact absurd this id
              | some d1 =>
                rw [hde] at this
                simp only at this ⊢
                omega
            · rw [List.mem_singleton] at h1
              rw [h1]; exact outranks_refl c p.2
          · rw [if_neg hgt]
            refine Or.inr ⟨n, List.mem_append_left _ hm, hne, hmax, hearly, ?_⟩
            intro e he hee
            rcases List.mem_append.1 he with h1 | h1
            · exact hbest e h1 hee
            · rw [List.mem_singleton] at h1
              rw [h1]
              unfold LRUKNode.outranks
              rw [hn, hdist]
              simp only
              omega
        | none =>
          simp only
          have hn : n.GetBackwardKDistance c = none := by rw [← hmax, hmd]
          refine Or.inr ⟨n, List.mem_append_left _ hm, hne, hmax, hearly, ?_⟩
          intro e he hee
          rcases List.mem_append.1 he with h1 | h1
          · exact hbest e h1 hee
          · rw [List.mem_singleton] at h1
            rw [h1]
            unfold LRUKNode.outranks
            rw [hn, hdist]
            trivial
  · have hev2 : p.2.is_evictable_ = false := by simpa using hev
    simp only [hev2, Bool.not_false, if_true]
    rcases h with ⟨hA, hinit⟩ | ⟨n, hm, hne, hmax, hearly, hbest⟩
    · refine Or.inl ⟨?_, hinit⟩
      intro e he
      rcases List.mem_append.1 he with h1 | h1
      · exact hA e h1
      · rw [List.mem_singleton] at h1
        rw [h1]; exact hev2
    · refine Or.inr ⟨n, List.mem_append_left _ hm, hne, hmax, hearly, ?_⟩
      intro e he hee
      rcases List.mem_append.1 he with h1 | h1
      · exact hbest e h1 hee
      · rw [List.mem_singleton] at h1
        rw [h1, hev2] at hee
        cases hee

theorem Best_foldl (c : Nat) (l2 : List (Int × LRUKNode)) :
    ∀ (l1 : List (Int × LRUKNode)) (acc : VictimAcc),
      (∀ p ∈ l2, ∀ d, p.2.GetBackwardKDistance c = some d → 0 < d) →
      Best c acc l1 → Best c (l2.foldl (victimStep c) acc) (l1 ++ l2) := by
  induction l2 with
  | nil =>
    intro l1 acc _ h
    rw [List.append_nil]
    exact h
  | cons p ps ih =>
    intro l1 acc hd h
    rw [List.foldl_cons]
    have h1 := Best_step c acc l1 p (hd p (List.mem_cons_self _ _)) h
    have h2 := ih (l1 ++ [p]) _ (fun q hq => hd q (List.mem_cons_of_mem _ hq)) h1
    rw [List.append_assoc] at h2
    exact h2

/-- In a well-formed replacer that tracks an evictable frame, `Victim` returns
an evictable frame that is evicted no later than every other. -/
theorem Victim_outranks (r : LRUKReplacer) (hw : r.WF)
    (hex : ∃ e ∈ r.node_store_, e.2.is_evictable_ = true) :
    ∃ v n, (r.Victim).1 = some v ∧ (v, n) ∈ r.node_store_ ∧ n.is_evictable_ = true ∧
      ∀ g m, (g, m) ∈ r.node_store_ → m.is_evictable_ = true → n.outranks r.cur_ts_ m := by
  obtain ⟨hn, hc, hall, hk⟩ := hw
  have hb := Best_foldl r.cur_ts_ r.node_store_ [] victimInit
    (fun p hp d hd => lruk_dist_pos p.2 r.cur_ts_ (hall p hp).2.2 d hd)
    (Or.inl ⟨fun e he => (by cases he), rfl⟩)
  rw [List.nil_append] at hb
  obtain ⟨e0, he0, hev0⟩ := hex
  rcases hb with ⟨hA, -⟩ | ⟨n, hm, hne, -, -, hbest⟩
  · rw [hA e0 he0] at hev0; cases hev0
  · have hvalid : (victimLoop r).victim_fid ≠ INVALID_FRAME_ID := (hall _ hm).1
    have hsize : r.cur_size_ ≠ 0 := by
      rw [hc]
      have : 0 < countEv r.node_store_ := by
        unfold countEv
        apply List.length_pos_of_mem (a := e0)
        exact List.mem_filter.2 ⟨he0, hev0⟩
      omega
    refine ⟨(victimLoop r).victim_fid, n, ?_, hm, hne, fun g m hg hme => hbest (g, m) hg hme⟩
    unfold Victim
    rw [if_neg hsize, if_pos hvalid]

/-- C21: in every well-formed `LRUKReplacer` state that tracks an evictable
frame and in which every evictable frame has a recorded access, `Victim`
returns an evictable frame whose backward-K-distance at the current clock is
the largest: no evictable frame has a larger one, a frame with fewer than K
recorded accesses (distance `+∞`) goes before every frame with a finite
distance, and among the frames with distance `+∞` the victim has the earliest
first recorded timestamp. -/
theorem C21_Victim_has_largest_backward_k_distance (r : LRUKReplacer) (hw : r.WF)
    (hpinned : ∀ e ∈ r.node_store_, e.2.is_evictable_ = true → e.2.history_ ≠ [])
    (hex : ∃ e ∈ r.node_store_, e.2.is_evictable_ = true) :
    ∃ v n, (r.Victim).1 = some v ∧ (v, n) ∈ r.node_store_ ∧ n.is_evictable_ = true ∧
      n.history_ ≠ [] ∧
      ∀ g m, (g, m) ∈ r.node_store_ → m.is_evictable_ = true → n.outranks r.cur_ts_ m := by
  obtain ⟨v, n, h1, h2, h3, h4⟩ := Victim_outranks r hw hex
  exact ⟨v, n, h1, h2, h3, hpinned _ h2 h3, h4⟩

set_option maxRecDepth 100000 in
/-- Witness for C21 with `K = 2`: after accesses to the frames 1, 2, 3, 1, 2
and `Unpin` of all three, the frames 1 and 2 have two recorded accesses and
frame 3 has one, so frame 3 has distance `+∞` and `Victim` returns it. -/
theorem C21_Victim_has_largest_backward_k_distance_witness :
    scenarioK2.WF ∧ (scenarioK2.Victim).1 = some 3 ∧
    scenarioK2.node_store_.map (fun e => (e.1, e.2.GetBackwardKDistance scenarioK2.cur_ts_)) =
      [(1, some 5), (2, some 4), (3, none)] ∧
    ∃ v n, (scenarioK2.Victim).1 = some v ∧ (v, n) ∈ scenarioK2.node_store_ ∧
      n.is_evictable_ = true ∧ n.history_ ≠ [] ∧
      ∀ g m, (g, m) ∈ scenarioK2.node_store_ → m.is_evictable_ = true →
        n.outranks scenarioK2.cur_ts_ m :=
  have hw : scenarioK2.WF := by unfold WF; decide
  ⟨hw, by decide, by decide,
    C21_Victim_has_largest_backward_k_distance scenarioK2 hw (by decide) (by decide)⟩

end LRUKReplacer

/-! ## B+tree: the leaves of a well-formed tree -/

theorem leavesOf_entries (nodes : Int → Option BPTreePage) (h : Nat) :
    ∀ pid, (leavesOf nodes h pid).flatMap (fun l => l.entries) = entriesOf nodes h pid := by
  induction h with
  | zero =>
    intro pid
    unfold leavesOf entriesOf
    cases hx : nodes pid with
    | none => rfl
    | some x =>
      cases x with
      | leaf l => simp
      | internal nd => rfl
  | succ j ih =>
    intro pid
    unfold leavesOf entriesOf
    cases hx : nodes pid with
    | none => rfl
    | some x =>
      cases x with
      | leaf l => rfl
      | internal nd =>
        simp only
        rw [List.flatMap_assoc]
        congr 1
        funext e
        exact ih e.2

theorem leavesOf_zero (nodes : Int → Option BPTreePage) (pid : Int) (l : BPTreeLeafPage)
    (h : nodes pid = some (.leaf l)) : leavesOf nodes 0 pid = [l] := by
  unfold leavesOf
  rw [h]

theorem leavesOf_succ (nodes : Int → Option BPTreePage) (h : Nat) (pid : Int)
    (nd : BPTreeInternalPage) (hx : nodes pid = some (.internal nd)) :
    leavesOf nodes (h + 1) pid = nd.entries.flatMap (fun e => leavesOf nodes h e.2) := by
  rw [leavesOf]
  rw [hx]

theorem KidsSeg_leaves (nodes : Int → Option BPTreePage) (j : Nat) (par : Int)
    (ih : ∀ c l u f n, WFSub nodes j c par l u f n →
      LeafWalk nodes f n (leavesOf nodes j c) ∧
      ((leavesOf nodes j c).map (fun l => l.page_id_)).Sublist (pagesOf nodes j c)) (hi : Int) :
    ∀ (es : List (Int × Int)) (f n : Int),
      KidsSeg (fun c l u f n => WFSub nodes j c par l u f n) es hi f n →
      LeafWalk nodes f n (es.flatMap (fun e => leavesOf nodes j e.2)) ∧
        ((es.flatMap (fun e => leavesOf nodes j e.2)).map (fun l => l.page_id_)).Sublist
          (es.flatMap (fun e => pagesOf nodes j e.2)) := by
  intro es
  induction es with
  | nil =>
    intro f n hk
    exact ⟨hk, List.Sublist.refl _⟩
  | cons e rest ihes =>
    intro f n hk
    obtain ⟨m, h1, h2⟩ := hk
    obtain ⟨b1, b3⟩ := ih _ _ _ _ _ h1
    obtain ⟨c1, c3⟩ := ihes m n h2
    refine ⟨?_, ?_⟩
    · rw [List.flatMap_cons]
      exact LeafWalk_append nodes _ _ m n f b1 c1
    · rw [List.flatMap_cons, List.map_append, List.flatMap_cons]
      exact List.Sublist.append b3 c3

/-- In a well-formed subtree the leaf chain from the leftmost leaf visits the
leaves of the subtree in their order and arrives at `n`. -/
theorem walk_leavesOf (nodes : Int → Option BPTreePage) (h : Nat) :
    ∀ (pid par lo hi f n : Int), WFSub nodes h pid par lo hi f n →
      LeafWalk nodes f n (leavesOf nodes h pid) ∧
        ((leavesOf nodes h pid).map (fun l => l.page_id_)).Sublist (pagesOf nodes h pid) := by
  induction h with
  | zero =>
    intro pid par lo hi f n hw
    obtain ⟨l, a1, a2, a3, a4, a5, a6, a7, a8, a9⟩ := hw
    rw [leavesOf_zero _ _ _ a1]
    refine ⟨⟨by rw [a6]; exact a1, by rw [a6]; exact a2, a5⟩, ?_⟩
    simp only [List.map_cons, List.map_nil, pagesOf, a2]
    exact List.Sublist.refl _
  | succ j ih =>
    intro pid par lo hi f n hw
    obtain ⟨nd, a1, a2, a3, a4, hk⟩ := hw
    rw [KidsOK_iff_setHeadKey] at hk
    obtain ⟨b1, b3⟩ := KidsSeg_leaves nodes j pid (fun c l u f n hc => ih c pid l u f n hc)
      hi _ f n hk.2
    rw [flatMap_setHeadKey] at b1 b3
    rw [flatMap_setHeadKey] at b3
    rw [leavesOf_succ _ _ _ _ a1]
    refine ⟨b1, ?_⟩
    rw [pagesOf_succ _ _ _ _ a1]
    exact b3.trans (List.sublist_cons_self _ _)

theorem LeafWalk_mem (nodes : Int → Option BPTreePage) (n : Int) :
    ∀ (ls : List BPTreeLeafPage) (p : Int), LeafWalk nodes p n ls →
      ∀ l ∈ ls, nodes l.page_id_ = some (.leaf l) := by
  intro ls
  induction ls with
  | nil => intro p _ l hl; cases hl
  | cons x rest ih =>
    intro p hw l hl
    obtain ⟨a1, a2, a3⟩ := hw
    rcases List.mem_cons.1 hl with h1 | h1
    · rw [h1, a2]; exact a1
    · exact ih _ a3 l h1

/-- The descent to the leftmost leaf arrives at the first leaf of the chain. -/
theorem leftmost_descent (t : BPTreeIndex) (key : Int) (h : Nat) :
    ∀ (pid par lo hi f n : Int) (fuel : Nat), WFSub t.nodes h pid par lo hi f n → h < fuel →
      t.FindLeafPageLoop key true fuel pid = some f := by
  induction h with
  | zero =>
    intro pid par lo hi f n fuel hw hfuel
    obtain ⟨l, a1, a2, a3, a4, a5, a6, a7, a8, a9⟩ := hw
    obtain ⟨fuel, rfl⟩ : ∃ k, fuel = k + 1 := ⟨fuel - 1, by omega⟩
    simp only [BPTreeIndex.FindLeafPageLoop, a1, a6]
  | succ j ih =>
    intro pid par lo hi f n fuel hw hfuel
    obtain ⟨nd, a1, a2, a3, a4, hk⟩ := hw
    obtain ⟨fuel, rfl⟩ : ∃ k, fuel = k + 1 := ⟨fuel - 1, by omega⟩
    cases hes : nd.entries with
    | nil => rw [hes] at hk; exact absurd hk (by simp [KidsOK])
    | cons e rest =>
      rw [hes] at hk
      have hv : nd.ValueAt 0 = some e.2 := by
        simp [BPTreeInternalPage.ValueAt, hes]
      have hc : ∃ u m, WFSub t.nodes j e.2 pid lo u f m := by
        cases rest with
        | nil => exact ⟨hi, n, hk⟩
        | cons e2 r2 =>
          obtain ⟨m, h1, -⟩ := hk
          exact ⟨e2.1, m, h1⟩
      obtain ⟨u, m, hc⟩ := hc
      simp only [BPTreeIndex.FindLeafPageLoop, a1, if_true, hv]
      exact ih e.2 pid lo u f m fuel hc (by omega)

namespace BPTreeIndex

/-! ## B+tree: the header counts the entries (claims C23 and C26) -/

theorem Stored_eq_nil_of_root (t : BPTreeIndex) (h : t.header.root_page_id_ = INVALID_PAGE_ID) :
    t.Stored = [] := by
  unfold Stored
  rw [if_pos h]

theorem leaves_entries (t : BPTreeIndex) :
    t.leaves.flatMap (fun l => l.entries) = t.Stored := by
  unfold leaves Stored
  by_cases h : t.header.root_page_id_ = INVALID_PAGE_ID
  · rw [if_pos h, if_pos h]; rfl
  · rw [if_neg h, if_neg h]
    exact leavesOf_entries _ _ _

theorem sum_map_length_flatMap {α β : Type} (g : α → List β) (l : List α) :
    (l.map (fun x => (g x).length)).sum = (l.flatMap g).length := by
  induction l with
  | nil => rfl
  | cons a rest ih =>
    rw [List.map_cons, List.sum_cons, List.flatMap_cons, List.length_append, ih]

theorem leafSizeSum_eq (t : BPTreeIndex) : t.leafSizeSum = t.Stored.length := by
  unfold leafSizeSum
  rw [← leaves_entries]
  exact sum_map_length_flatMap (fun l => l.entries) t.leaves

theorem Sized_Insert (t t1 : BPTreeIndex) (key : Int) (rid : RID) (hs : t.Sized)
    (hd : t.InsertDone t1 key rid) : t1.Sized := by
  obtain ⟨-, ⟨A, B, s1, s2⟩, hn, -, -⟩ := hd
  unfold Sized at hs ⊢
  rw [hn, s2]
  rw [s1] at hs
  by_cases hroot : t.header.root_page_id_ = INVALID_PAGE_ID
  · rw [if_pos hroot]
    have := Stored_eq_nil_of_root t hroot
    rw [s1] at this
    have hA : A = [] := (List.append_eq_nil.1 this).1
    have hB : B = [] := (List.append_eq_nil.1 this).2
    rw [hA, hB]
    rfl
  · rw [if_neg hroot, hs]
    simp only [List.length_append, List.length_cons]
    push_cast
    ring

theorem Sized_Delete (t : BPTreeIndex) (key : Int) (r : Bool × BPTreeIndex) (hs : t.Sized)
    (hd : t.DeleteDone key r) : r.2.Sized := by
  obtain ⟨-, hf, ht⟩ := hd
  cases hb : r.1 with
  | false =>
    rw [(hf hb).1]
    exact hs
  | true =>
    obtain ⟨A, B, rid, s1, s2, hn⟩ := ht hb
    unfold Sized at hs ⊢
    rw [hn, s2, hs, s1]
    simp only [List.length_append, List.length_cons]
    push_cast
    ring

theorem Clear_header (t t1 : BPTreeIndex) (h : t.Clear = some t1) :
    t1.header.root_page_id_ = INVALID_PAGE_ID ∧ t1.header.num_entries_ = 0 ∧
    t1.header.tree_height_ = 0 := by
  unfold Clear at h
  simp only at h
  cases hc : (if t.header.root_page_id_ ≠ INVALID_PAGE_ID
      then ClearPage t.fuel t t.header.root_page_id_ else some t) with
  | none => rw [hc] at h; cases h
  | some t0 =>
    rw [hc] at h
    simp only at h
    cases h
    exact ⟨rfl, rfl, rfl⟩

theorem Reachable_Sized (t : BPTreeIndex) (hr : t.Reachable) : t.Sized := by
  induction hr with
  | init => rfl
  | insert t t1 key rid hr0 h ih =>
    obtain ⟨t2, h2, h3⟩ := Insert_ok t key rid (Reachable_Inv t hr0)
    rw [h] at h2
    cases h2
    exact Sized_Insert t t1 key rid ih h3
  | delete t key r hr0 h ih =>
    obtain ⟨r2, h2, h3⟩ := Delete_ok t key (Reachable_Inv t hr0)
    rw [h] at h2
    cases h2
    exact Sized_Delete t key r ih h3
  | clear t t1 _ h _ =>
    obtain ⟨h1, h2, -⟩ := Clear_header t t1 h
    unfold Sized
    rw [h2, Stored_eq_nil_of_root t1 h1]
    rfl

/-- The fold of `ClearPage` over children that are well-formed subtrees returns
and leaves the page store alone. -/
theorem ClearPage_fold (fuel : Nat) (nodes : Int → Option BPTreePage)
    (P : Int → Prop)
    (ih : ∀ (t : BPTreeIndex) (c : Int), t.nodes = nodes → P c →
      ∃ t1, ClearPage fuel t c = some t1 ∧ t1.nodes = nodes) :
    ∀ (es : List (Int × Int)) (t : BPTreeIndex), t.nodes = nodes → (∀ e ∈ es, P e.2) →
      ∃ t1, es.foldl (fun acc e => acc.bind (fun t1 => ClearPage fuel t1 e.2)) (some t) =
        some t1 ∧ t1.nodes = nodes := by
  intro es
  induction es with
  | nil =>
    intro t ht _
    exact ⟨t, rfl, ht⟩
  | cons e rest ihes =>
    intro t ht hP
    obtain ⟨t1, h1, h2⟩ := ih t e.2 ht (hP e (List.mem_cons_self _ _))
    obtain ⟨t2, h3, h4⟩ := ihes t1 h2 (fun x hx => hP x (List.mem_cons_of_mem _ hx))
    refine ⟨t2, ?_, h4⟩
    rw [List.foldl_cons]
    have : (some t).bind (fun t1 => ClearPage fuel t1 e.2) = some t1 := h1
    rw [this]
    exact h3

theorem KidsOK_all {P : Int → Int → Int → Int → Int → Prop} (es : List (Int × Int))
    (lo hi f n : Int) (hk : KidsOK P lo es hi f n) :
    ∀ e ∈ es, ∃ l u f1 n1, P e.2 l u f1 n1 := by
  induction es generalizing lo f with
  | nil => intro e he; cases he
  | cons e rest ih =>
    cases rest with
    | nil =>
      intro x hx
      rw [List.mem_singleton] at hx
      rw [hx]
      exact ⟨lo, hi, f, n, hk⟩
    | cons e2 rest2 =>
      obtain ⟨m, h1, h2⟩ := hk
      intro x hx
      rcases List.mem_cons.1 hx with hx | hx
      · rw [hx]; exact ⟨lo, e2.1, f, m, h1⟩
      · exact ih _ _ h2 x hx

/-- On a well-formed subtree `ClearPage` returns, given fuel above the height. -/
theorem ClearPage_total (nodes : Int → Option BPTreePage) (h : Nat) :
    ∀ (pid par lo hi f n : Int) (fuel : Nat) (t : BPTreeIndex), t.nodes = nodes →
      WFSub nodes h pid par lo hi f n → h < fuel →
      ∃ t1, ClearPage fuel t pid = some t1 ∧ t1.nodes = nodes := by
  induction h with
  | zero =>
    intro pid par lo hi f n fuel t ht hw hfuel
    obtain ⟨l, a1, -⟩ := hw
    obtain ⟨fuel, rfl⟩ : ∃ k, fuel = k + 1 := ⟨fuel - 1, by omega⟩
    refine ⟨t.DeletePage pid, ?_, ht⟩
    unfold ClearPage
    rw [ht, a1]
  | succ j ih =>
    intro pid par lo hi f n fuel t ht hw hfuel
    obtain ⟨nd, a1, a2, a3, a4, hk⟩ := hw
    obtain ⟨fuel, rfl⟩ : ∃ k, fuel = k + 1 := ⟨fuel - 1, by omega⟩
    have hall := KidsOK_all _ _ _ _ _ hk
    obtain ⟨t1, h1, h2⟩ := ClearPage_fold fuel nodes
      (fun c => ∃ l u f1 n1, WFSub nodes j c pid l u f1 n1)
      (fun t0 c ht0 hc => by
        obtain ⟨l, u, f1, n1, hc⟩ := hc
        exact ih c pid l u f1 n1 fuel t0 ht0 hc (by omega))
      nd.entries t ht hall
    refine ⟨t1.DeletePage pid, ?_, h2⟩
    unfold ClearPage
    rw [ht, a1]
    simp only
    rw [h1]

theorem Clear_ok (t : BPTreeIndex) (hinv : t.Inv) :
    ∃ t1, t.Clear = some t1 ∧ t1.Inv ∧ t1.header.root_page_id_ = INVALID_PAGE_ID ∧
      t1.header.num_entries_ = 0 ∧ t1.header.tree_height_ = 0 := by
  have hex : ∃ t1, t.Clear = some t1 := by
    unfold Clear
    simp only
    by_cases hroot : t.header.root_page_id_ = INVALID_PAGE_ID
    · rw [if_neg (not_not.2 hroot)]
      exact ⟨_, rfl⟩
    · rw [if_pos hroot]
      obtain ⟨-, -, fl, hA, hcase⟩ := hinv
      rcases hcase with ⟨h0, -⟩ | ⟨h, hT⟩
      · exact absurd h0 hroot
      obtain ⟨lo, hi, f, hw⟩ := hT.2.2.1
      have hfu := TreeOK_fuel t none fl h hA hT
      obtain ⟨t0, h1, -⟩ := ClearPage_total t.nodes h _ _ _ _ _ _ t.fuel t rfl hw (by omega)
      rw [h1]
      exact ⟨_, rfl⟩
  obtain ⟨t1, h1⟩ := hex
  exact ⟨t1, h1, Clear_Inv t t1 hinv h1, Clear_header t t1 h1⟩

theorem Stored_ne_nil (t : BPTreeIndex) (hinv : t.Inv)
    (hroot : t.header.root_page_id_ ≠ INVALID_PAGE_ID) : t.Stored ≠ [] := by
  obtain ⟨-, -, fl, hA, hcase⟩ := hinv
  rcases hcase with ⟨h0, -⟩ | ⟨h, hT⟩
  · exact absurd h0 hroot
  obtain ⟨lo, hi, f, hw⟩ := hT.2.2.1
  obtain ⟨q, q1, q2, q3, q4, q5, q6, l, par, n, hl, hwq⟩ :=
    FindLeafPage_of_TreeOK t none fl h hA hT lo lo (hi + 1) f
      (WFSub_weaken t.nodes h _ _ _ _ _ _ lo (hi + 1) (le_refl _) (by omega) hw) (le_refl _)
      (by have := WFSub_le _ _ _ _ _ _ _ _ hw; omega)
  have hmem : q.pid ∈ pagesOf t.nodes h t.header.root_page_id_ :=
    (Site_sublist t.nodes _ q q2).subset (by rw [q1]; exact mem_pagesOf_self _ _ _)
  have hfill := (hT.2.2.2.2 q.pid hmem).2.2.2 _ hl (by simp)
  have hsub := Site_entries t.nodes _ q q2
  rw [Stored_of_TreeOK t none fl h hT]
  intro hnil
  rw [q1, entriesOf_zero _ _ _ hl] at hsub
  have hfill : 1 ≤ l.entries.length := hfill.2.1
  cases hes : l.entries with
  | nil => rw [hes] at hfill; simp at hfill
  | cons x rest =>
    have := hsub x (by rw [hes]; exact List.mem_cons_self _ _)
    rw [hnil] at this
    cases this

/-- C23: in every state reachable from the empty index by `Insert`, `Delete`
and `Clear`, the sum of the sizes of all leaves equals `header.num_entries_`;
`Insert` returns and raises the count by one, `Delete` returns and lowers it
by one when it returns true and leaves it when it returns false, and `Clear`
returns and leaves the count 0. -/
theorem C23_num_entries_is_sum_of_leaf_sizes (t : BPTreeIndex) (hr : t.Reachable) :
    (t.leafSizeSum : Int) = t.header.num_entries_ ∧
    (∀ k r, ∃ t1, t.Insert k r = some t1 ∧
      t1.header.num_entries_ = t.header.num_entries_ + 1 ∧
      (t1.leafSizeSum : Int) = t1.header.num_entries_) ∧
    (∀ k, ∃ res, t.Delete k = some res ∧
      (res.1 = true → res.2.header.num_entries_ = t.header.num_entries_ - 1) ∧
      (res.1 = false → res.2.header.num_entries_ = t.header.num_entries_) ∧
      (res.2.leafSizeSum : Int) = res.2.header.num_entries_) ∧
    (∃ t1, t.Clear = some t1 ∧ t1.header.num_entries_ = 0 ∧ t1.leafSizeSum = 0) := by
  have hinv := Reachable_Inv t hr
  have hs := Reachable_Sized t hr
  refine ⟨?_, ?_, ?_, ?_⟩
  · rw [leafSizeSum_eq]; exact hs.symm
  · intro k r
    obtain ⟨t1, h1, h2⟩ := Insert_ok t k r hinv
    have hs1 := Sized_Insert t t1 k r hs h2
    refine ⟨t1, h1, ?_, by rw [leafSizeSum_eq]; exact hs1.symm⟩
    obtain ⟨-, -, hn, -, -⟩ := h2
    rw [hn]
    by_cases hroot : t.header.root_page_id_ = INVALID_PAGE_ID
    · rw [if_pos hroot]
      have h0 : t.header.num_entries_ = 0 := by
        have := hs
        unfold Sized at this
        rw [this, Stored_eq_nil_of_root t hroot]
        rfl
      rw [h0]
      rfl
    · rw [if_neg hroot]
  · intro k
    obtain ⟨res, h1, h2⟩ := Delete_ok t k hinv
    have hs1 := Sized_Delete t k res hs h2
    refine ⟨res, h1, ?_, ?_, by rw [leafSizeSum_eq]; exact hs1.symm⟩
    · intro hb
      obtain ⟨A, B, rid, -, -, hn⟩ := h2.2.2 hb
      exact hn
    · intro hb
      rw [(h2.2.1 hb).1]
  · obtain ⟨t1, h1, -, h2, h3, -⟩ := Clear_ok t hinv
    refine ⟨t1, h1, h3, ?_⟩
    rw [leafSizeSum_eq, Stored_eq_nil_of_root t1 h2]
    rfl

set_option maxRecDepth 100000 in
/-- Witness for C23: with the keys 1 .. 10 stored, the leaf sizes add up to
10, which is the count of the header. -/
theorem C23_num_entries_is_sum_of_leaf_sizes_witness :
    tenKeys.Reachable ∧ tenKeys.leafSizeSum = 10 ∧
    (tenKeys.leafSizeSum : Int) = tenKeys.header.num_entries_ ∧
    (∀ k r, ∃ t1, tenKeys.Insert k r = some t1 ∧
      t1.header.num_entries_ = tenKeys.header.num_entries_ + 1 ∧
      (t1.leafSizeSum : Int) = t1.header.num_entries_) ∧
    (∀ k, ∃ res, tenKeys.Delete k = some res ∧
      (res.1 = true → res.2.header.num_entries_ = tenKeys.header.num_entries_ - 1) ∧
      (res.1 = false → res.2.header.num_entries_ = tenKeys.header.num_entries_) ∧
      (res.2.leafSizeSum : Int) = res.2.header.num_entries_) ∧
    (∃ t1, tenKeys.Clear = some t1 ∧ t1.header.num_entries_ = 0 ∧ t1.leafSizeSum = 0) :=
  ⟨Reachable_afterInserts _, by decide,
    C23_num_entries_is_sum_of_leaf_sizes tenKeys (Reachable_afterInserts _)⟩

/-- C26: in every state reachable by `Insert`, `Delete` and `Clear`, the root
page id is `INVALID_PAGE_ID` exactly when no leaf of the tree holds an entry;
`IsEmpty()` holds exactly when `Size()` is 0, and then `GetHeight()` is 0. -/
theorem C26_empty_iff_no_root (t : BPTreeIndex) (hr : t.Reachable) :
    (t.header.root_page_id_ = INVALID_PAGE_ID ↔ t.leafSizeSum = 0) ∧
    (t.header.root_page_id_ = INVALID_PAGE_ID ↔ t.Stored = []) ∧
    (t.IsEmpty = true ↔ t.Size = 0) ∧
    (t.IsEmpty = true → t.GetHeight = 0) := by
  have hinv := Reachable_Inv t hr
  have hs := Reachable_Sized t hr
  have h1 : t.header.root_page_id_ = INVALID_PAGE_ID ↔ t.Stored = [] :=
    ⟨Stored_eq_nil_of_root t, fun h => by
      by_contra hroot
      exact Stored_ne_nil t hinv hroot h⟩
  have h2 : t.Stored = [] ↔ t.Size = 0 := by
    unfold Size
    rw [hs]
    constructor
    · intro h; rw [h]; rfl
    · intro h
      have : t.Stored.length = 0 := by exact_mod_cast h
      exact List.length_eq_zero.1 this
  have h3 : t.IsEmpty = true ↔ t.header.root_page_id_ = INVALID_PAGE_ID := by
    unfold IsEmpty
    simp
  refine ⟨?_, h1, h3.trans (h1.trans h2), ?_⟩
  · rw [leafSizeSum_eq, h1]
    exact List.length_eq_zero.symm
  · intro he
    have hroot := h3.1 he
    obtain ⟨-, -, fl, hA, hcase⟩ := hinv
    rcases hcase with ⟨-, h0⟩ | ⟨h, hT⟩
    · exact h0
    · exact absurd hroot hT.1

theorem Reachable_emptied : emptied.Reachable := by
  unfold emptied
  cases h : (afterInserts [(1, ⟨1, 0⟩)]).Delete 1 with
  | none => exact Reachable.init
  | some r => exact Reachable.delete _ 1 r (Reachable_afterInserts _) h

set_option maxRecDepth 100000 in
/-- Witness for C26: after inserting key 1 and deleting it again the root is
`INVALID_PAGE_ID`, `IsEmpty()` holds, `Size()` and `GetHeight()` are 0. -/
theorem C26_empty_iff_no_root_witness :
    emptied.Reachable ∧ emptied.IsEmpty = true ∧ emptied.Size = 0 ∧ emptied.GetHeight = 0 ∧
    (emptied.header.root_page_id_ = INVALID_PAGE_ID ↔ emptied.leafSizeSum = 0) ∧
    (emptied.header.root_page_id_ = INVALID_PAGE_ID ↔ emptied.Stored = []) ∧
    (emptied.IsEmpty = true ↔ emptied.Size = 0) ∧
    (emptied.IsEmpty = true → emptied.GetHeight = 0) :=
  ⟨Reachable_emptied, by decide, by decide, by decide,
    C26_empty_iff_no_root emptied Reachable_emptied⟩

/-! ## B+tree: the leaf chain and a full iteration (claim C24) -/

theorem iterateFrom_end (t : BPTreeIndex) (fuel : Nat) (i : Nat) :
    t.iterateFrom (fuel + 1) ⟨INVALID_PAGE_ID, i⟩ = some [] := by
  simp [iterateFrom, BPTreeIterator.IsValid]

/-- Over a chain of non-empty leaves that ends at `INVALID_PAGE_ID`, the
iteration from index `i` of the first leaf yields the rest of this leaf and
then the entries of the leaves after it. -/
theorem iterateFrom_walk (t : BPTreeIndex) :
    ∀ (fuel : Nat) (l : BPTreeLeafPage) (ls : List BPTreeLeafPage) (p : Int) (i : Nat),
      LeafWalk t.nodes p INVALID_PAGE_ID (l :: ls) →
      (∀ x ∈ l :: ls, x.page_id_ ≠ INVALID_PAGE_ID ∧ 1 ≤ x.entries.length) →
      i < l.entries.length →
      (l.entries.drop i ++ ls.flatMap (fun x => x.entries)).length < fuel →
      t.iterateFrom fuel ⟨p, i⟩ = some (l.entries.drop i ++ ls.flatMap (fun x => x.entries)) := by
  intro fuel
  induction fuel with
  | zero => intro l ls p i _ _ _ h; omega
  | succ fuel ih =>
    intro l ls p i hw hall hi hlen
    obtain ⟨a1, a2, a3⟩ := hw
    have hp : p ≠ INVALID_PAGE_ID := by
      rw [← a2]; exact (hall l (List.mem_cons_self _ _)).1
    have hg : t.getLeaf p = some l := by
      unfold getLeaf
      rw [a1]
    have hdrop : l.entries.drop i = l.entries[i] :: l.entries.drop (i + 1) :=
      List.drop_eq_getElem_cons hi
    have hget : l.entries.get? i = some l.entries[i] := List.get?_eq_get hi
    have hv : BPTreeIterator.IsValid t ⟨p, i⟩ = some true := by
      simp only [BPTreeIterator.IsValid, if_neg hp, hg, BPTreeLeafPage.GetSize, hi, decide_True]
    have hk : BPTreeIterator.GetKey t ⟨p, i⟩ = some (l.entries[i]).1 := by
      simp only [BPTreeIterator.GetKey, hg, hget, Option.map_some']
    have hr : BPTreeIterator.GetRID t ⟨p, i⟩ = some (l.entries[i]).2 := by
      simp only [BPTreeIterator.GetRID, hg, hget, Option.map_some']
    rw [hdrop] at hlen ⊢
    simp only [List.cons_append, List.length_cons] at hlen
    by_cases hlast : i + 1 ≥ l.entries.length
    · have hn : BPTreeIterator.Next t ⟨p, i⟩ = some ⟨l.next_page_id_, 0⟩ := by
        simp only [BPTreeIterator.Next, hg, BPTreeLeafPage.GetSize, if_pos hlast]
      have hd0 : l.entries.drop (i + 1) = [] := List.drop_eq_nil_of_le hlast
      rw [hd0] at hlen ⊢
      cases ls with
      | nil =>
        have hnx : l.next_page_id_ = INVALID_PAGE_ID := a3
        obtain ⟨fuel, rfl⟩ : ∃ k, fuel = k + 1 := ⟨fuel - 1, by omega⟩
        rw [iterateFrom]
        simp only [hv, hk, hr, hn, hnx, iterateFrom_end]
        rfl
      | cons l2 ls2 =>
        have h2 := hall l2 (List.mem_cons_of_mem _ (List.mem_cons_self _ _))
        have hrec := ih l2 ls2 l.next_page_id_ 0 a3
          (fun x hx => hall x (List.mem_cons_of_mem _ hx)) (by omega)
          (by
            simp only [List.drop_zero]
            simp only [List.nil_append, List.flatMap_cons] at hlen
            omega)
        rw [iterateFrom]
        simp only [hv, hk, hr, hn, hrec]
        simp only [List.drop_zero, List.nil_append, List.flatMap_cons, List.cons_append]
    · have hn : BPTreeIterator.Next t ⟨p, i⟩ = some ⟨p, i + 1⟩ := by
        simp only [BPTreeIterator.Next, hg, BPTreeLeafPage.GetSize, if_neg hlast]
      have hrec := ih l ls p (i + 1) ⟨a1, a2, a3⟩ hall (by omega) (by omega)
      rw [iterateFrom]
      simp only [hv, hk, hr, hn, hrec]
      simp only [List.cons_append]

/-- Under the invariant: `Begin()` returns the leftmost leaf, the leaf chain
from it visits the leaves of the tree in their order, each page once, and ends
at `INVALID_PAGE_ID`; the keys met are non-decreasing; and a full iteration
yields the stored entries in that order. -/
theorem iterate_ok (t : BPTreeIndex) (hinv : t.Inv) :
    ∃ it, t.Begin = some it ∧ it.index_ = 0 ∧
      LeafWalk t.nodes it.leaf_page_id_ INVALID_PAGE_ID t.leaves ∧
      (t.leaves.map (fun l => l.page_id_)).Nodup ∧
      (∀ l ∈ t.leaves, t.nodes l.page_id_ = some (.leaf l)) ∧
      (t.leaves.flatMap (fun l => l.entries)).Pairwise (fun a b => a.1 ≤ b.1) ∧
      t.leaves.flatMap (fun l => l.entries) = t.Stored ∧
      ∀ fuel, t.Stored.length < fuel → t.iterate fuel = some t.Stored := by
  have hsorted := (SearchRange_ok t 0 0 hinv).2
  have hinv0 := hinv
  by_cases hroot : t.header.root_page_id_ = INVALID_PAGE_ID
  · have hb : t.Begin = some ⟨INVALID_PAGE_ID, 0⟩ := by
      simp only [Begin, FindLeafPage, if_pos hroot]
    have hl : t.leaves = [] := by
      unfold leaves
      rw [if_pos hroot]
    have hst := Stored_eq_nil_of_root t hroot
    refine ⟨_, hb, rfl, ?_, ?_, ?_, ?_, ?_, ?_⟩
    · rw [hl]; rfl
    · rw [hl]; exact List.nodup_nil
    · rw [hl]; intro l h0; cases h0
    · rw [hl]; exact List.Pairwise.nil
    · rw [hl, hst]; rfl
    · intro fuel hf
      obtain ⟨fuel, rfl⟩ : ∃ k, fuel = k + 1 := ⟨fuel - 1, by omega⟩
      unfold iterate
      rw [hb, hst]
      exact iterateFrom_end t fuel 0
  · obtain ⟨-, -, fl, hA, hcase⟩ := hinv
    rcases hcase with ⟨h0, -⟩ | ⟨h, hT⟩
    · exact absurd h0 hroot
    obtain ⟨lo, hi, f, hw⟩ := hT.2.2.1
    have hfu := TreeOK_fuel t none fl h hA hT
    have hb : t.Begin = some ⟨f, 0⟩ := by
      simp only [Begin, FindLeafPage, if_neg hroot]
      rw [leftmost_descent t 0 h _ _ _ _ _ _ t.fuel hw (by omega)]
    have hl : t.leaves = leavesOf t.nodes h t.header.root_page_id_ := by
      unfold leaves
      rw [if_neg hroot, hT.2.1]
      have : ((h : Int) + 1).toNat - 1 = h := by omega
      rw [this]
    obtain ⟨hwalk, hsub⟩ := walk_leavesOf t.nodes h _ _ _ _ _ _ hw
    rw [← hl] at hwalk hsub
    have hmem := LeafWalk_mem t.nodes INVALID_PAGE_ID t.leaves f hwalk
    have hent := leaves_entries t
    have hall : ∀ x ∈ t.leaves, x.page_id_ ≠ INVALID_PAGE_ID ∧ 1 ≤ x.entries.length := by
      intro x hx
      have hp : x.page_id_ ∈ pagesOf t.nodes h t.header.root_page_id_ :=
        hsub.subset (List.mem_map_of_mem _ hx)
      obtain ⟨p1, -, -, p4⟩ := hT.2.2.2.2 _ hp
      refine ⟨?_, (p4 _ (hmem x hx) (by simp)).2.1⟩
      unfold INVALID_PAGE_ID
      omega
    refine ⟨_, hb, rfl, hwalk, hsub.nodup hT.2.2.2.1, hmem, ?_, hent, ?_⟩
    · rw [hent]; exact hsorted
    · intro fuel hf
      unfold iterate
      rw [hb]
      cases hls : t.leaves with
      | nil =>
        exfalso
        rw [hls] at hent
        exact Stored_ne_nil t hinv0 hroot hent.symm
      | cons l ls =>
        rw [hls] at hwalk hall hent
        have h1 := hall l (List.mem_cons_self _ _)
        have := iterateFrom_walk t fuel l ls f 0 hwalk hall (by omega)
          (by
            simp only [List.drop_zero]
            rw [List.flatMap_cons] at hent
            rw [hent]
            exact hf)
        show t.iterateFrom fuel ⟨f, 0⟩ = _
        rw [this]
        simp only [List.drop_zero]
        rw [List.flatMap_cons] at hent
        rw [hent]

/-- C24: in every state reachable by `Insert`, `Delete` and `Clear`, following
`next_page_id_` from the leaf `Begin()` points to (the leftmost one) visits
the leaves of the tree in their order, every leaf page once, and ends at
`INVALID_PAGE_ID`, and the keys met are non-decreasing; iterating from
`Begin()` with `Next` until `IsValid` is false returns, given fuel above the
number of entries, and yields the stored entries, each once, in ascending key
order. -/
theorem C24_leaf_chain_and_iteration (t : BPTreeIndex) (hr : t.Reachable) :
    ∃ it, t.Begin = some it ∧ it.index_ = 0 ∧
      LeafWalk t.nodes it.leaf_page_id_ INVALID_PAGE_ID t.leaves ∧
      (t.leaves.map (fun l => l.page_id_)).Nodup ∧
      (∀ l ∈ t.leaves, t.nodes l.page_id_ = some (.leaf l)) ∧
      (t.leaves.flatMap (fun l => l.entries)).Pairwise (fun a b => a.1 ≤ b.1) ∧
      t.leaves.flatMap (fun l => l.entries) = t.Stored ∧
      ∀ fuel, t.Stored.length < fuel → t.iterate fuel = some t.Stored :=
  iterate_ok t (Reachable_Inv t hr)

set_option maxRecDepth 100000 in
/-- Witness for C24: with the keys 1 .. 10 stored, key `k` with RID `(k, 0)`,
the tree has four leaves and the iteration from `Begin()` yields the ten
entries in key order. -/
theorem C24_leaf_chain_and_iteration_witness :
    tenKeys.Reachable ∧ tenKeys.leaves.length = 4 ∧
    tenKeys.iterate 11 = some [(1, ⟨1, 0⟩), (2, ⟨2, 0⟩), (3, ⟨3, 0⟩), (4, ⟨4, 0⟩), (5, ⟨5, 0⟩),
      (6, ⟨6, 0⟩), (7, ⟨7, 0⟩), (8, ⟨8, 0⟩), (9, ⟨9, 0⟩), (10, ⟨10, 0⟩)] ∧
    ∃ it, tenKeys.Begin = some it ∧ it.index_ = 0 ∧
      LeafWalk tenKeys.nodes it.leaf_page_id_ INVALID_PAGE_ID tenKeys.leaves ∧
      (tenKeys.leaves.map (fun l => l.page_id_)).Nodup ∧
      (∀ l ∈ tenKeys.leaves, tenKeys.nodes l.page_id_ = some (.leaf l)) ∧
      (tenKeys.leaves.flatMap (fun l => l.entries)).Pairwise (fun a b => a.1 ≤ b.1) ∧
      tenKeys.leaves.flatMap (fun l => l.entries) = tenKeys.Stored ∧
      ∀ fuel, tenKeys.Stored.length < fuel → tenKeys.iterate fuel = some tenKeys.Stored :=
  ⟨Reachable_afterInserts _, by decide, by decide,
    C24_leaf_chain_and_iteration tenKeys (Reachable_afterInserts _)⟩

end BPTreeIndex

namespace TableHandle

/-! ## Table heap: every call releases its pins (claim C28) -/

/-- After a fetch of page `p` and changes of pages and header, the unpin with
`is_dirty = true` restores the pin counts and sets the dirty flag of `p`. -/
theorem WroteTo_UnpinPage (s t : TableHandle) (p : Int)
    (hpin : t.pin_count = (s.FetchPageHandle p).pin_count) (hd : t.is_dirty = s.is_dirty)
    (hpg : ∀ q, q ≠ p → t.pages q = s.pages q) : WroteTo s (t.UnpinPage p true) p := by
  refine ⟨UnpinPage_pin_count s t p true hpin, ?_, ?_⟩
  · unfold UnpinPage
    have h1 : t.pin_count p ≠ 0 := by
      rw [hpin]
      unfold FetchPageHandle
      simp only [Function.update_same]
      omega
    rw [if_neg h1]
    simp only [if_true, hd]
  · intro q hq
    rw [UnpinPage_pages]
    exact hpg q hq

theorem GetChunk_state (s : TableHandle) (pid : Int) : (s.GetChunk pid).2 = s := by
  unfold GetChunk
  exact UnpinPage_FetchPageHandle s pid

theorem GetRecord_state (s : TableHandle) (rid : RID)
    (r : Except NJUDBException Record × TableHandle) (h : s.GetRecord rid = some r) :
    r.2 = s := by
  rcases bit_cases s rid with hb | hv | ho
  · unfold GetRecord at h
    simp only [FetchPageHandle_pages, FetchPageHandle_hdr, hb] at h
    cases h
  · rw [GetRecord_vacant s rid hv] at h
    cases h
    rfl
  · rw [GetRecord_occupied s rid ho] at h
    cases h
    rfl

theorem GetNextRIDLoop_state : ∀ (fuel : Nat) (s : TableHandle) (page_id slot_id : Int)
    (r : RID × TableHandle), GetNextRIDLoop fuel s page_id slot_id = some r → r.2 = s := by
  intro fuel
  induction fuel with
  | zero => intro s page_id slot_id r h; cases h
  | succ fuel ih =>
    intro s page_id slot_id r h
    unfold GetNextRIDLoop at h
    simp only [FetchPageHandle_pages, FetchPageHandle_hdr, UnpinPage_FetchPageHandle] at h
    split at h
    · split at h
      · exact ih _ _ _ _ h
      · cases h; rfl
    · cases h; rfl

theorem GetNextRID_state (s : TableHandle) (rid : RID) (r : RID × TableHandle)
    (h : s.GetNextRID rid = some r) : r.2 = s :=
  GetNextRIDLoop_state _ s _ _ r h

theorem GetFirstRID_state (s : TableHandle) (r : RID × TableHandle)
    (h : s.GetFirstRID = some r) : r.2 = s := by
  unfold GetFirstRID at h
  rw [GetFirstRIDLoop_eq] at h
  exact GetNextRIDLoop_state _ s _ _ r h

theorem UpdateRecord_pins (s : TableHandle) (rid : RID) (record : Record)
    (r : Except NJUDBException Unit × TableHandle) (h : s.UpdateRecord rid record = some r) :
    (∀ e, r.1 = .error e → r.2 = s) ∧ (r.1 = .ok () → WroteTo s r.2 rid.page_no) := by
  rcases bit_cases s rid with hb | hv | ho
  · rw [UpdateRecord_undefined s rid record hb] at h; cases h
  · rw [UpdateRecord_vacant s rid record hv] at h
    cases h
    exact ⟨fun _ _ => rfl, fun h0 => (by cases h0)⟩
  · obtain ⟨h0, h1, -⟩ := occupied_range s rid ho
    unfold occupied at ho
    unfold UpdateRecord at h
    simp only [FetchPageHandle_pages, FetchPageHandle_hdr, ho,
      WriteSlot_of_range _ _ _ _ _ h0 h1, Option.some.injEq] at h
    rw [← h]
    refine ⟨fun e he => (by cases he), fun _ => ?_⟩
    exact WroteTo_UnpinPage s _ _ rfl rfl (fun q hq => setPage_pages_ne _ _ _ _ hq)

theorem DeleteRecord_pins (s : TableHandle) (rid : RID)
    (r : Except NJUDBException Unit × TableHandle) (h : s.DeleteRecord rid = some r) :
    (∀ e, r.1 = .error e → r.2 = s) ∧
    (r.1 = .ok () → WroteTo s r.2 rid.page_no ∧
      (r.2.pages rid.page_no).bitmap ≠ (s.pages rid.page_no).bitmap) := by
  rcases bit_cases s rid with hb | hv | ho
  · rw [DeleteRecord_undefined s rid hb] at h; cases h
  · rw [DeleteRecord_vacant s rid hv] at h
    cases h
    exact ⟨fun _ _ => rfl, fun h0 => (by cases h0)⟩
  · obtain ⟨h0, h1, hbit⟩ := occupied_range s rid ho
    unfold occupied at ho
    unfold DeleteRecord at h
    simp only [FetchPageHandle_pages, FetchPageHandle_hdr, ho,
      SetBit_of_range _ _ _ _ h0 h1, Option.some.injEq, setPage_hdr] at h
    rw [← h]
    refine ⟨fun e he => (by cases he), fun _ => ⟨?_, ?_⟩⟩
    · simp only
      split
      · exact WroteTo_UnpinPage s _ _ rfl rfl (fun q hq => by
          rw [setFirstFree_pages, setPage_pages_ne _ _ _ _ hq, setPage_pages_ne _ _ _ _ hq]
          rfl)
      · exact WroteTo_UnpinPage s _ _ rfl rfl (fun q hq => by
          rw [setPage_pages_ne _ _ _ _ hq]
          rfl)
    · simp only
      intro hEq
      have := congrFun hEq rid.slot_no.toNat
      rw [hbit, UnpinPage_pages] at this
      split at this
      · rw [setFirstFree_pages, setPage_pages_same] at this
        simp only [Function.update_same] at this
        cases this
      · rw [setPage_pages_same] at this
        simp only [Function.update_same] at this
        cases this

theorem InsertRecordAt_pins (s : TableHandle) (rid : RID) (record : Record)
    (r : Except NJUDBException Unit × TableHandle) (h : s.InsertRecordAt rid record = some r) :
    (∀ e, r.1 = .error e → r.2 = s) ∧
    (r.1 = .ok () → WroteTo s r.2 rid.page_no ∧
      (r.2.pages rid.page_no).bitmap ≠ (s.pages rid.page_no).bitmap) := by
  by_cases hinv : rid.page_no = INVALID_PAGE_ID
  · rw [InsertRecordAt_invalid s rid record hinv] at h
    cases h
    exact ⟨fun _ _ => rfl, fun h0 => (by cases h0)⟩
  rcases bit_cases s rid with hb | hv | ho
  · rw [InsertRecordAt_undefined s rid record hinv hb] at h; cases h
  · obtain ⟨h0, h1, hbit⟩ := vacant_range s rid hv
    unfold vacant at hv
    unfold InsertRecordAt at h
    rw [if_neg hinv] at h
    simp only [FetchPageHandle_pages, FetchPageHandle_hdr, hv,
      WriteSlot_of_range _ _ _ _ _ h0 h1, SetBit_of_range _ _ _ _ h0 h1, setPage_hdr,
      Option.some.injEq] at h
    rw [← h]
    refine ⟨fun e he => (by cases he), fun _ => ⟨?_, ?_⟩⟩
    · simp only
      split
      · exact WroteTo_UnpinPage s _ _ rfl rfl (fun q hq => by
          rw [setPage_pages_ne _ _ _ _ hq, setFirstFree_pages, setPage_pages_ne _ _ _ _ hq]
          rfl)
      · exact WroteTo_UnpinPage s _ _ rfl rfl (fun q hq => by
          rw [setPage_pages_ne _ _ _ _ hq]
          rfl)
    · simp only
      intro hEq
      have := congrFun hEq rid.slot_no.toNat
      rw [hbit, UnpinPage_pages] at this
      split at this
      · rw [setPage_pages_same] at this
        simp only [Function.update_same] at this
        cases this
      · rw [setPage_pages_same] at this
        simp only [Function.update_same] at this
        cases this
  · rw [InsertRecordAt_occupied s rid record hinv ho] at h
    cases h
    exact ⟨fun _ _ => rfl, fun h0 => (by cases h0)⟩

theorem CreatePageHandle_is_dirty (s : TableHandle) :
    (s.CreatePageHandle).2.is_dirty = s.is_dirty := by
  unfold CreatePageHandle
  split
  · rfl
  · rfl

theorem InsertRecord_pins (s : TableHandle) (record : Record) (r : RID × TableHandle)
    (h : s.InsertRecord record = some r) :
    WroteTo s r.2 r.1.page_no ∧ (r.2.pages r.1.page_no).bitmap ≠ (s.pages r.1.page_no).bitmap := by
  obtain ⟨rid, s2⟩ := r
  obtain ⟨a1, a2, a3, a4, -, -, a7, -, -⟩ := InsertRecord_some s record rid s2 h
  obtain ⟨c1, c2, c3, c4, c5, c6, c7, c8, c9⟩ := CreatePageHandle_spec s
  have cd := CreatePageHandle_is_dirty s
  refine ⟨?_, ?_⟩
  · unfold InsertRecord at h
    cases hcp : s.CreatePageHandle with
    | mk pid s1 =>
      rw [hcp] at h c1 c3 c6 c7 cd a1
      simp only at h c1 c3 c6 c7 cd a1
      have hpid : rid.page_no = pid := a1
      rw [hpid] at a3
      rw [c1, c3] at h
      have h0 : (0 : Int) ≤ ((BitMap.FindFirst (s.pages pid).bitmap
          s.tab_hdr_.rec_per_page_ 0 false : Nat) : Int) := Int.natCast_nonneg _
      have h1 : ((BitMap.FindFirst (s.pages pid).bitmap
          s.tab_hdr_.rec_per_page_ 0 false : Nat) : Int) < s.tab_hdr_.rec_per_page_ := by
        exact_mod_cast a3
      rw [WriteSlot_of_range _ _ _ _ _ h0 h1] at h
      simp only [SetBit_of_range _ _ _ _ h0 h1, Int.toNat_ofNat, Option.some.injEq,
        Prod.mk.injEq] at h
      obtain ⟨-, hs2⟩ := h
      show WroteTo s s2 rid.page_no
      rw [hpid, ← hs2]
      apply WroteTo_UnpinPage
      · split
        · exact c7
        · exact c7
      · split
        · exact cd
        · exact cd
      · intro q hq
        split
        · rw [setPage_pages_ne _ _ _ _ hq, setFirstFree_pages, setPage_pages_ne _ _ _ _ hq]
          exact c6 q hq
        · rw [setPage_pages_ne _ _ _ _ hq]
          exact c6 q hq
  · show (s2.pages rid.page_no).bitmap ≠ (s.pages rid.page_no).bitmap
    intro hEq
    have hbit := (BitMap.FindFirst_lt _ _ _ _ a3).2.1
    have := congrFun hEq rid.slot_no.toNat
    rw [a4, Function.update_same, a2] at this
    have e : (((BitMap.FindFirst (s.pages rid.page_no).bitmap
      s.tab_hdr_.rec_per_page_ 0 false : Nat) : Int)).toNat =
      BitMap.FindFirst (s.pages rid.page_no).bitmap s.tab_hdr_.rec_per_page_ 0 false :=
      Int.toNat_ofNat _
    rw [e, hbit] at this
    cases this

/-- C28: every operation of the table handle that returns or throws leaves
the pin count of every page as it found it, so it released each pin it took.
`GetRecord`, `GetChunk`, `GetFirstRID` and `GetNextRID`, and every call that
throws (`NJUDB_RECORD_MISS`, `NJUDB_RECORD_EXISTS`, `NJUDB_PAGE_MISS`), leave
the whole state as it was: no page and no dirty flag changed.  Both forms of
`InsertRecord`, `UpdateRecord` and `DeleteRecord`, when they return normally,
have written their page and set its dirty flag, and changed no other page and
no other flag; the insertions and the deletion leave the bitmap of the page
different from what it was. -/
theorem C28_operations_release_their_pins (s : TableHandle) :
    (∀ rid r, s.GetRecord rid = some r → r.2 = s) ∧
    (∀ pid, (s.GetChunk pid).2 = s) ∧
    (∀ record r, s.InsertRecord record = some r →
      WroteTo s r.2 r.1.page_no ∧
      (r.2.pages r.1.page_no).bitmap ≠ (s.pages r.1.page_no).bitmap) ∧
    (∀ rid record r, s.InsertRecordAt rid record = some r →
      (∀ e, r.1 = .error e → r.2 = s) ∧
      (r.1 = .ok () → WroteTo s r.2 rid.page_no ∧
        (r.2.pages rid.page_no).bitmap ≠ (s.pages rid.page_no).bitmap)) ∧
    (∀ rid record r, s.UpdateRecord rid record = some r →
      (∀ e, r.1 = .error e → r.2 = s) ∧ (r.1 = .ok () → WroteTo s r.2 rid.page_no)) ∧
    (∀ rid r, s.DeleteRecord rid = some r →
      (∀ e, r.1 = .error e → r.2 = s) ∧
      (r.1 = .ok () → WroteTo s r.2 rid.page_no ∧
        (r.2.pages rid.page_no).bitmap ≠ (s.pages rid.page_no).bitmap)) ∧
    (∀ r, s.GetFirstRID = some r → r.2 = s) ∧
    (∀ rid r, s.GetNextRID rid = some r → r.2 = s) :=
  ⟨GetRecord_state s, GetChunk_state s, InsertRecord_pins s, InsertRecordAt_pins s,
    UpdateRecord_pins s, DeleteRecord_pins s, GetFirstRID_state s, GetNextRID_state s⟩

set_option maxRecDepth 100000 in
/-- Witness for C28 in the state `refillBefore` (two slots per page, slot
`(1, 0)` empty, slot `(1, 1)` occupied): the second form of `InsertRecord`
into `(1, 0)` returns, leaves every pin count as it was and sets the dirty
flag of page 1; into `(1, 1)` it throws `NJUDB_RECORD_EXISTS` and leaves the
state as it was; `GetRecord` and `GetNextRID` leave the state as it was. -/
theorem C28_operations_release_their_pins_witness :
    (∃ s1, refillBefore.InsertRecordAt ⟨1, 0⟩ (recOf 5) = some (.ok (), s1) ∧
      WroteTo refillBefore s1 1 ∧ s1.is_dirty 1 = true ∧ s1.pin_count 1 = 0) ∧
    refillBefore.InsertRecordAt ⟨1, 1⟩ (recOf 5) =
      some (.error .NJUDB_RECORD_EXISTS, refillBefore) ∧
    (∃ r, refillBefore.GetRecord ⟨1, 1⟩ = some r ∧ r.2 = refillBefore) ∧
    (∃ r, refillBefore.GetNextRID ⟨1, 1⟩ = some r ∧ r.1 = ⟨2, 1⟩ ∧ r.2 = refillBefore) := by
  have hv : refillBefore.vacant ⟨1, 0⟩ := by unfold vacant; decide
  have ho : refillBefore.occupied ⟨1, 1⟩ := by unfold occupied; decide
  obtain ⟨s1, h1, -⟩ := InsertRecordAt_vacant refillBefore ⟨1, 0⟩ (recOf 5) (by decide) hv
  have hw := (((C28_operations_release_their_pins refillBefore).2.2.2.1 _ _ _ h1).2 rfl).1
  have hg := GetRecord_occupied refillBefore ⟨1, 1⟩ ho
  have hn : ∃ r, refillBefore.GetNextRID ⟨1, 1⟩ = some r ∧ r.1 = ⟨2, 1⟩ := by
    cases hx : refillBefore.GetNextRID ⟨1, 1⟩ with
    | none =>
      have : (refillBefore.GetNextRID ⟨1, 1⟩).isSome = true := by decide
      rw [hx] at this
      cases this
    | some r =>
      refine ⟨r, rfl, ?_⟩
      have : (refillBefore.GetNextRID ⟨1, 1⟩).map Prod.fst = some ⟨2, 1⟩ := by decide
      rw [hx] at this
      simpa using this
  obtain ⟨r, hr1, hr2⟩ := hn
  refine ⟨⟨s1, h1, hw, ?_, ?_⟩, InsertRecordAt_occupied refillBefore ⟨1, 1⟩ (recOf 5) (by decide) ho,
    ⟨_, hg, (C28_operations_release_their_pins refillBefore).1 _ _ hg⟩,
    ⟨r, hr1, hr2, (C28_operations_release_their_pins refillBefore).2.2.2.2.2.2.2 _ _ hr1⟩⟩
  · rw [hw.2.1, Function.update_same]
  · rw [hw.1]
    decide

end TableHandle

/-! ## B+tree: keys of a node are in order (claim C30) -/

theorem KidsOK_separators {P : Int → Int → Int → Int → Int → Prop}
    (hP : ∀ c l u f n, P c l u f n → l ≤ u) :
    ∀ (es : List (Int × Int)) (lo hi f n : Int), KidsOK P lo es hi f n →
      (es.tail.map Prod.fst).Pairwise (fun a b => a ≤ b) ∧
      ∀ k ∈ es.tail.map Prod.fst, lo ≤ k ∧ k ≤ hi := by
  intro es
  induction es with
  | nil => intro lo hi f n hk; exact absurd hk (by simp [KidsOK])
  | cons e rest ih =>
    intro lo hi f n hk
    cases rest with
    | nil =>
      refine ⟨List.Pairwise.nil, ?_⟩
      intro k hk0
      cases hk0
    | cons e2 rest2 =>
      obtain ⟨m, h1, h2⟩ := hk
      have hle1 := hP _ _ _ _ _ h1
      have hle2 := KidsOK_le hP _ _ _ _ _ h2
      obtain ⟨i1, i2⟩ := ih e2.1 hi m n h2
      simp only [List.tail_cons, List.map_cons] at i1 i2 ⊢
      refine ⟨List.Pairwise.cons (fun k hk0 => (i2 k hk0).1) i1, ?_⟩
      intro k hk0
      rcases List.mem_cons.1 hk0 with h0 | h0
      · rw [h0]; exact ⟨hle1, hle2⟩
      · have := i2 k h0
        exact ⟨by omega, this.2⟩

/-- In a well-formed subtree every leaf has its keys non-decreasing and every
internal node its separators non-decreasing. -/
theorem WFSub_keys_sorted (nodes : Int → Option BPTreePage) (h : Nat) :
    ∀ (pid par lo hi f n : Int), WFSub nodes h pid par lo hi f n →
      ∀ p ∈ pagesOf nodes h pid,
        (∀ l, nodes p = some (.leaf l) → l.KeysSorted) ∧
        (∀ nd, nodes p = some (.internal nd) → nd.SeparatorsSorted) := by
  induction h with
  | zero =>
    intro pid par lo hi f n hw p hp
    obtain ⟨l, a1, a2, a3, a4, a5, a6, a7, a8, a9⟩ := hw
    simp only [pagesOf, List.mem_singleton] at hp
    rw [hp, a1]
    refine ⟨?_, fun nd hnd => (by cases hnd)⟩
    intro l1 hl1
    simp only [Option.some.injEq, BPTreePage.leaf.injEq] at hl1
    rw [← hl1]
    unfold BPTreeLeafPage.KeysSorted
    rw [List.pairwise_map]
    exact a8
  | succ j ih =>
    intro pid par lo hi f n hw p hp
    obtain ⟨nd, a1, a2, a3, a4, hk⟩ := hw
    rw [pagesOf_succ _ _ _ _ a1] at hp
    rcases List.mem_cons.1 hp with h0 | h0
    · rw [h0, a1]
      refine ⟨fun l hl => (by cases hl), ?_⟩
      intro nd1 hnd1
      simp only [Option.some.injEq, BPTreePage.internal.injEq] at hnd1
      rw [← hnd1]
      exact (KidsOK_separators (fun c l u f n hc => WFSub_le nodes j c pid l u f n hc)
        _ _ _ _ _ hk).1
    · obtain ⟨e, he, hpe⟩ := List.mem_flatMap.1 h0
      obtain ⟨l, u, f1, n1, hc⟩ := BPTreeIndex.KidsOK_all _ _ _ _ _ hk e he
      exact ih e.2 pid l u f1 n1 hc p hpe

namespace BPTreeIndex

theorem keys_sorted (t : BPTreeIndex) (hinv : t.Inv) :
    ∀ p ∈ t.treePages,
      (∀ l, t.nodes p = some (.leaf l) → l.KeysSorted) ∧
      (∀ nd, t.nodes p = some (.internal nd) → nd.SeparatorsSorted) := by
  intro p hp
  unfold treePages at hp
  by_cases hroot : t.header.root_page_id_ = INVALID_PAGE_ID
  · rw [if_pos hroot] at hp; cases hp
  · rw [if_neg hroot] at hp
    obtain ⟨-, -, fl, hA, hcase⟩ := hinv
    rcases hcase with ⟨h0, -⟩ | ⟨h, hT⟩
    · exact absurd h0 hroot
    obtain ⟨lo, hi, f, hw⟩ := hT.2.2.1
    rw [hT.2.1] at hp
    have : ((h : Int) + 1).toNat - 1 = h := by omega
    rw [this] at hp
    exact WFSub_keys_sorted t.nodes h _ _ _ _ _ _ hw p hp

set_option maxRecDepth 100000 in
/-- C30 as stated fails on the code.  Seven insertions of the key 5 all
return and leave the root, page 3, with the children 1, 2 and 4 and the
separator keys 5 and 5: the separators of this node are not strictly
increasing. -/
theorem C30_separators_not_strictly_increasing :
    sevenFives.Reachable ∧ 3 ∈ sevenFives.treePages ∧
    (sevenFives.getInternal 3).map (fun nd => nd.entries) = some [(0, 1), (5, 2), (5, 4)] ∧
    ¬ (∀ p ∈ sevenFives.treePages,
        (∀ l, sevenFives.nodes p = some (.leaf l) → l.KeysSorted) ∧
        (∀ nd, sevenFives.nodes p = some (.internal nd) → nd.SeparatorsStrict)) := by
  have hmem : (3 : Int) ∈ sevenFives.treePages := by decide
  refine ⟨Reachable_afterInserts _, hmem, by decide, ?_⟩
  intro hall
  cases hx : sevenFives.nodes 3 with
  | none =>
    have : (sevenFives.nodes 3).isSome = true := by decide
    rw [hx] at this
    cases this
  | some x =>
    cases x with
    | leaf l =>
      have : (sevenFives.getInternal 3).isSome = true := by decide
      unfold getInternal at this
      rw [hx] at this
      cases this
    | internal nd =>
      have hs := (hall 3 hmem).2 nd hx
      have he : (sevenFives.getInternal 3).map (fun nd => nd.entries) =
          some [(0, 1), (5, 2), (5, 4)] := by decide
      unfold getInternal at he
      rw [hx] at he
      simp only [Option.map_some', Option.some.injEq] at he
      unfold BPTreeInternalPage.SeparatorsStrict at hs
      rw [he] at hs
      revert hs
      decide

/-- C30, amended: in every state reachable by `Insert`, `Delete` and `Clear`,
with duplicate keys allowed, the keys inside each leaf of the tree are
non-decreasing and the separator keys of each internal node of the tree are
non-decreasing over the indices `i ≥ 1`. -/
theorem C30_keys_and_separators_non_decreasing (t : BPTreeIndex) (hr : t.Reachable) :
    ∀ p ∈ t.treePages,
      (∀ l, t.nodes p = some (.leaf l) → l.KeysSorted) ∧
      (∀ nd, t.nodes p = some (.internal nd) → nd.SeparatorsSorted) :=
  keys_sorted t (Reachable_Inv t hr)

set_option maxRecDepth 100000 in
/-- Witness for the amended C30 after seven insertions of the key 5: the tree
has the pages 3, 1, 2 and 4, and their keys are in order. -/
theorem C30_keys_and_separators_non_decreasing_witness :
    sevenFives.Reachable ∧ sevenFives.treePages = [3, 1, 2, 4] ∧
    ∀ p ∈ sevenFives.treePages,
      (∀ l, sevenFives.nodes p = some (.leaf l) → l.KeysSorted) ∧
      (∀ nd, sevenFives.nodes p = some (.internal nd) → nd.SeparatorsSorted) :=
  ⟨Reachable_afterInserts _, by decide,
    C30_keys_and_separators_non_decreasing sevenFives (Reachable_afterInserts _)⟩

end BPTreeIndex

/-! ## B+tree: a new duplicate goes before the older ones of its leaf (claim C25) -/

theorem ChildStep_leaves (nodes : Int → Option BPTreePage) (a b : Pos)
    (hs : ChildStep nodes a b) :
    ∀ x ∈ leavesOf nodes b.h b.pid, x ∈ leavesOf nodes a.h a.pid := by
  obtain ⟨nd, hh, hn, hm⟩ := hs
  obtain ⟨e, he, heq⟩ := mem_kidBounds_child _ _ _ _ hm
  intro x hx
  rw [hh, leavesOf_succ nodes b.h a.pid nd hn]
  exact List.mem_flatMap.2 ⟨e, he, by rw [heq]; exact hx⟩

theorem Site_leaves (nodes : Int → Option BPTreePage) (top q : Pos) (hs : Site nodes top q) :
    ∀ x ∈ leavesOf nodes q.h q.pid, x ∈ leavesOf nodes top.h top.pid := by
  induction hs with
  | refl => exact fun x hx => hx
  | tail _ hstep ih => exact fun x hx => ih x (ChildStep_leaves nodes _ _ hstep x hx)

theorem count_flatMap_unique {α β : Type} [BEq β] [LawfulBEq β] (g : α → List β) (x : β) :
    ∀ (L : List α), (L.flatMap g).count x = 1 → ∀ a ∈ L, ∀ b ∈ L, x ∈ g a → x ∈ g b → a = b := by
  intro L
  induction L with
  | nil => intro _ a ha; cases ha
  | cons c rest ih =>
    intro hc a ha b hb hxa hxb
    rw [List.flatMap_cons, List.count_append] at hc
    have hpos : ∀ y ∈ rest, x ∈ g y → 0 < (rest.flatMap g).count x := by
      intro y hy hxy
      exact List.count_pos_iff.2 (List.mem_flatMap.2 ⟨y, hy, hxy⟩)
    rcases List.mem_cons.1 ha with h1 | h1 <;> rcases List.mem_cons.1 hb with h2 | h2
    · rw [h1, h2]
    · exfalso
      have p1 : 0 < (g c).count x := List.count_pos_iff.2 (by rw [← h1]; exact hxa)
      have p2 := hpos b h2 hxb
      omega
    · exfalso
      have p1 : 0 < (g c).count x := List.count_pos_iff.2 (by rw [← h2]; exact hxb)
      have p2 := hpos a h1 hxa
      omega
    · have p2 := hpos a h1 hxa
      exact ih (by omega) a h1 b h2 hxa hxb

theorem mem_takeWhile_of_sorted (k : Int) :
    ∀ (Y : List (Int × RID)), Y.Pairwise (fun a b => a.1 ≤ b.1) → (∀ e ∈ Y, k ≤ e.1) →
      ∀ e ∈ Y, e.1 = k → e ∈ Y.takeWhile (fun e => decide (e.1 = k)) := by
  intro Y
  induction Y with
  | nil => intro _ _ e he; cases he
  | cons y rest ih =>
    intro hs hge e he hek
    obtain ⟨s1, s2⟩ := List.pairwise_cons.1 hs
    have hy : y.1 = k := by
      rcases List.mem_cons.1 he with h1 | h1
      · rw [← h1]; exact hek
      · have := s1 e h1
        have := hge y (List.mem_cons_self _ _)
        omega
    rw [List.takeWhile_cons]
    simp only [hy, decide_True, if_true]
    rcases List.mem_cons.1 he with h1 | h1
    · rw [h1]; exact List.mem_cons_self _ _
    · exact List.mem_cons_of_mem _
        (ih s2 (fun x hx => hge x (List.mem_cons_of_mem _ hx)) e h1 hek)

/-- A sorted leaf that returns `r` first for `k` holds `(k, r)` as its first
entry with a key `≥ k`; the values of the other entries with key `k` follow
in the result. -/
theorem Lookup_head (l : BPTreeLeafPage) (k : Int) (r : RID) (rest : List RID)
    (hs : l.entries.Pairwise (fun a b => a.1 ≤ b.1)) (h : l.Lookup k = r :: rest) :
    ∃ X Y, l.entries = X ++ (k, r) :: Y ∧ (∀ e ∈ X, e.1 < k) ∧
      ∀ r1, (k, r1) ∈ Y → r1 ∈ rest := by
  obtain ⟨h1, h2⟩ := KeyIndex_split l k hs
  have hsplit := (List.take_append_drop (l.KeyIndex k) l.entries).symm
  unfold BPTreeLeafPage.Lookup at h
  cases hd : l.entries.drop (l.KeyIndex k) with
  | nil => rw [hd] at h; cases h
  | cons e Y =>
    rw [hd] at h h2 hsplit
    rw [List.takeWhile_cons] at h
    by_cases hek : e.1 = k
    · simp only [hek, decide_True, if_true, List.map_cons, List.cons.injEq] at h
      have he : e = (k, r) := by
        rw [← hek, ← h.1]
      rw [he] at hsplit
      refine ⟨_, Y, hsplit, h1, ?_⟩
      intro r1 hr1
      rw [← h.2]
      have hsY : (e :: Y).Pairwise (fun a b => a.1 ≤ b.1) := by
        rw [← hd]
        exact hs.sublist (List.drop_sublist _ _)
      have := mem_takeWhile_of_sorted k Y (List.pairwise_cons.1 hsY).2
        (fun x hx => h2 x (List.mem_cons_of_mem _ hx)) (k, r1) hr1 rfl
      exact List.mem_map.2 ⟨(k, r1), this, rfl⟩
    · simp only [hek, decide_False, Bool.false_eq_true, if_false, List.map_nil] at h
      cases h

theorem Before_of_split {α : Type} [DecidableEq α] (X Y : List α) (a b : α)
    (ha : a ∉ X) (hb : b ∉ X) (hab : b ≠ a) (hbY : b ∈ Y) : Before a b (X ++ a :: Y) := by
  refine ⟨by simp, by simp [hbY], ?_⟩
  have e1 : (X ++ a :: Y).indexOf a = X.length := by
    rw [List.indexOf_append_of_not_mem ha]
    simp
  have e2 : (X ++ a :: Y).indexOf b = X.length + ((a :: Y).indexOf b) := by
    rw [List.indexOf_append_of_not_mem hb]
  have e3 : (a :: Y).indexOf b = Y.indexOf b + 1 := by
    rw [List.indexOf_cons_ne _ (Ne.symm hab)]
  omega

namespace BPTreeIndex

/-- After `Insert(k, r2)` of an entry that was not stored, `Search(k)` returns
`r2` first, and in the leaf that holds the new entry it is the first entry
with a key `≥ k`, before every other entry with key `k` of that leaf, whose
values `Search(k)` returns after `r2`. -/
theorem Insert_newest_first (t1 : BPTreeIndex) (k : Int) (r2 : RID) (hinv : t1.Inv)
    (hfresh : (k, r2) ∉ t1.Stored) :
    ∃ t2, t1.Insert k r2 = some t2 ∧ t2.Inv ∧ ∃ rest, t2.Search k = some (r2 :: rest) ∧
      ∀ l ∈ t2.leaves, (k, r2) ∈ l.entries →
        ∀ r1, r1 ≠ r2 → (k, r1) ∈ l.entries → Before (k, r2) (k, r1) l.entries ∧ r1 ∈ rest := by
  obtain ⟨t2, h1, hinv2, ⟨A, B, s1, s2⟩, -, hroot2, rest, hsearch⟩ := Insert_ok t1 k r2 hinv
  refine ⟨t2, h1, hinv2, rest, hsearch, ?_⟩
  obtain ⟨-, -, fl, hA, hcase⟩ := hinv2
  rcases hcase with ⟨h0, -⟩ | ⟨h, hT⟩
  · exact absurd h0 hroot2
  obtain ⟨lo0, hi0, f, hw0⟩ := hT.2.2.1
  have hw := WFSub_weaken t2.nodes h _ _ _ _ _ _ (min lo0 k) (max hi0 (k + 1))
    (min_le_left _ _) (le_max_left _ _) hw0
  obtain ⟨q, q1, q2, q3, q4, q5, q6, l0, par, n, hl0, hwq⟩ :=
    FindLeafPage_of_TreeOK t2 none fl h hA hT k _ _ f hw (min_le_right _ _)
      (lt_of_lt_of_le (by omega) (le_max_right _ _))
  obtain ⟨l2, w1, w2, w3, w4, w5, w6, w7, w8, w9⟩ := hwq
  rw [hl0] at w1
  cases w1
  have hlook : l0.Lookup k = r2 :: rest := by
    unfold Search at hsearch
    rw [q3] at hsearch
    simp only [if_neg q6, getLeaf, hl0, Option.some.injEq] at hsearch
    exact hsearch
  obtain ⟨X, Y, hent, hX, hY⟩ := Lookup_head l0 k r2 rest w8 hlook
  have hleaves : t2.leaves = leavesOf t2.nodes h t2.header.root_page_id_ := by
    unfold leaves
    rw [if_neg hroot2, hT.2.1]
    have : ((h : Int) + 1).toNat - 1 = h := by omega
    rw [this]
  have hl0mem : l0 ∈ t2.leaves := by
    rw [hleaves]
    apply Site_leaves t2.nodes _ q q2
    rw [q1, leavesOf_zero _ _ _ hl0]
    exact List.mem_singleton.2 rfl
  have hcount : (t2.leaves.flatMap (fun l => l.entries)).count (k, r2) = 1 := by
    rw [leaves_entries, s2, List.count_append, List.count_cons_self]
    have hnA : (k, r2) ∉ A := fun hm => hfresh (by rw [s1]; exact List.mem_append_left _ hm)
    have hnB : (k, r2) ∉ B := fun hm => hfresh (by rw [s1]; exact List.mem_append_right _ hm)
    rw [List.count_eq_zero_of_not_mem hnA, List.count_eq_zero_of_not_mem hnB]
  intro l hl hmem r1 hne hr1
  have hmem0 : (k, r2) ∈ l0.entries := by rw [hent]; simp
  have hll : l = l0 := count_flatMap_unique (fun l : BPTreeLeafPage => l.entries) (k, r2)
    t2.leaves hcount l hl l0 hl0mem hmem hmem0
  rw [hll, hent] at hr1 ⊢
  have hnX : ∀ r, (k, r) ∉ X := fun r hm => by
    have := hX _ hm
    simp only at this
    omega
  have hr1Y : (k, r1) ∈ Y := by
    rcases List.mem_append.1 hr1 with h0 | h0
    · exact absurd h0 (hnX r1)
    · rcases List.mem_cons.1 h0 with h3 | h3
      · exfalso
        apply hne
        simp only [Prod.mk.injEq, true_and] at h3
        exact h3
      · exact h3
  refine ⟨Before_of_split X Y (k, r2) (k, r1) (hnX r2) (hnX r1) ?_ hr1Y, hY r1 hr1Y⟩
  intro h0
  apply hne
  simp only [Prod.mk.injEq, true_and] at h0
  exact h0

/-- C25 as stated fails on the code.  After `Insert(5, (1,0))` followed by
`Insert(5, (2,0))` on the empty index both entries are in the one leaf of the
tree, the entry of `(2,0)` first, and `Search(5)` returns `(2,0)` before
`(1,0)`: the older entry does not precede the newer one. -/
theorem C25_older_duplicate_does_not_precede :
    twoFives.leaves.map (fun l => l.entries) = [[(5, ⟨2, 0⟩), (5, ⟨1, 0⟩)]] ∧
    twoFives.Search 5 = some [⟨2, 0⟩, ⟨1, 0⟩] ∧
    ¬ (∀ l ∈ twoFives.leaves, (5, ⟨1, 0⟩) ∈ l.entries → (5, ⟨2, 0⟩) ∈ l.entries →
        Before ((5 : Int), (⟨1, 0⟩ : RID)) (5, ⟨2, 0⟩) l.entries) := by
  decide

/-- C25, amended: in every state reachable by `Insert`, `Delete` and `Clear`,
`Insert(k, r1)` followed by `Insert(k, r2)` of an entry `(k, r2)` that was not
stored, with `r2 ≠ r1`, both return; then `Search(k)` returns `r2` first, and
if both entries are in the same leaf, `(k, r2)` precedes `(k, r1)` in that
leaf and `Search(k)` lists `r1` after `r2`: the duplicates of the leaf come
newest first. -/
theorem C25_newer_duplicate_precedes_older (t : BPTreeIndex) (k : Int) (r1 r2 : RID)
    (hr : t.Reachable) (hne : r1 ≠ r2) (hfresh : (k, r2) ∉ t.Stored) :
    ∃ t1 t2, t.Insert k r1 = some t1 ∧ t1.Insert k r2 = some t2 ∧
      ∃ rest, t2.Search k = some (r2 :: rest) ∧
        ∀ l ∈ t2.leaves, (k, r1) ∈ l.entries → (k, r2) ∈ l.entries →
          Before (k, r2) (k, r1) l.entries ∧ r1 ∈ rest := by
  obtain ⟨t1, h1, hinv1, ⟨A, B, s1, s2⟩, -⟩ := Insert_ok t k r1 (Reachable_Inv t hr)
  have hfresh1 : (k, r2) ∉ t1.Stored := by
    rw [s2]
    intro hm
    rcases List.mem_append.1 hm with h0 | h0
    · exact hfresh (by rw [s1]; exact List.mem_append_left _ h0)
    · rcases List.mem_cons.1 h0 with h3 | h3
      · apply hne
        simp only [Prod.mk.injEq, true_and] at h3
        exact h3.symm
      · exact hfresh (by rw [s1]; exact List.mem_append_right _ h3)
  obtain ⟨t2, h2, -, rest, h3, h4⟩ := Insert_newest_first t1 k r2 hinv1 hfresh1
  exact ⟨t1, t2, h1, h2, rest, h3, fun l hl m1 m2 => h4 l hl m2 r1 hne m1⟩

/-- Witness for the amended C25 on the empty index with `k = 5`, `r1 = (1,0)`
and `r2 = (2,0)`. -/
theorem C25_newer_duplicate_precedes_older_witness :
    InitializeIndex.Reachable ∧ (⟨1, 0⟩ : RID) ≠ ⟨2, 0⟩ ∧
    ((5 : Int), (⟨2, 0⟩ : RID)) ∉ InitializeIndex.Stored ∧
    ∃ t1 t2, InitializeIndex.Insert 5 ⟨1, 0⟩ = some t1 ∧ t1.Insert 5 ⟨2, 0⟩ = some t2 ∧
      ∃ rest, t2.Search 5 = some (⟨2, 0⟩ :: rest) ∧
        ∀ l ∈ t2.leaves, ((5 : Int), (⟨1, 0⟩ : RID)) ∈ l.entries → (5, ⟨2, 0⟩) ∈ l.entries →
          Before ((5 : Int), (⟨2, 0⟩ : RID)) (5, ⟨1, 0⟩) l.entries ∧ (⟨1, 0⟩ : RID) ∈ rest :=
  ⟨Reachable.init, by decide, by decide,
    C25_newer_duplicate_precedes_older InitializeIndex 5 ⟨1, 0⟩ ⟨2, 0⟩ Reachable.init
      (by decide) (by decide)⟩

end BPTreeIndex

namespace BPTreeIndex

/-! ## B+tree: iterator steps run beside a writer (claim C29) -/

/-- With the same state in every round, the loop beside a writer is the loop
of a single thread. -/
theorem iterateOver_replicate (t : BPTreeIndex) : ∀ (n : Nat) (it : BPTreeIterator),
    iterateOver (List.replicate n t) it = t.iterateFrom n it := by
  intro n
  induction n with
  | zero => intro it; rfl
  | succ n ih =>
    intro it
    rw [List.replicate_succ, iterateOver, iterateFrom]
    cases BPTreeIterator.IsValid t it with
    | none => rfl
    | some b =>
      cases b with
      | false => rfl
      | true =>
        simp only
        cases BPTreeIterator.GetKey t it <;> cases BPTreeIterator.GetRID t it <;>
          cases hn : BPTreeIterator.Next t it <;> simp only [ih]

theorem setNode_setNode_stage (t : BPTreeIndex) (p q : Int) (a b c d : BPTreePage) :
    (((t.setNode p a).setNode q b).setNode p c).setNode q d = (t.setNode p c).setNode q d := by
  unfold setNode
  simp only
  congr 1
  funext x
  by_cases h1 : x = q
  · rw [h1]; simp only [Function.update_same]
  · rw [Function.update_noteq h1, Function.update_noteq h1]
    by_cases h2 : x = p
    · rw [h2]; simp only [Function.update_same]
    · rw [Function.update_noteq h2, Function.update_noteq h2, Function.update_noteq h1,
        Function.update_noteq h2]

/-- The two stages make up `InsertIntoLeaf` on a full leaf. -/
theorem InsertIntoLeaf_stages (t : BPTreeIndex) (key : Int) (value : RID)
    (x : Int × Int × BPTreeIndex) (h : t.InsertIntoLeafToMoveHalfTo key = some x)
    (hne : x.1 ≠ x.2.1) :
    t.InsertIntoLeaf key value = InsertIntoLeafFromMoveHalfTo key value x := by
  unfold InsertIntoLeafToMoveHalfTo at h
  unfold InsertIntoLeaf
  cases hf : t.FindLeafPage key false with
  | none => rw [hf] at h; cases h
  | some leaf_pid =>
    rw [hf] at h
    simp only at h ⊢
    cases hg : t.getLeaf leaf_pid with
    | none => rw [hg] at h; cases h
    | some leaf_node =>
      rw [hg] at h
      simp only at h ⊢
      by_cases hroom : leaf_node.GetSize < leaf_node.max_size_
      · rw [if_pos hroom] at h; cases h
      · rw [if_neg hroom] at h
        rw [if_neg hroom]
        simp only [Option.some.injEq] at h
        rw [← h] at hne ⊢
        simp only at hne
        unfold InsertIntoLeafFromMoveHalfTo
        have g1 : ((t.NewPage.2.setNode leaf_pid (.leaf (leaf_node.MoveHalfTo
            (BPTreeLeafPage.Init t.NewPage.1 leaf_node.parent_page_id_
              leaf_node.max_size_)).1)).setNode t.NewPage.1 (.leaf (leaf_node.MoveHalfTo
            (BPTreeLeafPage.Init t.NewPage.1 leaf_node.parent_page_id_
              leaf_node.max_size_)).2)).getLeaf leaf_pid =
            some (leaf_node.MoveHalfTo (BPTreeLeafPage.Init t.NewPage.1
              leaf_node.parent_page_id_ leaf_node.max_size_)).1 := by
          unfold getLeaf
          rw [nodes_setNode, if_neg hne, nodes_setNode, if_pos rfl]
        have g2 : ((t.NewPage.2.setNode leaf_pid (.leaf (leaf_node.MoveHalfTo
            (BPTreeLeafPage.Init t.NewPage.1 leaf_node.parent_page_id_
              leaf_node.max_size_)).1)).setNode t.NewPage.1 (.leaf (leaf_node.MoveHalfTo
            (BPTreeLeafPage.Init t.NewPage.1 leaf_node.parent_page_id_
              leaf_node.max_size_)).2)).getLeaf t.NewPage.1 =
            some (leaf_node.MoveHalfTo (BPTreeLeafPage.Init t.NewPage.1
              leaf_node.parent_page_id_ leaf_node.max_size_)).2 := by
          unfold getLeaf
          rw [nodes_setNode, if_pos rfl]
        simp only [g1, g2, setNode_setNode_stage]

set_option maxRecDepth 100000 in
/-- C29 (code at the failing schedule).  `Insert`, `Delete` and `Clear` lock
`index_latch_` exclusively and `Search`, `SearchRange`, `Begin` lock it
shared, but `IsValid`, `Next`, `GetKey` and `GetRID` of an iterator take no
lock.  With the keys 1 .. 4 in one full leaf, a reader starts an iteration and
reads key 1; a writer calls `Insert(5, (5,0))` and is stopped after
`leaf_node->MoveHalfTo(new_leaf_node)`; the reader's second round finds the
leaf with the keys 1, 2 only and `next_page_id_` still `INVALID_PAGE_ID`, reads
key 2, and `Next` leaves the chain; the writer finishes; the reader's third
round finds the iterator at its end.  The iteration has yielded the keys 1 and
2, while every entry of the keys 1 .. 4 is stored before, during and after the
insertion: run before the insertion it yields 1 .. 4, run after it 1 .. 5. -/
theorem C29_iterator_steps_take_no_latch :
    index_latch .Insert = .exclusive ∧ index_latch .Delete = .exclusive ∧
    index_latch .Clear = .exclusive ∧ index_latch .Search = .shared ∧
    index_latch .SearchRange = .shared ∧ index_latch .Begin = .shared ∧
    index_latch .IteratorIsValid = .unlatched ∧ index_latch .IteratorNext = .unlatched ∧
    index_latch .IteratorGetKey = .unlatched ∧ index_latch .IteratorGetRID = .unlatched ∧
    fourKeys.Begin = some ⟨1, 0⟩ ∧
    (fourKeys.InsertIntoLeafToMoveHalfTo 5).map (fun x => (x.1, x.2.1)) = some (1, 2) ∧
    ((fourKeys.InsertIntoLeafToMoveHalfTo 5).bind (InsertIntoLeafFromMoveHalfTo 5 ⟨5, 0⟩)).map
        (fun t => t.iterate 10) = (fourKeys.Insert 5 ⟨5, 0⟩).map (fun t => t.iterate 10) ∧
    (fourKeysSplitting.getLeaf 1).map (fun l => (l.entries.map Prod.fst, l.next_page_id_)) =
      some ([1, 2], INVALID_PAGE_ID) ∧
    BPTreeIterator.Next fourKeys ⟨1, 1⟩ = some ⟨1, 2⟩ ∧
    BPTreeIterator.Next fourKeysSplitting ⟨1, 1⟩ = some ⟨INVALID_PAGE_ID, 0⟩ ∧
    BPTreeIterator.Next fourKeysAndFive ⟨1, 1⟩ = some ⟨2, 0⟩ ∧
    iterateOver [fourKeys, fourKeysSplitting, fourKeysAndFive] ⟨1, 0⟩ =
      some [(1, ⟨1, 0⟩), (2, ⟨2, 0⟩)] ∧
    fourKeys.iterate 10 = some [(1, ⟨1, 0⟩), (2, ⟨2, 0⟩), (3, ⟨3, 0⟩), (4, ⟨4, 0⟩)] ∧
    fourKeysAndFive.iterate 10 =
      some [(1, ⟨1, 0⟩), (2, ⟨2, 0⟩), (3, ⟨3, 0⟩), (4, ⟨4, 0⟩), (5, ⟨5, 0⟩)] := by
  decide

end BPTreeIndex

namespace TableHandle

/-! ## Table heap: record counts and the free chain (claims C38 and C39) -/

set_option maxRecDepth 100000 in
/-- C38 (code at the failing input).  The calls of `refillCalls` followed by
one `InsertRecord` all return and lead to the state `fullHead`, in which page 1
is the head of the free chain with `record_num_ = 2 = rec_per_page_` and both
bits set.  A further `InsertRecord(r)` takes page 1; `FindFirst` returns
`rec_per_page_`, the bit the call sets is none of the `rec_per_page_` bits of
the page, and the count the call stores, `record_num_ + 1 = 3`, is greater than
the number of set bits among the `rec_per_page_` bits of any bitmap. -/
theorem C38_record_num_exceeds_slots :
    fullHead.Reachable ∧ fullHead.tab_hdr_.rec_per_page_ = 2 ∧
    (fullHead.CreatePageHandle).1 = 1 ∧
    ((fullHead.CreatePageHandle).2.pages 1).record_num_ = 2 ∧
    popcount ((fullHead.CreatePageHandle).2.pages 1).bitmap 2 = 2 ∧
    BitMap.FindFirst ((fullHead.CreatePageHandle).2.pages 1).bitmap 2 0 false = 2 ∧
    (((fullHead.CreatePageHandle).2.pages 1).SetBit 2 2 true).isNone = true ∧
    ((create 2).run (refillCalls ++ [.insert (recOf 6), .insert (recOf 7)])).isNone = true ∧
    (((fullHead.CreatePageHandle).2.pages 1).record_num_ + 1) % 2 ^ 64 = 3 ∧
    ∀ bitmap : Nat → Bool, popcount bitmap fullHead.tab_hdr_.rec_per_page_ <
      (((fullHead.CreatePageHandle).2.pages 1).record_num_ + 1) % 2 ^ 64 := by
  have h2 : fullHead.tab_hdr_.rec_per_page_ = 2 := by decide
  have h3 : (((fullHead.CreatePageHandle).2.pages 1).record_num_ + 1) % 2 ^ 64 = 3 := by decide
  refine ⟨⟨2, _, run_fullHead⟩, h2, by decide, by decide, by decide, by decide, by decide,
    by decide, h3, ?_⟩
  intro bitmap
  rw [h2, h3]
  exact Nat.lt_succ_of_le (popcount_le bitmap 2)

set_option maxRecDepth 100000 in
/-- C39 (code at the failing input).  On a table with two slots per page the
calls of `refillCalls` all return: four `InsertRecord(r)` fill pages 1 and 2,
`DeleteRecord((1,0))` and `DeleteRecord((2,0))` put page 1 and then page 2 on
the free chain, and `InsertRecord((1,0), r)` fills page 1 again, which is not
the head of the chain and stays on it: the chain is 2, 1 and page 1 is full.
A further `DeleteRecord((1,0))` puts page 1 at the head once more, with page 2
after it, whose link still leads to page 1: the chain runs 1, 2, 1, 2, … and
page 1 is on it more than once. -/
theorem C39_full_page_on_free_chain :
    refilled.Reachable ∧
    refilled.tab_hdr_.rec_per_page_ = 2 ∧ refilled.tab_hdr_.page_num_ = 3 ∧
    (refilled.pages 1).record_num_ = 2 ∧ (refilled.pages 2).record_num_ = 1 ∧
    refilled.freeChain = [2, 1] ∧
    (refilled.DeleteRecord ⟨1, 0⟩).map Prod.fst = some (.ok ()) ∧
    (refilledDeleted.pages 1).record_num_ = 1 ∧ (refilledDeleted.pages 2).record_num_ = 1 ∧
    refilledDeleted.tab_hdr_.first_free_page_ = 1 ∧
    (refilledDeleted.pages 1).next_free_page_id_ = 2 ∧
    (refilledDeleted.pages 2).next_free_page_id_ = 1 ∧
    refilledDeleted.freeChainFrom 6 refilledDeleted.tab_hdr_.first_free_page_ =
      [1, 2, 1, 2, 1, 2] :=
  ⟨⟨2, refillCalls, run_refilled⟩, by decide, by decide, by decide, by decide, by decide,
    by decide, by decide, by decide, by decide, by decide, by decide, by decide⟩

end TableHandle

namespace BPTreeIndex

/-! ## B+tree: `Search` against `SearchRange` (claim C40) -/

set_option maxRecDepth 100000 in
/-- C40 (code at the failing input).  After inserting the keys 3, 5, 5, 7, 8,
9 with the RIDs (1,0) .. (6,0) and one `Delete(5)`, the tree has the leaves
`[3, 5]` and `[7, 8, 9]` under the separator 5; one entry has key 5, so all
entries with key 5 lie in one leaf, the left one.  `SearchRange(5, 5)` returns
its RID `(3,0)`, and `Search(5)`, whose descent takes the right leaf, returns
the empty list. -/
theorem C40_Search_differs_from_SearchRange :
    staleSeparator.map (fun t => t.leaves.map (fun l => l.entries.map Prod.fst)) =
      some [[3, 5], [7, 8, 9]] ∧
    staleSeparator.map (fun t => t.Stored.filter (fun e => decide (e.1 = 5))) =
      some [(5, ⟨3, 0⟩)] ∧
    (staleSeparator.bind fun t => t.SearchRange 5 5) = some [⟨3, 0⟩] ∧
    (staleSeparator.bind fun t => t.Search 5) = some [] := by
  decide

end BPTreeIndex

/-! ## B+tree: every leaf at depth `tree_height_` (claim C32) -/

theorem WFSub_path (nodes : Int → Option BPTreePage) :
    ∀ (h : Nat) (pid par lo hi f n : Int) (ps : List Int),
      WFSub nodes h pid par lo hi f n → PathToLeaf nodes pid ps → ps.length = h + 1 := by
  intro h
  induction h with
  | zero =>
    intro pid par lo hi f n ps hw hp
    obtain ⟨l, hl, -⟩ := hw
    cases hp with
    | leaf _ l1 h1 => rfl
    | step _ nd c ps1 h1 _ _ => rw [hl] at h1; cases h1
  | succ h ih =>
    intro pid par lo hi f n ps hw hp
    obtain ⟨nd, hnd, -, -, -, hk⟩ := hw
    cases hp with
    | leaf _ l1 h1 => rw [hnd] at h1; cases h1
    | step _ nd1 c ps1 h1 hc hp1 =>
      rw [hnd] at h1
      cases h1
      obtain ⟨e, he, hec⟩ := List.mem_map.1 hc
      obtain ⟨l, u, f1, n1, hw1⟩ := BPTreeIndex.KidsOK_all _ _ _ _ _ hk e he
      rw [hec] at hw1
      rw [List.length_cons, ih c pid l u f1 n1 ps1 hw1 hp1]

theorem WFSub_path_exists (nodes : Int → Option BPTreePage) :
    ∀ (h : Nat) (pid par lo hi f n : Int),
      WFSub nodes h pid par lo hi f n → ∃ ps, PathToLeaf nodes pid ps := by
  intro h
  induction h with
  | zero =>
    intro pid par lo hi f n hw
    obtain ⟨l, hl, -⟩ := hw
    exact ⟨[pid], PathToLeaf.leaf pid l hl⟩
  | succ h ih =>
    intro pid par lo hi f n hw
    obtain ⟨nd, hnd, -, -, -, hk⟩ := hw
    cases hes : nd.entries with
    | nil => exact absurd hes (KidsOK_ne_nil _ _ _ _ _ hk)
    | cons e rest =>
      have he : e ∈ nd.entries := by rw [hes]; exact List.mem_cons_self _ _
      obtain ⟨l, u, f1, n1, hw1⟩ := BPTreeIndex.KidsOK_all _ _ _ _ _ hk e he
      obtain ⟨ps, hps⟩ := ih e.2 pid l u f1 n1 hw1
      exact ⟨pid :: ps, PathToLeaf.step pid nd e.2 ps hnd (List.mem_map.2 ⟨e, he, rfl⟩) hps⟩

namespace BPTreeIndex

theorem Inv_paths (t : BPTreeIndex) (hinv : t.Inv) :
    (t.IsEmpty = true → t.GetHeight = 0 ∧ ∀ ps, ¬ t.RootPath ps) ∧
    (t.IsEmpty = false → ∃ ps, t.RootPath ps) ∧
    (∀ ps, t.RootPath ps → (ps.length : Int) = t.GetHeight) ∧
    (∀ l, t.IsEmpty = false → t.nodes t.header.root_page_id_ = some (.leaf l) →
      t.GetHeight = 1) := by
  obtain ⟨-, -, fl, -, hcase⟩ := hinv
  have hlen : ∀ ps, t.RootPath ps → (ps.length : Int) = t.GetHeight := by
    intro ps hp
    rcases hcase with ⟨h0, -⟩ | ⟨h, -, hh, ⟨lo, hi, f, hw⟩, -⟩
    · exact absurd h0 hp.1
    · rw [WFSub_path t.nodes h _ _ lo hi f _ ps hw hp.2]
      unfold GetHeight
      rw [hh]
      push_cast
      rfl
  refine ⟨?_, ?_, hlen, ?_⟩
  · intro he
    have h0 : t.header.root_page_id_ = INVALID_PAGE_ID := by
      simpa [IsEmpty] using he
    rcases hcase with ⟨-, h1⟩ | ⟨h, hne, -⟩
    · exact ⟨h1, fun ps hp => hp.1 h0⟩
    · exact absurd h0 hne
  · intro he
    have h0 : t.header.root_page_id_ ≠ INVALID_PAGE_ID := by
      simpa [IsEmpty] using he
    rcases hcase with ⟨h1, -⟩ | ⟨h, -, -, ⟨lo, hi, f, hw⟩, -⟩
    · exact absurd h1 h0
    · obtain ⟨ps, hps⟩ := WFSub_path_exists t.nodes h _ _ lo hi f _ hw
      exact ⟨ps, h0, hps⟩
  · intro l he hl
    have h0 : t.header.root_page_id_ ≠ INVALID_PAGE_ID := by
      simpa [IsEmpty] using he
    have := hlen [t.header.root_page_id_] ⟨h0, PathToLeaf.leaf _ l hl⟩
    rw [← this]
    rfl

/-- C32: in every state reachable from the empty index by `Insert`, `Delete`
and `Clear`, every path from the root to a leaf has exactly `tree_height_`
pages, which is what `GetHeight()` returns; a non-empty tree has such a path;
the height of the empty tree is 0 (and it has no path), and the height of a
tree whose root is a leaf is 1. -/
theorem C32_paths_have_tree_height_nodes (t : BPTreeIndex) (hr : t.Reachable) :
    (t.IsEmpty = true → t.GetHeight = 0 ∧ ∀ ps, ¬ t.RootPath ps) ∧
    (t.IsEmpty = false → ∃ ps, t.RootPath ps) ∧
    (∀ ps, t.RootPath ps → (ps.length : Int) = t.GetHeight) ∧
    (∀ l, t.IsEmpty = false → t.nodes t.header.root_page_id_ = some (.leaf l) →
      t.GetHeight = 1) :=
  Inv_paths t (Reachable_Inv t hr)

set_option maxRecDepth 100000 in
/-- Witness for C32: after inserting 10, 20, 30, 40, 25 the height is 2, and
the two paths from the root (page 3) to the leaves (pages 1 and 2) have two
pages each. -/
theorem C32_paths_have_tree_height_nodes_witness :
    splitOnce.GetHeight = 2 ∧ splitOnce.RootPath [3, 1] ∧ splitOnce.RootPath [3, 2] ∧
    ((splitOnce.IsEmpty = true → splitOnce.GetHeight = 0 ∧ ∀ ps, ¬ splitOnce.RootPath ps) ∧
    (splitOnce.IsEmpty = false → ∃ ps, splitOnce.RootPath ps) ∧
    (∀ ps, splitOnce.RootPath ps → (ps.length : Int) = splitOnce.GetHeight) ∧
    (∀ l, splitOnce.IsEmpty = false →
      splitOnce.nodes splitOnce.header.root_page_id_ = some (.leaf l) →
      splitOnce.GetHeight = 1)) := by
  have hroot : splitOnce.header.root_page_id_ = 3 := by decide
  have h3 : ∃ nd, splitOnce.nodes 3 = some (.internal nd) ∧
      nd.entries.map Prod.snd = [1, 2] := by
    have h0 : (splitOnce.getInternal 3).map (fun nd => nd.entries.map Prod.snd) =
        some [1, 2] := by decide
    unfold getInternal at h0
    cases h : splitOnce.nodes 3 with
    | none => rw [h] at h0; cases h0
    | some x =>
      cases x with
      | leaf l => rw [h] at h0; cases h0
      | internal nd =>
        rw [h] at h0
        exact ⟨nd, rfl, Option.some.inj h0⟩
  have hleaf : ∀ p : Int, p = 1 ∨ p = 2 → ∃ l, splitOnce.nodes p = some (.leaf l) := by
    intro p hp
    have hp1 : (splitOnce.getLeaf p).isSome = true := by
      rcases hp with rfl | rfl <;> decide
    unfold getLeaf at hp1
    cases h : splitOnce.nodes p with
    | none => rw [h] at hp1; cases hp1
    | some x =>
      cases x with
      | leaf l => exact ⟨l, rfl⟩
      | internal nd => rw [h] at hp1; cases hp1
  obtain ⟨nd, hnd, hkids⟩ := h3
  obtain ⟨l1, hl1⟩ := hleaf 1 (Or.inl rfl)
  obtain ⟨l2, hl2⟩ := hleaf 2 (Or.inr rfl)
  refine ⟨by decide, ⟨by decide, ?_⟩, ⟨by decide, ?_⟩,
    C32_paths_have_tree_height_nodes splitOnce (Reachable_afterInserts _)⟩
  · rw [hroot]
    exact PathToLeaf.step 3 nd 1 [1] hnd (by rw [hkids]; decide) (PathToLeaf.leaf 1 l1 hl1)
  · rw [hroot]
    exact PathToLeaf.step 3 nd 2 [2] hnd (by rw [hkids]; decide) (PathToLeaf.leaf 2 l2 hl2)

end BPTreeIndex

/-! ## B+tree: the walk of `CoalesceOrRedistribute` up to the root -/

/-- One round of the walk below the root. -/
theorem CoalesceOrRedistributeWalk_eq (fuel : Nat) (t : BPTreeIndex) (X P : Int) (x nb : BPTreePage)
    (nd : BPTreeInternalPage) (index : Nat) (nbp : Int)
    (hx : t.nodes X = some x) (hnr : x.IsRoot = false) (hpar : x.GetParentPageId = P)
    (hgi : t.getInternal P = some nd) (hvi : nd.ValueIndex X = some index)
    (hva : nd.ValueAt (if index = 0 then 1 else index - 1) = some nbp)
    (hnb : t.nodes nbp = some nb) :
    BPTreeIndex.CoalesceOrRedistributeWalk (fuel + 1) t X =
      if nb.GetSize + x.GetSize ≤ x.GetMaxSize then
        match (if index = 0 then t.CoalesceStep X nbp P 1
               else t.CoalesceStep nbp X P index) with
        | none => none
        | some (t1, parent_unsafe) =>
          if parent_unsafe then BPTreeIndex.CoalesceOrRedistributeWalk fuel t1 P
          else some (true, t1, none)
      else
        match t.Redistribute nbp X index with
        | none => none
        | some t1 => some (false, t1, none) := by
  simp only [BPTreeIndex.CoalesceOrRedistributeWalk, hx, hnr, hpar, hgi, hvi, hva, hnb,
    Bool.false_eq_true, if_false]

/-- From a node that is not safe, in a tree that is well-formed up to this
node, the walk returns; and when it ends with a node for `AdjustRoot`, this is
the node stored at the root page of the state in which it ends. -/
theorem CoalesceOrRedistributeWalk_ok : ∀ (n fuel : Nat) (t : BPTreeIndex) (fl : List Int) (h : Nat)
    (lo hi f : Int) (a : Pos), n < fuel → a.h + n = h →
    t.header.leaf_max_size_ = 4 → t.header.internal_max_size_ = 4 →
    t.AllocOK fl → t.TreeOK (some a.pid) fl h →
    WFSub t.nodes h t.header.root_page_id_ INVALID_PAGE_ID lo hi f INVALID_PAGE_ID →
    Site t.nodes ⟨h, t.header.root_page_id_, lo, hi⟩ a →
    (∀ x, t.nodes a.pid = some x → x.IsSafe false = false) →
    ∃ r, BPTreeIndex.CoalesceOrRedistributeWalk fuel t a.pid = some r ∧
      (∀ x, r.2.2 = some x →
        r.2.1.nodes r.2.1.header.root_page_id_ = some x ∧
        x.GetPageId = r.2.1.header.root_page_id_ ∧ x.IsRoot = true) := by
  intro n
  induction n with
  | zero =>
    intro fuel t fl h lo hi f a hfuel hah hl hi4 ha hT hw hs hus
    obtain ⟨fuel, rfl⟩ : ∃ k, fuel = k + 1 := ⟨fuel - 1, by omega⟩
    have hatop := Site_eq_of_height t.nodes _ a hs (by simp only; omega)
    subst hatop
    obtain ⟨x, hx, hxp, hxid, -⟩ := WFSub_node _ _ _ _ _ _ _ _ hw
    have hroot : x.IsRoot = true := by
      unfold BPTreePage.IsRoot
      rw [hxp]
      simp
    refine ⟨(true, t, some x), ?_, ?_⟩
    · simp only [BPTreeIndex.CoalesceOrRedistributeWalk, hx, hroot, if_true]
    · intro y hy
      cases hy
      exact ⟨hx, hxid, hroot⟩
  | succ n ih =>
    intro fuel t fl h lo hi f a hfuel hah hl hi4 ha hT hw hs hus
    obtain ⟨fuel, rfl⟩ : ∃ k, fuel = k + 1 := ⟨fuel - 1, by omega⟩
    obtain ⟨p, hsp, hstep⟩ := Site_parent t.nodes _ a hs (by simp only; omega)
    obtain ⟨ah, X, alo, ahi⟩ := a
    obtain ⟨ph, P, plo, phi⟩ := p
    have hstep0 := hstep
    obtain ⟨nd, hph, hnP, hmem⟩ := hstep
    simp only at hph hnP hmem hah hT hus
    subst hph
    obtain ⟨par1, f1, n1, hwP⟩ := Site_wf t.nodes _ _ hsp _ _ _ hw
    simp only at hwP
    obtain ⟨f2, n2, hwX⟩ := ChildStep_wf t.nodes _ _ hstep0 _ _ _ hwP
    simp only at hwX
    obtain ⟨x, hx, hxp, -, hxm, -⟩ := WFSub_node _ _ _ _ _ _ _ _ hwX
    have hsub := Site_sublist t.nodes _ _ hsp
    simp only at hsub
    have hndP : (pagesOf t.nodes (ah + 1) P).Nodup := hsub.nodup hT.2.2.2.1
    have hPmem : P ∈ pagesOf t.nodes h t.header.root_page_id_ :=
      hsub.subset (mem_pagesOf_self _ _ _)
    have hPold := hT.2.2.2.2 P hPmem
    have hnr : x.IsRoot = false := by
      unfold BPTreePage.IsRoot
      rw [hxp]
      have := hPold.1
      unfold INVALID_PAGE_ID
      simp only [decide_eq_false_iff_not]
      omega
    have hkn := children_nodup t.nodes ah P nd hnP hndP
    obtain ⟨pre0, k0, post, pre, hE, hXpre, hXpost, hubp, hpre, hnorm⟩ :=
      child_position plo phi nd.entries X alo ahi hmem hkn
    have hXP : X ≠ P := by
      intro h0
      rw [pagesOf_succ _ _ _ _ hnP] at hndP
      apply (List.nodup_cons.1 hndP).1
      rw [← h0]
      exact List.mem_flatMap.2 ⟨(k0, X), by rw [hE]; simp, mem_pagesOf_self _ _ _⟩
    have hPfill : 2 ≤ nd.entries.length :=
      hPold.2.2.2 _ hnP (fun h0 => hXP (Option.some.inj h0))
    have hgi : t.getInternal P = some nd := by simp only [BPTreeIndex.getInternal, hnP]
    have hvi := ValueIndex_of_split nd pre0 k0 X post hE hXpre
    have hsmall := IsSafe_false_small x hxm hnr (hus x hx)
    -- what happens after a merge below `P`
    have finish : ∀ (t1 : BPTreeIndex) (B : Int) (nd1 : BPTreeInternalPage),
        Rebalanced t t1 (some P) (B :: fl) h lo hi f →
        Site t1.nodes ⟨h, t1.header.root_page_id_, lo, hi⟩ ⟨ah + 1, P, plo, phi⟩ →
        t1.nodes P = some (.internal nd1) → nd1.max_size_ = 4 →
        ∃ r, (if (!(BPTreePage.internal nd1).IsSafe false) = true then
            BPTreeIndex.CoalesceOrRedistributeWalk fuel t1 P else some (true, t1, none)) = some r ∧
          (∀ x, r.2.2 = some x →
            r.2.1.nodes r.2.1.header.root_page_id_ = some x ∧
            x.GetPageId = r.2.1.header.root_page_id_ ∧ x.IsRoot = true) := by
      intro t1 B nd1 hR hS1 hP1 hmax1
      obtain ⟨r1, r2, r3, r4, r5, r6, r7, r8⟩ := hR
      by_cases hsafe : (BPTreePage.internal nd1).IsSafe false = true
      · refine ⟨(true, t1, none), ?_, ?_⟩
        · simp only [hsafe, Bool.not_true, Bool.false_eq_true, if_false]
        · intro y hy
          cases hy
      · have hlow : (BPTreePage.internal nd1).IsSafe false = false := by
          cases hq : (BPTreePage.internal nd1).IsSafe false with
          | true => exact absurd hq hsafe
          | false => rfl
        obtain ⟨r, hr1, hr2⟩ := ih fuel t1 (B :: fl) h lo hi f
          ⟨ah + 1, P, plo, phi⟩
          (by omega) (by simp only; omega) (by rw [r5]; exact hl) (by rw [r6]; exact hi4)
          r1 r2 r3 hS1 (by
            intro y hy
            simp only at hy
            rw [hP1] at hy
            cases hy
            exact hlow)
        refine ⟨r, ?_, hr2⟩
        simp only [hlow, Bool.not_false, if_true]
        exact hr1
    rcases List.eq_nil_or_concat pre0 with hp0 | ⟨pre00, eA, hp0⟩
    · -- the node is the first child; its neighbour is the second
      subst hp0
      obtain ⟨eB, post00, hpost⟩ : ∃ eB post00, post = eB :: post00 := by
        cases post with
        | nil => rw [hE] at hPfill; simp at hPfill
        | cons eB post00 => exact ⟨eB, post00, rfl⟩
      subst hpost
      have S : Siblings t (some X) fl h lo hi f ah P plo phi nd [] k0 X eB.1 eB.2 post00 :=
        ⟨ha, hT, hw, hsp, hnP, hE, Or.inl rfl⟩
      obtain ⟨pre1, lA, -, ⟨fA, m, n3, wA, wB⟩, -, hABP, hmax4, -⟩ :=
        Siblings_facts t (some X) fl h lo hi f ah P plo phi nd [] k0 X eB.1 eB.2 post00 S
      obtain ⟨nb, hnb, -⟩ := WFSub_node _ _ _ _ _ _ _ _ wB
      have hnbf : nb.Filled :=
        (hT.2.2.2.2 eB.2 (hABP _ (List.mem_append_right _ (mem_pagesOf_self _ _ _))).2).2.2.2
          nb hnb (fun h0 => (Siblings_filled t (some X) fl h lo hi f ah P plo phi nd [] k0 X
            eB.1 eB.2 post00 S).2.1 (Option.some.inj h0))
      have hva : nd.ValueAt (if ([] : List (Int × Int)).length = 0 then 1
          else ([] : List (Int × Int)).length - 1) = some eB.2 := by
        unfold BPTreeInternalPage.ValueAt
        rw [hE]
        rfl
      rw [CoalesceOrRedistributeWalk_eq fuel t X P x nb nd _ eB.2 hx hnr hxp hgi hvi hva hnb]
      by_cases hsz : nb.GetSize + x.GetSize ≤ x.GetMaxSize
      · rw [if_pos hsz]
        obtain ⟨t1, c1, c2, c3, c4⟩ :=
          CoalesceStep_ok t (some X) fl h lo hi f ah P plo phi nd [] k0 X eB.1 eB.2 post00 S
            (by
              intro a b ha0 hb0
              rw [hx] at ha0
              rw [hnb] at hb0
              cases ha0
              cases hb0
              rw [hxm] at hsz
              omega)
        obtain ⟨r, hr1, hr2⟩ := finish t1 eB.2 _ c2 c3 c4 hmax4
        refine ⟨r, ?_, hr2⟩
        simp only [List.length_nil, if_true, Nat.zero_add] at c1 ⊢
        rw [c1]
        exact hr1
      · rw [if_neg hsz]
        obtain ⟨t1, c1, c2⟩ :=
          Redistribute_left_ok t (some X) fl h lo hi f ah P plo phi nd k0 X eB.1 eB.2 post00 S
            (by
              intro y hy
              rw [hnb] at hy
              cases hy
              rw [hxm] at hsz
              omega)
            (by
              intro y hy
              rw [hx] at hy
              cases hy
              exact hsmall)
            (by
              intro a b ha0 hb0
              rw [hx] at ha0
              rw [hnb] at hb0
              cases ha0
              cases hb0
              rw [hxm] at hsz
              omega)
            (by
              intro y hy
              rw [hnb] at hy
              cases hy
              exact hnbf)
        refine ⟨(false, t1, none), ?_, fun y hy => by cases hy⟩
        simp only [List.length_nil]
        rw [c1]
    · -- the neighbour is the child before the node
      subst hp0
      have hE2 : nd.entries = pre00 ++ (eA.1, eA.2) :: (k0, X) :: post := by
        rw [hE]
        simp
      have S : Siblings t (some X) fl h lo hi f ah P plo phi nd pre00 eA.1 eA.2 k0 X post :=
        ⟨ha, hT, hw, hsp, hnP, hE2, Or.inr rfl⟩
      obtain ⟨pre1, lA, -, ⟨fA, m, n3, wA, wB⟩, -, hABP, hmax4, -⟩ :=
        Siblings_facts t (some X) fl h lo hi f ah P plo phi nd pre00 eA.1 eA.2 k0 X post S
      obtain ⟨nb, hnb, -⟩ := WFSub_node _ _ _ _ _ _ _ _ wA
      have hnbf : nb.Filled :=
        (hT.2.2.2.2 eA.2 (hABP _ (List.mem_append_left _ (mem_pagesOf_self _ _ _))).2).2.2.2
          nb hnb (fun h0 => (Siblings_filled t (some X) fl h lo hi f ah P plo phi nd pre00
            eA.1 eA.2 k0 X post S).2.1 (Option.some.inj h0).symm)
      have hlen : (pre00.concat eA).length = pre00.length + 1 := by simp
      rw [hlen] at hvi
      have hva : nd.ValueAt (if pre00.length + 1 = 0 then 1 else pre00.length + 1 - 1) =
          some eA.2 := by
        rw [if_neg (by omega), Nat.add_sub_cancel]
        unfold BPTreeInternalPage.ValueAt
        rw [hE2, get?_pair_left]
        rfl
      rw [CoalesceOrRedistributeWalk_eq fuel t X P x nb nd _ eA.2 hx hnr hxp hgi hvi hva hnb]
      have hidx : ¬ pre00.length + 1 = 0 := by omega
      by_cases hsz : nb.GetSize + x.GetSize ≤ x.GetMaxSize
      · rw [if_pos hsz, if_neg hidx]
        obtain ⟨t1, c1, c2, c3, c4⟩ :=
          CoalesceStep_ok t (some X) fl h lo hi f ah P plo phi nd pre00 eA.1 eA.2 k0 X post S
            (by
              intro a b ha0 hb0
              rw [hnb] at ha0
              rw [hx] at hb0
              cases ha0
              cases hb0
              rw [hxm] at hsz
              omega)
        obtain ⟨r, hr1, hr2⟩ := finish t1 X _ c2 c3 c4 hmax4
        refine ⟨r, ?_, hr2⟩
        rw [c1]
        exact hr1
      · rw [if_neg hsz]
        obtain ⟨t1, c1, c2⟩ :=
          Redistribute_right_ok t (some X) fl h lo hi f ah P plo phi nd pre00 eA.1 eA.2 k0 X post
            S (by
              intro y hy
              rw [hnb] at hy
              cases hy
              rw [hxm] at hsz
              omega)
            (by
              intro y hy
              rw [hx] at hy
              cases hy
              exact hsmall)
            (by
              intro a b ha0 hb0
              rw [hnb] at ha0
              rw [hx] at hb0
              cases ha0
              cases hb0
              rw [hxm] at hsz
              omega)
            (by
              intro y hy
              rw [hnb] at hy
              cases hy
              exact hnbf)
        refine ⟨(false, t1, none), ?_, fun y hy => by cases hy⟩
        rw [c1]

namespace BPTreeIndex

/-! ## B+tree: `AdjustRoot` after a deletion (claim C34) -/

theorem setParent_header (t t1 : BPTreeIndex) (p q : Int) (h : t.setParent p q = some t1) :
    t1.header = t.header ∧ t1.next_free = t.next_free := by
  unfold setParent at h
  cases hx : t.nodes p with
  | none => rw [hx] at h; cases h
  | some x =>
    rw [hx] at h
    cases h
    exact ⟨rfl, rfl⟩

theorem reparent_header (cs : List Int) (q : Int) :
    ∀ t t1 : BPTreeIndex, t.reparent cs q = some t1 →
      t1.header = t.header ∧ t1.next_free = t.next_free := by
  induction cs with
  | nil =>
    intro t t1 h
    cases h
    exact ⟨rfl, rfl⟩
  | cons c cs ih =>
    intro t t1 h
    unfold reparent at h
    cases hs : t.setParent c q with
    | none => rw [hs] at h; cases h
    | some t2 =>
      rw [hs] at h
      obtain ⟨a, b⟩ := setParent_header t t2 c q hs
      obtain ⟨a1, b1⟩ := ih t2 t1 h
      exact ⟨a1.trans a, b1.trans b⟩

theorem Redistribute_header (t t1 : BPTreeIndex) (a b : Int) (i : Nat)
    (h : t.Redistribute a b i = some t1) : t1.header = t.header := by
  unfold Redistribute at h
  dsimp only at h
  repeat' split at h
  all_goals try cases h
  all_goals first
    | rfl
    | (rename_i hs _ _ _; exact (setParent_header _ _ _ _ hs).1)

theorem CoalesceStep_header (t t1 : BPTreeIndex) (a b p : Int) (i : Nat) (u : Bool)
    (h : t.CoalesceStep a b p i = some (t1, u)) : SameRoot t t1 := by
  unfold CoalesceStep at h
  split at h
  · rename_i nb nd pn _ _ _
    cases nd with
    | leaf l =>
      cases nb with
      | leaf l1 =>
        simp only at h
        split at h
        · cases h; exact ⟨rfl, rfl⟩
        · cases h
      | internal n1 => simp at h
    | internal n =>
      cases nb with
      | leaf l1 => simp at h
      | internal n1 =>
        simp only at h
        split at h
        · cases h
        · rename_i t2 hm
          split at h
          · cases h
            split at hm
            · rename_i mk e0 rest _ _
              split at hm
              · cases hm
              · rename_i t3 hr
                cases hm
                have := (reparent_header _ _ _ _ hr).1
                exact ⟨by show t3.header.root_page_id_ = _; rw [this],
                  by show t3.header.tree_height_ = _; rw [this]⟩
            · cases hm
          · cases h
  · cases h

theorem Delete_last_entry (t : BPTreeIndex) (key : Int) (l l1 : BPTreeLeafPage)
    (hinv : t.Inv) (hne : t.header.root_page_id_ ≠ INVALID_PAGE_ID)
    (hl : t.nodes t.header.root_page_id_ = some (.leaf l))
    (hrem : l.RemoveRecord key = some l1) (hemp : l1.entries = []) :
    ∃ t1, t.Delete key = some (true, t1) ∧
      t1.header.root_page_id_ = INVALID_PAGE_ID ∧ t1.header.tree_height_ = 0 ∧
      t1.header.first_free_page_id_ = t.header.root_page_id_ ∧
      t1.next_free t.header.root_page_id_ = t.header.first_free_page_id_ := by
  obtain ⟨-, -, fl, -, hcase⟩ := hinv
  rcases hcase with ⟨h0, -⟩ | ⟨h, -, -, ⟨lo, hi, f, hw⟩, -⟩
  · exact absurd h0 hne
  have hhead : l.page_id_ = t.header.root_page_id_ ∧ l.parent_page_id_ = INVALID_PAGE_ID := by
    cases h with
    | zero =>
      obtain ⟨l0, a1, a2, a3, -⟩ := hw
      rw [hl] at a1
      cases a1
      exact ⟨a2, a3⟩
    | succ h =>
      obtain ⟨nd, a1, -⟩ := hw
      rw [hl] at a1
      cases a1
  obtain ⟨rid, -, -, hpid, hpar, -, -⟩ := RemoveRecord_some l l1 key hrem
  have hf : t.FindLeafPage key false = some t.header.root_page_id_ := by
    unfold FindLeafPage
    rw [if_neg hne]
    unfold BPTreeIndex.fuel
    simp only [FindLeafPageLoop, hl]
  have hg : t.getLeaf t.header.root_page_id_ = some l := by
    unfold getLeaf
    rw [hl]
  have hsafe : (BPTreePage.leaf l1).IsSafe false = false := by
    simp [BPTreePage.IsSafe, BPTreePage.GetSize, hemp]
  have hisroot : (BPTreePage.leaf l1).IsRoot = true := by
    simp [BPTreePage.IsRoot, BPTreePage.GetParentPageId, hpar, hhead.2]
  refine ⟨BPTreeIndex.DeletePage
    { header := { (t.setNode t.header.root_page_id_ (.leaf l1)).header with
        num_entries_ := (t.setNode t.header.root_page_id_ (.leaf l1)).header.num_entries_ - 1,
        root_page_id_ := INVALID_PAGE_ID, tree_height_ := 0 },
      nodes := (t.setNode t.header.root_page_id_ (.leaf l1)).nodes,
      next_free := (t.setNode t.header.root_page_id_ (.leaf l1)).next_free } l1.page_id_, ?_, ?_⟩
  · simp only [Delete, hf, if_neg hne, hg, hrem, hsafe, Bool.not_false, if_true]
    unfold BPTreeIndex.fuel
    simp only [CoalesceOrRedistribute, nodes_setNode, if_true, hisroot, AdjustRoot, hemp,
      List.length_nil]
  · refine ⟨rfl, rfl, ?_, ?_⟩
    · show l1.page_id_ = _
      rw [hpid, hhead.1]
    · simp only [DeletePage]
      rw [hpid, hhead.1, Function.update_same]
      rfl

/-- `CoalesceOrRedistribute` is its walk up the tree followed, at the root, by
`AdjustRoot`. -/
theorem CoalesceOrRedistribute_walk : ∀ (fuel : Nat) (t : BPTreeIndex) (id : Int),
    CoalesceOrRedistribute fuel t id =
      match CoalesceOrRedistributeWalk fuel t id with
      | none => none
      | some (b, t1, none) => some (b, t1)
      | some (_, t1, some node) => t1.AdjustRoot node := by
  intro fuel
  induction fuel with
  | zero => intro t id; rfl
  | succ fuel ih =>
    intro t id
    unfold CoalesceOrRedistribute CoalesceOrRedistributeWalk
    cases hx : t.nodes id with
    | none => rfl
    | some x =>
      simp only
      by_cases hroot : x.IsRoot = true
      · simp only [hroot, if_true]
      · simp only [hroot, if_false, Bool.false_eq_true]
        cases h1 : t.getInternal x.GetParentPageId with
        | none => rfl
        | some pn =>
          simp only
          cases h2 : pn.ValueIndex id with
          | none => rfl
          | some index =>
            simp only
            cases h3 : pn.ValueAt (if index = 0 then 1 else index - 1) with
            | none => rfl
            | some nbp =>
              simp only
              cases h4 : t.nodes nbp with
              | none => rfl
              | some nb =>
                simp only
                by_cases hsz : nb.GetSize + x.GetSize ≤ x.GetMaxSize
                · simp only [hsz, if_true]
                  cases h5 : (if index = 0 then t.CoalesceStep id nbp x.GetParentPageId 1
                      else t.CoalesceStep nbp id x.GetParentPageId index) with
                  | none => rfl
                  | some r =>
                    obtain ⟨t3, pu⟩ := r
                    simp only
                    cases pu with
                    | true => simp only [if_true]; exact ih _ _
                    | false => rfl
                · simp only [hsz, if_false]
                  cases h5 : t.Redistribute nbp id index with
                  | none => rfl
                  | some t3 => rfl

/-- The walk of `CoalesceOrRedistribute` up the tree keeps the root and the
height. -/
theorem CoalesceOrRedistributeWalk_root : ∀ (fuel : Nat) (t : BPTreeIndex) (id : Int)
    (r : Bool × BPTreeIndex × Option BPTreePage),
    CoalesceOrRedistributeWalk fuel t id = some r → SameRoot t r.2.1 := by
  intro fuel
  induction fuel with
  | zero => intro t id r h; cases h
  | succ fuel ih =>
    intro t id r h
    unfold CoalesceOrRedistributeWalk at h
    cases hx : t.nodes id with
    | none => rw [hx] at h; cases h
    | some x =>
      rw [hx] at h
      simp only at h
      split at h
      · cases h; exact ⟨rfl, rfl⟩
      · split at h
        · cases h
        · split at h
          · cases h
          · split at h
            · cases h
            · split at h
              · cases h
              · split at h
                · split at h
                  · cases h
                  · rename_i t3 pu hc
                    have hsame : SameRoot t t3 := by
                      split at hc
                      · exact CoalesceStep_header _ _ _ _ _ _ _ hc
                      · exact CoalesceStep_header _ _ _ _ _ _ _ hc
                    split at h
                    · have h1 := ih t3 _ r h
                      exact ⟨h1.1.trans hsame.1, h1.2.trans hsame.2⟩
                    · cases h
                      exact hsame
                · split at h
                  · cases h
                  · rename_i t3 hr
                    cases h
                    have := Redistribute_header _ _ _ _ _ hr
                    exact ⟨by show t3.header.root_page_id_ = _; rw [this],
                      by show t3.header.tree_height_ = _; rw [this]⟩

/-- `Delete(key)` that reaches `return AdjustRoot(node)` in the state `t2`
returns `true` with the state `AdjustRoot(node)` leaves. -/
theorem Delete_of_AdjustRootCall (t t2 : BPTreeIndex) (key : Int) (x : BPTreePage)
    (h : t.AdjustRootCall key = some (t2, x)) :
    SameRoot t t2 ∧
    t.Delete key = (match t2.AdjustRoot x with
      | none => none
      | some r => some (true, r.2)) := by
  unfold AdjustRootCall at h
  unfold Delete
  cases h1 : t.FindLeafPage key false with
  | none => rw [h1] at h; cases h
  | some leaf_pid =>
    rw [h1] at h
    simp only at h ⊢
    by_cases h2 : leaf_pid = INVALID_PAGE_ID
    · rw [if_pos h2] at h; cases h
    · rw [if_neg h2] at h
      rw [if_neg h2]
      cases h3 : t.getLeaf leaf_pid with
      | none => rw [h3] at h; cases h
      | some leaf_node =>
        rw [h3] at h
        simp only at h ⊢
        cases h4 : leaf_node.RemoveRecord key with
        | none => rw [h4] at h; cases h
        | some leaf1 =>
          rw [h4] at h
          simp only at h ⊢
          split at h
          · rename_i hs
            rw [if_pos hs, CoalesceOrRedistribute_walk]
            split at h
            · rename_i b t3 node hw
              cases h
              have hsame := CoalesceOrRedistributeWalk_root _ _ _ _ hw
              refine ⟨⟨hsame.1, hsame.2⟩, ?_⟩
              rw [hw]
            · cases h
          · cases h

/-- `Delete(key)` that does not reach `return AdjustRoot(node)` keeps the root
and the height. -/
theorem Delete_without_AdjustRootCall (t : BPTreeIndex) (key : Int) (r : Bool × BPTreeIndex)
    (h : t.AdjustRootCall key = none) (hd : t.Delete key = some r) : SameRoot t r.2 := by
  unfold AdjustRootCall at h
  unfold Delete at hd
  cases h1 : t.FindLeafPage key false with
  | none => rw [h1] at hd; cases hd
  | some leaf_pid =>
    rw [h1] at h hd
    simp only at h hd
    by_cases h2 : leaf_pid = INVALID_PAGE_ID
    · rw [if_pos h2] at hd; cases hd; exact ⟨rfl, rfl⟩
    · rw [if_neg h2] at h hd
      cases h3 : t.getLeaf leaf_pid with
      | none => rw [h3] at hd; cases hd
      | some leaf_node =>
        rw [h3] at h hd
        simp only at h hd
        cases h4 : leaf_node.RemoveRecord key with
        | none => rw [h4] at hd; cases hd; exact ⟨rfl, rfl⟩
        | some leaf1 =>
          rw [h4] at h hd
          simp only at h hd
          split at hd
          · rename_i hs
            rw [if_pos hs] at h
            rw [CoalesceOrRedistribute_walk] at hd
            cases hw : CoalesceOrRedistributeWalk
                ({ t.setNode leaf_pid (.leaf leaf1) with header :=
                  { (t.setNode leaf_pid (.leaf leaf1)).header with num_entries_ :=
                    (t.setNode leaf_pid (.leaf leaf1)).header.num_entries_ - 1 } } :
                  BPTreeIndex).fuel
                { t.setNode leaf_pid (.leaf leaf1) with header :=
                  { (t.setNode leaf_pid (.leaf leaf1)).header with num_entries_ :=
                    (t.setNode leaf_pid (.leaf leaf1)).header.num_entries_ - 1 } } leaf_pid with
            | none => rw [hw] at hd; cases hd
            | some w =>
              obtain ⟨b, t3, ox⟩ := w
              rw [hw] at h hd
              cases ox with
              | some node => cases h
              | none =>
                simp only at hd
                cases hd
                have hsame := CoalesceOrRedistributeWalk_root _ _ _ _ hw
                exact ⟨hsame.1, hsame.2⟩
          · cases hd
            exact ⟨rfl, rfl⟩

/-- `AdjustRoot` on a leaf without entries clears the tree. -/
theorem AdjustRoot_empty_leaf (t : BPTreeIndex) (l : BPTreeLeafPage) (he : l.entries = []) :
    ∃ t1, t.AdjustRoot (.leaf l) = some (true, t1) ∧
      t1.header.root_page_id_ = INVALID_PAGE_ID ∧ t1.header.tree_height_ = 0 ∧
      t1.header.first_free_page_id_ = l.page_id_ ∧
      t1.next_free l.page_id_ = t.header.first_free_page_id_ := by
  refine ⟨_, by simp only [AdjustRoot, he, List.length_nil, if_true]; rfl, rfl, rfl, rfl, ?_⟩
  simp [DeletePage]

/-- `AdjustRoot` on an internal node with exactly one child, when it returns,
promotes the child. -/
theorem AdjustRoot_one_child (t t1 : BPTreeIndex) (n : BPTreeInternalPage) (k c : Int)
    (b : Bool) (he : n.entries = [(k, c)]) (h : t.AdjustRoot (.internal n) = some (b, t1)) :
    b = true ∧ t1.header.root_page_id_ = c ∧
    (∃ y, t1.nodes c = some y ∧ y.GetParentPageId = INVALID_PAGE_ID) ∧
    t1.header.tree_height_ = t.header.tree_height_ - 1 ∧
    t1.header.first_free_page_id_ = n.page_id_ ∧
    t1.next_free n.page_id_ = t.header.first_free_page_id_ := by
  unfold AdjustRoot at h
  simp only [he, List.length_singleton, if_true, BPTreeInternalPage.ValueAt,
    List.get?_cons_zero, Option.map_some'] at h
  split at h
  · cases h
  · rename_i t2 hs
    cases h
    have h3 := (setParent_header _ _ _ _ hs).1
    refine ⟨rfl, ?_, ?_, ?_, rfl, ?_⟩
    · show t2.header.root_page_id_ = c
      rw [h3]
    · unfold setParent at hs
      simp only at hs
      cases hc : t.nodes c with
      | none => rw [hc] at hs; cases hs
      | some y =>
        rw [hc] at hs
        cases hs
        refine ⟨y.SetParentPageId INVALID_PAGE_ID, ?_, ?_⟩
        · simp [DeletePage, setNode]
        · cases y <;> rfl
    · show t2.header.tree_height_ = _
      rw [h3]
    · simp only [DeletePage, Function.update_same]
      rw [h3]

/-- `AdjustRoot` on a leaf with entries, or on an internal node with a number
of children other than one, changes nothing. -/
theorem AdjustRoot_other (t : BPTreeIndex) (x : BPTreePage)
    (hl : ∀ l, x = .leaf l → l.entries ≠ [])
    (hn : ∀ n, x = .internal n → n.entries.length ≠ 1) :
    t.AdjustRoot x = some (false, t) := by
  cases x with
  | leaf l =>
    have := hl l rfl
    simp only [AdjustRoot, List.length_eq_zero, this, if_false]
  | internal n =>
    have := hn n rfl
    simp only [AdjustRoot, this, if_false]

/-- In a state with the invariant, the node `Delete(key)` passes to `AdjustRoot`
is the node stored at the root page, in the state in which it is passed. -/
theorem AdjustRootCall_root (t t2 : BPTreeIndex) (key : Int) (x : BPTreePage) (hinv : t.Inv)
    (hcall : t.AdjustRootCall key = some (t2, x)) :
    t2.nodes t2.header.root_page_id_ = some x ∧ x.GetPageId = t2.header.root_page_id_ ∧
    x.IsRoot = true := by
  by_cases hroot : t.header.root_page_id_ = INVALID_PAGE_ID
  · have hf : t.FindLeafPage key false = some INVALID_PAGE_ID := by
      unfold BPTreeIndex.FindLeafPage
      rw [if_pos hroot]
    simp only [AdjustRootCall, hf, if_true] at hcall
    cases hcall
  · obtain ⟨hl4, hi4, fl, hA, hcase⟩ := hinv
    rcases hcase with ⟨h0, -⟩ | ⟨h, hT⟩
    · exact absurd h0 hroot
    obtain ⟨lo0, hi0, f, hw0⟩ := hT.2.2.1
    have hw := WFSub_weaken t.nodes h _ _ _ _ _ _ (min lo0 key) (max hi0 (key + 1))
      (min_le_left _ _) (le_max_left _ _) hw0
    obtain ⟨q, q1, q2, q3, q4, q5, q6, l, par, n, hl, hwq⟩ :=
      FindLeafPage_of_TreeOK t none fl h hA hT key _ _ f hw (min_le_right _ _)
        (lt_of_lt_of_le (by omega) (le_max_right _ _))
    obtain ⟨qh, X, qlo, qhi⟩ := q
    simp only at q1 q3 q4 q5 q6 hl hwq q2
    subst q1
    obtain ⟨l2, w1, w2, w3, w4, w5, w6, w7, w8, w9⟩ := hwq
    rw [hl] at w1
    cases w1
    have hgl : t.getLeaf X = some l := by simp only [BPTreeIndex.getLeaf, hl]
    have hXmem : X ∈ pagesOf t.nodes h t.header.root_page_id_ :=
      (Site_sublist t.nodes _ _ q2).subset (mem_pagesOf_self _ _ _)
    have hXr := TreeOK_page t fl h hT X hXmem
    cases hrm : l.RemoveRecord key with
    | none =>
      simp only [AdjustRootCall, q3, q6, if_false, hgl, hrm] at hcall
      cases hcall
    | some l1 =>
      obtain ⟨rid, e1, e2, e3, e4, e5, e6⟩ := RemoveRecord_some l l1 key hrm
      have hsubl : l1.entries.Sublist l.entries := by
        rw [e2]
        conv_rhs => rw [e1]
        exact (List.Sublist.refl _).append (List.sublist_cons_self _ _)
      obtain ⟨t3, ht3⟩ : ∃ t3 : BPTreeIndex, t3 =
          { t.setNode X (.leaf l1) with header := { (t.setNode X (.leaf l1)).header with
            num_entries_ := (t.setNode X (.leaf l1)).header.num_entries_ - 1 } } := ⟨_, rfl⟩
      have hnodes : t3.nodes = Function.update t.nodes X (some (.leaf l1)) := by rw [ht3]; rfl
      have hhd : t3.header.root_page_id_ = t.header.root_page_id_ ∧
          t3.header.tree_height_ = t.header.tree_height_ ∧
          t3.header.page_num_ = t.header.page_num_ ∧
          t3.header.leaf_max_size_ = t.header.leaf_max_size_ ∧
          t3.header.internal_max_size_ = t.header.internal_max_size_ ∧
          t3.header.num_entries_ = t.header.num_entries_ - 1 := by
        rw [ht3]; exact ⟨rfl, rfl, rfl, rfl, rfl, rfl⟩
      obtain ⟨d1, d2, d3, d4, d5, d6⟩ := hhd
      have hA2 : t3.AllocOK fl := by rw [ht3]; exact hA
      have hr : Repl t.nodes t3.nodes [] ⟨0, X, qlo, qhi⟩ := by
        rw [hnodes]
        exact Repl_leaf t.nodes X qlo qhi l l1 hl e3 e4 e5 e6 (w8.sublist hsubl)
          (fun e he => w9 e (hsubl.subset he))
      have hXn : t3.nodes X = some (.leaf l1) := by
        rw [hnodes]; simp
      obtain ⟨r1, r2, r3, A, B, g1, g2⟩ := TreeOK_replace t t3 none (some X) fl fl h _ _ f []
        ⟨0, X, qlo, qhi⟩ hT hw q2 hr (fun y hy => by cases hy) d1 d2 (by rw [d3])
        (by
          intro y hy
          simp only [pagesOf, List.mem_singleton] at hy
          rw [hy, d3]
          refine ⟨hXr.1, hXr.2.1, hXr.2.2.1, ?_⟩
          intro z _ h0
          exact absurd rfl h0)
        (fun y hy => Or.inl hy) (fun y hy => by cases hy)
      by_cases hsafe : (BPTreePage.leaf l1).IsSafe false = true
      · simp only [AdjustRootCall, q3, q6, if_false, hgl, hrm, hsafe, Bool.not_true,
          Bool.false_eq_true] at hcall
        cases hcall
      · have hlow : (BPTreePage.leaf l1).IsSafe false = false := by
          cases hq : (BPTreePage.leaf l1).IsSafe false with
          | true => exact absurd hq hsafe
          | false => rfl
        have hfu := TreeOK_fuel t3 _ fl h hA2 r1
        obtain ⟨r, c1, c2⟩ := CoalesceOrRedistributeWalk_ok h t3.fuel t3 fl h _ _ f
          ⟨0, X, qlo, qhi⟩ (by omega) (by simp) (by rw [d4]; exact hl4) (by rw [d5]; exact hi4)
          hA2 r1 r2 r3 (by
            intro y hy
            simp only at hy
            rw [hXn] at hy
            cases hy
            exact hlow)
        simp only at c1
        have hc : BPTreeIndex.CoalesceOrRedistributeWalk
            ({ t.setNode X (.leaf l1) with header := { (t.setNode X (.leaf l1)).header with
              num_entries_ := (t.setNode X (.leaf l1)).header.num_entries_ - 1 } } :
              BPTreeIndex).fuel
            { t.setNode X (.leaf l1) with header := { (t.setNode X (.leaf l1)).header with
              num_entries_ := (t.setNode X (.leaf l1)).header.num_entries_ - 1 } } X =
            some r := by
          rw [← ht3]; exact c1
        simp only [AdjustRootCall, q3, q6, if_false, hgl, hrm, hlow, Bool.not_false,
          if_true, hc] at hcall
        obtain ⟨b, t4, ox⟩ := r
        cases ox with
        | none => cases hcall
        | some node =>
          simp only [Option.some.injEq, Prod.mk.injEq] at hcall
          obtain ⟨hc1, hc2⟩ := hcall
          subst hc1
          subst hc2
          exact c2 node rfl

/-- C34: in a state reachable by `Insert`, `Delete` and `Clear`, (1) a
`Delete(key)` that removes the last entry of a leaf root clears the tree: the
root becomes `INVALID_PAGE_ID`, the height 0, and the page of the old root is
put at the head of the free chain; (2) `Delete(key)` returns; (3) when
`Delete(key)` reaches `return AdjustRoot(node)`, in the state `t2`, the root and
the height of `t2` are those before the call, `node` is the node stored at the
root page, and `Delete(key)` returns `true` with a state `t1` such that: if
`node` is a leaf without entries, the tree is cleared in this way; if `node` is
an internal node with exactly one child `c`, then `c` is the root of `t1`, the
node stored at `c` has `parent_page_id_ = INVALID_PAGE_ID`, the height is one
less, and the page of the old root is at the head of the free chain, before the
head of the chain of `t2`; in every other case `t1 = t2`; (4) a `Delete(key)`
that does not reach `AdjustRoot` leaves the root and the height as they
were. -/
theorem C34_AdjustRoot_after_Delete (t : BPTreeIndex) (key : Int) (hr : t.Reachable) :
    (∀ l l1, t.header.root_page_id_ ≠ INVALID_PAGE_ID →
      t.nodes t.header.root_page_id_ = some (.leaf l) → l.RemoveRecord key = some l1 →
      l1.entries = [] →
      ∃ t1, t.Delete key = some (true, t1) ∧
        t1.header.root_page_id_ = INVALID_PAGE_ID ∧ t1.header.tree_height_ = 0 ∧
        t1.header.first_free_page_id_ = t.header.root_page_id_ ∧
        t1.next_free t.header.root_page_id_ = t.header.first_free_page_id_) ∧
    (∃ r, t.Delete key = some r) ∧
    (∀ t2 x, t.AdjustRootCall key = some (t2, x) →
      SameRoot t t2 ∧ t2.nodes t2.header.root_page_id_ = some x ∧
      x.GetPageId = t.header.root_page_id_ ∧ x.GetParentPageId = INVALID_PAGE_ID ∧
      ∃ t1, t.Delete key = some (true, t1) ∧
        (∀ l, x = .leaf l → l.entries = [] →
          t1.header.root_page_id_ = INVALID_PAGE_ID ∧ t1.header.tree_height_ = 0 ∧
          t1.header.first_free_page_id_ = t.header.root_page_id_ ∧
          t1.next_free t.header.root_page_id_ = t2.header.first_free_page_id_) ∧
        (∀ n k c, x = .internal n → n.entries = [(k, c)] →
          t1.header.root_page_id_ = c ∧
          (∃ y, t1.nodes c = some y ∧ y.GetParentPageId = INVALID_PAGE_ID) ∧
          t1.header.tree_height_ = t.header.tree_height_ - 1 ∧
          t1.header.first_free_page_id_ = t.header.root_page_id_ ∧
          t1.next_free t.header.root_page_id_ = t2.header.first_free_page_id_) ∧
        ((∀ l, x = .leaf l → l.entries ≠ []) →
          (∀ n, x = .internal n → n.entries.length ≠ 1) → t1 = t2)) ∧
    (t.AdjustRootCall key = none → ∀ b t1, t.Delete key = some (b, t1) → SameRoot t t1) := by
  have hinv := Reachable_Inv t hr
  refine ⟨fun l l1 hne hl hrem hemp => Delete_last_entry t key l l1 hinv hne hl hrem hemp,
    (Delete_ok t key hinv).imp (fun _ h => h.1), ?_,
    fun h b t1 hd => Delete_without_AdjustRootCall t key (b, t1) h hd⟩
  intro t2 x hcall
  obtain ⟨hsame, hdel⟩ := Delete_of_AdjustRootCall t t2 key x hcall
  obtain ⟨hx, hpid, hroot⟩ := AdjustRootCall_root t t2 key x hinv hcall
  have hpid1 : x.GetPageId = t.header.root_page_id_ := hpid.trans hsame.1
  have hpar : x.GetParentPageId = INVALID_PAGE_ID := by
    simpa [BPTreePage.IsRoot] using hroot
  obtain ⟨r, hr1, -⟩ := Delete_ok t key hinv
  rw [hdel] at hr1
  cases hadj : t2.AdjustRoot x with
  | none => rw [hadj] at hr1; cases hr1
  | some p =>
    obtain ⟨b, t1⟩ := p
    refine ⟨hsame, hx, hpid1, hpar, t1, by rw [hdel, hadj], ?_, ?_, ?_⟩
    · intro l hxl he
      subst hxl
      obtain ⟨t3, e1, e2, e3, e4, e5⟩ := AdjustRoot_empty_leaf t2 l he
      rw [e1] at hadj
      cases hadj
      have hp : l.page_id_ = t.header.root_page_id_ := hpid1
      rw [← hp]
      exact ⟨e2, e3, e4, e5⟩
    · intro n k c hxn he
      subst hxn
      obtain ⟨-, e2, e3, e4, e5, e6⟩ := AdjustRoot_one_child t2 t1 n k c b he hadj
      have hp : n.page_id_ = t.header.root_page_id_ := hpid1
      rw [← hp, ← hsame.2]
      exact ⟨e2, e3, e4, e5, e6⟩
    · intro hl hn
      rw [AdjustRoot_other t2 x hl hn] at hadj
      cases hadj
      rfl

set_option maxRecDepth 100000 in
/-- Witness for C34 on the tree built by inserting 10, 20, 30, 40, 25 (root
page 3 over the leaves 1 and 2, height 2): `Delete(40)` merges the leaves and
reaches `AdjustRoot` with the root, page 3, holding the one child 1, and page 2
at the head of the free chain; it makes page 1 the root, with parent
`INVALID_PAGE_ID`, height 1 and page 3 at the head of the free chain, before
page 2; after `Delete(30)` the leaf root holds 10, 20, 25. -/
theorem C34_AdjustRoot_after_Delete_witness :
    splitOnce.header.root_page_id_ = 3 ∧ splitOnce.header.tree_height_ = 2 ∧
    (splitOnce.AdjustRootCall 40).map (fun r => (r.1.header.root_page_id_,
      r.1.header.tree_height_, r.1.header.first_free_page_id_)) = some (3, 2, 2) ∧
    (splitOnce.AdjustRootCall 40).map (fun r => (r.2.GetPageId, r.2.IsLeaf, r.2.GetSize)) =
      some (3, false, 1) ∧
    (splitOnce.AdjustRootCall 40).bind (fun r => (r.1.getInternal 3).map
      (fun n => n.entries.map Prod.snd)) = some [1] ∧
    (splitOnce.Delete 40).map Prod.fst = some true ∧
    splitOnceLess40.header.root_page_id_ = 1 ∧ splitOnceLess40.header.tree_height_ = 1 ∧
    (splitOnceLess40.getLeaf 1).map (fun l => (l.parent_page_id_, l.entries.map Prod.fst)) =
      some (INVALID_PAGE_ID, [10, 20, 25, 30]) ∧
    splitOnceLess40.header.first_free_page_id_ = 3 ∧ splitOnceLess40.next_free 3 = 2 ∧
    splitOnceLess40.next_free 2 = INVALID_PAGE_ID ∧
    (splitOnceLess40.Delete 30).map Prod.fst = some true ∧
    splitOnceLess4030.header.root_page_id_ = 1 ∧ splitOnceLess4030.header.tree_height_ = 1 ∧
    (splitOnceLess4030.getLeaf 1).map (fun l => (l.parent_page_id_, l.entries.map Prod.fst)) =
      some (INVALID_PAGE_ID, [10, 20, 25]) ∧
    ((∀ l l1, splitOnce.header.root_page_id_ ≠ INVALID_PAGE_ID →
      splitOnce.nodes splitOnce.header.root_page_id_ = some (.leaf l) →
      l.RemoveRecord 40 = some l1 → l1.entries = [] →
      ∃ t1, splitOnce.Delete 40 = some (true, t1) ∧
        t1.header.root_page_id_ = INVALID_PAGE_ID ∧ t1.header.tree_height_ = 0 ∧
        t1.header.first_free_page_id_ = splitOnce.header.root_page_id_ ∧
        t1.next_free splitOnce.header.root_page_id_ = splitOnce.header.first_free_page_id_) ∧
    (∃ r, splitOnce.Delete 40 = some r) ∧
    (∀ t2 x, splitOnce.AdjustRootCall 40 = some (t2, x) →
      SameRoot splitOnce t2 ∧ t2.nodes t2.header.root_page_id_ = some x ∧
      x.GetPageId = splitOnce.header.root_page_id_ ∧ x.GetParentPageId = INVALID_PAGE_ID ∧
      ∃ t1, splitOnce.Delete 40 = some (true, t1) ∧
        (∀ l, x = .leaf l → l.entries = [] →
          t1.header.root_page_id_ = INVALID_PAGE_ID ∧ t1.header.tree_height_ = 0 ∧
          t1.header.first_free_page_id_ = splitOnce.header.root_page_id_ ∧
          t1.next_free splitOnce.header.root_page_id_ = t2.header.first_free_page_id_) ∧
        (∀ n k c, x = .internal n → n.entries = [(k, c)] →
          t1.header.root_page_id_ = c ∧
          (∃ y, t1.nodes c = some y ∧ y.GetParentPageId = INVALID_PAGE_ID) ∧
          t1.header.tree_height_ = splitOnce.header.tree_height_ - 1 ∧
          t1.header.first_free_page_id_ = splitOnce.header.root_page_id_ ∧
          t1.next_free splitOnce.header.root_page_id_ = t2.header.first_free_page_id_) ∧
        ((∀ l, x = .leaf l → l.entries ≠ []) →
          (∀ n, x = .internal n → n.entries.length ≠ 1) → t1 = t2)) ∧
    (splitOnce.AdjustRootCall 40 = none →
      ∀ b t1, splitOnce.Delete 40 = some (b, t1) → SameRoot splitOnce t1)) :=
  ⟨by decide, by decide, by decide, by decide, by decide, by decide, by decide, by decide,
    ⟨by decide, by decide, by decide, by decide, by decide, by decide, by decide, by decide,
      C34_AdjustRoot_after_Delete splitOnce 40 (Reachable_afterInserts _)⟩⟩

end BPTreeIndex

/-! ## Buffer pool: frames are free or resident (claims C36 and C37) -/

theorem erase_entry_perm {α β : Type} [DecidableEq α] (l : List (α × β)) (k : α) (v : β)
    (hn : (l.map Prod.fst).Nodup) (h : (k, v) ∈ l) :
    (v :: (l.filter (fun e => decide (e.1 ≠ k))).map Prod.snd).Perm (l.map Prod.snd) := by
  induction l with
  | nil => cases h
  | cons e es ih =>
    simp only [List.map_cons, List.nodup_cons] at hn
    rcases List.mem_cons.1 h with h1 | h1
    · have hk : e.1 = k := by rw [← h1]
      have hv : e.2 = v := by rw [← h1]
      rw [List.filter_cons_of_neg (by simp [hk])]
      have : es.filter (fun e => decide (e.1 ≠ k)) = es := by
        apply List.filter_eq_self.2
        intro x hx
        have : x.1 ≠ k := fun hxk => hn.1 (List.mem_map.2 ⟨x, hx, by rw [hxk, hk]⟩)
        simp [this]
      rw [this, List.map_cons, hv]
    · have hk : e.1 ≠ k := fun hek => hn.1 (List.mem_map.2 ⟨(k, v), h1, hek.symm⟩)
      rw [List.filter_cons_of_pos (by simp [hk]), List.map_cons, List.map_cons]
      exact (List.Perm.swap _ _ _).trans ((ih hn.2 h1).cons _)

theorem entry_unique_of_value {α β : Type} (l : List (α × β))
    (hn : (l.map Prod.snd).Nodup) (a b : α × β) (ha : a ∈ l) (hb : b ∈ l) (h : a.2 = b.2) :
    a = b :=
  List.inj_on_of_nodup_map hn ha hb h

theorem entry_unique_of_key {α β : Type} (l : List (α × β))
    (hn : (l.map Prod.fst).Nodup) (a b : α × β) (ha : a ∈ l) (hb : b ∈ l) (h : a.1 = b.1) :
    a = b :=
  List.inj_on_of_nodup_map hn ha hb h

namespace BufferPoolManager

theorem range_nodup (n : Nat) : ((List.range n).map Int.ofNat).Nodup :=
  (List.nodup_range n).map (fun _ _ h => Int.ofNat.inj h)

theorem Resident_nodup (n : Nat) (s : BufferPoolManager) (h : Resident n s) :
    (s.free_list_ ++ s.page_frame_lookup_.map Prod.snd).Nodup :=
  (List.Perm.nodup_iff h.perm).2 (range_nodup n)

theorem Resident_values_nodup (n : Nat) (s : BufferPoolManager) (h : Resident n s) :
    (s.page_frame_lookup_.map Prod.snd).Nodup :=
  (List.nodup_append.1 (Resident_nodup n s h)).2.1

theorem Resident_free_not_resident (n : Nat) (s : BufferPoolManager) (h : Resident n s)
    (f : Int) (hf : f ∈ s.free_list_) : f ∉ s.page_frame_lookup_.map Prod.snd :=
  fun hv => (List.nodup_append.1 (Resident_nodup n s h)).2.2 hf hv

theorem mem_eraseKey_iff (tbl : List ((Int × Int) × Int)) (fid pid : Int)
    (e : (Int × Int) × Int) : e ∈ eraseKey tbl fid pid ↔ e ∈ tbl ∧ e.1 ≠ (fid, pid) := by
  unfold eraseKey
  simp [List.mem_filter]

theorem Resident_new (n : Nat) (s : BufferPoolManager) (ht : s.page_frame_lookup_ = [])
    (hf : s.free_list_ = (List.range n).map Int.ofNat)
    (he : ∀ g, s.replacer_.evictable g = false) : Resident n s := by
  refine ⟨by rw [ht]; exact List.nodup_nil, ?_, ?_, ?_, ?_⟩
  · rw [ht, hf]; simp
  · intro e h; rw [ht] at h; cases h
  · intro e h; rw [ht] at h; cases h
  · intro g hg; rw [he g] at hg; cases hg

theorem Resident_newLRU (n : Nat) (d : DiskManager) : Resident n (newLRU n d) :=
  Resident_new n _ rfl rfl (fun g => by simp [newLRU, Replacer.evictable])

theorem Resident_newLRUK (n k : Nat) (d : DiskManager) : Resident n (newLRUK n k d) :=
  Resident_new n _ rfl rfl (fun g => by simp [newLRUK, Replacer.evictable])

/-- Changing the dirty bits, the bytes and the disk keeps the residency. -/
theorem Resident_same (n : Nat) (s : BufferPoolManager) (hs : Resident n s) (fr : Int → Frame)
    (hfr : ∀ f, (fr f).pin_count_ = (s.frames_ f).pin_count_ ∧
      (fr f).page_.file_id_ = (s.frames_ f).page_.file_id_ ∧
      (fr f).page_.page_id_ = (s.frames_ f).page_.page_id_) (d : DiskManager) :
    Resident n { s with frames_ := fr, disk_manager_ := d } := by
  refine ⟨hs.keys, hs.perm, ?_, ?_, hs.evres⟩
  · intro e he
    show (fr e.2).page_.file_id_ = _ ∧ (fr e.2).page_.page_id_ = _
    rw [(hfr e.2).2.1, (hfr e.2).2.2]
    exact hs.ident e he
  · intro e he
    show 0 < (fr e.2).pin_count_ ∨ _
    rw [(hfr e.2).1]
    exact hs.cand e he

/-- Placing the page `(fid, pid)`, which is not resident, in the frame `f`,
which is not in the table `tbl`. -/
theorem Resident_place (n : Nat) (f fid pid : Int)
    (tbl : List ((Int × Int) × Int)) (fl : List Int) (r1 : Replacer) (fr : Frame)
    (d : DiskManager) (frames : Int → Frame)
    (hkeys : (tbl.map Prod.fst).Nodup) (hmiss : List.lookup (fid, pid) tbl = none)
    (hperm : (fl ++ (tbl.map Prod.snd ++ [f])).Perm ((List.range n).map Int.ofNat))
    (hid : fr.page_.file_id_ = fid ∧ fr.page_.page_id_ = pid) (hpin : 0 < fr.pin_count_)
    (hold : ∀ e ∈ tbl, e.2 ≠ f ∧
      ((frames e.2).page_.file_id_ = e.1.1 ∧ (frames e.2).page_.page_id_ = e.1.2) ∧
      (0 < (frames e.2).pin_count_ ∨ r1.evictable e.2 = true))
    (hev : ∀ g, g ≠ f → r1.evictable g = true → g ∈ tbl.map Prod.snd) :
    Resident n { frames_ := Function.update frames f fr, replacer_ := r1.Pin f,
                 page_frame_lookup_ := insertKey tbl fid pid f, free_list_ := fl,
                 disk_manager_ := d } := by
  have hins : insertKey tbl fid pid f = tbl ++ [((fid, pid), f)] := by
    unfold insertKey
    rw [hmiss]
  refine ⟨?_, ?_, ?_, ?_, ?_⟩
  · show ((insertKey tbl fid pid f).map Prod.fst).Nodup
    rw [hins]
    exact keys_append_single_nodup _ _ _ hkeys hmiss
  · show (fl ++ (insertKey tbl fid pid f).map Prod.snd).Perm _
    rw [hins, List.map_append]
    exact hperm
  · intro e he
    change e ∈ insertKey tbl fid pid f at he
    rw [hins, List.mem_append, List.mem_singleton] at he
    show (Function.update frames f fr e.2).page_.file_id_ = _ ∧
      (Function.update frames f fr e.2).page_.page_id_ = _
    rcases he with he | he
    · rw [Function.update_noteq (hold e he).1]
      exact (hold e he).2.1
    · rw [he, Function.update_same]
      exact hid
  · intro e he
    change e ∈ insertKey tbl fid pid f at he
    rw [hins, List.mem_append, List.mem_singleton] at he
    show 0 < (Function.update frames f fr e.2).pin_count_ ∨ (r1.Pin f).evictable e.2 = true
    rcases he with he | he
    · rw [Function.update_noteq (hold e he).1, Replacer.evictable_Pin, if_neg (hold e he).1]
      exact (hold e he).2.2
    · rw [he, Function.update_same]
      exact Or.inl hpin
  · intro g hg
    change (r1.Pin f).evictable g = true at hg
    show g ∈ (insertKey tbl fid pid f).map Prod.snd
    rw [Replacer.evictable_Pin] at hg
    by_cases hgf : g = f
    · rw [if_pos hgf] at hg; cases hg
    · rw [if_neg hgf] at hg
      rw [hins, List.map_append]
      exact List.mem_append_left _ (hev g hgf hg)

/-- Removing the entry `e` of the page table: its frame is reset, pinned in
the replacer and appended to the free list. -/
theorem Resident_remove (n : Nat) (s : BufferPoolManager) (hs : Resident n s)
    (e : (Int × Int) × Int) (he : e ∈ s.page_frame_lookup_) (d : DiskManager) :
    Resident n { frames_ := Function.update s.frames_ e.2 (s.frames_ e.2).Reset,
                 replacer_ := s.replacer_.Pin e.2,
                 page_frame_lookup_ := eraseKey s.page_frame_lookup_ e.1.1 e.1.2,
                 free_list_ := s.free_list_ ++ [e.2], disk_manager_ := d } := by
  have hvn := Resident_values_nodup n s hs
  have hne : ∀ x ∈ eraseKey s.page_frame_lookup_ e.1.1 e.1.2, x ∈ s.page_frame_lookup_ ∧
      x.2 ≠ e.2 := by
    intro x hx
    rw [mem_eraseKey_iff] at hx
    refine ⟨hx.1, fun h => hx.2 ?_⟩
    rw [entry_unique_of_value _ hvn x e hx.1 he h]
  have hp := erase_entry_perm s.page_frame_lookup_ e.1 e.2 hs.keys he
  refine ⟨?_, ?_, ?_, ?_, ?_⟩
  · exact keys_filter_ne_nodup _ _ hs.keys
  · show ((s.free_list_ ++ [e.2]) ++ (eraseKey s.page_frame_lookup_ e.1.1 e.1.2).map Prod.snd).Perm _
    rw [List.append_assoc]
    exact ((List.Perm.refl _).append hp).trans hs.perm
  · intro x hx
    show (Function.update s.frames_ e.2 _ x.2).page_.file_id_ = _ ∧
      (Function.update s.frames_ e.2 _ x.2).page_.page_id_ = _
    rw [Function.update_noteq (hne x hx).2]
    exact hs.ident x (hne x hx).1
  · intro x hx
    show 0 < (Function.update s.frames_ e.2 _ x.2).pin_count_ ∨
      (s.replacer_.Pin e.2).evictable x.2 = true
    rw [Function.update_noteq (hne x hx).2, Replacer.evictable_Pin, if_neg (hne x hx).2]
    exact hs.cand x (hne x hx).1
  · intro g hg
    change (s.replacer_.Pin e.2).evictable g = true at hg
    show g ∈ (eraseKey s.page_frame_lookup_ e.1.1 e.1.2).map Prod.snd
    rw [Replacer.evictable_Pin] at hg
    by_cases hgf : g = e.2
    · rw [if_pos hgf] at hg; cases hg
    · rw [if_neg hgf] at hg
      obtain ⟨x, hx, hxg⟩ := List.mem_map.1 (hs.evres g hg)
      refine List.mem_map.2 ⟨x, ?_, hxg⟩
      rw [mem_eraseKey_iff]
      refine ⟨hx, fun h => hgf ?_⟩
      rw [← hxg, entry_unique_of_key _ hs.keys x e hx he h]

theorem Resident_FetchPage (n : Nat) (s : BufferPoolManager) (hi : Inv s) (hs : Resident n s)
    (fid pid : Int) : Resident n (s.FetchPage fid pid).2 := by
  obtain ⟨hw, htr, hpin, hfree, htab⟩ := hi
  have hvn := Resident_values_nodup n s hs
  unfold FetchPage
  cases hfind : s.find fid pid with
  | some f =>
    simp only
    refine ⟨hs.keys, hs.perm, ?_, ?_, ?_⟩
    · intro e he
      show (Function.update s.frames_ f (s.frames_ f).Pin e.2).page_.file_id_ = _ ∧
        (Function.update s.frames_ f (s.frames_ f).Pin e.2).page_.page_id_ = _
      by_cases hef : e.2 = f
      · rw [hef, Function.update_same]
        have := hs.ident e he
        rw [hef] at this
        exact this
      · rw [Function.update_noteq hef]
        exact hs.ident e he
    · intro e he
      show 0 < (Function.update s.frames_ f (s.frames_ f).Pin e.2).pin_count_ ∨
        (s.replacer_.Pin f).evictable e.2 = true
      by_cases hef : e.2 = f
      · rw [hef, Function.update_same]
        left
        have := hpin f
        simp only [Frame.Pin]
        omega
      · rw [Function.update_noteq hef, Replacer.evictable_Pin, if_neg hef]
        exact hs.cand e he
    · intro g hg
      change (s.replacer_.Pin f).evictable g = true at hg
      rw [Replacer.evictable_Pin] at hg
      by_cases hgf : g = f
      · rw [if_pos hgf] at hg; cases hg
      · rw [if_neg hgf] at hg
        exact hs.evres g hg
  | none =>
    simp only
    have hmiss : List.lookup (fid, pid) s.page_frame_lookup_ = none := hfind
    unfold GetAvailableFrame
    cases hfl : s.free_list_ with
    | cons f rest =>
      simp only [UpdateFrame]
      have hfmem : f ∈ s.free_list_ := by rw [hfl]; exact List.mem_cons_self _ _
      have hfnr := Resident_free_not_resident n s hs f hfmem
      refine Resident_place n f fid pid s.page_frame_lookup_ rest s.replacer_ _ _ s.frames_
        hs.keys hmiss ?_ ⟨rfl, rfl⟩ (by simp [Frame.Pin]) ?_ ?_
      · have hp := hs.perm
        rw [hfl] at hp
        refine List.Perm.trans ?_ hp
        rw [← List.append_assoc]
        exact (List.perm_append_singleton f _).trans (List.Perm.refl _)
      · intro e he
        refine ⟨fun h => hfnr (List.mem_map.2 ⟨e, he, h⟩), hs.ident e he, hs.cand e he⟩
      · intro g _ hg
        exact hs.evres g hg
    | nil =>
      simp only
      cases hv : (s.replacer_.Victim).1 with
      | none =>
        have h2 := Replacer.rep_Victim_snd_of_none _ hv
        have : s.replacer_.Victim = (none, s.replacer_) := Prod.ext hv h2
        rw [this]
        simp only
        exact ⟨hs.keys, by rw [← hfl]; exact hs.perm, hs.ident, hs.cand, hs.evres⟩
      | some v =>
        obtain ⟨hev, hevs, htrs⟩ := Replacer.rep_Victim_some _ hw v hv
        have : s.replacer_.Victim = (some v, (s.replacer_.Victim).2) := Prod.ext hv rfl
        rw [this]
        simp only [UpdateFrame, Function.update_idem]
        obtain ⟨ev, hevm, hevv⟩ := List.mem_map.1 (hs.evres v hev)
        have hidv := hs.ident ev hevm
        rw [hevv] at hidv
        have hkey : ((s.frames_ v).page_.file_id_, (s.frames_ v).page_.page_id_) = ev.1 := by
          rw [hidv.1, hidv.2]
        have hne : ∀ x ∈ eraseKey s.page_frame_lookup_ (s.frames_ v).page_.file_id_
            (s.frames_ v).page_.page_id_, x ∈ s.page_frame_lookup_ ∧ x.2 ≠ v := by
          intro x hx
          rw [mem_eraseKey_iff, hkey] at hx
          refine ⟨hx.1, fun h => hx.2 ?_⟩
          rw [entry_unique_of_value _ hvn x ev hx.1 hevm (h.trans hevv.symm)]
        refine Resident_place n v fid pid _ [] (s.replacer_.Victim).2 _ _ s.frames_
          (keys_filter_ne_nodup _ _ hs.keys) ?_ ?_ ⟨rfl, rfl⟩ (by simp [Frame.Pin]) ?_ ?_
        · unfold eraseKey
          rw [lookup_filter_ne, hmiss]
          simp
        · have hp := erase_entry_perm s.page_frame_lookup_ ev.1 v hs.keys
            (by rw [← hevv]; exact hevm)
          have hp2 := hs.perm
          rw [hfl, List.nil_append] at hp2
          rw [List.nil_append]
          refine List.Perm.trans ?_ (hp.trans hp2)
          unfold eraseKey
          rw [hkey]
          exact List.perm_append_singleton v _
        · intro e he
          obtain ⟨h1, h2⟩ := hne e he
          refine ⟨h2, hs.ident e h1, ?_⟩
          rw [hevs, if_neg h2]
          exact hs.cand e h1
        · intro g hgv hg
          rw [hevs, if_neg hgv] at hg
          obtain ⟨x, hx, hxg⟩ := List.mem_map.1 (hs.evres g hg)
          refine List.mem_map.2 ⟨x, ?_, hxg⟩
          rw [mem_eraseKey_iff, hkey]
          refine ⟨hx, fun h => hgv ?_⟩
          rw [← hxg, entry_unique_of_key _ hs.keys x ev hx hevm h, hevv]

theorem Resident_UnpinPage (n : Nat) (s : BufferPoolManager) (hi : Inv s) (hs : Resident n s)
    (fid pid : Int) (d : Bool) : Resident n (s.UnpinPage fid pid d).2 := by
  obtain ⟨hw, htr, hpin, hfree, htab⟩ := hi
  unfold UnpinPage
  cases hfind : s.find fid pid with
  | none => exact hs
  | some f =>
    simp only
    have hmem := mem_of_lookup_eq_some _ _ _ hfind
    obtain ⟨hf, hft, hfe⟩ := htab _ hmem
    by_cases hp : (s.frames_ f).pin_count_ ≤ 0
    · rw [if_pos hp]; exact hs
    · rw [if_neg hp]
      simp only
      have hpc : ((if d = true then (s.frames_ f).SetDirty true else s.frames_ f).Unpin).pin_count_
          = (s.frames_ f).pin_count_ - 1 := by
        split <;> simp [Frame.Unpin, Frame.SetDirty]
      have hpg : ((if d = true then (s.frames_ f).SetDirty true else s.frames_ f).Unpin).page_
          = (s.frames_ f).page_ := by
        split <;> simp [Frame.Unpin, Frame.SetDirty]
      rw [hpc]
      refine ⟨hs.keys, hs.perm, ?_, ?_, ?_⟩
      · intro e he
        dsimp only
        by_cases hef : e.2 = f
        · rw [hef, Function.update_same, hpg]
          have := hs.ident e he
          rw [hef] at this
          exact this
        · rw [Function.update_noteq hef]
          exact hs.ident e he
      · intro e he
        dsimp only
        by_cases hef : e.2 = f
        · rw [hef, Function.update_same, hpc]
          by_cases h0 : (s.frames_ f).pin_count_ - 1 = 0
          · rw [if_pos h0]
            exact Or.inr (Replacer.evictable_Unpin_self _ _ hft)
          · left; omega
        · rw [Function.update_noteq hef]
          rcases hs.cand e he with h | h
          · exact Or.inl h
          · right
            split
            · rw [Replacer.evictable_Unpin_ne _ _ _ hef]; exact h
            · exact h
      · intro g hg
        dsimp only at hg ⊢
        by_cases hgf : g = f
        · rw [hgf]
          exact List.mem_map.2 ⟨_, hmem, rfl⟩
        · apply hs.evres
          split at hg
          · rw [Replacer.evictable_Unpin_ne _ _ _ hgf] at hg; exact hg
          · exact hg

theorem Resident_FlushPage (n : Nat) (s : BufferPoolManager) (hs : Resident n s)
    (fid pid : Int) : Resident n (s.FlushPage fid pid).2 := by
  unfold FlushPage
  cases hfind : s.find fid pid with
  | none => exact hs
  | some f =>
    simp only
    split
    · exact Resident_same n s hs _ (fun g => by
        simp only [Function.update_apply]
        split
        · rename_i h; rw [h]; exact ⟨rfl, rfl, rfl⟩
        · exact ⟨rfl, rfl, rfl⟩) _
    · exact hs

theorem Resident_flushAllLoop (n : Nat) (fid : Int) (l : List ((Int × Int) × Int))
    (s : BufferPoolManager) (hs : Resident n s) : Resident n (flushAllLoop fid l s) := by
  induction l generalizing s with
  | nil => exact hs
  | cons e rest ih =>
    unfold flushAllLoop
    split
    · simp only
      split
      · apply ih
        exact Resident_same n s hs _ (fun g => by
          simp only [Function.update_apply]
          split
          · rename_i h; rw [h]; exact ⟨rfl, rfl, rfl⟩
          · exact ⟨rfl, rfl, rfl⟩) _
      · exact ih s hs
    · exact ih s hs

theorem Resident_DeletePage (n : Nat) (s : BufferPoolManager) (hs : Resident n s)
    (fid pid : Int) : Resident n (s.DeletePage fid pid).2 := by
  unfold DeletePage
  cases hfind : s.find fid pid with
  | none => exact hs
  | some f =>
    simp only
    have hmem := mem_of_lookup_eq_some _ _ _ hfind
    split
    · exact hs
    · exact Resident_remove n s hs ((fid, pid), f) hmem _

theorem Resident_deleteAllLoop (n : Nat) (fid : Int) (l : List ((Int × Int) × Int))
    (s : BufferPoolManager) (hi : Inv s) (hs : Resident n s)
    (hl : ∀ e ∈ l, e ∈ s.page_frame_lookup_) (hn : (l.map Prod.fst).Nodup) :
    Resident n (deleteAllLoop fid l s).2 := by
  induction l generalizing s with
  | nil => exact hs
  | cons e rest ih =>
    simp only [List.map_cons, List.nodup_cons] at hn
    have hrest : ∀ x ∈ rest, x ∈ s.page_frame_lookup_ :=
      fun x hx => hl x (List.mem_cons_of_mem _ hx)
    have he := hl e (List.mem_cons_self _ _)
    unfold deleteAllLoop
    split
    · rename_i hfid
      simp only
      split
      · exact hs
      · apply ih
        · exact Inv_pin_frame s hi e.2 (hi.2.2.2.2 e he).1 s.replacer_ hi.1
            (fun g _ => ⟨rfl, rfl⟩) _ (by simp [Frame.Reset]) _ _ _
            (fun x hx => Or.inr (mem_eraseKey _ _ _ _ hx))
            (fun g hg => by
              simp only [List.mem_append, List.mem_singleton] at hg
              rcases hg with h | h
              · exact Or.inr h
              · exact Or.inl h)
        · exact Resident_remove n s hs e he _
        · intro x hx
          show x ∈ eraseKey s.page_frame_lookup_ e.1.1 e.1.2
          rw [mem_eraseKey_iff]
          exact ⟨hrest x hx, fun h => hn.1 (List.mem_map.2 ⟨x, hx, h⟩)⟩
        · exact hn.2
    · exact ih s hi hs hrest hn.2

theorem Resident_step (n : Nat) (s : BufferPoolManager) (hi : Inv s) (hs : Resident n s)
    (op : Op) : Resident n (s.step op) := by
  cases op with
  | fetch fid pid => exact Resident_FetchPage n s hi hs fid pid
  | unpin fid pid d => exact Resident_UnpinPage n s hi hs fid pid d
  | flush fid pid => exact Resident_FlushPage n s hs fid pid
  | flushAll fid => exact Resident_flushAllLoop n fid _ s hs
  | delete fid pid => exact Resident_DeletePage n s hs fid pid
  | deleteAll fid => exact Resident_deleteAllLoop n fid _ s hi hs (fun e he => he) hs.keys
  | write f data =>
    exact Resident_same n s hs _ (fun g => by
      simp only [Function.update_apply]
      split
      · rename_i h; rw [h]; exact ⟨rfl, rfl, rfl⟩
      · exact ⟨rfl, rfl, rfl⟩) _

theorem Resident_run (n : Nat) (ops : List Op) :
    ∀ s : BufferPoolManager, Inv s → Resident n s → Inv (s.run ops) ∧ Resident n (s.run ops) := by
  induction ops with
  | nil => intro s hi hs; exact ⟨hi, hs⟩
  | cons op rest ih =>
    intro s hi hs
    exact ih (s.step op) (Inv_step s hi op) (Resident_step n s hi hs op)

theorem Resident_of_start (n : Nat) (s0 : BufferPoolManager) (ops : List Op)
    (h0 : (∃ d, s0 = newLRU n d) ∨ ∃ k d, 1 ≤ k ∧ s0 = newLRUK n k d) :
    Inv (s0.run ops) ∧ Resident n (s0.run ops) := by
  rcases h0 with ⟨d, rfl⟩ | ⟨k, d, hk, rfl⟩
  · exact Resident_run n ops _ (Inv_newLRU n d) (Resident_newLRU n d)
  · exact Resident_run n ops _ (Inv_newLRUK n k d hk) (Resident_newLRUK n k d)

/-- C36: in every state a pool of `n` frames (either replacer policy, `K ≥ 1`)
reaches by its public operations and client writes, a frame id is in the free
list or the frame of a page-table entry exactly when it is one of `0 .. n-1`,
never both; the free list has no repeated frame; no two entries map to the
same frame, so a resident frame is the frame of exactly one entry; no page is
mapped twice; and the number of entries plus the length of the free list is
`n`. -/
theorem C36_frame_is_free_or_resident (n : Nat) (s0 : BufferPoolManager) (ops : List Op)
    (h0 : (∃ d, s0 = newLRU n d) ∨ ∃ k d, 1 ≤ k ∧ s0 = newLRUK n k d) :
    (∀ f : Int, (0 ≤ f ∧ f < n) ↔
      (f ∈ (s0.run ops).free_list_ ∨ f ∈ (s0.run ops).page_frame_lookup_.map Prod.snd)) ∧
    (∀ f ∈ (s0.run ops).free_list_, f ∉ (s0.run ops).page_frame_lookup_.map Prod.snd) ∧
    (s0.run ops).free_list_.Nodup ∧
    ((s0.run ops).page_frame_lookup_.map Prod.snd).Nodup ∧
    (∀ f ∈ (s0.run ops).page_frame_lookup_.map Prod.snd,
      ∃ e, (e ∈ (s0.run ops).page_frame_lookup_ ∧ e.2 = f) ∧
        ∀ e1, e1 ∈ (s0.run ops).page_frame_lookup_ ∧ e1.2 = f → e1 = e) ∧
    ((s0.run ops).page_frame_lookup_.map Prod.fst).Nodup ∧
    (s0.run ops).page_frame_lookup_.length + (s0.run ops).free_list_.length = n := by
  obtain ⟨-, hs⟩ := Resident_of_start n s0 ops h0
  have hnd := Resident_nodup n _ hs
  have hvn := Resident_values_nodup n _ hs
  refine ⟨?_, ?_, (List.nodup_append.1 hnd).1, hvn, ?_, hs.keys, ?_⟩
  · intro f
    rw [← List.mem_append, hs.perm.mem_iff, List.mem_map]
    constructor
    · intro ⟨h1, h2⟩
      refine ⟨f.toNat, List.mem_range.2 (by omega), ?_⟩
      show ((f.toNat : Nat) : Int) = f
      omega
    · rintro ⟨a, ha, rfl⟩
      have := List.mem_range.1 ha
      show (0 : Int) ≤ (a : Int) ∧ ((a : Nat) : Int) < n
      omega
  · intro f hf
    exact Resident_free_not_resident n _ hs f hf
  · intro f hf
    obtain ⟨e, he, hef⟩ := List.mem_map.1 hf
    refine ⟨e, ⟨he, hef⟩, ?_⟩
    rintro e1 ⟨h1, h2⟩
    exact entry_unique_of_value _ hvn e1 e h1 he (h2.trans hef.symm)
  · have := hs.perm.length_eq
    simp only [List.length_append, List.length_map, List.length_range] at this
    omega

/-- Witness for C36: an LRU pool of 2 frames after the operations of
`scenarioMixed`: page (0,3) is resident in frame 0 and frame 1 is free. -/
theorem C36_frame_is_free_or_resident_witness :
    ((newLRU 2 emptyDisk).run scenarioMixed).page_frame_lookup_ = [((0, 3), 0)] ∧
    ((newLRU 2 emptyDisk).run scenarioMixed).free_list_ = [1] ∧
    ((∀ f : Int, (0 ≤ f ∧ f < (2 : Nat)) ↔
      (f ∈ ((newLRU 2 emptyDisk).run scenarioMixed).free_list_ ∨
        f ∈ ((newLRU 2 emptyDisk).run scenarioMixed).page_frame_lookup_.map Prod.snd)) ∧
    (∀ f ∈ ((newLRU 2 emptyDisk).run scenarioMixed).free_list_,
      f ∉ ((newLRU 2 emptyDisk).run scenarioMixed).page_frame_lookup_.map Prod.snd) ∧
    ((newLRU 2 emptyDisk).run scenarioMixed).free_list_.Nodup ∧
    (((newLRU 2 emptyDisk).run scenarioMixed).page_frame_lookup_.map Prod.snd).Nodup ∧
    (∀ f ∈ ((newLRU 2 emptyDisk).run scenarioMixed).page_frame_lookup_.map Prod.snd,
      ∃ e, (e ∈ ((newLRU 2 emptyDisk).run scenarioMixed).page_frame_lookup_ ∧ e.2 = f) ∧
        ∀ e1, e1 ∈ ((newLRU 2 emptyDisk).run scenarioMixed).page_frame_lookup_ ∧ e1.2 = f →
          e1 = e) ∧
    (((newLRU 2 emptyDisk).run scenarioMixed).page_frame_lookup_.map Prod.fst).Nodup ∧
    ((newLRU 2 emptyDisk).run scenarioMixed).page_frame_lookup_.length +
      ((newLRU 2 emptyDisk).run scenarioMixed).free_list_.length = 2) :=
  ⟨by decide, by decide,
    C36_frame_is_free_or_resident 2 (newLRU 2 emptyDisk) scenarioMixed (Or.inl ⟨emptyDisk, rfl⟩)⟩

/-- C37: in every state a pool of `n` frames (either replacer policy, `K ≥ 1`)
reaches by its public operations and client writes, the frame of every
page-table entry `((fid, pid), f)` holds a page with identity `(fid, pid)`,
and it has a positive pin count or is in the evictable set of the replacer;
with pin count 0 it is in the evictable set. -/
theorem C37_resident_frame_pinned_or_evictable (n : Nat) (s0 : BufferPoolManager)
    (ops : List Op)
    (h0 : (∃ d, s0 = newLRU n d) ∨ ∃ k d, 1 ≤ k ∧ s0 = newLRUK n k d) :
    ∀ e ∈ (s0.run ops).page_frame_lookup_,
      ((s0.run ops).frames_ e.2).page_.file_id_ = e.1.1 ∧
      ((s0.run ops).frames_ e.2).page_.page_id_ = e.1.2 ∧
      (0 < ((s0.run ops).frames_ e.2).pin_count_ ∨
        (s0.run ops).replacer_.evictable e.2 = true) ∧
      (((s0.run ops).frames_ e.2).pin_count_ = 0 →
        (s0.run ops).replacer_.evictable e.2 = true) := by
  obtain ⟨-, hs⟩ := Resident_of_start n s0 ops h0
  intro e he
  refine ⟨(hs.ident e he).1, (hs.ident e he).2, hs.cand e he, ?_⟩
  intro h0
  rcases hs.cand e he with h | h
  · omega
  · exact h

/-- Witness for C37: an LRU-K pool (`K = 2`) of 2 frames after fetching the
pages (0,1) and (0,2) and unpinning (0,1): frame 0 holds (0,1) unpinned and
evictable, frame 1 holds (0,2) pinned. -/
theorem C37_resident_frame_pinned_or_evictable_witness :
    ((newLRUK 2 2 emptyDisk).run [.fetch 0 1, .fetch 0 2, .unpin 0 1 false]).page_frame_lookup_ =
      [((0, 1), 0), ((0, 2), 1)] ∧
    (((newLRUK 2 2 emptyDisk).run [.fetch 0 1, .fetch 0 2, .unpin 0 1 false]).frames_
      0).pin_count_ = 0 ∧
    ((newLRUK 2 2 emptyDisk).run [.fetch 0 1, .fetch 0 2, .unpin 0 1 false]).replacer_.evictable
      0 = true ∧
    (((newLRUK 2 2 emptyDisk).run [.fetch 0 1, .fetch 0 2, .unpin 0 1 false]).frames_
      1).pin_count_ = 1 ∧
    ∀ e ∈ ((newLRUK 2 2 emptyDisk).run
        [.fetch 0 1, .fetch 0 2, .unpin 0 1 false]).page_frame_lookup_,
      (((newLRUK 2 2 emptyDisk).run [.fetch 0 1, .fetch 0 2, .unpin 0 1 false]).frames_
        e.2).page_.file_id_ = e.1.1 ∧
      (((newLRUK 2 2 emptyDisk).run [.fetch 0 1, .fetch 0 2, .unpin 0 1 false]).frames_
        e.2).page_.page_id_ = e.1.2 ∧
      (0 < (((newLRUK 2 2 emptyDisk).run [.fetch 0 1, .fetch 0 2, .unpin 0 1 false]).frames_
          e.2).pin_count_ ∨
        ((newLRUK 2 2 emptyDisk).run
          [.fetch 0 1, .fetch 0 2, .unpin 0 1 false]).replacer_.evictable e.2 = true) ∧
      ((((newLRUK 2 2 emptyDisk).run [.fetch 0 1, .fetch 0 2, .unpin 0 1 false]).frames_
          e.2).pin_count_ = 0 →
        ((newLRUK 2 2 emptyDisk).run
          [.fetch 0 1, .fetch 0 2, .unpin 0 1 false]).replacer_.evictable e.2 = true) :=
  ⟨by decide, by decide, by decide, by decide,
    C37_resident_frame_pinned_or_evictable 2 (newLRUK 2 2 emptyDisk)
      [.fetch 0 1, .fetch 0 2, .unpin 0 1 false] (Or.inr ⟨2, emptyDisk, by decide, rfl⟩)⟩

end BufferPoolManager

/-! ## B+tree: the split of a full leaf (claim C33) -/

theorem SameBody_refl (a : Option BPTreePage) : SameBody a a :=
  ⟨fun l h => ⟨l, h, rfl, rfl⟩, fun nd h => ⟨nd, h, rfl⟩⟩

theorem SameBody_trans (a b c : Option BPTreePage) (h1 : SameBody a b) (h2 : SameBody b c) :
    SameBody a c := by
  refine ⟨fun l h => ?_, fun nd h => ?_⟩
  · obtain ⟨l1, e1, e2, e3⟩ := h1.1 l h
    obtain ⟨l2, f1, f2, f3⟩ := h2.1 l1 e1
    exact ⟨l2, f1, f2.trans e2, f3.trans e3⟩
  · obtain ⟨n1, e1, e2⟩ := h1.2 nd h
    obtain ⟨n2, f1, f2⟩ := h2.2 n1 e1
    exact ⟨n2, f1, f2.trans e2⟩

theorem SameBody_SetParentPageId (x : BPTreePage) (q : Int) :
    SameBody (some x) (some (x.SetParentPageId q)) := by
  cases x with
  | leaf l =>
    refine ⟨fun l0 h => ?_, fun nd h => (by cases h)⟩
    cases h
    exact ⟨_, rfl, rfl, rfl⟩
  | internal n =>
    refine ⟨fun l0 h => (by cases h), fun nd h => ?_⟩
    cases h
    exact ⟨_, rfl, rfl⟩

namespace BPTreeIndex

theorem setParent_body (t t1 : BPTreeIndex) (c q : Int) (h : t.setParent c q = some t1) :
    ∀ p, SameBody (t.nodes p) (t1.nodes p) := by
  intro p
  unfold setParent at h
  cases hx : t.nodes c with
  | none => rw [hx] at h; cases h
  | some x =>
    rw [hx] at h
    cases h
    rw [nodes_setNode]
    by_cases hp : p = c
    · rw [if_pos hp, hp, hx]
      exact SameBody_SetParentPageId x q
    · rw [if_neg hp]
      exact SameBody_refl _

theorem reparent_body (cs : List Int) (q : Int) :
    ∀ t t1 : BPTreeIndex, t.reparent cs q = some t1 →
      ∀ p, SameBody (t.nodes p) (t1.nodes p) := by
  induction cs with
  | nil =>
    intro t t1 h p
    cases h
    exact SameBody_refl _
  | cons c cs ih =>
    intro t t1 h p
    unfold reparent at h
    cases hs : t.setParent c q with
    | none => rw [hs] at h; cases h
    | some t2 =>
      rw [hs] at h
      exact SameBody_trans _ _ _ (setParent_body t t2 c q hs p) (ih t2 t1 h p)

theorem mem_InsertNodeAfter (nd : BPTreeInternalPage) (a key b : Int) (e : Int × Int)
    (he : e ∈ nd.entries) : e ∈ (nd.InsertNodeAfter a key b).entries := by
  unfold BPTreeInternalPage.InsertNodeAfter
  cases nd.ValueIndex a with
  | none => exact he
  | some i =>
    simp only
    rw [← List.take_append_drop (i + 1) nd.entries] at he
    rcases List.mem_append.1 he with h | h
    · exact List.mem_append_left _ h
    · exact List.mem_append_right _ (List.mem_cons_of_mem _ h)

theorem new_mem_InsertNodeAfter (nd : BPTreeInternalPage) (a key b : Int)
    (ha : a ∈ nd.entries.map Prod.snd) : (key, b) ∈ (nd.InsertNodeAfter a key b).entries := by
  unfold BPTreeInternalPage.InsertNodeAfter BPTreeInternalPage.ValueIndex
  have hlt : nd.entries.findIdx (fun e => decide (e.2 = a)) < nd.entries.length := by
    apply List.findIdx_lt_length_of_exists
    obtain ⟨e, he, hea⟩ := List.mem_map.1 ha
    exact ⟨e, he, by simp [hea]⟩
  simp only [hlt, if_true]
  exact List.mem_append_right _ (List.mem_cons_self _ _)

/-- What `InsertIntoParent` keeps: a leaf outside the free chain keeps its
entries and its `next_page_id_`, and an entry of an internal node outside the
free chain stays an entry of an internal node. -/
theorem InsertIntoParent_keeps : ∀ (fuel : Nat) (t : BPTreeIndex) (a key b : Int)
    (t1 : BPTreeIndex) (fl : List Int),
    InsertIntoParent fuel t a key b = some t1 → t.AllocOK fl →
    (∀ p l, p ∉ fl → p < t.header.page_num_ → t.nodes p = some (.leaf l) →
      ∃ l1, t1.nodes p = some (.leaf l1) ∧ l1.entries = l.entries ∧
        l1.next_page_id_ = l.next_page_id_) ∧
    (∀ P nd e, P ∉ fl → P < t.header.page_num_ → t.nodes P = some (.internal nd) →
      e ∈ nd.entries → ∃ P1 nd1, t1.nodes P1 = some (.internal nd1) ∧ e ∈ nd1.entries) := by
  intro fuel
  induction fuel with
  | zero => intro t a key b t1 fl h; cases h
  | succ fuel ih =>
    intro t a key b t1 fl h hA
    obtain ⟨fl2, n1, n2, n3, n4, n5, n6, n7⟩ := NewPage_alloc t fl hA
    have hnn := NewPage_nodes t
    have hfresh : ∀ p, p ∉ fl → p < t.header.page_num_ → p ≠ t.NewPage.1 := by
      intro p hp1 hp2 h0
      rcases n5 with h1 | h1
      · rw [← h0] at h1; exact hp1 h1
      · rw [← h0] at h1; omega
    unfold InsertIntoParent at h
    cases hx : t.nodes a with
    | none => rw [hx] at h; cases h
    | some x =>
      rw [hx] at h
      simp only at h
      split at h
      · -- a new root
        unfold InsertIntoNewRoot at h
        simp only at h
        split at h
        · cases h
        · rename_i t4 hs4
          have hb4 := setParent_body _ _ _ _ hs4
          have hb5 := setParent_body _ _ _ _ h
          have hbody : ∀ p, p ≠ t.NewPage.1 → SameBody (t.nodes p) (t1.nodes p) := by
            intro p hp
            refine SameBody_trans _ _ _ ?_ (hb5 p)
            refine SameBody_trans _ _ _ ?_ (hb4 p)
            rw [nodes_setNode, if_neg hp]
            show SameBody (t.nodes p) (t.NewPage.2.nodes p)
            rw [hnn]
            exact SameBody_refl _
          refine ⟨?_, ?_⟩
          · intro p l hp1 hp2 hl
            exact (hbody p (hfresh p hp1 hp2)).1 l hl
          · intro P nd e hp1 hp2 hP he
            obtain ⟨nd1, e1, e2⟩ := (hbody P (hfresh P hp1 hp2)).2 nd hP
            exact ⟨P, nd1, e1, by rw [e2]; exact he⟩
      · cases hgi : t.getInternal x.GetParentPageId with
        | none => rw [hgi] at h; cases h
        | some pn =>
          rw [hgi] at h
          simp only at h
          have hPn : t.nodes x.GetParentPageId = some (.internal pn) := by
            unfold getInternal at hgi
            cases hq : t.nodes x.GetParentPageId with
            | none => rw [hq] at hgi; cases hgi
            | some y =>
              cases y with
              | leaf l => rw [hq] at hgi; cases hgi
              | internal n0 => rw [hq] at hgi; cases hgi; rfl
          split at h
          · -- the parent has room
            cases h
            refine ⟨?_, ?_⟩
            · intro p l hp1 hp2 hl
              have hne : p ≠ x.GetParentPageId := by
                intro h0
                rw [h0, hPn] at hl
                cases hl
              exact ⟨l, by rw [nodes_setNode, if_neg hne]; exact hl, rfl, rfl⟩
            · intro P nd e hp1 hp2 hP he
              by_cases hPp : P = x.GetParentPageId
              · rw [hPp, hPn] at hP
                cases hP
                exact ⟨x.GetParentPageId, _, by rw [nodes_setNode, if_pos rfl],
                  mem_InsertNodeAfter _ _ _ _ _ he⟩
              · exact ⟨P, nd, by rw [nodes_setNode, if_neg hPp]; exact hP, he⟩
          · -- the parent is split
            split at h
            · cases h
            · rename_i t2 hrp
              split at h
              · cases h
              · rename_i push hpush
                have hrb := reparent_body _ _ _ _ hrp
                obtain ⟨rh1, rh2⟩ := reparent_header _ _ _ _ hrp
                have hA3 : BPTreeIndex.AllocOK
                    ((t2.setNode x.GetParentPageId (.internal
                      { pn.InsertNodeAfter a key b with
                        entries := (pn.InsertNodeAfter a key b).entries.take
                          ((pn.InsertNodeAfter a key b).GetSize -
                            (pn.InsertNodeAfter a key b).GetSize / 2) })).setNode
                      t.NewPage.1 (.internal
                        { BPTreeInternalPage.Init t.NewPage.1 pn.parent_page_id_ pn.max_size_ with
                          entries := (BPTreeInternalPage.Init t.NewPage.1 pn.parent_page_id_
                            pn.max_size_).entries ++ (pn.InsertNodeAfter a key b).entries.drop
                              ((pn.InsertNodeAfter a key b).GetSize -
                                (pn.InsertNodeAfter a key b).GetSize / 2) })) fl2 :=
                  AllocOK_congr t.NewPage.2 _ fl2 rh1 rh2 n1
                obtain ⟨ih1, ih2⟩ := ih _ _ _ _ t1 fl2 h hA3
                have hpn3 : ∀ p, p < t.header.page_num_ →
                    p < t2.header.page_num_ := by
                  intro p hp
                  rw [rh1]
                  omega
                refine ⟨?_, ?_⟩
                · intro p l hp1 hp2 hl
                  have hne : p ≠ x.GetParentPageId := by
                    intro h0
                    rw [h0, hPn] at hl
                    cases hl
                  have hnf := hfresh p hp1 hp2
                  obtain ⟨l2, e1, e2, e3⟩ := (hrb p).1 l (by rw [hnn]; exact hl)
                  obtain ⟨l3, f1, f2, f3⟩ := ih1 p l2 (fun h0 => hp1 (n6 p h0)) (hpn3 p hp2)
                    (by rw [nodes_setNode, if_neg hnf, nodes_setNode, if_neg hne]; exact e1)
                  exact ⟨l3, f1, f2.trans e2, f3.trans e3⟩
                · intro P nd e hp1 hp2 hP he
                  have hnf := hfresh P hp1 hp2
                  by_cases hPp : P = x.GetParentPageId
                  · rw [hPp, hPn] at hP
                    cases hP
                    have hmem := mem_InsertNodeAfter pn a key b e he
                    rw [← List.take_append_drop ((pn.InsertNodeAfter a key b).GetSize -
                      (pn.InsertNodeAfter a key b).GetSize / 2)
                      (pn.InsertNodeAfter a key b).entries] at hmem
                    rcases List.mem_append.1 hmem with hm | hm
                    · refine ih2 x.GetParentPageId _ e (fun h0 => hp1 (hPp ▸ n6 _ h0))
                        (hpn3 _ (hPp ▸ hp2))
                        (by rw [nodes_setNode, if_neg (hPp ▸ hnf), nodes_setNode, if_pos rfl]) hm
                    · refine ih2 t.NewPage.1 _ e n4
                        (by show t.NewPage.1 < t2.header.page_num_; rw [rh1]; exact n3)
                        (by rw [nodes_setNode, if_pos rfl]) ?_
                      exact List.mem_append_right _ hm
                  · obtain ⟨nd2, e1, e2⟩ := (hrb P).2 nd (by rw [hnn]; exact hP)
                    exact ih2 P nd2 e (fun h0 => hp1 (n6 P h0)) (hpn3 P hp2)
                      (by rw [nodes_setNode, if_neg hnf, nodes_setNode, if_neg hPp]; exact e1)
                      (by rw [e2]; exact he)

/-- The entry `(key, b)` that `InsertIntoParent` is called with ends up as an
entry of an internal node. -/
theorem InsertIntoParent_links (fuel : Nat) (t : BPTreeIndex) (a key b : Int)
    (t1 : BPTreeIndex) (fl : List Int) (x : BPTreePage)
    (h : InsertIntoParent fuel t a key b = some t1) (hA : t.AllocOK fl)
    (hx : t.nodes a = some x)
    (hpar : x.IsRoot = false → ∃ nd, t.nodes x.GetParentPageId = some (.internal nd) ∧
      a ∈ nd.entries.map Prod.snd ∧ x.GetParentPageId ∉ fl ∧
      x.GetParentPageId < t.header.page_num_) :
    ∃ P nd, t1.nodes P = some (.internal nd) ∧ (key, b) ∈ nd.entries := by
  cases fuel with
  | zero => cases h
  | succ fuel =>
    obtain ⟨fl2, n1, n2, n3, n4, n5, n6, n7⟩ := NewPage_alloc t fl hA
    have hnn := NewPage_nodes t
    unfold InsertIntoParent at h
    rw [hx] at h
    simp only at h
    split at h
    · unfold InsertIntoNewRoot at h
      simp only at h
      split at h
      · cases h
      · rename_i t4 hs4
        have hb4 := setParent_body _ _ _ _ hs4 t.NewPage.1
        have hb5 := setParent_body _ _ _ _ h t.NewPage.1
        obtain ⟨nd1, e1, e2⟩ := (SameBody_trans _ _ _ hb4 hb5).2 _
          (by rw [nodes_setNode, if_pos rfl])
        refine ⟨t.NewPage.1, nd1, e1, ?_⟩
        rw [e2]
        simp [BPTreeInternalPage.PopulateNewRoot]
    · rename_i hroot
      obtain ⟨pn, hPn, hmem, hP1, hP2⟩ := hpar (by simpa using hroot)
      have hgi : t.getInternal x.GetParentPageId = some pn := by
        unfold getInternal
        rw [hPn]
      rw [hgi] at h
      simp only at h
      have hnew := new_mem_InsertNodeAfter pn a key b hmem
      split at h
      · cases h
        exact ⟨x.GetParentPageId, _, by rw [nodes_setNode, if_pos rfl], hnew⟩
      · split at h
        · cases h
        · rename_i t2 hrp
          split at h
          · cases h
          · obtain ⟨rh1, rh2⟩ := reparent_header _ _ _ _ hrp
            have hne : x.GetParentPageId ≠ t.NewPage.1 := by
              intro h0
              rcases n5 with h1 | h1
              · rw [← h0] at h1; exact hP1 h1
              · rw [← h0] at h1; omega
            have hA3 : BPTreeIndex.AllocOK
                ((t2.setNode x.GetParentPageId (.internal
                  { pn.InsertNodeAfter a key b with
                    entries := (pn.InsertNodeAfter a key b).entries.take
                      ((pn.InsertNodeAfter a key b).GetSize -
                        (pn.InsertNodeAfter a key b).GetSize / 2) })).setNode
                  t.NewPage.1 (.internal
                    { BPTreeInternalPage.Init t.NewPage.1 pn.parent_page_id_ pn.max_size_ with
                      entries := (BPTreeInternalPage.Init t.NewPage.1 pn.parent_page_id_
                        pn.max_size_).entries ++ (pn.InsertNodeAfter a key b).entries.drop
                          ((pn.InsertNodeAfter a key b).GetSize -
                            (pn.InsertNodeAfter a key b).GetSize / 2) })) fl2 :=
              AllocOK_congr t.NewPage.2 _ fl2 rh1 rh2 n1
            obtain ⟨-, ih2⟩ := InsertIntoParent_keeps _ _ _ _ _ t1 fl2 h hA3
            rw [← List.take_append_drop ((pn.InsertNodeAfter a key b).GetSize -
              (pn.InsertNodeAfter a key b).GetSize / 2)
              (pn.InsertNodeAfter a key b).entries] at hnew
            rcases List.mem_append.1 hnew with hm | hm
            · exact ih2 x.GetParentPageId _ (key, b) (fun h0 => hP1 (n6 _ h0))
                (by show x.GetParentPageId < t2.header.page_num_; rw [rh1]; omega)
                (by rw [nodes_setNode, if_neg hne, nodes_setNode, if_pos rfl]) hm
            · exact ih2 t.NewPage.1 _ (key, b) n4
                (by show t.NewPage.1 < t2.header.page_num_; rw [rh1]; exact n3)
                (by rw [nodes_setNode, if_pos rfl]) (List.mem_append_right _ hm)

theorem Insert_congr (la lb : BPTreeLeafPage) (key : Int) (v : RID)
    (h : la.entries = lb.entries) : (la.Insert key v).entries = (lb.Insert key v).entries := by
  simp only [BPTreeLeafPage.Insert, BPTreeLeafPage.KeyIndex, h]

theorem Insert_full_leaf (t : BPTreeIndex) (key : Int) (rid : RID) (X : Int)
    (l : BPTreeLeafPage) (hinv : t.Inv) (hroot : t.header.root_page_id_ ≠ INVALID_PAGE_ID)
    (hfind : t.FindLeafPage key false = some X) (hl : t.nodes X = some (.leaf l))
    (hfull : l.entries.length = l.max_size_) :
    ∃ t1 m r0 rest l1 n1,
      t.Insert key rid = some t1 ∧
      l.entries.length - l.entries.length / 2 = (l.entries.length + 1) / 2 ∧
      l.entries.drop ((l.entries.length + 1) / 2) = (m, r0) :: rest ∧
      (l.entries.take ((l.entries.length + 1) / 2)).length = (l.entries.length + 1) / 2 ∧
      ((m, r0) :: rest).length = l.entries.length / 2 ∧
      t1.nodes X = some (.leaf l1) ∧ t1.nodes t.NewPage.1 = some (.leaf n1) ∧
      l1.entries =
        (if key < m then
          (BPTreeLeafPage.Insert
            { l with entries := l.entries.take ((l.entries.length + 1) / 2) } key rid).entries
         else l.entries.take ((l.entries.length + 1) / 2)) ∧
      n1.entries =
        (if key < m then (m, r0) :: rest
         else (BPTreeLeafPage.Insert { l with entries := (m, r0) :: rest } key rid).entries) ∧
      n1.next_page_id_ = l.next_page_id_ ∧ l1.next_page_id_ = t.NewPage.1 ∧
      ∃ P nd, t1.nodes P = some (.internal nd) ∧ (m, t.NewPage.1) ∈ nd.entries := by
  have hinv0 := hinv
  obtain ⟨hl4, hi4, fl, hA, hcase⟩ := hinv
  rcases hcase with ⟨h0, -⟩ | ⟨h, hT⟩
  · exact absurd h0 hroot
  obtain ⟨lo0, hi0, f, hw0⟩ := hT.2.2.1
  have hw := WFSub_weaken t.nodes h _ _ _ _ _ _ (min lo0 key) (max hi0 (key + 1))
    (min_le_left _ _) (le_max_left _ _) hw0
  obtain ⟨q, q1, q2, q3, q4, q5, q6, l0, par, n, hl0, hwq⟩ :=
    FindLeafPage_of_TreeOK t none fl h hA hT key _ _ f hw (min_le_right _ _)
      (lt_of_lt_of_le (by omega) (le_max_right _ _))
  obtain ⟨qh, X0, qlo, qhi⟩ := q
  simp only at q1 q3 q4 q5 q6 hl0 hwq q2
  subst q1
  rw [hfind] at q3
  cases q3
  rw [hl] at hl0
  cases hl0
  obtain ⟨l2, w1, w2, w3, w4, w5, w6, w7, w8, w9⟩ := hwq
  rw [hl] at w1
  cases w1
  have hgl : t.getLeaf X = some l := by simp only [BPTreeIndex.getLeaf, hl]
  have hXmem : X ∈ pagesOf t.nodes h t.header.root_page_id_ :=
    (Site_sublist t.nodes _ _ q2).subset (mem_pagesOf_self _ _ _)
  have hXr := TreeOK_page t fl h hT X hXmem
  have hroom : ¬ l.entries.length < l.max_size_ := by omega
  have hlen : l.entries.length = 4 := by rw [hfull, w4]
  have hceil : l.entries.length - l.entries.length / 2 = (l.entries.length + 1) / 2 := by
    omega
  have hRlen := List.length_drop (l.entries.length - l.entries.length / 2) l.entries
  have hLlen := List.length_take (l.entries.length - l.entries.length / 2) l.entries
  cases hdrop : l.entries.drop (l.entries.length - l.entries.length / 2) with
  | nil => rw [hdrop] at hRlen; simp only [List.length_nil] at hRlen; omega
  | cons e rest =>
    obtain ⟨leaf3, new3, heq, a1, a2, a3, a4, b1, b2, b3, b4, hcase⟩ :=
      InsertIntoLeaf_split_eq t key rid X l e rest hfind hgl hroom hdrop
    obtain ⟨fl2, n1, n2, n3, n4, n5, n6, n7⟩ := NewPage_alloc t fl hA
    have hnn := NewPage_nodes t
    have hXN : X ≠ t.NewPage.1 := by
      intro h0
      rcases n5 with h1 | h1
      · rw [← h0] at h1; exact hXr.2.2.1 h1
      · rw [← h0] at h1; omega
    have hNfresh : t.NewPage.1 ∉ pagesOf t.nodes h t.header.root_page_id_ := by
      intro h0
      have := TreeOK_page t fl h hT _ h0
      rcases n5 with h1 | h1
      · exact this.2.2.1 h1
      · omega
    have h2X : ((t.NewPage.2.setNode X (.leaf leaf3)).setNode t.NewPage.1
        (.leaf new3)).nodes X = some (.leaf leaf3) := by
      rw [nodes_setNode, if_neg hXN, nodes_setNode, if_pos rfl]
    have h2N : ((t.NewPage.2.setNode X (.leaf leaf3)).setNode t.NewPage.1
        (.leaf new3)).nodes t.NewPage.1 = some (.leaf new3) := by
      rw [nodes_setNode, if_pos rfl]
    have hA2 : BPTreeIndex.AllocOK ((t.NewPage.2.setNode X (.leaf leaf3)).setNode t.NewPage.1
        (.leaf new3)) fl2 := AllocOK_congr t.NewPage.2 _ fl2 rfl rfl n1
    obtain ⟨t1, hI, -⟩ := Insert_ok t key rid hinv0
    have hI2 := hI
    unfold BPTreeIndex.Insert at hI2
    rw [if_neg hroot, heq] at hI2
    cases hP : InsertIntoParent
        ((t.NewPage.2.setNode X (.leaf leaf3)).setNode t.NewPage.1 (.leaf new3)).fuel
        ((t.NewPage.2.setNode X (.leaf leaf3)).setNode t.NewPage.1 (.leaf new3))
        X e.1 t.NewPage.1 with
    | none => rw [hP] at hI2; cases hI2
    | some t3 =>
      rw [hP] at hI2
      simp only [Option.some.injEq] at hI2
      have hn13 : t1.nodes = t3.nodes := by rw [← hI2]
      obtain ⟨k1, -⟩ := InsertIntoParent_keeps _ _ _ _ _ t3 fl2 hP hA2
      obtain ⟨lX, x1, x2, x3⟩ := k1 X leaf3 (fun h0 => hXr.2.2.1 (n6 X h0))
        (by show X < t.NewPage.2.header.page_num_; omega) h2X
      obtain ⟨lN, y1, y2, y3⟩ := k1 t.NewPage.1 new3 n4 n3 h2N
      have hlink := InsertIntoParent_links _ _ _ _ _ t3 fl2 (.leaf leaf3) hP hA2 h2X (by
        intro hnr
        have hpne : l.parent_page_id_ ≠ INVALID_PAGE_ID := by
          intro h0
          simp [BPTreePage.IsRoot, BPTreePage.GetParentPageId, a2, h0] at hnr
        have hh : 0 < h := by
          rcases Nat.eq_zero_or_pos h with h0 | h0
          · exfalso
            subst h0
            have := Site_eq_of_height t.nodes _ _ q2 rfl
            simp only [Pos.mk.injEq, true_and] at this
            obtain ⟨l5, v1, v2, v3, -⟩ := hw
            rw [← this.1, hl] at v1
            cases v1
            exact hpne v3
          · exact h0
        obtain ⟨p, hp1, hp2⟩ := Site_parent t.nodes _ _ q2 hh
        obtain ⟨par1, f1, n1', hwp⟩ := Site_wf t.nodes _ p hp1 _ _ _ hw
        obtain ⟨f2, n2', hwc⟩ := ChildStep_wf t.nodes p _ hp2 _ _ _ hwp
        obtain ⟨l6, u1, u2, u3, -⟩ := hwc
        simp only at u1 u3
        rw [hl] at u1
        cases u1
        obtain ⟨nd, -, hnd, hkid⟩ := hp2
        obtain ⟨e0, he0, he1⟩ := mem_kidBounds_child _ _ _ _ hkid
        have hpm : p.pid ∈ pagesOf t.nodes h t.header.root_page_id_ :=
          (Site_sublist t.nodes _ _ hp1).subset (mem_pagesOf_self _ _ _)
        have hpr := TreeOK_page t fl h hT _ hpm
        have hpX : p.pid ≠ X := by
          intro h0
          rw [h0, hl] at hnd
          cases hnd
        have hpN : p.pid ≠ t.NewPage.1 := fun h0 => hNfresh (h0 ▸ hpm)
        refine ⟨nd, ?_, List.mem_map.2 ⟨e0, he0, he1⟩, ?_, ?_⟩
        · show _ = some (BPTreePage.internal nd)
          simp only [BPTreePage.GetParentPageId, a2, u3]
          rw [nodes_setNode, if_neg hpN, nodes_setNode, if_neg hpX, hnn]
          exact hnd
        · simp only [BPTreePage.GetParentPageId, a2, u3]
          exact fun h0 => hpr.2.2.1 (n6 _ h0)
        · simp only [BPTreePage.GetParentPageId, a2, u3]
          show p.pid < t.NewPage.2.header.page_num_
          omega)
      obtain ⟨P, nd, hP1, hP2⟩ := hlink
      rw [hceil] at hdrop hLlen
      refine ⟨t1, e.1, e.2, rest, lX, lN, hI, hceil, hdrop, ?_, ?_, by rw [hn13]; exact x1,
        by rw [hn13]; exact y1, ?_, ?_, by rw [y3, b4], by rw [x3, a4],
        P, nd, by rw [hn13]; exact hP1, hP2⟩
      · rw [hLlen]; omega
      · rw [← hdrop, List.length_drop]; omega
      · rw [x2]
        rcases hcase with ⟨c1, la, c2, c3, c4⟩ | ⟨c1, lb, c2, c3, c4⟩
        · rw [if_pos c1, c3]
          exact Insert_congr _ _ _ _ (by rw [c2, hceil])
        · rw [if_neg c1, c3, hceil]
      · rw [y2]
        rcases hcase with ⟨c1, la, c2, c3, c4⟩ | ⟨c1, lb, c2, c3, c4⟩
        · rw [if_pos c1, c4]
        · rw [if_neg c1, c4]
          exact Insert_congr _ _ _ _ c2

/-- C33: in a state reachable by `Insert`, `Delete` and `Clear`, let the
descent of `Insert(key, rid)` end in the leaf `l` on page `X`, and let `l` be
full (`size = max_size`).  Then `Insert` returns, and in the state it leaves:
`X` holds the first `⌈size/2⌉` entries of `l` and the new page, the one
`NewPage` hands out, the remaining `⌊size/2⌋` entries in their order; with `m`
the first key moved, the new entry is inserted in key order on `X` if
`key < m` and on the new page otherwise; the `next_page_id_` of the new leaf
is the old one of `l` and that of `X` is the new page; and an internal node
holds the entry `(m, new page)`, the separator `InsertIntoParent` was called
with. -/
theorem C33_full_leaf_split (t : BPTreeIndex) (key : Int) (rid : RID) (X : Int)
    (l : BPTreeLeafPage) (hr : t.Reachable)
    (hroot : t.header.root_page_id_ ≠ INVALID_PAGE_ID)
    (hfind : t.FindLeafPage key false = some X) (hl : t.nodes X = some (.leaf l))
    (hfull : l.entries.length = l.max_size_) :
    ∃ t1 m r0 rest l1 n1,
      t.Insert key rid = some t1 ∧
      l.entries.length - l.entries.length / 2 = (l.entries.length + 1) / 2 ∧
      l.entries.drop ((l.entries.length + 1) / 2) = (m, r0) :: rest ∧
      (l.entries.take ((l.entries.length + 1) / 2)).length = (l.entries.length + 1) / 2 ∧
      ((m, r0) :: rest).length = l.entries.length / 2 ∧
      t1.nodes X = some (.leaf l1) ∧ t1.nodes t.NewPage.1 = some (.leaf n1) ∧
      l1.entries =
        (if key < m then
          (BPTreeLeafPage.Insert
            { l with entries := l.entries.take ((l.entries.length + 1) / 2) } key rid).entries
         else l.entries.take ((l.entries.length + 1) / 2)) ∧
      n1.entries =
        (if key < m then (m, r0) :: rest
         else (BPTreeLeafPage.Insert { l with entries := (m, r0) :: rest } key rid).entries) ∧
      n1.next_page_id_ = l.next_page_id_ ∧ l1.next_page_id_ = t.NewPage.1 ∧
      ∃ P nd, t1.nodes P = some (.internal nd) ∧ (m, t.NewPage.1) ∈ nd.entries :=
  Insert_full_leaf t key rid X l (Reachable_Inv t hr) hroot hfind hl hfull

set_option maxRecDepth 100000 in
/-- Witness for C33: inserting 25 into the full leaf `[10, 20, 30, 40]` leaves
the root `[(_, 1), (30, 2)]` on page 3 over the leaves `[10, 20, 25]` (page 1,
next page 2) and `[30, 40]` (page 2, no next page). -/
theorem C33_full_leaf_split_witness :
    (fourTens.Insert 25 ⟨25, 0⟩).map (fun t => t.header.root_page_id_) = some 3 ∧
    (fourTens.Insert 25 ⟨25, 0⟩).map (fun t => (t.getInternal 3).map (fun nd => nd.entries)) =
      some (some [(0, 1), (30, 2)]) ∧
    (fourTens.Insert 25 ⟨25, 0⟩).map (fun t =>
      (t.getLeaf 1).map (fun l => (l.entries.map Prod.fst, l.next_page_id_))) =
      some (some ([10, 20, 25], 2)) ∧
    (fourTens.Insert 25 ⟨25, 0⟩).map (fun t =>
      (t.getLeaf 2).map (fun l => (l.entries.map Prod.fst, l.next_page_id_))) =
      some (some ([30, 40], INVALID_PAGE_ID)) ∧
    (fourTens.NewPage.1 = 2 ∧
    ∃ t1 m r0 rest l1 n1,
      fourTens.Insert 25 (⟨25, 0⟩ : RID) = some t1 ∧
      fourTensLeaf.entries.length - fourTensLeaf.entries.length / 2 = (fourTensLeaf.entries.length + 1) / 2 ∧
      fourTensLeaf.entries.drop ((fourTensLeaf.entries.length + 1) / 2) = (m, r0) :: rest ∧
      (fourTensLeaf.entries.take ((fourTensLeaf.entries.length + 1) / 2)).length = (fourTensLeaf.entries.length + 1) / 2 ∧
      ((m, r0) :: rest).length = fourTensLeaf.entries.length / 2 ∧
      t1.nodes 1 = some (.leaf l1) ∧ t1.nodes fourTens.NewPage.1 = some (.leaf n1) ∧
      l1.entries =
        (if 25 < m then
          (BPTreeLeafPage.Insert
            { fourTensLeaf with entries := fourTensLeaf.entries.take ((fourTensLeaf.entries.length + 1) / 2) } 25 (⟨25, 0⟩ : RID)).entries
         else fourTensLeaf.entries.take ((fourTensLeaf.entries.length + 1) / 2)) ∧
      n1.entries =
        (if 25 < m then (m, r0) :: rest
         else (BPTreeLeafPage.Insert { fourTensLeaf with entries := (m, r0) :: rest } 25 (⟨25, 0⟩ : RID)).entries) ∧
      n1.next_page_id_ = fourTensLeaf.next_page_id_ ∧ l1.next_page_id_ = fourTens.NewPage.1 ∧
      ∃ P nd, t1.nodes P = some (.internal nd) ∧ (m, fourTens.NewPage.1) ∈ nd.entries) :=
  ⟨by decide, by decide, by decide, by decide, by decide,
    C33_full_leaf_split fourTens 25 ⟨25, 0⟩ 1 fourTensLeaf (Reachable_afterInserts _)
      (by decide) (by decide) rfl rfl⟩

end BPTreeIndex

/-! ## B+tree: sizes of the nodes other than the root (claim C31) -/

/-- Every page of a well-formed subtree holds a node of maximum size 4. -/
theorem WFSub_page_node (nodes : Int → Option BPTreePage) :
    ∀ (h : Nat) (pid par lo hi f n : Int), WFSub nodes h pid par lo hi f n →
      ∀ y ∈ pagesOf nodes h pid, ∃ x, nodes y = some x ∧ x.GetMaxSize = 4 := by
  intro h
  induction h with
  | zero =>
    intro pid par lo hi f n hw y hy
    obtain ⟨l, a1, a2, a3, a4, -⟩ := hw
    simp only [pagesOf, List.mem_singleton] at hy
    rw [hy]
    exact ⟨.leaf l, a1, a4⟩
  | succ h ih =>
    intro pid par lo hi f n hw y hy
    obtain ⟨nd, a1, a2, a3, a4, hk⟩ := hw
    rw [pagesOf_succ nodes h pid nd a1] at hy
    rcases List.mem_cons.1 hy with h0 | h0
    · rw [h0]
      exact ⟨.internal nd, a1, a4⟩
    · obtain ⟨e, he, hye⟩ := List.mem_flatMap.1 h0
      obtain ⟨l, u, f1, n1, hc⟩ := BPTreeIndex.KidsOK_all _ _ _ _ _ hk e he
      exact ih e.2 pid l u f1 n1 hc y hye

theorem IsSafe_delete_non_root (x : BPTreePage) (hr : x.IsRoot = false) :
    x.IsSafe false = true ↔ (x.GetMaxSize + 1) / 2 < x.GetSize := by
  unfold BPTreePage.IsSafe
  simp only [Bool.false_eq_true, if_false, hr, decide_eq_true_eq, gt_iff_lt]

theorem IsSafe_delete_root (x : BPTreePage) (hr : x.IsRoot = true) :
    x.IsSafe false = true ↔ (if x.IsLeaf = true then 1 else 2) < x.GetSize := by
  unfold BPTreePage.IsSafe
  simp only [Bool.false_eq_true, if_false, hr, if_true, decide_eq_true_eq, gt_iff_lt]

namespace BPTreeIndex

theorem Inv_SizeBounds (t : BPTreeIndex) (hinv : t.Inv) : t.SizeBounds := by
  intro p hp hne
  unfold treePages at hp
  by_cases hroot : t.header.root_page_id_ = INVALID_PAGE_ID
  · rw [if_pos hroot] at hp; cases hp
  · rw [if_neg hroot] at hp
    obtain ⟨-, -, fl, hA, hcase⟩ := hinv
    rcases hcase with ⟨h0, -⟩ | ⟨h, hT⟩
    · exact absurd h0 hroot
    obtain ⟨lo, hi, f, hw⟩ := hT.2.2.1
    rw [hT.2.1] at hp
    have : ((h : Int) + 1).toNat - 1 = h := by omega
    rw [this] at hp
    obtain ⟨x, hx, hmax⟩ := WFSub_page_node t.nodes h _ _ _ _ _ _ hw p hp
    have hpar := WFSub_parent_ne _ _ _ _ _ _ _ _ hw (fun y hy => (hT.2.2.2.2 y hy).1) p hp
      (Or.inl hne) x hx
    have hfill := (hT.2.2.2.2 p hp).2.2.2 x hx (by simp)
    refine ⟨x, hx, ?_, ?_⟩
    · unfold BPTreePage.IsRoot
      exact decide_eq_false hpar
    · rw [hmax]
      cases x with
      | leaf l =>
        have h2 : 2 ≤ l.entries.length := hfill.2.2 hpar
        exact ⟨h2, fun _ => hfill.1⟩
      | internal nd =>
        have h2 : 2 ≤ nd.entries.length := hfill
        refine ⟨h2, fun h0 => ?_⟩
        cases h0

set_option maxRecDepth 100000 in
/-- C31 as stated fails on the code.  After the insertions of the keys 1 .. 5
the tree has the root on page 3 and the leaves on pages 1 and 2; the leaf of
page 1 is not the root, has `max_size` 4 and holds the two keys 1 and 2,
fewer than `⌈(4 + 1) / 2⌉ = 3`.  The leaf of page 2 is not the root and holds
three keys, and `IsSafe(false)` answers true for it: the minimum that
`IsSafe(false)` uses for a non-root node is below 3. -/
theorem C31_non_root_leaf_below_ceiling :
    fiveKeys.Reachable ∧ fiveKeys.treePages = [3, 1, 2] ∧
    fiveKeys.header.root_page_id_ = 3 ∧
    (fiveKeys.getLeaf 1).map (fun l => l.entries.map Prod.fst) = some [1, 2] ∧
    (fiveKeys.getLeaf 1).map (fun l => l.max_size_) = some 4 ∧
    specMinSize 4 = 3 ∧
    ¬ fiveKeys.SpecSizeBounds ∧
    (fiveKeys.getLeaf 2).map (fun l => (BPTreePage.leaf l).GetSize) = some (specMinSize 4) ∧
    (fiveKeys.getLeaf 2).map (fun l => (BPTreePage.leaf l).GetMaxSize) = some 4 ∧
    (fiveKeys.getLeaf 2).map (fun l => (BPTreePage.leaf l).IsRoot) = some false ∧
    (fiveKeys.getLeaf 2).map (fun l => (BPTreePage.leaf l).IsSafe false) = some true := by
  have hmem : (1 : Int) ∈ fiveKeys.treePages := by decide
  have hne : (1 : Int) ≠ fiveKeys.header.root_page_id_ := by decide
  refine ⟨Reachable_afterInserts _, by decide, by decide, by decide, by decide, by decide, ?_,
    by decide, by decide, by decide, by decide⟩
  intro hall
  have he : (fiveKeys.getLeaf 1).map (fun l => (l.entries.length, l.max_size_)) =
      some (2, 4) := by decide
  unfold getLeaf at he
  cases hx : fiveKeys.nodes 1 with
  | none => rw [hx] at he; cases he
  | some x =>
    rw [hx] at he
    cases x with
    | internal nd => cases he
    | leaf l =>
      simp only [Option.map_some', Option.some.injEq, Prod.mk.injEq] at he
      have hs := (hall 1 hmem hne _ hx).1
      have h1 : specMinSize l.max_size_ ≤ l.entries.length := hs
      rw [he.1, he.2] at h1
      revert h1
      decide

/-- C31, amended: in every state reachable by `Insert`, `Delete` and `Clear`,
every page of the tree other than the root holds a node that is not a root and
has `(max_size + 1) / 2 ≤ size`, with the quotient of the integer division
(2 for the maximum size 4), and `size ≤ max_size` when it is a leaf.  The
quotient `(max_size + 1) / 2` is the minimum `IsSafe(false)` uses for a node
that is not a root: it answers true exactly when the size is greater; for a
root it answers true exactly when the size is greater than 1 for a leaf and
greater than 2 for an internal node. -/
theorem C31_non_root_node_sizes (t : BPTreeIndex) (hr : t.Reachable) :
    t.SizeBounds ∧
    (∀ x : BPTreePage, x.IsRoot = false →
      (x.IsSafe false = true ↔ (x.GetMaxSize + 1) / 2 < x.GetSize)) ∧
    (∀ x : BPTreePage, x.IsRoot = true →
      (x.IsSafe false = true ↔ (if x.IsLeaf = true then 1 else 2) < x.GetSize)) :=
  ⟨Inv_SizeBounds t (Reachable_Inv t hr), IsSafe_delete_non_root, IsSafe_delete_root⟩

set_option maxRecDepth 100000 in
/-- Witness for the amended C31 after the insertions of the keys 1 .. 10: the
tree has the root on page 3 and four leaves, and the bounds hold in it. -/
theorem C31_non_root_node_sizes_witness :
    tenKeys.Reachable ∧ tenKeys.treePages = [3, 1, 2, 4, 5] ∧
    (tenKeys.SizeBounds ∧
    (∀ x : BPTreePage, x.IsRoot = false →
      (x.IsSafe false = true ↔ (x.GetMaxSize + 1) / 2 < x.GetSize)) ∧
    (∀ x : BPTreePage, x.IsRoot = true →
      (x.IsSafe false = true ↔ (if x.IsLeaf = true then 1 else 2) < x.GetSize))) :=
  ⟨Reachable_afterInserts _, by decide,
    C31_non_root_node_sizes tenKeys (Reachable_afterInserts _)⟩

end BPTreeIndex

namespace BPTreeIndex

set_option maxRecDepth 1000000 in
/-- The test `GetSize() <= GetMaxSize()` of `InsertIntoParent` lets an internal
node take one child more than `max_size`: after the insertions of the keys
1 .. 17 the internal node of page 8, a child of the root on page 9, has
`max_size` 4 and five children. -/
theorem internal_node_over_max_size :
    seventeenKeys.Reachable ∧
    seventeenKeys.treePages = [9, 3, 1, 2, 4, 8, 5, 6, 7, 10, 11] ∧
    seventeenKeys.header.root_page_id_ = 9 ∧
    (seventeenKeys.getInternal 8).map
      (fun nd => (nd.entries.length, nd.max_size_, nd.parent_page_id_)) = some (5, 4, 9) :=
  ⟨Reachable_afterInserts _, by decide, by decide, by decide⟩

end BPTreeIndex

/-! ## B+tree: every page is live or free (claim C35) -/

namespace BPTreeIndex

theorem Reachable_afterDelete (t : BPTreeIndex) (key : Int) (hr : t.Reachable) :
    (t.afterDelete key).Reachable := by
  unfold afterDelete
  cases h : t.Delete key with
  | none => exact hr
  | some r => exact Reachable.delete t key r hr h

theorem FreeChain_head (next_free : Int → Int) (first : Int) (fl : List Int)
    (h : FreeChain next_free first fl) :
    (first ≠ INVALID_PAGE_ID → fl.head? = some first) ∧ (first = INVALID_PAGE_ID → fl = []) := by
  cases fl with
  | nil =>
    have h1 : first = INVALID_PAGE_ID := h
    exact ⟨fun h0 => absurd h1 h0, fun _ => rfl⟩
  | cons p ps =>
    obtain ⟨h1, h2, -⟩ := h
    refine ⟨fun _ => by rw [h1]; rfl, fun h0 => ?_⟩
    rw [h0] at h1
    exact absurd h1.symm h2

theorem NewPage_not_live (t : BPTreeIndex) (hinv : t.Inv) : t.NewPage.1 ∉ t.treePages := by
  obtain ⟨-, -, fl, hA, hcase⟩ := hinv
  obtain ⟨fl1, -, -, -, -, b5, -⟩ := NewPage_alloc t fl hA
  rcases hcase with ⟨h0, -⟩ | ⟨h, hT⟩
  · unfold treePages
    rw [if_pos h0]
    simp
  · rw [treePages_of_TreeOK t none fl h hT]
    intro hp
    have := hT.2.2.2.2 _ hp
    rcases b5 with h1 | h1
    · exact this.2.2.1 h1
    · omega

theorem treePages_hold_nodes (t : BPTreeIndex) (hinv : t.Inv) :
    ∀ p ∈ t.treePages, ∃ x, t.nodes p = some x := by
  intro p hp
  obtain ⟨-, -, fl, hA, hcase⟩ := hinv
  rcases hcase with ⟨h0, -⟩ | ⟨h, hT⟩
  · unfold treePages at hp
    rw [if_pos h0] at hp
    cases hp
  · rw [treePages_of_TreeOK t none fl h hT] at hp
    obtain ⟨lo, hi, f, hw⟩ := hT.2.2.1
    obtain ⟨x, hx, -⟩ := WFSub_page_node t.nodes h _ _ _ _ _ _ hw p hp
    exact ⟨x, hx⟩

theorem live_not_free (t : BPTreeIndex) (hinv : t.Inv) (fl : List Int) (hA : t.AllocOK fl) :
    ∀ p ∈ t.treePages, p ∉ fl := by
  intro p hp
  obtain ⟨-, -, fl0, hA0, hcase⟩ := hinv
  rw [AllocOK_unique t fl fl0 hA hA0]
  rcases hcase with ⟨h0, -⟩ | ⟨h, hT⟩
  · unfold treePages at hp
    rw [if_pos h0] at hp
    cases hp
  · rw [treePages_of_TreeOK t none fl0 h hT] at hp
    exact (hT.2.2.2.2 p hp).2.2.1

/-- C35: in every state reachable by `Insert`, `Delete` and `Clear` the chain
from `first_free_page_id_` along the next-free links visits a list `fl` of
pairwise different pages and ends at `INVALID_PAGE_ID` (it is acyclic), and
every page id `p` with `0 < p < page_num_` is exactly one of: a page of the
tree below the root (such a page holds a node), or a member of `fl`.
`NewPage` returns the head of the chain and makes its successor the head when
the chain is not empty, otherwise it returns the old `page_num_` and
increments it; the page it returns is not a page of the tree. -/
theorem C35_page_is_live_or_free (t : BPTreeIndex) (hr : t.Reachable) :
    ∃ fl, FreeChain t.next_free t.header.first_free_page_id_ fl ∧ fl.Nodup ∧
      (∀ p, 0 < p → p < t.header.page_num_ →
        (p ∈ t.treePages ∧ p ∉ fl) ∨ (p ∉ t.treePages ∧ p ∈ fl)) ∧
      (∀ p ∈ t.treePages, ∃ x, t.nodes p = some x) ∧
      (t.header.first_free_page_id_ ≠ INVALID_PAGE_ID →
        fl.head? = some t.NewPage.1 ∧
        t.NewPage.1 = t.header.first_free_page_id_ ∧
        t.NewPage.2.header.first_free_page_id_ = t.next_free t.header.first_free_page_id_ ∧
        t.NewPage.2.header.page_num_ = t.header.page_num_) ∧
      (t.header.first_free_page_id_ = INVALID_PAGE_ID →
        fl = [] ∧ t.NewPage.1 = t.header.page_num_ ∧
        t.NewPage.2.header.page_num_ = t.header.page_num_ + 1 ∧
        t.NewPage.2.header.first_free_page_id_ = INVALID_PAGE_ID) ∧
      t.NewPage.1 ∉ t.treePages := by
  have hinv := Reachable_Inv t hr
  have hcov := Reachable_Covered t hr
  obtain ⟨-, -, fl, hA, -⟩ := id hinv
  have hhead := FreeChain_head t.next_free _ fl hA.2.1
  refine ⟨fl, hA.2.1, hA.2.2.1, ?_, treePages_hold_nodes t hinv, ?_, ?_, NewPage_not_live t hinv⟩
  · intro p hp1 hp2
    by_cases hp : p ∈ t.treePages
    · exact Or.inl ⟨hp, live_not_free t hinv fl hA p hp⟩
    · rcases hcov fl hA p (by omega) hp2 with h0 | h0
      · exact absurd h0 hp
      · exact Or.inr ⟨hp, h0⟩
  · intro hf
    have h1 : t.NewPage.1 = t.header.first_free_page_id_ := by
      unfold NewPage
      rw [if_pos hf]
    refine ⟨by rw [h1]; exact hhead.1 hf, h1, ?_, ?_⟩
    · unfold NewPage
      rw [if_pos hf]
    · unfold NewPage
      rw [if_pos hf]
  · intro hf
    have hf2 : ¬ t.header.first_free_page_id_ ≠ INVALID_PAGE_ID := fun h0 => h0 hf
    refine ⟨hhead.2 hf, ?_, ?_, ?_⟩
    · unfold NewPage
      rw [if_neg hf2]
    · unfold NewPage
      rw [if_neg hf2]
    · unfold NewPage
      rw [if_neg hf2]
      exact hf

set_option maxRecDepth 100000 in
/-- Witness for C35 at the state the insertions of 10, 20, 30, 40, 25 and
`Delete(40)` leave: the file has the pages 1, 2, 3 after the header page, the
tree is the leaf on page 1, and the free chain runs from page 3 to page 2. -/
theorem C35_page_is_live_or_free_witness :
    splitOnceLess40.Reachable ∧ splitOnceLess40.header.page_num_ = 4 ∧
    splitOnceLess40.treePages = [1] ∧ splitOnceLess40.header.first_free_page_id_ = 3 ∧
    splitOnceLess40.next_free 3 = 2 ∧ splitOnceLess40.next_free 2 = INVALID_PAGE_ID ∧
    splitOnceLess40.NewPage.1 = 3 ∧
    ∃ fl, FreeChain splitOnceLess40.next_free splitOnceLess40.header.first_free_page_id_ fl ∧
      fl.Nodup ∧
      (∀ p, 0 < p → p < splitOnceLess40.header.page_num_ →
        (p ∈ splitOnceLess40.treePages ∧ p ∉ fl) ∨ (p ∉ splitOnceLess40.treePages ∧ p ∈ fl)) ∧
      (∀ p ∈ splitOnceLess40.treePages, ∃ x, splitOnceLess40.nodes p = some x) ∧
      (splitOnceLess40.header.first_free_page_id_ ≠ INVALID_PAGE_ID →
        fl.head? = some splitOnceLess40.NewPage.1 ∧
        splitOnceLess40.NewPage.1 = splitOnceLess40.header.first_free_page_id_ ∧
        splitOnceLess40.NewPage.2.header.first_free_page_id_ =
          splitOnceLess40.next_free splitOnceLess40.header.first_free_page_id_ ∧
        splitOnceLess40.NewPage.2.header.page_num_ = splitOnceLess40.header.page_num_) ∧
      (splitOnceLess40.header.first_free_page_id_ = INVALID_PAGE_ID →
        fl = [] ∧ splitOnceLess40.NewPage.1 = splitOnceLess40.header.page_num_ ∧
        splitOnceLess40.NewPage.2.header.page_num_ = splitOnceLess40.header.page_num_ + 1 ∧
        splitOnceLess40.NewPage.2.header.first_free_page_id_ = INVALID_PAGE_ID) ∧
      splitOnceLess40.NewPage.1 ∉ splitOnceLess40.treePages :=
  ⟨Reachable_afterDelete _ _ (Reachable_afterInserts _), by decide, by decide, by decide,
    by decide, by decide, by decide,
    C35_page_is_live_or_free splitOnceLess40
      (Reachable_afterDelete _ _ (Reachable_afterInserts _))⟩

end BPTreeIndex

end njudb
